import Mathlib

/-!
# Bead / column multialignment engine (`src/AS_CNS/MultiAlignment_CNS.c`)

A shallow embedding of the bead-and-column graph, the abacus refinement
routines and the alignment-trace integrator.

Conventions of the embedding.

* The variable arrays (`beadStore`, `columnStore`, `sequenceStore`, ...) are
  lists; an `int32` index is an `Int`, the sentinel `-1` included.
  `GetBead`, `GetColumn`, ... return `none` where the C accessor returns
  `NULL` (negative or past-the-end index).
* Every routine returns an `Option`: `none` stands for `CleanExit`, for a
  dereferenced `NULL`, and for a walk that exhausts its fuel (a loop that
  would not terminate on a cyclic chain).
* Pointer writes are replayed in source order against the store, each one
  reading the store as it is at that point, so aliasing between `leftbead`,
  `rightbead`, `call`, ... behaves as in C.
-/

namespace CNS

/-! ## Stores -/

/-- One aligned character occurrence (`Bead` of `MultiAlignment_CNS.h`). -/
structure Bead where
  boffset : Int
  soffset : Int
  foffset : Int
  prev : Int
  next : Int
  up : Int
  down : Int
  frag_index : Int
  column_index : Int
  deriving DecidableEq

/-- Character profile of a column: `count[CNS_NALPHABET]` and `depth`. -/
structure BaseCount where
  count : List Int
  depth : Int
  deriving DecidableEq

/-- One column of the multialignment. -/
structure Column where
  lid : Int
  call : Int
  next : Int
  prev : Int
  ma_id : Int
  ma_index : Int
  base_count : BaseCount
  deriving DecidableEq

/-- Multialignment node: head and tail column and the materialised list. -/
structure MANode where
  lid : Int
  iid : Int
  first : Int
  last : Int
  columns : List Int
  deriving DecidableEq

/-- A participating sequence.  `type` and `utype` are the character codes of
`FragType` and `UnitigType`. -/
structure Fragment where
  lid : Int
  iid : Int
  type : Char
  utype : Char
  complement : Int
  contained : Int
  deleted : Int
  manode : Int
  sequence : Int
  quality : Int
  beads : Int
  length : Int
  deriving DecidableEq

/-- The process-wide arenas of the consensus module. -/
structure Store where
  beadStore : List Bead
  sequenceStore : List Char
  qualityStore : List Char
  columnStore : List Column
  manodeStore : List MANode
  fragmentStore : List Fragment
  abacus_indices : List Int
  gaps_in_alignment : Int
  deriving DecidableEq

/-- Element access of a variable array: `NULL` for an index that is negative
(it wraps to a huge `size_t`) or not below the number of elements. -/
def getAt {α : Type} (l : List α) (i : Int) : Option α :=
  if i < 0 then none else l[i.toNat]?

/-- In-place write through a pointer obtained from `getAt`. -/
def setAt {α : Type} (l : List α) (i : Int) (a : α) : List α :=
  if i < 0 then l else l.set i.toNat a

def GetBead (st : Store) (i : Int) : Option Bead := getAt st.beadStore i

def GetColumn (st : Store) (i : Int) : Option Column := getAt st.columnStore i

def GetMANode (st : Store) (i : Int) : Option MANode := getAt st.manodeStore i

def GetFragment (st : Store) (i : Int) : Option Fragment := getAt st.fragmentStore i

/-- The base character a bead offset points at: `*Getchar(sequenceStore, s)`. -/
def GetBase (st : Store) (s : Int) : Option Char := getAt st.sequenceStore s

/-- Write through a bead pointer: `GetBead(beadStore, i)->field = ...`. -/
def modBead (st : Store) (i : Int) (f : Bead → Bead) : Option Store :=
  match GetBead st i with
  | none => none
  | some b => some { st with beadStore := setAt st.beadStore i (f b) }

/-- Write through a column pointer. -/
def modColumn (st : Store) (i : Int) (f : Column → Column) : Option Store :=
  match GetColumn st i with
  | none => none
  | some c => some { st with columnStore := setAt st.columnStore i (f c) }

/-- Write through a MANode pointer. -/
def modMANode (st : Store) (i : Int) (f : MANode → MANode) : Option Store :=
  match GetMANode st i with
  | none => none
  | some m => some { st with manodeStore := setAt st.manodeStore i (f m) }

/-- `if (x != -1) GetBead(beadStore, x)->field = v`. -/
def patchBead (st : Store) (x : Int) (f : Bead → Bead) : Option Store :=
  if x ≠ -1 then modBead st x f else some st

/-- `if (x > -1) GetBead(beadStore, x)->field = v`. -/
def linkBead (st : Store) (x : Int) (f : Bead → Bead) : Option Store :=
  if x > -1 then modBead st x f else some st

/-- `if (x != -1) GetColumn(columnStore, x)->field = v`. -/
def patchColumn (st : Store) (x : Int) (f : Column → Column) : Option Store :=
  if x ≠ -1 then modColumn st x f else some st

/-- `if (x > -1) GetColumn(columnStore, x)->field = v`. -/
def linkColumn (st : Store) (x : Int) (f : Column → Column) : Option Store :=
  if x > -1 then modColumn st x f else some st

/-- A guarded write through a MANode pointer: `if (c) manode->field = v`. -/
def modMANodeIf (c : Bool) (st : Store) (i : Int) (f : MANode → MANode) : Option Store :=
  if c then modMANode st i f else some st

/-- The stores as `ResetStores` leaves them: all arenas empty. -/
def ResetStores : Store :=
  { beadStore := [], sequenceStore := [], qualityStore := [], columnStore := [],
    manodeStore := [], fragmentStore := [], abacus_indices := [],
    gaps_in_alignment := 0 }

/-! ## Alphabet and base counts -/

/-- Number of tallied symbols.  `MultiAlignment_CNS.h` is not part of the
sources at hand; the value is fixed by the uses in the C file: the array
`bases[CNS_NALPHABET] = {'-','A','C','G','T','N'}`, the loops
`bi < CNS_NALPHABET-1` commented "to exclude n base call", and
`count[CNS_NALPHABET-1]` commented "don't count n's". -/
def CNS_NALPHABET : Nat := 6

/-- The leading entries of the table `RALPHABET` (`Globals_CNS.h`, absent):
the six tallied symbols in index order, as listed by `GetConsensusForAbacus`. -/
def RALPHABET : List Char := ['-', 'A', 'C', 'G', 'T', 'N']

/-- The table `RINDEX` after `InitializeAlphTable`: 31 by default, the index
in `RALPHABET` for a listed character. -/
def RINDEX (c : Char) : Int :=
  if c ∈ RALPHABET then (RALPHABET.indexOf c : Nat) else 31

def BaseToInt (c : Char) : Int := RINDEX c

/-- The slot `IncBaseCount`, `DecBaseCount` and `GetBaseCount` use for `c`. -/
def countIndex (c : Char) : Int :=
  if c = 'N' ∨ c = 'n' then 5 else BaseToInt c

/-- `ResetBaseCount`: the zeroed profile. -/
def ResetBaseCount : BaseCount := { count := List.replicate CNS_NALPHABET 0, depth := 0 }

def IncBaseCount (b : BaseCount) (c : Char) : Option BaseCount :=
  let i := countIndex c
  if i < 0 ∨ i > 5 then none
  else some { count := setAt b.count i ((getAt b.count i).getD 0 + 1), depth := b.depth + 1 }

def DecBaseCount (b : BaseCount) (c : Char) : Option BaseCount :=
  let i := countIndex c
  if i < 0 ∨ i > 5 then none
  else some { count := setAt b.count i ((getAt b.count i).getD 0 - 1), depth := b.depth - 1 }

def GetBaseCount (b : BaseCount) (c : Char) : Int :=
  (getAt b.count (countIndex c)).getD 0

def GetDepth (c : Column) : Int := c.base_count.depth

/-- `IncBaseCount(&column->base_count, c)` on the column stored at `cid`. -/
def incColumn (st : Store) (cid : Int) (c : Char) : Option Store :=
  match GetColumn st cid with
  | none => none
  | some col =>
    match IncBaseCount col.base_count c with
    | none => none
    | some bc => some { st with columnStore := setAt st.columnStore cid { col with base_count := bc } }

/-- `DecBaseCount(&column->base_count, c)` on the column stored at `cid`. -/
def decColumn (st : Store) (cid : Int) (c : Char) : Option Store :=
  match GetColumn st cid with
  | none => none
  | some col =>
    match DecBaseCount col.base_count c with
    | none => none
    | some bc => some { st with columnStore := setAt st.columnStore cid { col with base_count := bc } }

/-! ## Fragments and MANodes -/

/-- The beads `AppendArtificialFragToLocalStore` lays down for a fragment of
`len` characters whose first bead is `boffset` and first character `soffset`. -/
def fragmentBeads (lid boffset soffset : Int) (len : Nat) : List Bead :=
  (List.range len).map fun (k : Nat) =>
    { boffset := boffset + k, soffset := soffset + k, foffset := k,
      prev := if k = 0 then -1 else boffset + k - 1,
      next := if k + 1 = len then -1 else boffset + k + 1,
      up := -1, down := -1, frag_index := lid, column_index := -1 }

/-- `AppendArtificialFragToLocalStore` on the call path `complement = 0`:
the sequence and quality strings are appended with their terminating NUL,
one unaligned bead per character is written, and the fragment record is
appended.  The field `manode` is left unset by the source; it reads `-1`
here.  A quality string shorter than the sequence would be read past its end;
the missing characters read `'0'` here. -/
def AppendArtificialFragToLocalStore (st : Store) (type : Char) (iid : Int) (contained : Int)
    (utype : Char) (seq qlt : List Char) : Store × Int :=
  let lid : Int := st.fragmentStore.length
  let len := seq.length
  let frag : Fragment :=
    { lid := lid, iid := iid, type := type, utype := utype, complement := 0,
      contained := contained, deleted := 0, manode := -1,
      sequence := st.sequenceStore.length, quality := st.qualityStore.length,
      beads := st.beadStore.length, length := len }
  ({ st with
      sequenceStore := st.sequenceStore ++ seq ++ [Char.ofNat 0],
      qualityStore := st.qualityStore ++ (qlt.take len) ++ List.replicate (len - qlt.length) '0'
        ++ [Char.ofNat 0],
      beadStore := st.beadStore ++ fragmentBeads lid st.beadStore.length st.sequenceStore.length len,
      fragmentStore := st.fragmentStore ++ [frag] }, lid)

/-- `CreateMANode`: a fresh node without columns. -/
def CreateMANode (st : Store) (iid : Int) : Store × Int :=
  let lid : Int := st.manodeStore.length
  ({ st with manodeStore := st.manodeStore ++
      [{ lid := lid, iid := iid, first := -1, last := -1, columns := [] }] }, lid)

/-! ## Gap beads -/

/-- `AppendGapBead(bid)`: a new gap bead immediately after `bid` in its
fragment.  Returns the new bead's offset. -/
def AppendGapBead (st : Store) (bid : Int) : Option (Store × Int) := do
  let prev ← GetBead st bid
  let boffset : Int := st.beadStore.length
  let bead : Bead :=
    { boffset := boffset, soffset := st.sequenceStore.length, foffset := prev.foffset + 1,
      up := -1, down := -1, frag_index := prev.frag_index, column_index := -1,
      next := prev.next, prev := prev.boffset }
  let st1 ← modBead st bid fun b => { b with next := boffset }
  let qv ← getAt st.qualityStore prev.soffset
  let (st2, qv) ←
    if bead.next ≠ -1 then do
      let next ← GetBead st1 bead.next
      let nqv ← getAt st.qualityStore next.soffset
      let st2 ← modBead st1 bead.next fun b => { b with prev := boffset }
      let qv := if nqv < qv then nqv else qv
      let qv := if qv = '0' then '5' else qv
      pure (st2, qv)
    else pure (st1, qv)
  pure ({ st2 with
          sequenceStore := st2.sequenceStore ++ ['-'],
          qualityStore := st2.qualityStore ++ [qv],
          beadStore := st2.beadStore ++ [bead],
          gaps_in_alignment := st2.gaps_in_alignment + 1 }, boffset)

/-- `PrependGapBead(bid)`: a new gap bead immediately before `bid`. -/
def PrependGapBead (st : Store) (bid : Int) : Option (Store × Int) := do
  let next ← GetBead st bid
  let boffset : Int := st.beadStore.length
  let bead : Bead :=
    { boffset := boffset, soffset := st.sequenceStore.length, foffset := next.foffset,
      up := -1, down := -1, frag_index := next.frag_index, column_index := -1,
      next := bid, prev := next.prev }
  let st1 ← modBead st bid fun b => { b with prev := boffset }
  let qv ← getAt st.qualityStore next.soffset
  let (st2, qv) ←
    if bead.prev ≠ -1 then do
      let prev ← GetBead st1 bead.prev
      let nqv ← getAt st.qualityStore prev.soffset
      let st2 ← modBead st1 bead.prev fun b => { b with next := boffset }
      let qv := if nqv < qv then nqv else qv
      let qv := if qv = '0' then '5' else qv
      pure (st2, qv)
    else pure (st1, qv)
  pure ({ st2 with
          sequenceStore := st2.sequenceStore ++ ['-'],
          qualityStore := st2.qualityStore ++ [qv],
          beadStore := st2.beadStore ++ [bead],
          gaps_in_alignment := st2.gaps_in_alignment + 1 }, boffset)

/-! ## Aligning and unaligning beads -/

/-- `AlignBead(cid, bid)`: splice `bid` directly under the call bead of `cid`. -/
def AlignBead (st : Store) (cid bid : Int) : Option (Store × Int) := do
  let column ← GetColumn st cid
  let call ← GetBead st column.call
  let first ← GetBead st call.down
  let align ← GetBead st bid
  let st ← modBead st bid fun b => { b with down := first.boffset }
  let st ← modBead st bid fun b => { b with up := call.boffset }
  let st ← modBead st column.call fun b => { b with down := align.boffset }
  let st ← modBead st call.down fun b => { b with up := align.boffset }
  let st ← modBead st bid fun b => { b with column_index := cid }
  let a ← GetBead st bid
  let c ← GetBase st a.soffset
  let st ← incColumn st cid c
  pure (st, bid)

/-- `UnAlignBead(bid)`: take `bid` out of its column; returns the bead above,
or `-1` (and no change) for a bead that is in no column. -/
def UnAlignBead (st : Store) (bid : Int) : Option (Store × Int) := do
  let bead ← GetBead st bid
  if bead.column_index = -1 then pure (st, -1) else
  let _ ← GetColumn st bead.column_index
  let upbead ← GetBead st bead.up
  let bchar ← GetBase st bead.soffset
  let st ← modBead st bead.up fun b => { b with down := bead.down }
  let bead1 ← GetBead st bid
  let st ← patchBead st bead1.down fun b => { b with up := upbead.boffset }
  let st ← decColumn st bead.column_index bchar
  let st ← modBead st bid fun b => { b with up := -1 }
  let st ← modBead st bid fun b => { b with down := -1 }
  let st ← modBead st bid fun b => { b with column_index := -1 }
  pure (st, upbead.boffset)

/-- `RemoveBeadFromFragment(bid)`: bypass `bid` in its fragment chain; returns
the next bead of the fragment. -/
def RemoveBeadFromFragment (st : Store) (bid : Int) : Option (Store × Int) := do
  let bead ← GetBead st bid
  let st ← linkBead st bead.next fun b => { b with prev := bead.prev }
  let bead1 ← GetBead st bid
  let st ← linkBead st bead1.prev fun b => { b with next := bead1.next }
  let bead2 ← GetBead st bid
  pure (st, bead2.next)

/-! ## Lateral exchange and end shifts -/

/-- The check loop of `LateralExchangeBead`: walk right from the bead `cur`
until `rid` is met or the chain ends; any other bead met must be a gap.
`none` is the `CleanExit` (or a dereferenced `NULL`, or exhausted fuel). -/
def exchangeCheck (st : Store) (rid : Int) : Nat → Bead → Option Unit
  | 0, _ => none
  | fuel + 1, ibead =>
    if ibead.next > -1 then
      match GetBead st ibead.next with
      | none => none
      | some nb =>
        if nb.boffset = rid then some ()
        else
          match GetBase st nb.soffset with
          | none => none
          | some c => if c ≠ '-' then none else exchangeCheck st rid fuel nb
    else some ()

/-- First half of the swap: `rightbead` takes the four links of `leftbead`
and its new neighbours are pointed at it. -/
def exchangeRight (st : Store) (rid : Int) (leftbead : Bead) : Option Store := do
  let st ← modBead st rid fun b =>
    { b with up := leftbead.up, down := leftbead.down, prev := leftbead.prev, next := leftbead.next }
  let r ← GetBead st rid
  let st ← patchBead st r.up fun b => { b with down := rid }
  let r ← GetBead st rid
  let st ← patchBead st r.down fun b => { b with up := rid }
  let r ← GetBead st rid
  patchBead st r.prev fun b => { b with next := rid }

/-- Second half of the swap: `leftbead` takes the links saved in `rtmp`. -/
def exchangeLeft (st : Store) (lid : Int) (rtmp : Bead) : Option Store := do
  let st ← modBead st lid fun b =>
    { b with up := rtmp.up, down := rtmp.down, next := rtmp.next, prev := rtmp.prev }
  let l ← GetBead st lid
  let st ← patchBead st l.up fun b => { b with down := lid }
  let l ← GetBead st lid
  let st ← patchBead st l.down fun b => { b with up := lid }
  let l ← GetBead st lid
  patchBead st l.next fun b => { b with prev := lid }

/-- The closing case split of the swap: adjacent beads, or gaps in between. -/
def exchangeClose (st : Store) (lid rid : Int) (rtmp : Bead) : Option Store :=
  if rtmp.prev = lid then do
    let st ← modBead st rid fun b => { b with next := lid }
    modBead st lid fun b => { b with prev := rid }
  else do
    let r ← GetBead st rid
    let st ← patchBead st r.next fun b => { b with prev := rid }
    let l ← GetBead st lid
    patchBead st l.prev fun b => { b with next := lid }

/-- The column bookkeeping of the swap: memberships, then the four tallies. -/
def exchangeColumns (st : Store) (lid rid : Int) (leftbead rtmp : Bead)
    (leftchar rightchar : Char) : Option Store := do
  let l ← GetBead st lid
  let st ← modBead st rid fun b => { b with column_index := l.column_index }
  let st ← modBead st lid fun b => { b with column_index := rtmp.column_index }
  let st ← decColumn st leftbead.column_index leftchar
  let st ← incColumn st leftbead.column_index rightchar
  let st ← decColumn st rtmp.column_index rightchar
  incColumn st rtmp.column_index leftchar

/-- `LateralExchangeBead(lid, rid)`: swap the horizontal and vertical
positions of two beads; returns `rid`. -/
def LateralExchangeBead (st : Store) (lid rid : Int) : Option (Store × Int) := do
  let leftbead ← GetBead st lid
  let rightbead ← GetBead st rid
  let _ ← GetColumn st leftbead.column_index
  let _ ← GetColumn st rightbead.column_index
  let leftchar ← GetBase st leftbead.soffset
  let rightchar ← GetBase st rightbead.soffset
  exchangeCheck st rid (st.beadStore.length + 1) leftbead
  let st ← exchangeRight st rid leftbead
  let st ← exchangeLeft st lid rightbead
  let st ← exchangeClose st lid rid rightbead
  let st ← exchangeColumns st lid rid leftbead rightbead leftchar rightchar
  pure (st, rid)

/-- The loop of `LeftEndShiftBead`: exchange the gap `eid` with its left
neighbour until its left neighbour is `aid`. -/
def leftShiftLoop (aid eid : Int) : Nat → Store → Option Store
  | 0, _ => none
  | fuel + 1, st =>
    match GetBead st eid with
    | none => none
    | some shift =>
      if shift.prev ≠ aid then
        match LateralExchangeBead st shift.prev shift.boffset with
        | none => none
        | some (st1, _) => leftShiftLoop aid eid fuel st1
      else some st

/-- `LeftEndShiftBead(bid, eid)`. -/
def LeftEndShiftBead (st : Store) (bid eid : Int) : Option (Store × Int) := do
  let b ← GetBead st bid
  let aid := b.prev
  let shift ← GetBead st eid
  let c ← GetBase st shift.soffset
  if c ≠ '-' then do
    let (st, _) ← LateralExchangeBead st bid eid
    pure (st, eid)
  else do
    let st ← leftShiftLoop aid eid (st.beadStore.length + 1) st
    let shift ← GetBead st eid
    pure (st, shift.boffset)

/-- The loop of `RightEndShiftBead`: exchange the gap `bid` with its right
neighbour until its right neighbour is `aid`. -/
def rightShiftLoop (aid bid : Int) : Nat → Store → Option Store
  | 0, _ => none
  | fuel + 1, st =>
    match GetBead st bid with
    | none => none
    | some shift =>
      if shift.next ≠ aid then
        match LateralExchangeBead st shift.boffset shift.next with
        | none => none
        | some (st1, _) => rightShiftLoop aid bid fuel st1
      else some st

/-- `RightEndShiftBead(bid, eid)`. -/
def RightEndShiftBead (st : Store) (bid eid : Int) : Option (Store × Int) := do
  let e ← GetBead st eid
  let aid := e.next
  let shift ← GetBead st bid
  let c ← GetBase st shift.soffset
  if c ≠ '-' then do
    let (st, _) ← LateralExchangeBead st bid eid
    pure (st, eid)
  else do
    let rid := shift.next
    let st ← rightShiftLoop aid bid (st.beadStore.length + 1) st
    pure (st, rid)

/-! ## Columns -/

/-- `CreateColumn(bid)`: a new column seeded with the bead `bid`, and its call
bead.  `ma_id` is left unset by the source (its callers assign it); it reads
`-1` here.  Returns the new column's `lid`. -/
def CreateColumn (st : Store) (bid : Int) : Option (Store × Int) := do
  let lid : Int := st.columnStore.length
  let callId : Int := st.beadStore.length
  let call : Bead :=
    { boffset := callId, foffset := 0, soffset := st.sequenceStore.length,
      down := bid, up := -1, prev := -1, next := -1, frag_index := -1, column_index := lid }
  let st : Store := { st with
    beadStore := st.beadStore ++ [call],
    sequenceStore := st.sequenceStore ++ ['n'],
    qualityStore := st.qualityStore ++ ['0'] }
  let st ← modBead st bid fun b => { b with up := call.boffset }
  let st ← modBead st bid fun b => { b with column_index := lid }
  let head ← GetBead st bid
  let c ← GetBase st head.soffset
  let bc ← IncBaseCount ResetBaseCount c
  let column : Column :=
    { lid := lid, prev := -1, next := -1, call := callId, ma_id := -1, ma_index := -1,
      base_count := bc }
  pure ({ st with columnStore := st.columnStore ++ [column] }, lid)

/-- `AddColumnToMANode(ma, column)`: record the column in the node's list and
make it the tail (head) when it has no successor (predecessor). -/
def AddColumnToMANode (st : Store) (ma : Int) (column : Column) : Option Store := do
  let st ← modMANode st ma fun m => { m with columns := m.columns ++ [column.lid] }
  let st ← modMANodeIf (column.next = -1) st ma fun m => { m with last := column.lid }
  modMANodeIf (column.prev = -1) st ma fun m => { m with first := column.lid }

/-- First half of linking the new column `lid` after column `cid`: the new
column and its call bead take over the forward links of `cid`. -/
def appendLinkNew (st : Store) (cid lid : Int) : Option Store := do
  let column ← GetColumn st lid
  let prev ← GetColumn st cid
  let prevcall ← GetBead st prev.call
  let st ← modColumn st lid fun c => { c with next := prev.next }
  let st ← modColumn st lid fun c => { c with prev := cid }
  let st ← modBead st column.call fun b => { b with next := prevcall.next }
  modBead st column.call fun b => { b with prev := prevcall.boffset }

/-- Second half: `cid`, its call bead and the former successors are pointed
at the new column.  `prevCall` is the call bead of `cid`. -/
def appendLinkOld (st : Store) (cid lid prevCall : Int) : Option Store := do
  let column ← GetColumn st lid
  let call ← GetBead st column.call
  let st ← modColumn st cid fun c => { c with next := column.lid }
  let st ← modBead st prevCall fun b => { b with next := call.boffset }
  let column ← GetColumn st lid
  let st ← patchColumn st column.next fun c => { c with prev := column.lid }
  let call ← GetBead st column.call
  patchBead st call.next fun b => { b with prev := call.boffset }

/-- Linking the new column `lid` after column `cid`. -/
def appendLink (st : Store) (cid lid : Int) : Option Store := do
  let prev ← GetColumn st cid
  let st ← appendLinkNew st cid lid
  appendLinkOld st cid lid prev.call

/-- The gap-fill loop of `ColumnAppend`: `cur` is the iterator's bead; every
bead below it that has a successor other than `bid` gets a gap bead after it,
aligned in column `lid`. -/
def appendFill (lid bid : Int) : Nat → Store → Int → Option Store
  | 0, _, _ => none
  | fuel + 1, st, cur =>
    if cur = -1 then some st
    else
      match GetBead st cur with
      | none => none
      | some cb =>
        let nid := cb.down
        if nid = -1 then some st
        else
          match GetBead st nid with
          | none => none
          | some bead =>
            if bead.next ≠ -1 ∧ bead.next ≠ bid then
              match AppendGapBead st nid with
              | none => none
              | some (st1, g) =>
                match AlignBead st1 lid g with
                | none => none
                | some (st2, _) => appendFill lid bid fuel st2 nid
            else appendFill lid bid fuel st nid

/-- The tail of `ColumnAppend` and `ColumnPrepend`: the new column inherits
the MANode of its neighbour `cid` with `ma_index` shifted by `d`, and is
registered with that node. -/
def columnRegister (st : Store) (cid lid d : Int) : Option Store := do
  let nb ← GetColumn st cid
  let st ← modColumn st lid fun c => { c with ma_id := nb.ma_id }
  let nb ← GetColumn st cid
  let st ← modColumn st lid fun c => { c with ma_index := nb.ma_index + d }
  let column ← GetColumn st lid
  AddColumnToMANode st column.ma_id column

/-- `ColumnAppend(cid, bid)`: a new column seeded with `bid`, linked right
after column `cid`.  Returns the new column's `lid`. -/
def ColumnAppend (st : Store) (cid bid : Int) : Option (Store × Int) := do
  let _ ← GetBead st bid
  let (st, lid) ← CreateColumn st bid
  let st ← appendLink st cid lid
  let prev ← GetColumn st cid
  let st ← appendFill lid bid (st.beadStore.length + 1) st prev.call
  let st ← columnRegister st cid lid 1
  pure (st, lid)

/-- First half of linking the new column `lid` before column `cid`. -/
def prependLinkNew (st : Store) (cid lid : Int) : Option Store := do
  let column ← GetColumn st lid
  let next ← GetColumn st cid
  let nextcall ← GetBead st next.call
  let st ← modColumn st lid fun c => { c with prev := next.prev }
  let st ← modColumn st lid fun c => { c with next := cid }
  let st ← modBead st column.call fun b => { b with prev := nextcall.prev }
  modBead st column.call fun b => { b with next := nextcall.boffset }

/-- Second half: `cid`, its call bead and the former predecessors are pointed
at the new column.  `nextCall` is the call bead of `cid`. -/
def prependLinkOld (st : Store) (cid lid nextCall : Int) : Option Store := do
  let column ← GetColumn st lid
  let call ← GetBead st column.call
  let st ← modColumn st cid fun c => { c with prev := column.lid }
  let st ← modBead st nextCall fun b => { b with prev := call.boffset }
  let column ← GetColumn st lid
  let st ← patchColumn st column.prev fun c => { c with next := column.lid }
  let call ← GetBead st column.call
  patchBead st call.prev fun b => { b with next := call.boffset }

/-- Linking the new column `lid` before column `cid`. -/
def prependLink (st : Store) (cid lid : Int) : Option Store := do
  let next ← GetColumn st cid
  let st ← prependLinkNew st cid lid
  prependLinkOld st cid lid next.call

/-- The gap-fill loop of `ColumnPrepend`. -/
def prependFill (lid bid : Int) : Nat → Store → Int → Option Store
  | 0, _, _ => none
  | fuel + 1, st, cur =>
    if cur = -1 then some st
    else
      match GetBead st cur with
      | none => none
      | some cb =>
        let nid := cb.down
        if nid = -1 then some st
        else
          match GetBead st nid with
          | none => none
          | some bead =>
            if bead.prev ≠ -1 ∧ bead.prev ≠ bid then
              match PrependGapBead st nid with
              | none => none
              | some (st1, g) =>
                match AlignBead st1 lid g with
                | none => none
                | some (st2, _) => prependFill lid bid fuel st2 nid
            else prependFill lid bid fuel st nid

/-- `ColumnPrepend(cid, bid)`: a new column seeded with `bid`, linked right
before column `cid`.  Returns the new column's `lid`. -/
def ColumnPrepend (st : Store) (cid bid : Int) : Option (Store × Int) := do
  let _ ← GetBead st bid
  let (st, lid) ← CreateColumn st bid
  let st ← prependLink st cid lid
  let next ← GetColumn st cid
  let st ← prependFill lid bid (st.beadStore.length + 1) st next.call
  let st ← columnRegister st cid lid (-1)
  let column ← GetColumn st lid
  let st ← modMANodeIf (column.prev = -1) st column.ma_id fun m => { m with first := column.lid }
  pure (st, lid)

/-- `FirstColumn(mid, bid)`: the first column of MANode `mid`, seeded with `bid`. -/
def FirstColumn (st : Store) (mid bid : Int) : Option (Store × Int) := do
  let _ ← GetBead st bid
  let (st, lid) ← CreateColumn st bid
  let st ← modColumn st lid fun c => { c with ma_id := mid }
  let st ← modColumn st lid fun c => { c with ma_index := 0 }
  let column ← GetColumn st lid
  let st ← AddColumnToMANode st mid column
  pure (st, lid)

/-- The bead loop of `RemoveNullColumn`: while the call bead `callId` has a
bead below it, bypass that bead in its fragment and unalign it. -/
def removeBeads (callId : Int) : Nat → Store → Option Store
  | 0, _ => none
  | fuel + 1, st =>
    match GetBead st callId with
    | none => none
    | some call =>
      if call.down ≠ -1 then
        match GetBead st call.down with
        | none => none
        | some bead =>
          match patchBead st bead.prev fun b => { b with next := bead.next } with
          | none => none
          | some st1 =>
            match GetBead st1 call.down with
            | none => none
            | some bead1 =>
              match patchBead st1 bead1.next fun b => { b with prev := bead1.prev } with
              | none => none
              | some st2 =>
                match UnAlignBead st2 bead.boffset with
                | none => none
                | some (st3, _) => removeBeads callId fuel st3
      else some st

/-- The closing writes of `RemoveNullColumn`: the call bead `callId` and the
column `nid` are bypassed by their neighbours. -/
def removeUnlink (st : Store) (nid callId : Int) : Option Store := do
  let call ← GetBead st callId
  let st ← patchBead st call.prev fun b => { b with next := call.next }
  let call ← GetBead st callId
  let st ← patchBead st call.next fun b => { b with prev := call.prev }
  let nc ← GetColumn st nid
  let st ← linkColumn st nc.prev fun c => { c with next := nc.next }
  let nc ← GetColumn st nid
  linkColumn st nc.next fun c => { c with prev := nc.prev }

/-- `RemoveNullColumn(nid)`: empty an all-gap column and take it out of the
column list. -/
def RemoveNullColumn (st : Store) (nid : Int) : Option Store := do
  let null_column ← GetColumn st nid
  if GetDepth null_column ≠ GetBaseCount null_column.base_count '-' then none else
  let st ← removeBeads null_column.call (st.beadStore.length + 1) st
  removeUnlink st nid null_column.call

/-- The gap insert/remove pair: `AppendGapBead(b)` followed immediately by
`UnAlignBead` and `RemoveBeadFromFragment` on the new gap bead. -/
def gapInsertRemove (st : Store) (b : Int) : Option Store := do
  let (st, g) ← AppendGapBead st b
  let (st, _) ← UnAlignBead st g
  let (st, _) ← RemoveBeadFromFragment st g
  pure st

/-- The map `AppendGapBead` applies to the bead stored at `j`. -/
def appendGapFix (b g nxt j : Int) (y : Bead) : Bead :=
  let y1 : Bead := if j = b then { y with next := g } else y
  if nxt ≠ -1 ∧ j = nxt then { y1 with prev := g } else y1

/-- The stores other than the bead store agree. -/
def SameRest (st st' : Store) : Prop :=
  st'.sequenceStore = st.sequenceStore ∧ st'.qualityStore = st.qualityStore ∧
  st'.columnStore = st.columnStore ∧ st'.manodeStore = st.manodeStore ∧
  st'.fragmentStore = st.fragmentStore ∧ st'.abacus_indices = st.abacus_indices ∧
  st'.gaps_in_alignment = st.gaps_in_alignment

/-- The map `RemoveBeadFromFragment` applies to the bead stored at `j`, `gb`
being the removed bead. -/
def removeFix (gb : Bead) (j : Int) (y : Bead) : Bead :=
  let y1 : Bead := if gb.next > -1 ∧ j = gb.next then { y with prev := gb.prev } else y
  if gb.prev > -1 ∧ j = gb.prev then { y1 with next := gb.next } else y1

/-- One read `AC` with qualities `II`, freshly loaded. -/
def storeAC : Store :=
  (AppendArtificialFragToLocalStore ResetStores 'R' 1 0 'X' ['A', 'C'] ['I', 'I']).1

/-! ## Abacus -/

/-- The tag `ShiftStatus` of an abacus. -/
inductive ShiftStatus where
  | LEFT_SHIFT
  | RIGHT_SHIFT
  | UNSHIFTED
  | MIXED_SHIFT
  deriving DecidableEq

/-- The dense working copy of a window.  `beads` is the flat array of
`rows * (columns + 2)` characters (each row has a border cell on either side),
`calls` the `columns` per-column calls. -/
structure Abacus where
  start_column : Int
  end_column : Int
  rows : Int
  columns : Int
  window_width : Int
  shift : ShiftStatus
  beads : List Char
  calls : List Char
  deriving DecidableEq

/-- The flat offset of cell `(i, j)`: `i*(a->columns+2)+j+1`. -/
def Abacus.offset (a : Abacus) (i j : Int) : Int := i * (a.columns + 2) + j + 1

/-- `*GetAbacus(a, i, j)`; `none` is a read outside the array. -/
def GetAbacus (a : Abacus) (i j : Int) : Option Char := getAt a.beads (a.offset i j)

/-- `SetAbacus(a, i, j, c)`, with its two range aborts; a write outside the
array is `none` as well. -/
def SetAbacus (a : Abacus) (i j : Int) (c : Char) : Option Abacus :=
  if i < 0 ∨ i > a.rows - 1 then none
  else if j < 0 ∨ j > a.columns - 1 then none
  else
    match getAt a.beads (a.offset i j) with
    | none => none
    | some _ => some { a with beads := setAt a.beads (a.offset i j) c }

/-- `abacus->calls[j]`. -/
def getCall (a : Abacus) (j : Int) : Option Char := getAt a.calls j

/-- `abacus->calls[j] = c`. -/
def setCall (a : Abacus) (j : Int) (c : Char) : Option Abacus :=
  match getAt a.calls j with
  | none => none
  | some _ => some { a with calls := setAt a.calls j c }

/-- The index values `lo, lo+1, ..., hi-1` of a counting `for` loop. -/
def intRange (lo hi : Int) : List Int :=
  (List.range (hi - lo).toNat).map fun (k : Nat) => lo + (k : Int)

/-- `ResetCalls`: every call becomes `'n'`. -/
def ResetCalls (a : Abacus) : Option Abacus :=
  (intRange 0 a.columns).foldlM (fun a j => setCall a j 'n') a

/-- `CloneAbacus`: a copy with its own arrays. -/
def CloneAbacus (a : Abacus) : Abacus := a

/-! ### Scoring -/

/-- `toupper(ALPHABET[i])`: the table `ALPHABET` (`Globals_CNS.h`, absent) is
read as the lower-case spelling of the six tallied symbols, so the result is
`RALPHABET[i]`. -/
def upperAlphabet (i : Int) : Option Char := getAt RALPHABET i

/-- `b->count[i]`. -/
def countAt (b : BaseCount) (i : Int) : Option Int := getAt b.count i

/-- First loop of `GetMaxBaseCount`: the running `(max_index, tied)`. -/
def maxScan (b : BaseCount) (acc : Int × Int) (i : Int) : Option (Int × Int) := do
  let ci ← countAt b i
  let cm ← countAt b acc.1
  if ci > cm then pure (i, 0)
  else if ci = cm then pure (acc.1, acc.2 + 1)
  else pure acc

/-- Tie-break loop of `GetMaxBaseCount`.  The state is `(max_index, max_tie)`
and the number of draws of `random()` consumed so far. -/
def tieScan (rnd : Nat → Int) (b : BaseCount) (acc : (Int × Int) × Nat) (i : Int) :
    Option ((Int × Int) × Nat) := do
  let ci ← countAt b i
  let cm ← countAt b acc.1.1
  if ci = cm then
    let tie_breaker := rnd acc.2
    if tie_breaker > acc.1.2 then pure ((i, tie_breaker), acc.2 + 1)
    else pure (acc.1, acc.2 + 1)
  else pure acc

/-- `GetMaxBaseCount(b, start_index)`.  `rnd` is the sequence of values
`random()` returns, `k` the number of values already drawn; the result is the
character and the new draw count. -/
def GetMaxBaseCount (rnd : Nat → Int) (k : Nat) (b : BaseCount) (start_index : Int) :
    Option (Char × Nat) := do
  let (max_index, tied) ←
    (intRange start_index (CNS_NALPHABET - 1)).foldlM (maxScan b) (start_index, 0)
  if tied > 1 then do
    let ((max_index, _), k) ←
      (intRange 1 (CNS_NALPHABET - 1)).foldlM (tieScan rnd b) ((max_index, 0), k)
    let c ← upperAlphabet max_index
    pure (c, k)
  else do
    let c ← upperAlphabet max_index
    pure (c, k)

/-- The character `ScoreAbacus` tallies for cell `(i, j)`: a gap next to a
null cell counts as null. -/
def scoreChar (a : Abacus) (i j : Int) : Option Char := do
  let b ← GetAbacus a i j
  if b = '-' then
    if j > 0 ∧ j < a.columns - 1 then do
      let l ← GetAbacus a i (j - 1)
      let r ← GetAbacus a i (j + 1)
      if l = 'n' ∨ r = 'n' then pure 'n' else pure b
    else pure b
  else pure b

/-- The profile of column `j` built by the first loop nest of `ScoreAbacus`. -/
def columnCount (a : Abacus) (j : Int) : Option BaseCount :=
  (intRange 0 a.rows).foldlM
    (fun bc i => do
      let b ← scoreChar a i j
      IncBaseCount bc b) ResetBaseCount

/-- Running state of the second loop of `ScoreAbacus`. -/
structure ScoreState where
  abacus : Abacus
  score : Int
  cols : Int
  draws : Nat

/-- One column of the second loop of `ScoreAbacus`. -/
def scoreColumn (rnd : Nat → Int) (counts : Int → Option BaseCount) (s : ScoreState) (j : Int) :
    Option ScoreState := do
  let cj ← counts j
  if GetBaseCount cj '-' + GetBaseCount cj 'n' = cj.depth then do
    let a ← setCall s.abacus j 'n'
    pure { s with abacus := a }
  else do
    let (c, k) ← GetMaxBaseCount rnd s.draws cj 0
    let a ← setCall s.abacus j c
    let cc ← countAt cj (BaseToInt c)
    let cn ← countAt cj (CNS_NALPHABET - 1)
    pure { abacus := a, score := s.score + (cj.depth - cc - cn), cols := s.cols + 1, draws := k }

/-- `ScoreAbacus(abacus, &cols)`: sets the calls and returns the edit score
and the number of non-null columns (and the new draw count). -/
def ScoreAbacus (rnd : Nat → Int) (k : Nat) (a : Abacus) : Option ScoreState :=
  (intRange 0 a.columns).foldlM (scoreColumn rnd (columnCount a))
    { abacus := a, score := 0, cols := 0, draws := k }

/-- The third of the matrix `AffineScoreAbacus` looks at. -/
def affineWindow (a : Abacus) : Int × Int :=
  match a.shift with
  | ShiftStatus.LEFT_SHIFT => (0, a.columns / 3)
  | ShiftStatus.RIGHT_SHIFT => (2 * a.columns / 3, a.columns)
  | _ => (a.columns / 3, 2 * a.columns / 3)

/-- One cell of `AffineScoreAbacus`: the state is `(in_gap, score)`. -/
def affineCell (a : Abacus) (i : Int) (acc : Bool × Int) (j : Int) : Option (Bool × Int) := do
  let b ← GetAbacus a i j
  if b ≠ '-' then pure (false, acc.2)
  else if ¬ acc.1 then pure (true, acc.2 + 1)
  else pure acc

/-- `AffineScoreAbacus`: the number of gap runs opened. -/
def AffineScoreAbacus (a : Abacus) : Option Int :=
  (intRange 0 a.rows).foldlM
    (fun score i => do
      let r ← (intRange (affineWindow a).1 (affineWindow a).2).foldlM (affineCell a i) (false, score)
      pure r.2) 0

/-! ### Merging and shifting -/

/-- Whether column `j` holds a gap in every row (the test of the first loop
of `MergeAbacus`). -/
def nullColumn (a : Abacus) (j : Int) : Option Bool :=
  (intRange 0 a.rows).foldlM
    (fun null i => do
      let b ← GetAbacus a i j
      if b ≠ '-' then pure false else pure null) true

/-- First loop of `MergeAbacus`: `last_non_null`, scanning `js` downwards. -/
def lastNonNull (a : Abacus) : List Int → Int → Option Int
  | [], last => some last
  | j :: js, last =>
    match nullColumn a j with
    | none => none
    | some false => some last
    | some true => lastNonNull a js j

/-- The compatibility test of `MergeAbacus` for columns `j`, `j+1`, over the
rows `is`: the state is `(mergeok, next_column_good)`; the scan stops at the
first incompatible row. -/
def mergeTest (a : Abacus) (j : Int) : List Int → Int → Option (Bool × Int)
  | [], good => some (true, good)
  | i :: is, good =>
    match GetAbacus a i j, GetAbacus a i (j + 1) with
    | some b, some m =>
      if b ≠ '-' ∧ m ≠ '-' ∧ (b ≠ 'n' ∨ m ≠ 'n') then some (false, good)
      else mergeTest a j is (if m ≠ '-' ∧ m ≠ 'n' then i else good)
    | _, _ => none

/-- The exchange `MergeAbacus` performs in row `i` of columns `j`, `j+1`. -/
def mergeRow (j : Int) (a : Abacus) (i : Int) : Option Abacus := do
  let b ← GetAbacus a i j
  let m ← GetAbacus a i (j + 1)
  if b = 'n' ∧ m = 'n' then pure a
  else if b ≠ '-' ∧ b ≠ 'n' then do
    let a ← SetAbacus a i j m
    SetAbacus a i (j + 1) b
  else pure a

/-- One step of the sweep of `MergeAbacus`; the state carries `columns_merged`. -/
def mergeColumn (acc : Abacus × Int) (j : Int) : Option (Abacus × Int) := do
  let (mergeok, good) ← mergeTest acc.1 j (intRange 0 acc.1.rows) (-1)
  if mergeok ∧ good ≥ 0 then do
    let a ← (intRange 0 acc.1.rows).foldlM (mergeRow j) acc.1
    pure (a, acc.2 + 1)
  else pure acc

/-- `MergeAbacus`: returns the abacus and the number of columns merged. -/
def MergeAbacus (a : Abacus) : Option (Abacus × Int) := do
  let last ← lastNonNull a (intRange 1 a.columns).reverse (a.columns - 1)
  (intRange 0 last).foldlM mergeColumn (a, 0)

/-- `while (*GetAbacus(abacus, i, ccol-1) == '-') ccol--`. -/
def scanLeft (a : Abacus) (i : Int) : Nat → Int → Option Int
  | 0, _ => none
  | fuel + 1, ccol =>
    match GetAbacus a i (ccol - 1) with
    | none => none
    | some c => if c = '-' then scanLeft a i fuel (ccol - 1) else some ccol

/-- `while (*GetAbacus(abacus, i, ccol+1) == '-') ccol++`. -/
def scanRight (a : Abacus) (i : Int) : Nat → Int → Option Int
  | 0, _ => none
  | fuel + 1, ccol =>
    match GetAbacus a i (ccol + 1) with
    | none => none
    | some c => if c = '-' then scanRight a i fuel (ccol + 1) else some ccol

/-- The placement loop of the shifts, over the candidate columns `pcols`:
the character `c` of cell `(i, j)` moves to the first column whose call is
compatible; the loop stops there (`break`). -/
def place (i j : Int) (c : Char) : List Int → Abacus → Option Abacus
  | [], a => some a
  | pcol :: rest, a =>
    match getCall a pcol with
    | none => none
    | some call =>
      if call ≠ 'n' ∧ call ≠ c ∧ c ≠ 'n' then place i j c rest a
      else
        match (if call = 'n' then setCall a pcol c else some a) with
        | none => none
        | some a1 =>
          match getCall a1 pcol with
          | none => none
          | some call1 =>
            if call1 = c ∨ c = 'n' then
              match SetAbacus a1 i j '-' with
              | none => none
              | some a2 => SetAbacus a2 i pcol c
            else place i j c rest a1

/-- The closing test of a shift step: a character that stayed in cell
`(i, j)` becomes the call of column `j`. -/
def keepCall (i j : Int) (c : Char) (a : Abacus) : Option Abacus := do
  let b ← GetAbacus a i j
  if b ≠ '-' then setCall a j c else pure a

/-- The body of `LeftShift` for cell `(i, j)`. -/
def leftCell (j : Int) (a : Abacus) (i : Int) : Option Abacus := do
  let c ← GetAbacus a i j
  if c ≠ '-' then do
    let ccol ← scanLeft a i (a.beads.length + 1) j
    let a ← place i j c (intRange ccol j) a
    keepCall i j c a
  else pure a

/-- The body of `RightShift` for cell `(i, j)`. -/
def rightCell (j : Int) (a : Abacus) (i : Int) : Option Abacus := do
  let c ← GetAbacus a i j
  if c ≠ '-' then do
    let ccol ← scanRight a i (a.beads.length + 1) j
    let a ← place i j c (intRange (j + 1) (ccol + 1)).reverse a
    keepCall i j c a
  else pure a

/-- The two nested loops of `LeftShift`. -/
def leftSweep (a : Abacus) : Option Abacus :=
  (intRange a.window_width (2 * a.window_width)).foldlM
    (fun a j => (intRange 0 a.rows).foldlM (leftCell j) a) a

/-- The two nested loops of `RightShift`. -/
def rightSweep (a : Abacus) : Option Abacus :=
  (intRange a.window_width (2 * a.window_width)).reverse.foldlM
    (fun a j => (intRange 0 a.rows).foldlM (rightCell j) a) a

/-- `LeftShift(abacus, &lcols)`. -/
def LeftShift (rnd : Nat → Int) (k : Nat) (a : Abacus) : Option ScoreState := do
  let a ← ResetCalls a
  let a ← leftSweep a
  let (a, _) ← MergeAbacus a
  ScoreAbacus rnd k { a with shift := ShiftStatus.LEFT_SHIFT }

/-- `RightShift(abacus, &rcols)`. -/
def RightShift (rnd : Nat → Int) (k : Nat) (a : Abacus) : Option ScoreState := do
  let a ← ResetCalls a
  let a ← rightSweep a
  let (a, _) ← MergeAbacus a
  ScoreAbacus rnd k { a with shift := ShiftStatus.RIGHT_SHIFT }

/-! ### Mixed shift -/

/-- What the allele analysis of `RefineWindow` hands to `MixedShift`: the
per-row allele assignment `ap.alleles`, the shifting interfaces `lpos` and
`rpos`, the `template` and the two allele numbers. -/
structure MixedPlan where
  alleles : List Int
  lpos : Int
  rpos : Int
  template : List Char
  long_allele : Int
  short_allele : Int

/-- The window of `MixedShift`: the third of the matrix the shift tag names. -/
def mixedWindow (a : Abacus) : Int × Int :=
  match a.shift with
  | ShiftStatus.LEFT_SHIFT => (0, a.window_width)
  | ShiftStatus.UNSHIFTED => (a.window_width, 2 * a.window_width)
  | _ => (2 * a.window_width, 3 * a.window_width)

/-- `while (*GetAbacus(abacus,i,ccol-1) == '-' && ccol > window_beg) ccol--`. -/
def scanLeftTo (a : Abacus) (i beg : Int) : Nat → Int → Option Int
  | 0, _ => none
  | fuel + 1, ccol =>
    match GetAbacus a i (ccol - 1) with
    | none => none
    | some c => if c = '-' ∧ ccol > beg then scanLeftTo a i beg fuel (ccol - 1) else some ccol

/-- `while (*GetAbacus(abacus,i,ccol+1) == '-' && ccol+1 < window_end) ccol++`. -/
def scanRightTo (a : Abacus) (i wend : Int) : Nat → Int → Option Int
  | 0, _ => none
  | fuel + 1, ccol =>
    match GetAbacus a i (ccol + 1) with
    | none => none
    | some c => if c = '-' ∧ ccol + 1 < wend then scanRightTo a i wend fuel (ccol + 1) else some ccol

/-- The body of the left pass of `MixedShift` for cell `(i, j)`. -/
def mixedLeftCell (p : MixedPlan) (beg j : Int) (a : Abacus) (i : Int) : Option Abacus := do
  let al ← getAt p.alleles i
  if al ≠ p.short_allele then pure a else
  let c ← GetAbacus a i j
  if c ≠ '-' then do
    let ccol ← scanLeftTo a i beg (a.beads.length + 1) j
    let a ← place i j c (intRange ccol j) a
    keepCall i j c a
  else pure a

/-- The body of the right pass of `MixedShift` for cell `(i, j)`. -/
def mixedRightCell (p : MixedPlan) (wend j : Int) (a : Abacus) (i : Int) : Option Abacus := do
  let al ← getAt p.alleles i
  if al ≠ p.short_allele then pure a else
  let c ← GetAbacus a i j
  if c ≠ '-' then do
    let ccol ← scanRightTo a i wend (a.beads.length + 1) j
    let a ← place i j c (intRange (j + 1) (ccol + 1)).reverse a
    keepCall i j c a
  else pure a

/-- The call-populating loop and the two passes of `MixedShift`. -/
def mixedSweep (p : MixedPlan) (a : Abacus) : Option Abacus := do
  let (beg, wend) := mixedWindow a
  let a ← (intRange beg wend).foldlM
    (fun a j => do
      let t ← getAt p.template j
      setCall a j t) a
  let a ← (intRange beg (min wend p.lpos + 1)).foldlM
    (fun a j => (intRange 0 a.rows).foldlM (mixedLeftCell p beg j) a) a
  (intRange ((if p.rpos > 0 then p.rpos else wend) + 1) wend).reverse.foldlM
    (fun a j => (intRange 0 a.rows).foldlM (mixedRightCell p wend j) a) a

/-- `MixedShift(abacus, &mcols, ap, lpos, rpos, template, long_allele,
short_allele)`. -/
def MixedShift (rnd : Nat → Int) (k : Nat) (p : MixedPlan) (a : Abacus) : Option ScoreState := do
  let a ← ResetCalls a
  let a ← mixedSweep p a
  let (a, _) ← MergeAbacus a
  ScoreAbacus rnd k { a with shift := ShiftStatus.MIXED_SHIFT }

/-- `GetAbacusBaseCount`: the profile of the calls (it can only abort). -/
def GetAbacusBaseCount (a : Abacus) : Option BaseCount :=
  (intRange 0 a.columns).foldlM
    (fun b j => do
      let c ← getCall a j
      IncBaseCount b c) ResetBaseCount

/-! ### The comparison of `RefineWindow` -/

/-- The three figures `RefineWindow` compares: mismatch score, number of
non-null columns, number of gap runs opened. -/
structure Scores where
  score : Int
  columns : Int
  gap_score : Int
  deriving DecidableEq

/-- The first comparison of `RefineWindow`, among the original, the
left-shifted and the right-shifted abacus: which one becomes `best_abacus`. -/
def selectShift (orig left right : Scores) : ShiftStatus :=
  if left.score < orig.score ∨ right.score < orig.score then
    if left.score ≤ right.score then ShiftStatus.LEFT_SHIFT else ShiftStatus.RIGHT_SHIFT
  else if left.score = orig.score ∧ right.score = orig.score then
    if left.columns < orig.columns ∨ right.columns < orig.columns then
      if left.columns ≤ right.columns then ShiftStatus.LEFT_SHIFT else ShiftStatus.RIGHT_SHIFT
    else if left.columns = orig.columns ∧ right.columns = orig.columns then
      if left.gap_score < orig.gap_score ∨ right.gap_score < orig.gap_score then
        if left.gap_score ≤ right.gap_score then ShiftStatus.LEFT_SHIFT
        else ShiftStatus.RIGHT_SHIFT
      else ShiftStatus.UNSHIFTED
    else ShiftStatus.UNSHIFTED
  else ShiftStatus.UNSHIFTED

/-- `score_reduction` as the first comparison leaves it. -/
def scoreReduction (orig left right : Scores) : Int :=
  if left.score < orig.score ∨ right.score < orig.score then
    if left.score ≤ right.score then orig.score - left.score else orig.score - right.score
  else 0

/-- The second comparison of `RefineWindow`: whether the mixed abacus
replaces `best_abacus`. -/
def mixedWins (mixed best : Scores) : Bool :=
  (mixed.gap_score < best.gap_score) ||
  ((mixed.gap_score = best.gap_score) && (mixed.columns < best.columns)) ||
  ((mixed.gap_score = best.gap_score) && (mixed.columns = best.columns) &&
    (mixed.score < best.score))

/-! ### Building an abacus from a window -/

/-- `SetVA_int32(indices, i, &v)`: the array grows (zero-filled) when `i` is
past its end; a negative index is `none`. -/
def setGrow (l : List Int) (i : Int) (v : Int) : Option (List Int) :=
  if i < 0 then none
  else if i.toNat < l.length then some (l.set i.toNat v)
  else some (l ++ List.replicate (i.toNat - l.length) 0 ++ [v])

/-- `ResetIndex(indices, n)`. -/
def ResetIndex (indices : List Int) (n : Int) : Option (List Int) :=
  (intRange 0 n).foldlM (fun l i => setGrow l i 0) indices

/-- The beads of column `cid` in iterator order (`CreateColumnBeadIterator`
followed by `NextColumnBead` until `-1`), walking `down` from `cur`. -/
def beadsBelow (st : Store) : Nat → Int → Option (List Int)
  | 0, _ => none
  | fuel + 1, cur =>
    if cur = -1 then some []
    else
      match GetBead st cur with
      | none => none
      | some b =>
        if b.down = -1 then some []
        else
          match beadsBelow st fuel b.down with
          | none => none
          | some l => some (b.down :: l)

/-- The beads stacked under the call bead of column `cid`, top first. -/
def columnBeads (st : Store) (cid : Int) : Option (List Int) :=
  match GetColumn st cid with
  | none => none
  | some col => beadsBelow st (st.beadStore.length + 1) col.call

/-- The first loop of `CreateAbacus`: count the columns of the window and
remember the columns reached at the counts 30, 60, ..., 180.  The state is
`(columns, current column, mid columns)`; the result adds the last column. -/
def countWindow (st : Store) (wend : Int) : Nat → Int → Column → List Int →
    Option (Int × Column × List Int)
  | 0, _, _, _ => none
  | fuel + 1, columns, column, mids =>
    if column.next ≠ wend ∧ column.next ≠ -1 then
      let columns := columns + 1
      let mids :=
        if columns ∈ [30, 60, 90, 120, 150, 180] then
          match GetColumn st column.lid with
          | some mc => mids ++ [mc.lid]
          | none => mids
        else mids
      match GetColumn st column.next with
      | none => none
      | some nc => countWindow st wend fuel columns nc mids
    else some (columns, column, mids)

/-- Row assignment over the beads `bids` of one column: `rows` is bumped and
recorded for the bead's fragment; with `onlyNew` a fragment that already has a
row is skipped. -/
def assignRows (st : Store) (onlyNew : Bool) (acc : Int × List Int) (bid : Int) :
    Option (Int × List Int) := do
  let bead ← GetBead st bid
  if onlyNew then do
    let cur ← getAt acc.2 bead.frag_index
    if cur = 0 then do
      let idx ← setGrow acc.2 bead.frag_index (acc.1 + 1)
      pure (acc.1 + 1, idx)
    else pure acc
  else do
    let idx ← setGrow acc.2 bead.frag_index (acc.1 + 1)
    pure (acc.1 + 1, idx)

/-- `assignRows` over a whole column. -/
def assignColumn (st : Store) (onlyNew : Bool) (acc : Int × List Int) (cid : Int) :
    Option (Int × List Int) := do
  let bids ← columnBeads st cid
  bids.foldlM (assignRows st onlyNew) acc

/-- Writing the beads of one live column into abacus column `set_column`. -/
def fillColumn (st : Store) (indices : List Int) (set_column : Int) (a : Abacus) (bid : Int) :
    Option Abacus := do
  let bead ← GetBead st bid
  let row ← getAt indices bead.frag_index
  let c ← GetBase st bead.soffset
  SetAbacus a (row - 1) set_column c

/-- The fill loop of `CreateAbacus`: the window's columns go to the centre
third.  The state is the abacus, the running `columns` and the column. -/
def fillWindow (st : Store) (indices : List Int) (wend orig_columns : Int) :
    Nat → Abacus → Int → Column → Option Abacus
  | 0, _, _, _ => none
  | fuel + 1, a, columns, column =>
    if column.lid ≠ wend ∧ column.lid ≠ -1 then
      match columnBeads st column.lid with
      | none => none
      | some bids =>
        match bids.foldlM (fillColumn st indices (columns + orig_columns)) a with
        | none => none
        | some a1 =>
          match GetColumn st column.next with
          | none => none
          | some nc => fillWindow st indices wend orig_columns fuel a1 (columns + 1) nc
    else some a

/-- The flank loop of `CreateAbacus`: both outer thirds of row `i` become gaps. -/
def padRow (orig_columns : Int) (a : Abacus) (i : Int) : Option Abacus := do
  let a ← (intRange 0 orig_columns).foldlM (fun a j => SetAbacus a i j '-') a
  (intRange (2 * orig_columns) a.columns).foldlM (fun a j => SetAbacus a i j '-') a

/-- The row bookkeeping of `CreateAbacus`: `abacus_indices` is reset and the
fragments met in the first, the last and the mid columns get their rows. -/
def abacusRows (st : Store) (first last : Int) (mids : List Int) : Option (Int × List Int) := do
  let idx ← ResetIndex st.abacus_indices st.fragmentStore.length
  let acc ← assignColumn st false (0, idx) first
  let acc ← assignColumn st true acc last
  mids.foldlM (assignColumn st true) acc

/-- `CreateAbacus(mid, from, end)`.  Returns the store (its `abacus_indices`
are rewritten) and the abacus. -/
def CreateAbacus (st : Store) (mid wfrom wend : Int) : Option (Store × Abacus) := do
  let _ ← GetMANode st mid
  let column ← GetColumn st wfrom
  let (orig_columns, last, mids) ← countWindow st wend (st.columnStore.length + 1) 1 column []
  let (rows, idx) ← abacusRows st column.lid last.lid mids
  let a0 : Abacus :=
    { start_column := wfrom, end_column := last.lid, rows := rows, window_width := orig_columns,
      columns := 3 * orig_columns, shift := ShiftStatus.UNSHIFTED,
      beads := List.replicate (rows * (3 * orig_columns + 2)).toNat 'n',
      calls := List.replicate (3 * orig_columns).toNat (Char.ofNat 0) }
  let a ← fillWindow st idx wend orig_columns (st.columnStore.length + 1) a0 0 column
  let a ← (intRange 0 rows).foldlM (padRow orig_columns) a
  let a ← ResetCalls a
  pure ({ st with abacus_indices := idx }, a)

/-! ### Applying an abacus to the live graph -/

/-- First scan of `UnAlignTrailingGapBeads`: move right while the next bead
is a gap. -/
def trailRight (st : Store) : Nat → Int → Option Int
  | 0, _ => none
  | fuel + 1, cur =>
    match GetBead st cur with
    | none => none
    | some bead =>
      if bead.next ≠ -1 then
        match GetBead st bead.next with
        | none => none
        | some nb =>
          match GetBase st nb.soffset with
          | none => none
          | some c => if c = '-' then trailRight st fuel bead.next else some cur
      else some cur

/-- Second scan of `UnAlignTrailingGapBeads`: move left while the previous
bead is a gap. -/
def trailLeft (st : Store) : Nat → Int → Option Int
  | 0, _ => none
  | fuel + 1, cur =>
    match GetBead st cur with
    | none => none
    | some bead =>
      if bead.prev ≠ -1 then
        match GetBead st bead.prev with
        | none => none
        | some pb =>
          match GetBase st pb.soffset with
          | none => none
          | some c => if c = '-' then trailLeft st fuel bead.prev else some cur
      else some cur

/-- The unaligning part of one step of the removal loop of
`UnAlignTrailingGapBeads`, for the gap bead `cur`. -/
def trailUnalign (st : Store) (cur : Int) : Option Store := do
  let bead ← GetBead st cur
  let upbead ← GetBead st bead.up
  let bchar ← GetBase st bead.soffset
  if bchar ≠ '-' then none else
  let st ← modBead st bead.up fun b => { b with down := bead.down }
  let bead1 ← GetBead st cur
  let st ← patchBead st bead1.down fun b => { b with up := upbead.boffset }
  let st ← decColumn st bead.column_index bchar
  let st ← modBead st cur fun b => { b with up := -1 }
  let st ← modBead st cur fun b => { b with down := -1 }
  modBead st cur fun b => { b with column_index := -1 }

/-- The detaching part of the same step: the bead is cut from its remaining
neighbour, which becomes the current bead. -/
def trailDetach (st : Store) (cur : Int) : Option (Store × Int) := do
  let bead ← GetBead st cur
  if bead.next = -1 then do
    let prevbead ← GetBead st bead.prev
    let st ← modBead st bead.prev fun b => { b with next := -1 }
    let st ← modBead st cur fun b => { b with prev := -1 }
    pure (st, prevbead.boffset)
  else do
    let nextbead ← GetBead st bead.next
    let st ← modBead st bead.next fun b => { b with prev := -1 }
    let st ← modBead st cur fun b => { b with next := -1 }
    pure (st, nextbead.boffset)

/-- The removal loop of `UnAlignTrailingGapBeads`. -/
def trailLoop (anchor : Int) : Nat → Store → Int → Option Store
  | 0, _, _ => none
  | fuel + 1, st, cur =>
    match GetBead st cur with
    | none => none
    | some bead =>
      if bead.boffset ≠ anchor then
        match trailUnalign st cur with
        | none => none
        | some st1 =>
          match trailDetach st1 cur with
          | none => none
          | some (st2, nxt) => trailLoop anchor fuel st2 nxt
      else some st

/-- `UnAlignTrailingGapBeads(bid)`: returns the anchor bead. -/
def UnAlignTrailingGapBeads (st : Store) (bid : Int) : Option (Store × Int) := do
  let bead ← GetBead st bid
  let cur ← trailRight st (st.beadStore.length + 1) bid
  let cb ← GetBead st cur
  if cb.next ≠ -1 then do
    let cur ← trailLeft st (st.beadStore.length + 1) cur
    let st ← trailLoop cb.next (st.beadStore.length + 1) st cur
    pure (st, cb.next)
  else do
    let st ← trailLoop bead.prev (st.beadStore.length + 1) st cur
    pure (st, bead.prev)

/-- `Setchar(store, i, &c)`: the array grows (NUL-filled) when `i` is past its
end; a negative index is `none`. -/
def setGrowChar (l : List Char) (i : Int) (c : Char) : Option (List Char) :=
  if i < 0 then none
  else if i.toNat < l.length then some (l.set i.toNat c)
  else some (l ++ List.replicate (i.toNat - l.length) (Char.ofNat 0) ++ [c])

/-- The reads `BaseCall` makes for one bead of the column; `none` is a
dereferenced `NULL`. -/
def baseCallRead (st : Store) (bid : Int) : Option Unit := do
  let bead ← GetBead st bid
  let cbase ← GetBase st bead.soffset
  let _ ← getAt st.qualityStore bead.soffset
  if cbase = 'N' then pure () else
  let _ ← GetFragment st bead.frag_index
  pure ()

/-- Store effect of `BaseCall(cid, 1, &var, &ap, -1, &base, 0, 0, opp)`:
the base and quality characters of the call bead are overwritten and nothing
else is written.  The two characters come out of a floating-point
computation; they are the parameter `oracle` of the model. -/
def BaseCallStore (oracle : Store → Int → Char × Char) (st : Store) (cid : Int) :
    Option Store := do
  let column ← GetColumn st cid
  let call ← GetBead st column.call
  let bids ← columnBeads st cid
  bids.foldlM (fun _ bid => baseCallRead st bid) ()
  let seq ← setGrowChar st.sequenceStore call.soffset (oracle st cid).1
  let qlt ← setGrowChar st.qualityStore call.soffset (oracle st cid).2
  pure { st with sequenceStore := seq, qualityStore := qlt }

/-- One step of the search loop of `ApplyAbacus` (left shift) when the
bead `ex` does not carry the wanted character: room is made behind it if it
ends its fragment or sits in the last column of the window.  `cid` is where
the loop's `column` pointer points; `ColumnAppend` is followed by the
re-fetch `column = GetColumn(columnStore, column->lid)`. -/
def leftRoom (end_column : Int) (st : Store) (cid ex : Int) : Option (Store × Int) := do
  let eb ← GetBead st ex
  if eb.next = -1 then do
    let (st, eid) ← AppendGapBead st eb.boffset
    let eb ← GetBead st ex
    let col ← GetColumn st eb.column_index
    let (st, _) ← AlignBead st col.next eid
    pure (st, cid)
  else if eb.column_index = end_column then do
    let (st, eid) ← AppendGapBead st eb.boffset
    let column ← GetColumn st cid
    let eb ← GetBead st ex
    let (st, _) ← ColumnAppend st eb.column_index eid
    pure (st, column.lid)
  else pure (st, cid)

/-- The search loop of `ApplyAbacus` (left shift): walk right from `ex`
until a bead carrying `a_entry` is met. -/
def leftSeek (a_entry : Char) (end_column : Int) :
    Nat → Store → Int → Int → Option (Store × Int × Int)
  | 0, _, _, _ => none
  | fuel + 1, st, cid, ex =>
    match GetBead st ex with
    | none => none
    | some eb =>
      match GetBase st eb.soffset with
      | none => none
      | some c =>
        if a_entry ≠ c then
          match leftRoom end_column st cid ex with
          | none => none
          | some (st1, cid1) =>
            match GetBead st1 ex with
            | none => none
            | some eb1 => leftSeek a_entry end_column fuel st1 cid1 eb1.next
        else some (st, cid, ex)

/-- The same step for the right shift. -/
def rightRoom (start_column : Int) (st : Store) (cid ex : Int) : Option (Store × Int) := do
  let eb ← GetBead st ex
  if eb.prev = -1 then do
    let (st, eid) ← PrependGapBead st eb.boffset
    let eb ← GetBead st ex
    let col ← GetColumn st eb.column_index
    let (st, _) ← AlignBead st col.prev eid
    pure (st, cid)
  else if eb.column_index = start_column then do
    let (st, eid) ← AppendGapBead st eb.prev
    let column ← GetColumn st cid
    let eb ← GetBead st ex
    let col ← GetColumn st eb.column_index
    let (st, _) ← ColumnAppend st col.prev eid
    pure (st, column.lid)
  else pure (st, cid)

/-- The search loop of `ApplyAbacus` (right shift): walk left from `ex`. -/
def rightSeek (a_entry : Char) (start_column : Int) :
    Nat → Store → Int → Int → Option (Store × Int × Int)
  | 0, _, _, _ => none
  | fuel + 1, st, cid, ex =>
    match GetBead st ex with
    | none => none
    | some eb =>
      match GetBase st eb.soffset with
      | none => none
      | some c =>
        if a_entry ≠ c then
          match rightRoom start_column st cid ex with
          | none => none
          | some (st1, cid1) =>
            match GetBead st1 ex with
            | none => none
            | some eb1 => rightSeek a_entry start_column fuel st1 cid1 eb1.prev
        else some (st, cid, ex)

/-- The fuel of the search loops: every step either moves to an existing
bead of the fragment or opens a place in a further column. -/
def seekFuel (st : Store) : Nat := 2 * (st.beadStore.length + st.columnStore.length) + 4

/-- The exchange branch of `ApplyAbacus` for the bead `bid`: find the bead
carrying `a_entry` and shift it into the place of `bid`. -/
def applyShift (a : Abacus) (left : Bool) (a_entry : Char) (st : Store) (cid bid : Int) :
    Option (Store × Int × Int) := do
  let bead ← GetBead st bid
  if left then do
    let (st, cid, ex) ← leftSeek a_entry a.end_column (seekFuel st) st cid bead.boffset
    let eb ← GetBead st ex
    let (st, _) ← LeftEndShiftBead st bid eb.boffset
    pure (st, cid, ex)
  else do
    let (st, cid, ex) ← rightSeek a_entry a.start_column (seekFuel st) st cid bead.boffset
    let eb ← GetBead st ex
    let (st, _) ← RightEndShiftBead st eb.boffset bid
    pure (st, cid, ex)

/-- What `ApplyAbacus` does with the bead `bid` of the current column, given
the abacus entry for it.  `left` selects the branch.  Returns the store, the
`column` pointer and the bead whose `down` link is followed next. -/
def applyBead (a : Abacus) (left : Bool) (columns : Int) (st : Store) (cid bid : Int) :
    Option (Store × Int × Int) := do
  let bead ← GetBead st bid
  let row ← getAt st.abacus_indices bead.frag_index
  let a_entry ← GetAbacus a (row - 1) (if left then columns else a.columns - columns - 1)
  if a_entry = 'n' then do
    let (st, _) ← UnAlignTrailingGapBeads st bid
    pure (st, cid, bead.up)
  else do
    let c ← GetBase st bead.soffset
    if a_entry ≠ c then applyShift a left a_entry st cid bid
    else pure (st, cid, bid)

/-- The bead loop of `ApplyAbacus` for one column: `bid` runs down the column. -/
def applyColumn (a : Abacus) (left : Bool) (columns : Int) :
    Nat → Store → Int → Int → Option (Store × Int)
  | 0, _, _, _ => none
  | fuel + 1, st, cid, bid =>
    if bid ≠ -1 then
      match applyBead a left columns st cid bid with
      | none => none
      | some (st1, cid1, ex) =>
        match GetBead st1 ex with
        | none => none
        | some eb => applyColumn a left columns fuel st1 cid1 eb.down
    else some (st, cid)

/-- The part of one round of the column loop that follows the bead loop:
`BaseCall` on the column, then the step to the next column. -/
def applyNext (oracle : Store → Int → Char × Char) (left : Bool) (st : Store) (cid : Int) :
    Option (Store × Int) := do
  let column ← GetColumn st cid
  let st ← BaseCallStore oracle st column.lid
  let column ← GetColumn st cid
  pure (st, if left then column.next else column.prev)

/-- The column loop of `ApplyAbacus`: `cid` is the current column, `columns`
the number of columns done. -/
def applyWindow (oracle : Store → Int → Char × Char) (a : Abacus) (left : Bool) :
    Nat → Store → Int → Int → Option Store
  | 0, st, _, _ => some st
  | n + 1, st, cid, columns =>
    match GetColumn st cid with
    | none => none
    | some column =>
      match GetBead st column.call with
      | none => none
      | some call =>
        match applyColumn a left columns (seekFuel st) st cid call.down with
        | none => none
        | some (st1, cid1) =>
          match applyNext oracle left st1 cid1 with
          | none => none
          | some (st2, nxt) => applyWindow oracle a left n st2 nxt (columns + 1)

/-- `ApplyAbacus(a, opp)`: the live graph is rewritten only for an abacus
tagged `LEFT_SHIFT` or `RIGHT_SHIFT`. -/
def ApplyAbacus (oracle : Store → Int → Char × Char) (st : Store) (a : Abacus) : Option Store :=
  match a.shift with
  | ShiftStatus.LEFT_SHIFT =>
    match GetColumn st a.start_column with
    | none => none
    | some _ => applyWindow oracle a true a.window_width.toNat st a.start_column 0
  | ShiftStatus.RIGHT_SHIFT =>
    match GetColumn st a.end_column with
    | none => none
    | some _ => applyWindow oracle a false a.window_width.toNat st a.end_column 0
  | _ => some st

/-! ### RefineWindow -/

/-- An abacus with the three figures `RefineWindow` keeps for it. -/
structure Candidate where
  abacus : Abacus
  scores : Scores

/-- The three candidates `RefineWindow` computes first, and the number of
draws of `random()` consumed. -/
structure Candidates where
  orig : Candidate
  left : Candidate
  right : Candidate
  draws : Nat

/-- The scored original abacus: `CloneAbacus`, `MergeAbacus`, `ScoreAbacus`. -/
def scoreOriginal (rnd : Nat → Int) (k : Nat) (a : Abacus) : Option ScoreState := do
  let (o, _) ← MergeAbacus (CloneAbacus a)
  ScoreAbacus rnd k o

/-- A scored abacus with its gap score. -/
def withGapScore (s : ScoreState) : Option Candidate := do
  let g ← AffineScoreAbacus s.abacus
  pure { abacus := s.abacus, scores := { score := s.score, columns := s.cols, gap_score := g } }

/-- The opening of `RefineWindow`: the original, left-shifted and
right-shifted abacus with their scores. -/
def refineCandidates (rnd : Nat → Int) (a : Abacus) : Option Candidates := do
  let so ← scoreOriginal rnd 0 a
  let sl ← LeftShift rnd so.draws a
  let sr ← RightShift rnd sl.draws (CloneAbacus a)
  let o ← withGapScore so
  let l ← withGapScore sl
  let r ← withGapScore sr
  pure { orig := o, left := l, right := r, draws := sr.draws }

/-- `best_abacus` after the first comparison. -/
def firstBest (c : Candidates) : Option Candidate :=
  match selectShift c.orig.scores c.left.scores c.right.scores with
  | ShiftStatus.LEFT_SHIFT =>
    match GetAbacusBaseCount c.left.abacus with
    | none => none
    | some _ => some c.left
  | ShiftStatus.RIGHT_SHIFT =>
    match GetAbacusBaseCount c.right.abacus with
    | none => none
    | some _ => some c.right
  | _ => some c.orig

/-- `is_good_base`. -/
def is_good_base (b : Char) : Bool :=
  b = '-' || b = 'a' || b = 'A' || b = 'c' || b = 'C' || b = 'g' || b = 'G' ||
  b = 't' || b = 'T' || b = 'n' || b = 'N'

/-- Row `i` of the matrix `reads` of `GetReadsForAbacus`.  A cell is the
abacus character when that is a good base, `-` in the first `window_width`
columns otherwise; elsewhere it is left as `safe_malloc` returned it, and
reading it is `none`. -/
def readsRow (a : Abacus) (i : Int) : Option (List Char) :=
  (intRange 0 a.columns).mapM fun j => do
    let b ← GetAbacus a i j
    if is_good_base b then pure b
    else if j < a.window_width then pure '-' else none

/-- The distance `PopulateDistMatrixForAbacus` accumulates for two rows: the
number of positions where they differ and neither is `n`. -/
def readsDistance : List Char → List Char → Int
  | x :: xs, y :: ys => (if x ≠ y ∧ x ≠ 'n' ∧ y ≠ 'n' then 1 else 0) + readsDistance xs ys
  | _, _ => 0

/-- `max_element` as `PopulateDistMatrixForAbacus` leaves it: the largest
entry `dist_matrix[i][j]`, `i ≤ j`, and at least 0. -/
def maxElement (a : Abacus) : Option Int := do
  let reads ← (intRange 0 a.rows).mapM (readsRow a)
  pure ((reads.map fun r => (reads.map fun r2 => readsDistance r r2).foldl max 0).foldl max 0)

/-- `best_abacus` after the mixed stage.  When `max_element < 3` the first
winner stands.  Otherwise the reads are clustered into two alleles and a
shifting template is derived (`ClusterReadsForAbacus`,
`GetConsensusForAbacus`, `CountGaps`, `MapConsensus`, the bound, score and
template routines); these routines are not part of the embedding and their
outcome is the parameter `plan`: `none` when one of their two early exits is
taken (no gap in the short allele, an ungapped consensus shorter than
`MSTRING_SIZE`), else what they pass to `MixedShift`. -/
def finalBest (rnd : Nat → Int) (plan : Option MixedPlan) (k : Nat) (best : Candidate) :
    Option Candidate :=
  match maxElement best.abacus with
  | none => none
  | some mx =>
    if mx < 3 then some best
    else
      match plan with
      | none => some best
      | some p =>
        match MixedShift rnd k p (CloneAbacus best.abacus) with
        | none => none
        | some sm =>
          match withGapScore sm with
          | none => none
          | some m => if mixedWins m.scores best.scores then some m else some best

/-- The abacus `RefineWindow` applies, with the value it returns. -/
def refineChoice (rnd : Nat → Int) (plan : Option MixedPlan) (a : Abacus) :
    Option (Candidate × Int) := do
  let c ← refineCandidates rnd a
  let b ← firstBest c
  let f ← finalBest rnd plan c.draws b
  pure (f, scoreReduction c.orig.scores c.left.scores c.right.scores)

/-- `RefineWindow(ma, start_column, stab_bgn, opp)`: returns the store and
`score_reduction`.  `ma` is the `lid` of the MANode, `start_column` the `lid`
of the first column. -/
def RefineWindow (rnd : Nat → Int) (oracle : Store → Int → Char × Char)
    (plan : Option MixedPlan) (st : Store) (ma start_column stab_bgn : Int) :
    Option (Store × Int) := do
  let (st, a) ← CreateAbacus st ma start_column stab_bgn
  let (best, reduction) ← refineChoice rnd plan a
  let st ← ApplyAbacus oracle st best.abacus
  pure (st, reduction)

/-- Number of cells of row `i` (columns `0 .. columns-1`) whose content
satisfies `p`. -/
def rowCountP (p : Option Char → Bool) (a : Abacus) (i : Int) : Nat :=
  (intRange 0 a.columns).countP fun j => p (GetAbacus a i j)

/-- Number of non-gap characters in row `i` of the abacus. -/
def rowNonGap (a : Abacus) (i : Int) : Nat :=
  rowCountP (fun c => c.isSome && c != some '-') a i

/-- Number of cells of row `i` that hold the character `x`. -/
def rowCount (a : Abacus) (i : Int) (x : Char) : Nat :=
  rowCountP (fun c => c == some x) a i

/-- Two abacuses of the same shape whose rows hold the same characters, up to
their position in the row. -/
def RowsKept (a b : Abacus) : Prop :=
  b.rows = a.rows ∧ b.columns = a.columns ∧ b.window_width = a.window_width ∧
  b.shift = a.shift ∧ b.beads.length = a.beads.length ∧
  ∀ p i, rowCountP p b i = rowCountP p a i

/-! ## Scenarios -/

/-- Loading reads (given as sequence and quality strings) into the reset
stores, in order. -/
def loadReads (reads : List (List Char × List Char)) : Store :=
  reads.foldl (fun st r => (AppendArtificialFragToLocalStore st 'R' 1 0 'X' r.1 r.2).1) ResetStores

/-- The column-building loop of `SeedMAWithFragment`: `FirstColumn` on the
fragment's first bead, then `ColumnAppend` for each further bead. -/
def seedColumns (st : Store) (mid fid : Int) : Option Store := do
  let f ← GetFragment st fid
  let (st, c0) ← FirstColumn st mid f.beads
  let r ← (intRange 1 f.length).foldlM
    (fun (acc : Store × Int) k => ColumnAppend acc.1 acc.2 (f.beads + k)) (st, c0)
  pure r.1

/-- Aligning fragment `fid` bead by bead with the columns `0, 1, ...`
(`AlignBead` of its `k`-th bead in column `k`). -/
def alignColumnwise (st : Store) (fid : Int) : Option Store := do
  let f ← GetFragment st fid
  (intRange 0 f.length).foldlM
    (fun st k => do
      let (s, _) ← AlignBead st k (f.beads + k)
      pure s) st

/-- A multialignment of equally long reads stacked without offset: the first
read seeds MANode 0, the others are aligned column by column. -/
def stackReads (reads : List (List Char × List Char)) : Option Store := do
  let (st, mid) := CreateMANode (loadReads reads) 0
  let st ← seedColumns st mid 0
  (intRange 1 reads.length).foldlM alignColumnwise st

/-- The part of an abacus that the fill, pad and call loops never touch. -/
def Abacus.frame (a : Abacus) : Int × Int × Int × Int × Int × ShiftStatus :=
  (a.start_column, a.end_column, a.rows, a.columns, a.window_width, a.shift)

/-- Two stacked sequences `A-T`, `AAT`; the window is the first two columns. -/
def stackC9 : Option Store :=
  stackReads [(['A', '-', 'T'], ['I', 'I', 'I']), (['A', 'A', 'T'], ['I', 'I', 'I'])]

/-- Three stacked sequences `-CT`, `CAT`, `AAT`; the window is the first two
columns. -/
def stackC8 : Option Store :=
  stackReads [(['-', 'C', 'T'], ['I', 'I', 'I']), (['C', 'A', 'T'], ['I', 'I', 'I']),
    (['A', 'A', 'T'], ['I', 'I', 'I'])]

/-- The lexicographic order the specification names: mismatch score, then
non-null columns, then gap-open count. -/
def Scores.lexLt (x y : Scores) : Prop :=
  x.score < y.score ∨ (x.score = y.score ∧ (x.columns < y.columns ∨
    (x.columns = y.columns ∧ x.gap_score < y.gap_score)))

/-- The order of the second comparison: gap-open count, then non-null
columns, then mismatch score. -/
def Scores.revLt (x y : Scores) : Prop :=
  x.gap_score < y.gap_score ∨ (x.gap_score = y.gap_score ∧ (x.columns < y.columns ∨
    (x.columns = y.columns ∧ x.score < y.score)))

/-- The candidates of the window of `stackC8`. -/
def candidatesC8 : Option Candidates := do
  let st ← stackC8
  let (_, a) ← CreateAbacus st 0 0 2
  refineCandidates (fun _ => 1) a

/-- The abacus of the window of `stackC8`. -/
def abacusC8 : Option Abacus := do
  let st ← stackC8
  let (_, a) ← CreateAbacus st 0 0 2
  pure a

/-- No row of the abacus holds a gap character inside the window (the
centre third). -/
def noGapWindow (a : Abacus) : Bool :=
  (intRange 0 a.rows).all fun i =>
    (intRange a.window_width (2 * a.window_width)).all fun j => GetAbacus a i j != some '-'

/-- An abacus three windows wide whose centre third holds no gap. -/
def NoGapCentre (a : Abacus) : Prop :=
  a.columns = 3 * a.window_width ∧
  ∀ i j, 0 ≤ i → i < a.rows → a.window_width ≤ j → j < 2 * a.window_width →
    GetAbacus a i j ≠ some '-'

/-- Two stacked sequences `ACAT`, `CACT`; the window is the first three
columns. -/
def stackC7 : Option Store :=
  stackReads [(['A', 'C', 'A', 'T'], ['I', 'I', 'I', 'I']),
    (['C', 'A', 'C', 'T'], ['I', 'I', 'I', 'I'])]

/-- Two stacked copies of `AAT`; the window is the first two columns. -/
def stackAA : Option Store :=
  stackReads [(['A', 'A', 'T'], ['I', 'I', 'I']), (['A', 'A', 'T'], ['I', 'I', 'I'])]

/-! ## ApplyAlignment -/

/-- Write through a fragment pointer. -/
def modFragment (st : Store) (i : Int) (f : Fragment → Fragment) : Option Store :=
  match GetFragment st i with
  | none => none
  | some x => some { st with fragmentStore := setAt st.fragmentStore i (f x) }

/-- The loop variables of `ApplyAlignment`.  `abead` is the offset of the
bead the pointer `abead` points at (a pointer held across a call is read as
the bead at its offset); `binsert` is `none` until its first assignment. -/
structure AlignCursor where
  apos : Int
  bpos : Int
  last_a_aligned : Int
  last_b_aligned : Int
  abead : Int
  binsert : Option Int
  deriving DecidableEq

/-- The body of the catch-up loops of `ApplyAlignment`, entered with the
pointer `abead` on the bead at offset `p`: a gap bead is appended to `b`
behind `binsert` and aligned with that bead of `a`.  In the closing loop of
`ApplyAlignment` (`early`) the column and the offset of the bead are read
before `AppendGapBead`; in the other loops the bead is fetched again by its
`boffset` after it.  Returns the store, the gap bead and the new
`last_a_aligned`. -/
def catchBody (early : Bool) (st : Store) (p : Int) (binsert : Option Int) :
    Option (Store × Int × Int) := do
  let ab ← GetBead st p
  let b ← binsert
  let (st, g) ← AppendGapBead st b
  let ab2 ← GetBead st ab.boffset
  let (st, _) ← AlignBead st (if early then ab.column_index else ab2.column_index) g
  let ab3 ← GetBead st ab.boffset
  pure (st, g, if early then ab.boffset else ab3.boffset)

/-- The catch-up loop
`while (abead->next > -1 && (abead = GetBead(abead->next))->boffset != aindex[apos])`:
every bead of `a` met before the bead `aindex[apos]` gets a gap bead of `b`
aligned with it.  The state is the store and the cursor. -/
def catchUp (early : Bool) (aindex : List Int) :
    Nat → Store → AlignCursor → Option (Store × AlignCursor)
  | 0, _, _ => none
  | fuel + 1, st, cur =>
    match GetBead st cur.abead with
    | none => none
    | some ab =>
      if ab.next > -1 then
        match GetBead st ab.next, getAt aindex cur.apos with
        | some nb, some target =>
          if nb.boffset ≠ target then
            match catchBody early st ab.next cur.binsert with
            | none => none
            | some (st1, g, la) =>
              catchUp early aindex fuel st1
                { cur with abead := nb.boffset, binsert := some g,
                           last_a_aligned := la, last_b_aligned := g }
          else some (st, { cur with abead := ab.next })
        | _, _ => none
      else some (st, cur)

/-- One round of the aligning loops of `ApplyAlignment`: the bead
`aindex[apos]` of `a` takes the bead `bboffset+bpos` of `b` into its column,
both positions advance, and the catch-up loop runs. -/
def alignOne (early : Bool) (aindex : List Int) (bboffset : Int) (st : Store)
    (cur : AlignCursor) : Option (Store × AlignCursor) := do
  let ai ← getAt aindex cur.apos
  let ab ← GetBead st ai
  let (st, _) ← AlignBead st ab.column_index (bboffset + cur.bpos)
  let ab1 ← GetBead st ai
  catchUp early aindex (st.beadStore.length + 1) st
    { apos := cur.apos + 1, bpos := cur.bpos + 1,
      last_a_aligned := if early then ab1.boffset else ai,
      last_b_aligned := bboffset + cur.bpos, abead := ai,
      binsert := some (bboffset + cur.bpos + 1 - 1) }

/-- The loops `while (apos < bound)` and `while (bpos < bound)` around
`alignOne`; `onA` selects the position that is compared. -/
def alignRun (onA : Bool) (aindex : List Int) (bboffset bound : Int) :
    Nat → Store → AlignCursor → Option (Store × AlignCursor)
  | 0, _, _ => none
  | fuel + 1, st, cur =>
    if (if onA then cur.apos else cur.bpos) < bound then
      match alignOne false aindex bboffset st cur with
      | none => none
      | some (st1, cur1) => alignRun onA aindex bboffset bound fuel st1 cur1
    else some (st, cur)

/-- The loop `while (abead->prev != last_a_aligned)` of the branch for a
negative trace entry: gap beads of `b` are aligned with the beads of `a`
between the last aligned one and `abead`. -/
def gapFill : Nat → Store → AlignCursor → Option (Store × AlignCursor)
  | 0, _, _ => none
  | fuel + 1, st, cur =>
    match GetBead st cur.abead with
    | none => none
    | some ab =>
      if ab.prev ≠ cur.last_a_aligned then
        match cur.binsert with
        | none => none
        | some binsert =>
          match AppendGapBead st binsert with
          | none => none
          | some (st1, g) =>
            match GetBead st1 cur.last_a_aligned with
            | none => none
            | some lb =>
              match GetBead st1 lb.next with
              | none => none
              | some nb =>
                match AlignBead st1 nb.column_index g with
                | none => none
                | some (st2, _) =>
                  gapFill fuel st2
                    { cur with binsert := some g, last_a_aligned := lb.next,
                               last_b_aligned := g }
      else some (st, cur)

/-- The end of the branch for a negative trace entry: a new column, seeded
with the bead `bboffset+bpos` of `b`, is put before the column of `abead`. -/
def gapColumn (aindex : List Int) (bboffset : Int) (st : Store) (cur : AlignCursor) :
    Option (Store × AlignCursor) := do
  let ab ← GetBead st cur.abead
  let col ← GetColumn st ab.column_index
  let (st, _) ← ColumnAppend st col.prev (bboffset + cur.bpos)
  let ai ← getAt aindex cur.apos
  let ab ← GetBead st ai
  pure (st, { cur with abead := ai, last_a_aligned := ab.prev,
                       last_b_aligned := bboffset + cur.bpos, bpos := cur.bpos + 1 })

/-- The branch `*trace < 0` (the gap is in `a`). -/
def traceNegative (aindex : List Int) (bboffset t : Int) (st : Store) (cur : AlignCursor) :
    Option (Store × AlignCursor) := do
  let (st, cur) ← alignRun true aindex bboffset (-t - 1) (aindex.length + 1) st cur
  let ai ← getAt aindex cur.apos
  let (st, cur) ← gapFill (st.beadStore.length + 1) st
    { cur with abead := ai, binsert := some (bboffset + cur.bpos - 1) }
  gapColumn aindex bboffset st cur

/-- The middle of the branch `*trace > 0`: a gap bead is appended to `b`
behind the last aligned bead of `b` and aligned with the bead `aindex[apos]`
of `a`.  The failing `assert (off == ipx)` is `none`. -/
def gapBead (aindex : List Int) (st : Store) (cur : AlignCursor) :
    Option (Store × AlignCursor) := do
  let ipx ← getAt aindex cur.apos
  let ab ← GetBead st ipx
  if ab.boffset ≠ ipx then none else
  let (st, g) ← AppendGapBead st cur.last_b_aligned
  let ab ← GetBead st ab.boffset
  let (st, g) ← AlignBead st ab.column_index g
  pure (st, { cur with abead := ipx, binsert := some g, last_a_aligned := ipx,
                       last_b_aligned := g, apos := cur.apos + 1 })

/-- The branch `*trace > 0` (the gap is in `b`). -/
def tracePositive (aindex : List Int) (bboffset t : Int) (st : Store) (cur : AlignCursor) :
    Option (Store × AlignCursor) := do
  let (st, cur) ← alignRun false aindex bboffset (t - 1) (aindex.length + 1) st cur
  let (st, cur) ← gapBead aindex st cur
  catchUp false aindex (st.beadStore.length + 1) st cur

/-- One round of the loop over the trace. -/
def traceStep (aindex : List Int) (bboffset : Int) (st : Store) (cur : AlignCursor) (t : Int) :
    Option (Store × AlignCursor) :=
  if t < 0 then traceNegative aindex bboffset t st cur
  else tracePositive aindex bboffset t st cur

/-- The loop `while (NULL != trace && *trace != 0)`.  The list holds the
entries of the array; the loop ends at the first 0 (or at the end of the
list; `NULL` is the empty list). -/
def traceLoop (aindex : List Int) (bboffset : Int) :
    List Int → Store → AlignCursor → Option (Store × AlignCursor)
  | [], st, cur => some (st, cur)
  | t :: ts, st, cur =>
    if t = 0 then some (st, cur)
    else
      match traceStep aindex bboffset st cur t with
      | none => none
      | some (st1, cur1) => traceLoop aindex bboffset ts st1 cur1

/-- The loop `while (ovl_remaining-- > 0)`. -/
def alignRest (aindex : List Int) (bboffset : Int) :
    Nat → Store → AlignCursor → Option (Store × AlignCursor)
  | 0, st, cur => some (st, cur)
  | n + 1, st, cur =>
    match alignOne true aindex bboffset st cur with
    | none => none
    | some (st1, cur1) => alignRest aindex bboffset n st1 cur1

/-- The first loop of the tail of `ApplyAlignment`: gap beads of `b` for
the columns to the right of `column_index`.  Returns the last column. -/
def tailGaps : Nat → Store → Int → Option Int → Option (Store × Int)
  | 0, _, _, _ => none
  | fuel + 1, st, column_index, binsert =>
    match GetColumn st column_index with
    | none => none
    | some pcol =>
      if pcol.next ≠ -1 then
        match binsert with
        | none => none
        | some b =>
          match AppendGapBead st b with
          | none => none
          | some (st1, g) =>
            match AlignBead st1 pcol.next g with
            | none => none
            | some (st2, _) => tailGaps fuel st2 pcol.next (some g)
      else some (st, column_index)

/-- The second loop of the tail: the dovetail beads of `b` get columns of
their own. -/
def tailColumns (bboffset : Int) : Nat → Store → Int → Int → Option Store
  | 0, st, _, _ => some st
  | n + 1, st, column_index, bpos =>
    match ColumnAppend st column_index (bboffset + bpos) with
    | none => none
    | some (st1, lid) => tailColumns bboffset n st1 lid (bpos + 1)

/-- The tail of `ApplyAlignment`, from `column_appends = blen-bpos` on. -/
def alignTail (bboffset blen : Int) (st : Store) (cur : AlignCursor) : Option Store := do
  let ab ← GetBead st cur.abead
  if blen - cur.bpos > 0 then do
    let (st, column_index) ←
      tailGaps (st.columnStore.length + 1) st ab.column_index cur.binsert
    tailColumns bboffset (blen - cur.bpos).toNat st column_index cur.bpos
  else pure st

/-- The loop `while (bpos < -ahang) ColumnPrepend(first_touched_column, ...)`
of the branch `ahang < 0`, `n` being the number of rounds (none when
`ahang >= 0`). -/
def hangColumns (bboffset first_touched_column : Int) (n : Nat) (st : Store) : Option Store :=
  (List.range n).foldlM
    (fun st (k : Nat) => do
      let (st, _) ← ColumnPrepend st first_touched_column (bboffset + k)
      pure st) st

/-- The opening of `ApplyAlignment` up to the loop over the trace. -/
def alignStart (aindex : List Int) (alen bboffset ahang : Int) (st : Store) :
    Option (Store × AlignCursor) := do
  let apos := max ahang 0
  let ai ← getAt aindex (if ahang = alen then alen - 1 else apos)
  let ab ← GetBead st ai
  let st ← hangColumns bboffset ab.column_index (-ahang).toNat st
  let a0 ← getAt aindex apos
  let b0 ← GetBead st a0
  pure (st, { apos := apos, bpos := if ahang < 0 then -ahang else 0,
              last_a_aligned := b0.prev,
              last_b_aligned := if ahang < 0 then bboffset + -ahang - 1 else -1,
              abead := ai, binsert := none })

/-- `ApplyAlignment(afid, aoffset, bfid, ahang, trace)` for `afid >= 0`;
returns the store and `last_b_aligned`.  With `afid < 0` (alignment to the
consensus) `afrag` stays `NULL` and the closing `bfrag->manode =
afrag->manode` dereferences it: that path is `none`. -/
def ApplyAlignment (st : Store) (afid aoffset bfid ahang : Int) (trace : List Int) :
    Option (Store × Int) :=
  if afid < 0 then none else do
  let afrag ← GetFragment st afid
  let bfrag ← GetFragment st bfid
  let aindex := (List.range afrag.length.toNat).map fun (ai : Nat) => afrag.beads + (ai : Int)
  let (st, cur) ← alignStart aindex afrag.length bfrag.beads ahang st
  let (st, cur) ← traceLoop aindex bfrag.beads trace st cur
  let (st, cur) ← alignRest aindex bfrag.beads
    (min (bfrag.length - cur.bpos) (afrag.length - cur.apos)).toNat st cur
  let st ← alignTail bfrag.beads bfrag.length st cur
  let afrag ← GetFragment st afid
  let st ← modFragment st bfid fun f => { f with manode := afrag.manode }
  pure (st, cur.last_b_aligned)

/-- The bead offsets met from `bid` following `next` until `-1`. -/
def chainFrom (st : Store) : Nat → Int → Option (List Int)
  | 0, _ => none
  | fuel + 1, bid =>
    if bid = -1 then some []
    else
      match GetBead st bid with
      | none => none
      | some b =>
        match chainFrom st fuel b.next with
        | none => none
        | some l => some (bid :: l)

/-- The characters of the beads `bids`. -/
def beadChars (st : Store) (bids : List Int) : Option (List Char) :=
  bids.mapM fun bid =>
    match GetBead st bid with
    | none => none
    | some b => GetBase st b.soffset

/-- Two reads loaded in order, the first one seeding MANode 0 column by
column. -/
def seededPair (a b : List Char) : Option Store :=
  let (st, mid) := CreateMANode (loadReads [(a, a.map fun _ => 'I'), (b, b.map fun _ => 'I')]) 0
  seedColumns st mid 0

/-- A column without its tally: the fields that place it in the column list. -/
def Column.links (c : Column) : Column := { c with base_count := ResetBaseCount }

/-- The linking fields of the column stored at `j`. -/
def LinksAt (st : Store) (j : Int) : Option Column := (GetColumn st j).map Column.links

/-- The columns keep their linking fields and the MANodes are untouched. -/
def SameCols (st st' : Store) : Prop :=
  (∀ j, LinksAt st' j = LinksAt st j) ∧ st'.manodeStore = st.manodeStore

/-- The head and tail a MANode records. -/
def EndsAt (st : Store) (k : Int) : Option (Int × Int) :=
  (GetMANode st k).map fun m => (m.first, m.last)

/-- The calls that build and edit the column list of one MANode. -/
inductive ColumnOp where
  | first (bid : Int)
  | append (cid bid : Int)
  | prepend (cid bid : Int)
  | remove (nid : Int)

/-- The list with `x` put right after `c`. -/
def insertAfter (c x : Int) : List Int → List Int
  | [] => []
  | y :: ys => if y = c then y :: x :: ys else y :: insertAfter c x ys

/-- The list with `x` put right before `c`. -/
def insertBefore (c x : Int) : List Int → List Int
  | [] => []
  | y :: ys => if y = c then x :: y :: ys else y :: insertBefore c x ys

/-- One call on the column list of MANode `mid`, together with the record of
the live columns in list order (the columns created for `mid` and not
removed).  The step is defined for the calls of the intended use that do not
abort: `FirstColumn` on a MANode without columns, `ColumnAppend` and
`ColumnPrepend` next to a live column, `RemoveNullColumn` of a live column
that is neither the first nor the last. -/
def columnStep (mid : Int) (s : Store × List Int) : ColumnOp → Option (Store × List Int)
  | ColumnOp.first bid =>
    if s.2 = [] then (FirstColumn s.1 mid bid).map fun r => (r.1, [r.2]) else none
  | ColumnOp.append cid bid =>
    if cid ∈ s.2 then (ColumnAppend s.1 cid bid).map fun r => (r.1, insertAfter cid r.2 s.2)
    else none
  | ColumnOp.prepend cid bid =>
    if cid ∈ s.2 then (ColumnPrepend s.1 cid bid).map fun r => (r.1, insertBefore cid r.2 s.2)
    else none
  | ColumnOp.remove nid =>
    if nid ∈ s.2 ∧ s.2.head? ≠ some nid ∧ s.2.getLast? ≠ some nid then
      (RemoveNullColumn s.1 nid).map fun st => (st, s.2.erase nid)
    else none

/-- A sequence of calls on the column list of MANode `mid`. -/
def columnRun (mid : Int) (s : Store × List Int) (ops : List ColumnOp) :
    Option (Store × List Int) :=
  ops.foldlM (columnStep mid) s

/-- The columns met from `cid` following `next` until `-1`. -/
def columnWalk (st : Store) : Nat → Int → Option (List Int)
  | 0, _ => none
  | fuel + 1, cid =>
    if cid = -1 then some []
    else
      match GetColumn st cid with
      | none => none
      | some c =>
        match columnWalk st fuel c.next with
        | none => none
        | some l => some (cid :: l)

/-- The columns `l` are linked in list order, the first one to `p` on its
left, and belong to MANode `mid`. -/
def Linked (st : Store) (mid : Int) : Int → List Int → Prop
  | _, [] => True
  | p, c :: rest =>
    ∃ col, LinksAt st c = some col ∧ col.lid = c ∧ col.ma_id = mid ∧ col.prev = p ∧
      col.next = rest.headD (-1) ∧ Linked st mid c rest

/-- The live columns `l` of MANode `mid` form its column list. -/
def Live (st : Store) (mid : Int) (l : List Int) : Prop :=
  l.Nodup ∧ Linked st mid (-1) l ∧
  (l ≠ [] → ∃ e, EndsAt st mid = some e ∧ l.head? = some e.1 ∧ l.getLast? = some e.2)

/-- Four columns over one read: `A`, `-`, `-`, `T`. -/
def storeAGGT : Store := loadReads [(['A', '-', '-', 'T'], ['I', 'I', 'I', 'I'])]

/-- One read `A--T` loaded, with an empty MANode 0. -/
def nodeAGGT : Store := (CreateMANode storeAGGT 0).1

/-- Four columns are built over the read `A--T` and the second one, a null
column, is removed. -/
def opsAGGT : List ColumnOp :=
  [ColumnOp.first 0, ColumnOp.append 0 1, ColumnOp.append 1 2, ColumnOp.append 2 3,
    ColumnOp.remove 1]

/-- The column list after `FirstColumn` and `ColumnAppend` over the two
beads of a read and `RemoveNullColumn(nid)`: `MANode.first`, `MANode.last`,
the columns met from `first` following `next`, and the `prev` and `next` of
the column that was kept. -/
def removeEndOutcome (read : List Char) (nid keep : Int) :
    Option (Int × Int × Option (List Int) × Int × Int) := do
  let (st, mid) := CreateMANode (loadReads [(read, read.map fun _ => 'I')]) 0
  let (st, c0) ← FirstColumn st mid 0
  let (st, _) ← ColumnAppend st c0 1
  let st ← RemoveNullColumn st nid
  let m ← GetMANode st mid
  let k ← GetColumn st keep
  pure (m.first, m.last, columnWalk st (st.columnStore.length + 1) m.first, k.prev, k.next)

/-! ## Columns as stacks of beads -/

/-- A bead without its place in the fragment chain: the fields that place it
in a column. -/
def Bead.vert (b : Bead) : Bead := { b with prev := 0, next := 0, foffset := 0 }

/-- The column-placing fields of the bead stored at `j`. -/
def VertAt (st : Store) (j : Int) : Option Bead := (GetBead st j).map Bead.vert

/-- A column without its place in the column list. -/
def Column.vert (c : Column) : Column := { c with prev := 0, next := 0, ma_id := 0, ma_index := 0 }

/-- The call bead and tally of the column stored at `c`. -/
def ColVertAt (st : Store) (c : Int) : Option Column := (GetColumn st c).map Column.vert

/-- The character of the bead stored at `b`. -/
def beadChar (st : Store) (b : Int) : Option Char :=
  match GetBead st b with
  | none => none
  | some x => GetBase st x.soffset

/-- The beads `l` hang below `top`, linked by `down` and `up`, the last one
with `down = -1`. -/
def Chain (st : Store) : Int → List Int → Prop
  | top, [] => ∃ t, VertAt st top = some t ∧ t.down = -1
  | top, b :: l =>
    ∃ t x, VertAt st top = some t ∧ t.down = b ∧ VertAt st b = some x ∧ x.up = top ∧
      Chain st b l

/-- The number of beads of `l` whose character is tallied in slot `i`. -/
def tallyOf (st : Store) (l : List Int) (i : Int) : Int :=
  (l.countP fun b => (beadChar st b).map countIndex == some i : Nat)

/-- The profile `bc` counts the beads `l`. -/
def Tally (st : Store) (bc : BaseCount) (l : List Int) : Prop :=
  bc.depth = l.length ∧ bc.count.length = 6 ∧ bc.count.sum = bc.depth ∧
  ∀ i, 0 ≤ i → i ≤ 5 → getAt bc.count i = some (tallyOf st l i)

/-- The bead `b` stored at `j` sits where its fields say: under no bead when
it is in no column, and else it is the call bead of its column or one of the
beads `ch` lists for that column. -/
def BeadOK (st : Store) (ch : Int → List Int) (j : Int) (b : Bead) : Prop :=
  b.boffset = j ∧
  (b.column_index = -1 → b.up = -1 ∧ b.down = -1 ∧ b.frag_index ≠ -1) ∧
  (b.column_index ≠ -1 → ∃ col, ColVertAt st b.column_index = some col ∧
    ((b.frag_index = -1 ∧ col.call = j) ∨ (b.frag_index ≠ -1 ∧ j ∈ ch b.column_index)))

/-- The column `col` stored at `c` has its call bead on top of the chain of
the distinct fragment beads `l`, which all name `c` as their column, and its
profile counts them. -/
def ColOK (st : Store) (c : Int) (col : Column) (l : List Int) : Prop :=
  col.lid = c ∧
  (∃ call, VertAt st col.call = some call ∧ call.column_index = c ∧ call.up = -1 ∧
    call.frag_index = -1) ∧
  Chain st col.call l ∧ l.Nodup ∧
  (∀ b, b ∈ l → ∃ x, VertAt st b = some x ∧ x.column_index = c ∧ x.frag_index ≠ -1 ∧
    (beadChar st b).isSome) ∧
  Tally st col.base_count l

/-- The columns are well formed, `ch c` being the beads stacked under the
call bead of column `c`, top first. -/
structure VWF (st : Store) (ch : Int → List Int) : Prop where
  bead : ∀ j b, VertAt st j = some b → BeadOK st ch j b
  col : ∀ c col, ColVertAt st c = some col → ColOK st c col (ch c)

/-- The list `l` with the bead `a` replaced by the bead `r`. -/
def swapIn (a r : Int) (l : List Int) : List Int := l.map fun x => if x = a then r else x

/-- The column-placing fields of every bead, the call bead and tally of every
column, and the characters are unchanged. -/
def VSame (st st' : Store) : Prop :=
  (∀ j, VertAt st' j = VertAt st j) ∧ (∀ c, ColVertAt st' c = ColVertAt st c) ∧
  st'.sequenceStore = st.sequenceStore

/-- The calls that load fragments and build and edit columns. -/
inductive StackOp where
  | load (seq qlt : List Char)
  | node (iid : Int)
  | firstColumn (mid bid : Int)
  | createColumn (bid : Int)
  | alignBead (cid bid : Int)
  | unAlignBead (bid : Int)
  | exchange (lid rid : Int)
  | columnAppend (cid bid : Int)
  | columnPrepend (cid bid : Int)

/-- One call on the stores. -/
def rawStep (st : Store) : StackOp → Option Store
  | StackOp.load seq qlt => some (AppendArtificialFragToLocalStore st 'R' 1 0 'X' seq qlt).1
  | StackOp.node iid => some (CreateMANode st iid).1
  | StackOp.firstColumn mid bid => (FirstColumn st mid bid).map Prod.fst
  | StackOp.createColumn bid => (CreateColumn st bid).map Prod.fst
  | StackOp.alignBead cid bid => (AlignBead st cid bid).map Prod.fst
  | StackOp.unAlignBead bid => (UnAlignBead st bid).map Prod.fst
  | StackOp.exchange lid rid => (LateralExchangeBead st lid rid).map Prod.fst
  | StackOp.columnAppend cid bid => (ColumnAppend st cid bid).map Prod.fst
  | StackOp.columnPrepend cid bid => (ColumnPrepend st cid bid).map Prod.fst

/-- A sequence of calls from the reset stores. -/
def rawRun (ops : List StackOp) : Option Store := ops.foldlM rawStep ResetStores

/-- The bead `bid` exists and is in no column. -/
def inNoColumn (st : Store) (bid : Int) : Bool :=
  match GetBead st bid with
  | some b => b.column_index == -1
  | none => false

/-- The beads `lid` and `rid` are beads of fragments and name different
columns. -/
def twoColumns (st : Store) (lid rid : Int) : Bool :=
  match GetBead st lid, GetBead st rid with
  | some l, some r =>
    l.frag_index != -1 && r.frag_index != -1 && l.column_index != r.column_index
  | _, _ => false

/-- The calls of the intended use: a column is seeded, and a bead aligned,
only with a bead that is in no column; `LateralExchangeBead` is given two
fragment beads of different columns. -/
def intended (st : Store) : StackOp → Bool
  | StackOp.load _ _ => true
  | StackOp.node _ => true
  | StackOp.firstColumn _ bid => inNoColumn st bid
  | StackOp.createColumn bid => inNoColumn st bid
  | StackOp.alignBead _ bid => inNoColumn st bid
  | StackOp.unAlignBead _ => true
  | StackOp.exchange lid rid => twoColumns st lid rid
  | StackOp.columnAppend _ bid => inNoColumn st bid
  | StackOp.columnPrepend _ bid => inNoColumn st bid

/-- One call of the intended use. -/
def stackStep (st : Store) (op : StackOp) : Option Store :=
  if intended st op then rawStep st op else none

/-- A sequence of calls of the intended use from the reset stores. -/
def stackRun (ops : List StackOp) : Option Store := ops.foldlM stackStep ResetStores

/-- The character `c` is counted in the slot of the symbol `x`: it is `x`, or
it is `n` and `x` is `N`. -/
def tallied (x : Char) (c : Option Char) : Bool :=
  c == some x || (x == 'N' && c == some 'n')

/-- Depth, counts and the beads under the call bead of column `c`. -/
def tallyOutcome (st : Option Store) (c : Int) : Option (Int × List Int × Option (List Int)) := do
  let st ← st
  let col ← GetColumn st c
  pure (col.base_count.depth, col.base_count.count, columnBeads st c)

/-- The columns in whose down-chain (the call bead and the beads under it)
the bead `j` is found, among the first `n` columns; `none` for a chain that
does not end. -/
def chainsOf (st : Store) (j : Int) (n : Nat) : List (Option Int) :=
  (List.range n).filterMap fun (c : Nat) =>
    match GetColumn st c, columnBeads st c with
    | some col, some l => if j = col.call ∨ j ∈ l then some (some (c : Int)) else none
    | some _, none => some none
    | none, _ => none

/-- The `column_index` of bead `j` and the columns whose down-chain holds it. -/
def memberOutcome (st : Option Store) (j : Int) : Option (Int × List (Option Int)) := do
  let st ← st
  let b ← GetBead st j
  pure (b.column_index, chainsOf st j st.columnStore.length)

/-- Two reads `AC` and `AG`: two columns are seeded with the first read, the
second read is aligned to them, its two beads are exchanged, one of them is
unaligned and seeds a third column. -/
def opsStack : List StackOp :=
  [StackOp.load ['A', 'C'] ['I', 'I'], StackOp.load ['A', 'G'] ['I', 'I'], StackOp.node 0,
    StackOp.firstColumn 0 0, StackOp.columnAppend 0 1, StackOp.alignBead 0 2,
    StackOp.alignBead 1 3, StackOp.exchange 2 3, StackOp.unAlignBead 3, StackOp.createColumn 3]

/-- The load of one read, all qualities `I`. -/
def loadOp (seq : List Char) : StackOp := StackOp.load seq (seq.map fun _ => 'I')

/-- The character and the column of each bead of `bids`. -/
def beadPlaces (st : Store) (bids : List Int) : Option (List (Char × Int)) :=
  bids.mapM fun bid =>
    match GetBead st bid with
    | none => none
    | some b =>
      match GetBase st b.soffset with
      | none => none
      | some c => some (c, b.column_index)

/-- The row of fragment `fid`: character and column of each bead along its
chain, following `next` from its first bead. -/
def fragmentRow (st : Store) (fid : Int) : Option (List (Char × Int)) :=
  match GetFragment st fid with
  | none => none
  | some f =>
    match chainFrom st (st.beadStore.length + 1) f.beads with
    | none => none
    | some bids => beadPlaces st bids

/-- What `ApplyAlignment` builds from the reads `a` (seeded in MANode 0) and
`b`: the columns of the MANode in list order, and the rows of both reads. -/
def alignedRows (a b : List Char) (ahang : Int) (trace : List Int) :
    Option (List Int × List (Char × Int) × List (Char × Int)) := do
  let st ← seededPair a b
  let (st', _) ← ApplyAlignment st 0 0 1 ahang trace
  let m ← GetMANode st' 0
  let cols ← columnWalk st' (st'.columnStore.length + 1) m.first
  let ra ← fragmentRow st' 0
  let rb ← fragmentRow st' 1
  pure (cols, ra, rb)

/-! ## Looking for the overlap of two fragments: `GetAlignmentTrace` -/

def CNS_TIGHTSEMIBANDWIDTH : Int := 6

def CNS_LOOSESEMIBANDWIDTH : Int := 100

def CNS_NEG_AHANG_CUTOFF : Int := -5

def CNS_DP_MINLEN : Int := 30

def CNS_DP_THIN_MINLEN : Int := 10

/-- Result of a pairwise aligner (`Overlap` of the aligner library, whose
header is not part of the sources at hand): the fields this file reads.
`trace` is the array `O->trace`; its entries end at the first `0`. -/
structure Overlap where
  begpos : Int
  endpos : Int
  length : Int
  diffs : Int
  trace : List Int
  deriving DecidableEq

/-- `CNS_AlignParams`.  `erate` is kept in units of `CNS_DP_ERATE` (`.06`):
the values this file forms are `CNS_DP_ERATE`, `2*CNS_DP_ERATE` and
`2*CNS_ERATE`, and doubling a double is exact.  `thresh` is only copied. -/
structure CNS_AlignParams where
  bandBgn : Int
  bandEnd : Int
  maxBegGap : Int
  maxEndGap : Int
  opposite : Int
  erate : Int
  thresh : Int
  minlen : Int
  what : Int
  deriving DecidableEq

/-- What one invocation of the pairwise aligner receives: the arguments of
`(*COMPARE_FUNC)(a, b, bandBgn, bandEnd, opposite, erate, thresh, minlen, what)`
and the globals `MaxBegGap`, `MaxEndGap` as `Compare` sets them for the call. -/
structure CompareCall where
  a : List Char
  b : List Char
  bandBgn : Int
  bandEnd : Int
  opposite : Int
  erate : Int
  thresh : Int
  minlen : Int
  what : Int
  MaxBegGap : Int
  MaxEndGap : Int
  deriving DecidableEq

/-- The globals and the header constants `GetAlignmentTrace` reads.
`merge` is `ALIGNMENT_CONTEXT == AS_MERGE`; `RALPHABETC` is the complement
table of `Globals_CNS.h`, indexed like `RALPHABET`; `AS_UNITIG` and
`AS_CONTIG` are the codes of `FragType`. -/
structure AlignEnv where
  merge : Bool
  allow_neg_hang : Int
  LOCAL_DEFAULT_PARAMS : CNS_AlignParams
  MaxBegGap : Int
  MaxEndGap : Int
  AS_READ_MAX_LEN : Nat
  AS_UNITIG : Char
  AS_CONTIG : Char
  RALPHABETC : Int → Char

/-- `Compare`: the band is clamped to `[-blen, alen]` in `*params`, and the
aligner is invoked.  Returns the overlap, the parameters as the clamping left
them, and the record of the invocation. -/
def Compare (COMPARE_FUNC : CompareCall → Option Overlap) (a : List Char) (alen : Int)
    (b : List Char) (blen : Int) (params : CNS_AlignParams) :
    Option Overlap × CNS_AlignParams × CompareCall :=
  let bgn1 := if params.bandBgn > alen then alen else params.bandBgn
  let end1 := if params.bandEnd > alen then alen else params.bandEnd
  let end2 := if end1 < -blen then -blen else end1
  let bgn2 := if bgn1 < -blen then -blen else bgn1
  let p := { params with bandBgn := bgn2, bandEnd := end2 }
  let call : CompareCall :=
    { a := a, b := b, bandBgn := p.bandBgn, bandEnd := p.bandEnd, opposite := p.opposite,
      erate := p.erate, thresh := p.thresh, minlen := p.minlen, what := p.what,
      MaxBegGap := p.maxBegGap, MaxEndGap := p.maxEndGap }
  (COMPARE_FUNC call, p, call)

/-- The entries of a zero-terminated trace array. -/
def traceEntries (t : List Int) : List Int := t.takeWhile fun x => x != 0

/-- What follows the entries of a trace array: the terminator and beyond. -/
def traceRest (t : List Int) : List Int := t.dropWhile fun x => x != 0

/-- `InvertTrace`: the entries are reversed, each one re-expressed from the
other end of its sequence, and the two hangs are exchanged and negated. -/
def InvertTrace (alen blen : Int) (O : Overlap) : Overlap :=
  let aend := alen + 2
  let bend := blen + 2
  { O with
    trace := ((traceEntries O.trace).reverse.map fun x =>
        if x < 0 then -(aend + x) else bend - x) ++ traceRest O.trace,
    begpos := -O.endpos,
    endpos := -O.begpos }

/-- The overlap of the swapped pair read as an overlap of the pair:
`O->trace[i] *= -1` over the entries, `O->begpos *= -1`, `O->endpos *= -1`. -/
def negateOverlap (O : Overlap) : Overlap :=
  { O with
    trace := ((traceEntries O.trace).map fun x => x * -1) ++ traceRest O.trace,
    begpos := O.begpos * -1,
    endpos := O.endpos * -1 }

/-- The C string that starts at index `off` of a character array. -/
def cString (s : List Char) (off : Nat) : List Char :=
  (s.drop off).takeWhile fun c => c != Char.ofNat 0

/-- `BaseComplement(c) = RALPHABETC[RINDEX[c]]`. -/
def BaseComplement (env : AlignEnv) (c : Char) : Char := env.RALPHABETC (RINDEX c)

/-- `SequenceComplement(sequence, NULL)` on the C string at `off`: reversed
and complemented in place. -/
def SequenceComplement (env : AlignEnv) (s : List Char) (off : Nat) : List Char :=
  let str := cString s off
  s.take off ++ (str.reverse.map (BaseComplement env)) ++ s.drop (off + str.length)

/-- The two character arrays the sequences live in: `sequenceStore` and the
static buffer `cnstmpseq`. -/
structure SeqMem where
  store : List Char
  cnstmpseq : List Char
  deriving DecidableEq

/-- Where a sequence pointer points: into `cnstmpseq` (`none`) or at an offset
of `sequenceStore`. -/
def readSeq (m : SeqMem) : Option Nat → List Char
  | none => cString m.cnstmpseq 0
  | some off => cString m.store off

def complementSeq (env : AlignEnv) (m : SeqMem) : Option Nat → SeqMem
  | none => { m with cnstmpseq := SequenceComplement env m.cnstmpseq 0 }
  | some off => { m with store := SequenceComplement env m.store off }

/-- The loop that copies the consensus into `cnstmpseq`, from the bead `cb`
on: the call character of each column met along the `next` chain, the index
`ic` being noted in `cns_trace` where the call is a gap. -/
def consensusLoop (st : Store) (max : Nat) : Nat → Int → List Char → List Int →
    Option (List Char × List Int)
  | 0, _, _, _ => none
  | fuel + 1, cb, seq, gaps =>
    if seq.length < max then
      match GetBead st cb with
      | none => some (seq ++ [Char.ofNat 0], gaps)
      | some bead =>
        match GetColumn st bead.column_index with
        | none => none
        | some col =>
          match GetBead st col.call with
          | none => none
          | some call =>
            match GetBase st call.soffset with
            | none => none
            | some callchar =>
              if callchar ≠ '-' then consensusLoop st max fuel bead.next (seq ++ [callchar]) gaps
              else consensusLoop st max fuel bead.next seq (gaps ++ [(seq.length : Int)])
    else some (seq, gaps)

/-- The state of the search for an overlap: the local `params`, `O`, `trick`,
the character arrays, and the invocations of the aligner made so far. -/
structure Search where
  params : CNS_AlignParams
  O : Option Overlap
  trick : Char
  mem : SeqMem
  calls : List CompareCall

/-- What is fixed during one call of `GetAlignmentTrace`. -/
structure Pair where
  a : Option Nat
  b : Option Nat
  alen : Int
  blen : Int
  ahang_input : Int
  btype : Char
  CNS_ERATE : Int
  defaults : CNS_AlignParams

/-- `O = Compare(a, alen, b, blen, COMPARE_FUNC, &params)` with `params` set
to `p` beforehand. -/
def attempt (COMPARE_FUNC : CompareCall → Option Overlap) (pr : Pair) (s : Search)
    (p : CNS_AlignParams) : Search :=
  let r := Compare COMPARE_FUNC (readSeq s.mem pr.a) pr.alen (readSeq s.mem pr.b) pr.blen p
  { s with O := r.1, params := r.2.1, calls := s.calls ++ [r.2.2] }

/-- `O = Compare(b, blen, a, alen, COMPARE_FUNC, &params)`: the swapped pair. -/
def attemptSwapped (COMPARE_FUNC : CompareCall → Option Overlap) (pr : Pair) (s : Search)
    (p : CNS_AlignParams) : Search :=
  let r := Compare COMPARE_FUNC (readSeq s.mem pr.b) pr.blen (readSeq s.mem pr.a) pr.alen p
  { s with O := r.1, params := r.2.1, calls := s.calls ++ [r.2.2] }

/-- The test `O->diffs / O->length > CNS_ERATE`: an integer quotient against
`CNS_ERATE` times `.06`.  Division by zero aborts. -/
def tooManyDiffs (pr : Pair) (O : Overlap) : Option Bool :=
  if O.length = 0 then none else some (100 * (Int.tdiv O.diffs O.length) > 6 * pr.CNS_ERATE)

/-- One rung of the ladder of retries: entered when no overlap is held and
`guard` holds, it compares with the parameters `set params`; an overlap found
is dropped when `check` asks for the test of `tooManyDiffs` and the test
fires; an overlap kept sets `trick`, none resets `params` to the defaults. -/
def rung (COMPARE_FUNC : CompareCall → Option Overlap) (pr : Pair) (guard : Bool)
    (set : CNS_AlignParams → CNS_AlignParams) (check : Bool) (trick : Char) (s : Search) :
    Option Search :=
  if s.O.isSome || !guard then some s
  else
    let s1 := attempt COMPARE_FUNC pr s (set s.params)
    match s1.O with
    | none => some { s1 with params := pr.defaults }
    | some O =>
      if check then
        match tooManyDiffs pr O with
        | none => none
        | some true => some { s1 with O := none, params := pr.defaults }
        | some false => some { s1 with trick := trick }
      else some { s1 with trick := trick }

/-- `ALIGNMENT_CONTEXT == AS_MERGE || bfrag->type == AS_UNITIG`. -/
def wideAllowed (env : AlignEnv) (pr : Pair) : Bool := env.merge || pr.btype == env.AS_UNITIG

/-- The comparison with the default parameters and the first two retries: a
thinner overlap, and a doubled error rate where a sequence holds an `N` or B is
a unitig. -/
def firstTries (env : AlignEnv) (COMPARE_FUNC : CompareCall → Option Overlap) (pr : Pair)
    (mem : SeqMem) : Option Search := do
  let s0 := attempt COMPARE_FUNC pr
    { params := pr.defaults, O := none, trick := 'N', mem := mem, calls := [] } pr.defaults
  let s1 ← rung COMPARE_FUNC pr true (fun p => { p with minlen := CNS_DP_THIN_MINLEN }) false 'T' s0
  rung COMPARE_FUNC pr
    (decide ('N' ∈ readSeq mem pr.a) || decide ('N' ∈ readSeq mem pr.b) || pr.btype == env.AS_UNITIG)
    (fun p => { p with erate := 2 }) false 'E' s1

/-- The assignments `params.bandBgn = bgn; params.bandEnd = en`. -/
def setBand (p : CNS_AlignParams) (bgn en : Int) : CNS_AlignParams :=
  { p with bandBgn := bgn, bandEnd := en }

/-- The widening ladder: five rungs, each one guarded by `wideAllowed`. -/
def wideTries (env : AlignEnv) (COMPARE_FUNC : CompareCall → Option Overlap) (pr : Pair)
    (s : Search) : Option Search := do
  let w := wideAllowed env pr
  let h := pr.ahang_input
  let lw := CNS_LOOSESEMIBANDWIDTH
  let s3 ← rung COMPARE_FUNC pr w
    (fun p => { setBand p (h - 2 * lw) (h + 2 * lw) with erate := 2 }) false 'W' s
  let s4 ← rung COMPARE_FUNC pr w
    (fun p => { setBand p (h - 3 * lw) (h + 3 * lw) with erate := 2 * pr.CNS_ERATE }) true 'X' s3
  let s5 ← rung COMPARE_FUNC pr w
    (fun p => { setBand p (h - 5 * lw) (h + 5 * lw) with erate := 2 * pr.CNS_ERATE }) true 'Z' s4
  let s6 ← rung COMPARE_FUNC pr w
    (fun p => { setBand p (h - 2 * lw) (h + 2 * lw) with
      erate := 2 * pr.CNS_ERATE, minlen := CNS_DP_THIN_MINLEN }) true 'T' s5
  rung COMPARE_FUNC pr w
    (fun p => { setBand p (-pr.blen) pr.alen with
      erate := 2 * pr.CNS_ERATE, minlen := CNS_DP_THIN_MINLEN }) true 'T' s6

/-- The ladder of attempts in the given orientation. -/
def ladder (env : AlignEnv) (COMPARE_FUNC : CompareCall → Option Overlap) (pr : Pair)
    (mem : SeqMem) : Option Search :=
  match firstTries env COMPARE_FUNC pr mem with
  | none => none
  | some s => wideTries env COMPARE_FUNC pr s

/-- `O == NULL || (O->begpos < CNS_NEG_AHANG_CUTOFF && !allow_neg_hang)`. -/
def notIntended (env : AlignEnv) (s : Search) : Bool :=
  match s.O with
  | none => true
  | some O => decide (O.begpos < CNS_NEG_AHANG_CUTOFF) && env.allow_neg_hang == 0

/-- `O == NULL || O->endpos > -CNS_NEG_AHANG_CUTOFF`. -/
def poorEnd (s : Search) : Bool :=
  match s.O with
  | none => true
  | some O => decide (O.endpos > -CNS_NEG_AHANG_CUTOFF)

/-- `if (cond) params.erate = 2*CNS_ERATE`. -/
def looseRate (env : AlignEnv) (pr : Pair) (p : CNS_AlignParams) : CNS_AlignParams :=
  if wideAllowed env pr then { p with erate := 2 * pr.CNS_ERATE } else p

/-- The three comparisons of the complemented pair: the tight band around
the hang seen from the right, then the loose band, then the whole range;
each later one is made when the overlap held is missing or ends too far. -/
def fromOtherEnd (env : AlignEnv) (COMPARE_FUNC : CompareCall → Option Overlap) (pr : Pair)
    (ahang_tmp : Int) (s : Search) : Search :=
  let s1 := attempt COMPARE_FUNC pr s
    (setBand s.params (ahang_tmp - CNS_TIGHTSEMIBANDWIDTH) (ahang_tmp + CNS_TIGHTSEMIBANDWIDTH))
  let s2 := if poorEnd s1 then attempt COMPARE_FUNC pr s1 (looseRate env pr
    (setBand s1.params (ahang_tmp - 2 * CNS_LOOSESEMIBANDWIDTH)
      (ahang_tmp + 2 * CNS_LOOSESEMIBANDWIDTH))) else s1
  if poorEnd s2 then attempt COMPARE_FUNC pr s2 (looseRate env pr
    (setBand s2.params (-pr.blen) pr.alen)) else s2

/-- The last step on the complemented pair: the swapped comparison where the
overlap is still missing or ends too far, else the trick is the orientation. -/
def otherEndSwap (COMPARE_FUNC : CompareCall → Option Overlap) (pr : Pair)
    (ahang_tmp : Int) (s : Search) : Search :=
  if poorEnd s then
    let s1 := attemptSwapped COMPARE_FUNC pr s
      (setBand s.params (-ahang_tmp - 2 * CNS_LOOSESEMIBANDWIDTH)
        (-ahang_tmp + 2 * CNS_LOOSESEMIBANDWIDTH))
    match s1.O with
    | none => s1
    | some O => { s1 with O := some (negateOverlap O), trick := 'B' }
  else { s with trick := 'O' }

/-- The end of the retry from the other end: both sequences are complemented
back, and an overlap found is inverted, none resets `params`. -/
def restoreOrientation (env : AlignEnv) (pr : Pair) (s : Search) : Search :=
  let m := complementSeq env (complementSeq env s.mem pr.a) pr.b
  match s.O with
  | none => { s with mem := m, params := pr.defaults }
  | some O => { s with mem := m, O := some (InvertTrace pr.alen pr.blen O) }

/-- The retry from the other end, entered when the overlap is missing or
starts too far left: both sequences are complemented in place, compared, and
complemented back. -/
def orientationRetry (env : AlignEnv) (COMPARE_FUNC : CompareCall → Option Overlap) (pr : Pair)
    (s : Search) : Search :=
  if notIntended env s then
    let ahang_tmp := pr.alen - pr.ahang_input - pr.blen
    let m := complementSeq env (complementSeq env s.mem pr.a) pr.b
    restoreOrientation env pr (otherEndSwap COMPARE_FUNC pr ahang_tmp
      (fromOtherEnd env COMPARE_FUNC pr ahang_tmp { s with mem := m }))
  else s

/-- The retry with the fragments swapped, entered on the same condition. -/
def swapRetry (env : AlignEnv) (COMPARE_FUNC : CompareCall → Option Overlap) (pr : Pair)
    (s : Search) : Search :=
  if notIntended env s then
    let p0 := { pr.defaults with bandBgn := pr.ahang_input - 3 * CNS_LOOSESEMIBANDWIDTH }
    let p1 := { p0 with bandEnd := pr.ahang_input + 3 * CNS_LOOSESEMIBANDWIDTH }
    let p2 := { p1 with bandEnd := pr.alen - CNS_DP_MINLEN }
    let tmp := p2.bandBgn
    let p3 := { p2 with bandBgn := -p2.bandEnd }
    let p4 := { p3 with bandEnd := -tmp }
    let s1 := attemptSwapped COMPARE_FUNC pr s p4
    match s1.O with
    | none => { s1 with params := pr.defaults }
    | some O => { s1 with O := some (negateOverlap O), trick := 'S' }
  else s

/-- All attempts of `GetAlignmentTrace`, in order. -/
def search (env : AlignEnv) (COMPARE_FUNC : CompareCall → Option Overlap) (pr : Pair)
    (mem : SeqMem) : Option Search :=
  match ladder env COMPARE_FUNC pr mem with
  | none => none
  | some s => some (swapRetry env COMPARE_FUNC pr (orientationRetry env COMPARE_FUNC pr s))

/-- The codes of `OverlapType` written to `*otype`. -/
def AS_CONTAINMENT : Char := 'C'

def AS_DOVETAIL : Char := 'D'

/-- The counters of the adjustment of a trace found against the ungapped
consensus: the entries not yet copied (`tmp`) and `agaps`, `bgaps`,
`ahang_gaps`, `cgaps`, with the entries appended to the caller's trace. -/
structure GapState where
  tmp : List Int
  agaps : Int
  bgaps : Int
  ahang_gaps : Int
  cgaps : Int
  out : List Int
  deriving DecidableEq

/-- The inner loop for the consensus gap at `ctrace`: entries that precede
the gap are copied (a negative one lowered by `cgaps`); the first entry that
does not precede it stops the loop with a new gap in B appended. -/
def gapWalk (ctrace ahang : Int) : List Int → GapState → GapState
  | [], g => { g with tmp := [] }
  | t :: rest, g =>
    if t < 0 ∧ ctrace + 1 > -t then
      gapWalk ctrace ahang rest { g with agaps := g.agaps + 1, out := g.out ++ [t - g.cgaps] }
    else if ¬ t < 0 ∧ t + g.bgaps + ahang < ctrace + 1 + g.agaps then
      gapWalk ctrace ahang rest { g with bgaps := g.bgaps + 1, out := g.out ++ [t] }
    else
      { g with tmp := t :: rest, cgaps := g.cgaps + 1,
               out := g.out ++ [ctrace + 1 + g.agaps - ahang - g.ahang_gaps - g.bgaps] }

/-- One consensus gap: counted with the hang when it lies before the start of
the overlap, else walked. -/
def gapStep (begpos ahang : Int) (g : GapState) (ctrace : Int) : GapState :=
  if ctrace + 1 < begpos then { g with ahang_gaps := g.ahang_gaps + 1, cgaps := g.cgaps + 1 }
  else gapWalk ctrace ahang g.tmp g

/-- The trace written for an alignment to the consensus: the overlap's trace
re-expressed in the gapped consensus. -/
def consensusTrace (cns_trace : List Int) (O : Overlap) (ahang : Int) : List Int :=
  let g := cns_trace.foldl (gapStep O.begpos ahang)
    { tmp := traceEntries O.trace, agaps := 0, bgaps := 0, ahang_gaps := 0, cgaps := 0, out := [] }
  g.out ++ g.tmp.map fun t => if t < 0 then t - (g.ahang_gaps + g.cgaps) else t

/-- What a call of `GetAlignmentTrace` leaves: the value returned, the
caller's `*ahang`, `trace` and `*otype`, the invocations of the aligner in
order, and the global `LOCAL_DEFAULT_PARAMS` and `sequenceStore`. -/
structure TraceResult where
  ret : Int
  ahang : Int
  trace : List Int
  otype : Char
  calls : List CompareCall
  LOCAL_DEFAULT_PARAMS : CNS_AlignParams
  sequenceStore : List Char
  deriving DecidableEq

/-- The rejection of an overlap that starts left of A: `begpos < 0`, below
`CNS_NEG_AHANG_CUTOFF` with negative hangs not allowed, and below `-10`. -/
def negativeHang (env : AlignEnv) (O : Overlap) : Bool :=
  decide (O.begpos < 0) && (decide (O.begpos < CNS_NEG_AHANG_CUTOFF) && env.allow_neg_hang == 0)
    && decide (O.begpos < -10)

/-- The rejection of an overlap whose start is off the estimate:
`ALIGNMENT_CONTEXT != AS_MERGE && bfrag->type != AS_UNITIG &&
slip > CNS_TIGHTSEMIBANDWIDTH && COMPARE_FUNC == DP_Compare`. -/
def slipGate (env : AlignEnv) (isDP : Bool) (pr : Pair) (O : Overlap) : Bool :=
  let slip := O.begpos - pr.ahang_input
  let slip := if slip < 0 then slip * -1 else slip
  !env.merge && pr.btype != env.AS_UNITIG && decide (slip > CNS_TIGHTSEMIBANDWIDTH) && isDP

/-- The end of `GetAlignmentTrace`: the three places that return 0, then the
writes to the caller's `trace`, `*otype` and `*ahang`. -/
def conclude (env : AlignEnv) (isDP : Bool) (pr : Pair) (align_to_consensus : Bool)
    (cns_trace : List Int) (ahang : Int) (trace : List Int) (otype : Char) (s : Search) :
    TraceResult :=
  let failed : TraceResult :=
    { ret := 0, ahang := ahang, trace := trace, otype := otype, calls := s.calls,
      LOCAL_DEFAULT_PARAMS := pr.defaults, sequenceStore := s.mem.store }
  match s.O with
  | none => failed
  | some O =>
    if negativeHang env O then failed
    else if slipGate env isDP pr O then failed
    else
      let ahang_adj : Int := 0
      let found := O.begpos + ahang_adj
      { failed with
        ret := 1
        otype := if O.endpos < 0 then AS_CONTAINMENT else AS_DOVETAIL
        ahang := found
        trace :=
          if align_to_consensus then consensusTrace cns_trace O found
          else (traceEntries O.trace).map fun t => if t < 0 then t - ahang_adj else t }

/-- `LOCAL_DEFAULT_PARAMS` as the start of `GetAlignmentTrace` sets it: the
end gaps, the tight band around the estimate, and the doubled error rate
where B is a unitig. -/
def defaultsFor (env : AlignEnv) (ahang_input allow_big_endgaps : Int) (btype : Char) :
    CNS_AlignParams :=
  let p := env.LOCAL_DEFAULT_PARAMS
  let p1 := { p with maxBegGap := env.MaxBegGap, maxEndGap := env.MaxEndGap }
  let p2 := if allow_big_endgaps > 0 then
      { p1 with maxBegGap := allow_big_endgaps, maxEndGap := allow_big_endgaps } else p1
  let p3 := setBand p2 (ahang_input - CNS_TIGHTSEMIBANDWIDTH) (ahang_input + CNS_TIGHTSEMIBANDWIDTH)
  if btype = env.AS_UNITIG then { p3 with erate := 2 } else p3

/-- The A sequence of `GetAlignmentTrace`: for `afid < 0` the consensus from
the bead `aoffset` on, copied to `cnstmpseq`, with the positions of its gaps
and the doubled `CNS_ERATE`; else the sequence of fragment `afid`, where
`CNS_ERATE` is doubled for a unitig or contig.  Returns the pointer `a`, the
character arrays, `cns_trace` and `CNS_ERATE`. -/
def sequenceA (env : AlignEnv) (st : Store) (afid aoffset : Int) :
    Option (Option Nat × SeqMem × List Int × Int) :=
  if afid < 0 then
    match consensusLoop st (2 * env.AS_READ_MAX_LEN)
        ((st.beadStore.length + 1) * (2 * env.AS_READ_MAX_LEN + 1) + 1) aoffset [] [] with
    | none => none
    | some (seq, gaps) => some (none, { store := st.sequenceStore, cnstmpseq := seq }, gaps, 2)
  else
    match GetFragment st afid with
    | none => none
    | some afrag =>
      match GetBase st afrag.sequence with
      | none => none
      | some _ =>
        some (some afrag.sequence.toNat, { store := st.sequenceStore, cnstmpseq := [] }, [],
          if afrag.type = env.AS_UNITIG ∨ afrag.type = env.AS_CONTIG then 2 else 1)

/-- The start of `GetAlignmentTrace` and its search: the sequences are
located, `LOCAL_DEFAULT_PARAMS` is set, and all attempts are made.  Returns
what is fixed for the call, `cns_trace`, and the state the search ends in. -/
def searchFor (env : AlignEnv) (st : Store) (afid aoffset bfid ahang : Int)
    (COMPARE_FUNC : CompareCall → Option Overlap) (allow_big_endgaps : Int) :
    Option (Pair × List Int × Search) :=
  match sequenceA env st afid aoffset with
  | none => none
  | some (a, mem, cns_trace, rate) =>
    match GetFragment st bfid with
    | none => none
    | some bfrag =>
      match GetBase st bfrag.sequence with
      | none => none
      | some _ =>
        let b := some bfrag.sequence.toNat
        let pr : Pair :=
          { a := a, b := b, alen := (readSeq mem a).length, blen := (readSeq mem b).length,
            ahang_input := ahang, btype := bfrag.type, CNS_ERATE := rate,
            defaults := defaultsFor env ahang allow_big_endgaps bfrag.type }
        match search env COMPARE_FUNC pr mem with
        | none => none
        | some s => some (pr, cns_trace, s)

/-- `GetAlignmentTrace(afid, aoffset, bfid, &ahang, ovl, trace, &otype,
COMPARE_FUNC, show_olap, allow_big_endgaps)`.  The aligner is the function
`COMPARE_FUNC` of the arguments it receives; `isDP` is
`COMPARE_FUNC == DP_Compare`.  The messages written to the logs are left out,
and with them `show_olap`; `ovl` is not used by the source. -/
def GetAlignmentTrace (env : AlignEnv) (st : Store) (afid aoffset bfid ahang : Int)
    (trace : List Int) (otype : Char) (isDP : Bool)
    (COMPARE_FUNC : CompareCall → Option Overlap) (allow_big_endgaps : Int) :
    Option TraceResult :=
  match searchFor env st afid aoffset bfid ahang COMPARE_FUNC allow_big_endgaps with
  | none => none
  | some (pr, cns_trace, s) =>
    some (conclude env isDP pr (decide (afid < 0)) cns_trace ahang trace otype s)

/-- `LOCAL_DEFAULT_PARAMS` as initialised: `{0,0,0,0,0,CNS_DP_ERATE,CNS_DP_THRESH,
CNS_DP_MINLEN,AS_FIND_ALIGN}`, the two header constants standing as 0. -/
def initialParams : CNS_AlignParams :=
  { bandBgn := 0, bandEnd := 0, maxBegGap := 0, maxEndGap := 0, opposite := 0, erate := 1, thresh := 0, minlen := CNS_DP_MINLEN, what := 0 }

/-- The complement table `-TGCAN`, `N` elsewhere. -/
def complementTable (i : Int) : Char := (getAt ['-', 'T', 'G', 'C', 'A', 'N'] i).getD 'N'

/-- An environment for examples: consensus context, negative hangs off, the
initial `LOCAL_DEFAULT_PARAMS`, and the complement table `-TGCAN`. -/
def envReads : AlignEnv :=
  { merge := false, allow_neg_hang := 0, LOCAL_DEFAULT_PARAMS := initialParams, MaxBegGap := 200, MaxEndGap := 200, AS_READ_MAX_LEN := 2048, AS_UNITIG := 'U', AS_CONTIG := 'C', RALPHABETC := complementTable }

/-- Two reads of twenty characters, `A...A` and `C...C`, loaded as fragments
0 and 1. -/
def storeAACC : Store :=
  loadReads [(List.replicate 20 'A', []), (List.replicate 20 'C', [])]

/-- An aligner that finds no overlap. -/
def alignNever : CompareCall → Option Overlap := fun _ => none

/-- An aligner that finds an overlap only where its first sequence is
`C...C`: the swapped pair of `storeAACC`, in the given orientation. -/
def alignSwapped : CompareCall → Option Overlap := fun c =>
  if c.a = List.replicate 20 'C' then
    some { begpos := 8, endpos := 0, length := 20, diffs := 0, trace := [] }
  else none

/-- An aligner that reports the same overlap, starting at 20, whatever it is
asked. -/
def alignFar : CompareCall → Option Overlap := fun _ =>
  some { begpos := 20, endpos := 0, length := 20, diffs := 0, trace := [3, -5, 0] }

/-- What a call of `GetAlignmentTrace` on fragments 0 and 1 of `storeAACC`
returns and reports: the value returned, `*ahang`, and the start of the
overlap the search ended with. -/
def hangOutcome (ahang : Int) (isDP : Bool) (COMPARE_FUNC : CompareCall → Option Overlap) :
    Option (Int × Int × Option Int) :=
  match searchFor envReads storeAACC 0 0 1 ahang COMPARE_FUNC 0,
      GetAlignmentTrace envReads storeAACC 0 0 1 ahang [] 'X' isDP COMPARE_FUNC 0 with
  | some (_, _, s), some r => some (r.ret, r.ahang, s.O.map Overlap.begpos)
  | _, _ => none

/-- The bands of the aligner invocations made by a call of
`GetAlignmentTrace` on fragments 0 and 1 of `storeAACC`. -/
def bandsUsed (ahang : Int) (COMPARE_FUNC : CompareCall → Option Overlap) :
    Option (List (Int × Int)) :=
  (GetAlignmentTrace envReads storeAACC 0 0 1 ahang [] 'X' true COMPARE_FUNC 0).map
    fun r => r.calls.map fun c => (c.bandBgn, c.bandEnd)

/-- The band `[bgn, en]` as `Compare` clamps it for sequences of lengths
`alen` and `blen`. -/
def clampBand (alen blen : Int) (x : Int) : Int := max (-blen) (min alen x)

/-- An aligner invocation on the tight band around the estimate, as `Compare`
clamps it. -/
def TightCall (pr : Pair) (c : CompareCall) : Prop :=
  c.bandBgn = clampBand pr.alen pr.blen (pr.ahang_input - CNS_TIGHTSEMIBANDWIDTH) ∧
  c.bandEnd = clampBand pr.alen pr.blen (pr.ahang_input + CNS_TIGHTSEMIBANDWIDTH)

/-- Parameters whose band `Compare` clamps to the tight band. -/
def TightParams (pr : Pair) (p : CNS_AlignParams) : Prop :=
  clampBand pr.alen pr.blen p.bandBgn =
    clampBand pr.alen pr.blen (pr.ahang_input - CNS_TIGHTSEMIBANDWIDTH) ∧
  clampBand pr.alen pr.blen p.bandEnd =
    clampBand pr.alen pr.blen (pr.ahang_input + CNS_TIGHTSEMIBANDWIDTH)

/-- What a call `AlignBead(cid, bid)` meets in the stores built by `ops`:
the bead under the call bead of `cid`, the column of `bid`, the character of
`bid`, and the value returned (`none` for an abort). -/
def alignBeadCase (ops : List StackOp) (cid bid : Int) :
    Option (Option Int × Option Int × Option Char × Option Int) :=
  (stackRun ops).map fun st =>
    (((GetColumn st cid).bind fun col => GetBead st col.call).map Bead.down,
      (GetBead st bid).map Bead.column_index, beadChar st bid,
      (AlignBead st cid bid).map Prod.snd)

/-! ## Fragments as rows of beads -/

/-- The `prev` of the bead stored at `j`. -/
def prevOf (st : Store) (j : Int) : Option Int := (GetBead st j).map Bead.prev

/-- The `next` of the bead stored at `j`. -/
def nextOf (st : Store) (j : Int) : Option Int := (GetBead st j).map Bead.next

/-- The `frag_index` of the bead stored at `j`. -/
def fragOf (st : Store) (j : Int) : Option Int := (GetBead st j).map Bead.frag_index

/-- The beads `l` are linked in this order by `next` and `prev`; the first
one has `prev = p` and the last one `next = n`. -/
def Seg (st : Store) : Int → List Int → Int → Prop
  | _, [], _ => True
  | p, x :: l, n => prevOf st x = some p ∧ nextOf st x = some (l.headD n) ∧ Seg st x l n

/-- The characters of the beads `l` that can be read. -/
def charsOf (st : Store) (l : List Int) : List Char := l.filterMap (beadChar st)

/-- The fragment records, the characters, and the fragment and character of
every bead are unchanged. -/
def HKeep (st st' : Store) : Prop :=
  st'.sequenceStore = st.sequenceStore ∧ st'.fragmentStore = st.fragmentStore ∧
  (∀ j, fragOf st' j = fragOf st j) ∧
  ∀ j, (GetBead st' j).map Bead.soffset = (GetBead st j).map Bead.soffset

/-- The exchange of the names `a` and `b`. -/
def swapId (a b x : Int) : Int := if x = a then b else if x = b then a else x

/-- The fragments are well formed as rows: `row fid` lists the beads of
fragment `fid` in chain order, doubly linked from end to end, the first bead
of the fragment record among them; every fragment bead is in the row of its
fragment; and the links of the call beads lead to call beads only. -/
structure HWF (st : Store) (row : Int → List Int) : Prop where
  frag : ∀ fid f, GetFragment st fid = some f →
    Seg st (-1) (row fid) (-1) ∧ (row fid).Nodup ∧ f.beads ∈ row fid
  mem : ∀ fid b, b ∈ row fid → fragOf st b = some fid ∧ fid ≠ -1
  bead : ∀ j b, GetBead st j = some b → b.frag_index ≠ -1 →
    (GetFragment st b.frag_index).isSome ∧ j ∈ row b.frag_index
  call : ∀ j b, GetBead st j = some b → b.frag_index = -1 →
    (b.next = -1 ∨ fragOf st b.next = some (-1)) ∧ (b.prev = -1 ∨ fragOf st b.prev = some (-1))

/-- The beads strictly between `cur` and `rid`, following `next` from `cur`;
`none` when the chain ends before `rid` is met. -/
def between (st : Store) (rid : Int) : Nat → Int → Option (List Int)
  | 0, _ => none
  | fuel + 1, cur =>
    match GetBead st cur with
    | none => none
    | some b =>
      if b.next = rid then some []
      else
        match between st rid fuel b.next with
        | none => none
        | some l => some (b.next :: l)

/-- The fragment records and the fragment and links of every bead are
unchanged. -/
def HSame (st st' : Store) : Prop :=
  st'.fragmentStore = st.fragmentStore ∧ (∀ j, prevOf st' j = prevOf st j) ∧
  (∀ j, nextOf st' j = nextOf st j) ∧ ∀ j, fragOf st' j = fragOf st j

/-- The quality and sequence characters are paired, and every bead points
at a character. -/
structure QWF (st : Store) : Prop where
  len : st.qualityStore.length = st.sequenceStore.length
  soff : ∀ j b, GetBead st j = some b → 0 ≤ b.soffset ∧ b.soffset < st.sequenceStore.length

/-- The links of every column lead to columns other than itself, and every
column belongs to a MANode. -/
structure MWF (st : Store) : Prop where
  col : ∀ c col, GetColumn st c = some col →
    col.next ≠ c ∧ col.prev ≠ c ∧ (col.next = -1 ∨ (GetColumn st col.next).isSome) ∧
    (col.prev = -1 ∨ (GetColumn st col.prev).isSome) ∧ (GetMANode st col.ma_id).isSome

/-- The fragment records, the character arrays, and the fragment, links and
character of every bead are unchanged. -/
def Quiet (st st' : Store) : Prop :=
  HSame st st' ∧ st'.sequenceStore = st.sequenceStore ∧ st'.qualityStore = st.qualityStore ∧
  ∀ j, (GetBead st' j).map Bead.soffset = (GetBead st j).map Bead.soffset

/-- The call bead `CreateColumn` lays down for a column seeded with `bid`. -/
def callBead (st : Store) (bid : Int) : Bead :=
  { boffset := st.beadStore.length, soffset := st.sequenceStore.length, foffset := 0,
    prev := -1, next := -1, up := -1, down := bid, frag_index := -1,
    column_index := st.columnStore.length }

/-- The column record `CreateColumn` appends. -/
def freshColumn (st : Store) (bc : BaseCount) : Column :=
  { lid := st.columnStore.length, call := st.beadStore.length, next := -1, prev := -1,
    ma_id := -1, ma_index := -1, base_count := bc }

/-- The head of the bead chain through `bid`: the bead met last following
`prev`. -/
def chainHead (st : Store) : Nat → Int → Option Int
  | 0, _ => none
  | fuel + 1, bid =>
    match GetBead st bid with
    | none => none
    | some b => if b.prev = -1 then some bid else chainHead st fuel b.prev

/-- The bead chain of fragment `fid` from end to end: from the head of the
chain its first bead is in, following `next`. -/
def fragmentChain (st : Store) (fid : Int) : Option (List Int) :=
  match GetFragment st fid with
  | none => none
  | some f =>
    match chainHead st (st.beadStore.length + 1) f.beads with
    | none => none
    | some h => chainFrom st (st.beadStore.length + 1) h

/-- The non-gap characters read along the bead chain of fragment `fid`. -/
def nonGapRead (st : Store) (fid : Int) : Option (List Char) :=
  match fragmentChain st fid with
  | none => none
  | some l => (beadChars st l).map fun cs => cs.filter fun c => c != '-'

/-- Every bead records its own offset. -/
def BWF (st : Store) : Prop := ∀ j b, GetBead st j = some b → b.boffset = j

/-- The offset every bead records is unchanged. -/
def BSame (st st' : Store) : Prop :=
  ∀ j, (GetBead st' j).map Bead.boffset = (GetBead st j).map Bead.boffset

/-- The non-gap characters of the beads `l`, in order. -/
def rowRead (st : Store) (l : List Int) : List Char :=
  (charsOf st l).filter fun c => c != '-'

/-- The fragments are well formed: rows, characters and bead offsets. -/
structure RWF (st : Store) (row : Int → List Int) : Prop where
  rows : HWF st row
  chars : QWF st
  offs : BWF st

/-- The bead `rid` is met following `next` from the bead `lid`. -/
def rightOf (st : Store) (lid rid : Int) : Bool :=
  (between st rid (st.beadStore.length + 1) lid).isSome

/-- The rows of `st'` are well formed and read like the rows `row` of `st`. -/
def ReadsKept (st : Store) (row : Int → List Int) (st' : Store) : Prop :=
  ∃ row', RWF st' row' ∧ st'.fragmentStore = st.fragmentStore ∧
    ∀ fid, rowRead st' (row' fid) = rowRead st (row fid)

/-- Only links of call beads were rewritten, and they lead to call beads:
the characters, fragments and offsets of all beads and the links of the
fragment beads are unchanged. -/
def CallMove (st st' : Store) : Prop :=
  HKeep st st' ∧ st'.qualityStore = st.qualityStore ∧ BSame st st' ∧
  (∀ j, fragOf st j ≠ some (-1) → prevOf st' j = prevOf st j ∧ nextOf st' j = nextOf st j) ∧
  (∀ j n, nextOf st' j = some n → n = -1 ∨ fragOf st n = some (-1) ∨ nextOf st j = some n) ∧
  (∀ j n, prevOf st' j = some n → n = -1 ∨ fragOf st n = some (-1) ∨ prevOf st j = some n)

/-- The call bead of the column stored at `j`. -/
def callOf (st : Store) (j : Int) : Option Int := (GetColumn st j).map Column.call

/-- The bead `x` has a successor in its fragment other than `bid`. -/
def needGap (st : Store) (bid x : Int) : Bool :=
  match nextOf st x with
  | some n => n != -1 && n != bid
  | none => false

/-- The bead `g` is a new gap bead put right after the bead `x`. -/
def GapAfter (st st' : Store) (x g : Int) : Prop :=
  GetBead st g = none ∧ nextOf st' x = some g ∧ prevOf st' g = some x ∧
  nextOf st' g = nextOf st x ∧ fragOf st' g = fragOf st x ∧ beadChar st' g = some '-'

/-- What the gap-fill loop leaves alone: fragment and character of every
bead, `next` of the beads other than `xs`, `prev` of the beads that do not
follow a bead of `xs`, and the place of the beads outside column `K`. -/
def FillFrame (K : Int) (st st' : Store) (xs : List Int) : Prop :=
  (∀ j, (GetBead st j).isSome → fragOf st' j = fragOf st j ∧ beadChar st' j = beadChar st j) ∧
  (∀ j, (GetBead st j).isSome → j ∉ xs → nextOf st' j = nextOf st j) ∧
  (∀ j, (GetBead st j).isSome → (∀ y, y ∈ xs → nextOf st y ≠ some j) →
    prevOf st' j = prevOf st j) ∧
  (∀ j v, VertAt st j = some v → v.column_index ≠ K → VertAt st' j = some v)

/-- The columns and rows are well formed. -/
structure GWF (st : Store) (ch row : Int → List Int) : Prop where
  vert : VWF st ch
  frags : RWF st row
  cols : MWF st

/-- The calls that keep columns and rows well formed: a read that is not
empty is loaded; a column is seeded, and a bead aligned, only with a bead that
is in no column; `ColumnAppend` is given a column; `LateralExchangeBead` is
given two fragment beads of different columns, the second to the right of the
first in their chain.  `CreateColumn` alone (it leaves the column outside any
MANode) and `ColumnPrepend` are not among them. -/
def gridOK (st : Store) : StackOp → Bool
  | StackOp.load seq _ => !seq.isEmpty
  | StackOp.node _ => true
  | StackOp.firstColumn _ bid => inNoColumn st bid
  | StackOp.createColumn _ => false
  | StackOp.alignBead _ bid => inNoColumn st bid
  | StackOp.unAlignBead _ => true
  | StackOp.exchange lid rid => twoColumns st lid rid && rightOf st lid rid
  | StackOp.columnAppend cid bid => inNoColumn st bid && (GetColumn st cid).isSome
  | StackOp.columnPrepend _ _ => false

/-- One such call. -/
def gridStep (st : Store) (op : StackOp) : Option Store :=
  if gridOK st op then rawStep st op else none

/-- A sequence of such calls from the reset stores. -/
def gridRun (ops : List StackOp) : Option Store := ops.foldlM gridStep ResetStores

/-- The link `v` is `-1` or leads to a bead. -/
def linkOK (st : Store) (v : Int) : Prop := v = -1 ∨ (GetBead st v).isSome

/-- The four links of the bead `b` lead to beads. -/
def BeadLinks (st : Store) (b : Bead) : Prop :=
  linkOK st b.up ∧ linkOK st b.down ∧ linkOK st b.prev ∧ linkOK st b.next

/-- Every link of every bead leads to a bead. -/
def Sound (st : Store) : Prop := ∀ j b, GetBead st j = some b → BeadLinks st b

/-- The store `s` has the beads of `st` at the same offsets, sound links, and
the columns and characters of `st`. -/
def Stage (st s : Store) : Prop :=
  Sound s ∧ (∀ j, (GetBead s j).isSome = (GetBead st j).isSome) ∧
  s.columnStore = st.columnStore ∧ s.sequenceStore = st.sequenceStore

/-- The quality stored for the bead at `j`. -/
def beadQuality (st : Store) (j : Int) : Option Char :=
  match GetBead st j with
  | none => none
  | some b => getAt st.qualityStore b.soffset

/-- A read `A` of quality `0`; a gap bead is put after its bead and, from the
same store, before it: the qualities of the two gap beads. -/
def endGapQuality : Option (Option Char × Option Char) := do
  let st ← gridRun [StackOp.load ['A'] ['0']]
  let (s1, g1) ← AppendGapBead st 0
  let (s2, g2) ← PrependGapBead st 0
  pure (beadQuality s1 g1, beadQuality s2 g2)

/-- The store holding one read `AC` with the qualities `0` and `7`. -/
def storeZeroSeven : Store :=
  (AppendArtificialFragToLocalStore ResetStores 'R' 1 0 'X' ['A', 'C'] ['0', '7']).1

/-- One call of `GetAlignmentTrace` as far as `LOCAL_DEFAULT_PARAMS` goes: the
stores it meets, its arguments, and the globals `MaxBegGap` and `MaxEndGap` at
the time of the call. -/
structure TraceArgs where
  st : Store
  afid : Int
  aoffset : Int
  bfid : Int
  ahang : Int
  allow_big_endgaps : Int
  MaxBegGap : Int
  MaxEndGap : Int

/-- The globals the call `c` meets when `LOCAL_DEFAULT_PARAMS` holds `p`. -/
def envAt (env : AlignEnv) (p : CNS_AlignParams) (c : TraceArgs) : AlignEnv :=
  { env with LOCAL_DEFAULT_PARAMS := p, MaxBegGap := c.MaxBegGap, MaxEndGap := c.MaxEndGap }

/-- The global `LOCAL_DEFAULT_PARAMS` as the call `c` leaves it, having met
the value `p`: the start of `GetAlignmentTrace` up to the comparison with the
default parameters.  Nothing later in the function writes the global.  `none`
when the call aborts before. -/
def defaultsLeft (env : AlignEnv) (p : CNS_AlignParams) (c : TraceArgs) :
    Option CNS_AlignParams :=
  match sequenceA (envAt env p c) c.st c.afid c.aoffset with
  | none => none
  | some _ =>
    match GetFragment c.st c.bfid with
    | none => none
    | some bfrag =>
      match GetBase c.st bfrag.sequence with
      | none => none
      | some _ => some (defaultsFor (envAt env p c) c.ahang c.allow_big_endgaps bfrag.type)

/-- The global `LOCAL_DEFAULT_PARAMS` after the calls `calls`, made in this
order from the value `env` holds. -/
def defaultsAfter (env : AlignEnv) (calls : List TraceArgs) : Option CNS_AlignParams :=
  calls.foldlM (defaultsLeft env) env.LOCAL_DEFAULT_PARAMS

/-- The first aligner invocation of the call `c`, having met the value `p` of
`LOCAL_DEFAULT_PARAMS`: `params = LOCAL_DEFAULT_PARAMS; O = Compare(a, alen,
b, blen, COMPARE_FUNC, &params)`. -/
def firstInvocation (env : AlignEnv) (p : CNS_AlignParams) (c : TraceArgs)
    (COMPARE_FUNC : CompareCall → Option Overlap) : Option CompareCall :=
  match sequenceA (envAt env p c) c.st c.afid c.aoffset with
  | none => none
  | some (a, mem, _, _) =>
    match GetFragment c.st c.bfid with
    | none => none
    | some bfrag =>
      match GetBase c.st bfrag.sequence with
      | none => none
      | some _ =>
        let b := some bfrag.sequence.toNat
        some (Compare COMPARE_FUNC (readSeq mem a) (readSeq mem a).length (readSeq mem b)
          (readSeq mem b).length
          (defaultsFor (envAt env p c) c.ahang c.allow_big_endgaps bfrag.type)).2.2

/-- B of the call `c` is a unitig. -/
def unitigB (env : AlignEnv) (c : TraceArgs) : Bool :=
  match GetFragment c.st c.bfid with
  | none => false
  | some bfrag => bfrag.type == env.AS_UNITIG

/-- A store with the reads `A...A` and `C...C` of `storeAACC` as fragments 0
and 1 and a unitig `A...A` as fragment 2. -/
def storeUnitig : Store :=
  (AppendArtificialFragToLocalStore storeAACC 'U' 3 0 'X' (List.replicate 20 'A') []).1

/-- A call with the read 0 as A and fragment `bfid` as B. -/
def callOn (bfid : Int) : TraceArgs :=
  { st := storeUnitig, afid := 0, aoffset := 0, bfid := bfid, ahang := 0,
    allow_big_endgaps := 0, MaxBegGap := 200, MaxEndGap := 200 }

/-- The error rate (in units of `CNS_DP_ERATE`) and the minimum length of the
first aligner invocation of a call with the read 1 as B, made after the calls
with the fragments `before` as B. -/
def firstRateAfter (before : List Int) : Option (Int × Int) :=
  match defaultsAfter envReads (before.map callOn) with
  | none => none
  | some p => (firstInvocation envReads p (callOn 1) alignNever).map fun c => (c.erate, c.minlen)

/-- The read `ACGT` seeds the columns 0 to 3 of MANode 0, and the one bead of
the read `C` (bead 4, fragment 1) is aligned in column 1. -/
def opsSneak : List StackOp :=
  [loadOp ['A', 'C', 'G', 'T'], loadOp ['C'], StackOp.node 0, StackOp.firstColumn 0 0,
    StackOp.columnAppend 0 1, StackOp.columnAppend 1 2, StackOp.columnAppend 2 3,
    StackOp.alignBead 1 4]

/-- `CreateAbacus(0, 0, 3)` on the store built by `ops`, the window being the
columns 0, 1 and 2: the beads of these columns; then the fragments of the
beads 0 to 4, the number of rows counted, and the row recorded for the
fragments 0 and 1, by the row bookkeeping over the first and the last column;
and whether the call returns. -/
def sneakCase (ops : List StackOp) :
    Option (List (List Int) × List (Option (List Int)) × Bool) :=
  (gridRun ops).map fun st =>
    ([0, 1, 2].map fun c => (columnBeads st c).getD [],
      [some ([0, 1, 2, 3, 4].map fun b => (fragOf st b).getD (-1)),
        (abacusRows st 0 2 []).map fun r => [r.1], (abacusRows st 0 2 []).map Prod.snd],
      (CreateAbacus st 0 0 3).isSome)

/-- `GetBase(GetBead(beadStore, column->call)->soffset)`: the consensus
character of a column. -/
def callBase (st : Store) (column : Column) : Option Char :=
  match GetBead st column.call with
  | none => none
  | some b => GetBase st b.soffset

/-- The loop of `IdentifyWindow` in the case `CNS_SMOOTH`: the state is the
pointer `stab` (`none` for `NULL`), `*stab_bgn` and `win_length`. -/
def smoothLoop (st : Store) : Nat → Option Column → Int → Int → Option (Int × Int)
  | 0, _, _, _ => none
  | fuel + 1, stab, stab_bgn, win_length =>
    match stab with
    | none => none
    | some s =>
      match callBase st s with
      | none => none
      | some c =>
        if c = '-' then
          if s.next ≠ -1 then smoothLoop st fuel (GetColumn st s.next) s.next (win_length + 1)
          else some (stab_bgn, win_length)
        else some (stab_bgn, win_length)

/-- `IdentifyWindow(&start_column, &stab_bgn, CNS_SMOOTH)`: returns the value
returned and `*stab_bgn`; `*start_column` is left as it is in this case. -/
def IdentifyWindowSmooth (st : Store) (start : Column) : Option (Int × Int) :=
  match callBase st start with
  | none => none
  | some c =>
    if c ≠ '-' then some (0, start.next)
    else
      match smoothLoop st (st.columnStore.length + 1) (GetColumn st start.next) start.next 1 with
      | none => none
      | some (bgn, win) => some (if win > 1 then win else 0, bgn)

/-- The columns `cs 0, ..., cs (k - 1)` are gap-called and linked in this
order by `next`, the last one to `cs k`. -/
def GapRun (st : Store) (cs : Nat → Int) (k : Nat) : Prop :=
  ∀ i, i < k → ∃ col, GetColumn st (cs i) = some col ∧ callBase st col = some '-' ∧
    col.next = cs (i + 1)

/-- A store with the columns 0, 1, 2 seeded by the read `ACG`, the consensus
characters of the columns set to `calls`. -/
def calledColumns (calls : List Char) : Option Store := do
  let st ← gridRun [loadOp ['A', 'C', 'G'], StackOp.node 0, StackOp.firstColumn 0 0,
    StackOp.columnAppend 0 1, StackOp.columnAppend 1 2]
  let oracle : Store → Int → Char × Char := fun _ cid => ((getAt calls cid).getD 'n', '0')
  let st ← BaseCallStore oracle st 0
  let st ← BaseCallStore oracle st 1
  BaseCallStore oracle st 2

/-- `IdentifyWindow` in the case `CNS_SMOOTH` from column `cid` of the store
`calledColumns calls`: the value returned and `*stab_bgn`, as a list; `[]`
when the call does not return. -/
def smoothCase (calls : List Char) (cid : Int) : Option (List Int) :=
  (calledColumns calls).map fun st =>
    match (GetColumn st cid).bind (IdentifyWindowSmooth st) with
    | none => []
    | some r => [r.1, r.2]

/-- The store `calledColumns` builds for the consensus `--A`. -/
def storeGapGapA : Store := (calledColumns ['-', '-', 'A']).getD ResetStores

/-! ## Clustering the reads of a region of variation -/

def QV_FOR_MULTI_GAP : Int := 14

/-- The fields of `AlPair` that the distance matrix and the clustering of the
reads use.  `ratio`, a double, is left out. -/
structure AlPair where
  nr : Int
  iids : List Int
  alleles : List Int
  sum_qvs : List Int
  dist_matrix : List (List Int)
  best_allele : Int
  nr_best_allele : Int
  deriving DecidableEq

/-- `ap->dist_matrix[i][j]`. -/
def distAt (d : List (List Int)) (i j : Int) : Option Int :=
  match getAt d i with
  | none => none
  | some row => getAt row j

/-- `ap->dist_matrix[i][j] = v`. -/
def setDist (d : List (List Int)) (i j : Int) (v : Int) : Option (List (List Int)) :=
  match getAt d i with
  | none => none
  | some row =>
    match getAt row j with
    | none => none
    | some _ => some (setAt d i (setAt row j v))

/-- `AllocateDistMatrix`: `nr` rows of `nr` entries `-1`. -/
def AllocateDistMatrix (ap : AlPair) : AlPair :=
  { ap with dist_matrix := List.replicate ap.nr.toNat (List.replicate ap.nr.toNat (-1)) }

/-- The loop of `IidToIndex` over the indices `l`. -/
def iidScan (iid : Int) (iids : List Int) : List Int → Option Int
  | [] => some (-1)
  | i :: rest =>
    match getAt iids i with
    | none => none
    | some x => if iid = x then some i else iidScan iid iids rest

/-- `IidToIndex(iid, iids, nr)`: the first index below `nr` that holds `iid`,
or `-1`. -/
def IidToIndex (iid : Int) (iids : List Int) (nr : Int) : Option Int :=
  iidScan iid iids (intRange 0 nr)

/-- The arrays `bases`, `iids` and `qvs` that `PopulateDistMatrix` fills from
one column, with `ap->sum_qvs`. -/
structure ColumnReads where
  bases : List Char
  iids : List Int
  qvs : List Int
  sum_qvs : List Int
  deriving DecidableEq

/-- The quality a gap bead adds to `sum_qvs`: nothing without both chain
neighbours, `QV_FOR_MULTI_GAP` next to another gap, else the lesser quality
of the two neighbours. -/
def gapQv (st : Store) (bead : Bead) : Option Int :=
  match GetBead st bead.prev, GetBead st bead.next with
  | some p, some n =>
    match GetBase st p.soffset, GetBase st n.soffset with
    | some pb, some nb =>
      if pb = '-' ∨ nb = '-' then some QV_FOR_MULTI_GAP
      else
        match getAt st.qualityStore p.soffset, getAt st.qualityStore n.soffset with
        | some pq, some nq => some (min ((pq.toNat : Int) - 48) ((nq.toNat : Int) - 48))
        | _, _ => none
    | _, _ => none
  | _, _ => some 0

/-- What the bead `bead` of a read, with base `base`, quality `qv` and index
`i` among the reads, adds to the arrays. -/
def noteRead (st : Store) (bead : Bead) (base : Char) (qv i : Int) (acc : ColumnReads) :
    Option ColumnReads :=
  match getAt acc.sum_qvs i, (if base ≠ '-' then some qv else gapQv st bead) with
  | some s, some add =>
    some { bases := setAt acc.bases i base, iids := acc.iids, qvs := setAt acc.qvs i qv,
           sum_qvs := setAt acc.sum_qvs i (s + add) }
  | _, _ => none

/-- One round of the first loop of `PopulateDistMatrix`.  `isRead` is the test
`type == AS_READ || type == AS_B_READ || type == AS_EXTR || type == AS_TRNR`. -/
def collectBead (isRead : Char → Bool) (apIids : List Int) (nr : Int) (st : Store)
    (acc : ColumnReads) (bid : Int) : Option ColumnReads :=
  match GetBead st bid with
  | none => none
  | some bead =>
    match GetFragment st bead.frag_index with
    | none => none
    | some frag =>
      if isRead frag.type then
        match GetBase st bead.soffset, getAt st.qualityStore bead.soffset,
            IidToIndex frag.iid apIids nr with
        | some base, some q, some i =>
          if i < 0 ∨ i ≥ nr then some acc
          else noteRead st bead base ((q.toNat : Int) - 48) i
            { acc with iids := setAt acc.iids i frag.iid }
        | _, _, _ => none
      else some acc

/-- `if (d[k][m] < 0) d[k][m] = 0`. -/
def zeroFix (d : List (List Int)) (k m : Int) : Option (List (List Int)) :=
  match distAt d k m with
  | none => none
  | some v => if v < 0 then setDist d k m 0 else some d

/-- `d[k][m] += q`. -/
def bumpDist (d : List (List Int)) (k m q : Int) : Option (List (List Int)) :=
  match distAt d k m with
  | none => none
  | some v => setDist d k m (v + q)

/-- The update of the matrix for the reads with the indices `k` and `m`. -/
def updateEntries (c : ColumnReads) (same : Bool) (d : List (List Int)) (k m : Int) :
    Option (List (List Int)) :=
  match zeroFix d k m with
  | none => none
  | some d1 =>
    match zeroFix d1 m k with
    | none => none
    | some d2 =>
      if same then some d2
      else
        match getAt c.qvs k, getAt c.qvs m with
        | some qk, some qm =>
          match bumpDist d2 m k (qk + qm) with
          | none => none
          | some d3 => bumpDist d3 k m (qk + qm)
        | _, _ => none

/-- One round of the inner loop of the update of `PopulateDistMatrix`. -/
def updatePair (apIids : List Int) (nr : Int) (c : ColumnReads) (d : List (List Int))
    (p : Int × Int) : Option (List (List Int)) :=
  if p.1 = p.2 then some d
  else
    match getAt c.bases p.1, getAt c.bases p.2, getAt c.iids p.1, getAt c.iids p.2 with
    | some bi, some bj, some ii, some ij =>
      if bi = 'X' ∨ bj = 'X' then some d
      else if ii < 0 ∨ ij < 0 then some d
      else
        match IidToIndex ii apIids nr, IidToIndex ij apIids nr with
        | some k, some m => updateEntries c (bi == bj) d k m
        | _, _ => none
    | _, _, _, _ => none

/-- The index pairs `i <= j < nr` in the order of the two nested loops. -/
def upperPairs (nr : Int) : List (Int × Int) :=
  (intRange 0 nr).bind fun i => (intRange i nr).map fun j => (i, j)

/-- `PopulateDistMatrix(cid, ap)`. -/
def PopulateDistMatrix (isRead : Char → Bool) (st : Store) (ap : AlPair) (cid : Int) :
    Option AlPair :=
  match columnBeads st cid with
  | none => none
  | some bids =>
    match bids.foldlM (collectBead isRead ap.iids ap.nr st)
        { bases := List.replicate ap.nr.toNat 'X', iids := List.replicate ap.nr.toNat (-1),
          qvs := List.replicate ap.nr.toNat 0, sum_qvs := ap.sum_qvs } with
    | none => none
    | some c =>
      match (upperPairs ap.nr).foldlM (updatePair ap.iids ap.nr c) ap.dist_matrix with
      | none => none
      | some d => some { ap with sum_qvs := c.sum_qvs, dist_matrix := d }

/-- `AllocateDistMatrix(&ap)` followed by `PopulateDistMatrix(cid, &ap)` for
each column of `cids`. -/
def populateColumns (isRead : Char → Bool) (st : Store) (ap : AlPair) (cids : List Int) :
    Option AlPair :=
  cids.foldlM (PopulateDistMatrix isRead st) (AllocateDistMatrix ap)

/-- The matrix reads the same across the diagonal. -/
def Symmetric (d : List (List Int)) : Prop := ∀ i j, distAt d i j = distAt d j i

/-- The same entries are there. -/
def SameShape (d d' : List (List Int)) : Prop :=
  ∀ a b, (distAt d' a b).isSome = (distAt d a b).isSome

/-- Two reads `A` and `C` with the iids 10 and 11 and the qualities `5` and
`7`, aligned in column 0 of MANode 0. -/
def buildTwoIids : Option Store := do
  let st := (AppendArtificialFragToLocalStore ResetStores 'R' 10 0 'X' ['A'] ['5']).1
  let st := (AppendArtificialFragToLocalStore st 'R' 11 0 'X' ['C'] ['7']).1
  let (st, _) ← FirstColumn (CreateMANode st 0).1 0 0
  let (st, _) ← AlignBead st 0 1
  pure st

/-- The store `buildTwoIids` returns. -/
def storeTwoIids : Store := buildTwoIids.getD ResetStores

/-- The `AlPair` of the two reads of `storeTwoIids`. -/
def pairTwoIids : AlPair :=
  { nr := 2, iids := [10, 11], alleles := [-1, -1], sum_qvs := [0, 0], dist_matrix := [],
    best_allele := 0, nr_best_allele := 0 }

/-- One round of the search for the largest entry of the matrix: the state is
`(largest, seed0, seed1)`. -/
def seedStep (d : List (List Int)) (acc : Int × Int × Int) (p : Int × Int) :
    Option (Int × Int × Int) :=
  match distAt d p.1 p.2 with
  | none => none
  | some v => if acc.1 < v then some (v, p.1, p.2) else some acc

/-- One round of the loop that splits the reads between the two seeds. -/
def splitStep (d : List (List Int)) (seed0 seed1 : Int) (alleles : List Int) (i : Int) :
    Option (List Int) :=
  if i = seed0 ∨ i = seed1 then some alleles
  else
    match distAt d i seed0, distAt d i seed1, getAt alleles i with
    | some a, some b, some _ => some (setAt alleles i (if a < b then 0 else 1))
    | _, _, _ => none

/-- One round of the loop that adds up the two alleles: the state is
`(sum_qv0, sum_qv1, nr0, nr1)`. -/
def tallyStep (alleles sum_qvs : List Int) (acc : Int × Int × Int × Int) (i : Int) :
    Option (Int × Int × Int × Int) :=
  match getAt alleles i, getAt sum_qvs i with
  | some a, some s =>
    if a = 0 then some (acc.1 + s, acc.2.1, acc.2.2.1 + 1, acc.2.2.2)
    else some (acc.1, acc.2.1 + s, acc.2.2.1, acc.2.2.2 + 1)
  | _, _ => none

/-- The writes `ap->alleles[seed0] = 0; ap->alleles[seed1] = 1`. -/
def markSeeds (alleles : List Int) (seed0 seed1 : Int) : Option (List Int) :=
  match getAt alleles seed0, getAt alleles seed1 with
  | some _, some _ => some (setAt (setAt alleles seed0 0) seed1 1)
  | _, _ => none

/-- The end of `ClusterReads`: the best allele and the number of its reads.
`above a b` is the test `a > b + ZERO_PLUS`. -/
def chooseBest (above : Int → Int → Bool) (ap : AlPair) (alleles : List Int)
    (t : Int × Int × Int × Int) : AlPair :=
  if above t.1 t.2.1 then
    { ap with alleles := alleles, best_allele := 0, nr_best_allele := t.2.2.1 }
  else { ap with alleles := alleles, best_allele := 1, nr_best_allele := t.2.2.2 }

/-- `ClusterReads(ap)`.  `above a b` is the test `a > b + ZERO_PLUS` of two
ints against the header constant `ZERO_PLUS`. -/
def ClusterReads (above : Int → Int → Bool) (ap : AlPair) : Option AlPair :=
  if ap.nr ≤ 1 then
    match getAt ap.alleles 0 with
    | none => none
    | some _ => some { ap with best_allele := 0, alleles := setAt ap.alleles 0 0 }
  else
    match (upperPairs ap.nr).foldlM (seedStep ap.dist_matrix) (-100, -1, -1) with
    | none => none
    | some (_, seed0, seed1) =>
      match markSeeds ap.alleles seed0 seed1 with
      | none => none
      | some al2 =>
        match (intRange 0 ap.nr).foldlM (splitStep ap.dist_matrix seed0 seed1) al2 with
        | none => none
        | some al =>
          match (intRange 0 ap.nr).foldlM (tallyStep al ap.sum_qvs) (0, 0, 0, 0) with
          | none => none
          | some t => some (chooseBest above ap al t)

/-- The seeds `ClusterReads` finds: the place of the largest entry. -/
def seedsOf (ap : AlPair) : Option (Int × Int) :=
  ((upperPairs ap.nr).foldlM (seedStep ap.dist_matrix) (-100, -1, -1)).map fun r => (r.2.1, r.2.2)

/-- The reads that have the allele `a`. -/
def readsOf (ap : AlPair) (a : Int) : List Int :=
  (intRange 0 ap.nr).filter fun i => getAt ap.alleles i == some a

/-- The total of `sum_qvs` over the reads that have the allele `a`. -/
def alleleTotal (ap : AlPair) (a : Int) : Int :=
  ((readsOf ap a).map fun i => (getAt ap.sum_qvs i).getD 0).sum

/-- The allele of the read `i` by its distances to the two seeds: 0 when it
is nearer to `seed0`, else 1. -/
def sideOf (d : List (List Int)) (seed0 seed1 i : Int) : Option Int :=
  match distAt d i seed0, distAt d i seed1 with
  | some a, some b => some (if a < b then 0 else 1)
  | _, _ => none

/-- Three reads with the distances 12, 0 and 5 and the quality totals 5, 7, 9. -/
def pairThree : AlPair :=
  { nr := 3, iids := [10, 11, 12], alleles := [-1, -1, -1], sum_qvs := [5, 7, 9],
    dist_matrix := [[-1, 12, 0], [12, -1, 5], [0, 5, -1]], best_allele := 0,
    nr_best_allele := 0 }

/-- Two reads `A` and `C` with the iids 10 and 11 and the qualities `5` and
`7`, the first one in column 0 and the second one in column 1 of MANode 0. -/
def buildApart : Option Store := do
  let st := (AppendArtificialFragToLocalStore ResetStores 'R' 10 0 'X' ['A'] ['5']).1
  let st := (AppendArtificialFragToLocalStore st 'R' 11 0 'X' ['C'] ['7']).1
  let (st, _) ← FirstColumn (CreateMANode st 0).1 0 0
  let (st, _) ← ColumnAppend st 0 1
  pure st

/-- The distance matrix of the two reads of `buildApart` over the columns 0
and 1, and what `ClusterReads` makes of it: the rows of the matrix, the totals
`sum_qvs`, the two seeds, the alleles, and `best_allele` with
`nr_best_allele`. -/
def clusterApart : Option (List (List Int)) := do
  let st ← buildApart
  let ap ← populateColumns (fun t => t == 'R') st pairTwoIids [0, 1]
  let seeds ← seedsOf ap
  let ap' ← ClusterReads (fun a b => decide (a > b)) ap
  pure (ap.dist_matrix ++ [ap.sum_qvs, [seeds.1, seeds.2], ap'.alleles,
    [ap'.best_allele, ap'.nr_best_allele]])

/-! ## The choice among tied bases in `BaseCall` -/

/-- The loop of `BaseCall` (quality > 0) that finds the largest consensus
weight, from the index `bi` on: the state is `(max_ind, max_cw, tied)`.
`above x m` is the test `x > m + ZERO_PLUS` and `same x m` the test
`DBL_EQ_DBL(x, m)`; the weights `cw` are taken after the normalisation. -/
def weightScan {W : Type} (above same : W → W → Bool) :
    List W → Int → Int × W × List Int → Int × W × List Int
  | [], _, acc => acc
  | x :: rest, bi, acc =>
    if above x acc.2.1 then weightScan above same rest (bi + 1) (bi, x, [])
    else if same x acc.2.1 then
      weightScan above same rest (bi + 1) (acc.1, acc.2.1, acc.2.2 ++ [bi])
    else weightScan above same rest (bi + 1) acc

/-- The index of the base `BaseCall` (quality > 0) calls for the weights `cw`:
the gap when the largest weight is `zero`; else, when `tied` is not empty,
`max_ind` is appended to it and its entry 1 is taken. -/
def weightWinner {W : Type} (above same : W → W → Bool) (zero : W) (cw : List W) : Option Int :=
  let r := weightScan above same cw 0 (0, zero, [])
  if same r.2.1 zero then some 0
  else if r.2.2.length > 0 then getAt (r.2.2 ++ [r.1]) 1
  else some r.1

/-- The indices, counted from `bi`, at which the weight `m` stands in `l`. -/
def idxsOf {W : Type} [DecidableEq W] (m : W) : List W → Int → List Int
  | [], _ => []
  | x :: rest, bi => if x = m then bi :: idxsOf m rest (bi + 1) else idxsOf m rest (bi + 1)

/-- The winners for the weights `0 5 5 0 0 0`, `0 5 0 5 0 0`, `0 5 5 5 0 0`
and `0 5 5 5 5 0` (exact comparisons). -/
def tieCases : List (Option Int) :=
  [[0, 5, 5, 0, 0, 0], [0, 5, 0, 5, 0, 0], [0, 5, 5, 5, 0, 0], [0, 5, 5, 5, 5, 0]].map
    fun (cw : List Nat) => weightWinner (fun x m => decide (m < x)) (fun x m => decide (x = m)) 0 cw

/-! ## Refreshing the column list of a MANode -/

/-- `GetMANodeLength(mid)`. -/
def GetMANodeLength (st : Store) (mid : Int) : Int :=
  match GetMANode st mid with
  | none => -1
  | some ma => ma.columns.length

/-- The reads `BaseCall` (quality 0) makes for one bead of the column. -/
def baseCallRead0 (st : Store) (bid : Int) : Option Unit :=
  match GetBead st bid with
  | none => none
  | some bead =>
    match GetBase st bead.soffset, getAt st.qualityStore bead.soffset,
        GetFragment st bead.frag_index with
    | some _, some _, some _ => some ()
    | _, _, _ => none

/-- The two characters are written to the call bead. -/
def writeCall (st : Store) (call : Bead) (cbase cqv : Char) : Option Store :=
  match setGrowChar st.sequenceStore call.soffset cbase,
      setGrowChar st.qualityStore call.soffset cqv with
  | some seq, some qlt => some { st with sequenceStore := seq, qualityStore := qlt }
  | _, _ => none

/-- Store effect of `BaseCall` with quality 0: the majority base, with ties
broken by `random()`, is written to the call bead with the quality `0`.  The
base is the parameter `oracle` of the model. -/
def BaseCallMajority (oracle : Store → Int → Char × Char) (st : Store) (cid : Int) :
    Option Store :=
  match GetColumn st cid with
  | none => none
  | some column =>
    match GetBead st column.call, columnBeads st cid with
    | some call, some bids =>
      match bids.foldlM (fun _ bid => baseCallRead0 st bid) () with
      | none => none
      | some _ => writeCall st call (oracle st cid).1 '0'
    | _, _ => none

/-- Store effect of `BaseCall` with quality -1: base and quality of the first
bead of the column are copied to the call bead. -/
def BaseCallPromote (st : Store) (cid : Int) : Option Store :=
  match GetColumn st cid with
  | none => none
  | some column =>
    match GetBead st column.call with
    | none => none
    | some call =>
      match GetBead st call.down with
      | none => none
      | some bead =>
        match GetBase st bead.soffset, getAt st.qualityStore bead.soffset with
        | some cbase, some bqv => writeCall st call cbase bqv
        | _, _ => none

/-- Store effect of `BaseCall(cid, quality, &var, &ap, -1, &cbase, 0,
get_scores, opp)`, by the value of `quality`. -/
def BaseCallEffect (oracle : Store → Int → Char × Char) (quality : Int) (st : Store)
    (cid : Int) : Option Store :=
  if quality > 0 then BaseCallStore oracle st cid
  else if quality = 0 then BaseCallMajority oracle st cid
  else if quality = -1 then BaseCallPromote st cid
  else
    match GetColumn st cid with
    | none => none
    | some _ => some st

/-- The sanity check of `RefreshMANode` on the column `cid` at `index`, and
the step `cid = column->next`. -/
def refreshCheck (st : Store) (mid cid index : Int) : Option (Store × Int) :=
  match GetColumn st cid with
  | none => none
  | some column =>
    if index > 0 then
      match GetMANode st mid with
      | none => none
      | some ma =>
        match getAt ma.columns (index - 1) with
        | none => none
        | some prev =>
          match GetColumn st prev with
          | none => none
          | some pcol =>
            if prev ≠ column.prev ∨ pcol.next ≠ column.lid then none
            else some (st, column.next)
    else some (st, column.next)

/-- One round of the first loop of `RefreshMANode`: the base is called (unless
`quality` is -2), the column gets its `ma_index`, is appended to
`ma->columns`, and is checked against the column before it.  Returns the
store and `column->next`. -/
def refreshColumn (oracle : Store → Int → Char × Char) (quality mid : Int) (st : Store)
    (cid index : Int) : Option (Store × Int) :=
  match GetColumn st cid with
  | none => none
  | some _ =>
    match (if quality ≠ -2 then BaseCallEffect oracle quality st cid else some st) with
    | none => none
    | some s1 =>
      match modColumn s1 cid fun c => { c with ma_index := index } with
      | none => none
      | some s2 =>
        match modMANode s2 mid fun m => { m with columns := m.columns ++ [cid] } with
        | none => none
        | some s3 => refreshCheck s3 mid cid index

/-- The first loop of `RefreshMANode`. -/
def refreshLoop (oracle : Store → Int → Char × Char) (quality mid : Int) :
    Nat → Store → Int → Int → Option Store
  | 0, _, _, _ => none
  | fuel + 1, st, cid, index =>
    if cid > -1 then
      match refreshColumn oracle quality mid st cid index with
      | none => none
      | some (s, nx) => refreshLoop oracle quality mid fuel s nx (index + 1)
    else some st

/-- The part of `RefreshMANode` that follows the first loop, entered when
`opp->split_alleles` is set and `quality > 0`: the regions of variation are
found and their reads clustered in floating point, and with `make_v_list` the
bases of the regions are called again, which writes characters of call beads
and nothing else.  `writes` gives the two character arrays as this part
leaves them, `none` when it does not return. -/
def allelePass (writes : Store → Option (List Char × List Char)) (make_v_list : Bool)
    (st : Store) : Option Store :=
  match writes st with
  | none => none
  | some w =>
    if make_v_list then some { st with sequenceStore := w.1, qualityStore := w.2 }
    else some st

/-- `RefreshMANode(mid, quality, opp, &nvars, &v_list, make_v_list,
get_scores)`; `split_alleles` is `opp->split_alleles != 0`, with the default
options when `opp` is `NULL`.  The score
counters that `get_scores` feeds are not part of the stores. -/
def RefreshMANode (oracle : Store → Int → Char × Char)
    (writes : Store → Option (List Char × List Char)) (split_alleles make_v_list : Bool)
    (st : Store) (mid quality : Int) : Option Store :=
  match GetMANode st mid with
  | none => none
  | some ma =>
    if ma.first = -1 then some st
    else
      match modMANode st mid fun m => { m with columns := [] } with
      | none => none
      | some s0 =>
        match refreshLoop oracle quality mid (st.columnStore.length + 1) s0 ma.first 0 with
        | none => none
        | some s1 =>
          if split_alleles = false ∨ quality ≤ 0 then some s1
          else allelePass writes make_v_list s1

/-- The columns `l` are met from `a` following `next`, and `b` comes after
them. -/
def Path (st : Store) : Int → List Int → Int → Prop
  | a, [], b => a = b
  | a, x :: rest, b => a = x ∧ ∃ col, GetColumn st x = some col ∧ Path st col.next rest b

/-- The stores other than the two character arrays are the same. -/
def CharsOnly (st st' : Store) : Prop :=
  st'.beadStore = st.beadStore ∧ st'.columnStore = st.columnStore ∧
  st'.manodeStore = st.manodeStore ∧ st'.fragmentStore = st.fragmentStore

/-- Three columns over the read `ACG` in MANode 0. -/
def opsThreeColumns : List StackOp :=
  [loadOp ['A', 'C', 'G'], StackOp.node 0, StackOp.firstColumn 0 0,
    StackOp.columnAppend 0 1, StackOp.columnAppend 1 2]

/-- The store `opsThreeColumns` builds. -/
def storeThreeColumns : Store := (gridRun opsThreeColumns).getD ResetStores

/-- `RefreshMANode(0, 0, opp, ...)` on `storeThreeColumns`, the first base
winning every tie. -/
def refreshThreeColumns : Option Store :=
  RefreshMANode (fun _ _ => ('A', '0')) (fun _ => none) false false storeThreeColumns 0 0

/-- The store `refreshThreeColumns` returns. -/
def storeRefreshed : Store := refreshThreeColumns.getD ResetStores

/-- A column with its `ma_index` left out of the comparison. -/
def clearIndex (c : Column) : Column := { c with ma_index := 0 }

/-! ## Seeding a MANode with a fragment -/

/-- `NextFragmentBead(&fi)` with `fi.bead = it`: the value returned and the
new `fi.bead`. -/
def NextFragmentBead (st : Store) (it : Int) : Option (Int × Int) :=
  if it = -1 then some (-1, -1)
  else
    match GetBead st it with
    | none => none
    | some bead => some (bead.boffset, bead.next)

/-- The loop of `SeedMAWithFragment`: a column is appended for every further
bead of the iterator.  Returns the store and the last column. -/
def seedLoop : Nat → Store → Int → Int → Option (Store × Int)
  | 0, _, _, _ => none
  | fuel + 1, st, it, cid =>
    match NextFragmentBead st it with
    | none => none
    | some (bid, it') =>
      if bid ≠ -1 then
        match ColumnAppend st cid bid with
        | none => none
        | some (s, c) => seedLoop fuel s it' c
      else some (st, cid)

/-- `SeedMAWithFragment(mid, fid, quality, opp)`; `split_alleles` is
`opp->split_alleles != 0`. -/
def SeedMAWithFragment (oracle : Store → Int → Char × Char)
    (writes : Store → Option (List Char × List Char)) (split_alleles : Bool)
    (st : Store) (mid fid quality : Int) : Option Store :=
  match GetMANode st mid, GetFragment st fid with
  | some _, some fragment =>
    match NextFragmentBead st fragment.beads with
    | none => none
    | some (bid, it) =>
      match FirstColumn st mid bid with
      | none => none
      | some (s1, cid) =>
        match seedLoop (st.beadStore.length + 1) s1 it cid with
        | none => none
        | some (s2, _) =>
          match modFragment s2 fid fun f => { f with manode := mid } with
          | none => none
          | some s3 => RefreshMANode oracle writes split_alleles false s3 mid quality
  | _, _ => none

/-- The beads `l` are met from `a` following `next`, and the chain ends
after them. -/
def Fwd (st : Store) : Int → List Int → Prop
  | a, [] => a = -1
  | a, x :: l => a = x ∧ ∃ n, nextOf st x = some n ∧ Fwd st n l

/-- The bead `x` is in no column and its character is tallied. -/
def Free (st : Store) (x : Int) : Prop :=
  ∃ b c, GetBead st x = some b ∧ b.column_index = -1 ∧ beadChar st x = some c ∧
    (c ∈ RALPHABET ∨ c = 'n')

/-- The column `c` holds one bead, and `BaseCall` can read it. -/
def Ready (st : Store) (c : Int) : Prop :=
  ∃ col call xb, GetColumn st c = some col ∧ GetBead st col.call = some call ∧
    0 ≤ call.soffset ∧ GetBead st call.down = some xb ∧ xb.down = -1 ∧
    0 ≤ xb.soffset ∧ xb.soffset < st.sequenceStore.length ∧
    xb.soffset < st.qualityStore.length ∧ (GetFragment st xb.frag_index).isSome

/-- The character of the bead `x` is one that the column profile tallies. -/
def beadTallied (st : Store) (x : Int) : Bool :=
  match beadChar st x with
  | some c => decide (c ∈ RALPHABET) || c == 'n'
  | none => false

/-- The column ids `K, K+1, ..., K+n-1`. -/
def idsFrom (K : Int) (n : Nat) : List Int := (List.range n).map fun (k : Nat) => K + k

/-- One read is loaded, MANode 0 is created and seeded with the read
(`quality = 0`, `split_alleles` not set): `none` when `SeedMAWithFragment`
aborts, and else the length of MANode 0 and, for each column of its list, the
depth and the beads under the call bead. -/
def seedCase (read : List Char) : Option (Int × List (Int × Option (List Int))) :=
  let st := (CreateMANode (loadReads [(read, read.map fun _ => 'I')]) 0).1
  match SeedMAWithFragment (fun _ _ => ('A', '0')) (fun _ => none) false st 0 0 0 with
  | none => none
  | some st' =>
    some (GetMANodeLength st' 0,
      ((GetMANode st' 0).map MANode.columns).getD [] |>.map fun c =>
        (((GetColumn st' c).map fun col => col.base_count.depth).getD (-1), columnBeads st' c))

/-- The store before the seeding of the read `ACG`. -/
def storeACGNode : Store := (gridRun [loadOp ['A', 'C', 'G'], StackOp.node 0]).getD ResetStores

/-- The fragment record of the read `ACG` in `storeACGNode`. -/
def fragmentACG : Fragment :=
  { lid := 0, iid := 1, type := 'R', utype := 'X', complement := 0, contained := 0,
    deleted := 0, manode := -1, sequence := 0, quality := 0, beads := 0, length := 3 }

/-- Two stacked sequences `AAACT`, `CCC-T`; the window is the first four
columns. -/
def stackMixed : Option Store :=
  stackReads [(['A', 'A', 'A', 'C', 'T'], ['I', 'I', 'I', 'I', 'I']),
    (['C', 'C', 'C', '-', 'T'], ['I', 'I', 'I', 'I', 'I'])]

/-- A plan of the allele analysis that shifts nothing: both rows in the long
allele, no shifting interface, and a template of `n`. -/
def planMixed : MixedPlan :=
  { alleles := [0, 0], lpos := -1, rpos := -1, template := List.replicate 12 'n',
    long_allele := 0, short_allele := 1 }

/-! ## The variant list of `RefreshMANode` -/

/-- `if (!(*v_list)) *v_list = safe_malloc(min_len_vlist * sizeof(IntMultiVar))`:
`*v_list` is `none` for `NULL`, and a fresh array has unset entries. -/
def allocVariants {α : Type} (v : Option (List (Option α))) (min_len_vlist : Int) :
    List (Option α) :=
  match v with
  | none => List.replicate min_len_vlist.toNat none
  | some l => l

/-- What the body of the region loop of `RefreshMANode` does to `*nvars` and
`*v_list` for one region of variation, whose record (`IntMultiVar`: the
position, the read counts, the ratio and the two called sequences, which come
out of the floating-point clustering and base calls) is `r`.  A write
outside the array is `none`. -/
def noteRegion {α : Type} (quality : Int) (make_v_list : Bool)
    (acc : Int × Option (List (Option α))) (r : α) : Option (Int × Option (List (Option α))) :=
  let nvars : Int := 0
  if quality > 0 ∧ make_v_list = true then
    let min_len_vlist : Int := 10
    let vl : List (Option α) := allocVariants acc.2 min_len_vlist
    let vl : List (Option α) :=
      if nvars = min_len_vlist ∧ quality > 0 ∧ make_v_list = true then
        vl ++ List.replicate 10 none
      else vl
    match getAt vl nvars with
    | none => none
    | some _ => some (nvars + 1, some (setAt vl nvars (some r)))
  else some (nvars, acc.2)

/-- `*nvars` and `*v_list` as `RefreshMANode` leaves them.  `first` is
`ma->first`, `split_alleles` is `opp->split_alleles != 0`, and `regions` are
the records of the regions of variation in the order the loop meets them; which
columns form a region is decided in floating point. -/
def refreshVariants {α : Type} (first : Int) (split_alleles : Bool) (quality : Int)
    (make_v_list : Bool) (regions : List α) (nvars : Int) (v_list : Option (List (Option α))) :
    Option (Int × Option (List (Option α))) :=
  if first = -1 then some (nvars, v_list)
  else if split_alleles = false ∨ quality ≤ 0 then some (nvars, v_list)
  else regions.foldlM (noteRegion quality make_v_list) (nvars, v_list)

/-- The entry `(*v_list)[i]`. -/
def variantAt {α : Type} (v : Option (List (Option α))) (i : Int) : Option α :=
  match v with
  | none => none
  | some l => (getAt l i).join

/-! ## InvertTrace on the trace array -/

/-- The first loop of `InvertTrace`, `while (*t != 0) { n_dels++; t++; }`, from
the index `t`: the index of the terminator. -/
def countDels (trace : List Int) : Nat → Int → Option Int
  | 0, _ => none
  | fuel + 1, t =>
    match getAt trace t with
    | none => none
    | some v => if v ≠ 0 then countDels trace fuel (t + 1) else some t

/-- An entry as `InvertTrace` re-expresses it: `-(aend + v)` for a negative
`v`, else `bend - v`. -/
def invertEntry (aend bend v : Int) : Int := if v < 0 then -(aend + v) else bend - v

/-- The second loop of `InvertTrace`, `while (s - t > 0)`, on the indices `t`
and `s`: the two entries change places, each re-expressed. -/
def invertLoop (aend bend : Int) : Nat → List Int → Int → Int → Option (List Int × Int × Int)
  | 0, _, _, _ => none
  | fuel + 1, trace, t, s =>
    if s - t > 0 then
      match getAt trace t, getAt trace s with
      | some tmp, some sv =>
        invertLoop aend bend fuel
          (setAt (setAt trace t (invertEntry aend bend sv)) s (invertEntry aend bend tmp))
          (t + 1) (s - 1)
      | _, _ => none
    else some (trace, t, s)

/-- The second loop of `InvertTrace` followed by `if (s == t)`, which
re-expresses the entry in the middle. -/
def invertEntries (aend bend : Int) (fuel : Nat) (trace : List Int) (t s : Int) :
    Option (List Int) :=
  match invertLoop aend bend fuel trace t s with
  | none => none
  | some (tr, t1, s1) =>
    if s1 = t1 then
      match getAt tr s1 with
      | none => none
      | some v => some (setAt tr s1 (invertEntry aend bend v))
    else some tr

/-- `InvertTrace(alen, blen, O)` as the source performs it, on the array
`O->trace` in place; `none` when the array is read past its end. -/
def InvertTraceInPlace (alen blen : Int) (O : Overlap) : Option Overlap :=
  let aend := alen + 2
  let bend := blen + 2
  match countDels O.trace (O.trace.length + 1) 0 with
  | none => none
  | some n_dels =>
    match invertEntries aend bend (O.trace.length + 1) O.trace 0 (0 + n_dels - 1) with
    | none => none
    | some tr => some { O with trace := tr, begpos := -O.endpos, endpos := -O.begpos }

/-! ## SequenceComplement on the character arrays -/

/-- `strlen` from the index `i`: the index of the terminator. -/
def strlenFrom (s : List Char) : Nat → Int → Option Int
  | 0, _ => none
  | fuel + 1, i =>
    match getAt s i with
    | none => none
    | some c => if c ≠ Char.ofNat 0 then strlenFrom s fuel (i + 1) else some i

/-- The loop `while (s < t) { c = *s; *s++ = f(*t); *t-- = f(c); }` of
`SequenceComplement`, on the indices `s` and `t` of one array; `f` is
`BaseComplement` for the sequence and the identity for the quality. -/
def mirrorLoop (f : Char → Char) : Nat → List Char → Int → Int → Option (List Char × Int × Int)
  | 0, _, _, _ => none
  | fuel + 1, arr, s, t =>
    if s < t then
      match getAt arr s, getAt arr t with
      | some c, some tv => mirrorLoop f fuel (setAt (setAt arr s (f tv)) t (f c)) (s + 1) (t - 1)
      | _, _ => none
    else some (arr, s, t)

/-- The loop on the sequence followed by `if (s == t) *s = BaseComplement(*s)`. -/
def mirrorEntries (f : Char → Char) (fuel : Nat) (arr : List Char) (s t : Int) :
    Option (List Char) :=
  match mirrorLoop f fuel arr s t with
  | none => none
  | some (a1, s1, t1) =>
    if s1 = t1 then
      match getAt a1 s1 with
      | none => none
      | some v => some (setAt a1 s1 (f v))
    else some a1

/-- `SequenceComplement(sequence, quality)` as the source performs it, in
place: `sequence` points at index `off` of the array `seq`, and `quality` is
`none` for `NULL`, else an array and an index.  Returns the two arrays; `none`
when an array is read past its end. -/
def SequenceComplementInPlace (env : AlignEnv) (seq : List Char) (off : Int)
    (quality : Option (List Char × Int)) : Option (List Char × Option (List Char)) :=
  match strlenFrom seq (seq.length + 1) off with
  | none => none
  | some e =>
    let len := e - off
    match mirrorEntries (BaseComplement env) (seq.length + 1) seq off (off + (len - 1)) with
    | none => none
    | some seq1 =>
      match quality with
      | none => some (seq1, none)
      | some (q, qoff) =>
        match mirrorLoop id (q.length + 1) q qoff (qoff + (len - 1)) with
        | none => none
        | some (q1, _, _) => some (seq1, some q1)

/-- The two strings `A` at `a` and `B` at `b` are one string, or lie in
different arrays, or one after the end of the other in `sequenceStore`. -/
def TwoStrings (m : SeqMem) (a b : Option Nat) (A B : List Char) : Prop :=
  (a = b ∧ A = B ∧
    ((a = none ∧ ∃ r, m.cnstmpseq = A ++ Char.ofNat 0 :: r) ∨
     (∃ p r, a = some p.length ∧ m.store = p ++ A ++ Char.ofNat 0 :: r))) ∨
  (a = none ∧ ∃ ra p r, b = some p.length ∧ m.cnstmpseq = A ++ Char.ofNat 0 :: ra ∧
    m.store = p ++ B ++ Char.ofNat 0 :: r) ∨
  (∃ p q r, a = some p.length ∧ b = some (p ++ A ++ Char.ofNat 0 :: q).length ∧
    m.store = (p ++ A ++ Char.ofNat 0 :: q) ++ B ++ Char.ofNat 0 :: r) ∨
  (∃ p q r, b = some p.length ∧ a = some (p ++ B ++ Char.ofNat 0 :: q).length ∧
    m.store = (p ++ B ++ Char.ofNat 0 :: q) ++ A ++ Char.ofNat 0 :: r)

/-- Two sequences stored one after the other, `ACGT` at 0 and `CCN` at 5,
for examples. -/
def pairStored : Pair :=
  { a := some 0, b := some 5, alen := 4, blen := 3, ahang_input := 0, btype := 'R', CNS_ERATE := 1, defaults := initialParams }

/-- The state of a search that holds no overlap, over the sequences of
`pairStored`. -/
def searchStored : Search :=
  { params := initialParams, O := none, trick := 'N', mem := { store := ['A', 'C', 'G', 'T', Char.ofNat 0, 'C', 'C', 'N', Char.ofNat 0], cnstmpseq := [] }, calls := [] }

/-! ## The gap runs `AffineScoreAbacus` counts -/

/-- The characters of row `i` in the columns of the third `AffineScoreAbacus`
looks at, as `GetAbacus` returns them. -/
def windowRow (a : Abacus) (i : Int) : Option (List Char) :=
  (intRange (affineWindow a).1 (affineWindow a).2).mapM (GetAbacus a i)

/-- Whether a maximal run of `-` starts at position `k` of `l`: the position
holds `-` and is the first one or follows another character. -/
def runStartsAt (l : List Char) (k : Nat) : Bool :=
  l[k]? == some '-' && (k == 0 || l[k - 1]? != some '-')

/-- The number of maximal runs of `-` in `l`, in the words of the
specification: the number of positions where such a run starts. -/
def gapRuns (l : List Char) : Nat := ((List.range l.length).filter (runStartsAt l)).length

/-- The start of a run at position `k`, where `prev` tells whether a `-`
precedes the list. -/
def startAfter (prev : Bool) (l : List Char) (k : Nat) : Bool :=
  l[k]? == some '-' && (if k = 0 then !prev else l[k - 1]? != some '-')

/-- The number of runs of `-` that start in `l`, a run that continues a `-`
before the list left out. -/
def gapRunsFrom : Bool → List Char → Nat
  | _, [] => 0
  | prev, c :: r => (if c = '-' ∧ prev = false then 1 else 0) + gapRunsFrom (c == '-') r

/-- An untagged abacus of two rows and nine columns for examples: the
rows `AC-A-GTTA` and `-----C-AA` between their borders. -/
def abacusRuns : Abacus :=
  { start_column := 0, end_column := 2, rows := 2, columns := 9, window_width := 3, shift := ShiftStatus.UNSHIFTED, beads := ['n', 'A', 'C', '-', 'A', '-', 'G', 'T', 'T', 'A', 'n', 'n', '-', '-', '-', '-', '-', 'C', '-', 'A', 'A', 'n'], calls := List.replicate 9 'n' }

/-! ## The quality values `PopulateDistMatrix` adds -/

/-- The arrays of the first loop of `PopulateDistMatrix` before the loop:
`bases` all `X`, `iids` all `-1`, `qvs` all 0. -/
def emptyReads (ap : AlPair) : ColumnReads :=
  { bases := List.replicate ap.nr.toNat 'X', iids := List.replicate ap.nr.toNat (-1),
    qvs := List.replicate ap.nr.toNat 0, sum_qvs := ap.sum_qvs }

/-- What the arrays of the first loop hold for the reads noted: the index
`i` is the index of the iid of a read with a bead `bid` among `bids`, and
`bases[i]`, `qvs[i]` and `iids[i]` are the character and the quality value of
that bead and the iid of the read. -/
def Collected (isRead : Char → Bool) (st : Store) (ap : AlPair) (bids : List Int)
    (c : ColumnReads) : Prop :=
  ∀ i b, getAt c.bases i = some b → b ≠ 'X' →
    ∃ bid bead frag q, bid ∈ bids ∧ GetBead st bid = some bead ∧
      GetFragment st bead.frag_index = some frag ∧ isRead frag.type = true ∧
      IidToIndex frag.iid ap.iids ap.nr = some i ∧ GetBase st bead.soffset = some b ∧
      getAt st.qualityStore bead.soffset = some q ∧
      getAt c.qvs i = some ((q.toNat : Int) - 48) ∧ getAt c.iids i = some frag.iid

/-- Three reads loaded and aligned: `C-G--T` with the iid 11 and the
qualities `597468` seeds the columns 0 to 5; `A` with the iid 10 and the
quality `3` is aligned in column 1, under the lone gap; `T` with the iid 12
and the quality `2` is aligned in column 3, under the first gap of the run. -/
def buildGapColumn : Option Store := do
  let st := (AppendArtificialFragToLocalStore ResetStores 'R' 10 0 'X' ['A'] ['3']).1
  let st := (AppendArtificialFragToLocalStore st 'R' 11 0 'X' ['C', '-', 'G', '-', '-', 'T']
    ['5', '9', '7', '4', '6', '8']).1
  let st := (AppendArtificialFragToLocalStore st 'R' 12 0 'X' ['T'] ['2']).1
  let (st, _) ← FirstColumn (CreateMANode st 0).1 0 1
  let (st, _) ← ColumnAppend st 0 2
  let (st, _) ← ColumnAppend st 1 3
  let (st, _) ← ColumnAppend st 2 4
  let (st, _) ← ColumnAppend st 3 5
  let (st, _) ← ColumnAppend st 4 6
  let (st, _) ← AlignBead st 1 0
  let (st, _) ← AlignBead st 3 7
  pure st

/-- The store `buildGapColumn` returns. -/
def storeGapColumn : Store := buildGapColumn.getD ResetStores

/-- What `PopulateDistMatrix` leaves in `sum_qvs` and `dist_matrix` for the
column `cid` of `storeGapColumn`, from a fresh matrix for the two reads with
the iids `iid` and 11. -/
def populatedGap (iid cid : Int) : Option (List Int × List (List Int)) :=
  (PopulateDistMatrix (fun t => t == 'R') storeGapColumn
    (AllocateDistMatrix { pairTwoIids with iids := [iid, 11] }) cid).map
      fun a => (a.sum_qvs, a.dist_matrix)

/-! ## `BaseCall` with `quality == 0` -/

/-- The counters `best_read_base_count` and `guide_base_count` of `BaseCall`:
two arrays of `CNS_NP` entries. -/
structure CallCounts where
  best_read_base_count : List Int
  guide_base_count : List Int
  deriving DecidableEq

/-- `best_read_base_count[i] + guide_base_count[i]`. -/
def CallCounts.both (c : CallCounts) (i : Int) : Option Int :=
  match getAt c.best_read_base_count i, getAt c.guide_base_count i with
  | some a, some b => some (a + b)
  | _, _ => none

/-- One round of the first loop of the branch `quality == 0`: the bead is
counted at `BaseToInt(cbase)`, with the reads or with the guides.  `isRead` is
the test `type == AS_READ || type == AS_B_READ || type == AS_EXTR ||
type == AS_TRNR`. -/
def countBead (isRead : Char → Bool) (st : Store) (acc : CallCounts) (bid : Int) :
    Option CallCounts :=
  match GetBead st bid with
  | none => none
  | some bead =>
    match GetBase st bead.soffset, getAt st.qualityStore bead.soffset,
        GetFragment st bead.frag_index with
    | some cbase, some _, some frag =>
      if isRead frag.type then
        match getAt acc.best_read_base_count (BaseToInt cbase) with
        | none => none
        | some v =>
          some { best_read_base_count := setAt acc.best_read_base_count (BaseToInt cbase) (v + 1),
                 guide_base_count := acc.guide_base_count }
      else
        match getAt acc.guide_base_count (BaseToInt cbase) with
        | none => none
        | some v =>
          some { best_read_base_count := acc.best_read_base_count,
                 guide_base_count := setAt acc.guide_base_count (BaseToInt cbase) (v + 1) }
    | _, _, _ => none

/-- One round of the search for the largest count: the state is
`(max_count, max_index)`. -/
def maxCountStep (c : CallCounts) (acc : Int × Int) (i : Int) : Option (Int × Int) :=
  match c.both i with
  | none => none
  | some v => if v > acc.1 then some (v, i) else some acc

/-- One round of the loop that counts the ties: the state is
`(max_index, tie_count)`. -/
def tieCountStep (c : CallCounts) (max_count : Int) (acc : Int × Int) (i : Int) :
    Option (Int × Int) :=
  match c.both i with
  | none => none
  | some v => if v = max_count then some (i, acc.2 + 1) else some acc

/-- One round of the loop that breaks the ties with `random()`: the state is
`(max_index, max_tie)` and the number of values drawn. -/
def tieBreakStep (rnd : Nat → Int) (c : CallCounts) (max_count : Int) (acc : (Int × Int) × Nat)
    (i : Int) : Option ((Int × Int) × Nat) :=
  match c.both i with
  | none => none
  | some v =>
    if v = max_count then
      if rnd acc.2 > acc.1.2 then some ((i, rnd acc.2), acc.2 + 1) else some (acc.1, acc.2 + 1)
    else some acc

/-- The choice of `max_index` from the counts.  `b_read_depth` and
`guide_depth` are 0 on this path: the branch does not count them.  `rnd` is
the sequence of values `random()` returns and `k` the number of values drawn
before; the result is `max_index` and the number drawn after. -/
def callIndex (rnd : Nat → Int) (k : Nat) (c : CallCounts) : Option (Int × Nat) :=
  match (intRange 0 CNS_NALPHABET).foldlM (maxCountStep c) (0, -1) with
  | none => none
  | some (max_count, max_index) =>
    match c.both max_index with
    | none => none
    | some v =>
      let b_read_depth : Int := 0
      let guide_depth : Int := 0
      match (if v > (b_read_depth + guide_depth) / 2 then some (max_index, 0)
          else (intRange 0 CNS_NALPHABET).foldlM (tieCountStep c max_count) (max_index, 0)) with
      | none => none
      | some (max_index, tie_count) =>
        if tie_count > 1 then
          match (intRange 1 CNS_NALPHABET).foldlM (tieBreakStep rnd c max_count)
              ((max_index, -1), k) with
          | none => none
          | some ((mi, _), k') => some (mi, k')
        else some (max_index, k)

/-- One round of the loop that adds up the score: the counts of the symbols
other than the call. -/
def scoreStep (c : CallCounts) (call : Int) (score : Int) (bi : Int) : Option Int :=
  if bi ≠ call then
    match c.both bi with
    | none => none
    | some v => some (score + v)
  else some score

/-- `BaseCall(cid, 0, ...)`: the branch `quality == 0`.  `np` is `CNS_NP`, the
length of the counters.  Returns the store, the score and the number of
values of `random()` drawn. -/
def BaseCallZero (isRead : Char → Bool) (np : Nat) (rnd : Nat → Int) (k : Nat) (st : Store)
    (cid : Int) : Option (Store × Int × Nat) :=
  match GetColumn st cid with
  | none => none
  | some column =>
    match GetBead st column.call, columnBeads st cid with
    | some call, some bids =>
      match bids.foldlM (countBead isRead st)
          { best_read_base_count := List.replicate np 0, guide_base_count := List.replicate np 0 } with
      | none => none
      | some c =>
        match callIndex rnd k c with
        | none => none
        | some (max_index, k') =>
          match getAt RALPHABET max_index with
          | none => none
          | some r =>
            match writeCall st call r.toUpper '0' with
            | none => none
            | some st' =>
              match (intRange 0 CNS_NALPHABET).foldlM (scoreStep c (BaseToInt r.toUpper)) 0 with
              | none => none
              | some score => some (st', score, k')
    | _, _ => none

/-- The search for the largest count on counts that can be read: the state
is `(max_count, max_index)`. -/
def maxStep (t : Int → Int) (acc : Int × Int) (i : Int) : Int × Int :=
  if t i > acc.1 then (t i, i) else acc

/-- The number of characters of `chars` with the alphabet index `i`. -/
def symbolCount (chars : List Char) (i : Int) : Int :=
  ((chars.filter fun ch => RINDEX ch = i).length : Int)

/-- The symbol `BaseCall` calls for the characters `chars` of a column: the
one at the index the search for the largest count ends with. -/
def calledSymbol (chars : List Char) : Char :=
  (getAt RALPHABET ((intRange 0 CNS_NALPHABET).foldl (maxStep (symbolCount chars)) (0, -1)).2).getD 'N'

/-- Three reads `A`, `-`, `-` and a unitig `A` aligned in column 0 of MANode
0: a tie of two gaps and two `A`. -/
def buildTie : Option Store := do
  let st := (AppendArtificialFragToLocalStore ResetStores 'R' 10 0 'X' ['A'] ['5']).1
  let st := (AppendArtificialFragToLocalStore st 'R' 11 0 'X' ['-'] ['7']).1
  let st := (AppendArtificialFragToLocalStore st 'R' 12 0 'X' ['-'] ['7']).1
  let st := (AppendArtificialFragToLocalStore st 'U' 13 0 'X' ['A'] ['7']).1
  let (st, _) ← FirstColumn (CreateMANode st 0).1 0 0
  let (st, _) ← AlignBead st 0 1
  let (st, _) ← AlignBead st 0 2
  let (st, _) ← AlignBead st 0 3
  pure st

/-- The store `buildTie` returns. -/
def storeTie : Store := buildTie.getD ResetStores

/-! ## The border of an abacus -/

/-- An abacus of `rows` rows of `columns + 2` cells, three windows wide, with
`columns` calls, whose rows hold `n` in their two border cells, at the column
positions `-1` and `columns`. -/
def Bordered (a : Abacus) : Prop :=
  0 ≤ a.rows ∧ 0 ≤ a.window_width ∧ a.columns = 3 * a.window_width ∧
  (a.beads.length : Int) = a.rows * (a.columns + 2) ∧ (a.calls.length : Int) = a.columns ∧
  ∀ i, 0 ≤ i → i < a.rows → GetAbacus a i (-1) = some 'n' ∧ GetAbacus a i a.columns = some 'n'

/-- The abacus `b` is bordered and has the rows, the columns and the window
width of `a`. -/
def Shaped (a b : Abacus) : Prop :=
  Bordered b ∧ b.rows = a.rows ∧ b.columns = a.columns ∧ b.window_width = a.window_width

/-- The abacus of the window of `stackMixed` after `RightShift` on its clone:
tagged `RIGHT_SHIFT`, twelve columns wide. -/
def abacusRight : Option Abacus := do
  let st ← stackMixed
  let (_, a) ← CreateAbacus st 0 0 4
  let s ← RightShift (fun _ => 0) 0 (CloneAbacus a)
  pure s.abacus

/-- A plan of the allele analysis with row 1 in the short allele, the left
shifting interface at `lpos`, no right one, and a template of `n`. -/
def planBorder (lpos : Int) : MixedPlan :=
  { alleles := [0, 1], lpos := lpos, rpos := -1, template := List.replicate 12 'n', long_allele := 0, short_allele := 1 }

/-- The abacus `MixedShift` has reached on `abacusRight` when its left pass is
through with the columns 8 to 11. -/
def borderState : Option Abacus :=
  abacusRight.bind fun a => (ResetCalls a).bind (mixedSweep (planBorder 11))

/-- What `MixedShift` meets at the right border of row 1 in `borderState`:
the character of the cell at column position 12, the column the scan to the
left stops at, whether `SetAbacus(abacus, 1, 12, '-')` returns, and whether
`MixedShift` returns on `abacusRight` with `lpos = 12` and with `lpos = 11`. -/
def borderVisit : Option Char × Option Int × Bool × Bool × Bool :=
  (borderState.bind fun a => GetAbacus a 1 12,
   borderState.bind fun a => scanLeftTo a 1 8 (a.beads.length + 1) 12,
   (borderState.bind fun a => SetAbacus a 1 12 '-').isSome,
   (abacusRight.bind fun a => MixedShift (fun _ => 0) 0 (planBorder 12) a).isSome,
   (abacusRight.bind fun a => MixedShift (fun _ => 0) 0 (planBorder 11) a).isSome)

/-! ## Applying a stored alignment and reading the deltas back -/

/-- The inner loop `while (*trace - bpos > 0)` and the closing loop
`while (bpos < blen)` of `ApplyIMPAlignment`, `n` being the number of rounds
(`bpos` grows by one a round): the bead `bboffset+bpos` of `b` goes into the
column of the bead `apos` of `a`.  Returns the store, `apos` and `bpos`. -/
def impAlign (bboffset : Int) : Nat → Store → Int → Int → Option (Store × Int × Int)
  | 0, st, apos, bpos => some (st, apos, bpos)
  | n + 1, st, apos, bpos =>
    match GetBead st apos with
    | none => none
    | some abead =>
      match AlignBead st abead.column_index (bboffset + bpos) with
      | none => none
      | some (st1, _) => impAlign bboffset n st1 (apos + 1) (bpos + 1)

/-- The statement `binsert = AlignBead(abead->column_index,
AppendGapBead(bboffset+bpos-1))` with `abead = GetBead(beadStore, apos)`.
Returns the store and `binsert`. -/
def impGap (bboffset : Int) (st : Store) (apos bpos : Int) : Option (Store × Int) :=
  match GetBead st apos with
  | none => none
  | some abead =>
    match AppendGapBead st (bboffset + bpos - 1) with
    | none => none
    | some (st1, g) => AlignBead st1 abead.column_index g

/-- The loop `while (NULL != trace && *trace != 0)` of `ApplyIMPAlignment`.
The list holds the entries of the array; the loop ends at the first 0 (or at
the end of the list; `NULL` is the empty list). -/
def impTrace (bboffset : Int) : List Int → Store → Int → Int → Option (Store × Int × Int)
  | [], st, apos, bpos => some (st, apos, bpos)
  | t :: ts, st, apos, bpos =>
    if t = 0 then some (st, apos, bpos)
    else
      match impAlign bboffset (t - bpos).toNat st apos bpos with
      | none => none
      | some (st1, apos1, bpos1) =>
        match impGap bboffset st1 apos1 bpos1 with
        | none => none
        | some (st2, _) => impTrace bboffset ts st2 (apos1 + 1) bpos1

/-- `ApplyIMPAlignment(afid, bfid, ahang, trace)`: returns the store and
`bpos`. -/
def ApplyIMPAlignment (st : Store) (afid bfid ahang : Int) (trace : List Int) :
    Option (Store × Int) := do
  let afrag ← GetFragment st afid
  let bfrag ← GetFragment st bfid
  let (st, apos, bpos) ← impTrace bfrag.beads trace st (afrag.beads + ahang) 0
  let (st, _, bpos) ← impAlign bfrag.beads (bfrag.length - bpos).toNat st apos bpos
  let afrag ← GetFragment st afid
  let st ← modFragment st bfid fun f => { f with manode := afrag.manode }
  pure (st, bpos)

/-- The loop of `GetFragmentDeltas`, `it` being `fi.bead`: the array
`deltas` at the end. -/
def deltaLoop (st : Store) (length : Int) : Nat → Int → Int → List Int → Option (List Int)
  | 0, _, _, _ => none
  | fuel + 1, it, index, deltas =>
    match NextFragmentBead st it with
    | none => none
    | some (bid, it1) =>
      if bid ≠ -1 ∧ index < length then
        match GetBead st bid with
        | none => none
        | some bead =>
          match GetBase st bead.soffset with
          | none => none
          | some c =>
            if c = '-' then deltaLoop st length fuel it1 index (deltas ++ [index])
            else deltaLoop st length fuel it1 (index + 1) deltas
      else some deltas

/-- `GetFragmentDeltas(fid, deltas, length)`: the array `deltas` after the
call (the pointer returned is to its entry `delta_count`, the first one
added).  A fragment that is not there is the `CleanExit`. -/
def GetFragmentDeltas (st : Store) (fid : Int) (deltas : List Int) (length : Int) :
    Option (List Int) :=
  match GetFragment st fid with
  | none => none
  | some fragment => deltaLoop st length (st.beadStore.length + 1) fragment.beads 0 deltas

/-- The read `a` of six characters is loaded, then the read `b`; MANode 0 is
made and seeded with the beads of `a`, one column each. -/
def opsImp (a b : List Char) : List StackOp :=
  [loadOp a, loadOp b, StackOp.node 0, StackOp.firstColumn 0 0, StackOp.columnAppend 0 1,
    StackOp.columnAppend 1 2, StackOp.columnAppend 2 3, StackOp.columnAppend 3 4,
    StackOp.columnAppend 4 5]

/-- The store `opsImp` builds for the reads `ACGTAC` and `CGT`. -/
def storeImp : Store := (gridRun (opsImp ['A', 'C', 'G', 'T', 'A', 'C'] ['C', 'G', 'T'])).getD
  ResetStores

/-- After `opsImp`, `ApplyIMPAlignment(0, 1, ahang, trace)` and then
`GetFragmentDeltas(1, deltas, blen)`: `none` when one of them aborts, and else
the value `ApplyIMPAlignment` returned and the array `deltas`. -/
def impOutcome (a b : List Char) (ahang : Int) (trace deltas : List Int) (blen : Int) :
    Option (Int × List Int) :=
  match gridRun (opsImp a b) with
  | none => none
  | some st =>
    match ApplyIMPAlignment st 0 1 ahang trace with
    | none => none
    | some (st1, r) => (GetFragmentDeltas st1 1 deltas blen).map fun d => (r, d)

/-- The bead `j` records its own offset and carries the character `c`. -/
def Own (st : Store) (j : Int) (c : Char) : Prop :=
  (GetBead st j).map Bead.boffset = some j ∧ beadChar st j = some c

/-- The beads of `l` are met in order from `a` following `next`, the chain
ends after them, and each records its own offset and carries the character
listed with it. -/
def Strand (st : Store) (a : Int) (l : List (Int × Char)) : Prop :=
  Fwd st a (l.map Prod.fst) ∧ ∀ p, p ∈ l → Own st p.1 p.2

/-- The consecutive beads `b, b+1, ...` with the characters `cs`. -/
def rowFrom : Int → List Char → List (Int × Char)
  | _, [] => []
  | b, c :: cs => (b, c) :: rowFrom (b + 1) cs

/-- The value of `index` at every gap character of `cs`, `index` counting
the other characters met before it. -/
def gapIndexes : List Char → Int → List Int
  | [], _ => []
  | c :: cs, i => if c = '-' then i :: gapIndexes cs i else gapIndexes cs (i + 1)

/-- The number of characters of `cs` that are not the gap character. -/
def nonGaps : List Char → Nat
  | [] => 0
  | c :: cs => if c = '-' then nonGaps cs else nonGaps cs + 1

/-- Walking `cs` from `index`, the test `index < length` holds at every
character. -/
def InRange (length : Int) : List Char → Int → Prop
  | [], _ => True
  | c :: cs, i => i < length ∧ InRange length cs (if c = '-' then i else i + 1)

/-- The fragment records, the character arrays and the links, character and
recorded offset of every bead are unchanged. -/
def Keep (st st' : Store) : Prop := Quiet st st' ∧ BSame st st'

/-- The bead chain of `b` after the trace entries `D`, the last of them
`t` (0 before the first): the beads `P` up to the bead `t-1` of `b`, the gap
beads `G` put in for the entries equal to `t`, and the beads of `b` from `t`
on, with the characters `cs` of `b`. -/
def Laid (bb : Int) (cs : List Char) (st : Store) (t : Nat) (D : List Int) : Prop :=
  ∃ P G : List (Int × Char),
    Strand st bb (P ++ (G ++ rowFrom (bb + t) (cs.drop t))) ∧
    InRange cs.length (P.map Prod.snd) 0 ∧ nonGaps (P.map Prod.snd) = t ∧
    (∀ p, p ∈ G → p.2 = '-') ∧
    D = gapIndexes (P.map Prod.snd) 0 ++ List.replicate G.length (t : Int) ∧
    (0 < t → ∃ P0 c, P = P0 ++ [(bb + t - 1, c)]) ∧
    t < cs.length ∧ P.length + G.length = t + D.length

/-! ## Merging a column with its right neighbour -/

/-- The beads of the columns 0 and 1 with their characters, and the depth
and gap count of column 1. -/
def mergeView (st : Store) : List (Option (List Int)) × List (Option (List Char)) ×
    Option (Int × Int) :=
  ([columnBeads st 0, columnBeads st 1],
    [(columnBeads st 0).bind (beadChars st), (columnBeads st 1).bind (beadChars st)],
    (GetColumn st 1).map fun c => (GetDepth c, GetBaseCount c.base_count '-'))

theorem getAt_eq_some {α : Type} {l : List α} {i : Int} {a : α} (h : getAt l i = some a) :
    0 ≤ i ∧ i.toNat < l.length ∧ l[i.toNat]? = some a := by
  unfold getAt at h
  split at h
  · simp at h
  · refine ⟨by omega, ?_, h⟩
    exact (List.getElem?_eq_some_iff.mp h).1

theorem getAt_setAt_self {α : Type} {l : List α} {i : Int} {a b : α} (h : getAt l i = some a) :
    getAt (setAt l i b) i = some b := by
  obtain ⟨h0, h1, _⟩ := getAt_eq_some h
  unfold getAt setAt
  have : ¬ i < 0 := by omega
  simp [this, h1]

theorem getAt_setAt_ne {α : Type} {l : List α} {i j : Int} {b : α} (h : j ≠ i) :
    getAt (setAt l i b) j = getAt l j := by
  unfold getAt setAt
  by_cases hj : j < 0
  · simp [hj]
  · by_cases hi : i < 0
    · simp [hi]
    · simp only [hj, hi, if_false]
      rw [List.getElem?_set_ne]
      omega

theorem length_setAt {α : Type} (l : List α) (i : Int) (b : α) :
    (setAt l i b).length = l.length := by
  unfold setAt; split <;> simp

theorem getAt_append_some {α : Type} {l m : List α} {i : Int} {a : α} (h : getAt l i = some a) :
    getAt (l ++ m) i = some a := by
  obtain ⟨h0, h1, h2⟩ := getAt_eq_some h
  unfold getAt
  have : ¬ i < 0 := by omega
  simp only [this, if_false]
  rw [List.getElem?_append_left h1]; exact h2

theorem getAt_length_append {α : Type} (l : List α) (a : α) :
    getAt (l ++ [a]) (l.length : Int) = some a := by
  unfold getAt
  simp

theorem getAt_append_singleton {α : Type} (l : List α) (a : α) (i : Int) :
    getAt (l ++ [a]) i = if i = l.length then some a else getAt l i := by
  split
  · subst_vars; exact getAt_length_append l a
  · rename_i h
    unfold getAt
    by_cases hi : i < 0
    · simp [hi]
    · simp only [hi, if_false]
      by_cases hlt : i.toNat < l.length
      · rw [List.getElem?_append_left hlt]
      · have : l.length < i.toNat := by omega
        rw [List.getElem?_eq_none (by simp; omega), List.getElem?_eq_none (by omega)]

theorem getAt_isSome_iff {α : Type} (l : List α) (i : Int) :
    (getAt l i).isSome ↔ (0 ≤ i ∧ i < l.length) := by
  unfold getAt
  by_cases hi : i < 0
  · have : ¬ 0 ≤ i := by omega
    simp [hi, this]
  · have h0 : 0 ≤ i := by omega
    simp only [hi, if_false, h0, true_and]
    rw [Option.isSome_iff_exists]
    constructor
    · rintro ⟨a, ha⟩
      have := (List.getElem?_eq_some_iff.mp ha).1
      omega
    · intro h
      have hlt : i.toNat < l.length := by omega
      exact ⟨l[i.toNat], List.getElem?_eq_getElem hlt⟩

theorem getAt_setAt {α : Type} (l : List α) (i j : Int) (b : α) :
    getAt (setAt l i b) j = if j = i ∧ (getAt l i).isSome then some b else getAt l j := by
  by_cases hji : j = i
  · subst hji
    cases h : getAt l j with
    | none =>
      simp
      unfold getAt setAt at *
      by_cases hj : j < 0
      · simp [hj]
      · simp [hj] at h ⊢; omega
    | some a => simp [getAt_setAt_self h]
  · simp [hji, getAt_setAt_ne hji]

theorem list_ext_getAt {α : Type} {l m : List α} (h : ∀ i : Int, getAt l i = getAt m i) : l = m := by
  apply List.ext_getElem?
  intro n
  have := h (n : Int)
  unfold getAt at this
  simpa using this

theorem setAt_same {α : Type} {l : List α} {i : Int} {a : α} (h : getAt l i = some a) :
    setAt l i a = l := by
  apply list_ext_getAt
  intro j
  rw [getAt_setAt]
  split
  · rename_i hj; rw [hj.1, h]
  · rfl

theorem setAt_append {α : Type} {l m : List α} {i : Int} {a b : α} (h : getAt l i = some a) :
    setAt (l ++ m) i b = setAt l i b ++ m := by
  obtain ⟨h0, h1, _⟩ := getAt_eq_some h
  unfold setAt
  have : ¬ i < 0 := by omega
  simp only [this, if_false]
  rw [List.set_append_left _ _ h1]

theorem GetBead_modBead {st st' : Store} {i : Int} {f : Bead → Bead} (h : modBead st i f = some st') :
    ∃ b, GetBead st i = some b ∧ st' = { st with beadStore := setAt st.beadStore i (f b) } := by
  unfold modBead at h
  split at h
  · simp at h
  · rename_i b hb; exact ⟨b, hb, by simpa using h.symm⟩

theorem GetBead_setBeads (st : Store) (bs : List Bead) (j : Int) :
    GetBead { st with beadStore := bs } j = getAt bs j := rfl

/-- What `AppendGapBead` leaves in the stores, bead by bead. -/
theorem AppendGapBead_spec {st s1 : Store} {b g : Int} (h : AppendGapBead st b = some (s1, g)) :
    ∃ x qv, GetBead st b = some x ∧ g = st.beadStore.length ∧
      (x.next = -1 ∨ ∃ nb, GetBead st x.next = some nb) ∧
      s1.sequenceStore = st.sequenceStore ++ ['-'] ∧
      s1.qualityStore = st.qualityStore ++ [qv] ∧
      s1.columnStore = st.columnStore ∧ s1.manodeStore = st.manodeStore ∧
      s1.fragmentStore = st.fragmentStore ∧ s1.abacus_indices = st.abacus_indices ∧
      s1.gaps_in_alignment = st.gaps_in_alignment + 1 ∧
      s1.beadStore.length = st.beadStore.length + 1 ∧
      GetBead s1 g = some (Bead.mk g st.sequenceStore.length (x.foffset + 1) x.boffset x.next
        (-1) (-1) x.frag_index (-1)) ∧
      ∀ j y, GetBead st j = some y →
        GetBead s1 j = some
          (let y1 : Bead := if j = b then { y with next := g } else y
           if x.next ≠ -1 ∧ j = x.next then { y1 with prev := g } else y1) := by
  unfold AppendGapBead at h
  cases hb : GetBead st b with
  | none => simp [hb] at h
  | some x =>
    simp only [hb, Option.bind_eq_bind, Option.some_bind, Option.pure_def, modBead] at h
    · cases hq : getAt st.qualityStore x.soffset with
      | none => simp [hq] at h
      | some qv =>
        simp only [hq, Option.some_bind] at h
        by_cases hn : x.next = -1
        · simp only [hn, ne_eq, not_true_eq_false, if_false, Option.some_bind, Option.some.injEq,
            Prod.mk.injEq] at h
          obtain ⟨rfl, rfl⟩ := h
          refine ⟨x, qv, rfl, rfl, Or.inl hn, rfl, rfl, rfl, rfl, rfl, rfl, rfl, ?_, ?_, ?_⟩
          · simp [length_setAt]
          · simp only [GetBead, hn]
            rw [getAt_append_singleton, length_setAt]
            simp
          · intro j y hj
            simp only [GetBead, hn, ne_eq, not_true_eq_false, false_and, if_false]
            apply getAt_append_some
            rw [getAt_setAt]
            by_cases hjb : j = b
            · subst hjb
              rw [GetBead] at hb hj
              rw [hb] at hj; cases hj
              simp [hb]
            · simpa [hjb] using hj
        · simp only [ne_eq, hn, not_false_eq_true, if_true] at h
          cases hnb : GetBead { st with beadStore := setAt st.beadStore b { x with next := (st.beadStore.length : Int) } } x.next with
          | none => simp [hnb] at h
          | some nb =>
            simp only [hnb, Option.some_bind] at h
            cases hq2 : getAt st.qualityStore nb.soffset with
            | none => simp [hq2] at h
            | some nqv =>
              simp only [hq2, Option.some_bind, Option.some.injEq, Prod.mk.injEq] at h
              obtain ⟨rfl, rfl⟩ := h
              have hnb' : getAt (setAt st.beadStore b { x with next := (st.beadStore.length : Int) })
                  x.next = some nb := hnb
              have hnb2 := hnb'
              rw [getAt_setAt] at hnb2
              have hex : ∃ nb0, GetBead st x.next = some nb0 := by
                by_cases hxb : x.next = b
                · exact ⟨x, by rw [hxb]; exact hb⟩
                · simp only [hxb, false_and, if_false] at hnb2; exact ⟨nb, hnb2⟩
              refine ⟨x, _, rfl, rfl, Or.inr hex, rfl, rfl, rfl, rfl, rfl, rfl, rfl, ?_, ?_, ?_⟩
              · simp [length_setAt]
              · simp only [GetBead]
                rw [getAt_append_singleton, length_setAt, length_setAt]
                simp
              · intro j y hj
                simp only [GetBead, ne_eq, hn, not_false_eq_true, true_and]
                apply getAt_append_some
                rw [getAt_setAt]
                by_cases hjn : j = x.next
                · subst hjn
                  simp only [hnb', Option.isSome_some, and_self, if_true, Option.some.injEq]
                  by_cases hjb : x.next = b
                  · rw [hjb] at hj hnb2
                    have hb' : getAt st.beadStore b = some x := hb
                    rw [GetBead, hb'] at hj; cases hj
                    simp only [hb', Option.isSome_some, and_self, if_true, Option.some.injEq] at hnb2
                    subst hnb2
                    simp [hjb]
                  · simp only [hjb, false_and, if_false] at hnb2
                    rw [GetBead, hnb2] at hj; cases hj
                    simp [hjb]
                · simp only [hjn, false_and, if_false]
                  rw [getAt_setAt]
                  by_cases hjb : j = b
                  · subst hjb
                    have hb' : getAt st.beadStore j = some x := hb
                    rw [GetBead, hb'] at hj; cases hj
                    simp [hb']
                  · simpa [hjb] using hj

theorem getAt_eq_none_iff {α : Type} (l : List α) (i : Int) :
    getAt l i = none ↔ ¬ (0 ≤ i ∧ i < l.length) := by
  rw [← getAt_isSome_iff]
  cases getAt l i <;> simp

theorem AppendGapBead_get {st s1 : Store} {b g : Int} (h : AppendGapBead st b = some (s1, g)) :
    ∃ x, GetBead st b = some x ∧ g = st.beadStore.length ∧
      ∀ j, GetBead s1 j =
        if j = g then some (Bead.mk g st.sequenceStore.length (x.foffset + 1) x.boffset x.next
          (-1) (-1) x.frag_index (-1))
        else (GetBead st j).map (appendGapFix b g x.next j) := by
  obtain ⟨x, qv, hb, hg, _, _, _, _, _, _, _, _, hlen, hgb, hpt⟩ := AppendGapBead_spec h
  refine ⟨x, hb, hg, ?_⟩
  intro j
  by_cases hj : j = g
  · simp only [hj, if_true]; exact hgb
  · simp only [hj, if_false]
    cases hy : GetBead st j with
    | some y => rw [hpt j y hy]; rfl
    | none =>
      simp only [Option.map_none']
      unfold GetBead at hy ⊢
      rw [getAt_eq_none_iff] at hy ⊢
      omega

theorem SameRest.refl (st : Store) : SameRest st st := ⟨rfl, rfl, rfl, rfl, rfl, rfl, rfl⟩

theorem SameRest.trans {a b c : Store} (h1 : SameRest a b) (h2 : SameRest b c) : SameRest a c := by
  obtain ⟨a1, a2, a3, a4, a5, a6, a7⟩ := h1
  obtain ⟨b1, b2, b3, b4, b5, b6, b7⟩ := h2
  exact ⟨b1.trans a1, b2.trans a2, b3.trans a3, b4.trans a4, b5.trans a5, b6.trans a6, b7.trans a7⟩

theorem modBead_some {st : Store} {i : Int} {y : Bead} (f : Bead → Bead) (h : GetBead st i = some y) :
    modBead st i f = some { st with beadStore := setAt st.beadStore i (f y) } := by
  simp [modBead, h]

theorem modBead_get {st st' : Store} {i : Int} {f : Bead → Bead} (h : modBead st i f = some st') :
    (∀ j, GetBead st' j = if j = i then (GetBead st i).map f else GetBead st j) ∧
      SameRest st st' := by
  obtain ⟨y, hy, rfl⟩ := GetBead_modBead h
  refine ⟨?_, SameRest.refl _⟩
  intro j
  simp only [GetBead] at hy ⊢
  rw [getAt_setAt, hy]
  by_cases hj : j = i
  · simp [hj]
  · simp [hj]

theorem modBead_isSome {st : Store} {i : Int} (f : Bead → Bead) (h : (GetBead st i).isSome) :
    ∃ st', modBead st i f = some st' := by
  obtain ⟨y, hy⟩ := Option.isSome_iff_exists.mp h
  exact ⟨_, modBead_some f hy⟩

theorem modBead_map {st st' : Store} {i : Int} {f : Bead → Bead} (h : modBead st i f = some st') :
    (∀ j, GetBead st' j = (GetBead st j).map (fun y => if j = i then f y else y)) ∧
      SameRest st st' := by
  obtain ⟨hget, hsame⟩ := modBead_get h
  refine ⟨?_, hsame⟩
  intro j
  rw [hget j]
  by_cases hj : j = i
  · simp [hj]
  · cases GetBead st j <;> simp [hj]

theorem linkBead_map {st st' : Store} {x : Int} {f : Bead → Bead} (h : linkBead st x f = some st') :
    (∀ j, GetBead st' j = (GetBead st j).map (fun y => if x > -1 ∧ j = x then f y else y)) ∧
      SameRest st st' := by
  unfold linkBead at h
  by_cases hx : x > -1
  · simp only [hx, if_true] at h
    obtain ⟨hget, hsame⟩ := modBead_map h
    refine ⟨?_, hsame⟩
    intro j; rw [hget j]; simp [hx]
  · simp only [hx, if_false, Option.some.injEq] at h
    subst h
    refine ⟨?_, SameRest.refl _⟩
    intro j; cases GetBead st j <;> simp [hx]

theorem linkBead_isSome {st : Store} {x : Int} (f : Bead → Bead)
    (h : x > -1 → (GetBead st x).isSome) : ∃ st', linkBead st x f = some st' := by
  unfold linkBead
  by_cases hx : x > -1
  · simp only [hx, if_true]; exact modBead_isSome f (h hx)
  · exact ⟨st, by simp [hx]⟩

theorem patchBead_map {st st' : Store} {x : Int} {f : Bead → Bead} (h : patchBead st x f = some st') :
    (∀ j, GetBead st' j = (GetBead st j).map (fun y => if x ≠ -1 ∧ j = x then f y else y)) ∧
      SameRest st st' := by
  unfold patchBead at h
  by_cases hx : x ≠ -1
  · rw [if_pos hx] at h
    obtain ⟨hget, hsame⟩ := modBead_map h
    refine ⟨?_, hsame⟩
    intro j; rw [hget j]; simp [hx]
  · rw [if_neg hx] at h
    simp only [Option.some.injEq] at h
    subst h
    refine ⟨?_, SameRest.refl _⟩
    intro j; cases GetBead st j <;> simp [hx]

theorem patchBead_isSome {st : Store} {x : Int} (f : Bead → Bead)
    (h : x ≠ -1 → (GetBead st x).isSome) : ∃ st', patchBead st x f = some st' := by
  unfold patchBead
  by_cases hx : x ≠ -1
  · rw [if_pos hx]; exact modBead_isSome f (h hx)
  · exact ⟨st, by rw [if_neg hx]⟩

theorem RemoveBeadFromFragment_spec {st : Store} {g : Int} {gb : Bead}
    (hg : GetBead st g = some gb)
    (hn : gb.next > -1 → (GetBead st gb.next).isSome)
    (hp : gb.prev > -1 → (GetBead st gb.prev).isSome) :
    ∃ s' r, RemoveBeadFromFragment st g = some (s', r) ∧ SameRest st s' ∧
      ∀ j, GetBead s' j = (GetBead st j).map (removeFix gb j) := by
  unfold RemoveBeadFromFragment
  simp only [hg, Option.bind_eq_bind, Option.some_bind, Option.pure_def]
  obtain ⟨s1, hs1⟩ := linkBead_isSome (fun b => { b with prev := gb.prev }) hn
  obtain ⟨hget1, hsame1⟩ := linkBead_map hs1
  simp only [hs1, Option.some_bind]
  have hg1 : GetBead s1 g = some gb := by
    rw [hget1 g, hg]
    simp only [Option.map_some', Option.some.injEq]
    split
    · rename_i h; cases gb; simp_all
    · rfl
  simp only [hg1, Option.some_bind]
  have hp1 : gb.prev > -1 → (GetBead s1 gb.prev).isSome := by
    intro h; rw [hget1]; have := hp h
    cases h : GetBead st gb.prev <;> simp_all
  obtain ⟨s2, hs2⟩ := linkBead_isSome (fun b => { b with next := gb.next }) hp1
  obtain ⟨hget2, hsame2⟩ := linkBead_map hs2
  simp only [hs2, Option.some_bind]
  have hg2 : (GetBead s2 g).isSome := by
    rw [hget2 g, hg1]; rfl
  obtain ⟨g2, hg2⟩ := Option.isSome_iff_exists.mp hg2
  refine ⟨s2, g2.next, by simp [hg2], hsame1.trans hsame2, ?_⟩
  intro j
  rw [hget2 j, hget1 j]
  cases GetBead st j with
  | none => rfl
  | some y => simp only [Option.map_some', removeFix]

theorem UnAlignBead_unaligned {st : Store} {g : Int} {gb : Bead} (hg : GetBead st g = some gb)
    (hc : gb.column_index = -1) : UnAlignBead st g = some (st, -1) := by
  unfold UnAlignBead
  simp [hg, hc]

theorem GetBead_some_range {st : Store} {i : Int} {y : Bead} (h : GetBead st i = some y) :
    0 ≤ i ∧ i < st.beadStore.length :=
  (getAt_isSome_iff st.beadStore i).mp (by unfold GetBead at h; rw [h]; rfl)

/-- C5 (amended): for every state and bead `b` that is stored at its own
offset and whose successor (if any) points back at it, a non-aborting
`AppendGapBead(b)` followed by `UnAlignBead` and `RemoveBeadFromFragment` on
the new gap bead does not abort and restores every pre-existing bead, every
column with its tally, the MANodes and the fragments; the bead, sequence and
quality stores each keep exactly one extra entry (the orphaned gap bead and
its characters) and `gaps_in_alignment` stays one higher. -/
theorem gapInsertRemove_restores (st : Store) (b : Int) (x : Bead) (s1 : Store) (g : Int)
    (hb : GetBead st b = some x) (hoff : x.boffset = b)
    (hnext : x.next ≠ -1 → (GetBead st x.next).map (fun y => y.prev) = some b)
    (happ : AppendGapBead st b = some (s1, g)) :
    ∃ s3 gb qv, gapInsertRemove st b = some s3 ∧
      s3.beadStore = st.beadStore ++ [gb] ∧
      s3.sequenceStore = st.sequenceStore ++ ['-'] ∧
      s3.qualityStore = st.qualityStore ++ [qv] ∧
      s3.columnStore = st.columnStore ∧ s3.manodeStore = st.manodeStore ∧
      s3.fragmentStore = st.fragmentStore ∧ s3.abacus_indices = st.abacus_indices ∧
      s3.gaps_in_alignment = st.gaps_in_alignment + 1 := by
  obtain ⟨x', qv, hb', hg, hnx, hseq, hq, hcol, hma, hfr, hab, hgap, hlen, hgb, _⟩ :=
    AppendGapBead_spec happ
  rw [hb] at hb'; cases hb'
  obtain ⟨x', hb', _, hpt⟩ := AppendGapBead_get happ
  rw [hb] at hb'; cases hb'
  have hun := UnAlignBead_unaligned hgb rfl
  have hbr := GetBead_some_range hb
  have hbg : b ≠ g := by omega
  have hnr : x.next ≠ -1 → 0 ≤ x.next ∧ x.next < st.beadStore.length := by
    intro h
    rcases hnx with h' | ⟨nb, hnb⟩
    · exact absurd h' h
    · exact GetBead_some_range hnb
  have hn1 : x.next > -1 → (GetBead s1 x.next).isSome := by
    intro h
    have hne : x.next ≠ -1 := by omega
    have := hnr hne
    rcases hnx with h' | ⟨nb, hnb⟩
    · exact absurd h' hne
    · rw [hpt, if_neg (by omega), hnb]; rfl
  have hp1 : x.boffset > -1 → (GetBead s1 x.boffset).isSome := by
    intro _
    rw [hoff, hpt, if_neg hbg, hb]; rfl
  obtain ⟨s3, r, hrem, hsame, hget3⟩ := RemoveBeadFromFragment_spec hgb hn1 hp1
  obtain ⟨e1, e2, e3, e4, e5, e6, e7⟩ := hsame
  refine ⟨s3, removeFix (Bead.mk g st.sequenceStore.length (x.foffset + 1) x.boffset x.next
      (-1) (-1) x.frag_index (-1)) g (Bead.mk g st.sequenceStore.length (x.foffset + 1) x.boffset
      x.next (-1) (-1) x.frag_index (-1)), qv, ?_, ?_, e1.trans hseq, e2.trans hq, e3.trans hcol, e4.trans hma,
    e5.trans hfr, e6.trans hab, e7.trans hgap⟩
  · unfold gapInsertRemove
    simp only [happ, hun, hrem, Option.bind_eq_bind, Option.some_bind, Option.pure_def]
  · apply list_ext_getAt
    intro j
    have h3 : getAt s3.beadStore j = _ := hget3 j
    rw [h3, getAt_append_singleton]
    by_cases hj : j = g
    · rw [if_pos (hj.trans hg)]
      subst hj
      rw [hgb]; rfl
    · rw [if_neg (fun h => hj (h.trans hg.symm)), hpt j, if_neg hj]
      show _ = GetBead st j
      cases hy : GetBead st j with
      | none => rfl
      | some y =>
        have hyr := GetBead_some_range hy
        simp only [Option.map_some', Option.some.injEq, removeFix, appendGapFix]
        by_cases hjb : j = b
        · subst hjb
          have hxy : x = y := by
            rw [hy] at hb; exact (Option.some.inj hb).symm
          subst hxy
          by_cases hxn : x.next = j
          · have hne : x.next ≠ -1 := by omega
            have := hnext hne
            rw [hxn, hy] at this
            simp only [Option.map_some', Option.some.injEq] at this
            have h1 : x.next > -1 := by omega
            cases x; simp_all
          · have hxn' : ¬ j = x.next := fun h => hxn h.symm
            have h1 : x.boffset > -1 := by omega
            cases x; simp_all
        · have h2 : ¬ j = x.boffset := by rw [hoff]; exact hjb
          by_cases hjn : j = x.next
          · have hne : x.next ≠ -1 := by omega
            have := hnext hne
            rw [← hjn, hy] at this
            simp only [Option.map_some', Option.some.injEq] at this
            have h1 : x.next > -1 := by omega
            cases y; simp_all
          · simp [hjb, hjn, h2]

/-- Witness of `gapInsertRemove_restores`: the first bead of a freshly loaded
read `AC`. -/
theorem gapInsertRemove_restores_witness :
    ∃ s3 gb qv, gapInsertRemove storeAC 0 = some s3 ∧
      s3.beadStore = storeAC.beadStore ++ [gb] ∧
      s3.sequenceStore = storeAC.sequenceStore ++ ['-'] ∧
      s3.qualityStore = storeAC.qualityStore ++ [qv] ∧
      s3.columnStore = storeAC.columnStore ∧ s3.manodeStore = storeAC.manodeStore ∧
      s3.fragmentStore = storeAC.fragmentStore ∧ s3.abacus_indices = storeAC.abacus_indices ∧
      s3.gaps_in_alignment = storeAC.gaps_in_alignment + 1 :=
  gapInsertRemove_restores storeAC 0 (Bead.mk 0 0 0 (-1) 1 (-1) (-1) 0 (-1)) _ 2
    (by decide) (by decide) (by decide) rfl

/-- C5 as stated fails: on a freshly loaded read `AC` the insert/remove pair
at bead 0 runs to completion, but the bead store keeps the orphaned gap bead
(3 beads instead of 2), the sequence store keeps its `-` and the counter
`gaps_in_alignment` reads 1 instead of 0. -/
theorem gapInsertRemove_not_bit_for_bit :
    ∃ s3, gapInsertRemove storeAC 0 = some s3 ∧ s3 ≠ storeAC ∧
      storeAC.beadStore.length = 2 ∧ s3.beadStore.length = 3 ∧
      storeAC.sequenceStore.length = 3 ∧ s3.sequenceStore.length = 4 ∧
      storeAC.gaps_in_alignment = 0 ∧ s3.gaps_in_alignment = 1 := by
  refine ⟨_, rfl, ?_, ?_, ?_, ?_, ?_, ?_, ?_⟩ <;> decide

theorem foldlM_inv {α β : Type} (P : β → Prop) (f : β → α → Option β) (l : List α)
    (hf : ∀ b a b', a ∈ l → P b → f b a = some b' → P b') :
    ∀ b r, P b → l.foldlM f b = some r → P r := by
  induction l with
  | nil =>
    intro b r hb h
    simp at h
    exact h ▸ hb
  | cons a l ih =>
    intro b r hb h
    rw [List.foldlM_cons] at h
    cases hfa : f b a with
    | none => simp [hfa] at h
    | some b1 =>
      simp only [hfa, Option.bind_eq_bind, Option.some_bind] at h
      exact ih (fun b a b' ha => hf b a b' (List.mem_cons_of_mem _ ha)) b1 r
        (hf b a b1 (List.mem_cons_self _ _) hb hfa) h

theorem mem_intRange {lo hi j : Int} : j ∈ intRange lo hi ↔ lo ≤ j ∧ j < hi := by
  unfold intRange
  simp only [List.mem_map, List.mem_range]
  constructor
  · rintro ⟨k, hk, rfl⟩
    omega
  · rintro ⟨h1, h2⟩
    exact ⟨(j - lo).toNat, by omega, by omega⟩

theorem nodup_intRange (lo hi : Int) : (intRange lo hi).Nodup := by
  unfold intRange
  apply List.Nodup.map_on
  · intro a _ b _ h
    omega
  · exact List.nodup_range _

theorem setCall_spec {a b : Abacus} {j : Int} {c : Char} (h : setCall a j c = some b) :
    b = { a with calls := setAt a.calls j c } ∧ (getAt a.calls j).isSome := by
  unfold setCall at h
  cases hg : getAt a.calls j with
  | none => simp [hg] at h
  | some x =>
    simp [hg] at h
    exact ⟨h.symm, rfl⟩

theorem SetAbacus_spec {a b : Abacus} {i j : Int} {c : Char} (h : SetAbacus a i j c = some b) :
    b = { a with beads := setAt a.beads (a.offset i j) c } ∧ 0 ≤ i ∧ i < a.rows ∧ 0 ≤ j ∧
      j < a.columns ∧ (getAt a.beads (a.offset i j)).isSome := by
  unfold SetAbacus at h
  split_ifs at h with h1 h2
  cases hg : getAt a.beads (a.offset i j) with
  | none => simp [hg] at h
  | some x =>
    simp [hg] at h
    exact ⟨h.symm, by omega, by omega, by omega, by omega, rfl⟩

/-- Distinct cells of the rows have distinct flat offsets. -/
theorem offset_inj (cols i j i2 j2 : Int) (hj : 0 ≤ j ∧ j < cols) (hj2 : 0 ≤ j2 ∧ j2 < cols)
    (h : i * (cols + 2) + j + 1 = i2 * (cols + 2) + j2 + 1) : i = i2 ∧ j = j2 := by
  have hw : 0 < cols + 2 := by omega
  have h1 : (i - i2) * (cols + 2) = j2 - j := by linarith
  have hi : i = i2 := by
    by_contra hne
    rcases lt_or_gt_of_ne hne with hlt | hgt
    · have : (i2 - i) * (cols + 2) ≥ 1 * (cols + 2) :=
        Int.mul_le_mul_of_nonneg_right (by omega) (by omega)
      nlinarith
    · have : (i - i2) * (cols + 2) ≥ 1 * (cols + 2) :=
        Int.mul_le_mul_of_nonneg_right (by omega) (by omega)
      nlinarith
  subst hi
  simp at h
  exact ⟨rfl, h⟩

theorem GetAbacus_setCall {a b : Abacus} {j : Int} {c : Char} (h : setCall a j c = some b)
    (i k : Int) : GetAbacus b i k = GetAbacus a i k := by
  rw [(setCall_spec h).1]
  rfl

theorem RowsKept.id (a : Abacus) : RowsKept a a :=
  ⟨rfl, rfl, rfl, rfl, rfl, fun _ _ => rfl⟩

theorem RowsKept.comp {a b c : Abacus} (h1 : RowsKept a b) (h2 : RowsKept b c) :
    RowsKept a c := by
  obtain ⟨a1, a2, a3, a4, a5, a6⟩ := h1
  obtain ⟨b1, b2, b3, b4, b5, b6⟩ := h2
  exact ⟨by rw [b1, a1], by rw [b2, a2], by rw [b3, a3], by rw [b4, a4], by rw [b5, a5],
    fun p i => by rw [b6, a6]⟩

theorem RowsKept.of_beads {a b : Abacus} (h1 : b.rows = a.rows) (h2 : b.columns = a.columns)
    (h3 : b.window_width = a.window_width) (h5 : b.shift = a.shift) (h4 : b.beads = a.beads) :
    RowsKept a b := by
  refine ⟨h1, h2, h3, h5, by rw [h4], fun p i => ?_⟩
  unfold rowCountP GetAbacus Abacus.offset
  rw [h2, h4]

theorem setCall_RowsKept {a b : Abacus} {j : Int} {c : Char} (h : setCall a j c = some b) :
    RowsKept a b := by
  rw [(setCall_spec h).1]
  exact RowsKept.of_beads rfl rfl rfl rfl rfl

theorem setCall_shift {a b : Abacus} {j : Int} {c : Char} (h : setCall a j c = some b) :
    b.shift = a.shift := by
  rw [(setCall_spec h).1]

theorem SetAbacus_shift {a b : Abacus} {i j : Int} {c : Char} (h : SetAbacus a i j c = some b) :
    b.shift = a.shift := by
  rw [(SetAbacus_spec h).1]

/-- Reading a cell after a write to cell `(i, j)`. -/
theorem GetAbacus_SetAbacus {a b : Abacus} {i j : Int} {c : Char}
    (h : SetAbacus a i j c = some b) (i2 k : Int) (hk : 0 ≤ k ∧ k < a.columns) :
    GetAbacus b i2 k = if i2 = i ∧ k = j then some c else GetAbacus a i2 k := by
  obtain ⟨hb, h1, h2, h3, h4, h5⟩ := SetAbacus_spec h
  subst hb
  simp only [GetAbacus, Abacus.offset]
  rw [getAt_setAt]
  simp only [Abacus.offset] at h5
  by_cases hc : i2 = i ∧ k = j
  · obtain ⟨rfl, rfl⟩ := hc
    simp [h5]
  · have : ¬ (i2 * (a.columns + 2) + k + 1 = i * (a.columns + 2) + j + 1) := by
      intro he
      exact hc (offset_inj a.columns i2 k i j hk ⟨h3, h4⟩ he)
    simp [this, hc]

/-- Changing a function at one point of a duplicate-free list changes a
count by that point only. -/
theorem countP_update (p : Option Char → Bool) (f g : Int → Option Char) (j : Int) :
    ∀ js : List Int, js.Nodup → j ∈ js → (∀ k, k ∈ js → k ≠ j → g k = f k) →
      js.countP (fun k => p (g k)) + (if p (f j) then 1 else 0) =
        js.countP (fun k => p (f k)) + (if p (g j) then 1 else 0) := by
  intro js
  induction js with
  | nil => intro _ h; simp at h
  | cons x xs ih =>
    intro hnd hmem hfg
    rw [List.nodup_cons] at hnd
    by_cases hx : x = j
    · subst hx
      have hrest : xs.countP (fun k => p (g k)) = xs.countP (fun k => p (f k)) := by
        apply List.countP_congr
        intro k hk
        have hne : k ≠ x := fun h => hnd.1 (h ▸ hk)
        simp [hfg k (List.mem_cons_of_mem _ hk) hne]
      simp only [List.countP_cons, hrest]
      omega
    · have hj : j ∈ xs := by
        rcases List.mem_cons.mp hmem with h | h
        · exact absurd h.symm hx
        · exact h
      have := ih hnd.2 hj (fun k hk hne => hfg k (List.mem_cons_of_mem _ hk) hne)
      simp only [List.countP_cons, hfg x (List.mem_cons_self _ _) hx]
      omega

/-- Exchanging the values at two points of a duplicate-free list keeps every
count. -/
theorem countP_swap (p : Option Char → Bool) (f g : Int → Option Char) (j1 j2 : Int)
    (js : List Int) (hnd : js.Nodup) (h1 : j1 ∈ js) (h2 : j2 ∈ js) (hne : j1 ≠ j2)
    (hg1 : g j1 = f j2) (hg2 : g j2 = f j1)
    (hfg : ∀ k, k ∈ js → k ≠ j1 → k ≠ j2 → g k = f k) :
    js.countP (fun k => p (g k)) = js.countP (fun k => p (f k)) := by
  have e1 := countP_update p f (fun k => if k = j1 then f j2 else f k) j1 js hnd h1
    (fun k _ hk => by simp [hk])
  have e2 := countP_update p (fun k => if k = j1 then f j2 else f k) g j2 js hnd h2
    (fun k hk hk2 => by
      by_cases hk1 : k = j1
      · subst hk1; simp [hg1]
      · simp [hk1, hfg k hk hk1 hk2])
  simp only [if_true, if_neg (Ne.symm hne), hg2] at e1 e2
  omega

/-- Exchanging the contents of two cells of one row keeps the rows. -/
theorem swap_RowsKept {a a1 a2 : Abacus} {i j1 j2 : Int} {v1 v2 : Char}
    (hne : j1 ≠ j2) (hv1 : GetAbacus a i j1 = some v1) (hv2 : GetAbacus a i j2 = some v2)
    (hs1 : SetAbacus a i j1 v2 = some a1) (hs2 : SetAbacus a1 i j2 v1 = some a2) :
    RowsKept a a2 := by
  obtain ⟨hb1, r1, r2, c1, c2, _⟩ := SetAbacus_spec hs1
  obtain ⟨hb2, _, _, c3, c4, _⟩ := SetAbacus_spec hs2
  have hcols1 : a1.columns = a.columns := by rw [hb1]
  have hcols2 : a2.columns = a.columns := by rw [hb2, hb1]
  have hget : ∀ i2 k, 0 ≤ k ∧ k < a.columns → GetAbacus a2 i2 k =
      if i2 = i ∧ k = j2 then some v1 else if i2 = i ∧ k = j1 then some v2
      else GetAbacus a i2 k := by
    intro i2 k hk
    rw [GetAbacus_SetAbacus hs2 i2 k (by rw [hcols1]; exact hk),
      GetAbacus_SetAbacus hs1 i2 k hk]
  refine ⟨by rw [hb2, hb1], hcols2, by rw [hb2, hb1], by rw [hb2, hb1], ?_, fun p i2 => ?_⟩
  · rw [hb2, hb1]
    simp [length_setAt]
  · unfold rowCountP
    rw [hcols2]
    by_cases hi : i2 = i
    · subst hi
      rw [hcols1] at c4
      apply countP_swap p _ _ j1 j2 _ (nodup_intRange _ _) (mem_intRange.mpr ⟨c1, c2⟩)
        (mem_intRange.mpr ⟨c3, c4⟩) hne
      · rw [hget i2 j1 ⟨c1, c2⟩, hv2]
        simp [hne]
      · rw [hget i2 j2 ⟨c3, c4⟩, hv1]
        simp
      · intro k hk hk1 hk2
        rw [hget i2 k (mem_intRange.mp hk)]
        simp [hk1, hk2]
    · apply List.countP_congr
      intro k hk
      rw [hget i2 k (mem_intRange.mp hk)]
      simp [hi]

theorem foldlM_RowsKept {α : Type} (f : Abacus → α → Option Abacus) (l : List α)
    (hf : ∀ b x b', x ∈ l → f b x = some b' → RowsKept b b') (a r : Abacus)
    (h : l.foldlM f a = some r) : RowsKept a r :=
  foldlM_inv (fun b => RowsKept a b) f l
    (fun b x b' hx hb hfb => hb.comp (hf b x b' hx hfb)) a r (RowsKept.id a) h

theorem scanLeft_spec (a : Abacus) (i : Int) :
    ∀ (fuel : Nat) (j ccol : Int), scanLeft a i fuel j = some ccol →
      ccol ≤ j ∧ ∀ k, ccol ≤ k → k < j → GetAbacus a i k = some '-' := by
  intro fuel
  induction fuel with
  | zero => intro j ccol h; simp [scanLeft] at h
  | succ n ih =>
    intro j ccol h
    unfold scanLeft at h
    cases hg : GetAbacus a i (j - 1) with
    | none => simp [hg] at h
    | some c =>
      simp only [hg] at h
      by_cases hc : c = '-'
      · rw [if_pos hc] at h
        obtain ⟨h1, h2⟩ := ih (j - 1) ccol h
        refine ⟨by omega, fun k hk1 hk2 => ?_⟩
        by_cases hk : k = j - 1
        · rw [hk, hg, hc]
        · exact h2 k hk1 (by omega)
      · rw [if_neg hc] at h
        simp at h
        subst h
        exact ⟨le_refl _, fun k hk1 hk2 => by omega⟩

theorem scanRight_spec (a : Abacus) (i : Int) :
    ∀ (fuel : Nat) (j ccol : Int), scanRight a i fuel j = some ccol →
      j ≤ ccol ∧ ∀ k, j < k → k ≤ ccol → GetAbacus a i k = some '-' := by
  intro fuel
  induction fuel with
  | zero => intro j ccol h; simp [scanRight] at h
  | succ n ih =>
    intro j ccol h
    unfold scanRight at h
    cases hg : GetAbacus a i (j + 1) with
    | none => simp [hg] at h
    | some c =>
      simp only [hg] at h
      by_cases hc : c = '-'
      · rw [if_pos hc] at h
        obtain ⟨h1, h2⟩ := ih (j + 1) ccol h
        refine ⟨by omega, fun k hk1 hk2 => ?_⟩
        by_cases hk : k = j + 1
        · rw [hk, hg, hc]
        · exact h2 k (by omega) hk2
      · rw [if_neg hc] at h
        simp at h
        subst h
        exact ⟨le_refl _, fun k hk1 hk2 => by omega⟩

/-- The placement loop exchanges the character with a gap of its row, or
leaves the cells alone. -/
theorem place_RowsKept (i j : Int) (c : Char) :
    ∀ (pcols : List Int) (a b : Abacus),
      (∀ pcol, pcol ∈ pcols → pcol ≠ j ∧ GetAbacus a i pcol = some '-') →
      GetAbacus a i j = some c → place i j c pcols a = some b → RowsKept a b := by
  intro pcols
  induction pcols with
  | nil =>
    intro a b _ _ h
    simp [place] at h
    exact h ▸ RowsKept.id a
  | cons pcol rest ih =>
    intro a b hgap hc h
    unfold place at h
    cases hcall : getCall a pcol with
    | none => simp [hcall] at h
    | some call =>
      simp only [hcall] at h
      have hrest : ∀ q, q ∈ rest → q ≠ j ∧ GetAbacus a i q = some '-' :=
        fun q hq => hgap q (List.mem_cons_of_mem _ hq)
      by_cases h1 : call ≠ 'n' ∧ call ≠ c ∧ c ≠ 'n'
      · rw [if_pos h1] at h
        exact ih a b hrest hc h
      · rw [if_neg h1] at h
        cases ha1 : (if call = 'n' then setCall a pcol c else some a) with
        | none => simp [ha1] at h
        | some a1 =>
          simp only [ha1] at h
          have hk1 : RowsKept a a1 ∧ ∀ i2 k, GetAbacus a1 i2 k = GetAbacus a i2 k := by
            split_ifs at ha1 with hn
            · exact ⟨setCall_RowsKept ha1, GetAbacus_setCall ha1⟩
            · simp at ha1
              subst ha1
              exact ⟨RowsKept.id _, fun _ _ => rfl⟩
          cases hcall1 : getCall a1 pcol with
          | none => simp [hcall1] at h
          | some call1 =>
            simp only [hcall1] at h
            by_cases h2 : call1 = c ∨ c = 'n'
            · rw [if_pos h2] at h
              cases hs1 : SetAbacus a1 i j '-' with
              | none => simp [hs1] at h
              | some a2 =>
                simp only [hs1] at h
                obtain ⟨hpj, hpg⟩ := hgap pcol (List.mem_cons_self _ _)
                exact hk1.1.comp (swap_RowsKept (Ne.symm hpj) (by rw [hk1.2, hc])
                  (by rw [hk1.2, hpg]) hs1 h)
            · rw [if_neg h2] at h
              exact hk1.1.comp (ih a1 b (fun q hq => by rw [hk1.2]; exact hrest q hq)
                (by rw [hk1.2]; exact hc) h)

theorem keepCall_RowsKept {i j : Int} {c : Char} {a b : Abacus} (h : keepCall i j c a = some b) :
    RowsKept a b := by
  unfold keepCall at h
  cases hg : GetAbacus a i j with
  | none => simp [hg] at h
  | some x =>
    simp only [hg, Option.bind_eq_bind, Option.some_bind] at h
    split_ifs at h
    · exact setCall_RowsKept h
    · simp at h
      exact h ▸ RowsKept.id a

theorem leftCell_RowsKept {j i : Int} {a b : Abacus} (h : leftCell j a i = some b) :
    RowsKept a b := by
  unfold leftCell at h
  cases hg : GetAbacus a i j with
  | none => simp [hg] at h
  | some c =>
    simp only [hg, Option.bind_eq_bind, Option.some_bind] at h
    split_ifs at h with hc
    · cases hs : scanLeft a i (a.beads.length + 1) j with
      | none => simp [hs] at h
      | some ccol =>
        simp only [hs, Option.some_bind] at h
        obtain ⟨h1, h2⟩ := scanLeft_spec a i _ j ccol hs
        cases hp : place i j c (intRange ccol j) a with
        | none => simp [hp] at h
        | some a1 =>
          simp only [hp, Option.some_bind] at h
          refine (place_RowsKept i j c _ a a1 (fun q hq => ?_) hg hp).comp (keepCall_RowsKept h)
          obtain ⟨q1, q2⟩ := mem_intRange.mp hq
          exact ⟨by omega, h2 q q1 q2⟩
    · simp at h
      exact h ▸ RowsKept.id a

theorem rightCell_RowsKept {j i : Int} {a b : Abacus} (h : rightCell j a i = some b) :
    RowsKept a b := by
  unfold rightCell at h
  cases hg : GetAbacus a i j with
  | none => simp [hg] at h
  | some c =>
    simp only [hg, Option.bind_eq_bind, Option.some_bind] at h
    split_ifs at h with hc
    · cases hs : scanRight a i (a.beads.length + 1) j with
      | none => simp [hs] at h
      | some ccol =>
        simp only [hs, Option.some_bind] at h
        obtain ⟨h1, h2⟩ := scanRight_spec a i _ j ccol hs
        cases hp : place i j c (intRange (j + 1) (ccol + 1)).reverse a with
        | none => simp [hp] at h
        | some a1 =>
          simp only [hp, Option.some_bind] at h
          refine (place_RowsKept i j c _ a a1 (fun q hq => ?_) hg hp).comp (keepCall_RowsKept h)
          obtain ⟨q1, q2⟩ := mem_intRange.mp (List.mem_reverse.mp hq)
          exact ⟨by omega, h2 q (by omega) (by omega)⟩
    · simp at h
      exact h ▸ RowsKept.id a

theorem leftSweep_RowsKept {a b : Abacus} (h : leftSweep a = some b) : RowsKept a b :=
  foldlM_RowsKept _ _ (fun _ _ _ _ hb =>
    foldlM_RowsKept _ _ (fun _ _ _ _ hc => leftCell_RowsKept hc) _ _ hb) a b h

theorem rightSweep_RowsKept {a b : Abacus} (h : rightSweep a = some b) : RowsKept a b :=
  foldlM_RowsKept _ _ (fun _ _ _ _ hb =>
    foldlM_RowsKept _ _ (fun _ _ _ _ hc => rightCell_RowsKept hc) _ _ hb) a b h

theorem ResetCalls_RowsKept {a b : Abacus} (h : ResetCalls a = some b) : RowsKept a b :=
  foldlM_RowsKept _ _ (fun _ _ _ _ hb => setCall_RowsKept hb) a b h

theorem mergeRow_RowsKept {j i : Int} {a b : Abacus} (h : mergeRow j a i = some b) :
    RowsKept a b := by
  unfold mergeRow at h
  cases hg : GetAbacus a i j with
  | none => simp [hg] at h
  | some x =>
    cases hm : GetAbacus a i (j + 1) with
    | none => simp [hg, hm] at h
    | some m =>
      simp only [hg, hm, Option.bind_eq_bind, Option.some_bind] at h
      split_ifs at h with h1 h2
      · simp at h
        exact h ▸ RowsKept.id a
      · cases hs : SetAbacus a i j m with
        | none => simp [hs] at h
        | some a1 =>
          simp only [hs, Option.some_bind] at h
          exact swap_RowsKept (by omega) hg hm hs h
      · simp at h
        exact h ▸ RowsKept.id a

theorem mergeColumn_RowsKept {acc r : Abacus × Int} {j : Int} (h : mergeColumn acc j = some r) :
    RowsKept acc.1 r.1 := by
  unfold mergeColumn at h
  cases ht : mergeTest acc.1 j (intRange 0 acc.1.rows) (-1) with
  | none => simp [ht] at h
  | some t =>
    obtain ⟨ok, good⟩ := t
    simp only [ht, Option.bind_eq_bind, Option.some_bind] at h
    split_ifs at h
    · cases hf : (intRange 0 acc.1.rows).foldlM (mergeRow j) acc.1 with
      | none => simp [hf] at h
      | some a1 =>
        simp only [hf, Option.some_bind] at h
        simp at h
        rw [← h]
        exact foldlM_RowsKept _ _ (fun _ _ _ _ hb => mergeRow_RowsKept hb) _ _ hf
    · simp at h
      exact h ▸ RowsKept.id _

theorem MergeAbacus_RowsKept {a : Abacus} {r : Abacus × Int} (h : MergeAbacus a = some r) :
    RowsKept a r.1 := by
  unfold MergeAbacus at h
  cases hl : lastNonNull a (intRange 1 a.columns).reverse (a.columns - 1) with
  | none => simp [hl] at h
  | some last =>
    simp only [hl, Option.bind_eq_bind, Option.some_bind] at h
    exact foldlM_inv (fun (b : Abacus × Int) => RowsKept a b.1) mergeColumn _
      (fun b x b' _ hb hfb => hb.comp (mergeColumn_RowsKept hfb)) (a, 0) r (RowsKept.id a) h

theorem scoreColumn_RowsKept {rnd : Nat → Int} {counts : Int → Option BaseCount}
    {s r : ScoreState} {j : Int} (h : scoreColumn rnd counts s j = some r) :
    RowsKept s.abacus r.abacus := by
  unfold scoreColumn at h
  cases hc : counts j with
  | none => simp [hc] at h
  | some cj =>
    simp only [hc, Option.bind_eq_bind, Option.some_bind] at h
    split_ifs at h
    · cases hs : setCall s.abacus j 'n' with
      | none => simp [hs] at h
      | some a1 =>
        simp [hs] at h
        rw [← h]
        exact setCall_RowsKept hs
    · cases hm : GetMaxBaseCount rnd s.draws cj 0 with
      | none => simp [hm] at h
      | some ck =>
        obtain ⟨c, k⟩ := ck
        simp only [hm, Option.some_bind] at h
        cases hs : setCall s.abacus j c with
        | none => simp [hs] at h
        | some a1 =>
          simp only [hs, Option.some_bind] at h
          cases h1 : countAt cj (BaseToInt c) with
          | none => simp [h1] at h
          | some cc =>
            cases h2 : countAt cj (CNS_NALPHABET - 1) with
            | none => simp [h1, h2] at h
            | some cn =>
              simp [h1, h2] at h
              rw [← h]
              exact setCall_RowsKept hs

theorem ScoreAbacus_RowsKept {rnd : Nat → Int} {k : Nat} {a : Abacus} {s : ScoreState}
    (h : ScoreAbacus rnd k a = some s) : RowsKept a s.abacus :=
  foldlM_inv (fun (b : ScoreState) => RowsKept a b.abacus) _ _
    (fun b x b' _ hb hfb => hb.comp (scoreColumn_RowsKept hfb)) _ s (RowsKept.id a) h

theorem setCall_frame {a b : Abacus} {j : Int} {c : Char} (h : setCall a j c = some b) :
    b.frame = a.frame := by
  rw [(setCall_spec h).1]
  rfl

theorem SetAbacus_frame {a b : Abacus} {i j : Int} {c : Char} (h : SetAbacus a i j c = some b) :
    b.frame = a.frame := by
  rw [(SetAbacus_spec h).1]
  rfl

theorem foldlM_frame {α : Type} (f : Abacus → α → Option Abacus) (l : List α)
    (hf : ∀ b x b', f b x = some b' → b'.frame = b.frame) (a r : Abacus)
    (h : l.foldlM f a = some r) : r.frame = a.frame :=
  foldlM_inv (fun b => b.frame = a.frame) f l
    (fun b x b' _ hb hfb => (hf b x b' hfb).trans hb) a r rfl h

theorem fillColumn_frame {st : Store} {idx : List Int} {sc bid : Int} {a b : Abacus}
    (h : fillColumn st idx sc a bid = some b) : b.frame = a.frame := by
  unfold fillColumn at h
  cases h1 : GetBead st bid with
  | none => simp [h1] at h
  | some bead =>
    cases h2 : getAt idx bead.frag_index with
    | none => simp [h1, h2] at h
    | some row =>
      cases h3 : GetBase st bead.soffset with
      | none => simp [h1, h2, h3] at h
      | some c =>
        simp only [h1, h2, h3, Option.bind_eq_bind, Option.some_bind] at h
        exact SetAbacus_frame h

theorem fillWindow_frame (st : Store) (idx : List Int) (wend oc : Int) :
    ∀ (fuel : Nat) (a : Abacus) (columns : Int) (column : Column) (b : Abacus),
      fillWindow st idx wend oc fuel a columns column = some b → b.frame = a.frame := by
  intro fuel
  induction fuel with
  | zero => intro a columns column b h; simp [fillWindow] at h
  | succ n ih =>
    intro a columns column b h
    unfold fillWindow at h
    split_ifs at h with hc
    · cases h1 : columnBeads st column.lid with
      | none => simp [h1] at h
      | some bids =>
        simp only [h1] at h
        cases h2 : bids.foldlM (fillColumn st idx (columns + oc)) a with
        | none => simp [h2] at h
        | some a1 =>
          simp only [h2] at h
          cases h3 : GetColumn st column.next with
          | none => simp [h3] at h
          | some nc =>
            simp only [h3] at h
            exact (ih a1 _ nc b h).trans
              (foldlM_frame _ _ (fun _ _ _ hb => fillColumn_frame hb) _ _ h2)
    · simp at h
      rw [← h]

theorem padRow_frame {oc i : Int} {a b : Abacus} (h : padRow oc a i = some b) :
    b.frame = a.frame := by
  unfold padRow at h
  cases h1 : (intRange 0 oc).foldlM (fun a j => SetAbacus a i j '-') a with
  | none => simp [h1] at h
  | some a1 =>
    simp only [h1, Option.bind_eq_bind, Option.some_bind] at h
    exact (foldlM_frame _ _ (fun _ _ _ hb => SetAbacus_frame hb) _ _ h).trans
      (foldlM_frame _ _ (fun _ _ _ hb => SetAbacus_frame hb) _ _ h1)

theorem ResetCalls_frame {a b : Abacus} (h : ResetCalls a = some b) : b.frame = a.frame :=
  foldlM_frame _ _ (fun _ _ _ hb => setCall_frame hb) a b h

/-- What `CreateAbacus` fixes: the abacus is tagged `UNSHIFTED`, it is three
windows wide, and the store changes in `abacus_indices` only. -/
theorem CreateAbacus_spec {st st1 : Store} {mid wfrom wend : Int} {a : Abacus}
    (h : CreateAbacus st mid wfrom wend = some (st1, a)) :
    a.shift = ShiftStatus.UNSHIFTED ∧ a.columns = 3 * a.window_width ∧
      st1 = { st with abacus_indices := st1.abacus_indices } := by
  unfold CreateAbacus at h
  cases h1 : GetMANode st mid with
  | none => simp [h1] at h
  | some m =>
    cases h2 : GetColumn st wfrom with
    | none => simp [h1, h2] at h
    | some column =>
      simp only [h1, h2, Option.bind_eq_bind, Option.some_bind] at h
      cases h3 : countWindow st wend (st.columnStore.length + 1) 1 column [] with
      | none => simp [h3] at h
      | some r3 =>
        obtain ⟨oc, last, mids⟩ := r3
        simp only [h3, Option.some_bind] at h
        cases h4 : abacusRows st column.lid last.lid mids with
        | none => simp [h4] at h
        | some r4 =>
          obtain ⟨rows, idx⟩ := r4
          simp only [h4, Option.some_bind] at h
          cases h5 : fillWindow st idx wend oc (st.columnStore.length + 1)
              { start_column := wfrom, end_column := last.lid, rows := rows, window_width := oc,
                columns := 3 * oc, shift := ShiftStatus.UNSHIFTED,
                beads := List.replicate (rows * (3 * oc + 2)).toNat 'n',
                calls := List.replicate (3 * oc).toNat (Char.ofNat 0) } 0 column with
          | none => simp [h5] at h
          | some a1 =>
            simp only [h5, Option.some_bind] at h
            cases h6 : (intRange 0 rows).foldlM (padRow oc) a1 with
            | none => simp [h6] at h
            | some a2 =>
              simp only [h6, Option.some_bind] at h
              cases h7 : ResetCalls a2 with
              | none => simp [h7] at h
              | some a3 =>
                simp only [h7, Option.some_bind] at h
                simp at h
                obtain ⟨hs, ha⟩ := h
                subst ha
                have hf : a3.frame = _ := (ResetCalls_frame h7).trans
                  ((foldlM_frame _ _ (fun _ _ _ hb => padRow_frame hb) _ _ h6).trans
                    (fillWindow_frame _ _ _ _ _ _ _ _ _ h5))
                simp only [Abacus.frame, Prod.mk.injEq] at hf
                refine ⟨hf.2.2.2.2.2, by rw [hf.2.2.2.1, hf.2.2.2.2.1], ?_⟩
                rw [← hs]

theorem scoreOriginal_RowsKept {rnd : Nat → Int} {k : Nat} {a : Abacus} {s : ScoreState}
    (h : scoreOriginal rnd k a = some s) : RowsKept a s.abacus := by
  unfold scoreOriginal CloneAbacus at h
  cases h1 : MergeAbacus a with
  | none => simp [h1] at h
  | some r =>
    obtain ⟨o, n⟩ := r
    simp only [h1, Option.bind_eq_bind, Option.some_bind] at h
    exact (MergeAbacus_RowsKept h1).comp (ScoreAbacus_RowsKept h)

theorem withGapScore_spec {s : ScoreState} {c : Candidate} (h : withGapScore s = some c) :
    c.abacus = s.abacus ∧ c.scores.score = s.score ∧ c.scores.columns = s.cols ∧
      AffineScoreAbacus s.abacus = some c.scores.gap_score := by
  unfold withGapScore at h
  cases h1 : AffineScoreAbacus s.abacus with
  | none => simp [h1] at h
  | some g =>
    simp [h1] at h
    subst h
    exact ⟨rfl, rfl, rfl, rfl⟩

/-- The shape of the result of `LeftShift`: the rows keep their characters,
the tag becomes `LEFT_SHIFT`. -/
theorem LeftShift_spec {rnd : Nat → Int} {k : Nat} {a : Abacus} {s : ScoreState}
    (h : LeftShift rnd k a = some s) :
    s.abacus.shift = ShiftStatus.LEFT_SHIFT ∧
      RowsKept { a with shift := ShiftStatus.LEFT_SHIFT } s.abacus := by
  unfold LeftShift at h
  cases h1 : ResetCalls a with
  | none => simp [h1] at h
  | some a1 =>
    simp only [h1, Option.bind_eq_bind, Option.some_bind] at h
    cases h2 : leftSweep a1 with
    | none => simp [h2] at h
    | some a2 =>
      simp only [h2, Option.some_bind] at h
      cases h3 : MergeAbacus a2 with
      | none => simp [h3] at h
      | some r =>
        obtain ⟨a3, n⟩ := r
        simp only [h3, Option.some_bind] at h
        have hk := ((ResetCalls_RowsKept h1).comp (leftSweep_RowsKept h2)).comp
          (MergeAbacus_RowsKept h3)
        have hs := ScoreAbacus_RowsKept h
        obtain ⟨k1, k2, k3, _, k5, k6⟩ := hk
        have hmid : RowsKept { a with shift := ShiftStatus.LEFT_SHIFT }
            { a3 with shift := ShiftStatus.LEFT_SHIFT } :=
          ⟨k1, k2, k3, rfl, k5, fun p i => k6 p i⟩
        exact ⟨hs.2.2.2.1, hmid.comp hs⟩

/-- The shape of the result of `RightShift`. -/
theorem RightShift_spec {rnd : Nat → Int} {k : Nat} {a : Abacus} {s : ScoreState}
    (h : RightShift rnd k a = some s) :
    s.abacus.shift = ShiftStatus.RIGHT_SHIFT ∧
      RowsKept { a with shift := ShiftStatus.RIGHT_SHIFT } s.abacus := by
  unfold RightShift at h
  cases h1 : ResetCalls a with
  | none => simp [h1] at h
  | some a1 =>
    simp only [h1, Option.bind_eq_bind, Option.some_bind] at h
    cases h2 : rightSweep a1 with
    | none => simp [h2] at h
    | some a2 =>
      simp only [h2, Option.some_bind] at h
      cases h3 : MergeAbacus a2 with
      | none => simp [h3] at h
      | some r =>
        obtain ⟨a3, n⟩ := r
        simp only [h3, Option.some_bind] at h
        have hk := ((ResetCalls_RowsKept h1).comp (rightSweep_RowsKept h2)).comp
          (MergeAbacus_RowsKept h3)
        have hs := ScoreAbacus_RowsKept h
        obtain ⟨k1, k2, k3, _, k5, k6⟩ := hk
        have hmid : RowsKept { a with shift := ShiftStatus.RIGHT_SHIFT }
            { a3 with shift := ShiftStatus.RIGHT_SHIFT } :=
          ⟨k1, k2, k3, rfl, k5, fun p i => k6 p i⟩
        exact ⟨hs.2.2.2.1, hmid.comp hs⟩

theorem MixedShift_shift {rnd : Nat → Int} {k : Nat} {p : MixedPlan} {a : Abacus}
    {s : ScoreState} (h : MixedShift rnd k p a = some s) :
    s.abacus.shift = ShiftStatus.MIXED_SHIFT := by
  unfold MixedShift at h
  cases h1 : ResetCalls a with
  | none => simp [h1] at h
  | some a1 =>
    simp only [h1, Option.bind_eq_bind, Option.some_bind] at h
    cases h2 : mixedSweep p a1 with
    | none => simp [h2] at h
    | some a2 =>
      simp only [h2, Option.some_bind] at h
      cases h3 : MergeAbacus a2 with
      | none => simp [h3] at h
      | some r =>
        obtain ⟨a3, n⟩ := r
        simp only [h3, Option.some_bind] at h
        exact (ScoreAbacus_RowsKept h).2.2.2.1

theorem refineCandidates_spec {rnd : Nat → Int} {a : Abacus} {c : Candidates}
    (h : refineCandidates rnd a = some c) :
    ∃ so sl sr, scoreOriginal rnd 0 a = some so ∧ LeftShift rnd so.draws a = some sl ∧
      RightShift rnd sl.draws (CloneAbacus a) = some sr ∧ withGapScore so = some c.orig ∧
      withGapScore sl = some c.left ∧ withGapScore sr = some c.right ∧ c.draws = sr.draws := by
  unfold refineCandidates at h
  cases h1 : scoreOriginal rnd 0 a with
  | none => simp [h1] at h
  | some so =>
    simp only [h1, Option.bind_eq_bind, Option.some_bind] at h
    cases h2 : LeftShift rnd so.draws a with
    | none => simp [h2] at h
    | some sl =>
      simp only [h2, Option.some_bind] at h
      cases h3 : RightShift rnd sl.draws (CloneAbacus a) with
      | none => simp [h3] at h
      | some sr =>
        simp only [h3, Option.some_bind] at h
        cases h4 : withGapScore so with
        | none => simp [h4] at h
        | some o =>
          cases h5 : withGapScore sl with
          | none => simp [h4, h5] at h
          | some l =>
            cases h6 : withGapScore sr with
            | none => simp [h4, h5, h6] at h
            | some r =>
              simp [h4, h5, h6] at h
              subst h
              exact ⟨so, sl, sr, rfl, h2, h3, h4, h5, h6, rfl⟩

theorem firstBest_cases (c : Candidates) (b : Candidate) (h : firstBest c = some b) :
    (selectShift c.orig.scores c.left.scores c.right.scores = ShiftStatus.LEFT_SHIFT ∧ b = c.left) ∨
    (selectShift c.orig.scores c.left.scores c.right.scores = ShiftStatus.RIGHT_SHIFT ∧
      b = c.right) ∨
    (selectShift c.orig.scores c.left.scores c.right.scores = ShiftStatus.UNSHIFTED ∧
      b = c.orig) := by
  unfold firstBest at h
  have hne : selectShift c.orig.scores c.left.scores c.right.scores ≠ ShiftStatus.MIXED_SHIFT := by
    unfold selectShift
    split_ifs <;> simp
  cases hs : selectShift c.orig.scores c.left.scores c.right.scores with
  | LEFT_SHIFT =>
    rw [hs] at h
    cases hg : GetAbacusBaseCount c.left.abacus with
    | none => simp [hg] at h
    | some _ => simp [hg] at h; exact Or.inl ⟨rfl, h.symm⟩
  | RIGHT_SHIFT =>
    rw [hs] at h
    cases hg : GetAbacusBaseCount c.right.abacus with
    | none => simp [hg] at h
    | some _ => simp [hg] at h; exact Or.inr (Or.inl ⟨rfl, h.symm⟩)
  | UNSHIFTED =>
    rw [hs] at h
    simp at h
    exact Or.inr (Or.inr ⟨rfl, h.symm⟩)
  | MIXED_SHIFT => exact absurd hs hne

/-- The mixed stage keeps the first winner or replaces it by an abacus
tagged `MIXED_SHIFT` that wins the second comparison. -/
theorem finalBest_cases (rnd : Nat → Int) (plan : Option MixedPlan) (k : Nat)
    (b f : Candidate) (h : finalBest rnd plan k b = some f) :
    f = b ∨ (mixedWins f.scores b.scores = true ∧ f.abacus.shift = ShiftStatus.MIXED_SHIFT) := by
  unfold finalBest at h
  cases h1 : maxElement b.abacus with
  | none => simp [h1] at h
  | some mx =>
    simp only [h1] at h
    split_ifs at h with hmx
    · simp at h
      exact Or.inl h.symm
    · cases plan with
      | none =>
        simp at h
        exact Or.inl h.symm
      | some p =>
        simp only at h
        cases h2 : MixedShift rnd k p (CloneAbacus b.abacus) with
        | none => simp [h2] at h
        | some sm =>
          simp only [h2] at h
          cases h3 : withGapScore sm with
          | none => simp [h3] at h
          | some m =>
            simp only [h3] at h
            split_ifs at h with hw
            · simp at h
              subst h
              refine Or.inr ⟨hw, ?_⟩
              rw [(withGapScore_spec h3).1]
              exact MixedShift_shift h2
            · simp at h
              exact Or.inl h.symm

theorem ApplyAbacus_unshifted (oracle : Store → Int → Char × Char) (st : Store) (a : Abacus)
    (h : a.shift = ShiftStatus.UNSHIFTED ∨ a.shift = ShiftStatus.MIXED_SHIFT) :
    ApplyAbacus oracle st a = some st := by
  unfold ApplyAbacus
  rcases h with h | h <;> rw [h]

theorem refineCandidates_orig_shift {rnd : Nat → Int} {a : Abacus} {c : Candidates}
    (h : refineCandidates rnd a = some c) : c.orig.abacus.shift = a.shift := by
  obtain ⟨so, sl, sr, h1, _, _, h4, _⟩ := refineCandidates_spec h
  rw [(withGapScore_spec h4).1]
  exact (scoreOriginal_RowsKept h1).2.2.2.1

/-- When the first comparison keeps the original abacus and the mixed stage
returns, `RefineWindow` returns 0 and rewrites `abacus_indices` only. -/
theorem RefineWindow_of_unshifted (rnd : Nat → Int) (oracle : Store → Int → Char × Char)
    (plan : Option MixedPlan) (st st1 : Store) (ma start_column stab_bgn : Int) (a : Abacus)
    (c : Candidates) (f : Candidate)
    (hcreate : CreateAbacus st ma start_column stab_bgn = some (st1, a))
    (hcand : refineCandidates rnd a = some c)
    (hsel : selectShift c.orig.scores c.left.scores c.right.scores = ShiftStatus.UNSHIFTED)
    (hmixed : finalBest rnd plan c.draws c.orig = some f) :
    RefineWindow rnd oracle plan st ma start_column stab_bgn =
      some ({ st with abacus_indices := st1.abacus_indices }, 0) := by
  obtain ⟨hshift, _, hst⟩ := CreateAbacus_spec hcreate
  have hfirst : firstBest c = some c.orig := by
    unfold firstBest
    rw [hsel]
  have hred : scoreReduction c.orig.scores c.left.scores c.right.scores = 0 := by
    unfold selectShift at hsel
    unfold scoreReduction
    split_ifs at hsel ⊢ <;> rfl
  have hchoice : refineChoice rnd plan a = some (f, 0) := by
    unfold refineChoice
    simp only [hcand, hfirst, hmixed, hred, Option.bind_eq_bind, Option.some_bind]
    rfl
  have hf : f.abacus.shift = ShiftStatus.UNSHIFTED ∨ f.abacus.shift = ShiftStatus.MIXED_SHIFT := by
    rcases finalBest_cases rnd plan c.draws c.orig f hmixed with h | ⟨_, h⟩
    · left
      rw [h, refineCandidates_orig_shift hcand, hshift]
    · exact Or.inr h
  unfold RefineWindow
  simp only [hcreate, hchoice, ApplyAbacus_unshifted oracle st1 f.abacus hf,
    Option.bind_eq_bind, Option.some_bind]
  rw [hst]
  rfl

/-- C9: when the first comparison of `RefineWindow` prefers neither shifted
abacus to the original (and the mixed stage does not abort), `RefineWindow`
returns with a score reduction of 0 and a store that differs from the one it
was given in the scratch array `abacus_indices` only: every bead, column,
MANode, fragment and character is as it was. -/
theorem refineWindow_keeps_original (rnd : Nat → Int) (oracle : Store → Int → Char × Char)
    (plan : Option MixedPlan) (st st1 : Store) (ma start_column stab_bgn : Int) (a : Abacus)
    (c : Candidates) (f : Candidate)
    (hcreate : CreateAbacus st ma start_column stab_bgn = some (st1, a))
    (hcand : refineCandidates rnd a = some c)
    (hsel : selectShift c.orig.scores c.left.scores c.right.scores = ShiftStatus.UNSHIFTED)
    (hmixed : finalBest rnd plan c.draws c.orig = some f) :
    RefineWindow rnd oracle plan st ma start_column stab_bgn =
      some ({ st with abacus_indices := st1.abacus_indices }, 0) :=
  RefineWindow_of_unshifted rnd oracle plan st st1 ma start_column stab_bgn a c f hcreate hcand
    hsel hmixed

/-- Witness of C9: the window of `stackC9`, where the three abacuses tie on
every figure. -/
theorem refineWindow_keeps_original_witness :
    ∃ st st1 a, stackC9 = some st ∧ CreateAbacus st 0 0 2 = some (st1, a) ∧
      RefineWindow (fun _ => 1) (fun _ _ => ('A', '0')) none st 0 0 2 =
        some ({ st with abacus_indices := st1.abacus_indices }, 0) := by
  refine ⟨_, _, _, rfl, rfl, ?_⟩
  exact refineWindow_keeps_original (fun _ => 1) _ none _ _ 0 0 2 _ _ _ (by rfl) (by rfl)
    (by rfl) (by rfl)

/-- C8 (amended): what the two comparisons of `RefineWindow` guarantee.  The
abacus `b` picked by the first comparison among the original, left-shifted
and right-shifted abacus has the lowest mismatch score of the three; when
all three tie on the score it has the fewest non-null columns; when they tie
on both it has the lowest gap-open count; when both shifted abacuses beat
the original with the same score the left one is taken without looking at
columns or gaps.  The abacus finally applied is `b` unless the mixed abacus
is smaller than `b` in the reverse order: gap-open count first, then
non-null columns, then mismatch score. -/
theorem refineWindow_comparison (c : Candidates) (b : Candidate)
    (h : firstBest c = some b) :
    (b.scores.score ≤ c.orig.scores.score ∧ b.scores.score ≤ c.left.scores.score ∧
      b.scores.score ≤ c.right.scores.score) ∧
    (c.left.scores.score = c.orig.scores.score → c.right.scores.score = c.orig.scores.score →
      b.scores.columns ≤ c.orig.scores.columns ∧ b.scores.columns ≤ c.left.scores.columns ∧
      b.scores.columns ≤ c.right.scores.columns) ∧
    (c.left.scores.score = c.orig.scores.score → c.right.scores.score = c.orig.scores.score →
      c.left.scores.columns = c.orig.scores.columns →
      c.right.scores.columns = c.orig.scores.columns →
      b.scores.gap_score ≤ c.orig.scores.gap_score ∧
      b.scores.gap_score ≤ c.left.scores.gap_score ∧
      b.scores.gap_score ≤ c.right.scores.gap_score) ∧
    (c.left.scores.score < c.orig.scores.score →
      c.left.scores.score = c.right.scores.score → b = c.left) ∧
    (∀ rnd plan k f, finalBest rnd plan k b = some f → f = b ∨ Scores.revLt f.scores b.scores) := by
  have hc := firstBest_cases c b h
  refine ⟨?_, ?_, ?_, ?_, ?_⟩
  · rcases hc with ⟨hs, rfl⟩ | ⟨hs, rfl⟩ | ⟨hs, rfl⟩ <;>
      (unfold selectShift at hs; split_ifs at hs <;> omega)
  · intro h1 h2
    rcases hc with ⟨hs, rfl⟩ | ⟨hs, rfl⟩ | ⟨hs, rfl⟩ <;>
      (unfold selectShift at hs; split_ifs at hs <;> omega)
  · intro h1 h2 h3 h4
    rcases hc with ⟨hs, rfl⟩ | ⟨hs, rfl⟩ | ⟨hs, rfl⟩ <;>
      (unfold selectShift at hs; split_ifs at hs <;> omega)
  · intro h1 h2
    rcases hc with ⟨hs, rfl⟩ | ⟨hs, rfl⟩ | ⟨hs, rfl⟩
    · rfl
    · unfold selectShift at hs; split_ifs at hs <;> omega
    · unfold selectShift at hs; split_ifs at hs <;> omega
  · intro rnd plan k f hf
    rcases finalBest_cases rnd plan k b f hf with h1 | ⟨h1, _⟩
    · exact Or.inl h1
    · right
      unfold mixedWins at h1
      simp only [Bool.or_eq_true, Bool.and_eq_true, decide_eq_true_eq] at h1
      unfold Scores.revLt
      tauto

/-- Witness of C8 (amended): the window of `stackC8`, where the first
comparison picks the left-shifted abacus. -/
theorem refineWindow_comparison_witness :
    ∃ c b, candidatesC8 = some c ∧ firstBest c = some b ∧
      (b.scores.score ≤ c.orig.scores.score ∧ b.scores.score ≤ c.left.scores.score ∧
        b.scores.score ≤ c.right.scores.score) := by
  refine ⟨_, _, rfl, rfl, ?_⟩
  refine And.left (refineWindow_comparison _ _ ?_)
  rfl

/-- C8 as stated fails on a real window.  For the stacked sequences `-CT`,
`CAT`, `AAT` and the window of the first two columns, the original abacus
scores (3, 2, 1), the left-shifted one (2, 2, 3) and the right-shifted one
(2, 2, 1) as (mismatch score, non-null columns, gap-open count).
`RefineWindow` settles on the left-shifted abacus, whatever the allele
analysis would return, although the right-shifted one ties it on score and
columns and opens fewer gaps. -/
theorem refineWindow_not_minimal :
    ∃ st st1 a c, stackC8 = some st ∧ CreateAbacus st 0 0 2 = some (st1, a) ∧
      refineCandidates (fun _ => 1) a = some c ∧
      c.orig.scores = ⟨3, 2, 1⟩ ∧ c.left.scores = ⟨2, 2, 3⟩ ∧ c.right.scores = ⟨2, 2, 1⟩ ∧
      Scores.lexLt c.right.scores c.left.scores ∧
      ∀ plan, (refineChoice (fun _ => 1) plan a).map (fun r => (r.1.scores, r.1.abacus.shift)) =
        some (c.left.scores, ShiftStatus.LEFT_SHIFT) := by
  refine ⟨_, _, _, _, rfl, rfl, rfl, ?_, ?_, ?_, ?_, ?_⟩
  · rfl
  · rfl
  · rfl
  · right; exact ⟨by decide, Or.inr ⟨by decide, by decide⟩⟩
  · intro plan
    rfl

/-- C6: `LeftShift` and `RightShift`, with the `MergeAbacus` pass they run,
keep every row of the abacus: whenever the shift of an abacus `a` (whether
built by `CreateAbacus` or not) returns, the result has the rows and columns
of `a`, and in every row the number of non-gap characters, and the number of
occurrences of each single character, are what they were in `a`; the
characters only change column. -/
theorem shifts_keep_rows (rnd : Nat → Int) (k : Nat) (a : Abacus) (s : ScoreState)
    (h : LeftShift rnd k a = some s ∨ RightShift rnd k a = some s) :
    s.abacus.rows = a.rows ∧ s.abacus.columns = a.columns ∧
      ∀ i, rowNonGap s.abacus i = rowNonGap a i ∧ ∀ x, rowCount s.abacus i x = rowCount a i x := by
  rcases h with h | h
  · obtain ⟨_, k1, k2, _, _, _, k6⟩ := LeftShift_spec h
    exact ⟨k1, k2, fun i => ⟨k6 _ i, fun x => k6 _ i⟩⟩
  · obtain ⟨_, k1, k2, _, _, _, k6⟩ := RightShift_spec h
    exact ⟨k1, k2, fun i => ⟨k6 _ i, fun x => k6 _ i⟩⟩

/-- Witness of C6: the left shift of the abacus of `stackC8` returns, and
its rows keep their characters. -/
theorem shifts_keep_rows_witness :
    ∃ a s, abacusC8 = some a ∧ LeftShift (fun _ => 1) 0 a = some s ∧
      s.abacus.beads ≠ a.beads ∧
      (s.abacus.rows = a.rows ∧ s.abacus.columns = a.columns ∧
        ∀ i, rowNonGap s.abacus i = rowNonGap a i ∧
          ∀ x, rowCount s.abacus i x = rowCount a i x) := by
  refine ⟨_, _, rfl, rfl, by decide, ?_⟩
  refine shifts_keep_rows (fun _ => 1) 0 _ _ (Or.inl ?_)
  rfl

theorem noGapWindow_iff (a : Abacus) (hc : a.columns = 3 * a.window_width) :
    noGapWindow a = true ↔ NoGapCentre a := by
  unfold noGapWindow NoGapCentre
  simp only [List.all_eq_true, mem_intRange, bne_iff_ne, ne_eq]
  constructor
  · intro h
    exact ⟨hc, fun i j h1 h2 h3 h4 => h i ⟨h1, h2⟩ j ⟨h3, h4⟩⟩
  · intro h i hi j hj
    exact h.2 i j hi.1 hi.2 hj.1 hj.2

/-- Reading a cell after the contents of two cells of row `i` were exchanged. -/
theorem swap_get {a a1 a2 : Abacus} {i j1 j2 : Int} {v1 v2 : Char}
    (hs1 : SetAbacus a i j1 v2 = some a1) (hs2 : SetAbacus a1 i j2 v1 = some a2)
    (i2 k : Int) (hk : 0 ≤ k ∧ k < a.columns) :
    GetAbacus a2 i2 k =
      if i2 = i ∧ k = j2 then some v1 else if i2 = i ∧ k = j1 then some v2
      else GetAbacus a i2 k := by
  have hcols1 : a1.columns = a.columns := by rw [(SetAbacus_spec hs1).1]
  rw [GetAbacus_SetAbacus hs2 i2 k (by rw [hcols1]; exact hk), GetAbacus_SetAbacus hs1 i2 k hk]

theorem mergeTest_good (a : Abacus) (j : Int) :
    ∀ (rows : List Int) (g0 good : Int), mergeTest a j rows g0 = some (true, good) →
      good = g0 ∨ (good ∈ rows ∧ GetAbacus a good j = some '-') := by
  intro rows
  induction rows with
  | nil =>
    intro g0 good h
    simp [mergeTest] at h
    exact Or.inl h.symm
  | cons i rest ih =>
    intro g0 good h
    unfold mergeTest at h
    cases hb : GetAbacus a i j with
    | none => simp [hb] at h
    | some b =>
      cases hm : GetAbacus a i (j + 1) with
      | none => simp [hb, hm] at h
      | some m =>
        simp only [hb, hm] at h
        by_cases hbad : b ≠ '-' ∧ m ≠ '-' ∧ (b ≠ 'n' ∨ m ≠ 'n')
        · rw [if_pos hbad] at h
          simp at h
        · rw [if_neg hbad] at h
          rcases ih _ good h with hg | ⟨hg1, hg2⟩
          · by_cases hmm : m ≠ '-' ∧ m ≠ 'n'
            · rw [if_pos hmm] at hg
              right
              refine ⟨hg ▸ List.mem_cons_self _ _, ?_⟩
              have hbe : b = '-' := by
                by_contra hne
                exact hbad ⟨hne, hmm.1, Or.inr hmm.2⟩
              rw [hg, hb, hbe]
            · rw [if_neg hmm] at hg
              exact Or.inl hg
          · exact Or.inr ⟨List.mem_cons_of_mem _ hg1, hg2⟩

theorem mergeRow_NoGapCentre {j i : Int} {a b : Abacus} (hinv : NoGapCentre a)
    (hj : ¬ (a.window_width ≤ j ∧ j < 2 * a.window_width))
    (h : mergeRow j a i = some b) : NoGapCentre b := by
  have hk := mergeRow_RowsKept h
  unfold mergeRow at h
  cases hg : GetAbacus a i j with
  | none => simp [hg] at h
  | some x =>
    cases hm : GetAbacus a i (j + 1) with
    | none => simp [hg, hm] at h
    | some m =>
      simp only [hg, hm, Option.bind_eq_bind, Option.some_bind] at h
      split_ifs at h with h1 h2
      · simp at h
        exact h ▸ hinv
      · cases hs : SetAbacus a i j m with
        | none => simp [hs] at h
        | some a1 =>
          simp only [hs, Option.some_bind] at h
          obtain ⟨_, r1, r2, _, _, _⟩ := SetAbacus_spec hs
          refine ⟨by rw [hk.2.1, hk.2.2.1]; exact hinv.1, fun i2 k q1 q2 q3 q4 => ?_⟩
          rw [hk.1] at q2
          rw [hk.2.2.1] at q3 q4
          rw [swap_get hs h i2 k ⟨by omega, by rw [hinv.1]; omega⟩]
          split_ifs with e1 e2
          · simp
            exact h2.1
          · exact absurd ⟨e2.2 ▸ q3, e2.2 ▸ q4⟩ hj
          · exact hinv.2 i2 k q1 q2 q3 q4
      · simp at h
        exact h ▸ hinv

theorem mergeColumn_NoGapCentre {acc r : Abacus × Int} {j : Int} (hinv : NoGapCentre acc.1)
    (h : mergeColumn acc j = some r) : NoGapCentre r.1 := by
  unfold mergeColumn at h
  cases ht : mergeTest acc.1 j (intRange 0 acc.1.rows) (-1) with
  | none => simp [ht] at h
  | some t =>
    obtain ⟨ok, good⟩ := t
    simp only [ht, Option.bind_eq_bind, Option.some_bind] at h
    split_ifs at h with hc
    · cases hf : (intRange 0 acc.1.rows).foldlM (mergeRow j) acc.1 with
      | none => simp [hf] at h
      | some a1 =>
        simp only [hf, Option.some_bind] at h
        simp at h
        rw [← h]
        have hok : ok = true := by simpa using hc.1
        subst hok
        have hj : ¬ (acc.1.window_width ≤ j ∧ j < 2 * acc.1.window_width) := by
          intro hj
          rcases mergeTest_good acc.1 j _ _ _ ht with hg | ⟨hg1, hg2⟩
          · have := hc.2
            omega
          · obtain ⟨g1, g2⟩ := mem_intRange.mp hg1
            exact hinv.2 good j g1 g2 hj.1 hj.2 hg2
        have key := foldlM_inv
          (fun b => NoGapCentre b ∧ b.window_width = acc.1.window_width) (mergeRow j) _
          (fun b x b' _ hb hfb =>
            ⟨mergeRow_NoGapCentre hb.1 (by rw [hb.2]; exact hj) hfb,
              by rw [(mergeRow_RowsKept hfb).2.2.1, hb.2]⟩) acc.1 a1 ⟨hinv, rfl⟩ hf
        exact key.1
    · simp at h
      exact h ▸ hinv

theorem MergeAbacus_NoGapCentre {a : Abacus} {r : Abacus × Int} (hinv : NoGapCentre a)
    (h : MergeAbacus a = some r) : NoGapCentre r.1 := by
  unfold MergeAbacus at h
  cases hl : lastNonNull a (intRange 1 a.columns).reverse (a.columns - 1) with
  | none => simp [hl] at h
  | some last =>
    simp only [hl, Option.bind_eq_bind, Option.some_bind] at h
    exact foldlM_inv (fun (b : Abacus × Int) => NoGapCentre b.1) mergeColumn _
      (fun _ _ _ _ hb hfb => mergeColumn_NoGapCentre hb hfb) (a, 0) r hinv h

theorem scoreColumn_beads {rnd : Nat → Int} {counts : Int → Option BaseCount}
    {s r : ScoreState} {j : Int} (h : scoreColumn rnd counts s j = some r) :
    r.abacus.beads = s.abacus.beads := by
  unfold scoreColumn at h
  cases hc : counts j with
  | none => simp [hc] at h
  | some cj =>
    simp only [hc, Option.bind_eq_bind, Option.some_bind] at h
    split_ifs at h
    · cases hs : setCall s.abacus j 'n' with
      | none => simp [hs] at h
      | some a1 =>
        simp [hs] at h
        rw [← h, (setCall_spec hs).1]
    · cases hm : GetMaxBaseCount rnd s.draws cj 0 with
      | none => simp [hm] at h
      | some ck =>
        obtain ⟨c, k⟩ := ck
        simp only [hm, Option.some_bind] at h
        cases hs : setCall s.abacus j c with
        | none => simp [hs] at h
        | some a1 =>
          simp only [hs, Option.some_bind] at h
          cases h1 : countAt cj (BaseToInt c) with
          | none => simp [h1] at h
          | some cc =>
            cases h2 : countAt cj (CNS_NALPHABET - 1) with
            | none => simp [h1, h2] at h
            | some cn =>
              simp [h1, h2] at h
              rw [← h, (setCall_spec hs).1]

theorem ScoreAbacus_beads {rnd : Nat → Int} {k : Nat} {a : Abacus} {s : ScoreState}
    (h : ScoreAbacus rnd k a = some s) : s.abacus.beads = a.beads :=
  foldlM_inv (fun (b : ScoreState) => b.abacus.beads = a.beads) _ _
    (fun _ _ _ _ hb hfb => (scoreColumn_beads hfb).trans hb) _ s rfl h

theorem ScoreAbacus_NoGapCentre {rnd : Nat → Int} {k : Nat} {a : Abacus} {s : ScoreState}
    (hinv : NoGapCentre a) (h : ScoreAbacus rnd k a = some s) : NoGapCentre s.abacus := by
  have hk := ScoreAbacus_RowsKept h
  have hb := ScoreAbacus_beads h
  refine ⟨by rw [hk.2.1, hk.2.2.1]; exact hinv.1, fun i j q1 q2 q3 q4 => ?_⟩
  rw [hk.1] at q2
  rw [hk.2.2.1] at q3 q4
  have : GetAbacus s.abacus i j = GetAbacus a i j := by
    unfold GetAbacus Abacus.offset
    rw [hb, hk.2.1]
  rw [this]
  exact hinv.2 i j q1 q2 q3 q4

theorem affineCell_nonneg {a : Abacus} {i j : Int} {acc r : Bool × Int}
    (h : affineCell a i acc j = some r) (h0 : 0 ≤ acc.2) : 0 ≤ r.2 := by
  unfold affineCell at h
  cases hg : GetAbacus a i j with
  | none => simp [hg] at h
  | some b =>
    simp only [hg, Option.bind_eq_bind, Option.some_bind] at h
    split_ifs at h <;> simp at h <;> subst h
    · exact h0
    · exact h0
    · show 0 ≤ acc.2 + 1
      omega

/-- The gap-open count is never negative. -/
theorem AffineScoreAbacus_nonneg {a : Abacus} {g : Int} (h : AffineScoreAbacus a = some g) :
    0 ≤ g := by
  unfold AffineScoreAbacus at h
  refine foldlM_inv (fun (s : Int) => 0 ≤ s) _ _ (fun s i s' _ hs hf => ?_) 0 g (le_refl _) h
  cases hr : (intRange (affineWindow a).1 (affineWindow a).2).foldlM (affineCell a i)
      (false, s) with
  | none => simp [hr] at hf
  | some r =>
    simp [hr] at hf
    rw [← hf]
    exact foldlM_inv (fun (x : Bool × Int) => 0 ≤ x.2) _ _
      (fun x j x' _ hx hfx => affineCell_nonneg hfx hx) (false, s) r hs hr

/-- The gap-open count of an untagged abacus without a gap in its centre
third is 0. -/
theorem AffineScoreAbacus_noGap {a : Abacus} {g : Int} (hinv : NoGapCentre a)
    (hs : a.shift = ShiftStatus.UNSHIFTED) (h : AffineScoreAbacus a = some g) : g = 0 := by
  unfold AffineScoreAbacus at h
  have hw : affineWindow a = (a.window_width, 2 * a.window_width) := by
    unfold affineWindow
    rw [hs, hinv.1]
    simp only [Prod.mk.injEq]
    constructor <;> omega
  refine foldlM_inv (fun (s : Int) => s = 0) _ _ (fun s i s' hi hs0 hf => ?_) 0 g rfl h
  cases hr : (intRange (affineWindow a).1 (affineWindow a).2).foldlM (affineCell a i)
      (false, s) with
  | none => simp [hr] at hf
  | some r =>
    simp [hr] at hf
    rw [← hf]
    obtain ⟨i1, i2⟩ := mem_intRange.mp hi
    refine foldlM_inv (fun (x : Bool × Int) => x.2 = 0) _ _
      (fun x j x' hj hx hfx => ?_) (false, s) r hs0 hr
    rw [hw] at hj
    obtain ⟨j1, j2⟩ := mem_intRange.mp hj
    unfold affineCell at hfx
    cases hg : GetAbacus a i j with
    | none => simp [hg] at hfx
    | some b =>
      simp only [hg, Option.bind_eq_bind, Option.some_bind] at hfx
      have hb : b ≠ '-' := fun e => hinv.2 i j i1 i2 j1 j2 (by rw [hg, e])
      rw [if_pos hb] at hfx
      simp at hfx
      rw [← hfx]
      exact hx

/-- C7 (amended): `RefineWindow` applied to a window in which no row of the
abacus holds a gap is a no-op, unless a shifted abacus has a lower mismatch
score than the original, or both shifted abacuses tie the original on the
score and one of them has fewer non-null columns.  Short of these two cases
(and when the mixed stage does not abort) it returns 0 and a store that
differs from the one it was given in the scratch array `abacus_indices`
only; the gap-open criterion never prefers a shift here, because the
original abacus opens no gap. -/
theorem refineWindow_noGap_noop (rnd : Nat → Int) (oracle : Store → Int → Char × Char)
    (plan : Option MixedPlan) (st st1 : Store) (ma start_column stab_bgn : Int) (a : Abacus)
    (c : Candidates) (f : Candidate)
    (hcreate : CreateAbacus st ma start_column stab_bgn = some (st1, a))
    (hnogap : noGapWindow a = true)
    (hcand : refineCandidates rnd a = some c)
    (hscore : c.orig.scores.score ≤ c.left.scores.score ∧
      c.orig.scores.score ≤ c.right.scores.score)
    (hcols : c.left.scores.score = c.orig.scores.score →
      c.right.scores.score = c.orig.scores.score →
      c.orig.scores.columns ≤ c.left.scores.columns ∧
      c.orig.scores.columns ≤ c.right.scores.columns)
    (hmixed : finalBest rnd plan c.draws c.orig = some f) :
    RefineWindow rnd oracle plan st ma start_column stab_bgn =
      some ({ st with abacus_indices := st1.abacus_indices }, 0) := by
  obtain ⟨hshift, hcolumns, _⟩ := CreateAbacus_spec hcreate
  have hinv : NoGapCentre a := (noGapWindow_iff a hcolumns).mp hnogap
  obtain ⟨so, sl, sr, h1, _, _, h4, h5, h6, _⟩ := refineCandidates_spec hcand
  have horig : c.orig.scores.gap_score = 0 := by
    have hso : NoGapCentre so.abacus ∧ so.abacus.shift = ShiftStatus.UNSHIFTED := by
      unfold scoreOriginal CloneAbacus at h1
      cases hm : MergeAbacus a with
      | none => simp [hm] at h1
      | some r =>
        obtain ⟨o, n⟩ := r
        simp only [hm, Option.bind_eq_bind, Option.some_bind] at h1
        refine ⟨ScoreAbacus_NoGapCentre (MergeAbacus_NoGapCentre hinv hm) h1, ?_⟩
        rw [(ScoreAbacus_RowsKept h1).2.2.2.1, (MergeAbacus_RowsKept hm).2.2.2.1, hshift]
    exact AffineScoreAbacus_noGap hso.1 hso.2 (withGapScore_spec h4).2.2.2
  have hl := AffineScoreAbacus_nonneg (withGapScore_spec h5).2.2.2
  have hr := AffineScoreAbacus_nonneg (withGapScore_spec h6).2.2.2
  have hsel : selectShift c.orig.scores c.left.scores c.right.scores =
      ShiftStatus.UNSHIFTED := by
    unfold selectShift
    split_ifs <;> first | rfl | omega
  exact RefineWindow_of_unshifted rnd oracle plan st st1 ma start_column stab_bgn a c f hcreate
    hcand hsel hmixed

/-- Witness of C7 (amended): the window of `stackAA`. -/
theorem refineWindow_noGap_noop_witness :
    ∃ st st1 a, stackAA = some st ∧ CreateAbacus st 0 0 2 = some (st1, a) ∧
      noGapWindow a = true ∧
      RefineWindow (fun _ => 1) (fun _ _ => ('A', '0')) none st 0 0 2 =
        some ({ st with abacus_indices := st1.abacus_indices }, 0) := by
  refine ⟨_, _, _, rfl, rfl, rfl, ?_⟩
  exact refineWindow_noGap_noop (fun _ => 1) _ none _ _ 0 0 2 _ _ _ (by rfl) (by rfl) (by rfl)
    (by decide) (by decide) (by rfl)

/-- C7 as stated fails.  In the window of `stackC7` (columns `ACA` over
`CAC`) no row holds a gap, yet `RefineWindow` returns a score reduction of
1, whatever the allele analysis would return, and the store it leaves has
other beads and other columns: the left-shifted abacus scores 2 against 3
for the original. -/
theorem refineWindow_noGap_changes :
    ∃ st st1 a st2, stackC7 = some st ∧ CreateAbacus st 0 0 3 = some (st1, a) ∧
      noGapWindow a = true ∧
      (∀ plan, RefineWindow (fun _ => 1) (fun _ _ => ('A', '0')) plan st 0 0 3 =
        some (st2, 1)) ∧
      st2.beadStore ≠ st.beadStore ∧ st2.columnStore ≠ st.columnStore ∧
      st2.beadStore.length = 15 ∧ st.beadStore.length = 12 := by
  refine ⟨_, _, _, _, rfl, rfl, rfl, fun plan => rfl, ?_, ?_, ?_, ?_⟩
  · decide
  · decide
  · rfl
  · rfl

theorem modBead_columnStore {st st' : Store} {i : Int} {f : Bead → Bead}
    (h : modBead st i f = some st') : st'.columnStore = st.columnStore :=
  (modBead_get h).2.2.2.1

theorem modColumn_spec {st st' : Store} {i : Int} {f : Column → Column}
    (h : modColumn st i f = some st') :
    ∃ c, GetColumn st i = some c ∧ st' = { st with columnStore := setAt st.columnStore i (f c) } := by
  unfold modColumn at h
  cases hc : GetColumn st i with
  | none => simp [hc] at h
  | some c =>
    simp [hc] at h
    exact ⟨c, rfl, h.symm⟩

theorem modMANode_spec {st st' : Store} {i : Int} {f : MANode → MANode}
    (h : modMANode st i f = some st') :
    ∃ m, GetMANode st i = some m ∧ st' = { st with manodeStore := setAt st.manodeStore i (f m) } := by
  unfold modMANode at h
  cases hc : GetMANode st i with
  | none => simp [hc] at h
  | some c =>
    simp [hc] at h
    exact ⟨c, rfl, h.symm⟩

theorem incColumn_spec {st st' : Store} {cid : Int} {c : Char} (h : incColumn st cid c = some st') :
    ∃ col bc, GetColumn st cid = some col ∧ IncBaseCount col.base_count c = some bc ∧
      st' = { st with columnStore := setAt st.columnStore cid { col with base_count := bc } } := by
  unfold incColumn at h
  cases hc : GetColumn st cid with
  | none => simp [hc] at h
  | some col =>
    cases hb : IncBaseCount col.base_count c with
    | none => simp [hc, hb] at h
    | some bc =>
      simp [hc, hb] at h
      exact ⟨col, bc, rfl, hb, h.symm⟩

theorem AlignBead_colLen {st st' : Store} {cid bid r : Int}
    (h : AlignBead st cid bid = some (st', r)) :
    st'.columnStore.length = st.columnStore.length := by
  unfold AlignBead at h
  simp only [Option.bind_eq_bind, Option.bind_eq_some, Option.pure_def, Option.some.injEq,
    Prod.mk.injEq] at h
  obtain ⟨_, _, _, _, _, _, _, _, s1, h1, s2, h2, s3, h3, s4, h4, s5, h5, _, _, _, _, s6, h6,
    rfl, _⟩ := h
  obtain ⟨col, bc, _, _, rfl⟩ := incColumn_spec h6
  simp only [length_setAt, modBead_columnStore h5, modBead_columnStore h4, modBead_columnStore h3,
    modBead_columnStore h2, modBead_columnStore h1]

theorem modColumn_colLen {st st' : Store} {i : Int} {f : Column → Column}
    (h : modColumn st i f = some st') : st'.columnStore.length = st.columnStore.length := by
  obtain ⟨c, _, rfl⟩ := modColumn_spec h
  simp [length_setAt]

theorem patchColumn_colLen {st st' : Store} {i : Int} {f : Column → Column}
    (h : patchColumn st i f = some st') : st'.columnStore.length = st.columnStore.length := by
  unfold patchColumn at h
  split_ifs at h
  · exact modColumn_colLen h
  · simp at h
    rw [h]

theorem patchBead_columnStore {st st' : Store} {i : Int} {f : Bead → Bead}
    (h : patchBead st i f = some st') : st'.columnStore = st.columnStore :=
  (patchBead_map h).2.2.2.1

theorem modMANode_columnStore {st st' : Store} {i : Int} {f : MANode → MANode}
    (h : modMANode st i f = some st') : st'.columnStore = st.columnStore := by
  obtain ⟨m, _, rfl⟩ := modMANode_spec h
  rfl

theorem modMANodeIf_columnStore {c : Bool} {st st' : Store} {i : Int} {f : MANode → MANode}
    (h : modMANodeIf c st i f = some st') : st'.columnStore = st.columnStore := by
  unfold modMANodeIf at h
  split_ifs at h
  · exact modMANode_columnStore h
  · simp at h
    rw [h]

theorem AppendGapBead_columnStore {st st' : Store} {b g : Int}
    (h : AppendGapBead st b = some (st', g)) : st'.columnStore = st.columnStore := by
  obtain ⟨_, _, _, _, _, _, _, hc, _⟩ := AppendGapBead_spec h
  exact hc

theorem CreateColumn_colLen {st st' : Store} {bid lid : Int}
    (h : CreateColumn st bid = some (st', lid)) :
    st'.columnStore.length = st.columnStore.length + 1 ∧ lid = st.columnStore.length := by
  unfold CreateColumn at h
  simp only [Option.bind_eq_bind, Option.bind_eq_some, Option.pure_def, Option.some.injEq,
    Prod.mk.injEq] at h
  obtain ⟨s1, h1, s2, h2, _, _, _, _, _, _, rfl, rfl⟩ := h
  refine ⟨?_, rfl⟩
  simp [modBead_columnStore h2, modBead_columnStore h1]

theorem appendLink_colLen {st st' : Store} {cid lid : Int} (h : appendLink st cid lid = some st') :
    st'.columnStore.length = st.columnStore.length := by
  unfold appendLink appendLinkNew appendLinkOld at h
  simp only [Option.bind_eq_bind, Option.bind_eq_some, Option.pure_def, Option.some.injEq,
    Prod.mk.injEq] at h
  obtain ⟨_, _, s4, ⟨_, _, _, _, _, _, s1, h1, s2, h2, s3, h3, h4⟩, _, _, _, _, s5, h5, s6, h6,
    _, _, s7, h7, _, _, h8⟩ := h
  rw [patchBead_columnStore h8, patchColumn_colLen h7, modBead_columnStore h6,
    modColumn_colLen h5, modBead_columnStore h4, modBead_columnStore h3, modColumn_colLen h2,
    modColumn_colLen h1]

theorem appendFill_colLen (lid bid : Int) :
    ∀ (fuel : Nat) (st : Store) (cur : Int) (st' : Store),
      appendFill lid bid fuel st cur = some st' →
      st'.columnStore.length = st.columnStore.length := by
  intro fuel
  induction fuel with
  | zero => intro st cur st' h; simp [appendFill] at h
  | succ n ih =>
    intro st cur st' h
    unfold appendFill at h
    split_ifs at h with hc
    · simp at h
      rw [h]
    · cases hb : GetBead st cur with
      | none => simp [hb] at h
      | some cb =>
        simp only [hb] at h
        split_ifs at h with hn
        · simp at h
          rw [h]
        · cases hb2 : GetBead st cb.down with
          | none => simp [hb2] at h
          | some bead =>
            simp only [hb2] at h
            split_ifs at h with hx
            · cases ha : AppendGapBead st cb.down with
              | none => simp [ha] at h
              | some r =>
                obtain ⟨st1, g⟩ := r
                simp only [ha] at h
                cases hal : AlignBead st1 lid g with
                | none => simp [hal] at h
                | some r2 =>
                  obtain ⟨st2, x⟩ := r2
                  simp only [hal] at h
                  rw [ih _ _ _ h, AlignBead_colLen hal, AppendGapBead_columnStore ha]
            · exact ih _ _ _ h

theorem columnRegister_colLen {st st' : Store} {cid lid d : Int}
    (h : columnRegister st cid lid d = some st') :
    st'.columnStore.length = st.columnStore.length := by
  unfold columnRegister AddColumnToMANode at h
  simp only [Option.bind_eq_bind, Option.bind_eq_some, Option.pure_def, Option.some.injEq,
    Prod.mk.injEq] at h
  obtain ⟨_, _, s1, h1, _, _, s2, h2, _, _, s3, h3, s4, h4, h5⟩ := h
  rw [modMANodeIf_columnStore h5, modMANodeIf_columnStore h4, modMANode_columnStore h3,
    modColumn_colLen h2, modColumn_colLen h1]

theorem ColumnAppend_colLen {st st' : Store} {cid bid lid : Int}
    (h : ColumnAppend st cid bid = some (st', lid)) :
    st'.columnStore.length = st.columnStore.length + 1 := by
  unfold ColumnAppend at h
  simp only [Option.bind_eq_bind, Option.bind_eq_some, Option.pure_def, Option.some.injEq,
    Prod.mk.injEq] at h
  obtain ⟨_, _, ⟨s1, l1⟩, h1, s2, h2, _, _, s3, h3, s4, h4, rfl, _⟩ := h
  rw [columnRegister_colLen h4, appendFill_colLen _ _ _ _ _ _ h3, appendLink_colLen h2,
    (CreateColumn_colLen h1).1]

theorem SameCols.rfl_ (st : Store) : SameCols st st := ⟨fun _ => rfl, rfl⟩

theorem SameCols.then_ {a b c : Store} (h1 : SameCols a b) (h2 : SameCols b c) : SameCols a c :=
  ⟨fun j => (h2.1 j).trans (h1.1 j), h2.2.trans h1.2⟩

theorem SameCols.of_eq {st st' : Store} (h1 : st'.columnStore = st.columnStore)
    (h2 : st'.manodeStore = st.manodeStore) : SameCols st st' := by
  refine ⟨fun j => ?_, h2⟩
  unfold LinksAt GetColumn
  rw [h1]

theorem SameRest.sameCols {st st' : Store} (h : SameRest st st') : SameCols st st' :=
  SameCols.of_eq h.2.2.1 h.2.2.2.1

theorem modBead_sameCols {st st' : Store} {i : Int} {f : Bead → Bead}
    (h : modBead st i f = some st') : SameCols st st' :=
  (modBead_map h).2.sameCols

theorem patchBead_sameCols {st st' : Store} {i : Int} {f : Bead → Bead}
    (h : patchBead st i f = some st') : SameCols st st' :=
  (patchBead_map h).2.sameCols

theorem linkBead_sameCols {st st' : Store} {i : Int} {f : Bead → Bead}
    (h : linkBead st i f = some st') : SameCols st st' :=
  (linkBead_map h).2.sameCols

/-- Reading a column after a write through a column pointer. -/
theorem modColumn_get {st st' : Store} {i : Int} {f : Column → Column}
    (h : modColumn st i f = some st') :
    (∀ j, GetColumn st' j = if j = i then (GetColumn st i).map f else GetColumn st j) ∧
      st'.beadStore = st.beadStore ∧ st'.manodeStore = st.manodeStore ∧
      st'.sequenceStore = st.sequenceStore ∧ st'.fragmentStore = st.fragmentStore := by
  obtain ⟨c, hc, rfl⟩ := modColumn_spec h
  refine ⟨fun j => ?_, rfl, rfl, rfl, rfl⟩
  simp only [GetColumn] at hc ⊢
  rw [getAt_setAt, hc]
  by_cases hj : j = i
  · simp [hj]
  · simp [hj]

theorem tally_sameCols {st st' : Store} {cid : Int} {col : Column} {bc : BaseCount}
    (hc : GetColumn st cid = some col)
    (h : st' = { st with columnStore := setAt st.columnStore cid { col with base_count := bc } }) :
    SameCols st st' := by
  subst h
  refine ⟨fun j => ?_, rfl⟩
  simp only [LinksAt, GetColumn] at hc ⊢
  rw [getAt_setAt, hc]
  by_cases hj : j = cid
  · subst hj
    simp [hc, Column.links]
  · simp [hj]

theorem incColumn_sameCols {st st' : Store} {cid : Int} {c : Char}
    (h : incColumn st cid c = some st') : SameCols st st' := by
  obtain ⟨col, bc, hc, _, hs⟩ := incColumn_spec h
  exact tally_sameCols hc hs

theorem decColumn_sameCols {st st' : Store} {cid : Int} {c : Char}
    (h : decColumn st cid c = some st') : SameCols st st' := by
  unfold decColumn at h
  cases hc : GetColumn st cid with
  | none => simp [hc] at h
  | some col =>
    cases hb : DecBaseCount col.base_count c with
    | none => simp [hc, hb] at h
    | some bc =>
      simp [hc, hb] at h
      exact tally_sameCols hc h.symm

theorem AppendGapBead_sameCols {st st' : Store} {b g : Int}
    (h : AppendGapBead st b = some (st', g)) : SameCols st st' := by
  obtain ⟨_, _, _, _, _, _, _, hc, hm, _⟩ := AppendGapBead_spec h
  exact SameCols.of_eq hc hm

/-- What `PrependGapBead` leaves in the stores, bead by bead. -/
theorem PrependGapBead_spec {st s1 : Store} {b g : Int} (h : PrependGapBead st b = some (s1, g)) :
    ∃ x qv, GetBead st b = some x ∧ g = st.beadStore.length ∧
      (x.prev = -1 ∨ ∃ pb, GetBead st x.prev = some pb) ∧
      s1.sequenceStore = st.sequenceStore ++ ['-'] ∧
      s1.qualityStore = st.qualityStore ++ [qv] ∧
      s1.columnStore = st.columnStore ∧ s1.manodeStore = st.manodeStore ∧
      s1.fragmentStore = st.fragmentStore ∧ s1.abacus_indices = st.abacus_indices ∧
      s1.gaps_in_alignment = st.gaps_in_alignment + 1 ∧
      s1.beadStore.length = st.beadStore.length + 1 ∧
      GetBead s1 g = some (Bead.mk g st.sequenceStore.length x.foffset x.prev b
        (-1) (-1) x.frag_index (-1)) ∧
      ∀ j y, GetBead st j = some y →
        GetBead s1 j = some
          (let y1 : Bead := if j = b then { y with prev := g } else y
           if x.prev ≠ -1 ∧ j = x.prev then { y1 with next := g } else y1) := by
  unfold PrependGapBead at h
  cases hb : GetBead st b with
  | none => simp [hb] at h
  | some x =>
    simp only [hb, Option.bind_eq_bind, Option.some_bind, Option.pure_def, modBead] at h
    · cases hq : getAt st.qualityStore x.soffset with
      | none => simp [hq] at h
      | some qv =>
        simp only [hq, Option.some_bind] at h
        by_cases hn : x.prev = -1
        · simp only [hn, ne_eq, not_true_eq_false, if_false, Option.some_bind, Option.some.injEq,
            Prod.mk.injEq] at h
          obtain ⟨rfl, rfl⟩ := h
          refine ⟨x, qv, rfl, rfl, Or.inl hn, rfl, rfl, rfl, rfl, rfl, rfl, rfl, ?_, ?_, ?_⟩
          · simp [length_setAt]
          · simp only [GetBead, hn]
            rw [getAt_append_singleton, length_setAt]
            simp
          · intro j y hj
            simp only [GetBead, hn, ne_eq, not_true_eq_false, false_and, if_false]
            apply getAt_append_some
            rw [getAt_setAt]
            by_cases hjb : j = b
            · subst hjb
              rw [GetBead] at hb hj
              rw [hb] at hj; cases hj
              simp [hb]
            · simpa [hjb] using hj
        · simp only [ne_eq, hn, not_false_eq_true, if_true] at h
          cases hnb : GetBead { st with beadStore := setAt st.beadStore b { x with prev := (st.beadStore.length : Int) } } x.prev with
          | none => simp [hnb] at h
          | some nb =>
            simp only [hnb, Option.some_bind] at h
            cases hq2 : getAt st.qualityStore nb.soffset with
            | none => simp [hq2] at h
            | some nqv =>
              simp only [hq2, Option.some_bind, Option.some.injEq, Prod.mk.injEq] at h
              obtain ⟨rfl, rfl⟩ := h
              have hnb' : getAt (setAt st.beadStore b { x with prev := (st.beadStore.length : Int) })
                  x.prev = some nb := hnb
              have hnb2 := hnb'
              rw [getAt_setAt] at hnb2
              have hex : ∃ nb0, GetBead st x.prev = some nb0 := by
                by_cases hxb : x.prev = b
                · exact ⟨x, by rw [hxb]; exact hb⟩
                · simp only [hxb, false_and, if_false] at hnb2; exact ⟨nb, hnb2⟩
              refine ⟨x, _, rfl, rfl, Or.inr hex, rfl, rfl, rfl, rfl, rfl, rfl, rfl, ?_, ?_, ?_⟩
              · simp [length_setAt]
              · simp only [GetBead]
                rw [getAt_append_singleton, length_setAt, length_setAt]
                simp
              · intro j y hj
                simp only [GetBead, ne_eq, hn, not_false_eq_true, true_and]
                apply getAt_append_some
                rw [getAt_setAt]
                by_cases hjn : j = x.prev
                · subst hjn
                  simp only [hnb', Option.isSome_some, and_self, if_true, Option.some.injEq]
                  by_cases hjb : x.prev = b
                  · rw [hjb] at hj hnb2
                    have hb' : getAt st.beadStore b = some x := hb
                    rw [GetBead, hb'] at hj; cases hj
                    simp only [hb', Option.isSome_some, and_self, if_true, Option.some.injEq] at hnb2
                    subst hnb2
                    simp [hjb]
                  · simp only [hjb, false_and, if_false] at hnb2
                    rw [GetBead, hnb2] at hj; cases hj
                    simp [hjb]
                · simp only [hjn, false_and, if_false]
                  rw [getAt_setAt]
                  by_cases hjb : j = b
                  · subst hjb
                    have hb' : getAt st.beadStore j = some x := hb
                    rw [GetBead, hb'] at hj; cases hj
                    simp [hb']
                  · simpa [hjb] using hj

theorem PrependGapBead_sameCols {st st' : Store} {b g : Int}
    (h : PrependGapBead st b = some (st', g)) : SameCols st st' := by
  obtain ⟨_, _, _, _, _, _, _, hc, hm, _⟩ := PrependGapBead_spec h
  exact SameCols.of_eq hc hm

theorem AlignBead_sameCols {st st' : Store} {cid bid r : Int}
    (h : AlignBead st cid bid = some (st', r)) : SameCols st st' := by
  unfold AlignBead at h
  simp only [Option.bind_eq_bind, Option.bind_eq_some, Option.pure_def, Option.some.injEq,
    Prod.mk.injEq] at h
  obtain ⟨_, _, _, _, _, _, _, _, s1, h1, s2, h2, s3, h3, s4, h4, s5, h5, _, _, _, _, s6, h6,
    rfl, _⟩ := h
  exact (((((modBead_sameCols h1).then_ (modBead_sameCols h2)).then_
    (modBead_sameCols h3)).then_ (modBead_sameCols h4)).then_ (modBead_sameCols h5)).then_
    (incColumn_sameCols h6)

/-- The steps of a call of `UnAlignBead` that finds its bead in a column. -/
theorem UnAlignBead_steps {st st' : Store} {bid r : Int}
    (h : UnAlignBead st bid = some (st', r)) :
    ∃ bead, GetBead st bid = some bead ∧
      ((bead.column_index = -1 ∧ st' = st ∧ r = -1) ∨
       (bead.column_index ≠ -1 ∧ ∃ col upbead bchar s1 bead1 s2 s3 s4 s5,
          GetColumn st bead.column_index = some col ∧ GetBead st bead.up = some upbead ∧
          GetBase st bead.soffset = some bchar ∧
          modBead st bead.up (fun b => { b with down := bead.down }) = some s1 ∧
          GetBead s1 bid = some bead1 ∧
          patchBead s1 bead1.down (fun b => { b with up := upbead.boffset }) = some s2 ∧
          decColumn s2 bead.column_index bchar = some s3 ∧
          modBead s3 bid (fun b => { b with up := -1 }) = some s4 ∧
          modBead s4 bid (fun b => { b with down := -1 }) = some s5 ∧
          modBead s5 bid (fun b => { b with column_index := -1 }) = some st' ∧
          r = upbead.boffset)) := by
  unfold UnAlignBead at h
  cases hb : GetBead st bid with
  | none => simp [hb] at h
  | some bead =>
    simp only [hb, Option.bind_eq_bind, Option.some_bind] at h
    refine ⟨bead, rfl, ?_⟩
    by_cases hc : bead.column_index = -1
    · rw [if_pos hc] at h
      simp only [Option.pure_def, Option.some.injEq, Prod.mk.injEq] at h
      exact Or.inl ⟨hc, h.1.symm, h.2.symm⟩
    · rw [if_neg hc] at h
      simp only [Option.bind_eq_some, Option.pure_def, Option.some.injEq, Prod.mk.injEq] at h
      obtain ⟨col, h0, upbead, hu, bchar, hch, s1, h1, bead1, hb1, s2, h2, s3, h3, s4, h4, s5, h5,
        s6, h6, rfl, rfl⟩ := h
      exact Or.inr ⟨hc, col, upbead, bchar, s1, bead1, s2, s3, s4, s5, h0, hu, hch, h1, hb1, h2,
        h3, h4, h5, h6, rfl⟩

theorem UnAlignBead_sameCols {st st' : Store} {bid r : Int}
    (h : UnAlignBead st bid = some (st', r)) : SameCols st st' := by
  obtain ⟨bead, _, h⟩ := UnAlignBead_steps h
  rcases h with ⟨_, rfl, _⟩ | ⟨_, col, upbead, bchar, s1, bead1, s2, s3, s4, s5, _, _, _, h1, _, h2,
    h3, h4, h5, h6, _⟩
  · exact SameCols.rfl_ _
  · exact (((((modBead_sameCols h1).then_ (patchBead_sameCols h2)).then_
      (decColumn_sameCols h3)).then_ (modBead_sameCols h4)).then_ (modBead_sameCols h5)).then_
      (modBead_sameCols h6)

theorem appendFill_sameCols (lid bid : Int) :
    ∀ (fuel : Nat) (st : Store) (cur : Int) (st' : Store),
      appendFill lid bid fuel st cur = some st' → SameCols st st' := by
  intro fuel
  induction fuel with
  | zero => intro st cur st' h; simp [appendFill] at h
  | succ n ih =>
    intro st cur st' h
    unfold appendFill at h
    split_ifs at h with hc
    · simp at h
      exact h ▸ SameCols.rfl_ _
    · cases hb : GetBead st cur with
      | none => simp [hb] at h
      | some cb =>
        simp only [hb] at h
        split_ifs at h with hn
        · simp at h
          exact h ▸ SameCols.rfl_ _
        · cases hb2 : GetBead st cb.down with
          | none => simp [hb2] at h
          | some bead =>
            simp only [hb2] at h
            split_ifs at h with hx
            · cases ha : AppendGapBead st cb.down with
              | none => simp [ha] at h
              | some r =>
                obtain ⟨st1, g⟩ := r
                simp only [ha] at h
                cases hal : AlignBead st1 lid g with
                | none => simp [hal] at h
                | some r2 =>
                  obtain ⟨st2, x⟩ := r2
                  simp only [hal] at h
                  exact ((AppendGapBead_sameCols ha).then_ (AlignBead_sameCols hal)).then_
                    (ih _ _ _ h)
            · exact ih _ _ _ h

theorem prependFill_sameCols (lid bid : Int) :
    ∀ (fuel : Nat) (st : Store) (cur : Int) (st' : Store),
      prependFill lid bid fuel st cur = some st' → SameCols st st' := by
  intro fuel
  induction fuel with
  | zero => intro st cur st' h; simp [prependFill] at h
  | succ n ih =>
    intro st cur st' h
    unfold prependFill at h
    split_ifs at h with hc
    · simp at h
      exact h ▸ SameCols.rfl_ _
    · cases hb : GetBead st cur with
      | none => simp [hb] at h
      | some cb =>
        simp only [hb] at h
        split_ifs at h with hn
        · simp at h
          exact h ▸ SameCols.rfl_ _
        · cases hb2 : GetBead st cb.down with
          | none => simp [hb2] at h
          | some bead =>
            simp only [hb2] at h
            split_ifs at h with hx
            · cases ha : PrependGapBead st cb.down with
              | none => simp [ha] at h
              | some r =>
                obtain ⟨st1, g⟩ := r
                simp only [ha] at h
                cases hal : AlignBead st1 lid g with
                | none => simp [hal] at h
                | some r2 =>
                  obtain ⟨st2, x⟩ := r2
                  simp only [hal] at h
                  exact ((PrependGapBead_sameCols ha).then_ (AlignBead_sameCols hal)).then_
                    (ih _ _ _ h)
            · exact ih _ _ _ h

theorem removeBeads_sameCols (callId : Int) :
    ∀ (fuel : Nat) (st st' : Store), removeBeads callId fuel st = some st' → SameCols st st' := by
  intro fuel
  induction fuel with
  | zero => intro st st' h; simp [removeBeads] at h
  | succ n ih =>
    intro st st' h
    unfold removeBeads at h
    cases hb : GetBead st callId with
    | none => simp [hb] at h
    | some call =>
      simp only [hb] at h
      split_ifs at h with hd
      · cases hb2 : GetBead st call.down with
        | none => simp [hb2] at h
        | some bead =>
          simp only [hb2] at h
          cases h1 : patchBead st bead.prev fun b => { b with next := bead.next } with
          | none => simp [h1] at h
          | some st1 =>
            simp only [h1] at h
            cases hb3 : GetBead st1 call.down with
            | none => simp [hb3] at h
            | some bead1 =>
              simp only [hb3] at h
              cases h2 : patchBead st1 bead1.next fun b => { b with prev := bead1.prev } with
              | none => simp [h2] at h
              | some st2 =>
                simp only [h2] at h
                cases h3 : UnAlignBead st2 bead.boffset with
                | none => simp [h3] at h
                | some r =>
                  obtain ⟨st3, x⟩ := r
                  simp only [h3] at h
                  exact (((patchBead_sameCols h1).then_ (patchBead_sameCols h2)).then_
                    (UnAlignBead_sameCols h3)).then_ (ih _ _ h)
      · simp at h
        exact h ▸ SameCols.rfl_ _

theorem LinksAt_some {st : Store} {j : Int} {c : Column} (h : LinksAt st j = some c) :
    ∃ col, GetColumn st j = some col ∧ col.links = c := by
  unfold LinksAt at h
  cases hc : GetColumn st j with
  | none => simp [hc] at h
  | some col =>
    simp [hc] at h
    exact ⟨col, rfl, h⟩

theorem LinksAt_of_get {st : Store} {j : Int} {col : Column} (h : GetColumn st j = some col) :
    LinksAt st j = some col.links := by
  simp [LinksAt, h]

/-- Reading the linking fields after a write of a linking field. -/
theorem modColumn_links {st st' : Store} {i : Int} {f : Column → Column}
    (hf : ∀ c, (f c).links = f c.links) (h : modColumn st i f = some st') :
    (∀ j, LinksAt st' j = if j = i then (LinksAt st i).map f else LinksAt st j) ∧
      st'.manodeStore = st.manodeStore := by
  obtain ⟨hget, _, hm, _⟩ := modColumn_get h
  refine ⟨fun j => ?_, hm⟩
  unfold LinksAt
  rw [hget j]
  by_cases hj : j = i
  · simp only [hj, if_true, Option.map_map]
    congr 1
    funext c
    exact hf c
  · simp [hj]

theorem patchColumn_links {st st' : Store} {x : Int} {f : Column → Column}
    (hf : ∀ c, (f c).links = f c.links) (h : patchColumn st x f = some st') :
    (∀ j, LinksAt st' j = if x ≠ -1 ∧ j = x then (LinksAt st x).map f else LinksAt st j) ∧
      st'.manodeStore = st.manodeStore := by
  unfold patchColumn at h
  by_cases hx : x ≠ -1
  · rw [if_pos hx] at h
    obtain ⟨h1, h2⟩ := modColumn_links hf h
    refine ⟨fun j => ?_, h2⟩
    rw [h1 j]
    simp [hx]
  · rw [if_neg hx] at h
    simp at h
    subst h
    exact ⟨fun j => by simp [hx], rfl⟩

theorem linkColumn_links {st st' : Store} {x : Int} {f : Column → Column}
    (hf : ∀ c, (f c).links = f c.links) (h : linkColumn st x f = some st') :
    (∀ j, LinksAt st' j = if x > -1 ∧ j = x then (LinksAt st x).map f else LinksAt st j) ∧
      st'.manodeStore = st.manodeStore := by
  unfold linkColumn at h
  by_cases hx : x > -1
  · rw [if_pos hx] at h
    obtain ⟨h1, h2⟩ := modColumn_links hf h
    refine ⟨fun j => ?_, h2⟩
    rw [h1 j]
    simp [hx]
  · rw [if_neg hx] at h
    simp at h
    subst h
    exact ⟨fun j => by simp [hx], rfl⟩

/-- The column `CreateColumn` adds: it is stored at the end of the column
store, linked to nothing, and the older columns are as they were. -/
theorem CreateColumn_links {st st' : Store} {bid lid : Int}
    (h : CreateColumn st bid = some (st', lid)) :
    lid = st.columnStore.length ∧ st'.manodeStore = st.manodeStore ∧
      LinksAt st lid = none ∧
      (∀ j, j ≠ lid → LinksAt st' j = LinksAt st j) ∧
      ∃ col, LinksAt st' lid = some col ∧ col.lid = lid ∧ col.prev = -1 ∧ col.next = -1 := by
  unfold CreateColumn at h
  simp only [Option.bind_eq_bind, Option.bind_eq_some, Option.pure_def, Option.some.injEq,
    Prod.mk.injEq] at h
  obtain ⟨s1, h1, s2, h2, _, _, _, _, bc, _, rfl, rfl⟩ := h
  have hc : s2.columnStore = st.columnStore := by
    rw [modBead_columnStore h2, modBead_columnStore h1]
  have hm : s2.manodeStore = st.manodeStore := by
    rw [(modBead_get h2).2.2.2.2.1, (modBead_get h1).2.2.2.2.1]
  refine ⟨rfl, hm, ?_, fun j hj => ?_, ?_⟩
  · unfold LinksAt GetColumn
    rw [(getAt_eq_none_iff _ _).mpr (by omega)]
    rfl
  · unfold LinksAt GetColumn
    simp only [hc]
    rw [getAt_append_singleton]
    simp [hj]
  · have hl : ∀ (cl : List Column) (c : Column) (s : Store), s.columnStore = cl →
        LinksAt { s with columnStore := s.columnStore ++ [c] } (cl.length : Int) =
          some c.links := by
      intro cl c s hs
      unfold LinksAt GetColumn
      simp only [hs]
      rw [getAt_append_singleton]
      simp
    exact ⟨_, hl _ _ _ hc, rfl, rfl, rfl⟩

/-- The linking fields after `appendLink`: the new column sits between `cid`
and the former successor of `cid`. -/
theorem appendLink_links {st st' : Store} {cid lid : Int}
    (h : appendLink st cid lid = some st') (hne : cid ≠ lid) :
    ∃ P N, LinksAt st cid = some P ∧ LinksAt st lid = some N ∧
      st'.manodeStore = st.manodeStore ∧
      (P.next ≠ lid → P.next ≠ cid → N.lid = lid →
        ∀ j, LinksAt st' j =
          if j = lid then some { N with next := P.next, prev := cid }
          else if j = cid then some { P with next := lid }
          else if P.next ≠ -1 ∧ j = P.next then
            (LinksAt st j).map (fun c => { c with prev := lid })
          else LinksAt st j) := by
  unfold appendLink appendLinkNew appendLinkOld at h
  simp only [Option.bind_eq_bind, Option.bind_eq_some, Option.pure_def, Option.some.injEq,
    Prod.mk.injEq] at h
  obtain ⟨P0, hP0, s4, ⟨N0, hN0, P1, hP1, _, _, s1, h1, s2, h2, s3, h3, h4⟩, c4, hc4, _, _, s5, h5,
    s6, h6, c6, hc6, s7, h7, _, _, h8⟩ := h
  rw [hP0] at hP1
  cases hP1
  obtain ⟨e1, m1⟩ := modColumn_links (f := fun c => { c with next := P0.next }) (fun _ => rfl) h1
  obtain ⟨e2, m2⟩ := modColumn_links (f := fun c => { c with prev := cid }) (fun _ => rfl) h2
  have e3 := (modBead_sameCols h3)
  have e4 := (modBead_sameCols h4)
  obtain ⟨e5, m5⟩ := modColumn_links (f := fun c => { c with next := c4.lid }) (fun _ => rfl) h5
  have e6 := (modBead_sameCols h6)
  obtain ⟨e7, m7⟩ := patchColumn_links (f := fun c => { c with prev := c6.lid }) (fun _ => rfl) h7
  have e8 := (patchBead_sameCols h8)
  have hP := LinksAt_of_get hP0
  have hN := LinksAt_of_get hN0
  refine ⟨P0.links, N0.links, hP, hN, ?_, ?_⟩
  · rw [e8.2, m7, e6.2, m5, e4.2, e3.2, m2, m1]
  · intro a1 a2 a3
    have a1' : P0.next ≠ lid := a1
    have a2' : P0.next ≠ cid := a2
    have a3' : N0.lid = lid := a3
    have l4 : LinksAt s4 lid = some { N0.links with next := P0.next, prev := cid } := by
      rw [e4.1, e3.1, e2 lid, e1 lid, hN]
      simp
    have hc4l : c4.lid = lid := by
      have := LinksAt_of_get hc4
      rw [l4] at this
      have h2 := congrArg (Option.map Column.lid) this
      simp at h2
      rw [show c4.links.lid = c4.lid from rfl, show N0.links.lid = N0.lid from rfl] at h2
      rw [← h2, a3']
    have l6 : LinksAt s6 lid = some { N0.links with next := P0.next, prev := cid } := by
      rw [e6.1, e5 lid, if_neg (Ne.symm hne), l4]
    have hc6l : c6.lid = lid ∧ c6.next = P0.next := by
      have := LinksAt_of_get hc6
      rw [l6] at this
      have h2 := congrArg (Option.map Column.lid) this
      have h3 := congrArg (Option.map Column.next) this
      simp at h2 h3
      rw [show c6.links.lid = c6.lid from rfl, show N0.links.lid = N0.lid from rfl] at h2
      rw [show c6.links.next = c6.next from rfl] at h3
      exact ⟨by rw [← h2, a3'], h3.symm⟩
    intro j
    rw [show P0.links.next = P0.next from rfl, e8.1, e7 j, hc6l.1, hc6l.2]
    by_cases hjl : j = lid
    · subst hjl
      rw [if_neg (fun hh => a1' hh.2.symm), if_pos rfl, l6]
    · rw [if_neg hjl]
      by_cases hjc : j = cid
      · subst hjc
        rw [if_neg (fun hh => a2' hh.2.symm), if_pos rfl, e6.1, e5 j, if_pos rfl, e4.1, e3.1,
          e2 j, if_neg hne, e1 j, if_neg hne, hP, hc4l]
        rfl
      · rw [if_neg hjc]
        by_cases hjp : P0.next ≠ -1 ∧ j = P0.next
        · obtain ⟨hp1, rfl⟩ := hjp
          rw [if_pos ⟨hp1, rfl⟩, e6.1, e5, if_neg a2', e4.1, e3.1, e2,
            if_neg a1', e1, if_neg a1', if_pos ⟨hp1, rfl⟩]
        · rw [if_neg hjp, e6.1, e5 j, if_neg hjc, e4.1, e3.1, e2 j, if_neg hjl,
            e1 j, if_neg hjl, if_neg hjp]

/-- The linking fields after `prependLink`: the new column sits between the
former predecessor of `cid` and `cid`. -/
theorem prependLink_links {st st' : Store} {cid lid : Int}
    (h : prependLink st cid lid = some st') (hne : cid ≠ lid) :
    ∃ P N, LinksAt st cid = some P ∧ LinksAt st lid = some N ∧
      st'.manodeStore = st.manodeStore ∧
      (P.prev ≠ lid → P.prev ≠ cid → N.lid = lid →
        ∀ j, LinksAt st' j =
          if j = lid then some { N with prev := P.prev, next := cid }
          else if j = cid then some { P with prev := lid }
          else if P.prev ≠ -1 ∧ j = P.prev then
            (LinksAt st j).map (fun c => { c with next := lid })
          else LinksAt st j) := by
  unfold prependLink prependLinkNew prependLinkOld at h
  simp only [Option.bind_eq_bind, Option.bind_eq_some, Option.pure_def, Option.some.injEq,
    Prod.mk.injEq] at h
  obtain ⟨P0, hP0, s4, ⟨N0, hN0, P1, hP1, _, _, s1, h1, s2, h2, s3, h3, h4⟩, c4, hc4, _, _, s5, h5,
    s6, h6, c6, hc6, s7, h7, _, _, h8⟩ := h
  rw [hP0] at hP1
  cases hP1
  obtain ⟨e1, m1⟩ := modColumn_links (f := fun c => { c with prev := P0.prev }) (fun _ => rfl) h1
  obtain ⟨e2, m2⟩ := modColumn_links (f := fun c => { c with next := cid }) (fun _ => rfl) h2
  have e3 := (modBead_sameCols h3)
  have e4 := (modBead_sameCols h4)
  obtain ⟨e5, m5⟩ := modColumn_links (f := fun c => { c with prev := c4.lid }) (fun _ => rfl) h5
  have e6 := (modBead_sameCols h6)
  obtain ⟨e7, m7⟩ := patchColumn_links (f := fun c => { c with next := c6.lid }) (fun _ => rfl) h7
  have e8 := (patchBead_sameCols h8)
  have hP := LinksAt_of_get hP0
  have hN := LinksAt_of_get hN0
  refine ⟨P0.links, N0.links, hP, hN, ?_, ?_⟩
  · rw [e8.2, m7, e6.2, m5, e4.2, e3.2, m2, m1]
  · intro a1 a2 a3
    have a1' : P0.prev ≠ lid := a1
    have a2' : P0.prev ≠ cid := a2
    have a3' : N0.lid = lid := a3
    have l4 : LinksAt s4 lid = some { N0.links with prev := P0.prev, next := cid } := by
      rw [e4.1, e3.1, e2 lid, e1 lid, hN]
      simp
    have hc4l : c4.lid = lid := by
      have := LinksAt_of_get hc4
      rw [l4] at this
      have h2 := congrArg (Option.map Column.lid) this
      simp at h2
      rw [show c4.links.lid = c4.lid from rfl, show N0.links.lid = N0.lid from rfl] at h2
      rw [← h2, a3']
    have l6 : LinksAt s6 lid = some { N0.links with prev := P0.prev, next := cid } := by
      rw [e6.1, e5 lid, if_neg (Ne.symm hne), l4]
    have hc6l : c6.lid = lid ∧ c6.prev = P0.prev := by
      have := LinksAt_of_get hc6
      rw [l6] at this
      have h2 := congrArg (Option.map Column.lid) this
      have h3 := congrArg (Option.map Column.prev) this
      simp at h2 h3
      rw [show c6.links.lid = c6.lid from rfl, show N0.links.lid = N0.lid from rfl] at h2
      rw [show c6.links.prev = c6.prev from rfl] at h3
      exact ⟨by rw [← h2, a3'], h3.symm⟩
    intro j
    rw [show P0.links.prev = P0.prev from rfl, e8.1, e7 j, hc6l.1, hc6l.2]
    by_cases hjl : j = lid
    · subst hjl
      rw [if_neg (fun hh => a1' hh.2.symm), if_pos rfl, l6]
    · rw [if_neg hjl]
      by_cases hjc : j = cid
      · subst hjc
        rw [if_neg (fun hh => a2' hh.2.symm), if_pos rfl, e6.1, e5 j, if_pos rfl, e4.1, e3.1,
          e2 j, if_neg hne, e1 j, if_neg hne, hP, hc4l]
        rfl
      · rw [if_neg hjc]
        by_cases hjp : P0.prev ≠ -1 ∧ j = P0.prev
        · obtain ⟨hp1, rfl⟩ := hjp
          rw [if_pos ⟨hp1, rfl⟩, e6.1, e5, if_neg a2', e4.1, e3.1, e2,
            if_neg a1', e1, if_neg a1', if_pos ⟨hp1, rfl⟩]
        · rw [if_neg hjp, e6.1, e5 j, if_neg hjc, e4.1, e3.1, e2 j, if_neg hjl,
            e1 j, if_neg hjl, if_neg hjp]

theorem modMANode_get {st st' : Store} {i : Int} {f : MANode → MANode}
    (h : modMANode st i f = some st') :
    (∀ k, GetMANode st' k = if k = i then (GetMANode st i).map f else GetMANode st k) ∧
      st'.columnStore = st.columnStore := by
  obtain ⟨m, hm, rfl⟩ := modMANode_spec h
  refine ⟨fun k => ?_, rfl⟩
  simp only [GetMANode] at hm ⊢
  rw [getAt_setAt, hm]
  by_cases hk : k = i
  · simp [hk]
  · simp [hk]

/-- What `AddColumnToMANode` records: the column becomes the tail when it has
no successor and the head when it has no predecessor. -/
theorem AddColumnToMANode_ends {st st' : Store} {ma : Int} {column : Column}
    (h : AddColumnToMANode st ma column = some st') :
    st'.columnStore = st.columnStore ∧
      ∃ e, EndsAt st ma = some e ∧
        ∀ k, EndsAt st' k =
          if k = ma then
            some (if column.prev = -1 then column.lid else e.1,
                  if column.next = -1 then column.lid else e.2)
          else EndsAt st k := by
  unfold AddColumnToMANode at h
  simp only [Option.bind_eq_bind, Option.bind_eq_some] at h
  obtain ⟨s1, h1, s2, h2, h3⟩ := h
  obtain ⟨g1, c1⟩ := modMANode_get h1
  obtain ⟨m, hm, _⟩ := modMANode_spec h1
  have g2 : (∀ k, GetMANode s2 k = if k = ma ∧ column.next = -1 then
      (GetMANode s1 ma).map (fun m => { m with last := column.lid }) else GetMANode s1 k) ∧
      s2.columnStore = s1.columnStore := by
    unfold modMANodeIf at h2
    by_cases hc : column.next = -1
    · simp only [hc, decide_True, if_true] at h2
      obtain ⟨g, c⟩ := modMANode_get h2
      exact ⟨fun k => by rw [g k]; simp [hc], c⟩
    · simp only [hc, decide_False, Bool.false_eq_true, if_false, Option.some.injEq] at h2
      subst h2
      exact ⟨fun k => by simp [hc], rfl⟩
  have g3 : (∀ k, GetMANode st' k = if k = ma ∧ column.prev = -1 then
      (GetMANode s2 ma).map (fun m => { m with first := column.lid }) else GetMANode s2 k) ∧
      st'.columnStore = s2.columnStore := by
    unfold modMANodeIf at h3
    by_cases hc : column.prev = -1
    · simp only [hc, decide_True, if_true] at h3
      obtain ⟨g, c⟩ := modMANode_get h3
      exact ⟨fun k => by rw [g k]; simp [hc], c⟩
    · simp only [hc, decide_False, Bool.false_eq_true, if_false, Option.some.injEq] at h3
      subst h3
      exact ⟨fun k => by simp [hc], rfl⟩
  refine ⟨by rw [g3.2, g2.2, c1], (m.first, m.last), by simp [EndsAt, hm], fun k => ?_⟩
  unfold EndsAt
  rw [g3.1 k]
  by_cases hk : k = ma
  · subst hk
    by_cases hp : column.prev = -1 <;> by_cases hn : column.next = -1 <;>
      simp [hp, hn, g2.1 k, g1 k, hm]
  · simp [hk, g2.1 k, g1 k]

theorem LinksAt_range {st : Store} {j : Int} {c : Column} (h : LinksAt st j = some c) :
    0 ≤ j ∧ j < st.columnStore.length := by
  obtain ⟨col, hc, _⟩ := LinksAt_some h
  have := (getAt_isSome_iff st.columnStore j).mp (by unfold GetColumn at hc; rw [hc]; rfl)
  exact this

theorem SameCols.ends {st st' : Store} (h : SameCols st st') (k : Int) :
    EndsAt st' k = EndsAt st k := by
  unfold EndsAt GetMANode
  rw [h.2]

theorem ends_of_columns {st st' : Store} (h : st'.manodeStore = st.manodeStore) (k : Int) :
    EndsAt st' k = EndsAt st k := by
  unfold EndsAt GetMANode
  rw [h]

theorem links_of_columns {st st' : Store} (h : st'.columnStore = st.columnStore) (j : Int) :
    LinksAt st' j = LinksAt st j := by
  unfold LinksAt GetColumn
  rw [h]

/-- The tail of `ColumnAppend` and `ColumnPrepend` on the linking fields:
the new column joins the MANode of its neighbour, which records it as head
or tail when it has no predecessor or successor. -/
theorem columnRegister_links {st st' : Store} {cid lid d : Int}
    (h : columnRegister st cid lid d = some st') (hne : cid ≠ lid) :
    ∃ X N e, LinksAt st cid = some X ∧ LinksAt st lid = some N ∧
      EndsAt st X.ma_id = some e ∧
      (∀ j, j ≠ lid → LinksAt st' j = LinksAt st j) ∧
      (∃ N', LinksAt st' lid = some N' ∧ N'.lid = N.lid ∧ N'.prev = N.prev ∧
        N'.next = N.next ∧ N'.ma_id = X.ma_id) ∧
      ∀ k, EndsAt st' k =
        if k = X.ma_id then
          some (if N.prev = -1 then N.lid else e.1, if N.next = -1 then N.lid else e.2)
        else EndsAt st k := by
  unfold columnRegister at h
  simp only [Option.bind_eq_bind, Option.bind_eq_some] at h
  obtain ⟨X0, hX0, s1, h1, X1, hX1, s2, h2, c2, hc2, h3⟩ := h
  obtain ⟨e1, m1⟩ := modColumn_links (f := fun c => { c with ma_id := X0.ma_id }) (fun _ => rfl) h1
  obtain ⟨e2, m2⟩ := modColumn_links (f := fun c => { c with ma_index := X1.ma_index + d })
    (fun _ => rfl) h2
  obtain ⟨c3, e, he, e3⟩ := AddColumnToMANode_ends h3
  obtain ⟨N0, hN0, _⟩ := modColumn_spec h1
  have hX := LinksAt_of_get hX0
  have hN := LinksAt_of_get hN0
  have l2 : LinksAt s2 lid =
      some { N0.links with ma_id := X0.ma_id, ma_index := X1.ma_index + d } := by
    rw [e2 lid, if_pos rfl, e1 lid, if_pos rfl, hN]
    rfl
  have hc2l := LinksAt_of_get hc2
  rw [l2] at hc2l
  have q2 : c2.prev = N0.prev := (congrArg Column.prev (Option.some.inj hc2l)).symm
  have q3 : c2.next = N0.next := (congrArg Column.next (Option.some.inj hc2l)).symm
  have q4 : c2.ma_id = X0.ma_id := (congrArg Column.ma_id (Option.some.inj hc2l)).symm
  have q1' : c2.lid = N0.lid := (congrArg Column.lid (Option.some.inj hc2l)).symm
  refine ⟨X0.links, N0.links, e, hX, hN, ?_, ?_, ?_, ?_⟩
  · rw [show X0.links.ma_id = X0.ma_id from rfl, ← q4]
    rw [← ends_of_columns (m2.trans m1)]
    exact he
  · intro j hj
    rw [links_of_columns c3, e2 j, if_neg hj, e1 j, if_neg hj]
  · exact ⟨{ N0.links with ma_id := X0.ma_id, ma_index := X1.ma_index + d },
      by rw [links_of_columns c3]; exact l2, rfl, rfl, rfl, rfl⟩
  · intro k
    rw [e3 k, q4, q2, q3, q1', ends_of_columns (m2.trans m1)]
    rfl

/-- The linking fields after `ColumnAppend(cid, bid)`, `cid` being a column
that exists and is not its own successor. -/
theorem ColumnAppend_links {st st' : Store} {cid bid lid : Int} {P : Column}
    (h : ColumnAppend st cid bid = some (st', lid)) (hP : LinksAt st cid = some P)
    (hn1 : P.next ≠ cid) (hn2 : P.next ≠ st.columnStore.length) :
    lid = st.columnStore.length ∧ LinksAt st lid = none ∧
      (∃ N, LinksAt st' lid = some N ∧ N.lid = lid ∧ N.prev = cid ∧ N.next = P.next ∧
        N.ma_id = P.ma_id) ∧
      LinksAt st' cid = some { P with next := lid } ∧
      (∀ j, j ≠ lid → j ≠ cid → LinksAt st' j =
        if P.next ≠ -1 ∧ j = P.next then (LinksAt st j).map (fun c => { c with prev := lid })
        else LinksAt st j) ∧
      ∃ e, EndsAt st P.ma_id = some e ∧
        ∀ k, EndsAt st' k =
          if k = P.ma_id then some (e.1, if P.next = -1 then lid else e.2) else EndsAt st k := by
  unfold ColumnAppend at h
  simp only [Option.bind_eq_bind, Option.bind_eq_some, Option.pure_def, Option.some.injEq,
    Prod.mk.injEq] at h
  obtain ⟨_, _, ⟨s1, l1⟩, h1, s2, h2, pc, _, s3, h3, s4, h4, rfl, rfl⟩ := h
  obtain ⟨hl, m1, hnone, f1, N1, hN1, n1, n2, n3⟩ := CreateColumn_links h1
  have hcl : cid ≠ l1 := by
    intro he
    rw [he, hnone] at hP
    cases hP
  have hr := LinksAt_range hP
  obtain ⟨P1, N1', hP1, hN1', m2, f2⟩ := appendLink_links h2 hcl
  rw [f1 cid hcl, hP] at hP1
  cases hP1
  rw [hN1] at hN1'
  cases hN1'
  have f2' := f2 (by rw [hl]; exact hn2) hn1 n1
  have e3 := appendFill_sameCols _ _ _ _ _ _ h3
  have l3c : LinksAt s3 cid = some { P with next := l1 } := by
    rw [e3.1, f2' cid, if_neg hcl, if_pos rfl]
  have l3l : LinksAt s3 l1 = some { N1 with next := P.next, prev := cid } := by
    rw [e3.1, f2' l1, if_pos rfl]
  obtain ⟨X, N, e, hX, hN, he, g1, ⟨N', hN', k1, k2, k3, k4⟩, g3⟩ := columnRegister_links h4 hcl
  rw [l3c] at hX
  cases hX
  rw [l3l] at hN
  cases hN
  have hends : EndsAt s3 P.ma_id = EndsAt st P.ma_id := by
    rw [e3.ends, ends_of_columns (m2.trans m1)]
  refine ⟨hl, hnone, ⟨N', hN', by rw [k1]; exact n1, k2, k3, k4⟩, ?_, ?_, e, ?_, ?_⟩
  · rw [g1 cid hcl, l3c]
  · intro j hj1 hj2
    rw [g1 j hj1, e3.1, f2' j, if_neg hj1, if_neg hj2, f1 j hj1]
  · rw [← hends]
    exact he
  · intro k
    rw [g3 k]
    have hc : ¬ cid = -1 := by omega
    by_cases hk : k = P.ma_id
    · rw [if_pos hk, if_pos hk]
      simp only [hc, if_false]
      rw [n1]
    · rw [if_neg hk, if_neg hk, e3.ends, ends_of_columns (m2.trans m1)]

theorem modMANodeIf_first {c : Bool} {st st' : Store} {i v : Int}
    (h : modMANodeIf c st i (fun m => { m with first := v }) = some st') :
    st'.columnStore = st.columnStore ∧
      ∀ k, EndsAt st' k =
        if c = true ∧ k = i then (EndsAt st i).map (fun e => (v, e.2)) else EndsAt st k := by
  unfold modMANodeIf at h
  by_cases hc : c = true
  · rw [if_pos hc] at h
    obtain ⟨g, cc⟩ := modMANode_get h
    refine ⟨cc, fun k => ?_⟩
    unfold EndsAt
    rw [g k]
    by_cases hk : k = i
    · simp only [hk, hc, and_self, if_true, Option.map_map]
      rfl
    · simp [hk]
  · rw [if_neg hc] at h
    simp at h
    subst h
    exact ⟨rfl, fun k => by simp [hc]⟩

/-- The linking fields after `ColumnPrepend(cid, bid)`, `cid` being a column
that exists and is not its own predecessor. -/
theorem ColumnPrepend_links {st st' : Store} {cid bid lid : Int} {P : Column}
    (h : ColumnPrepend st cid bid = some (st', lid)) (hP : LinksAt st cid = some P)
    (hn1 : P.prev ≠ cid) (hn2 : P.prev ≠ st.columnStore.length) :
    lid = st.columnStore.length ∧ LinksAt st lid = none ∧
      (∃ N, LinksAt st' lid = some N ∧ N.lid = lid ∧ N.next = cid ∧ N.prev = P.prev ∧
        N.ma_id = P.ma_id) ∧
      LinksAt st' cid = some { P with prev := lid } ∧
      (∀ j, j ≠ lid → j ≠ cid → LinksAt st' j =
        if P.prev ≠ -1 ∧ j = P.prev then (LinksAt st j).map (fun c => { c with next := lid })
        else LinksAt st j) ∧
      ∃ e, EndsAt st P.ma_id = some e ∧
        ∀ k, EndsAt st' k =
          if k = P.ma_id then some (if P.prev = -1 then lid else e.1, e.2) else EndsAt st k := by
  unfold ColumnPrepend at h
  simp only [Option.bind_eq_bind, Option.bind_eq_some, Option.pure_def, Option.some.injEq,
    Prod.mk.injEq] at h
  obtain ⟨_, _, ⟨s1, l1⟩, h1, s2, h2, pc, _, s3, h3, s4, h4, c5, hc5, s5, h5, rfl, rfl⟩ := h
  obtain ⟨hl, m1, hnone, f1, N1, hN1, n1, n2, n3⟩ := CreateColumn_links h1
  have hcl : cid ≠ l1 := by
    intro he
    rw [he, hnone] at hP
    cases hP
  have hr := LinksAt_range hP
  obtain ⟨P1, N1', hP1, hN1', m2, f2⟩ := prependLink_links h2 hcl
  rw [f1 cid hcl, hP] at hP1
  cases hP1
  rw [hN1] at hN1'
  cases hN1'
  have f2' := f2 (by rw [hl]; exact hn2) hn1 n1
  have e3 := prependFill_sameCols _ _ _ _ _ _ h3
  have l3c : LinksAt s3 cid = some { P with prev := l1 } := by
    rw [e3.1, f2' cid, if_neg hcl, if_pos rfl]
  have l3l : LinksAt s3 l1 = some { N1 with prev := P.prev, next := cid } := by
    rw [e3.1, f2' l1, if_pos rfl]
  obtain ⟨X, N, e, hX, hN, he, g1, ⟨N', hN', k1, k2, k3, k4⟩, g3⟩ := columnRegister_links h4 hcl
  rw [l3c] at hX
  cases hX
  rw [l3l] at hN
  cases hN
  have hends : EndsAt s3 P.ma_id = EndsAt st P.ma_id := by
    rw [e3.ends, ends_of_columns (m2.trans m1)]
  obtain ⟨c5c, g5⟩ := modMANodeIf_first h5
  have hc5l := LinksAt_of_get hc5
  rw [hN'] at hc5l
  have q1 : c5.lid = l1 := by
    rw [← n1, ← k1]
    exact (congrArg Column.lid (Option.some.inj hc5l)).symm
  have q2 : c5.prev = P.prev := by
    rw [← k2]
    exact (congrArg Column.prev (Option.some.inj hc5l)).symm
  have q4 : c5.ma_id = P.ma_id := by
    rw [← k4]
    exact (congrArg Column.ma_id (Option.some.inj hc5l)).symm
  refine ⟨hl, hnone, ⟨N', by rw [links_of_columns c5c]; exact hN', by rw [k1]; exact n1, k3, k2,
    k4⟩, ?_, ?_, e, ?_, ?_⟩
  · rw [links_of_columns c5c, g1 cid hcl, l3c]
  · intro j hj1 hj2
    rw [links_of_columns c5c, g1 j hj1, e3.1, f2' j, if_neg hj1, if_neg hj2, f1 j hj1]
  · rw [← hends]
    exact he
  · intro k
    rw [g5 k, q1, q2, q4, g3 P.ma_id, g3 k]
    have hc : ¬ cid = -1 := by omega
    by_cases hk : k = P.ma_id
    · subst hk
      by_cases hp : P.prev = -1
      · simp [hp, hc, n1]
      · simp [hp, hc]
    · simp only [hk, and_false, if_false]
      rw [e3.ends, ends_of_columns (m2.trans m1)]

/-- The linking fields after `FirstColumn(mid, bid)`. -/
theorem FirstColumn_links {st st' : Store} {mid bid lid : Int}
    (h : FirstColumn st mid bid = some (st', lid)) :
    lid = st.columnStore.length ∧ LinksAt st lid = none ∧
      (∀ j, j ≠ lid → LinksAt st' j = LinksAt st j) ∧
      (∃ N, LinksAt st' lid = some N ∧ N.lid = lid ∧ N.prev = -1 ∧ N.next = -1 ∧
        N.ma_id = mid) ∧
      (∃ e, EndsAt st mid = some e) ∧
      ∀ k, EndsAt st' k = if k = mid then some (lid, lid) else EndsAt st k := by
  unfold FirstColumn at h
  simp only [Option.bind_eq_bind, Option.bind_eq_some, Option.pure_def, Option.some.injEq,
    Prod.mk.injEq] at h
  obtain ⟨_, _, ⟨s1, l1⟩, h1, s2, h2, s3, h3, c3, hc3, s4, h4, rfl, rfl⟩ := h
  obtain ⟨hl, m1, hnone, f1, N1, hN1, n1, n2, n3⟩ := CreateColumn_links h1
  obtain ⟨e2, m2⟩ := modColumn_links (f := fun c => { c with ma_id := mid }) (fun _ => rfl) h2
  obtain ⟨e3, m3⟩ := modColumn_links (f := fun c => { c with ma_index := 0 }) (fun _ => rfl) h3
  obtain ⟨c4, e, he, e4⟩ := AddColumnToMANode_ends h4
  have l3 : LinksAt s3 l1 = some { N1 with ma_id := mid, ma_index := 0 } := by
    rw [e3 l1, if_pos rfl, e2 l1, if_pos rfl, hN1]
    rfl
  have hc3l := LinksAt_of_get hc3
  rw [l3] at hc3l
  have q1 : c3.lid = l1 := by
    rw [← n1]
    exact (congrArg Column.lid (Option.some.inj hc3l)).symm
  have q2 : c3.prev = -1 := by
    rw [← n2]
    exact (congrArg Column.prev (Option.some.inj hc3l)).symm
  have q3 : c3.next = -1 := by
    rw [← n3]
    exact (congrArg Column.next (Option.some.inj hc3l)).symm
  refine ⟨hl, hnone, fun j hj => ?_, ⟨{ N1 with ma_id := mid, ma_index := 0 },
    by rw [links_of_columns c4]; exact l3, n1, n2, n3, rfl⟩, ⟨e, ?_⟩, fun k => ?_⟩
  · rw [links_of_columns c4, e3 j, if_neg hj, e2 j, if_neg hj, f1 j hj]
  · rw [← ends_of_columns ((m3.trans m2).trans m1)]
    exact he
  · rw [e4 k, q1, q2, q3, ends_of_columns ((m3.trans m2).trans m1)]
    simp

/-- The linking fields after `RemoveNullColumn(nid)`: the neighbours of
`nid` are pointed at each other; the MANodes are not written. -/
theorem RemoveNullColumn_links {st st' : Store} {nid : Int}
    (h : RemoveNullColumn st nid = some st') :
    ∃ X, LinksAt st nid = some X ∧ st'.manodeStore = st.manodeStore ∧
      (X.prev ≠ nid → X.next ≠ X.prev →
        ∀ j, LinksAt st' j =
          if X.next > -1 ∧ j = X.next then (LinksAt st j).map (fun c => { c with prev := X.prev })
          else if X.prev > -1 ∧ j = X.prev then
            (LinksAt st j).map (fun c => { c with next := X.next })
          else LinksAt st j) := by
  unfold RemoveNullColumn at h
  cases hc : GetColumn st nid with
  | none => simp [hc] at h
  | some nc0 =>
    simp only [hc, Option.bind_eq_bind, Option.some_bind] at h
    split_ifs at h with hd
    simp only [Option.bind_eq_some] at h
    obtain ⟨s1, h1, h2⟩ := h
    have e1 := removeBeads_sameCols _ _ _ _ h1
    unfold removeUnlink at h2
    simp only [Option.bind_eq_bind, Option.bind_eq_some] at h2
    obtain ⟨_, _, s2, h3, _, _, s3, h4, nc1, hnc1, s4, h5, nc2, hnc2, h6⟩ := h2
    have e2 := patchBead_sameCols h3
    have e3 := patchBead_sameCols h4
    obtain ⟨e5, m5⟩ := linkColumn_links (f := fun c => { c with next := nc1.next })
      (fun _ => rfl) h5
    obtain ⟨e6, m6⟩ := linkColumn_links (f := fun c => { c with prev := nc2.prev })
      (fun _ => rfl) h6
    have hX := LinksAt_of_get hc
    have l3 : ∀ j, LinksAt s3 j = LinksAt st j := fun j => by rw [e3.1, e2.1, e1.1]
    have hnc1l := LinksAt_of_get hnc1
    rw [l3, hX] at hnc1l
    have p1 : nc1.next = nc0.next := (congrArg Column.next (Option.some.inj hnc1l)).symm
    have p2 : nc1.prev = nc0.prev := (congrArg Column.prev (Option.some.inj hnc1l)).symm
    refine ⟨nc0.links, hX, by rw [m6, m5, e3.2, e2.2, e1.2], ?_⟩
    intro a1 a2
    have a1' : nc0.prev ≠ nid := a1
    have a2' : nc0.next ≠ nc0.prev := a2
    have l4n : LinksAt s4 nid = some nc0.links := by
      rw [e5 nid, p2, if_neg (fun hh => a1' hh.2.symm), l3, hX]
    have hnc2l := LinksAt_of_get hnc2
    rw [l4n] at hnc2l
    have r1 : nc2.next = nc0.next := (congrArg Column.next (Option.some.inj hnc2l)).symm
    have r2 : nc2.prev = nc0.prev := (congrArg Column.prev (Option.some.inj hnc2l)).symm
    intro j
    rw [show nc0.links.next = nc0.next from rfl, show nc0.links.prev = nc0.prev from rfl,
      e6 j, r1, r2]
    by_cases hjn : nc0.next > -1 ∧ j = nc0.next
    · obtain ⟨hn1, rfl⟩ := hjn
      rw [if_pos ⟨hn1, rfl⟩, e5, p2, if_neg (fun hh => a2' hh.2), l3, if_pos ⟨hn1, rfl⟩]
    · rw [if_neg hjn, e5 j, p1, p2, if_neg hjn]
      by_cases hjp : nc0.prev > -1 ∧ j = nc0.prev
      · obtain ⟨hp1, rfl⟩ := hjp
        rw [if_pos ⟨hp1, rfl⟩, l3, if_pos ⟨hp1, rfl⟩]
      · rw [if_neg hjp, l3, if_neg hjp]

theorem Linked_frame {st st' : Store} {mid : Int} :
    ∀ (l : List Int) (p : Int), Linked st mid p l →
      (∀ c, c ∈ l → LinksAt st' c = LinksAt st c) → Linked st' mid p l := by
  intro l
  induction l with
  | nil => intro p _ _; trivial
  | cons c rest ih =>
    intro p h hf
    obtain ⟨col, h1, h2, h3, h4, h5, h6⟩ := h
    exact ⟨col, by rw [hf c (List.mem_cons_self _ _)]; exact h1, h2, h3, h4, h5,
      ih c h6 (fun d hd => hf d (List.mem_cons_of_mem _ hd))⟩

theorem Linked_mem {st : Store} {mid : Int} :
    ∀ (l : List Int) (p c : Int), Linked st mid p l → c ∈ l →
      ∃ col, LinksAt st c = some col ∧ col.lid = c ∧ col.ma_id = mid := by
  intro l
  induction l with
  | nil => intro p c _ hc; simp at hc
  | cons y rest ih =>
    intro p c h hc
    obtain ⟨col, h1, h2, h3, h4, h5, h6⟩ := h
    rcases List.mem_cons.mp hc with rfl | hc'
    · exact ⟨col, h1, h2, h3⟩
    · exact ih y c h6 hc'

theorem Linked_nonneg {st : Store} {mid : Int} {l : List Int} {p c : Int}
    (h : Linked st mid p l) (hc : c ∈ l) : 0 ≤ c ∧ c < st.columnStore.length := by
  obtain ⟨col, h1, _⟩ := Linked_mem l p c h hc
  exact LinksAt_range h1

/-- The successor recorded in a linked column is the next element of the
list, or `-1`. -/
theorem Linked_next_mem {st : Store} {mid : Int} :
    ∀ (l : List Int) (p c : Int) (col : Column), Linked st mid p l → c ∈ l →
      LinksAt st c = some col → col.next = -1 ∨ col.next ∈ l := by
  intro l
  induction l with
  | nil => intro p c col _ hc; simp at hc
  | cons y rest ih =>
    intro p c col h hc hcol
    obtain ⟨col0, h1, h2, h3, h4, h5, h6⟩ := h
    rcases List.mem_cons.mp hc with rfl | hc'
    · rw [h1] at hcol
      cases hcol
      cases rest with
      | nil => left; simpa using h5
      | cons z zs => right; rw [h5]; simp
    · rcases ih y c col h6 hc' hcol with h | h
      · exact Or.inl h
      · exact Or.inr (List.mem_cons_of_mem _ h)

/-- The predecessor recorded in a linked column is `p` or an element of the
list. -/
theorem Linked_prev_mem {st : Store} {mid : Int} :
    ∀ (l : List Int) (p c : Int) (col : Column), Linked st mid p l → c ∈ l →
      LinksAt st c = some col → (c = l.headD (-1) ∧ col.prev = p) ∨
        (c ≠ l.headD (-1) ∧ col.prev ∈ l) := by
  intro l
  induction l with
  | nil => intro p c col _ hc; simp at hc
  | cons y rest ih =>
    intro p c col h hc hcol
    obtain ⟨col0, h1, h2, h3, h4, h5, h6⟩ := h
    by_cases hcy : c = y
    · subst hcy
      rw [h1] at hcol
      cases hcol
      exact Or.inl ⟨rfl, h4⟩
    · right
      have hc' : c ∈ rest := by
        rcases List.mem_cons.mp hc with h | h
        · exact absurd h hcy
        · exact h
      refine ⟨by simpa using hcy, ?_⟩
      rcases ih y c col h6 hc' hcol with ⟨_, hp⟩ | ⟨_, hp⟩
      · rw [hp]; exact List.mem_cons_self _ _
      · exact List.mem_cons_of_mem _ hp

theorem headD_insertAfter (c x : Int) (l : List Int) :
    (insertAfter c x l).headD (-1) = l.headD (-1) := by
  cases l with
  | nil => rfl
  | cons y ys =>
    unfold insertAfter
    split_ifs <;> rfl

theorem mem_insertAfter {c x : Int} {l : List Int} (hc : c ∈ l) (z : Int) :
    z ∈ insertAfter c x l ↔ z = x ∨ z ∈ l := by
  induction l with
  | nil => simp at hc
  | cons y ys ih =>
    unfold insertAfter
    by_cases hy : y = c
    · rw [if_pos hy]
      simp only [List.mem_cons]
      tauto
    · rw [if_neg hy]
      have hc' : c ∈ ys := by
        rcases List.mem_cons.mp hc with h | h
        · exact absurd h.symm hy
        · exact h
      simp only [List.mem_cons, ih hc']
      tauto

theorem nodup_insertAfter {c x : Int} {l : List Int} (hc : c ∈ l) (hx : x ∉ l)
    (hn : l.Nodup) : (insertAfter c x l).Nodup := by
  induction l with
  | nil => simp at hc
  | cons y ys ih =>
    unfold insertAfter
    rw [List.nodup_cons] at hn
    have hxy : x ≠ y := fun h => hx (h ▸ List.mem_cons_self _ _)
    have hxs : x ∉ ys := fun h => hx (List.mem_cons_of_mem _ h)
    by_cases hy : y = c
    · rw [if_pos hy]
      rw [List.nodup_cons, List.nodup_cons]
      refine ⟨?_, hxs, hn.2⟩
      simp only [List.mem_cons, not_or]
      exact ⟨Ne.symm hxy, hn.1⟩
    · rw [if_neg hy]
      have hc' : c ∈ ys := by
        rcases List.mem_cons.mp hc with h | h
        · exact absurd h.symm hy
        · exact h
      rw [List.nodup_cons]
      refine ⟨?_, ih hc' hxs hn.2⟩
      rw [mem_insertAfter hc']
      simp only [not_or]
      exact ⟨Ne.symm hxy, hn.1⟩

theorem getLast?_insertAfter {c x : Int} {l : List Int} (hc : c ∈ l) (hn : l.Nodup) :
    (insertAfter c x l).getLast? = if l.getLast? = some c then some x else l.getLast? := by
  induction l with
  | nil => simp at hc
  | cons y ys ih =>
    unfold insertAfter
    rw [List.nodup_cons] at hn
    by_cases hy : y = c
    · rw [if_pos hy]
      cases ys with
      | nil => simp [hy]
      | cons z zs =>
        rw [List.getLast?_cons_cons, List.getLast?_cons_cons, List.getLast?_cons_cons]
        have hne : (z :: zs).getLast? ≠ some c := by
          intro h
          have := List.mem_of_getLast?_eq_some h
          rw [← hy] at this
          exact hn.1 this
        rw [if_neg hne]
    · rw [if_neg hy]
      have hc' : c ∈ ys := by
        rcases List.mem_cons.mp hc with h | h
        · exact absurd h.symm hy
        · exact h
      cases ys with
      | nil => simp at hc'
      | cons z zs =>
        have h1 := ih hc' hn.2
        cases hi : insertAfter c x (z :: zs) with
        | nil =>
          exfalso
          have : z ∈ insertAfter c x (z :: zs) :=
            (mem_insertAfter hc' z).mpr (Or.inr (List.mem_cons_self _ _))
          rw [hi] at this
          simp at this
        | cons w ws =>
          rw [hi] at h1
          rw [List.getLast?_cons_cons, List.getLast?_cons_cons]
          exact h1

/-- Linking a new column `lid` after the live column `cid` keeps the list
linked. -/
theorem Linked_insertAfter {st st' : Store} {mid cid lid : Int} {P N : Column}
    (hP : LinksAt st cid = some P)
    (hN : LinksAt st' lid = some N) (hN1 : N.lid = lid) (hN2 : N.prev = cid)
    (hN3 : N.next = P.next) (hN4 : N.ma_id = mid)
    (hcid : LinksAt st' cid = some { P with next := lid })
    (hother : ∀ j, j ≠ lid → j ≠ cid → LinksAt st' j =
      if P.next ≠ -1 ∧ j = P.next then (LinksAt st j).map (fun c => { c with prev := lid })
      else LinksAt st j) :
    ∀ (l : List Int) (p : Int), Linked st mid p l → l.Nodup → cid ∈ l → lid ∉ l →
      Linked st' mid p (insertAfter cid lid l) := by
  intro l
  induction l with
  | nil => intro p _ _ hc; simp at hc
  | cons y ys ih =>
    intro p h hn hc hl
    obtain ⟨col, h1, h2, h3, h4, h5, h6⟩ := h
    rw [List.nodup_cons] at hn
    have hly : lid ≠ y := fun e => hl (e ▸ List.mem_cons_self _ _)
    have hls : lid ∉ ys := fun e => hl (List.mem_cons_of_mem _ e)
    unfold insertAfter
    by_cases hy : y = cid
    · rw [if_pos hy]
      subst hy
      rw [hP] at h1
      cases h1
      refine ⟨{ P with next := lid }, hcid, h2, h3, h4, rfl, N, hN, hN1, hN4, hN2, ?_, ?_⟩
      · rw [hN3, h5]
      · cases ys with
        | nil => trivial
        | cons z zs =>
          obtain ⟨cz, z1, z2, z3, z4, z5, z6⟩ := h6
          have hz : P.next = z := by simpa using h5
          have hzr := LinksAt_range z1
          have hzl : z ≠ lid := fun e => hls (e ▸ List.mem_cons_self _ _)
          have hzy : z ≠ y := fun e => hn.1 (e ▸ List.mem_cons_self _ _)
          have hnz := hn.2
          rw [List.nodup_cons] at hnz
          refine ⟨{ cz with prev := lid }, ?_, z2, z3, rfl, z5, ?_⟩
          · rw [hother z hzl hzy, if_pos ⟨by omega, hz.symm⟩, z1]
            rfl
          · apply Linked_frame zs z z6
            intro d hd
            have hdl : d ≠ lid := fun e => hls (e ▸ List.mem_cons_of_mem _ hd)
            have hdy : d ≠ y := fun e => hn.1 (e ▸ List.mem_cons_of_mem _ hd)
            have hdz : d ≠ z := fun e => hnz.1 (e ▸ hd)
            rw [hother d hdl hdy, if_neg (fun hh => hdz (hh.2.trans hz))]
    · rw [if_neg hy]
      have hc' : cid ∈ ys := by
        rcases List.mem_cons.mp hc with h | h
        · exact absurd h.symm hy
        · exact h
      have hyr := LinksAt_range h1
      have hnext : y ≠ P.next := by
        intro e
        rcases Linked_next_mem ys y cid P h6 hc' hP with h | h
        · omega
        · exact hn.1 (e ▸ h)
      refine ⟨col, ?_, h2, h3, h4, ?_, ih y h6 hn.2 hc' hls⟩
      · rw [hother y (Ne.symm hly) hy, if_neg (fun hh => hnext hh.2), h1]
      · rw [headD_insertAfter, h5]

theorem head?_insertAfter (c x : Int) (l : List Int) :
    (insertAfter c x l).head? = l.head? := by
  cases l with
  | nil => rfl
  | cons y ys =>
    unfold insertAfter
    split_ifs <;> rfl

theorem mem_insertBefore {c x : Int} {l : List Int} (hc : c ∈ l) (z : Int) :
    z ∈ insertBefore c x l ↔ z = x ∨ z ∈ l := by
  induction l with
  | nil => simp at hc
  | cons y ys ih =>
    unfold insertBefore
    by_cases hy : y = c
    · rw [if_pos hy]
      simp only [List.mem_cons]
    · rw [if_neg hy]
      have hc' : c ∈ ys := by
        rcases List.mem_cons.mp hc with h | h
        · exact absurd h.symm hy
        · exact h
      simp only [List.mem_cons, ih hc']
      tauto

theorem nodup_insertBefore {c x : Int} {l : List Int} (hc : c ∈ l) (hx : x ∉ l)
    (hn : l.Nodup) : (insertBefore c x l).Nodup := by
  induction l with
  | nil => simp at hc
  | cons y ys ih =>
    unfold insertBefore
    have hn0 := hn
    rw [List.nodup_cons] at hn
    have hxy : x ≠ y := fun h => hx (h ▸ List.mem_cons_self _ _)
    have hxs : x ∉ ys := fun h => hx (List.mem_cons_of_mem _ h)
    by_cases hy : y = c
    · rw [if_pos hy]
      rw [List.nodup_cons]
      exact ⟨hx, hn0⟩
    · rw [if_neg hy]
      have hc' : c ∈ ys := by
        rcases List.mem_cons.mp hc with h | h
        · exact absurd h.symm hy
        · exact h
      rw [List.nodup_cons]
      refine ⟨?_, ih hc' hxs hn.2⟩
      rw [mem_insertBefore hc']
      simp only [not_or]
      exact ⟨Ne.symm hxy, hn.1⟩

theorem head?_insertBefore (c x : Int) (l : List Int) :
    (insertBefore c x l).head? = if l.head? = some c then some x else l.head? := by
  cases l with
  | nil => simp [insertBefore]
  | cons y ys =>
    unfold insertBefore
    by_cases hy : y = c
    · simp [hy]
    · simp [hy]

theorem headD_insertBefore (c x : Int) (l : List Int) (hl : l ≠ []) :
    (insertBefore c x l).headD (-1) = if l.headD (-1) = c then x else l.headD (-1) := by
  cases l with
  | nil => exact absurd rfl hl
  | cons y ys =>
    unfold insertBefore
    by_cases hy : y = c
    · simp [hy]
    · simp [hy]

theorem getLast?_insertBefore {c x : Int} {l : List Int} (hc : c ∈ l) :
    (insertBefore c x l).getLast? = l.getLast? := by
  induction l with
  | nil => simp at hc
  | cons y ys ih =>
    unfold insertBefore
    by_cases hy : y = c
    · rw [if_pos hy, List.getLast?_cons_cons]
    · rw [if_neg hy]
      have hc' : c ∈ ys := by
        rcases List.mem_cons.mp hc with h | h
        · exact absurd h.symm hy
        · exact h
      cases ys with
      | nil => simp at hc'
      | cons z zs =>
        have h1 := ih hc'
        cases hi : insertBefore c x (z :: zs) with
        | nil =>
          exfalso
          have : z ∈ insertBefore c x (z :: zs) :=
            (mem_insertBefore hc' z).mpr (Or.inr (List.mem_cons_self _ _))
          rw [hi] at this
          simp at this
        | cons w ws =>
          rw [hi] at h1
          rw [List.getLast?_cons_cons, List.getLast?_cons_cons]
          exact h1

/-- Linking a new column `lid` before the live column `cid` keeps the list
linked. -/
theorem Linked_insertBefore {st st' : Store} {mid cid lid : Int} {P N : Column}
    (hP : LinksAt st cid = some P)
    (hN : LinksAt st' lid = some N) (hN1 : N.lid = lid) (hN2 : N.next = cid)
    (hN3 : N.prev = P.prev) (hN4 : N.ma_id = mid)
    (hcid : LinksAt st' cid = some { P with prev := lid })
    (hother : ∀ j, j ≠ lid → j ≠ cid → LinksAt st' j =
      if P.prev ≠ -1 ∧ j = P.prev then (LinksAt st j).map (fun c => { c with next := lid })
      else LinksAt st j) :
    ∀ (l : List Int) (p : Int), Linked st mid p l → l.Nodup → cid ∈ l → lid ∉ l → p ∉ l →
      Linked st' mid p (insertBefore cid lid l) := by
  intro l
  induction l with
  | nil => intro p _ _ hc; simp at hc
  | cons y ys ih =>
    intro p h hn hc hl hp
    obtain ⟨col, h1, h2, h3, h4, h5, h6⟩ := h
    rw [List.nodup_cons] at hn
    have hly : lid ≠ y := fun e => hl (e ▸ List.mem_cons_self _ _)
    have hls : lid ∉ ys := fun e => hl (List.mem_cons_of_mem _ e)
    unfold insertBefore
    by_cases hy : y = cid
    · rw [if_pos hy]
      subst hy
      rw [hP] at h1
      cases h1
      refine ⟨N, hN, hN1, hN4, by rw [hN3, h4], hN2, { P with prev := lid }, hcid, h2, h3, rfl,
        h5, ?_⟩
      apply Linked_frame ys y h6
      intro d hd
      have hdl : d ≠ lid := fun e => hls (e ▸ hd)
      have hdy : d ≠ y := fun e => hn.1 (e ▸ hd)
      have hdp : d ≠ P.prev := by
        rw [h4]
        exact fun e => hp (e ▸ List.mem_cons_of_mem _ hd)
      rw [hother d hdl hdy, if_neg (fun hh => hdp hh.2)]
    · rw [if_neg hy]
      have hc' : cid ∈ ys := by
        rcases List.mem_cons.mp hc with h | h
        · exact absurd h.symm hy
        · exact h
      have hyr := LinksAt_range h1
      have hys : ys ≠ [] := fun e => by rw [e] at hc'; simp at hc'
      rcases Linked_prev_mem ys y cid P h6 hc' hP with ⟨q1, q2⟩ | ⟨q1, q2⟩
      · refine ⟨{ col with next := lid }, ?_, h2, h3, h4, ?_, ih y h6 hn.2 hc' hls hn.1⟩
        · rw [hother y (Ne.symm hly) hy, if_pos ⟨by omega, q2.symm⟩, h1]
          rfl
        · rw [headD_insertBefore _ _ _ hys, if_pos q1.symm]
      · refine ⟨col, ?_, h2, h3, h4, ?_, ih y h6 hn.2 hc' hls hn.1⟩
        · have : y ≠ P.prev := fun e => hn.1 (e ▸ q2)
          rw [hother y (Ne.symm hly) hy, if_neg (fun hh => this hh.2), h1]
        · rw [headD_insertBefore _ _ _ hys, if_neg (Ne.symm q1), h5]

/-- Bypassing the live column `nid` keeps the rest of the list linked. -/
theorem Linked_erase {st st' : Store} {mid nid : Int} {X : Column}
    (hX : LinksAt st nid = some X)
    (hst : ∀ j, LinksAt st' j =
      if X.next > -1 ∧ j = X.next then (LinksAt st j).map (fun c => { c with prev := X.prev })
      else if X.prev > -1 ∧ j = X.prev then
        (LinksAt st j).map (fun c => { c with next := X.next })
      else LinksAt st j) :
    ∀ (l : List Int) (p : Int), Linked st mid p l → l.Nodup → nid ∈ l → p ∉ l →
      Linked st' mid p (l.erase nid) := by
  intro l
  induction l with
  | nil => intro p _ _ hc; simp at hc
  | cons y ys ih =>
    intro p h hn hc hp
    obtain ⟨col, h1, h2, h3, h4, h5, h6⟩ := h
    rw [List.nodup_cons] at hn
    by_cases hy : y = nid
    · subst hy
      rw [List.erase_cons_head]
      rw [hX] at h1
      cases h1
      cases ys with
      | nil => trivial
      | cons z zs =>
        obtain ⟨cz, z1, z2, z3, z4, z5, z6⟩ := h6
        have hz : X.next = z := by simpa using h5
        have hzr := LinksAt_range z1
        have hnz := hn.2
        rw [List.nodup_cons] at hnz
        refine ⟨{ cz with prev := X.prev }, ?_, z2, z3, h4, z5, ?_⟩
        · rw [hst z, if_pos ⟨by omega, hz.symm⟩, z1]
          rfl
        · apply Linked_frame zs z z6
          intro d hd
          have hdz : d ≠ X.next := by
            rw [hz]
            exact fun e => hnz.1 (e ▸ hd)
          have hdp : d ≠ X.prev := by
            rw [h4]
            exact fun e => hp (e ▸ List.mem_cons_of_mem _ (List.mem_cons_of_mem _ hd))
          rw [hst d, if_neg (fun hh => hdz hh.2), if_neg (fun hh => hdp hh.2)]
    · have hc' : nid ∈ ys := by
        rcases List.mem_cons.mp hc with h | h
        · exact absurd h.symm hy
        · exact h
      rw [List.erase_cons_tail (by simpa using hy)]
      have hyr := LinksAt_range h1
      have hyn : y ≠ X.next := by
        intro e
        rcases Linked_next_mem ys y nid X h6 hc' hX with h | h
        · omega
        · exact hn.1 (e ▸ h)
      rcases Linked_prev_mem ys y nid X h6 hc' hX with ⟨q1, q2⟩ | ⟨q1, q2⟩
      · refine ⟨{ col with next := X.next }, ?_, h2, h3, h4, ?_, ih y h6 hn.2 hc' hn.1⟩
        · rw [hst y, if_neg (fun hh => hyn hh.2), if_pos ⟨by omega, q2.symm⟩, h1]
          rfl
        · cases ys with
          | nil => simp at hc'
          | cons z zs =>
            have hzn : z = nid := by simpa using q1.symm
            subst hzn
            rw [List.erase_cons_head]
            obtain ⟨cz, z1, z2, z3, z4, z5, z6⟩ := h6
            rw [hX] at z1
            cases z1
            exact z5
      · refine ⟨col, ?_, h2, h3, h4, ?_, ih y h6 hn.2 hc' hn.1⟩
        · have : y ≠ X.prev := fun e => hn.1 (e ▸ q2)
          rw [hst y, if_neg (fun hh => hyn hh.2), if_neg (fun hh => this hh.2), h1]
        · cases ys with
          | nil => simp at hc'
          | cons z zs =>
            have hzn : z ≠ nid := by
              intro e
              apply q1
              simp [e]
            rw [List.erase_cons_tail (by simpa using hzn)]
            exact h5

theorem head?_erase {nid : Int} {l : List Int} (h : l.head? ≠ some nid) :
    (l.erase nid).head? = l.head? := by
  cases l with
  | nil => rfl
  | cons y ys =>
    have hy : y ≠ nid := by
      intro e
      apply h
      simp [e]
    rw [List.erase_cons_tail (by simpa using hy)]
    rfl

theorem getLast?_erase {nid : Int} {l : List Int} (hn : l.Nodup) (h : l.getLast? ≠ some nid) :
    (l.erase nid).getLast? = l.getLast? := by
  induction l with
  | nil => rfl
  | cons y ys ih =>
    rw [List.nodup_cons] at hn
    cases ys with
    | nil =>
      have hy : y ≠ nid := by
        intro e
        apply h
        simp [e]
      rw [List.erase_cons_tail (by simpa using hy)]
      rfl
    | cons z zs =>
      rw [List.getLast?_cons_cons] at h ⊢
      by_cases hy : y = nid
      · subst hy
        rw [List.erase_cons_head]
      · rw [List.erase_cons_tail (by simpa using hy)]
        have h1 := ih hn.2 h
        cases he : (z :: zs).erase nid with
        | nil =>
          rw [he] at h1
          rw [← h1]
          exfalso
          have hlast : (z :: zs).getLast? ≠ none := by simp
          rw [← h1] at hlast
          simp at hlast
        | cons w ws =>
          rw [List.getLast?_cons_cons, ← he]
          exact h1

theorem Linked_next_ne {st : Store} {mid : Int} :
    ∀ (l : List Int) (p c : Int) (col : Column), Linked st mid p l → l.Nodup → c ∈ l →
      LinksAt st c = some col → col.next ≠ c ∧ (col.next = -1 ↔ l.getLast? = some c) := by
  intro l
  induction l with
  | nil => intro p c col _ _ hc; simp at hc
  | cons y ys ih =>
    intro p c col h hn hc hcol
    obtain ⟨col0, h1, h2, h3, h4, h5, h6⟩ := h
    rw [List.nodup_cons] at hn
    have hyr := LinksAt_range h1
    by_cases hcy : c = y
    · subst hcy
      rw [h1] at hcol
      cases hcol
      cases ys with
      | nil =>
        simp only [List.headD_nil] at h5
        rw [h5]
        exact ⟨by omega, by simp⟩
      | cons z zs =>
        simp only [List.headD_cons] at h5
        have hz : z ≠ c := fun e => hn.1 (e ▸ List.mem_cons_self _ _)
        have hzr := Linked_nonneg h6 (List.mem_cons_self z zs)
        rw [h5, List.getLast?_cons_cons]
        refine ⟨hz, ?_⟩
        constructor
        · intro e; omega
        · intro e
          exact absurd (List.mem_of_getLast?_eq_some e) hn.1
    · have hc' : c ∈ ys := by
        rcases List.mem_cons.mp hc with h | h
        · exact absurd h hcy
        · exact h
      obtain ⟨r1, r2⟩ := ih y c col h6 hn.2 hc' hcol
      refine ⟨r1, ?_⟩
      cases ys with
      | nil => simp at hc'
      | cons z zs =>
        rw [List.getLast?_cons_cons]
        exact r2

theorem Linked_prev_ne {st : Store} {mid : Int} :
    ∀ (l : List Int) (p c : Int) (col : Column), Linked st mid p l → l.Nodup → p ∉ l →
      c ∈ l → LinksAt st c = some col →
      col.prev ≠ c ∧ (col.prev = p ↔ l.head? = some c) ∧ (col.next ≠ -1 → col.next ≠ col.prev) := by
  intro l
  induction l with
  | nil => intro p c col _ _ _ hc; simp at hc
  | cons y ys ih =>
    intro p c col h hn hp hc hcol
    have h0 := h
    obtain ⟨col0, h1, h2, h3, h4, h5, h6⟩ := h
    rw [List.nodup_cons] at hn
    by_cases hcy : c = y
    · subst hcy
      rw [h1] at hcol
      cases hcol
      refine ⟨?_, by simp [h4], ?_⟩
      · rw [h4]
        exact fun e => hp (e ▸ List.mem_cons_self _ _)
      · intro hne
        cases ys with
        | nil => simp at h5; exact absurd h5 hne
        | cons z zs =>
          simp only [List.headD_cons] at h5
          rw [h5, h4]
          exact fun e => hp (e ▸ List.mem_cons_of_mem _ (List.mem_cons_self _ _))
    · have hc' : c ∈ ys := by
        rcases List.mem_cons.mp hc with h | h
        · exact absurd h hcy
        · exact h
      obtain ⟨r1, r2, r3⟩ := ih y c col h6 hn.2 hn.1 hc' hcol
      refine ⟨r1, ?_, r3⟩
      constructor
      · intro e
        exfalso
        rcases Linked_prev_mem (y :: ys) p c col h0 hc hcol with ⟨q1, _⟩ | ⟨_, q2⟩
        · simp at q1
          exact hcy q1
        · rw [e] at q2
          exact hp q2
      · intro e
        simp at e
        exact absurd e.symm hcy

/-- Every step of the intended use keeps the column list well formed. -/
theorem columnStep_Live {mid : Int} {st st' : Store} {l l' : List Int} {op : ColumnOp}
    (hl : Live st mid l) (h : columnStep mid (st, l) op = some (st', l')) :
    Live st' mid l' := by
  obtain ⟨hnd, hlk, hends⟩ := hl
  have hneg : (-1 : Int) ∉ l := fun hm => by
    have := Linked_nonneg hlk hm
    omega
  cases op with
  | first bid =>
    simp only [columnStep] at h
    split_ifs at h with hnil
    simp only [Option.map_eq_some'] at h
    obtain ⟨⟨s1, lid⟩, h1, h2⟩ := h
    simp only [Prod.mk.injEq] at h2
    obtain ⟨rfl, rfl⟩ := h2
    obtain ⟨_, _, _, ⟨N, hN, n1, n2, n3, n4⟩, _, he⟩ := FirstColumn_links h1
    refine ⟨by simp, ⟨N, hN, n1, n4, n2, by simpa using n3, trivial⟩, fun _ => ?_⟩
    exact ⟨(lid, lid), by rw [he mid, if_pos rfl], rfl, rfl⟩
  | append cid bid =>
    simp only [columnStep] at h
    split_ifs at h with hmem
    simp only [Option.map_eq_some'] at h
    obtain ⟨⟨s1, lid⟩, h1, h2⟩ := h
    simp only [Prod.mk.injEq] at h2
    obtain ⟨rfl, rfl⟩ := h2
    obtain ⟨P, hP, p1, p2⟩ := Linked_mem l (-1) cid hlk hmem
    obtain ⟨q1, q2⟩ := Linked_next_ne l (-1) cid P hlk hnd hmem hP
    have q3 : P.next ≠ st.columnStore.length := by
      rcases Linked_next_mem l (-1) cid P hlk hmem hP with h | h
      · omega
      · have := Linked_nonneg hlk h
        omega
    obtain ⟨hlid, hnone, ⟨N, hN, n1, n2, n3, n4⟩, hcid, hother, e, he, hends'⟩ :=
      ColumnAppend_links h1 hP q1 q3
    have hfresh : lid ∉ l := by
      intro hm
      obtain ⟨c, hc, _⟩ := Linked_mem l (-1) lid hlk hm
      rw [hnone] at hc
      cases hc
    have hne : l ≠ [] := fun e => by rw [e] at hmem; simp at hmem
    obtain ⟨e0, he0, hh, hlast⟩ := hends hne
    rw [p2] at he hends'
    rw [he0] at he
    cases he
    refine ⟨nodup_insertAfter hmem hfresh hnd,
      Linked_insertAfter hP hN n1 n2 n3 (n4.trans p2) hcid hother l (-1) hlk hnd hmem hfresh,
      fun _ => ⟨_, by rw [hends' mid, if_pos rfl], ?_, ?_⟩⟩
    · rw [head?_insertAfter]
      exact hh
    · rw [getLast?_insertAfter hmem hnd]
      by_cases hx : P.next = -1
      · rw [if_pos hx, if_pos (q2.mp hx)]
      · rw [if_neg hx, if_neg (fun e => hx (q2.mpr e))]
        exact hlast
  | prepend cid bid =>
    simp only [columnStep] at h
    split_ifs at h with hmem
    simp only [Option.map_eq_some'] at h
    obtain ⟨⟨s1, lid⟩, h1, h2⟩ := h
    simp only [Prod.mk.injEq] at h2
    obtain ⟨rfl, rfl⟩ := h2
    obtain ⟨P, hP, p1, p2⟩ := Linked_mem l (-1) cid hlk hmem
    obtain ⟨q1, q2, _⟩ := Linked_prev_ne l (-1) cid P hlk hnd hneg hmem hP
    have q3 : P.prev ≠ st.columnStore.length := by
      rcases Linked_prev_mem l (-1) cid P hlk hmem hP with ⟨_, h⟩ | ⟨_, h⟩
      · omega
      · have := Linked_nonneg hlk h
        omega
    obtain ⟨hlid, hnone, ⟨N, hN, n1, n2, n3, n4⟩, hcid, hother, e, he, hends'⟩ :=
      ColumnPrepend_links h1 hP q1 q3
    have hfresh : lid ∉ l := by
      intro hm
      obtain ⟨c, hc, _⟩ := Linked_mem l (-1) lid hlk hm
      rw [hnone] at hc
      cases hc
    have hne : l ≠ [] := fun e => by rw [e] at hmem; simp at hmem
    obtain ⟨e0, he0, hh, hlast⟩ := hends hne
    rw [p2] at he hends'
    rw [he0] at he
    cases he
    refine ⟨nodup_insertBefore hmem hfresh hnd,
      Linked_insertBefore hP hN n1 n2 n3 (n4.trans p2) hcid hother l (-1) hlk hnd hmem hfresh
        hneg,
      fun _ => ⟨_, by rw [hends' mid, if_pos rfl], ?_, ?_⟩⟩
    · rw [head?_insertBefore]
      by_cases hx : P.prev = -1
      · rw [if_pos hx, if_pos (q2.mp hx)]
      · rw [if_neg hx, if_neg (fun e => hx (q2.mpr e))]
        exact hh
    · rw [getLast?_insertBefore hmem]
      exact hlast
  | remove nid =>
    simp only [columnStep] at h
    split_ifs at h with hg
    obtain ⟨hmem, hnh, hnl⟩ := hg
    simp only [Option.map_eq_some'] at h
    obtain ⟨s1, h1, h2⟩ := h
    simp only [Prod.mk.injEq] at h2
    obtain ⟨rfl, rfl⟩ := h2
    obtain ⟨X, hX, hm, hst⟩ := RemoveNullColumn_links h1
    obtain ⟨q1, q2, q3⟩ := Linked_prev_ne l (-1) nid X hlk hnd hneg hmem hX
    obtain ⟨r1, r2⟩ := Linked_next_ne l (-1) nid X hlk hnd hmem hX
    have hxn : X.next ≠ -1 := fun e => hnl (r2.mp e)
    have hst' := hst q1 (q3 hxn)
    have hne : l ≠ [] := fun e => by rw [e] at hmem; simp at hmem
    obtain ⟨e0, he0, hh, hlast⟩ := hends hne
    refine ⟨hnd.erase nid, Linked_erase hX hst' l (-1) hlk hnd hmem hneg, fun _ => ?_⟩
    exact ⟨e0, by rw [ends_of_columns hm]; exact he0, by rw [head?_erase hnh]; exact hh,
      by rw [getLast?_erase hnd hnl]; exact hlast⟩

theorem nodup_length_le (n : Nat) :
    ∀ l : List Int, l.Nodup → (∀ c, c ∈ l → 0 ≤ c ∧ c < n) → l.length ≤ n := by
  intro l hn hr
  have h1 : (l.map Int.toNat).Nodup := by
    apply List.Nodup.map_on _ hn
    intro a ha b hb hab
    have := hr a ha
    have := hr b hb
    omega
  have h2 : (l.map Int.toNat).toFinset ⊆ Finset.range n := by
    intro x hx
    simp only [List.mem_toFinset, List.mem_map] at hx
    obtain ⟨c, hc, rfl⟩ := hx
    have := hr c hc
    simp only [Finset.mem_range]
    omega
  have h3 := Finset.card_le_card h2
  rw [List.toFinset_card_of_nodup h1, Finset.card_range, List.length_map] at h3
  exact h3

theorem Linked_walk {st : Store} {mid : Int} :
    ∀ (l : List Int) (p : Int) (fuel : Nat), Linked st mid p l → l.length < fuel →
      columnWalk st fuel (l.headD (-1)) = some l := by
  intro l
  induction l with
  | nil =>
    intro p fuel _ hf
    cases fuel with
    | zero => simp at hf
    | succ f => simp [columnWalk]
  | cons y ys ih =>
    intro p fuel h hf
    obtain ⟨col, h1, h2, h3, h4, h5, h6⟩ := h
    cases fuel with
    | zero => simp at hf
    | succ f =>
      obtain ⟨col0, hc0, hl0⟩ := LinksAt_some h1
      have hyr := LinksAt_range h1
      have hy : y ≠ -1 := by omega
      have hnext : col0.next = ys.headD (-1) := by
        rw [← h5, ← hl0]
        rfl
      simp only [List.headD_cons, columnWalk, if_neg hy, hc0, hnext]
      rw [ih y f h6 (by simpa using hf)]

theorem Linked_succ {st : Store} {mid : Int} :
    ∀ (l : List Int) (p c : Int) (col : Column), Linked st mid p l → c ∈ l →
      LinksAt st c = some col → col.next ≠ -1 →
      ∃ d, LinksAt st col.next = some d ∧ d.prev = c := by
  intro l
  induction l with
  | nil => intro p c col _ hc; simp at hc
  | cons y ys ih =>
    intro p c col h hc hcol hne
    obtain ⟨col0, h1, h2, h3, h4, h5, h6⟩ := h
    by_cases hcy : c = y
    · subst hcy
      rw [h1] at hcol
      cases hcol
      cases ys with
      | nil => simp at h5; exact absurd h5 hne
      | cons z zs =>
        obtain ⟨cz, z1, z2, z3, z4, z5, z6⟩ := h6
        simp only [List.headD_cons] at h5
        rw [h5]
        exact ⟨cz, z1, z4⟩
    · have hc' : c ∈ ys := by
        rcases List.mem_cons.mp hc with h | h
        · exact absurd h hcy
        · exact h
      exact ih y c col h6 hc' hcol hne

theorem columnRun_Live {mid : Int} {st0 st : Store} {ops : List ColumnOp} {l : List Int}
    (h : columnRun mid (st0, []) ops = some (st, l)) : Live st mid l := by
  unfold columnRun at h
  exact foldlM_inv (fun (s : Store × List Int) => Live s.1 mid s.2) (columnStep mid) ops
    (fun b op b' _ hb hstep => columnStep_Live hb hstep) (st0, []) (st, l)
    ⟨List.nodup_nil, trivial, fun hne => absurd rfl hne⟩ h

/-- C4 (amended): after `FirstColumn` on a MANode and any further
non-aborting `ColumnAppend`, `ColumnPrepend` next to live columns and
`RemoveNullColumn` of live columns other than the first and the last, the
live columns `l` (kept in list order by `columnStep`) form a consistent
doubly linked list: following `next` from `MANode.first` visits exactly the
live columns, each once, and ends in `MANode.last`; a live column has
`prev = -1` exactly when it is `first` and `next = -1` exactly when it is
`last`; and `c.next = d` implies `d.prev = c`. -/
theorem columnList_wellformed (mid : Int) (st0 st : Store) (ops : List ColumnOp)
    (l : List Int) (hrun : columnRun mid (st0, []) ops = some (st, l)) (hne : l ≠ []) :
    ∃ m, GetMANode st mid = some m ∧
      columnWalk st (st.columnStore.length + 1) m.first = some l ∧ l.Nodup ∧
      l.getLast? = some m.last ∧
      ∀ c, c ∈ l → ∃ col, GetColumn st c = some col ∧
        (col.prev = -1 ↔ c = m.first) ∧ (col.next = -1 ↔ c = m.last) ∧
        (col.next ≠ -1 → col.next ∈ l ∧ ∃ d, GetColumn st col.next = some d ∧ d.prev = c) := by
  obtain ⟨hnd, hlk, hends⟩ := columnRun_Live hrun
  obtain ⟨e, he, hh, hlast⟩ := hends hne
  unfold EndsAt at he
  cases hm : GetMANode st mid with
  | none => simp [hm] at he
  | some m =>
    simp only [hm, Option.map_some', Option.some.injEq] at he
    subst he
    simp only at hh hlast
    have hneg : (-1 : Int) ∉ l := fun hmem => by
      have := Linked_nonneg hlk hmem
      omega
    have hlen : l.length ≤ st.columnStore.length :=
      nodup_length_le _ l hnd (fun c hc => Linked_nonneg hlk hc)
    have hhead : l.headD (-1) = m.first := by
      cases l with
      | nil => exact absurd rfl hne
      | cons y ys => simpa using hh
    refine ⟨m, rfl, ?_, hnd, hlast, fun c hc => ?_⟩
    · rw [← hhead]
      exact Linked_walk l (-1) _ hlk (by omega)
    · obtain ⟨col, hcol, _, _⟩ := Linked_mem l (-1) c hlk hc
      obtain ⟨col0, hc0, hl0⟩ := LinksAt_some hcol
      obtain ⟨_, q2, _⟩ := Linked_prev_ne l (-1) c col hlk hnd hneg hc hcol
      obtain ⟨_, r2⟩ := Linked_next_ne l (-1) c col hlk hnd hc hcol
      have e1 : col.prev = col0.prev := by rw [← hl0]; rfl
      have e2 : col.next = col0.next := by rw [← hl0]; rfl
      rw [e1] at q2
      rw [e2] at r2
      refine ⟨col0, hc0, ?_, ?_, fun hnx => ?_⟩
      · rw [q2, hh]
        constructor
        · intro e; exact (Option.some.inj e).symm
        · intro e; rw [e]
      · rw [r2, hlast]
        constructor
        · intro e; exact (Option.some.inj e).symm
        · intro e; rw [e]
      · have hnx' : col.next ≠ -1 := by rw [e2]; exact hnx
        obtain ⟨d, hd, hdp⟩ := Linked_succ l (-1) c col hlk hc hcol hnx'
        obtain ⟨d0, hd0, hdl⟩ := LinksAt_some hd
        rw [e2] at hd0
        refine ⟨?_, d0, hd0, ?_⟩
        · rcases Linked_next_mem l (-1) c col hlk hc hcol with h | h
          · exact absurd h hnx'
          · rw [← e2]; exact h
        · rw [← hdp, ← hdl]
          rfl

/-- Witness of C4 (amended): the calls `opsAGGT` on the read `A--T`. -/
theorem columnList_wellformed_witness :
    ∃ st, columnRun 0 (nodeAGGT, []) opsAGGT = some (st, [0, 2, 3]) ∧
      ∃ m, GetMANode st 0 = some m ∧
        columnWalk st (st.columnStore.length + 1) m.first = some [0, 2, 3] ∧
        [0, 2, (3 : Int)].Nodup ∧ [0, 2, (3 : Int)].getLast? = some m.last ∧
        ∀ c, c ∈ [0, 2, (3 : Int)] → ∃ col, GetColumn st c = some col ∧
          (col.prev = -1 ↔ c = m.first) ∧ (col.next = -1 ↔ c = m.last) ∧
          (col.next ≠ -1 → col.next ∈ [0, 2, (3 : Int)] ∧
            ∃ d, GetColumn st col.next = some d ∧ d.prev = c) := by
  refine ⟨_, rfl, ?_⟩
  exact columnList_wellformed 0 nodeAGGT _ opsAGGT [0, 2, 3] (by rfl) (by decide)

/-- C4 as stated fails when `RemoveNullColumn` takes the last or the first
column: the MANode is not told.  Over the read `A-`, removing the last
column (1) leaves `MANode.last = 1` although column 0, now the only live
column, has `next = -1` and the walk from `first` is `[0]`.  Over the read
`-A`, removing the first column (0) leaves `MANode.first = 0` although
column 1 has `prev = -1`, and the walk from `first` still passes through the
removed column. -/
theorem removeNullColumn_ends :
    removeEndOutcome ['A', '-'] 1 0 = some (0, 1, some [0], -1, -1) ∧
    removeEndOutcome ['-', 'A'] 0 1 = some (0, 1, some [0, 1], -1, -1) := by
  constructor <;> decide!

theorem VertAt_some {st : Store} {j : Int} {v : Bead} (h : VertAt st j = some v) :
    ∃ b, GetBead st j = some b ∧ b.vert = v := by
  unfold VertAt at h
  cases hb : GetBead st j with
  | none => simp [hb] at h
  | some b =>
    simp [hb] at h
    exact ⟨b, rfl, h⟩

theorem VertAt_of_get {st : Store} {j : Int} {b : Bead} (h : GetBead st j = some b) :
    VertAt st j = some b.vert := by
  simp [VertAt, h]

theorem VertAt_range {st : Store} {j : Int} {v : Bead} (h : VertAt st j = some v) :
    0 ≤ j ∧ j < st.beadStore.length := by
  obtain ⟨b, hb, _⟩ := VertAt_some h
  exact GetBead_some_range hb

theorem ColVertAt_some {st : Store} {c : Int} {v : Column} (h : ColVertAt st c = some v) :
    ∃ col, GetColumn st c = some col ∧ col.vert = v := by
  unfold ColVertAt at h
  cases hb : GetColumn st c with
  | none => simp [hb] at h
  | some b =>
    simp [hb] at h
    exact ⟨b, rfl, h⟩

theorem ColVertAt_of_get {st : Store} {c : Int} {col : Column} (h : GetColumn st c = some col) :
    ColVertAt st c = some col.vert := by
  simp [ColVertAt, h]

theorem ColVertAt_range {st : Store} {c : Int} {v : Column} (h : ColVertAt st c = some v) :
    0 ≤ c ∧ c < st.columnStore.length := by
  obtain ⟨col, hc, _⟩ := ColVertAt_some h
  exact (getAt_isSome_iff st.columnStore c).mp (by unfold GetColumn at hc; rw [hc]; rfl)

/-- Reading the column-placing fields after a write of one of them. -/
theorem modBead_vert {st st' : Store} {i : Int} {f : Bead → Bead}
    (h : modBead st i f = some st') (hf : ∀ y, (f y).vert = f y.vert) :
    (∀ j, VertAt st' j = if j = i then (VertAt st i).map f else VertAt st j) ∧
      SameRest st st' := by
  obtain ⟨hget, hs⟩ := modBead_get h
  refine ⟨fun j => ?_, hs⟩
  unfold VertAt
  rw [hget j]
  by_cases hj : j = i
  · simp only [hj, if_true, Option.map_map]
    congr 1
    funext c
    exact hf c
  · simp [hj]

/-- Reading the column-placing fields after a write that acts on them as `g`. -/
theorem modBead_vert2 {st st' : Store} {i : Int} {f : Bead → Bead}
    (h : modBead st i f = some st') (g : Bead → Bead) (hf : ∀ y, (f y).vert = g y.vert) :
    (∀ j, VertAt st' j = if j = i then (VertAt st i).map g else VertAt st j) ∧
      SameRest st st' := by
  obtain ⟨hget, hs⟩ := modBead_get h
  refine ⟨fun j => ?_, hs⟩
  unfold VertAt
  rw [hget j]
  by_cases hj : j = i
  · simp only [hj, if_true, Option.map_map]
    congr 1
    funext c
    exact hf c
  · simp [hj]

/-- A write of a fragment-chain field leaves the column-placing fields. -/
theorem modBead_vert_same {st st' : Store} {i : Int} {f : Bead → Bead}
    (h : modBead st i f = some st') (hf : ∀ y, (f y).vert = y.vert) :
    (∀ j, VertAt st' j = VertAt st j) ∧ SameRest st st' := by
  obtain ⟨hget, hs⟩ := modBead_get h
  refine ⟨fun j => ?_, hs⟩
  unfold VertAt
  rw [hget j]
  by_cases hj : j = i
  · subst hj
    cases hb : GetBead st j with
    | none => simp
    | some b => simp [hf b]
  · simp [hj]

theorem patchBead_vert {st st' : Store} {x : Int} {f : Bead → Bead}
    (h : patchBead st x f = some st') (hf : ∀ y, (f y).vert = f y.vert) :
    (∀ j, VertAt st' j = if x ≠ -1 ∧ j = x then (VertAt st x).map f else VertAt st j) ∧
      SameRest st st' := by
  unfold patchBead at h
  by_cases hx : x ≠ -1
  · rw [if_pos hx] at h
    obtain ⟨h1, h2⟩ := modBead_vert h hf
    refine ⟨fun j => ?_, h2⟩
    rw [h1 j]
    simp [hx]
  · rw [if_neg hx] at h
    simp at h
    subst h
    exact ⟨fun j => by simp [hx], SameRest.refl _⟩

theorem patchBead_vert_same {st st' : Store} {x : Int} {f : Bead → Bead}
    (h : patchBead st x f = some st') (hf : ∀ y, (f y).vert = y.vert) :
    (∀ j, VertAt st' j = VertAt st j) ∧ SameRest st st' := by
  unfold patchBead at h
  by_cases hx : x ≠ -1
  · rw [if_pos hx] at h
    exact modBead_vert_same h hf
  · rw [if_neg hx] at h
    simp at h
    subst h
    exact ⟨fun j => rfl, SameRest.refl _⟩

theorem SameRest.colVert {st st' : Store} (h : SameRest st st') (c : Int) :
    ColVertAt st' c = ColVertAt st c := by
  unfold ColVertAt GetColumn
  rw [h.2.2.1]

theorem beadChar_of_vert {st st' : Store} (hs : st'.sequenceStore = st.sequenceStore)
    {b : Int} (hv : VertAt st' b = VertAt st b) : beadChar st' b = beadChar st b := by
  unfold beadChar GetBase
  unfold VertAt at hv
  cases h1 : GetBead st' b with
  | none =>
    cases h2 : GetBead st b with
    | none => rfl
    | some y => simp [h1, h2] at hv
  | some x =>
    cases h2 : GetBead st b with
    | none => simp [h1, h2] at hv
    | some y =>
      simp only [h1, h2, Option.map_some', Option.some.injEq] at hv
      have h3 : x.vert.soffset = y.vert.soffset := congrArg Bead.soffset hv
      have : x.soffset = y.soffset := h3
      simp only [this, hs]

theorem VertAt_congr {st st' : Store} (h : st'.beadStore = st.beadStore) (j : Int) :
    VertAt st' j = VertAt st j := by
  unfold VertAt GetBead
  rw [h]

theorem ColVertAt_congr {st st' : Store} (h : st'.columnStore = st.columnStore) (c : Int) :
    ColVertAt st' c = ColVertAt st c := by
  unfold ColVertAt GetColumn
  rw [h]

theorem tally_vert {st st' : Store} {cid : Int} {col : Column} {bc : BaseCount}
    (hc : GetColumn st cid = some col)
    (hs : st' = { st with columnStore := setAt st.columnStore cid { col with base_count := bc } }) :
    (∀ c, ColVertAt st' c =
        if c = cid then some { col.vert with base_count := bc } else ColVertAt st c) ∧
      st'.beadStore = st.beadStore ∧ st'.sequenceStore = st.sequenceStore := by
  subst hs
  refine ⟨fun c => ?_, rfl, rfl⟩
  unfold ColVertAt GetColumn at *
  simp only
  rw [getAt_setAt, hc]
  by_cases h : c = cid
  · simp [h, Column.vert]
  · simp [h]

theorem incColumn_vert {st st' : Store} {cid : Int} {c : Char} (h : incColumn st cid c = some st') :
    ∃ col bc, GetColumn st cid = some col ∧ IncBaseCount col.base_count c = some bc ∧
      (∀ c, ColVertAt st' c =
        if c = cid then some { col.vert with base_count := bc } else ColVertAt st c) ∧
      st'.beadStore = st.beadStore ∧ st'.sequenceStore = st.sequenceStore := by
  obtain ⟨col, bc, hc, hb, hs⟩ := incColumn_spec h
  exact ⟨col, bc, hc, hb, tally_vert hc hs⟩

theorem decColumn_vert {st st' : Store} {cid : Int} {c : Char} (h : decColumn st cid c = some st') :
    ∃ col bc, GetColumn st cid = some col ∧ DecBaseCount col.base_count c = some bc ∧
      (∀ c, ColVertAt st' c =
        if c = cid then some { col.vert with base_count := bc } else ColVertAt st c) ∧
      st'.beadStore = st.beadStore ∧ st'.sequenceStore = st.sequenceStore := by
  unfold decColumn at h
  cases hc : GetColumn st cid with
  | none => simp [hc] at h
  | some col =>
    cases hb : DecBaseCount col.base_count c with
    | none => simp [hc, hb] at h
    | some bc =>
      simp [hc, hb] at h
      exact ⟨col, bc, rfl, hb, tally_vert hc h.symm⟩

theorem modBead_soff {st st' : Store} {i : Int} {f : Bead → Bead}
    (h : modBead st i f = some st') (hf : ∀ y, (f y).soffset = y.soffset) (j : Int) :
    (GetBead st' j).map Bead.soffset = (GetBead st j).map Bead.soffset := by
  rw [(modBead_get h).1 j]
  by_cases hj : j = i
  · subst hj
    cases hb : GetBead st j with
    | none => simp
    | some b => simp [hf b]
  · simp [hj]

/-- What `AlignBead` leaves in the columns, bead by bead, when the aligned
bead is neither the call bead of the column nor the bead under it. -/
theorem AlignBead_vert {st st' : Store} {cid bid r : Int}
    (h : AlignBead st cid bid = some (st', r)) :
    ∃ column call first align c bc, GetColumn st cid = some column ∧
      GetBead st column.call = some call ∧ GetBead st call.down = some first ∧
      GetBead st bid = some align ∧ GetBase st align.soffset = some c ∧
      IncBaseCount column.base_count c = some bc ∧
      st'.sequenceStore = st.sequenceStore ∧
      (∀ k, ColVertAt st' k =
        if k = cid then some { column.vert with base_count := bc } else ColVertAt st k) ∧
      (column.call ≠ bid → call.down ≠ bid → column.call ≠ call.down →
        ∀ j, VertAt st' j =
          if j = bid then
            some { align.vert with down := first.boffset, up := call.boffset, column_index := cid }
          else if j = column.call then some { call.vert with down := align.boffset }
          else if j = call.down then some { first.vert with up := align.boffset }
          else VertAt st j) := by
  unfold AlignBead at h
  simp only [Option.bind_eq_bind, Option.bind_eq_some, Option.pure_def, Option.some.injEq,
    Prod.mk.injEq] at h
  obtain ⟨column, hcol, call, hcall, first, hfirst, align, halign, s1, h1, s2, h2, s3, h3, s4, h4,
    s5, h5, a, ha, c, hc, s6, h6, rfl, _⟩ := h
  obtain ⟨v1, r1⟩ := modBead_vert h1 (fun _ => rfl)
  obtain ⟨v2, r2⟩ := modBead_vert h2 (fun _ => rfl)
  obtain ⟨v3, r3⟩ := modBead_vert h3 (fun _ => rfl)
  obtain ⟨v4, r4⟩ := modBead_vert h4 (fun _ => rfl)
  obtain ⟨v5, r5⟩ := modBead_vert h5 (fun _ => rfl)
  have r15 : SameRest st s5 := (((r1.trans r2).trans r3).trans r4).trans r5
  obtain ⟨col6, bc, hc6, hbc, hcv, hb6, hs6⟩ := incColumn_vert h6
  have hcol5 : GetColumn s5 cid = GetColumn st cid := by
    unfold GetColumn; rw [r15.2.2.1]
  rw [hcol5, hcol] at hc6
  cases hc6
  have hsoff : a.soffset = align.soffset := by
    have e := (modBead_soff h5 (fun _ => rfl) bid).trans ((modBead_soff h4 (fun _ => rfl) bid).trans
      ((modBead_soff h3 (fun _ => rfl) bid).trans ((modBead_soff h2 (fun _ => rfl) bid).trans
      (modBead_soff h1 (fun _ => rfl) bid))))
    rw [ha, halign] at e
    simpa using e
  have hbase : GetBase st align.soffset = some c := by
    rw [← hsoff]
    unfold GetBase at hc ⊢
    rw [← r15.1]
    exact hc
  refine ⟨column, call, first, align, c, bc, hcol, hcall, hfirst, halign, hbase, hbc,
    hs6.trans r15.1, ?_, ?_⟩
  · intro k
    rw [hcv k]
    by_cases hk : k = cid
    · simp [hk]
    · simp only [hk, if_false]
      exact ColVertAt_congr r15.2.2.1 k
  · intro hK hF hKF j
    have hF2 : bid ≠ call.down := Ne.symm hF
    have hK2 : bid ≠ column.call := Ne.symm hK
    have hKF2 : call.down ≠ column.call := Ne.symm hKF
    rw [VertAt_congr hb6 j]
    simp only [v5, v4, v3, v2, v1]
    simp only [VertAt_of_get halign, VertAt_of_get hcall, VertAt_of_get hfirst, hF, hF2, hK,
      hK2, hKF, hKF2, if_true, if_false, Option.map_some']
    by_cases hj : j = bid
    · simp [hj, hF2, hK2, Bead.vert]
    · by_cases hj2 : j = column.call
      · simp [hj, hj2, hK, hKF, Bead.vert]
      · by_cases hj3 : j = call.down
        · simp [hj3, hF, hKF2, Bead.vert, VertAt_of_get hfirst]
        · simp [hj, hj2, hj3]

/-- What `UnAlignBead` leaves in the columns, bead by bead, for a bead that is
in a column and is neither the bead above nor the bead below itself. -/
theorem UnAlignBead_vert {st st' : Store} {bid r : Int} {bead : Bead}
    (h : UnAlignBead st bid = some (st', r)) (hb : GetBead st bid = some bead)
    (hc : bead.column_index ≠ -1) :
    ∃ col upbead bchar bc, GetColumn st bead.column_index = some col ∧
      GetBead st bead.up = some upbead ∧ GetBase st bead.soffset = some bchar ∧
      DecBaseCount col.base_count bchar = some bc ∧
      st'.sequenceStore = st.sequenceStore ∧
      (∀ k, ColVertAt st' k =
        if k = bead.column_index then some { col.vert with base_count := bc }
        else ColVertAt st k) ∧
      (bead.up ≠ bid → bead.down ≠ bid → bead.up ≠ bead.down →
        ∀ j, VertAt st' j =
          if j = bid then some { bead.vert with up := -1, down := -1, column_index := -1 }
          else if j = bead.up then some { upbead.vert with down := bead.down }
          else if bead.down ≠ -1 ∧ j = bead.down then
            (VertAt st j).map (fun b => { b with up := upbead.boffset })
          else VertAt st j) := by
  obtain ⟨bead0, hb0, h⟩ := UnAlignBead_steps h
  rw [hb] at hb0
  cases hb0
  rcases h with ⟨h0, _⟩ | ⟨_, col, upbead, bchar, s1, bead1, s2, s3, s4, s5, hcol, hup, hch, h1, hb1,
    h2, h3, h4, h5, h6, _⟩
  · exact absurd h0 hc
  obtain ⟨v1, r1⟩ := modBead_vert h1 (fun _ => rfl)
  obtain ⟨v2, r2⟩ := patchBead_vert h2 (fun _ => rfl)
  obtain ⟨col3, bc, hc3, hbc, hcv, hb3, hs3⟩ := decColumn_vert h3
  obtain ⟨v4, r4⟩ := modBead_vert h4 (fun _ => rfl)
  obtain ⟨v5, r5⟩ := modBead_vert h5 (fun _ => rfl)
  obtain ⟨v6, r6⟩ := modBead_vert h6 (fun _ => rfl)
  have r12 : SameRest st s2 := r1.trans r2
  have r36 : SameRest s3 st' := (r4.trans r5).trans r6
  have hcol2 : GetColumn s2 bead.column_index = GetColumn st bead.column_index := by
    unfold GetColumn; rw [r12.2.2.1]
  rw [hcol2, hcol] at hc3
  cases hc3
  refine ⟨col, upbead, bchar, bc, hcol, hup, hch, hbc, ?_, ?_, ?_⟩
  · rw [r36.1, hs3, r12.1]
  · intro k
    rw [ColVertAt_congr r36.2.2.1 k, hcv k]
    by_cases hk : k = bead.column_index
    · simp [hk]
    · simp only [hk, if_false]
      exact ColVertAt_congr r12.2.2.1 k
  · intro hU hD hUD j
    have hb1e : bead1 = bead := by
      have e := (modBead_get h1).1 bid
      rw [if_neg (Ne.symm hU), hb, hb1] at e
      exact Option.some.inj e
    subst hb1e
    have hU2 : bid ≠ bead1.up := Ne.symm hU
    have hD2 : bid ≠ bead1.down := Ne.symm hD
    have hUD2 : bead1.down ≠ bead1.up := Ne.symm hUD
    simp only [v6, v5, v4]
    simp only [VertAt_congr hb3, v2, v1]
    simp only [VertAt_of_get hb, VertAt_of_get hup, hU, hU2, hD, hD2, hUD, hUD2, if_true,
      if_false, Option.map_some', and_false]
    by_cases hj : j = bid
    · simp [hj, hU2, hD2, Bead.vert]
    · by_cases hj2 : j = bead1.up
      · simp [hj, hj2, hU, hUD, Bead.vert]
      · by_cases hj3 : j = bead1.down
        · simp [hj, hj3, hD, hUD2]
        · simp [hj, hj2, hj3]

theorem VertAt_push (st : Store) (nb : Bead) (sq qv : List Char) (i : Int) :
    VertAt { st with beadStore := st.beadStore ++ [nb], sequenceStore := sq, qualityStore := qv } i =
      if i = (st.beadStore.length : Int) then some nb.vert else VertAt st i := by
  unfold VertAt GetBead
  simp only
  rw [getAt_append_singleton]
  by_cases hi : i = (st.beadStore.length : Int)
  · simp [hi]
  · simp [hi]

theorem GetBead_push (st : Store) (nb : Bead) (sq qv : List Char) {i : Int} {b : Bead}
    (hb : GetBead st i = some b) :
    GetBead { st with beadStore := st.beadStore ++ [nb], sequenceStore := sq, qualityStore := qv } i =
      some b := by
  unfold GetBead at hb ⊢
  exact getAt_append_some hb

/-- What `CreateColumn` leaves in the columns, bead by bead. -/
theorem CreateColumn_vert {st st' : Store} {bid lid : Int} {b : Bead}
    (h : CreateColumn st bid = some (st', lid)) (hb : GetBead st bid = some b) :
    ∃ c bc, lid = st.columnStore.length ∧
      GetBase st' b.soffset = some c ∧ IncBaseCount ResetBaseCount c = some bc ∧
      st'.sequenceStore = st.sequenceStore ++ ['n'] ∧
      (∀ k, ColVertAt st' k =
        if k = lid then
          some (Column.vert (Column.mk lid (st.beadStore.length) (-1) (-1) (-1) (-1) bc))
        else ColVertAt st k) ∧
      (∀ j, VertAt st' j =
        if j = bid then some { b.vert with up := st.beadStore.length, column_index := lid }
        else if j = st.beadStore.length then
          some (Bead.vert (Bead.mk st.beadStore.length st.sequenceStore.length 0 (-1) (-1) (-1)
            bid (-1) lid))
        else VertAt st j) := by
  unfold CreateColumn at h
  simp only [Option.bind_eq_bind, Option.bind_eq_some, Option.pure_def, Option.some.injEq,
    Prod.mk.injEq] at h
  obtain ⟨s1, h1, s2, h2, head, hhead, c, hc, bc, hbc, rfl, rfl⟩ := h
  obtain ⟨v1, r1⟩ := modBead_vert h1 (fun _ => rfl)
  obtain ⟨v2, r2⟩ := modBead_vert h2 (fun _ => rfl)
  have r12 := r1.trans r2
  have hrange := GetBead_some_range hb
  have hne : bid ≠ (st.beadStore.length : Int) := by omega
  have hsoff : head.soffset = b.soffset := by
    have e := (modBead_soff h2 (fun _ => rfl) bid).trans (modBead_soff h1 (fun _ => rfl) bid)
    rw [hhead, GetBead_push st _ _ _ hb] at e
    simpa using e
  refine ⟨c, bc, rfl, ?_, hbc, ?_, ?_, ?_⟩
  · rw [← hsoff]
    exact hc
  · show s2.sequenceStore = _
    rw [r12.1]
  · intro k
    unfold ColVertAt GetColumn
    simp only [r12.2.2.1]
    rw [getAt_append_singleton]
    by_cases hk : k = (st.columnStore.length : Int)
    · simp [hk]
    · simp [hk]
  · intro j
    show VertAt s2 j = _
    simp only [v2, v1]
    simp only [VertAt_push, hne, if_false, VertAt_of_get hb, if_true, Option.map_some']
    by_cases hj : j = bid
    · simp [hj, Bead.vert]
    · simp [hj]

theorem VertAt_get {st : Store} {j : Int} {b v : Bead} (hb : GetBead st j = some b)
    (hv : VertAt st j = some v) : b.up = v.up ∧ b.down = v.down ∧
      b.column_index = v.column_index := by
  rw [VertAt_of_get hb] at hv
  have := Option.some.inj hv
  subst this
  exact ⟨rfl, rfl, rfl⟩

theorem neg_one_guard (x : Int) : (¬ x = -1 ∧ -1 = x) ↔ False :=
  ⟨fun h => h.1 h.2.symm, False.elim⟩

theorem exchangeRight_vert {st st' : Store} {rid : Int} {L R : Bead}
    (h : exchangeRight st rid L = some st') (hR : GetBead st rid = some R)
    (h1 : L.up ≠ rid) (h2 : L.down ≠ rid) (h3 : L.up ≠ L.down) :
    (∀ j, VertAt st' j =
      if j = rid then some { R.vert with up := L.up, down := L.down }
      else if L.up ≠ -1 ∧ j = L.up then (VertAt st j).map (fun b => { b with down := rid })
      else if L.down ≠ -1 ∧ j = L.down then (VertAt st j).map (fun b => { b with up := rid })
      else VertAt st j) ∧ SameRest st st' := by
  unfold exchangeRight at h
  simp only [Option.bind_eq_bind, Option.bind_eq_some, Option.pure_def, Option.some.injEq,
    Prod.mk.injEq] at h
  obtain ⟨s1, m1, r1, hr1, s2, m2, r2, hr2, s3, m3, r3, hr3, m4⟩ := h
  obtain ⟨v1, e1⟩ := modBead_vert2 m1 (fun b => { b with up := L.up, down := L.down })
    (fun _ => rfl)
  obtain ⟨v2, e2⟩ := patchBead_vert m2 (fun _ => rfl)
  obtain ⟨v3, e3⟩ := patchBead_vert m3 (fun _ => rfl)
  obtain ⟨v4, e4⟩ := patchBead_vert_same m4 (fun _ => rfl)
  have a1 : VertAt s1 rid = some { R.vert with up := L.up, down := L.down } := by
    rw [v1, if_pos rfl, VertAt_of_get hR]; rfl
  have q1 : r1.up = L.up := (VertAt_get hr1 a1).1
  rw [q1] at v2
  have a2 : VertAt s2 rid = some { R.vert with up := L.up, down := L.down } := by
    rw [v2, if_neg (by intro hx; exact h1 hx.2.symm), a1]
  have q2 : r2.down = L.down := (VertAt_get hr2 a2).2.1
  rw [q2] at v3
  refine ⟨fun j => ?_, ((e1.trans e2).trans e3).trans e4⟩
  simp only [v4, v3, v2, v1]
  have h1' : rid ≠ L.up := Ne.symm h1
  have h2' : rid ≠ L.down := Ne.symm h2
  have h3' : L.down ≠ L.up := Ne.symm h3
  have hr0 : (-1 : Int) ≠ rid := by have := GetBead_some_range hR; omega
  by_cases hj : j = rid
  · subst hj
    simp [h1', h2', h1, h2, VertAt_of_get hR]
  · by_cases hj2 : j = L.up
    · subst hj2
      by_cases hu : L.up = -1
      · simp [hu, hr0, neg_one_guard]
      · simp [hj, hu, h1, h3, h3']
    · by_cases hj3 : j = L.down
      · subst hj3
        by_cases hd : L.down = -1
        · simp [hd, hr0, neg_one_guard]
        · simp [hj, hd, h2, h3, h3', hj2]
      · simp [hj, hj2, hj3]

theorem exchangeLeft_vert {st st' : Store} {lid : Int} {L R : Bead}
    (h : exchangeLeft st lid R = some st') (hL : GetBead st lid = some L)
    (h1 : R.up ≠ lid) (h2 : R.down ≠ lid) (h3 : R.up ≠ R.down) :
    (∀ j, VertAt st' j =
      if j = lid then some { L.vert with up := R.up, down := R.down }
      else if R.up ≠ -1 ∧ j = R.up then (VertAt st j).map (fun b => { b with down := lid })
      else if R.down ≠ -1 ∧ j = R.down then (VertAt st j).map (fun b => { b with up := lid })
      else VertAt st j) ∧ SameRest st st' := by
  unfold exchangeLeft at h
  simp only [Option.bind_eq_bind, Option.bind_eq_some, Option.pure_def, Option.some.injEq,
    Prod.mk.injEq] at h
  obtain ⟨s1, m1, r1, hr1, s2, m2, r2, hr2, s3, m3, r3, hr3, m4⟩ := h
  obtain ⟨v1, e1⟩ := modBead_vert2 m1 (fun b => { b with up := R.up, down := R.down })
    (fun _ => rfl)
  obtain ⟨v2, e2⟩ := patchBead_vert m2 (fun _ => rfl)
  obtain ⟨v3, e3⟩ := patchBead_vert m3 (fun _ => rfl)
  obtain ⟨v4, e4⟩ := patchBead_vert_same m4 (fun _ => rfl)
  have a1 : VertAt s1 lid = some { L.vert with up := R.up, down := R.down } := by
    rw [v1, if_pos rfl, VertAt_of_get hL]; rfl
  have q1 : r1.up = R.up := (VertAt_get hr1 a1).1
  rw [q1] at v2
  have a2 : VertAt s2 lid = some { L.vert with up := R.up, down := R.down } := by
    rw [v2, if_neg (by intro hx; exact h1 hx.2.symm), a1]
  have q2 : r2.down = R.down := (VertAt_get hr2 a2).2.1
  rw [q2] at v3
  refine ⟨fun j => ?_, ((e1.trans e2).trans e3).trans e4⟩
  simp only [v4, v3, v2, v1]
  have h1' : lid ≠ R.up := Ne.symm h1
  have h2' : lid ≠ R.down := Ne.symm h2
  have h3' : R.down ≠ R.up := Ne.symm h3
  have hr0 : (-1 : Int) ≠ lid := by have := GetBead_some_range hL; omega
  by_cases hj : j = lid
  · subst hj
    simp [h1', h2', h1, h2, VertAt_of_get hL]
  · by_cases hj2 : j = R.up
    · subst hj2
      by_cases hu : R.up = -1
      · simp [hu, hr0, neg_one_guard]
      · simp [hj, hu, h1, h3, h3']
    · by_cases hj3 : j = R.down
      · subst hj3
        by_cases hd : R.down = -1
        · simp [hd, hr0, neg_one_guard]
        · simp [hj, hd, h2, h3, h3', hj2]
      · simp [hj, hj2, hj3]

theorem exchangeClose_vert {st st' : Store} {lid rid : Int} {R : Bead}
    (h : exchangeClose st lid rid R = some st') :
    (∀ j, VertAt st' j = VertAt st j) ∧ SameRest st st' := by
  unfold exchangeClose at h
  by_cases hc : R.prev = lid
  · rw [if_pos hc] at h
    simp only [Option.bind_eq_bind, Option.bind_eq_some] at h
    obtain ⟨s1, m1, m2⟩ := h
    obtain ⟨v1, e1⟩ := modBead_vert_same m1 (fun _ => rfl)
    obtain ⟨v2, e2⟩ := modBead_vert_same m2 (fun _ => rfl)
    exact ⟨fun j => (v2 j).trans (v1 j), e1.trans e2⟩
  · rw [if_neg hc] at h
    simp only [Option.bind_eq_bind, Option.bind_eq_some] at h
    obtain ⟨r, _, s1, m1, l, _, m2⟩ := h
    obtain ⟨v1, e1⟩ := patchBead_vert_same m1 (fun _ => rfl)
    obtain ⟨v2, e2⟩ := patchBead_vert_same m2 (fun _ => rfl)
    exact ⟨fun j => (v2 j).trans (v1 j), e1.trans e2⟩

theorem ColVertAt_get {st : Store} {k : Int} {c v : Column} (hc : GetColumn st k = some c)
    (hv : ColVertAt st k = some v) : c.base_count = v.base_count ∧ c.call = v.call ∧
      c.lid = v.lid := by
  rw [ColVertAt_of_get hc] at hv
  have := Option.some.inj hv
  subst this
  exact ⟨rfl, rfl, rfl⟩

theorem exchangeColumns_vert {st st' : Store} {lid rid : Int} {L R l : Bead} {lc rc : Char}
    {colL colR : Column}
    (h : exchangeColumns st lid rid L R lc rc = some st') (hl : GetBead st lid = some l)
    (hne : lid ≠ rid) (hcl : GetColumn st L.column_index = some colL)
    (hcr : GetColumn st R.column_index = some colR) (hc : L.column_index ≠ R.column_index) :
    (∀ j, VertAt st' j =
      if j = lid then (VertAt st j).map (fun b => { b with column_index := R.column_index })
      else if j = rid then (VertAt st j).map (fun b => { b with column_index := l.column_index })
      else VertAt st j) ∧
    st'.sequenceStore = st.sequenceStore ∧
    ∃ b1 bl b2 br, DecBaseCount colL.base_count lc = some b1 ∧ IncBaseCount b1 rc = some bl ∧
      DecBaseCount colR.base_count rc = some b2 ∧ IncBaseCount b2 lc = some br ∧
      ∀ k, ColVertAt st' k =
        if k = L.column_index then some { colL.vert with base_count := bl }
        else if k = R.column_index then some { colR.vert with base_count := br }
        else ColVertAt st k := by
  unfold exchangeColumns at h
  simp only [Option.bind_eq_bind, Option.bind_eq_some, Option.pure_def, Option.some.injEq,
    Prod.mk.injEq] at h
  obtain ⟨l0, hl0, s1, m1, s2, m2, s3, m3, s4, m4, s5, m5, m6⟩ := h
  rw [hl] at hl0
  cases hl0
  obtain ⟨v1, e1⟩ := modBead_vert m1 (fun _ => rfl)
  obtain ⟨v2, e2⟩ := modBead_vert m2 (fun _ => rfl)
  have e12 := e1.trans e2
  obtain ⟨c3, b1, g3, d3, cv3, bs3, sq3⟩ := decColumn_vert m3
  obtain ⟨c4, bl, g4, d4, cv4, bs4, sq4⟩ := incColumn_vert m4
  obtain ⟨c5, b2, g5, d5, cv5, bs5, sq5⟩ := decColumn_vert m5
  obtain ⟨c6, br, g6, d6, cv6, bs6, sq6⟩ := incColumn_vert m6
  have k2 : ∀ k, ColVertAt s2 k = ColVertAt st k := ColVertAt_congr e12.2.2.1
  have x3 : c3 = colL := by
    have : GetColumn s2 L.column_index = GetColumn st L.column_index := by
      unfold GetColumn; rw [e12.2.2.1]
    rw [this, hcl] at g3
    exact (Option.some.inj g3).symm
  subst x3
  have x4 : c4.base_count = b1 := by
    have := cv3 L.column_index
    rw [if_pos rfl] at this
    exact (ColVertAt_get g4 this).1
  rw [x4] at d4
  have y5 : ColVertAt s4 R.column_index = some colR.vert := by
    rw [cv4, if_neg (Ne.symm hc), cv3, if_neg (Ne.symm hc), k2, ColVertAt_of_get hcr]
  have x5 : c5.base_count = colR.base_count := (ColVertAt_get g5 y5).1
  rw [x5] at d5
  have x6 : c6.base_count = b2 := by
    have := cv5 R.column_index
    rw [if_pos rfl] at this
    exact (ColVertAt_get g6 this).1
  rw [x6] at d6
  have z3 : c3.vert = c3.vert := rfl
  have w4 : c4.vert = { c3.vert with base_count := b1 } := by
    have := cv3 L.column_index
    rw [if_pos rfl, ColVertAt_of_get g4] at this
    exact Option.some.inj this
  have w5 : c5.vert = colR.vert := by
    rw [ColVertAt_of_get g5] at y5
    exact Option.some.inj y5
  have w6 : c6.vert = { colR.vert with base_count := b2 } := by
    have := cv5 R.column_index
    rw [if_pos rfl, ColVertAt_of_get g6, w5] at this
    exact Option.some.inj this
  refine ⟨fun j => ?_, ?_, b1, bl, b2, br, d3, d4, d5, d6, fun k => ?_⟩
  · rw [VertAt_congr bs6, VertAt_congr bs5, VertAt_congr bs4, VertAt_congr bs3]
    simp only [v2, v1]
    by_cases hj : j = lid
    · subst hj
      simp [hne]
    · by_cases hj2 : j = rid
      · subst hj2
        simp [hj]
      · simp [hj, hj2]
  · rw [sq6, sq5, sq4, sq3, e12.1]
  · rw [cv6, cv5, cv4, cv3, k2, w6, w4]
    by_cases hk : k = L.column_index
    · subst hk
      simp [hc]
    · by_cases hk2 : k = R.column_index
      · subst hk2
        simp [hk]
      · simp [hk, hk2]

/-- What `LateralExchangeBead` leaves in the columns, bead by bead, when the
two beads and their four vertical neighbours are all different beads of two
different columns. -/
theorem LateralExchangeBead_vert {st st' : Store} {lid rid r : Int} {L R : Bead}
    (h : LateralExchangeBead st lid rid = some (st', r))
    (hL : GetBead st lid = some L) (hR : GetBead st rid = some R)
    (hlr : lid ≠ rid) (hci : L.column_index ≠ R.column_index)
    (a1 : L.up ≠ rid) (a2 : L.down ≠ rid) (a3 : L.up ≠ lid) (a4 : L.down ≠ lid)
    (a5 : R.up ≠ rid) (a6 : R.down ≠ rid) (a7 : R.up ≠ lid) (a8 : R.down ≠ lid)
    (b1 : L.up ≠ L.down) (b2 : R.up ≠ R.down) (b3 : L.up ≠ R.up) (b4 : L.up ≠ R.down)
    (b5 : L.down ≠ R.up) (b6 : L.down ≠ R.down ∨ L.down = -1) :
    ∃ colL colR lc rc, GetColumn st L.column_index = some colL ∧
      GetColumn st R.column_index = some colR ∧
      GetBase st L.soffset = some lc ∧ GetBase st R.soffset = some rc ∧
      st'.sequenceStore = st.sequenceStore ∧
      (∃ c1 cl c2 cr, DecBaseCount colL.base_count lc = some c1 ∧ IncBaseCount c1 rc = some cl ∧
        DecBaseCount colR.base_count rc = some c2 ∧ IncBaseCount c2 lc = some cr ∧
        ∀ k, ColVertAt st' k =
          if k = L.column_index then some { colL.vert with base_count := cl }
          else if k = R.column_index then some { colR.vert with base_count := cr }
          else ColVertAt st k) ∧
      ∀ j, VertAt st' j =
        if j = rid then
          some { R.vert with up := L.up, down := L.down, column_index := L.column_index }
        else if j = lid then
          some { L.vert with up := R.up, down := R.down, column_index := R.column_index }
        else if L.up ≠ -1 ∧ j = L.up then (VertAt st j).map (fun b => { b with down := rid })
        else if L.down ≠ -1 ∧ j = L.down then (VertAt st j).map (fun b => { b with up := rid })
        else if R.up ≠ -1 ∧ j = R.up then (VertAt st j).map (fun b => { b with down := lid })
        else if R.down ≠ -1 ∧ j = R.down then (VertAt st j).map (fun b => { b with up := lid })
        else VertAt st j := by
  unfold LateralExchangeBead at h
  simp only [Option.bind_eq_bind, Option.bind_eq_some, Option.pure_def, Option.some.injEq,
    Prod.mk.injEq] at h
  obtain ⟨L0, hL0, R0, hR0, colL, hcolL, colR, hcolR, lc, hlc, rc, hrc, _, _, s1, m1, s2, m2, s3,
    m3, s4, m4, rfl, _⟩ := h
  rw [hL] at hL0
  cases hL0
  rw [hR] at hR0
  cases hR0
  obtain ⟨v1, e1⟩ := exchangeRight_vert m1 hR a1 a2 b1
  have hl1v : VertAt s1 lid = some L.vert := by
    rw [v1, if_neg hlr, if_neg (by intro hx; exact a3 hx.2.symm),
      if_neg (by intro hx; exact a4 hx.2.symm), VertAt_of_get hL]
  obtain ⟨L1, hL1, hL1v⟩ := VertAt_some hl1v
  obtain ⟨v2, e2⟩ := exchangeLeft_vert m2 hL1 a7 a8 b2
  rw [hL1v] at v2
  obtain ⟨v3, e3⟩ := exchangeClose_vert m3
  have e13 := (e1.trans e2).trans e3
  have hl3v : VertAt s3 lid = some { L.vert with up := R.up, down := R.down } := by
    rw [v3, v2, if_pos rfl]
  obtain ⟨l3, hl3, hl3e⟩ := VertAt_some hl3v
  have hl3c : l3.column_index = L.column_index := by
    have := (VertAt_get hl3 hl3v).2.2
    exact this
  have hcl3 : GetColumn s3 L.column_index = some colL := by
    unfold GetColumn at hcolL ⊢; rw [e13.2.2.1]; exact hcolL
  have hcr3 : GetColumn s3 R.column_index = some colR := by
    unfold GetColumn at hcolR ⊢; rw [e13.2.2.1]; exact hcolR
  obtain ⟨v4, sq4, c1, cl, c2, cr, d1, d2, d3, d4, cv4⟩ :=
    exchangeColumns_vert m4 hl3 hlr hcl3 hcr3 hci
  refine ⟨colL, colR, lc, rc, hcolL, hcolR, hlc, hrc, sq4.trans e13.1, ⟨c1, cl, c2, cr, d1, d2,
    d3, d4, fun k => ?_⟩, fun j => ?_⟩
  · rw [cv4 k, ColVertAt_congr e13.2.2.1 k]
  · rw [hl3c] at v4
    simp only [v4, v3, v2, v1]
    have hr0 : (-1 : Int) ≠ rid := by have := GetBead_some_range hR; omega
    have hl0 : (-1 : Int) ≠ lid := by have := GetBead_some_range hL; omega
    by_cases hj : j = rid
    · subst hj
      simp [Ne.symm hlr, Ne.symm a5, Ne.symm a6, VertAt_of_get hR, Bead.vert]
    · by_cases hj2 : j = lid
      · subst hj2
        simp [hlr, Bead.vert]
      · by_cases hj3 : j = L.up
        · subst hj3
          by_cases hu : L.up = -1
          · simp [hu, hr0, hl0, neg_one_guard] at hj hj2 ⊢
          · simp [hj, hj2, hu, b3, b4, a1, a3, b1]
        · by_cases hj4 : j = L.down
          · subst hj4
            by_cases hd : L.down = -1
            · simp [hd, hr0, hl0, neg_one_guard] at hj hj2 ⊢
            · have b6' : L.down ≠ R.down := by
                rcases b6 with h | h
                · exact h
                · exact absurd h hd
              simp [hj, hj2, hj3, hd, b5, b6', a2, a4, Ne.symm b1]
          · by_cases hj5 : j = R.up
            · subst hj5
              by_cases hu : R.up = -1
              · simp [hu, hr0, hl0, neg_one_guard] at hj hj2 ⊢
              · simp [hj, hj2, hj3, hj4, hu, b2]
            · by_cases hj6 : j = R.down
              · subst hj6
                by_cases hd : R.down = -1
                · simp [hd, hr0, hl0, neg_one_guard] at hj hj2 ⊢
                · simp [hj, hj2, hj3, hj4, hj5, hd]
              · simp [hj, hj2, hj3, hj4, hj5, hj6]

theorem Chain_top {st : Store} {top : Int} {l : List Int} (h : Chain st top l) :
    ∃ t, VertAt st top = some t ∧ t.down = l.headD (-1) := by
  cases l with
  | nil => exact h
  | cons b l =>
    obtain ⟨t, x, ht, hd, _⟩ := h
    exact ⟨t, ht, hd⟩

theorem Chain_mono {st st' : Store} (hv : ∀ x v, VertAt st x = some v → VertAt st' x = some v) :
    ∀ (l : List Int) (top : Int), Chain st top l → Chain st' top l := by
  intro l
  induction l with
  | nil =>
    intro top h
    obtain ⟨t, ht, hd⟩ := h
    exact ⟨t, hv _ _ ht, hd⟩
  | cons b l ih =>
    intro top h
    obtain ⟨t, x, ht, hd, hx, hu, hc⟩ := h
    exact ⟨t, x, hv _ _ ht, hd, hv _ _ hx, hu, ih b hc⟩

/-- A chain is kept when its beads keep their links; of the top bead only
`down` is read. -/
theorem Chain_frame {st st' : Store} :
    ∀ (l : List Int) (top : Int), Chain st top l →
      (∀ t, VertAt st top = some t → ∃ t', VertAt st' top = some t' ∧ t'.down = t.down) →
      (∀ x, x ∈ l → VertAt st' x = VertAt st x) → Chain st' top l := by
  intro l
  induction l with
  | nil =>
    intro top h htop _
    obtain ⟨t, ht, hd⟩ := h
    obtain ⟨t', ht', hd'⟩ := htop t ht
    exact ⟨t', ht', hd'.trans hd⟩
  | cons b l ih =>
    intro top h htop hl
    obtain ⟨t, x, ht, hd, hx, hu, hc⟩ := h
    obtain ⟨t', ht', hd'⟩ := htop t ht
    refine ⟨t', x, ht', hd'.trans hd, ?_, hu, ?_⟩
    · rw [hl b (List.mem_cons_self _ _)]; exact hx
    · refine ih b hc ?_ (fun y hy => hl y (List.mem_cons_of_mem _ hy))
      intro t2 ht2
      refine ⟨t2, ?_, rfl⟩
      rw [hl b (List.mem_cons_self _ _)]; exact ht2

/-- The neighbours of a bead of a chain are its neighbours in the list. -/
theorem Chain_links {st : Store} :
    ∀ (l : List Int) (top : Int), Chain st top l → ∀ a A, a ∈ l → VertAt st a = some A →
      (A.up = top ∨ A.up ∈ l) ∧ (A.down = -1 ∨ A.down ∈ l) ∧
      ((top :: l).Nodup → A.up ≠ a ∧ A.down ≠ a ∧ A.up ≠ A.down ∧ A.down ≠ top) := by
  intro l
  induction l with
  | nil => intro top _ a A ha; simp at ha
  | cons b l ih =>
    intro top h a A ha hA
    obtain ⟨t, x, ht, hd, hx, hu, hc⟩ := h
    rcases List.mem_cons.mp ha with rfl | ha
    · rw [hx] at hA
      cases hA
      obtain ⟨t2, ht2, hd2⟩ := Chain_top hc
      rw [hx] at ht2
      cases ht2
      have hdown : A.down = -1 ∨ A.down ∈ l := by
        cases l with
        | nil => left; simpa using hd2
        | cons c l => right; rw [hd2]; simp
      refine ⟨Or.inl hu, ?_, ?_⟩
      · rcases hdown with h | h
        · exact Or.inl h
        · exact Or.inr (List.mem_cons_of_mem _ h)
      · intro hn
        have hn1 := List.nodup_cons.mp hn
        have hn2 := List.nodup_cons.mp hn1.2
        have ha0 : 0 ≤ a := (VertAt_range hx).1
        have ht0 : 0 ≤ top := (VertAt_range ht).1
        refine ⟨?_, ?_, ?_, ?_⟩
        · rw [hu]; intro e; exact hn1.1 (e ▸ List.mem_cons_self _ _)
        · rcases hdown with h | h
          · omega
          · intro e; exact hn2.1 (e ▸ h)
        · rw [hu]
          rcases hdown with h | h
          · omega
          · intro e; exact hn1.1 (e ▸ List.mem_cons_of_mem _ h)
        · rcases hdown with h | h
          · omega
          · intro e; exact hn1.1 (e ▸ List.mem_cons_of_mem _ h)
    · obtain ⟨h1, h2, h3⟩ := ih b hc a A ha hA
      refine ⟨?_, ?_, ?_⟩
      · right
        rcases h1 with h | h
        · rw [h]; exact List.mem_cons_self _ _
        · exact List.mem_cons_of_mem _ h
      · rcases h2 with h | h
        · exact Or.inl h
        · exact Or.inr (List.mem_cons_of_mem _ h)
      · intro hn
        have hn1 := List.nodup_cons.mp hn
        obtain ⟨g1, g2, g3, g4⟩ := h3 hn1.2
        refine ⟨g1, g2, g3, ?_⟩
        rcases h2 with h | h
        · have ht0 : 0 ≤ top := (VertAt_range ht).1
          omega
        · intro e; exact hn1.1 (e ▸ List.mem_cons_of_mem _ h)

/-- The walk of `beadsBelow` finds the chain. -/
theorem Chain_beadsBelow {st : Store} :
    ∀ (l : List Int) (top : Int) (fuel : Nat), Chain st top l → l.length < fuel →
      beadsBelow st fuel top = some l := by
  intro l
  induction l with
  | nil =>
    intro top fuel h hf
    obtain ⟨t, ht, hd⟩ := h
    obtain ⟨b, hb, rfl⟩ := VertAt_some ht
    cases fuel with
    | zero => simp at hf
    | succ n =>
      have h0 := (GetBead_some_range hb).1
      have hne : top ≠ -1 := by omega
      unfold beadsBelow
      rw [if_neg hne, hb]
      have : b.down = -1 := hd
      simp [this]
  | cons c l ih =>
    intro top fuel h hf
    obtain ⟨t, x, ht, hd, hx, hu, hc⟩ := h
    obtain ⟨b, hb, rfl⟩ := VertAt_some ht
    cases fuel with
    | zero => simp at hf
    | succ n =>
      have h0 := (GetBead_some_range hb).1
      have hne : top ≠ -1 := by omega
      have hc0 := (VertAt_range hx).1
      have hd' : b.down = c := hd
      have hne2 : b.down ≠ -1 := by omega
      unfold beadsBelow
      rw [if_neg hne, hb]
      simp only [hne2, if_false]
      rw [hd', ih c n hc (by simpa using hf)]

/-- Taking a bead out of a chain. -/
theorem Chain_erase {st st' : Store} {a : Int} {A : Bead} (hA : VertAt st a = some A)
    (hU : ∀ u, VertAt st A.up = some u → VertAt st' A.up = some { u with down := A.down })
    (hD : A.down ≠ -1 → ∀ d, VertAt st A.down = some d →
      VertAt st' A.down = some { d with up := A.up })
    (ho : ∀ x, x ≠ a → x ≠ A.up → x ≠ A.down → VertAt st' x = VertAt st x) :
    ∀ (l : List Int) (top : Int), Chain st top l → (top :: l).Nodup → a ∈ l →
      Chain st' top (l.erase a) := by
  intro l
  induction l with
  | nil => intro top _ _ ha; simp at ha
  | cons y ys ih =>
    intro top h hn ha
    have hlinks := Chain_links _ _ h a A ha hA
    obtain ⟨t, x, ht, hd, hx, hu, hc⟩ := h
    have hn1 := List.nodup_cons.mp hn
    have hn2 := List.nodup_cons.mp hn1.2
    by_cases hya : y = a
    · subst hya
      rw [hx] at hA
      cases hA
      rw [List.erase_cons_head]
      have htop' := hU t (hu ▸ ht)
      rw [hu] at htop'
      cases ys with
      | nil =>
        obtain ⟨t2, ht2, hd2⟩ := hc
        rw [hx] at ht2
        cases ht2
        exact ⟨_, htop', hd2⟩
      | cons z zs =>
        obtain ⟨t2, zv, ht2, hd2, hz, hzu, hzc⟩ := hc
        rw [hx] at ht2
        cases ht2
        have hz0 := (VertAt_range hz).1
        have hdn : A.down ≠ -1 := by omega
        have hz' := hD hdn zv (hd2 ▸ hz)
        rw [hd2] at hz' htop'
        refine ⟨_, _, htop', rfl, hz', hu, ?_⟩
        have hn3 := List.nodup_cons.mp hn2.2
        refine Chain_frame zs z hzc (fun t3 ht3 => ?_) (fun w hw => ?_)
        · rw [hz] at ht3
          cases ht3
          exact ⟨_, hz', rfl⟩
        · apply ho
          · intro e; exact hn2.1 (e ▸ List.mem_cons_of_mem _ hw)
          · rw [hu]; intro e
            exact hn1.1 (e ▸ List.mem_cons_of_mem _ (List.mem_cons_of_mem _ hw))
          · rw [hd2]; intro e; exact hn3.1 (e ▸ hw)
    · have ha' : a ∈ ys := by
        rcases List.mem_cons.mp ha with h | h
        · exact absurd h.symm hya
        · exact h
      have hl2 := Chain_links _ _ hc a A ha' hA
      have hne_top_a : top ≠ a := by intro e; exact hn1.1 (e ▸ ha)
      have hup_mem : A.up ∈ y :: ys := by
        rcases hl2.1 with h | h
        · rw [h]; exact List.mem_cons_self _ _
        · exact List.mem_cons_of_mem _ h
      have hne_top_up : top ≠ A.up := by intro e; exact hn1.1 (e ▸ hup_mem)
      have ht0 := (VertAt_range ht).1
      have hne_top_down : top ≠ A.down := by
        rcases hl2.2.1 with h | h
        · omega
        · intro e; exact hn1.1 (e ▸ List.mem_cons_of_mem _ h)
      have hy0 := (VertAt_range hx).1
      have hne_y_down : y ≠ A.down := by
        rcases hl2.2.1 with h | h
        · omega
        · intro e; exact hn2.1 (e ▸ h)
      rw [List.erase_cons_tail (by simpa using hya)]
      have htop' : VertAt st' top = some t := by
        rw [ho top hne_top_a hne_top_up hne_top_down]; exact ht
      have hy' : ∃ x', VertAt st' y = some x' ∧ x'.up = top := by
        by_cases hyu : y = A.up
        · have := hU x (hyu ▸ hx)
          rw [← hyu] at this
          exact ⟨_, this, hu⟩
        · rw [ho y hya hyu hne_y_down]; exact ⟨x, hx, hu⟩
      obtain ⟨x', hx', hu'⟩ := hy'
      exact ⟨t, x', htop', hd, hx', hu', ih y hc hn1.2 ha'⟩

theorem swapIn_cons (a r y : Int) (ys : List Int) :
    swapIn a r (y :: ys) = (if y = a then r else y) :: swapIn a r ys := rfl

theorem swapIn_not_mem (a r : Int) : ∀ l : List Int, a ∉ l → swapIn a r l = l := by
  intro l
  induction l with
  | nil => intro _; rfl
  | cons y ys ih =>
    intro h
    have h1 : y ≠ a := fun e => h (e ▸ List.mem_cons_self _ _)
    have h2 : a ∉ ys := fun e => h (List.mem_cons_of_mem _ e)
    rw [swapIn_cons, if_neg h1, ih h2]

theorem mem_swapIn {a r x : Int} {l : List Int} :
    x ∈ swapIn a r l ↔ (x = r ∧ a ∈ l) ∨ (x ≠ a ∧ x ∈ l) := by
  unfold swapIn
  simp only [List.mem_map]
  constructor
  · rintro ⟨y, hy, rfl⟩
    by_cases h : y = a
    · left; simp [h]; exact h ▸ hy
    · right; simp [h]; exact hy
  · rintro (⟨rfl, h⟩ | ⟨h1, h2⟩)
    · exact ⟨a, h, by simp⟩
    · exact ⟨x, h2, by simp [h1]⟩

theorem swapIn_nodup {a r : Int} : ∀ l : List Int, l.Nodup → r ∉ l → (swapIn a r l).Nodup := by
  intro l
  induction l with
  | nil => intro _ _; exact List.nodup_nil
  | cons y ys ih =>
    intro hn hr
    have hn1 := List.nodup_cons.mp hn
    have hr1 : r ≠ y := fun e => hr (e ▸ List.mem_cons_self _ _)
    have hr2 : r ∉ ys := fun e => hr (List.mem_cons_of_mem _ e)
    rw [swapIn_cons]
    refine List.nodup_cons.mpr ⟨?_, ih hn1.2 hr2⟩
    intro hm
    rcases mem_swapIn.mp hm with ⟨h1, h2⟩ | ⟨h1, h2⟩
    · by_cases hy : y = a
      · exact hn1.1 (hy ▸ h2)
      · rw [if_neg hy] at h1
        exact hr1 h1.symm
    · by_cases hy : y = a
      · rw [if_pos hy] at h1 h2
        exact hr2 h2
      · rw [if_neg hy] at h2
        exact hn1.1 h2

theorem swapIn_perm {a r : Int} : ∀ l : List Int, l.Nodup → a ∈ l →
    (swapIn a r l).Perm (r :: l.erase a) := by
  intro l
  induction l with
  | nil => intro _ h; simp at h
  | cons y ys ih =>
    intro hn ha
    have hn1 := List.nodup_cons.mp hn
    by_cases hy : y = a
    · subst hy
      rw [swapIn_cons, if_pos rfl, swapIn_not_mem _ _ _ hn1.1, List.erase_cons_head]
    · have ha' : a ∈ ys := by
        rcases List.mem_cons.mp ha with h | h
        · exact absurd h.symm hy
        · exact h
      rw [swapIn_cons, if_neg hy, List.erase_cons_tail (by simpa using hy)]
      exact ((ih hn1.2 ha').cons y).trans (List.Perm.swap r y _)

/-- Putting the bead `r` in the place of the bead `a` of a chain. -/
theorem Chain_swapIn {st st' : Store} {a r : Int} {A : Bead} (m : List Int)
    (hA : VertAt st a = some A)
    (hr : ∃ v, VertAt st' r = some v ∧ v.up = A.up ∧ v.down = A.down)
    (hU : ∀ u, VertAt st A.up = some u → VertAt st' A.up = some { u with down := r })
    (hD : A.down ≠ -1 → ∀ d, VertAt st A.down = some d →
      VertAt st' A.down = some { d with up := r })
    (ho : ∀ x, x ∈ m → x ≠ a → x ≠ A.up → x ≠ A.down → VertAt st' x = VertAt st x) :
    ∀ (l : List Int) (top : Int), Chain st top l → (top :: l).Nodup → a ∈ l →
      (∀ x, x ∈ top :: l → x ∈ m) → Chain st' top (swapIn a r l) := by
  intro l
  induction l with
  | nil => intro top _ _ ha; simp at ha
  | cons y ys ih =>
    intro top h hn ha hm
    obtain ⟨t, x, ht, hd, hx, hu, hc⟩ := h
    have hn1 := List.nodup_cons.mp hn
    have hn2 := List.nodup_cons.mp hn1.2
    obtain ⟨v, hv, hvu, hvd⟩ := hr
    by_cases hya : y = a
    · subst hya
      rw [hx] at hA
      cases hA
      rw [swapIn_cons, if_pos rfl, swapIn_not_mem _ _ _ hn2.1]
      have htop' := hU t (hu ▸ ht)
      rw [hu] at htop'
      cases ys with
      | nil =>
        obtain ⟨t2, ht2, hd2⟩ := hc
        rw [hx] at ht2
        cases ht2
        exact ⟨_, v, htop', rfl, hv, hvu.trans hu, v, hv, hvd.trans hd2⟩
      | cons z zs =>
        obtain ⟨t2, zv, ht2, hd2, hz, hzu, hzc⟩ := hc
        rw [hx] at ht2
        cases ht2
        have hz0 := (VertAt_range hz).1
        have hdn : A.down ≠ -1 := by omega
        have hz' := hD hdn zv (hd2 ▸ hz)
        rw [hd2] at hz'
        refine ⟨_, v, htop', rfl, hv, hvu.trans hu, v, _, hv, hvd.trans hd2, hz', rfl, ?_⟩
        have hn3 := List.nodup_cons.mp hn2.2
        refine Chain_frame zs z hzc (fun t3 ht3 => ?_) (fun w hw => ?_)
        · rw [hz] at ht3
          cases ht3
          exact ⟨_, hz', rfl⟩
        · apply ho
          · exact hm w (List.mem_cons_of_mem _ (List.mem_cons_of_mem _ (List.mem_cons_of_mem _ hw)))
          · intro e; exact hn2.1 (e ▸ List.mem_cons_of_mem _ hw)
          · rw [hu]; intro e
            exact hn1.1 (e ▸ List.mem_cons_of_mem _ (List.mem_cons_of_mem _ hw))
          · rw [hd2]; intro e; exact hn3.1 (e ▸ hw)
    · have ha' : a ∈ ys := by
        rcases List.mem_cons.mp ha with h | h
        · exact absurd h.symm hya
        · exact h
      have hl2 := Chain_links _ _ hc a A ha' hA
      have hne_top_a : top ≠ a := by intro e; exact hn1.1 (e ▸ ha)
      have hup_mem : A.up ∈ y :: ys := by
        rcases hl2.1 with h | h
        · rw [h]; exact List.mem_cons_self _ _
        · exact List.mem_cons_of_mem _ h
      have hne_top_up : top ≠ A.up := by intro e; exact hn1.1 (e ▸ hup_mem)
      have ht0 := (VertAt_range ht).1
      have hne_top_down : top ≠ A.down := by
        rcases hl2.2.1 with h | h
        · omega
        · intro e; exact hn1.1 (e ▸ List.mem_cons_of_mem _ h)
      have hy0 := (VertAt_range hx).1
      have hne_y_down : y ≠ A.down := by
        rcases hl2.2.1 with h | h
        · omega
        · intro e; exact hn2.1 (e ▸ h)
      rw [swapIn_cons, if_neg hya]
      have htop' : VertAt st' top = some t := by
        rw [ho top (hm top (List.mem_cons_self _ _)) hne_top_a hne_top_up hne_top_down]
        exact ht
      have hy' : ∃ x', VertAt st' y = some x' ∧ x'.up = top := by
        by_cases hyu : y = A.up
        · have := hU x (hyu ▸ hx)
          rw [← hyu] at this
          exact ⟨_, this, hu⟩
        · rw [ho y (hm y (List.mem_cons_of_mem _ (List.mem_cons_self _ _))) hya hyu hne_y_down]
          exact ⟨x, hx, hu⟩
      obtain ⟨x', hx', hu'⟩ := hy'
      exact ⟨t, x', htop', hd, hx', hu',
        ih y hc hn1.2 ha' (fun w hw => hm w (List.mem_cons_of_mem _ hw))⟩

theorem tallyOf_cons (st : Store) (b : Int) (l : List Int) (i : Int) :
    tallyOf st (b :: l) i =
      tallyOf st l i + (if (beadChar st b).map countIndex = some i then 1 else 0) := by
  unfold tallyOf
  rw [List.countP_cons]
  by_cases h : (beadChar st b).map countIndex = some i
  · simp [h]
  · simp [h]

theorem tallyOf_congr {st st' : Store} {l : List Int}
    (h : ∀ b, b ∈ l → beadChar st' b = beadChar st b) (i : Int) :
    tallyOf st' l i = tallyOf st l i := by
  unfold tallyOf
  congr 1
  apply List.countP_congr
  intro b hb
  rw [h b hb]

theorem tallyOf_perm {st : Store} {l l' : List Int} (h : l.Perm l') (i : Int) :
    tallyOf st l i = tallyOf st l' i := by
  unfold tallyOf
  rw [h.countP_eq]

theorem sum_setAt6 {l : List Int} (hl : l.length = 6) {i : Int} (h0 : 0 ≤ i) (h5 : i ≤ 5)
    (v : Int) : (setAt l i v).sum = l.sum - (getAt l i).getD 0 + v := by
  match l, hl with
  | [a, b, c, d, e, f], _ =>
    have : i = 0 ∨ i = 1 ∨ i = 2 ∨ i = 3 ∨ i = 4 ∨ i = 5 := by omega
    rcases this with rfl | rfl | rfl | rfl | rfl | rfl <;> simp [setAt, getAt] <;> ring

theorem Tally.perm {st : Store} {bc : BaseCount} {l l' : List Int} (h : Tally st bc l)
    (hp : l.Perm l') : Tally st bc l' := by
  obtain ⟨h1, h2, hs, h3⟩ := h
  refine ⟨by rw [h1, hp.length_eq], h2, hs, fun i h0 h5 => ?_⟩
  rw [h3 i h0 h5, tallyOf_perm hp]

theorem Tally.congr {st st' : Store} {bc : BaseCount} {l : List Int} (h : Tally st bc l)
    (hc : ∀ b, b ∈ l → beadChar st' b = beadChar st b) : Tally st' bc l := by
  obtain ⟨h1, h2, hs, h3⟩ := h
  refine ⟨h1, h2, hs, fun i h0 h5 => ?_⟩
  rw [h3 i h0 h5, tallyOf_congr hc]

theorem Tally.inc {st : Store} {bc bc' : BaseCount} {l : List Int} {b : Int} {c : Char}
    (h : Tally st bc l) (hi : IncBaseCount bc c = some bc') (hb : beadChar st b = some c) :
    Tally st bc' (b :: l) := by
  obtain ⟨h1, h2, hs, h3⟩ := h
  unfold IncBaseCount at hi
  simp only at hi
  split_ifs at hi with hr
  simp only [Option.some.injEq] at hi
  subst hi
  have hr0 : 0 ≤ countIndex c := by omega
  have hr5 : countIndex c ≤ 5 := by omega
  refine ⟨by simp [h1], by simp [length_setAt, h2], ?_, fun i h0 h5 => ?_⟩
  · simp only
    rw [sum_setAt6 h2 hr0 hr5, hs]
    ring
  simp only
  rw [getAt_setAt, tallyOf_cons, hb]
  have hsome := h3 (countIndex c) hr0 hr5
  by_cases hic : i = countIndex c
  · subst hic
    simp [hsome]
  · have : ¬ countIndex c = i := fun e => hic e.symm
    simp [hic, this, h3 i h0 h5]

theorem Tally.dec {st : Store} {bc bc' : BaseCount} {l : List Int} {b : Int} {c : Char}
    (h : Tally st bc (b :: l)) (hi : DecBaseCount bc c = some bc')
    (hb : beadChar st b = some c) : Tally st bc' l := by
  obtain ⟨h1, h2, hs, h3⟩ := h
  unfold DecBaseCount at hi
  simp only at hi
  split_ifs at hi with hr
  simp only [Option.some.injEq] at hi
  subst hi
  have hr0 : 0 ≤ countIndex c := by omega
  have hr5 : countIndex c ≤ 5 := by omega
  refine ⟨by simp [h1], by simp [length_setAt, h2], ?_, fun i h0 h5 => ?_⟩
  · simp only
    rw [sum_setAt6 h2 hr0 hr5, hs]
    ring
  simp only
  rw [getAt_setAt]
  have hsome := h3 (countIndex c) hr0 hr5
  have hi := h3 i h0 h5
  rw [tallyOf_cons, hb] at hsome hi
  by_cases hic : i = countIndex c
  · subst hic
    simp [hsome]
  · have : ¬ countIndex c = i := fun e => hic e.symm
    simp only [Option.map_some', Option.some.injEq, this, if_false, add_zero] at hi
    simp [hic, hi]

theorem beadChar_eq {st : Store} {x : Int} {v : Bead} (h : VertAt st x = some v) :
    beadChar st x = GetBase st v.soffset := by
  obtain ⟨b, hb, rfl⟩ := VertAt_some h
  unfold beadChar
  rw [hb]
  rfl

theorem ColOK.members {st : Store} {c : Int} {col : Column} {l : List Int}
    (h : ColOK st c col l) (x : Int) (hx : x = col.call ∨ x ∈ l) :
    ∃ v, VertAt st x = some v ∧ v.column_index = c ∧ (v.frag_index = -1 ↔ x = col.call) := by
  obtain ⟨_, ⟨call, hcall, hci, _, hf⟩, _, _, hel, _⟩ := h
  rcases hx with rfl | hx
  · exact ⟨call, hcall, hci, by simp [hf]⟩
  · obtain ⟨v, hv, hvc, hvf, _⟩ := hel x hx
    refine ⟨v, hv, hvc, ?_⟩
    constructor
    · intro e; exact absurd e hvf
    · intro e
      subst e
      rw [hcall] at hv
      cases hv
      exact absurd hf hvf

theorem ColOK.nodup {st : Store} {c : Int} {col : Column} {l : List Int}
    (h : ColOK st c col l) : (col.call :: l).Nodup := by
  refine List.nodup_cons.mpr ⟨fun hm => ?_, h.2.2.2.1⟩
  obtain ⟨_, ⟨call, hcall, _, _, hf⟩, _, _, hel, _⟩ := h
  obtain ⟨v, hv, _, hvf, _⟩ := hel _ hm
  rw [hcall] at hv
  cases hv
  exact hvf hf

theorem ColOK.keep {st st' : Store} {c : Int} {col : Column} {l : List Int}
    (h : ColOK st c col l)
    (hv : ∀ x, (x = col.call ∨ x ∈ l) → VertAt st' x = VertAt st x)
    (hs : ∀ x ch0, x ∈ l → beadChar st x = some ch0 → beadChar st' x = some ch0) :
    ColOK st' c col l := by
  obtain ⟨h1, ⟨call, hcall, h2⟩, h3, h4, h5, h6⟩ := h
  have hch : ∀ b, b ∈ l → beadChar st' b = beadChar st b := by
    intro b hb
    obtain ⟨x, _, _, _, hx⟩ := h5 b hb
    obtain ⟨c0, hc0⟩ := Option.isSome_iff_exists.mp hx
    rw [hs b c0 hb hc0, hc0]
  refine ⟨h1, ⟨call, ?_, h2⟩, ?_, h4, ?_, h6.congr hch⟩
  · rw [hv _ (Or.inl rfl)]; exact hcall
  · refine Chain_frame l col.call h3 (fun t ht => ?_) (fun x hx => hv x (Or.inr hx))
    exact ⟨t, by rw [hv _ (Or.inl rfl)]; exact ht, rfl⟩
  · intro b hb
    obtain ⟨x, hx1, hx2, hx3, hx4⟩ := h5 b hb
    exact ⟨x, by rw [hv b (Or.inr hb)]; exact hx1, hx2, hx3, by rw [hch b hb]; exact hx4⟩

theorem BeadOK.move {st st' : Store} {ch ch' : Int → List Int} {j : Int} {v v' : Bead}
    (h : BeadOK st ch j v) (hb : v'.boffset = v.boffset)
    (hc : v'.column_index = v.column_index) (hf : v'.frag_index = v.frag_index)
    (hud : v.column_index = -1 → v'.up = v.up ∧ v'.down = v.down)
    (hcol : ∀ col, ColVertAt st v.column_index = some col →
      ∃ col', ColVertAt st' v.column_index = some col' ∧ col'.call = col.call)
    (hm : v.column_index ≠ -1 → j ∈ ch v.column_index → j ∈ ch' v.column_index) :
    BeadOK st' ch' j v' := by
  obtain ⟨h1, h2, h3⟩ := h
  refine ⟨hb.trans h1, fun e => ?_, fun e => ?_⟩
  · rw [hc] at e
    obtain ⟨g1, g2, g3⟩ := h2 e
    obtain ⟨u1, u2⟩ := hud e
    exact ⟨u1.trans g1, u2.trans g2, by rw [hf]; exact g3⟩
  · rw [hc] at e ⊢
    obtain ⟨col, hcl, hor⟩ := h3 e
    obtain ⟨col', hcl', hcall⟩ := hcol col hcl
    refine ⟨col', hcl', ?_⟩
    rcases hor with ⟨g1, g2⟩ | ⟨g1, g2⟩
    · exact Or.inl ⟨by rw [hf]; exact g1, hcall.trans g2⟩
    · exact Or.inr ⟨by rw [hf]; exact g1, hm e g2⟩

/-- New beads that are in no column, and new characters, keep the columns
well formed. -/
theorem VWF.ext {st st' : Store} {ch : Int → List Int} (hw : VWF st ch)
    (hold : ∀ j v, VertAt st j = some v → VertAt st' j = some v)
    (hnew : ∀ j v, VertAt st' j = some v → VertAt st j = some v ∨
      (v.boffset = j ∧ v.column_index = -1 ∧ v.up = -1 ∧ v.down = -1 ∧ v.frag_index ≠ -1))
    (hc : ∀ c, ColVertAt st' c = ColVertAt st c)
    (hs : ∀ b c, beadChar st b = some c → beadChar st' b = some c) : VWF st' ch := by
  refine ⟨fun j v hj => ?_, fun c col hcol => ?_⟩
  · rcases hnew j v hj with h | ⟨h1, h2, h3, h4, h5⟩
    · refine (hw.bead j v h).move rfl rfl rfl (fun _ => ⟨rfl, rfl⟩) (fun col hcl => ?_)
        (fun _ hm => hm)
      exact ⟨col, by rw [hc]; exact hcl, rfl⟩
    · exact ⟨h1, fun _ => ⟨h3, h4, h5⟩, fun e => absurd h2 e⟩
  · rw [hc] at hcol
    have hk := hw.col c col hcol
    refine hk.keep (fun x hx => ?_) (fun x c0 _ hx => hs x c0 hx)
    obtain ⟨v, hv, _⟩ := hk.members x hx
    rw [hv, hold x v hv]

theorem Tally.nil (st : Store) : Tally st ResetBaseCount [] := by
  refine ⟨rfl, rfl, rfl, fun i h0 h5 => ?_⟩
  have : i = 0 ∨ i = 1 ∨ i = 2 ∨ i = 3 ∨ i = 4 ∨ i = 5 := by omega
  rcases this with rfl | rfl | rfl | rfl | rfl | rfl <;> rfl

theorem GetBase_append {st st' : Store} {x : List Char}
    (hs : st'.sequenceStore = st.sequenceStore ++ x) {s : Int} {c : Char}
    (h : GetBase st s = some c) : GetBase st' s = some c := by
  unfold GetBase at h ⊢
  rw [hs]
  exact getAt_append_some h

theorem VWF.col_nonneg {st : Store} {c : Int} {col : Column} (h : ColVertAt st c = some col) :
    c ≠ -1 := by
  have := (ColVertAt_range h).1
  omega

/-- `CreateColumn` on a bead that is in no column keeps the columns well
formed. -/
theorem VWF.createColumn {st st' : Store} {ch : Int → List Int} {bid lid : Int} {b : Bead}
    (hw : VWF st ch) (h : CreateColumn st bid = some (st', lid))
    (hb : GetBead st bid = some b) (hun : b.column_index = -1) :
    VWF st' (fun c => if c = lid then [bid] else ch c) := by
  obtain ⟨c, bc, hlid, hbase, hinc, hseq, hcv, hv⟩ := CreateColumn_vert h hb
  have hbv := VertAt_of_get hb
  obtain ⟨hb1, hb2, _⟩ := hw.bead bid b.vert hbv
  obtain ⟨hb3, hb4, hb5⟩ := hb2 hun
  have hrange := GetBead_some_range hb
  have hKne : (st.beadStore.length : Int) ≠ bid := by omega
  have hlid0 : lid ≠ -1 := by omega
  have holdb : ∀ x v, VertAt st x = some v → x ≠ (st.beadStore.length : Int) := by
    intro x v hx
    have := (VertAt_range hx).2
    omega
  have holdc : ∀ k col, ColVertAt st k = some col → k ≠ lid := by
    intro k col hk
    have := (ColVertAt_range hk).2
    omega
  have hvK := hv (st.beadStore.length : Int)
  rw [if_neg hKne, if_pos rfl] at hvK
  have hvb := hv bid
  rw [if_pos rfl] at hvb
  have hchar : ∀ x c0, x ≠ bid → beadChar st x = some c0 → beadChar st' x = some c0 := by
    intro x c0 hxb hx
    cases hvx : VertAt st x with
    | none =>
      unfold VertAt at hvx
      unfold beadChar at hx
      cases hg : GetBead st x with
      | none => simp [hg] at hx
      | some y => simp [hg] at hvx
    | some v =>
      have hx' : VertAt st' x = some v := by
        rw [hv x, if_neg hxb, if_neg (holdb x v hvx), hvx]
      rw [beadChar_eq hx']
      rw [beadChar_eq hvx] at hx
      exact GetBase_append hseq hx
  have hcharb : beadChar st' bid = some c := by
    rw [beadChar_eq hvb]
    exact hbase
  have hcl := hcv lid
  rw [if_pos rfl] at hcl
  refine ⟨fun j v' hj => ?_, fun k col' hk => ?_⟩
  · rw [hv j] at hj
    by_cases hjb : j = bid
    · subst hjb
      rw [if_pos rfl] at hj
      cases hj
      refine ⟨hb1, fun e => absurd e hlid0, fun _ => ⟨_, hcl, Or.inr ⟨hb5, ?_⟩⟩⟩
      show j ∈ (if lid = lid then [j] else ch lid)
      simp
    · rw [if_neg hjb] at hj
      by_cases hjK : j = (st.beadStore.length : Int)
      · rw [if_pos hjK] at hj
        cases hj
        exact ⟨hjK.symm, fun e => absurd e hlid0, fun _ => ⟨_, hcl, Or.inl ⟨rfl, hjK.symm⟩⟩⟩
      · rw [if_neg hjK] at hj
        refine (hw.bead j v' hj).move rfl rfl rfl (fun _ => ⟨rfl, rfl⟩) (fun col hcl => ?_)
          (fun hne hm => ?_)
        · exact ⟨col, by rw [hcv, if_neg (holdc _ _ hcl)]; exact hcl, rfl⟩
        · obtain ⟨col, hcl, _⟩ := (hw.bead j v' hj).2.2 hne
          show j ∈ (if v'.column_index = lid then [bid] else ch v'.column_index)
          rw [if_neg (holdc _ _ hcl)]
          exact hm
  · rw [hcv k] at hk
    by_cases hkl : k = lid
    · subst hkl
      rw [if_pos rfl] at hk
      cases hk
      show ColOK st' k _ (if k = k then [bid] else ch k)
      rw [if_pos rfl]
      refine ⟨rfl, ⟨_, hvK, rfl, rfl, rfl⟩, ?_, List.nodup_singleton _, ?_, ?_⟩
      · exact ⟨_, _, hvK, rfl, hvb, rfl, _, hvb, hb4⟩
      · intro x hx
        rw [List.mem_singleton] at hx
        subst hx
        exact ⟨_, hvb, rfl, hb5, by rw [hcharb]; rfl⟩
      · exact (Tally.nil st').inc hinc hcharb
    · rw [if_neg hkl] at hk
      show ColOK st' k col' (if k = lid then [bid] else ch k)
      rw [if_neg hkl]
      have hk0 := hw.col k col' hk
      have hkne := VWF.col_nonneg hk
      have hxb : ∀ x, (x = col'.call ∨ x ∈ ch k) → x ≠ bid := by
        intro x hx e
        obtain ⟨v, hv1, hv2, _⟩ := hk0.members x hx
        rw [e, hbv] at hv1
        cases hv1
        exact hkne (hv2 ▸ hun)
      refine hk0.keep (fun x hx => ?_) (fun x c0 hx hc0 => hchar x c0 (hxb x (Or.inr hx)) hc0)
      obtain ⟨v, hv1, _⟩ := hk0.members x hx
      rw [hv x, if_neg (hxb x hx), if_neg (holdb x v hv1)]

theorem beadChar_keep {st st' : Store} (hs : st'.sequenceStore = st.sequenceStore) {x : Int}
    {v v' : Bead} (h : VertAt st x = some v) (h' : VertAt st' x = some v')
    (e : v'.soffset = v.soffset) : beadChar st' x = beadChar st x := by
  rw [beadChar_eq h, beadChar_eq h', e]
  unfold GetBase
  rw [hs]

/-- `AlignBead` of a bead that is in no column keeps the columns well formed. -/
theorem VWF.alignBead {st st' : Store} {ch : Int → List Int} {cid bid r : Int} {b : Bead}
    (hw : VWF st ch) (h : AlignBead st cid bid = some (st', r))
    (hb : GetBead st bid = some b) (hun : b.column_index = -1) :
    VWF st' (fun c => if c = cid then bid :: ch cid else ch c) := by
  obtain ⟨column, call, first, align, c, bc, hcol, hcall, hfirst, halign, hbase, hinc, hseq, hcv,
    hv⟩ := AlignBead_vert h
  rw [hb] at halign
  cases halign
  have hbv := VertAt_of_get hb
  have hcallv := VertAt_of_get hcall
  have hfirstv := VertAt_of_get hfirst
  have hcolv := ColVertAt_of_get hcol
  have hk0 := hw.col cid column.vert hcolv
  have hcid := VWF.col_nonneg hcolv
  obtain ⟨hb1, hb2, _⟩ := hw.bead bid b.vert hbv
  obtain ⟨hb3, hb4, hb5⟩ := hb2 hun
  obtain ⟨hc1, _, _⟩ := hw.bead column.call call.vert hcallv
  obtain ⟨hf1, _, _⟩ := hw.bead call.down first.vert hfirstv
  have hb1' : b.boffset = bid := hb1
  have hc1' : call.boffset = column.call := hc1
  have hf1' : first.boffset = call.down := hf1
  -- the chain of the column starts with the bead under the call bead
  obtain ⟨t, ht, htd⟩ := Chain_top hk0.2.2.1
  have ht' : VertAt st column.call = some t := ht
  rw [hcallv] at ht'
  cases ht'
  have hF0 := (GetBead_some_range hfirst).1
  obtain ⟨rest, hrest⟩ : ∃ rest, ch cid = call.down :: rest := by
    cases hl : ch cid with
    | nil =>
      rw [hl] at htd
      have : call.down = -1 := htd
      omega
    | cons y ys =>
      rw [hl] at htd
      have : call.down = y := htd
      exact ⟨ys, by rw [this]⟩
  have hFmem : call.down ∈ ch cid := by rw [hrest]; exact List.mem_cons_self _ _
  obtain ⟨vK, hvK, hKci, hKf⟩ := hk0.members column.call (Or.inl rfl)
  obtain ⟨vF, hvF, hFci, hFf⟩ := hk0.members call.down (Or.inr hFmem)
  have hvK' : VertAt st column.call = some vK := hvK
  rw [hcallv] at hvK'
  cases hvK'
  rw [hfirstv] at hvF
  cases hvF
  have hK : column.call ≠ bid := by
    intro e
    rw [e, hbv] at hcallv
    have := congrArg Bead.column_index (Option.some.inj hcallv)
    exact hcid (hKci ▸ this ▸ hun)
  have hF : call.down ≠ bid := by
    intro e
    rw [e, hbv] at hfirstv
    have := congrArg Bead.column_index (Option.some.inj hfirstv)
    exact hcid (hFci ▸ this ▸ hun)
  have hKF : column.call ≠ call.down := by
    intro e
    have := (List.nodup_cons.mp hk0.nodup).1
    exact this (e ▸ hFmem)
  have hv' := hv hK hF hKF
  have hvb := hv' bid
  rw [if_pos rfl] at hvb
  have hvK2 := hv' column.call
  rw [if_neg hK, if_pos rfl] at hvK2
  have hvF2 := hv' call.down
  rw [if_neg hF, if_neg (Ne.symm hKF), if_pos rfl] at hvF2
  have hkeep : ∀ x v, x ≠ bid → VertAt st x = some v → ∃ v', VertAt st' x = some v' ∧
      v'.boffset = v.boffset ∧ v'.column_index = v.column_index ∧
      v'.frag_index = v.frag_index ∧ v'.soffset = v.soffset ∧
      (v.column_index = -1 → v' = v) := by
    intro x v hx hxv
    by_cases hxK : x = column.call
    · subst hxK
      rw [hcallv] at hxv
      cases hxv
      exact ⟨_, hvK2, rfl, rfl, rfl, rfl, fun e => absurd (hKci ▸ e) hcid⟩
    · by_cases hxF : x = call.down
      · subst hxF
        rw [hfirstv] at hxv
        cases hxv
        exact ⟨_, hvF2, rfl, rfl, rfl, rfl, fun e => absurd (hFci ▸ e) hcid⟩
      · refine ⟨v, ?_, rfl, rfl, rfl, rfl, fun _ => rfl⟩
        rw [hv' x, if_neg hx, if_neg hxK, if_neg hxF]
        exact hxv
  have hchar : ∀ x v, x ≠ bid → VertAt st x = some v → beadChar st' x = beadChar st x := by
    intro x v hx hxv
    obtain ⟨v', hv1, _, _, _, hv5, _⟩ := hkeep x v hx hxv
    exact beadChar_keep hseq hxv hv1 hv5
  have hcharb : beadChar st' bid = some c := by
    rw [beadChar_eq hvb]
    unfold GetBase at hbase ⊢
    rw [hseq]
    exact hbase
  have hcolkeep : ∀ k col, ColVertAt st k = some col →
      ∃ col', ColVertAt st' k = some col' ∧ col'.call = col.call := by
    intro k col hk
    rw [hcv k]
    by_cases hkc : k = cid
    · subst hkc
      rw [hcolv] at hk
      cases hk
      exact ⟨{ column.vert with base_count := bc }, by rw [if_pos rfl], rfl⟩
    · exact ⟨col, by rw [if_neg hkc]; exact hk, rfl⟩
  refine ⟨fun j v' hj => ?_, fun k col' hk => ?_⟩
  · by_cases hjb : j = bid
    · subst hjb
      rw [hvb] at hj
      cases hj
      obtain ⟨col', hcol', _⟩ := hcolkeep cid _ hcolv
      refine ⟨hb1, fun e => absurd e hcid, fun _ => ⟨col', hcol', Or.inr ⟨hb5, ?_⟩⟩⟩
      show j ∈ (if cid = cid then j :: ch cid else ch cid)
      simp
    · cases hvj : VertAt st j with
      | none =>
        rw [hv' j, if_neg hjb] at hj
        by_cases hjK : j = column.call
        · rw [hjK, hcallv] at hvj
          cases hvj
        · by_cases hjF : j = call.down
          · rw [hjF, hfirstv] at hvj
            cases hvj
          · rw [if_neg hjK, if_neg hjF, hvj] at hj
            cases hj
      | some v =>
        obtain ⟨v2, hv1, hv2, hv3, hv4, _, hv6⟩ := hkeep j v hjb hvj
        rw [hv1] at hj
        cases hj
        refine (hw.bead j v hvj).move hv2 hv3 hv4 (fun e => ?_) (hcolkeep _) (fun _ hm => ?_)
        · rw [hv6 e]
          exact ⟨rfl, rfl⟩
        · show j ∈ (if v.column_index = cid then bid :: ch cid else ch v.column_index)
          by_cases hvc : v.column_index = cid
          · rw [if_pos hvc]
            exact List.mem_cons_of_mem _ (hvc ▸ hm)
          · rw [if_neg hvc]
            exact hm
  · by_cases hkc : k = cid
    · subst hkc
      rw [hcv k, if_pos rfl] at hk
      cases hk
      show ColOK st' k _ (if k = k then bid :: ch k else ch k)
      rw [if_pos rfl]
      have hnod := hk0.nodup
      obtain ⟨g1, ⟨call0, gc0, gc1, gc2, gc3⟩, g3, g4, g5, g6⟩ := hk0
      have gc0' : VertAt st column.call = some call0 := gc0
      rw [hcallv] at gc0'
      cases gc0'
      have g3' : Chain st column.call (ch k) := g3
      rw [hrest] at g3' g4 ⊢
      obtain ⟨t1, x1, ht1, hd1, hx1, hu1, hcr⟩ := g3'
      have hn1 := List.nodup_cons.mp g4
      refine ⟨g1, ⟨_, hvK2, gc1, gc2, gc3⟩, ?_, ?_, ?_, ?_⟩
      · refine ⟨_, _, hvK2, hb1', hvb, hc1', _, _, hvb, hf1', hvF2, hb1', ?_⟩
        refine Chain_frame rest call.down hcr (fun t3 ht3 => ?_) (fun w hw2 => ?_)
        · rw [hfirstv] at ht3
          cases ht3
          exact ⟨_, hvF2, rfl⟩
        · have hwm : w ∈ ch k := by rw [hrest]; exact List.mem_cons_of_mem _ hw2
          obtain ⟨vw, hvw, hwci, _⟩ := g5 w hwm
          have hwb : w ≠ bid := by
            intro e
            rw [e, hbv] at hvw
            cases hvw
            exact hcid (hwci ▸ hun)
          have hwK : w ≠ column.call := by
            intro e
            exact (List.nodup_cons.mp hnod).1 (e ▸ hwm)
          have hwF : w ≠ call.down := by
            intro e
            exact hn1.1 (e ▸ hw2)
          rw [hv' w, if_neg hwb, if_neg hwK, if_neg hwF]
      · refine List.nodup_cons.mpr ⟨fun hm => ?_, g4⟩
        rw [← hrest] at hm
        obtain ⟨vw, hvw, hwci, _⟩ := g5 bid hm
        rw [hbv] at hvw
        cases hvw
        exact hcid (hwci ▸ hun)
      · intro x hx
        rcases List.mem_cons.mp hx with rfl | hx
        · exact ⟨_, hvb, rfl, hb5, by rw [hcharb]; rfl⟩
        · rw [← hrest] at hx
          obtain ⟨vw, hvw, hwci, hwf, hwc⟩ := g5 x hx
          have hwb : x ≠ bid := by
            intro e
            rw [e, hbv] at hvw
            cases hvw
            exact hcid (hwci ▸ hun)
          obtain ⟨v2, hv1, hv2, hv3, hv4, _⟩ := hkeep x vw hwb hvw
          exact ⟨v2, hv1, hv3.trans hwci, by rw [hv4]; exact hwf,
            by rw [hchar x vw hwb hvw]; exact hwc⟩
      · rw [← hrest]
        have g6' : Tally st' column.base_count (ch k) := by
          refine Tally.congr g6 (fun x hx => ?_)
          obtain ⟨vw, hvw, hwci, hwf, hwc⟩ := g5 x hx
          have hwb : x ≠ bid := by
            intro e
            rw [e, hbv] at hvw
            cases hvw
            exact hcid (hwci ▸ hun)
          exact hchar x vw hwb hvw
        exact g6'.inc hinc hcharb
    · rw [hcv k, if_neg hkc] at hk
      show ColOK st' k col' (if k = cid then bid :: ch cid else ch k)
      rw [if_neg hkc]
      have hk1 := hw.col k col' hk
      have hkne := VWF.col_nonneg hk
      have hmem : ∀ x, (x = col'.call ∨ x ∈ ch k) → ∃ v, VertAt st x = some v ∧ x ≠ bid ∧
          x ≠ column.call ∧ x ≠ call.down := by
        intro x hx
        obtain ⟨v, hv1, hv2, _⟩ := hk1.members x hx
        refine ⟨v, hv1, ?_, ?_, ?_⟩
        · intro e
          rw [e, hbv] at hv1
          cases hv1
          exact hkne (hv2 ▸ hun)
        · intro e
          rw [e, hcallv] at hv1
          cases hv1
          exact hkc (hv2.symm.trans hKci)
        · intro e
          rw [e, hfirstv] at hv1
          cases hv1
          exact hkc (hv2.symm.trans hFci)
      refine hk1.keep (fun x hx => ?_) (fun x c0 hx hc0 => ?_)
      · obtain ⟨v, _, h1, h2, h3⟩ := hmem x hx
        rw [hv' x, if_neg h1, if_neg h2, if_neg h3]
      · obtain ⟨v, hv1, h1, _, _⟩ := hmem x (Or.inr hx)
        rw [hchar x v h1 hv1]
        exact hc0

/-- `UnAlignBead` keeps the columns well formed. -/
theorem VWF.unAlignBead {st st' : Store} {ch : Int → List Int} {bid r : Int}
    (hw : VWF st ch) (h : UnAlignBead st bid = some (st', r)) : ∃ ch', VWF st' ch' := by
  obtain ⟨bead, hb, hsteps⟩ := UnAlignBead_steps h
  by_cases hci : bead.column_index = -1
  · rcases hsteps with ⟨_, rfl, _⟩ | ⟨h0, _⟩
    · exact ⟨ch, hw⟩
    · exact absurd hci h0
  clear hsteps
  obtain ⟨col, upbead, bchar, bc, hcol, hup, hch, hdec, hseq, hcv, hv⟩ := UnAlignBead_vert h hb hci
  have hbv := VertAt_of_get hb
  have hupv := VertAt_of_get hup
  have hcolv := ColVertAt_of_get hcol
  have hk0 := hw.col _ col.vert hcolv
  have hnod := hk0.nodup
  obtain ⟨hb1, _, hb3⟩ := hw.bead bid bead.vert hbv
  obtain ⟨col0, hcol0, hor⟩ := hb3 hci
  have hcol0' : ColVertAt st bead.column_index = some col0 := hcol0
  rw [hcolv] at hcol0'
  cases hcol0'
  have hup0 := (GetBead_some_range hup).1
  obtain ⟨hfrag, hmem⟩ : bead.vert.frag_index ≠ -1 ∧ bid ∈ ch bead.column_index := by
    rcases hor with ⟨g1, g2⟩ | ⟨g1, g2⟩
    · exfalso
      obtain ⟨_, ⟨call, hcall, _, hcu, _⟩, _⟩ := hk0
      have g2' : col.call = bid := g2
      have hcall' : VertAt st col.call = some call := hcall
      rw [g2', hbv] at hcall'
      cases hcall'
      have : bead.up = -1 := hcu
      omega
    · exact ⟨g1, g2⟩
  obtain ⟨l1, l2, l3⟩ := Chain_links _ _ hk0.2.2.1 bid bead.vert hmem hbv
  obtain ⟨hU, hD, hUD, hDtop⟩ := l3 hnod
  have hU' : bead.up ≠ bid := hU
  have hD' : bead.down ≠ bid := hD
  have hUD' : bead.up ≠ bead.down := hUD
  have hv' := hv hU' hD' hUD'
  obtain ⟨hu1, _, _⟩ := hw.bead bead.up upbead.vert hupv
  have hu1' : upbead.boffset = bead.up := hu1
  rw [hu1'] at hv'
  have hvb := hv' bid
  rw [if_pos rfl] at hvb
  have hvU := hv' bead.up
  rw [if_neg hU', if_pos rfl] at hvU
  have hvD : ∀ d, bead.down ≠ -1 → VertAt st bead.down = some d →
      VertAt st' bead.down = some { d with up := bead.up } := by
    intro d hne hd
    rw [hv' bead.down, if_neg hD', if_neg (Ne.symm hUD'), if_pos ⟨hne, rfl⟩, hd]
    rfl
  have hvo : ∀ x, x ≠ bid → x ≠ bead.up → x ≠ bead.down → VertAt st' x = VertAt st x := by
    intro x h1 h2 h3
    rw [hv' x, if_neg h1, if_neg h2, if_neg (fun e => h3 e.2)]
  have hUmem : bead.up = col.call ∨ bead.up ∈ ch bead.column_index := l1
  have hDmem : bead.down = -1 ∨ bead.down ∈ ch bead.column_index := l2
  obtain ⟨vU, hvU0, hUci, _⟩ := hk0.members bead.up hUmem
  rw [hupv] at hvU0
  cases hvU0
  have hkeep : ∀ x v, x ≠ bid → VertAt st x = some v → ∃ v', VertAt st' x = some v' ∧
      v'.boffset = v.boffset ∧ v'.column_index = v.column_index ∧
      v'.frag_index = v.frag_index ∧ v'.soffset = v.soffset ∧
      (v.column_index = -1 → v' = v) ∧ (x ≠ bead.down → v'.up = v.up) := by
    intro x v hx hxv
    by_cases hxU : x = bead.up
    · subst hxU
      rw [hupv] at hxv
      cases hxv
      exact ⟨_, hvU, rfl, rfl, rfl, rfl, fun e => absurd (hUci ▸ e) hci, fun _ => rfl⟩
    · by_cases hxD : x = bead.down
      · subst hxD
        have hne : bead.down ≠ -1 := by
          have := (VertAt_range hxv).1
          omega
        have hDm : bead.down ∈ ch bead.column_index := by
          rcases hDmem with e | e
          · exact absurd e hne
          · exact e
        obtain ⟨vD, hvD0, hDci, _⟩ := hk0.members bead.down (Or.inr hDm)
        rw [hxv] at hvD0
        cases hvD0
        exact ⟨_, hvD v hne hxv, rfl, rfl, rfl, rfl, fun e => absurd (hDci ▸ e) hci,
          fun e => absurd rfl e⟩
      · exact ⟨v, by rw [hvo x hx hxU hxD]; exact hxv, rfl, rfl, rfl, rfl, fun _ => rfl,
          fun _ => rfl⟩
  have hchar : ∀ x v, x ≠ bid → VertAt st x = some v → beadChar st' x = beadChar st x := by
    intro x v hx hxv
    obtain ⟨v', hv1, _, _, _, hv5, _⟩ := hkeep x v hx hxv
    exact beadChar_keep hseq hxv hv1 hv5
  have hcharb : beadChar st bid = some bchar := by
    rw [beadChar_eq hbv]
    exact hch
  have hcolkeep : ∀ k c0, ColVertAt st k = some c0 →
      ∃ col', ColVertAt st' k = some col' ∧ col'.call = c0.call := by
    intro k c0 hk
    rw [hcv k]
    by_cases hkc : k = bead.column_index
    · subst hkc
      rw [hcolv] at hk
      cases hk
      exact ⟨{ col.vert with base_count := bc }, by rw [if_pos rfl], rfl⟩
    · exact ⟨c0, by rw [if_neg hkc]; exact hk, rfl⟩
  refine ⟨fun k => if k = bead.column_index then (ch bead.column_index).erase bid else ch k,
    fun j v' hj => ?_, fun k col' hk => ?_⟩
  · by_cases hjb : j = bid
    · subst hjb
      rw [hvb] at hj
      cases hj
      exact ⟨hb1, fun _ => ⟨rfl, rfl, hfrag⟩, fun e => absurd rfl e⟩
    · cases hvj : VertAt st j with
      | none =>
        exfalso
        rw [hv' j, if_neg hjb] at hj
        by_cases hjU : j = bead.up
        · rw [hjU, hupv] at hvj
          cases hvj
        · rw [if_neg hjU] at hj
          by_cases hjD : bead.down ≠ -1 ∧ j = bead.down
          · rw [if_pos hjD, hvj] at hj
            cases hj
          · rw [if_neg hjD, hvj] at hj
            cases hj
      | some v =>
        obtain ⟨v2, hv1, hv2, hv3, hv4, _, hv6, _⟩ := hkeep j v hjb hvj
        rw [hv1] at hj
        cases hj
        refine (hw.bead j v hvj).move hv2 hv3 hv4 (fun e => ?_) (hcolkeep _) (fun _ hm => ?_)
        · rw [hv6 e]
          exact ⟨rfl, rfl⟩
        · show j ∈ (if v.column_index = bead.column_index then
            (ch bead.column_index).erase bid else ch v.column_index)
          by_cases hvc : v.column_index = bead.column_index
          · rw [if_pos hvc]
            exact (List.mem_erase_of_ne hjb).mpr (hvc ▸ hm)
          · rw [if_neg hvc]
            exact hm
  · by_cases hkc : k = bead.column_index
    · subst hkc
      rw [hcv, if_pos rfl] at hk
      cases hk
      show ColOK st' _ _ (if bead.column_index = bead.column_index then
        (ch bead.column_index).erase bid else ch bead.column_index)
      rw [if_pos rfl]
      have hkm := hk0.members
      obtain ⟨g1, ⟨call0, gc0, gc1, gc2, gc3⟩, g3, g4, g5, g6⟩ := hk0
      have hcb : col.call ≠ bid := by
        intro e
        exact (List.nodup_cons.mp hnod).1 (e ▸ hmem)
      have hcd : col.call ≠ bead.down := fun e => hDtop e.symm
      obtain ⟨c2, hc2, _, hc4, hc5, _, _, hc7⟩ := hkeep col.call call0 hcb gc0
      refine ⟨g1, ⟨c2, hc2, hc4.trans gc1, (hc7 hcd).trans gc2, hc5.trans gc3⟩, ?_,
        g4.erase bid, ?_, ?_⟩
      · refine Chain_erase hbv (fun u hu => ?_) (fun hne d hd => hvD d hne hd) hvo _ _ g3 hnod
          hmem
        have hu' : VertAt st bead.up = some u := hu
        rw [hupv] at hu'
        cases hu'
        exact hvU
      · intro x hx
        have hxl := List.mem_of_mem_erase hx
        have hxb : x ≠ bid := fun e => (List.Nodup.mem_erase_iff g4).mp hx |>.1 e
        obtain ⟨vw, hvw, hwci, hwf, hwc⟩ := g5 x hxl
        obtain ⟨v2, hv1, hv2, hv3, hv4, _⟩ := hkeep x vw hxb hvw
        exact ⟨v2, hv1, hv3.trans hwci, by rw [hv4]; exact hwf,
          by rw [hchar x vw hxb hvw]; exact hwc⟩
      · have t1 : Tally st col.base_count (bid :: (ch bead.column_index).erase bid) :=
          Tally.perm g6 (List.perm_cons_erase hmem)
        have t2 := t1.dec hdec hcharb
        refine Tally.congr t2 (fun x hx => ?_)
        have hxl := List.mem_of_mem_erase hx
        have hxb : x ≠ bid := fun e => (List.Nodup.mem_erase_iff g4).mp hx |>.1 e
        obtain ⟨vw, hvw, _⟩ := g5 x hxl
        exact hchar x vw hxb hvw
    · rw [hcv k, if_neg hkc] at hk
      show ColOK st' k col' (if k = bead.column_index then _ else ch k)
      rw [if_neg hkc]
      have hk1 := hw.col k col' hk
      have hmem2 : ∀ x, (x = col'.call ∨ x ∈ ch k) → ∃ v, VertAt st x = some v ∧ x ≠ bid ∧
          x ≠ bead.up ∧ x ≠ bead.down := by
        intro x hx
        obtain ⟨v, hv1, hv2, _⟩ := hk1.members x hx
        refine ⟨v, hv1, ?_, ?_, ?_⟩
        · intro e
          rw [e, hbv] at hv1
          cases hv1
          exact hkc hv2.symm
        · intro e
          rw [e, hupv] at hv1
          cases hv1
          exact hkc (hv2.symm.trans hUci)
        · intro e
          rcases hDmem with e2 | e2
          · have := (VertAt_range hv1).1
            omega
          · obtain ⟨vD, hvD0, hDci, _⟩ := hk0.members bead.down (Or.inr e2)
            rw [← e, hv1] at hvD0
            cases hvD0
            exact hkc (hv2.symm.trans hDci)
      refine hk1.keep (fun x hx => ?_) (fun x c0 hx hc0 => ?_)
      · obtain ⟨v, _, h1, h2, h3⟩ := hmem2 x hx
        exact hvo x h1 h2 h3
      · obtain ⟨v, hv1, h1, _, _⟩ := hmem2 x (Or.inr hx)
        rw [hchar x v h1 hv1]
        exact hc0

/-- A column stays well formed when the bead `r` of another column takes the
place of its bead `a`. -/
theorem ColOK.swapped {st st' : Store} {c : Int} {col : Column} {l : List Int} {a r : Int}
    {A Rv : Bead} {lc rc : Char} {c1 bc' : BaseCount}
    (hk : ColOK st c col l) (ha : a ∈ l) (hA : VertAt st a = some A)
    (hr : VertAt st' r = some Rv) (hr1 : Rv.up = A.up) (hr2 : Rv.down = A.down)
    (hr3 : Rv.column_index = c) (hr4 : Rv.frag_index ≠ -1) (hrn : r ∉ l)
    (hU : ∀ u, VertAt st A.up = some u → VertAt st' A.up = some { u with down := r })
    (hD : A.down ≠ -1 → ∀ d, VertAt st A.down = some d →
      VertAt st' A.down = some { d with up := r })
    (ho : ∀ x, (x = col.call ∨ x ∈ l) → x ≠ a → x ≠ A.up → x ≠ A.down →
      VertAt st' x = VertAt st x)
    (hchar : ∀ x, (x ∈ l ∨ x = r) → beadChar st' x = beadChar st x)
    (hca : beadChar st a = some lc) (hcr : beadChar st r = some rc)
    (hd : DecBaseCount col.base_count lc = some c1) (hi : IncBaseCount c1 rc = some bc') :
    ColOK st' c { col with base_count := bc' } (swapIn a r l) := by
  have hnod := hk.nodup
  have hmemb := hk.members
  obtain ⟨g1, ⟨call0, gc0, gc1, gc2, gc3⟩, g3, g4, g5, g6⟩ := hk
  obtain ⟨l1, l2, l3⟩ := Chain_links _ _ g3 a A ha hA
  obtain ⟨hUa, hDa, hUD, hDtop⟩ := l3 hnod
  have hkeep : ∀ x v, (x = col.call ∨ x ∈ l) → x ≠ a → VertAt st x = some v →
      ∃ v', VertAt st' x = some v' ∧ v'.column_index = v.column_index ∧
        v'.frag_index = v.frag_index ∧ (x ≠ A.down → v'.up = v.up) := by
    intro x v hx hxa hxv
    by_cases hxU : x = A.up
    · subst hxU
      exact ⟨_, hU v hxv, rfl, rfl, fun _ => rfl⟩
    · by_cases hxD : x = A.down
      · subst hxD
        have hne : A.down ≠ -1 := by
          have := (VertAt_range hxv).1
          omega
        exact ⟨_, hD hne v hxv, rfl, rfl, fun e => absurd rfl e⟩
      · exact ⟨v, by rw [ho x hx hxa hxU hxD]; exact hxv, rfl, rfl, fun _ => rfl⟩
  have hca' : col.call ≠ a := fun e => (List.nodup_cons.mp hnod).1 (e ▸ ha)
  obtain ⟨c2, hc2, hc3, hc4, hc5⟩ := hkeep col.call call0 (Or.inl rfl) hca' gc0
  refine ⟨g1, ⟨c2, hc2, hc3.trans gc1, (hc5 (fun e => hDtop e.symm)).trans gc2, hc4.trans gc3⟩,
    ?_, swapIn_nodup l g4 hrn, ?_, ?_⟩
  · refine Chain_swapIn (col.call :: l) hA ⟨Rv, hr, hr1, hr2⟩ hU hD (fun x hx => ?_) l col.call g3
      hnod ha (fun x hx => hx)
    exact ho x (List.mem_cons.mp hx)
  · intro x hx
    rcases mem_swapIn.mp hx with ⟨rfl, _⟩ | ⟨hxa, hxl⟩
    · exact ⟨Rv, hr, hr3, hr4, by rw [hchar x (Or.inr rfl), hcr]; rfl⟩
    · obtain ⟨vw, hvw, hwci, hwf, hwc⟩ := g5 x hxl
      obtain ⟨v2, hv1, hv2, hv3, _⟩ := hkeep x vw (Or.inr hxl) hxa hvw
      exact ⟨v2, hv1, hv2.trans hwci, by rw [hv3]; exact hwf,
        by rw [hchar x (Or.inl hxl)]; exact hwc⟩
  · have t1 : Tally st col.base_count (a :: l.erase a) := Tally.perm g6 (List.perm_cons_erase ha)
    have t2 := (t1.dec hd hca).inc hi hcr
    have t3 : Tally st bc' (swapIn a r l) := Tally.perm t2 (swapIn_perm l g4 ha).symm
    refine Tally.congr t3 (fun x hx => ?_)
    rcases mem_swapIn.mp hx with ⟨rfl, _⟩ | ⟨_, hxl⟩
    · exact hchar x (Or.inr rfl)
    · exact hchar x (Or.inl hxl)

theorem LateralExchangeBead_cols {st st' : Store} {lid rid r : Int}
    (h : LateralExchangeBead st lid rid = some (st', r)) :
    ∃ L R colL colR, GetBead st lid = some L ∧ GetBead st rid = some R ∧
      GetColumn st L.column_index = some colL ∧ GetColumn st R.column_index = some colR := by
  unfold LateralExchangeBead at h
  simp only [Option.bind_eq_bind, Option.bind_eq_some, Option.pure_def, Option.some.injEq,
    Prod.mk.injEq] at h
  obtain ⟨L, hL, R, hR, colL, hcolL, colR, hcolR, _⟩ := h
  exact ⟨L, R, colL, colR, hL, hR, hcolL, hcolR⟩

/-- `LateralExchangeBead` of two fragment beads of different columns keeps
the columns well formed. -/
theorem VWF.exchange {st st' : Store} {ch : Int → List Int} {lid rid r : Int} {L R : Bead}
    (hw : VWF st ch) (h : LateralExchangeBead st lid rid = some (st', r))
    (hL : GetBead st lid = some L) (hR : GetBead st rid = some R)
    (hLf : L.frag_index ≠ -1) (hRf : R.frag_index ≠ -1)
    (hci : L.column_index ≠ R.column_index) :
    VWF st' (fun k => if k = L.column_index then swapIn lid rid (ch L.column_index)
      else if k = R.column_index then swapIn rid lid (ch R.column_index) else ch k) := by
  obtain ⟨L', R', colL, colR, hL', hR', hcolL, hcolR⟩ := LateralExchangeBead_cols h
  rw [hL] at hL'
  cases hL'
  rw [hR] at hR'
  cases hR'
  have hLv := VertAt_of_get hL
  have hRv := VertAt_of_get hR
  have hcolLv := ColVertAt_of_get hcolL
  have hcolRv := ColVertAt_of_get hcolR
  have hkL := hw.col _ colL.vert hcolLv
  have hkR := hw.col _ colR.vert hcolRv
  have hcl0 := VWF.col_nonneg hcolLv
  have hcr0 := VWF.col_nonneg hcolRv
  have hlmem : lid ∈ ch L.column_index := by
    obtain ⟨_, _, h3⟩ := hw.bead lid L.vert hLv
    obtain ⟨_, _, hor⟩ := h3 hcl0
    rcases hor with ⟨g1, _⟩ | ⟨_, g2⟩
    · exact absurd g1 hLf
    · exact g2
  have hrmem : rid ∈ ch R.column_index := by
    obtain ⟨_, _, h3⟩ := hw.bead rid R.vert hRv
    obtain ⟨_, _, hor⟩ := h3 hcr0
    rcases hor with ⟨g1, _⟩ | ⟨_, g2⟩
    · exact absurd g1 hRf
    · exact g2
  obtain ⟨lu, ld, l3⟩ := Chain_links _ _ hkL.2.2.1 lid L.vert hlmem hLv
  obtain ⟨ru, rd, r3⟩ := Chain_links _ _ hkR.2.2.1 rid R.vert hrmem hRv
  obtain ⟨lU, lD, lUD, lDtop⟩ := l3 hkL.nodup
  obtain ⟨rU, rD, rUD, rDtop⟩ := r3 hkR.nodup
  have lu' : L.up = colL.call ∨ L.up ∈ ch L.column_index := lu
  have ld' : L.down = -1 ∨ L.down ∈ ch L.column_index := ld
  have ru' : R.up = colR.call ∨ R.up ∈ ch R.column_index := ru
  have rd' : R.down = -1 ∨ R.down ∈ ch R.column_index := rd
  have cross : ∀ x y, (x = colL.call ∨ x ∈ ch L.column_index) →
      (y = colR.call ∨ y ∈ ch R.column_index) → x ≠ y := by
    intro x y hx hy e
    obtain ⟨v, hv1, hv2, _⟩ := hkL.members x hx
    obtain ⟨w, hw1, hw2, _⟩ := hkR.members y hy
    rw [e, hw1] at hv1
    cases hv1
    exact hci (hv2.symm.trans hw2)
  have nnL : ∀ x, (x = colL.call ∨ x ∈ ch L.column_index) → x ≠ -1 := by
    intro x hx
    obtain ⟨v, hv1, _⟩ := hkL.members x hx
    have := (VertAt_range hv1).1
    omega
  have nnR : ∀ y, (y = colR.call ∨ y ∈ ch R.column_index) → y ≠ -1 := by
    intro x hx
    obtain ⟨v, hv1, _⟩ := hkR.members x hx
    have := (VertAt_range hv1).1
    omega
  have inl : lid = colL.call ∨ lid ∈ ch L.column_index := Or.inr hlmem
  have inr : rid = colR.call ∨ rid ∈ ch R.column_index := Or.inr hrmem
  have hlr : lid ≠ rid := cross _ _ inl inr
  have a1 : L.up ≠ rid := cross _ _ lu' inr
  have a2 : L.down ≠ rid := by
    rcases ld' with e | e
    · rw [e]; exact Ne.symm (nnR _ inr)
    · exact cross _ _ (Or.inr e) inr
  have a3 : L.up ≠ lid := lU
  have a4 : L.down ≠ lid := lD
  have a5 : R.up ≠ rid := rU
  have a6 : R.down ≠ rid := rD
  have a7 : R.up ≠ lid := Ne.symm (cross _ _ inl ru')
  have a8 : R.down ≠ lid := by
    rcases rd' with e | e
    · rw [e]; exact Ne.symm (nnL _ inl)
    · exact Ne.symm (cross _ _ inl (Or.inr e))
  have b1 : L.up ≠ L.down := lUD
  have b2 : R.up ≠ R.down := rUD
  have b3 : L.up ≠ R.up := cross _ _ lu' ru'
  have b4 : L.up ≠ R.down := by
    rcases rd' with e | e
    · rw [e]; exact nnL _ lu'
    · exact cross _ _ lu' (Or.inr e)
  have b5 : L.down ≠ R.up := by
    rcases ld' with e | e
    · rw [e]; exact Ne.symm (nnR _ ru')
    · exact cross _ _ (Or.inr e) ru'
  have b6 : L.down ≠ R.down ∨ L.down = -1 := by
    rcases ld' with e | e
    · exact Or.inr e
    · left
      rcases rd' with e2 | e2
      · rw [e2]; exact nnL _ (Or.inr e)
      · exact cross _ _ (Or.inr e) (Or.inr e2)
  obtain ⟨colL2, colR2, lc, rc, hcL2, hcR2, hlc, hrc, hseq, ⟨c1, bl, c2, br, d1, d2, d3, d4, hcv⟩,
    hv⟩ := LateralExchangeBead_vert h hL hR hlr hci a1 a2 a3 a4 a5 a6 a7 a8 b1 b2 b3 b4 b5 b6
  rw [hcolL] at hcL2
  cases hcL2
  rw [hcolR] at hcR2
  cases hcR2
  have hvr := hv rid
  rw [if_pos rfl] at hvr
  have hvl := hv lid
  rw [if_neg hlr, if_pos rfl] at hvl
  have hmap : ∀ x, x ≠ rid → x ≠ lid → ∃ g : Bead → Bead,
      VertAt st' x = (VertAt st x).map g ∧ ∀ y, (g y).soffset = y.soffset ∧
        (g y).boffset = y.boffset ∧ (g y).frag_index = y.frag_index ∧
        (g y).column_index = y.column_index := by
    intro x h1 h2
    rw [hv x, if_neg h1, if_neg h2]
    split_ifs
    · exact ⟨_, rfl, fun _ => ⟨rfl, rfl, rfl, rfl⟩⟩
    · exact ⟨_, rfl, fun _ => ⟨rfl, rfl, rfl, rfl⟩⟩
    · exact ⟨_, rfl, fun _ => ⟨rfl, rfl, rfl, rfl⟩⟩
    · exact ⟨_, rfl, fun _ => ⟨rfl, rfl, rfl, rfl⟩⟩
    · exact ⟨id, by simp, fun _ => ⟨rfl, rfl, rfl, rfl⟩⟩
  have hoO : ∀ x, x ≠ rid → x ≠ lid → x ≠ L.up → x ≠ L.down → x ≠ R.up → x ≠ R.down →
      VertAt st' x = VertAt st x := by
    intro x h1 h2 h3 h4 h5 h6
    rw [hv x, if_neg h1, if_neg h2, if_neg (fun e => h3 e.2), if_neg (fun e => h4 e.2),
      if_neg (fun e => h5 e.2), if_neg (fun e => h6 e.2)]
  have hUL : ∀ u, VertAt st L.up = some u → VertAt st' L.up = some { u with down := rid } := by
    intro u hu
    rw [hv L.up, if_neg a1, if_neg a3, if_pos ⟨nnL _ lu', rfl⟩, hu]
    rfl
  have hDL : L.down ≠ -1 → ∀ d, VertAt st L.down = some d →
      VertAt st' L.down = some { d with up := rid } := by
    intro hne d hd
    rw [hv L.down, if_neg a2, if_neg a4, if_neg (fun e => b1 e.2.symm), if_pos ⟨hne, rfl⟩, hd]
    rfl
  have hUR : ∀ u, VertAt st R.up = some u → VertAt st' R.up = some { u with down := lid } := by
    intro u hu
    rw [hv R.up, if_neg a5, if_neg a7, if_neg (fun e => b3 e.2.symm),
      if_neg (fun e => b5 e.2.symm), if_pos ⟨nnR _ ru', rfl⟩, hu]
    rfl
  have hDR : R.down ≠ -1 → ∀ d, VertAt st R.down = some d →
      VertAt st' R.down = some { d with up := lid } := by
    intro hne d hd
    have b6' : L.down ≠ R.down := by
      rcases b6 with e | e
      · exact e
      · rw [e]; exact Ne.symm hne
    rw [hv R.down, if_neg a6, if_neg a8, if_neg (fun e => b4 e.2.symm),
      if_neg (fun e => b6' e.2.symm), if_neg (fun e => b2 e.2.symm), if_pos ⟨hne, rfl⟩, hd]
    rfl
  have hcharAll : ∀ x, beadChar st' x = beadChar st x := by
    intro x
    by_cases h1 : x = rid
    · subst h1
      exact beadChar_keep hseq hRv hvr rfl
    · by_cases h2 : x = lid
      · subst h2
        exact beadChar_keep hseq hLv hvl rfl
      · obtain ⟨g, hg, hg2⟩ := hmap x h1 h2
        cases hx : VertAt st x with
        | none =>
          rw [hx] at hg
          have e1 : GetBead st' x = none := by
            unfold VertAt at hg
            cases hb : GetBead st' x with
            | none => rfl
            | some y => simp [hb] at hg
          have e2 : GetBead st x = none := by
            unfold VertAt at hx
            cases hb : GetBead st x with
            | none => rfl
            | some y => simp [hb] at hx
          unfold beadChar
          rw [e1, e2]
        | some v =>
          rw [hx] at hg
          exact beadChar_keep hseq hx hg (hg2 v).1
  have hcolkeep : ∀ k c0, ColVertAt st k = some c0 →
      ∃ col', ColVertAt st' k = some col' ∧ col'.call = c0.call := by
    intro k c0 hk
    rw [hcv k]
    by_cases hkl : k = L.column_index
    · subst hkl
      rw [hcolLv] at hk
      cases hk
      exact ⟨{ colL.vert with base_count := bl }, by rw [if_pos rfl], rfl⟩
    · by_cases hkr : k = R.column_index
      · subst hkr
        rw [hcolRv] at hk
        cases hk
        exact ⟨{ colR.vert with base_count := br }, by rw [if_neg hkl, if_pos rfl], rfl⟩
      · exact ⟨c0, by rw [if_neg hkl, if_neg hkr]; exact hk, rfl⟩
  have hcharL : beadChar st lid = some lc := by rw [beadChar_eq hLv]; exact hlc
  have hcharR : beadChar st rid = some rc := by rw [beadChar_eq hRv]; exact hrc
  -- the six beads the exchange writes all lie in the two columns
  have six : ∀ x v, VertAt st x = some v → v.column_index ≠ L.column_index →
      v.column_index ≠ R.column_index → x ≠ rid ∧ x ≠ lid ∧ x ≠ L.up ∧ x ≠ L.down ∧ x ≠ R.up ∧
        x ≠ R.down := by
    intro x v hx n1 n2
    have kL : ∀ y, (y = colL.call ∨ y ∈ ch L.column_index) → x ≠ y := by
      intro y hy e
      obtain ⟨w, hw1, hw2, _⟩ := hkL.members y hy
      rw [← e, hx] at hw1
      cases hw1
      exact n1 hw2
    have kR : ∀ y, (y = colR.call ∨ y ∈ ch R.column_index) → x ≠ y := by
      intro y hy e
      obtain ⟨w, hw1, hw2, _⟩ := hkR.members y hy
      rw [← e, hx] at hw1
      cases hw1
      exact n2 hw2
    have x0 := (VertAt_range hx).1
    refine ⟨kR _ inr, kL _ inl, kL _ lu', ?_, kR _ ru', ?_⟩
    · rcases ld' with e | e
      · omega
      · exact kL _ (Or.inr e)
    · rcases rd' with e | e
      · omega
      · exact kR _ (Or.inr e)
  refine ⟨fun j v' hj => ?_, fun k col' hk => ?_⟩
  · by_cases hjr : j = rid
    · subst hjr
      rw [hvr] at hj
      cases hj
      obtain ⟨col', hcol', _⟩ := hcolkeep _ _ hcolLv
      refine ⟨(hw.bead j R.vert hRv).1, fun e => absurd e hcl0,
        fun _ => ⟨col', hcol', Or.inr ⟨hRf, ?_⟩⟩⟩
      show j ∈ (if L.column_index = L.column_index then swapIn lid j (ch L.column_index) else _)
      rw [if_pos rfl]
      exact mem_swapIn.mpr (Or.inl ⟨rfl, hlmem⟩)
    · by_cases hjl : j = lid
      · subst hjl
        rw [hvl] at hj
        cases hj
        obtain ⟨col', hcol', _⟩ := hcolkeep _ _ hcolRv
        refine ⟨(hw.bead j L.vert hLv).1, fun e => absurd e hcr0,
          fun _ => ⟨col', hcol', Or.inr ⟨hLf, ?_⟩⟩⟩
        show j ∈ (if R.column_index = L.column_index then _
          else if R.column_index = R.column_index then swapIn rid j (ch R.column_index) else _)
        rw [if_neg (Ne.symm hci), if_pos rfl]
        exact mem_swapIn.mpr (Or.inl ⟨rfl, hrmem⟩)
      · obtain ⟨g, hg, hg2⟩ := hmap j hjr hjl
        cases hvj : VertAt st j with
        | none =>
          rw [hvj] at hg
          rw [hg] at hj
          cases hj
        | some v =>
          rw [hvj] at hg
          rw [hg] at hj
          cases hj
          obtain ⟨_, q2, q3, q4⟩ := hg2 v
          refine (hw.bead j v hvj).move q2 q4 q3 (fun e => ?_) (hcolkeep _) (fun _ hm => ?_)
          · obtain ⟨s1, s2, s3, s4, s5, s6⟩ := six j v hvj (fun e2 => hcl0 (e2 ▸ e))
              (fun e2 => hcr0 (e2 ▸ e))
            have := hoO j s1 s2 s3 s4 s5 s6
            rw [hg, hvj] at this
            have e3 := Option.some.inj this
            have e4 : g v = v := e3
            rw [e4]
            exact ⟨rfl, rfl⟩
          · show j ∈ (if v.column_index = L.column_index then swapIn lid rid (ch L.column_index)
              else if v.column_index = R.column_index then swapIn rid lid (ch R.column_index)
              else ch v.column_index)
            by_cases e1 : v.column_index = L.column_index
            · rw [if_pos e1]
              exact mem_swapIn.mpr (Or.inr ⟨hjl, e1 ▸ hm⟩)
            · rw [if_neg e1]
              by_cases e2 : v.column_index = R.column_index
              · rw [if_pos e2]
                exact mem_swapIn.mpr (Or.inr ⟨hjr, e2 ▸ hm⟩)
              · rw [if_neg e2]
                exact hm
  · by_cases hkl : k = L.column_index
    · subst hkl
      rw [hcv, if_pos rfl] at hk
      cases hk
      show ColOK st' _ _ (if L.column_index = L.column_index then
        swapIn lid rid (ch L.column_index) else _)
      rw [if_pos rfl]
      refine ColOK.swapped hkL hlmem hLv hvr rfl rfl rfl hRf (fun e => cross _ _ (Or.inr e) inr rfl)
        hUL hDL (fun x hx n1 n2 n3 => ?_) (fun x _ => hcharAll x) hcharL hcharR d1 d2
      refine hoO x (cross _ _ hx inr) n1 n2 n3 (cross _ _ hx ru') ?_
      rcases rd' with e | e
      · rw [e]; exact nnL _ hx
      · exact cross _ _ hx (Or.inr e)
    · by_cases hkr : k = R.column_index
      · subst hkr
        rw [hcv, if_neg hkl, if_pos rfl] at hk
        cases hk
        show ColOK st' _ _ (if R.column_index = L.column_index then _
          else if R.column_index = R.column_index then swapIn rid lid (ch R.column_index) else _)
        rw [if_neg hkl, if_pos rfl]
        refine ColOK.swapped hkR hrmem hRv hvl rfl rfl rfl hLf
          (fun e => cross _ _ inl (Or.inr e) rfl) hUR hDR (fun x hx n1 n2 n3 => ?_)
          (fun x _ => hcharAll x) hcharR hcharL d3 d4
        refine hoO x n1 (Ne.symm (cross _ _ inl hx)) (Ne.symm (cross _ _ lu' hx)) ?_ n2 n3
        rcases ld' with e | e
        · rw [e]; exact nnR _ hx
        · exact Ne.symm (cross _ _ (Or.inr e) hx)
      · rw [hcv, if_neg hkl, if_neg hkr] at hk
        show ColOK st' k col' (if k = L.column_index then _
          else if k = R.column_index then _ else ch k)
        rw [if_neg hkl, if_neg hkr]
        have hk1 := hw.col k col' hk
        refine hk1.keep (fun x hx => ?_) (fun x c0 _ hc0 => by rw [hcharAll x]; exact hc0)
        obtain ⟨v, hv1, hv2, _⟩ := hk1.members x hx
        obtain ⟨s1, s2, s3, s4, s5, s6⟩ := six x v hv1 (fun e => hkl (hv2.symm.trans e))
          (fun e => hkr (hv2.symm.trans e))
        exact hoO x s1 s2 s3 s4 s5 s6

theorem VSame.unchanged (st : Store) : VSame st st := ⟨fun _ => rfl, fun _ => rfl, rfl⟩

theorem VSame.after {a b c : Store} (h1 : VSame a b) (h2 : VSame b c) : VSame a c :=
  ⟨fun j => (h2.1 j).trans (h1.1 j), fun k => (h2.2.1 k).trans (h1.2.1 k), h2.2.2.trans h1.2.2⟩

theorem VSame.ofEq {a b : Store} (h : a = b) : VSame a b := h ▸ VSame.unchanged a

theorem modBead_vsame {st st' : Store} {i : Int} {f : Bead → Bead}
    (h : modBead st i f = some st') (hf : ∀ y, (f y).vert = y.vert) : VSame st st' := by
  obtain ⟨h1, h2⟩ := modBead_vert_same h hf
  exact ⟨h1, h2.colVert, h2.1⟩

theorem patchBead_vsame {st st' : Store} {i : Int} {f : Bead → Bead}
    (h : patchBead st i f = some st') (hf : ∀ y, (f y).vert = y.vert) : VSame st st' := by
  obtain ⟨h1, h2⟩ := patchBead_vert_same h hf
  exact ⟨h1, h2.colVert, h2.1⟩

theorem modColumn_vsame {st st' : Store} {i : Int} {f : Column → Column}
    (h : modColumn st i f = some st') (hf : ∀ y, (f y).vert = y.vert) : VSame st st' := by
  obtain ⟨hget, hb, _, hs, _⟩ := modColumn_get h
  refine ⟨VertAt_congr hb, fun c => ?_, hs⟩
  unfold ColVertAt
  rw [hget c]
  by_cases hc : c = i
  · subst hc
    cases hg : GetColumn st c with
    | none => simp
    | some y => simp [hf y]
  · simp [hc]

theorem patchColumn_vsame {st st' : Store} {i : Int} {f : Column → Column}
    (h : patchColumn st i f = some st') (hf : ∀ y, (f y).vert = y.vert) : VSame st st' := by
  unfold patchColumn at h
  split_ifs at h
  · exact modColumn_vsame h hf
  · simp at h
    exact VSame.ofEq h

theorem modMANode_vsame {st st' : Store} {i : Int} {f : MANode → MANode}
    (h : modMANode st i f = some st') : VSame st st' := by
  obtain ⟨m, _, rfl⟩ := modMANode_spec h
  exact ⟨fun _ => rfl, fun _ => rfl, rfl⟩

theorem modMANodeIf_vsame {c : Bool} {st st' : Store} {i : Int} {f : MANode → MANode}
    (h : modMANodeIf c st i f = some st') : VSame st st' := by
  unfold modMANodeIf at h
  split_ifs at h
  · exact modMANode_vsame h
  · simp at h
    exact VSame.ofEq h

theorem AddColumnToMANode_vsame {st st' : Store} {ma : Int} {column : Column}
    (h : AddColumnToMANode st ma column = some st') : VSame st st' := by
  unfold AddColumnToMANode at h
  simp only [Option.bind_eq_bind, Option.bind_eq_some] at h
  obtain ⟨s1, h1, s2, h2, h3⟩ := h
  exact ((modMANode_vsame h1).after (modMANodeIf_vsame h2)).after (modMANodeIf_vsame h3)

theorem appendLink_vsame {st st' : Store} {cid lid : Int} (h : appendLink st cid lid = some st') :
    VSame st st' := by
  unfold appendLink appendLinkNew appendLinkOld at h
  simp only [Option.bind_eq_bind, Option.bind_eq_some, Option.pure_def, Option.some.injEq,
    Prod.mk.injEq] at h
  obtain ⟨_, _, s4, ⟨_, _, _, _, _, _, s1, h1, s2, h2, s3, h3, h4⟩, _, _, _, _, s5, h5, s6, h6,
    _, _, s7, h7, _, _, h8⟩ := h
  exact (((((((modColumn_vsame h1 (fun _ => rfl)).after (modColumn_vsame h2 (fun _ => rfl))).after
    (modBead_vsame h3 (fun _ => rfl))).after (modBead_vsame h4 (fun _ => rfl))).after
    (modColumn_vsame h5 (fun _ => rfl))).after (modBead_vsame h6 (fun _ => rfl))).after
    (patchColumn_vsame h7 (fun _ => rfl))).after (patchBead_vsame h8 (fun _ => rfl))

theorem prependLink_vsame {st st' : Store} {cid lid : Int}
    (h : prependLink st cid lid = some st') : VSame st st' := by
  unfold prependLink prependLinkNew prependLinkOld at h
  simp only [Option.bind_eq_bind, Option.bind_eq_some, Option.pure_def, Option.some.injEq,
    Prod.mk.injEq] at h
  obtain ⟨_, _, s4, ⟨_, _, _, _, _, _, s1, h1, s2, h2, s3, h3, h4⟩, _, _, _, _, s5, h5, s6, h6,
    _, _, s7, h7, _, _, h8⟩ := h
  exact (((((((modColumn_vsame h1 (fun _ => rfl)).after (modColumn_vsame h2 (fun _ => rfl))).after
    (modBead_vsame h3 (fun _ => rfl))).after (modBead_vsame h4 (fun _ => rfl))).after
    (modColumn_vsame h5 (fun _ => rfl))).after (modBead_vsame h6 (fun _ => rfl))).after
    (patchColumn_vsame h7 (fun _ => rfl))).after (patchBead_vsame h8 (fun _ => rfl))

theorem columnRegister_vsame {st st' : Store} {cid lid d : Int}
    (h : columnRegister st cid lid d = some st') : VSame st st' := by
  unfold columnRegister at h
  simp only [Option.bind_eq_bind, Option.bind_eq_some] at h
  obtain ⟨_, _, s1, h1, _, _, s2, h2, _, _, h3⟩ := h
  exact ((modColumn_vsame h1 (fun _ => rfl)).after (modColumn_vsame h2 (fun _ => rfl))).after
    (AddColumnToMANode_vsame h3)

theorem VWF.same {st st' : Store} {ch : Int → List Int} (hw : VWF st ch) (h : VSame st st') :
    VWF st' ch := by
  refine hw.ext (fun j v hj => by rw [h.1 j]; exact hj) (fun j v hj => Or.inl (by rw [← h.1 j]; exact hj))
    h.2.1 (fun b c hb => ?_)
  rw [beadChar_of_vert h.2.2 (h.1 b)]
  exact hb

/-- Under a bead of a well-formed store hangs a fragment bead, or nothing. -/
theorem VWF.down_frag {st : Store} {ch : Int → List Int} (hw : VWF st ch) {cur : Int} {cb : Bead}
    (hc : GetBead st cur = some cb) (hd : cb.down ≠ -1) :
    ∃ d, GetBead st cb.down = some d ∧ d.frag_index ≠ -1 := by
  have hv := VertAt_of_get hc
  obtain ⟨_, h2, h3⟩ := hw.bead cur cb.vert hv
  have hci : cb.vert.column_index ≠ -1 := fun e => hd (h2 e).2.1
  obtain ⟨col, hcol, hor⟩ := h3 hci
  have hk := hw.col _ col hcol
  have hdm : cb.down ∈ ch cb.vert.column_index := by
    rcases hor with ⟨_, g2⟩ | ⟨_, g2⟩
    · obtain ⟨t, ht, htd⟩ := Chain_top hk.2.2.1
      rw [g2, hv] at ht
      cases ht
      cases hl : ch cb.vert.column_index with
      | nil =>
        rw [hl] at htd
        exact absurd htd hd
      | cons y ys =>
        rw [hl] at htd
        have : cb.down = y := htd
        rw [this]
        exact List.mem_cons_self _ _
    · obtain ⟨_, l2, _⟩ := Chain_links _ _ hk.2.2.1 cur cb.vert g2 hv
      rcases l2 with e | e
      · exact absurd e hd
      · exact e
  obtain ⟨x, hx, _, hxf, _⟩ := hk.2.2.2.2.1 cb.down hdm
  obtain ⟨d, hd1, hd2⟩ := VertAt_some hx
  exact ⟨d, hd1, by rw [← hd2] at hxf; exact hxf⟩

/-- A new gap bead after a fragment bead keeps the columns well formed. -/
theorem VWF.appendGap {st s1 : Store} {ch : Int → List Int} {b g : Int} {x : Bead}
    (hw : VWF st ch) (h : AppendGapBead st b = some (s1, g)) (hx : GetBead st b = some x)
    (hf : x.frag_index ≠ -1) :
    VWF s1 ch ∧ ∃ y, GetBead s1 g = some y ∧ y.column_index = -1 := by
  obtain ⟨x0, qv, hx0, hg, _, hseq, _, hcs, _, _, _, _, hlen, hnew, hold⟩ := AppendGapBead_spec h
  rw [hx] at hx0
  cases hx0
  refine ⟨hw.ext (fun j v hj => ?_) (fun j v hj => ?_) (ColVertAt_congr hcs) (fun j c hj => ?_),
    _, hnew, rfl⟩
  · obtain ⟨y, hy, rfl⟩ := VertAt_some hj
    rw [VertAt_of_get (hold j y hy)]
    simp only [Bead.vert]
    split_ifs <;> rfl
  · obtain ⟨y, hy, rfl⟩ := VertAt_some hj
    cases hg0 : GetBead st j with
    | some z =>
      left
      rw [hold j z hg0] at hy
      cases hy
      rw [VertAt_of_get hg0]
      simp only [Bead.vert]
      split_ifs <;> rfl
    | none =>
      right
      have hr := GetBead_some_range hy
      have hn := (getAt_eq_none_iff st.beadStore j).mp hg0
      have hjg : j = g := by omega
      subst hjg
      rw [hnew] at hy
      cases hy
      exact ⟨rfl, rfl, rfl, rfl, hf⟩
  · unfold beadChar at hj ⊢
    cases hg0 : GetBead st j with
    | none => simp [hg0] at hj
    | some z =>
      rw [hold j z hg0]
      simp only [hg0] at hj
      have : GetBase s1 z.soffset = some c := GetBase_append hseq hj
      simp only
      split_ifs <;> exact this

/-- A new gap bead before a fragment bead keeps the columns well formed. -/
theorem VWF.prependGap {st s1 : Store} {ch : Int → List Int} {b g : Int} {x : Bead}
    (hw : VWF st ch) (h : PrependGapBead st b = some (s1, g)) (hx : GetBead st b = some x)
    (hf : x.frag_index ≠ -1) :
    VWF s1 ch ∧ ∃ y, GetBead s1 g = some y ∧ y.column_index = -1 := by
  obtain ⟨x0, qv, hx0, hg, _, hseq, _, hcs, _, _, _, _, hlen, hnew, hold⟩ := PrependGapBead_spec h
  rw [hx] at hx0
  cases hx0
  refine ⟨hw.ext (fun j v hj => ?_) (fun j v hj => ?_) (ColVertAt_congr hcs) (fun j c hj => ?_),
    _, hnew, rfl⟩
  · obtain ⟨y, hy, rfl⟩ := VertAt_some hj
    rw [VertAt_of_get (hold j y hy)]
    simp only [Bead.vert]
    split_ifs <;> rfl
  · obtain ⟨y, hy, rfl⟩ := VertAt_some hj
    cases hg0 : GetBead st j with
    | some z =>
      left
      rw [hold j z hg0] at hy
      cases hy
      rw [VertAt_of_get hg0]
      simp only [Bead.vert]
      split_ifs <;> rfl
    | none =>
      right
      have hr := GetBead_some_range hy
      have hn := (getAt_eq_none_iff st.beadStore j).mp hg0
      have hjg : j = g := by omega
      subst hjg
      rw [hnew] at hy
      cases hy
      exact ⟨rfl, rfl, rfl, rfl, hf⟩
  · unfold beadChar at hj ⊢
    cases hg0 : GetBead st j with
    | none => simp [hg0] at hj
    | some z =>
      rw [hold j z hg0]
      simp only [hg0] at hj
      have : GetBase s1 z.soffset = some c := GetBase_append hseq hj
      simp only
      split_ifs <;> exact this

theorem VWF.fillAppend (lid bid : Int) :
    ∀ (fuel : Nat) (st : Store) (cur : Int) (st' : Store) (ch : Int → List Int),
      VWF st ch → appendFill lid bid fuel st cur = some st' → ∃ ch', VWF st' ch' := by
  intro fuel
  induction fuel with
  | zero => intro st cur st' ch _ h; simp [appendFill] at h
  | succ n ih =>
    intro st cur st' ch hw h
    unfold appendFill at h
    split_ifs at h with hc
    · simp at h
      exact ⟨ch, h ▸ hw⟩
    · cases hb : GetBead st cur with
      | none => simp [hb] at h
      | some cb =>
        simp only [hb] at h
        split_ifs at h with hn
        · simp at h
          exact ⟨ch, h ▸ hw⟩
        · cases hb2 : GetBead st cb.down with
          | none => simp [hb2] at h
          | some bead =>
            simp only [hb2] at h
            split_ifs at h with hx
            · cases ha : AppendGapBead st cb.down with
              | none => simp [ha] at h
              | some r =>
                obtain ⟨st1, g⟩ := r
                simp only [ha] at h
                cases hal : AlignBead st1 lid g with
                | none => simp [hal] at h
                | some r2 =>
                  obtain ⟨st2, g2⟩ := r2
                  simp only [hal] at h
                  obtain ⟨d, hd1, hd2⟩ := hw.down_frag hb hn
                  rw [hb2] at hd1
                  cases hd1
                  obtain ⟨hw1, y, hy, hyc⟩ := hw.appendGap ha hb2 hd2
                  exact ih st2 _ st' _ (hw1.alignBead hal hy hyc) h
            · exact ih st _ st' ch hw h

theorem VWF.fillPrepend (lid bid : Int) :
    ∀ (fuel : Nat) (st : Store) (cur : Int) (st' : Store) (ch : Int → List Int),
      VWF st ch → prependFill lid bid fuel st cur = some st' → ∃ ch', VWF st' ch' := by
  intro fuel
  induction fuel with
  | zero => intro st cur st' ch _ h; simp [prependFill] at h
  | succ n ih =>
    intro st cur st' ch hw h
    unfold prependFill at h
    split_ifs at h with hc
    · simp at h
      exact ⟨ch, h ▸ hw⟩
    · cases hb : GetBead st cur with
      | none => simp [hb] at h
      | some cb =>
        simp only [hb] at h
        split_ifs at h with hn
        · simp at h
          exact ⟨ch, h ▸ hw⟩
        · cases hb2 : GetBead st cb.down with
          | none => simp [hb2] at h
          | some bead =>
            simp only [hb2] at h
            split_ifs at h with hx
            · cases ha : PrependGapBead st cb.down with
              | none => simp [ha] at h
              | some r =>
                obtain ⟨st1, g⟩ := r
                simp only [ha] at h
                cases hal : AlignBead st1 lid g with
                | none => simp [hal] at h
                | some r2 =>
                  obtain ⟨st2, g2⟩ := r2
                  simp only [hal] at h
                  obtain ⟨d, hd1, hd2⟩ := hw.down_frag hb hn
                  rw [hb2] at hd1
                  cases hd1
                  obtain ⟨hw1, y, hy, hyc⟩ := hw.prependGap ha hb2 hd2
                  exact ih st2 _ st' _ (hw1.alignBead hal hy hyc) h
            · exact ih st _ st' ch hw h

/-- `ColumnAppend` with a bead that is in no column keeps the columns well
formed. -/
theorem VWF.columnAppend {st st' : Store} {ch : Int → List Int} {cid bid lid : Int} {b : Bead}
    (hw : VWF st ch) (h : ColumnAppend st cid bid = some (st', lid))
    (hb : GetBead st bid = some b) (hun : b.column_index = -1) : ∃ ch', VWF st' ch' := by
  unfold ColumnAppend at h
  simp only [Option.bind_eq_bind, Option.bind_eq_some, Option.pure_def, Option.some.injEq,
    Prod.mk.injEq] at h
  obtain ⟨_, _, ⟨s1, l1⟩, h1, s2, h2, prev, _, s3, h3, s4, h4, rfl, _⟩ := h
  have w1 := hw.createColumn h1 hb hun
  have w2 := w1.same (appendLink_vsame h2)
  obtain ⟨ch3, w3⟩ := VWF.fillAppend _ _ _ _ _ _ _ w2 h3
  exact ⟨ch3, w3.same (columnRegister_vsame h4)⟩

/-- `ColumnPrepend` with a bead that is in no column keeps the columns well
formed. -/
theorem VWF.columnPrepend {st st' : Store} {ch : Int → List Int} {cid bid lid : Int} {b : Bead}
    (hw : VWF st ch) (h : ColumnPrepend st cid bid = some (st', lid))
    (hb : GetBead st bid = some b) (hun : b.column_index = -1) : ∃ ch', VWF st' ch' := by
  unfold ColumnPrepend at h
  simp only [Option.bind_eq_bind, Option.bind_eq_some, Option.pure_def, Option.some.injEq,
    Prod.mk.injEq] at h
  obtain ⟨_, _, ⟨s1, l1⟩, h1, s2, h2, nxt, _, s3, h3, s4, h4, col, _, s5, h5, rfl, _⟩ := h
  have w1 := hw.createColumn h1 hb hun
  have w2 := w1.same (prependLink_vsame h2)
  obtain ⟨ch3, w3⟩ := VWF.fillPrepend _ _ _ _ _ _ _ w2 h3
  exact ⟨ch3, (w3.same (columnRegister_vsame h4)).same (modMANodeIf_vsame h5)⟩

/-- `FirstColumn` with a bead that is in no column keeps the columns well
formed. -/
theorem VWF.firstColumn {st st' : Store} {ch : Int → List Int} {mid bid lid : Int} {b : Bead}
    (hw : VWF st ch) (h : FirstColumn st mid bid = some (st', lid))
    (hb : GetBead st bid = some b) (hun : b.column_index = -1) : ∃ ch', VWF st' ch' := by
  unfold FirstColumn at h
  simp only [Option.bind_eq_bind, Option.bind_eq_some, Option.pure_def, Option.some.injEq,
    Prod.mk.injEq] at h
  obtain ⟨_, _, ⟨s1, l1⟩, h1, s2, h2, s3, h3, col, _, s4, h4, rfl, _⟩ := h
  have w1 := hw.createColumn h1 hb hun
  exact ⟨_, ((w1.same (modColumn_vsame h2 (fun _ => rfl))).same
    (modColumn_vsame h3 (fun _ => rfl))).same (AddColumnToMANode_vsame h4)⟩

theorem VWF.createMANode {st : Store} {ch : Int → List Int} (hw : VWF st ch) (iid : Int) :
    VWF (CreateMANode st iid).1 ch :=
  hw.same ⟨fun _ => rfl, fun _ => rfl, rfl⟩

theorem VWF.reset : VWF ResetStores (fun _ => []) := by
  refine ⟨fun j b hj => ?_, fun c col hc => ?_⟩
  · have := VertAt_range hj
    simp [ResetStores] at this
    omega
  · have := ColVertAt_range hc
    simp [ResetStores] at this
    omega

theorem getAt_fragmentBeads {l : List Bead} {lid so : Int} {len : Nat} {j : Int} {y : Bead}
    (h : getAt (l ++ fragmentBeads lid l.length so len) j = some y) (hn : getAt l j = none) :
    y.boffset = j ∧ y.column_index = -1 ∧ y.up = -1 ∧ y.down = -1 ∧ y.frag_index = lid := by
  obtain ⟨h0, h1, h2⟩ := getAt_eq_some h
  have hn' := (getAt_eq_none_iff l j).mp hn
  have hge : l.length ≤ j.toNat := by omega
  rw [List.getElem?_append_right hge] at h2
  unfold fragmentBeads at h2
  rw [List.getElem?_map] at h2
  have hlt : j.toNat - l.length < len := by
    by_contra hc
    rw [List.getElem?_eq_none (by simp; omega)] at h2
    cases h2
  rw [List.getElem?_range hlt] at h2
  simp only [Option.map_some', Option.some.injEq] at h2
  subst h2
  refine ⟨?_, rfl, rfl, rfl, rfl⟩
  simp only
  omega

/-- Loading a fragment keeps the columns well formed. -/
theorem VWF.load {st : Store} {ch : Int → List Int} (hw : VWF st ch) (type : Char)
    (iid contained : Int) (utype : Char) (seq qlt : List Char) :
    VWF (AppendArtificialFragToLocalStore st type iid contained utype seq qlt).1 ch := by
  refine hw.ext (fun j v hj => ?_) (fun j v hj => ?_) (fun _ => rfl) (fun j c hj => ?_)
  · obtain ⟨y, hy, rfl⟩ := VertAt_some hj
    unfold VertAt GetBead AppendArtificialFragToLocalStore
    simp only
    unfold GetBead at hy
    rw [getAt_append_some hy]
    rfl
  · obtain ⟨y, hy, rfl⟩ := VertAt_some hj
    unfold GetBead AppendArtificialFragToLocalStore at hy
    simp only at hy
    cases hg0 : getAt st.beadStore j with
    | some z =>
      left
      rw [getAt_append_some hg0] at hy
      cases hy
      unfold VertAt GetBead
      rw [hg0]
      rfl
    | none =>
      right
      obtain ⟨g1, g2, g3, g4, g5⟩ := getAt_fragmentBeads hy hg0
      refine ⟨g1, g2, g3, g4, ?_⟩
      show y.frag_index ≠ -1
      rw [g5]
      omega
  · unfold beadChar at hj ⊢
    cases hg0 : GetBead st j with
    | none => simp [hg0] at hj
    | some z =>
      simp only [hg0] at hj
      have e : GetBead (AppendArtificialFragToLocalStore st type iid contained utype seq qlt).1 j
          = some z := by
        unfold GetBead AppendArtificialFragToLocalStore
        simp only
        unfold GetBead at hg0
        exact getAt_append_some hg0
      rw [e]
      simp only
      unfold GetBase AppendArtificialFragToLocalStore
      simp only
      rw [List.append_assoc]
      exact getAt_append_some hj

theorem inNoColumn_spec {st : Store} {bid : Int} (h : inNoColumn st bid = true) :
    ∃ b, GetBead st bid = some b ∧ b.column_index = -1 := by
  unfold inNoColumn at h
  cases hb : GetBead st bid with
  | none => simp [hb] at h
  | some b =>
    simp [hb] at h
    exact ⟨b, rfl, h⟩

theorem twoColumns_spec {st : Store} {lid rid : Int} (h : twoColumns st lid rid = true) :
    ∃ l r, GetBead st lid = some l ∧ GetBead st rid = some r ∧ l.frag_index ≠ -1 ∧
      r.frag_index ≠ -1 ∧ l.column_index ≠ r.column_index := by
  unfold twoColumns at h
  cases hl : GetBead st lid with
  | none => simp [hl] at h
  | some l =>
    cases hr : GetBead st rid with
    | none => simp [hl, hr] at h
    | some r =>
      simp [hl, hr] at h
      exact ⟨l, r, rfl, rfl, h.1.1, h.1.2, h.2⟩

theorem stackStep_VWF {st st' : Store} {op : StackOp} (hw : ∃ ch, VWF st ch)
    (h : stackStep st op = some st') : ∃ ch, VWF st' ch := by
  obtain ⟨ch, hw⟩ := hw
  unfold stackStep at h
  by_cases hi : intended st op = true
  · rw [if_pos hi] at h
    cases op with
    | load seq qlt =>
      simp only [rawStep, Option.some.injEq] at h
      exact ⟨ch, h ▸ hw.load _ _ _ _ _ _⟩
    | node iid =>
      simp only [rawStep, Option.some.injEq] at h
      exact ⟨ch, h ▸ hw.createMANode iid⟩
    | firstColumn mid bid =>
      obtain ⟨b, hb, hc⟩ := inNoColumn_spec hi
      simp only [rawStep, Option.map_eq_some', Prod.exists, exists_and_right, exists_eq_right] at h
      obtain ⟨lid, h⟩ := h
      exact hw.firstColumn h hb hc
    | createColumn bid =>
      obtain ⟨b, hb, hc⟩ := inNoColumn_spec hi
      simp only [rawStep, Option.map_eq_some', Prod.exists, exists_and_right, exists_eq_right] at h
      obtain ⟨lid, h⟩ := h
      exact ⟨_, hw.createColumn h hb hc⟩
    | alignBead cid bid =>
      obtain ⟨b, hb, hc⟩ := inNoColumn_spec hi
      simp only [rawStep, Option.map_eq_some', Prod.exists, exists_and_right, exists_eq_right] at h
      obtain ⟨r, h⟩ := h
      exact ⟨_, hw.alignBead h hb hc⟩
    | unAlignBead bid =>
      simp only [rawStep, Option.map_eq_some', Prod.exists, exists_and_right, exists_eq_right] at h
      obtain ⟨r, h⟩ := h
      exact hw.unAlignBead h
    | exchange lid rid =>
      obtain ⟨l, r, hl, hr, h1, h2, h3⟩ := twoColumns_spec hi
      simp only [rawStep, Option.map_eq_some', Prod.exists, exists_and_right, exists_eq_right] at h
      obtain ⟨x, h⟩ := h
      exact ⟨_, hw.exchange h hl hr h1 h2 h3⟩
    | columnAppend cid bid =>
      obtain ⟨b, hb, hc⟩ := inNoColumn_spec hi
      simp only [rawStep, Option.map_eq_some', Prod.exists, exists_and_right, exists_eq_right] at h
      obtain ⟨lid, h⟩ := h
      exact hw.columnAppend h hb hc
    | columnPrepend cid bid =>
      obtain ⟨b, hb, hc⟩ := inNoColumn_spec hi
      simp only [rawStep, Option.map_eq_some', Prod.exists, exists_and_right, exists_eq_right] at h
      obtain ⟨lid, h⟩ := h
      exact hw.columnPrepend h hb hc
  · rw [if_neg hi] at h
    cases h

theorem stackRun_VWF {ops : List StackOp} {st : Store} (h : stackRun ops = some st) :
    ∃ ch, VWF st ch := by
  unfold stackRun at h
  exact foldlM_inv (fun s => ∃ ch, VWF s ch) stackStep ops
    (fun b op b' _ hb hstep => stackStep_VWF hb hstep) ResetStores st ⟨_, VWF.reset⟩ h

/-- In a well-formed store the walk from the call bead of a column finds its
chain. -/
theorem VWF.walk {st : Store} {ch : Int → List Int} (hw : VWF st ch) {c : Int}
    {col : Column} (hc : GetColumn st c = some col) : columnBeads st c = some (ch c) := by
  have hk := hw.col c col.vert (ColVertAt_of_get hc)
  unfold CNS.columnBeads
  rw [hc]
  refine Chain_beadsBelow (ch c) col.call _ hk.2.2.1 ?_
  have := nodup_length_le st.beadStore.length (ch c) hk.2.2.2.1 (fun x hx => by
    obtain ⟨v, hv, _⟩ := hk.2.2.2.2.1 x hx
    exact VertAt_range hv)
  omega

theorem tallied_iff (x : Char) (hx : x ∈ RALPHABET) (c : Option Char) :
    (c.map countIndex == some (countIndex x)) = tallied x c := by
  cases c with
  | none => simp [tallied]
  | some ch =>
    have hx' : x = '-' ∨ x = 'A' ∨ x = 'C' ∨ x = 'G' ∨ x = 'T' ∨ x = 'N' := by
      simpa [RALPHABET] using hx
    by_cases h1 : ch = '-'
    · subst h1; rcases hx' with rfl | rfl | rfl | rfl | rfl | rfl <;> decide
    by_cases h2 : ch = 'A'
    · subst h2; rcases hx' with rfl | rfl | rfl | rfl | rfl | rfl <;> decide
    by_cases h3 : ch = 'C'
    · subst h3; rcases hx' with rfl | rfl | rfl | rfl | rfl | rfl <;> decide
    by_cases h4 : ch = 'G'
    · subst h4; rcases hx' with rfl | rfl | rfl | rfl | rfl | rfl <;> decide
    by_cases h5 : ch = 'T'
    · subst h5; rcases hx' with rfl | rfl | rfl | rfl | rfl | rfl <;> decide
    by_cases h6 : ch = 'N'
    · subst h6; rcases hx' with rfl | rfl | rfl | rfl | rfl | rfl <;> decide
    by_cases h7 : ch = 'n'
    · subst h7; rcases hx' with rfl | rfl | rfl | rfl | rfl | rfl <;> decide
    have hci : countIndex ch = 31 := by
      simp [countIndex, BaseToInt, RINDEX, RALPHABET, h1, h2, h3, h4, h5, h6, h7]
    have hxi : 0 ≤ countIndex x ∧ countIndex x ≤ 5 := by
      rcases hx' with rfl | rfl | rfl | rfl | rfl | rfl <;> decide
    have e1 : (Option.map countIndex (some ch) == some (countIndex x)) = false := by
      simp only [Option.map_some', hci]
      have : (31 : Int) ≠ countIndex x := by omega
      simp [this]
    have e2 : tallied x (some ch) = false := by
      unfold tallied
      have n1 : ch ≠ x := by
        rcases hx' with rfl | rfl | rfl | rfl | rfl | rfl <;> assumption
      simp [n1, h7]
    rw [e1, e2]

/-- C1 (amended): after any sequence of non-aborting calls of the intended
use (fragments loaded, MANodes created, `FirstColumn`, `CreateColumn`,
`AlignBead`, `ColumnAppend` and `ColumnPrepend` given a bead that is in no
column, `UnAlignBead`, `LateralExchangeBead` given two fragment beads of
different columns), every column has `base_count.depth` equal to the number
of beads linked under its call bead, and for each symbol `x` of
`-`, `A`, `C`, `G`, `T`, `N` the count of `x` equals the number of those beads
whose character is `x`, an `n` counting as `N`; the six counts sum to the
depth. -/
theorem column_tally (ops : List StackOp) (st : Store) (hrun : stackRun ops = some st)
    (c : Int) (col : Column) (hc : GetColumn st c = some col) :
    ∃ l, columnBeads st c = some l ∧ col.base_count.depth = l.length ∧
      (∀ x, x ∈ RALPHABET →
        GetBaseCount col.base_count x = (l.countP fun b => tallied x (beadChar st b) : Nat)) ∧
      col.base_count.count.sum = col.base_count.depth := by
  obtain ⟨ch, hw⟩ := stackRun_VWF hrun
  obtain ⟨_, _, _, _, _, ht1, ht2, ht3, ht4⟩ := hw.col c col.vert (ColVertAt_of_get hc)
  refine ⟨ch c, hw.walk hc, ht1, fun x hx => ?_, ht3⟩
  have hx' : x = '-' ∨ x = 'A' ∨ x = 'C' ∨ x = 'G' ∨ x = 'T' ∨ x = 'N' := by
    simpa [RALPHABET] using hx
  have hxi : 0 ≤ countIndex x ∧ countIndex x ≤ 5 := by
    rcases hx' with rfl | rfl | rfl | rfl | rfl | rfl <;> decide
  unfold GetBaseCount
  have := ht4 (countIndex x) hxi.1 hxi.2
  have this' : getAt col.base_count.count (countIndex x) = some (tallyOf st (ch c) (countIndex x)) :=
    this
  rw [this']
  simp only [Option.getD_some]
  unfold tallyOf
  congr 1
  apply List.countP_congr
  intro b _
  rw [tallied_iff x hx]

/-- Witness of C1 (amended): the calls `opsStack`, column 1. -/
theorem column_tally_witness :
    ∃ st col, stackRun opsStack = some st ∧ GetColumn st 1 = some col ∧
      ∃ l, columnBeads st 1 = some l ∧ col.base_count.depth = l.length ∧
        (∀ x, x ∈ RALPHABET →
          GetBaseCount col.base_count x = (l.countP fun b => tallied x (beadChar st b) : Nat)) ∧
        col.base_count.count.sum = col.base_count.depth := by
  refine ⟨_, _, rfl, rfl, ?_⟩
  exact column_tally opsStack _ (by rfl) 1 _ (by rfl)

/-- C1 as stated fails.  Over the read `AC`: `AlignBead` of bead 0, which
already seeds column 0, into column 1 leaves column 0 with depth 1 over the
two beads 0 and 1; `CreateColumn`, `ColumnAppend` and `ColumnPrepend`
seeded with bead 1, already aligned in column 0, create a column of depth 1
(2 for `ColumnPrepend`) over two (three) beads.  Over the reads `A` and `C`
stacked in column 0: `LateralExchangeBead` of the two beads of that column
links bead 0 to itself, so the walk under the call bead never ends;
`LateralExchangeBead` of the call bead of column 0 with the bead of
column 1 leaves column 0 with depth 1, an `N` count of `-1` and no bead.
Over the read `n`: the column counts the bead under `N`. -/
theorem tally_broken :
    tallyOutcome (rawRun [loadOp ['A', 'C'], StackOp.createColumn 0, StackOp.createColumn 1,
      StackOp.alignBead 1 0]) 0 = some (1, [0, 1, 0, 0, 0, 0], some [0, 1]) ∧
    tallyOutcome (rawRun [loadOp ['A', 'C'], StackOp.createColumn 0, StackOp.alignBead 0 1,
      StackOp.createColumn 1]) 1 = some (1, [0, 0, 1, 0, 0, 0], some [1, 0]) ∧
    tallyOutcome (rawRun [loadOp ['A', 'C'], StackOp.node 0, StackOp.firstColumn 0 0,
      StackOp.alignBead 0 1, StackOp.columnAppend 0 1]) 1 =
        some (1, [0, 0, 1, 0, 0, 0], some [1, 0]) ∧
    tallyOutcome (rawRun [loadOp ['A', 'C'], StackOp.node 0, StackOp.firstColumn 0 0,
      StackOp.alignBead 0 1, StackOp.columnPrepend 0 1]) 1 =
        some (2, [1, 0, 1, 0, 0, 0], some [4, 1, 0]) ∧
    tallyOutcome (rawRun [loadOp ['A'], loadOp ['C'], StackOp.createColumn 0,
      StackOp.alignBead 0 1, StackOp.exchange 0 1]) 0 = some (2, [0, 1, 1, 0, 0, 0], none) ∧
    tallyOutcome (rawRun [loadOp ['A'], loadOp ['C'], StackOp.createColumn 0,
      StackOp.createColumn 1, StackOp.exchange 2 1]) 0 = some (1, [0, 1, 1, 0, 0, -1], some []) ∧
    tallyOutcome (rawRun [loadOp ['n'], StackOp.createColumn 0]) 0 =
      some (1, [0, 0, 0, 0, 0, 1], some [0]) ∧
    (rawRun [loadOp ['n'], StackOp.createColumn 0]).bind (fun st => beadChar st 0) = some 'n' := by
  refine ⟨?_, ?_, ?_, ?_, ?_, ?_, ?_, ?_⟩ <;> decide!

/-- C2 (amended): after any sequence of non-aborting calls of the intended
use (as for C1), a bead that is in no column has `column_index = -1` and
`up = down = -1`, a bead with another `column_index` names a column of the
store, and a bead is found in the down-chain of a column `c` (the call bead
of `c` and the beads linked under it) exactly when its `column_index` is
`c`; so it is found in the down-chain of at most one column. -/
theorem bead_membership (ops : List StackOp) (st : Store) (hrun : stackRun ops = some st)
    (j : Int) (b : Bead) (hb : GetBead st j = some b) :
    (b.column_index = -1 → b.up = -1 ∧ b.down = -1) ∧
    (b.column_index ≠ -1 → (GetColumn st b.column_index).isSome) ∧
    (∀ c col, GetColumn st c = some col →
      ∃ l, columnBeads st c = some l ∧ ((j = col.call ∨ j ∈ l) ↔ b.column_index = c)) ∧
    (∀ c c' col col' l l', GetColumn st c = some col → GetColumn st c' = some col' →
      columnBeads st c = some l → columnBeads st c' = some l' →
      (j = col.call ∨ j ∈ l) → (j = col'.call ∨ j ∈ l') → c = c') := by
  obtain ⟨ch, hw⟩ := stackRun_VWF hrun
  have hbv := VertAt_of_get hb
  obtain ⟨h1, h2, h3⟩ := hw.bead j b.vert hbv
  have key : ∀ c col, GetColumn st c = some col →
      ((j = col.call ∨ j ∈ ch c) ↔ b.column_index = c) := by
    intro c col hc
    have hk := hw.col c col.vert (ColVertAt_of_get hc)
    constructor
    · intro hj
      obtain ⟨v, hv1, hv2, _⟩ := hk.members j hj
      rw [hbv] at hv1
      cases hv1
      exact hv2
    · intro hci
      have hne : b.vert.column_index ≠ -1 := by
        have := (ColVertAt_range (ColVertAt_of_get hc)).1
        show b.column_index ≠ -1
        omega
      obtain ⟨col2, hcol2, hor⟩ := h3 hne
      have hcol2' : ColVertAt st b.column_index = some col2 := hcol2
      rw [hci, ColVertAt_of_get hc] at hcol2'
      cases hcol2'
      rcases hor with ⟨_, g⟩ | ⟨_, g⟩
      · exact Or.inl g.symm
      · right
        have g' : j ∈ ch b.column_index := g
        rw [hci] at g'
        exact g'
  refine ⟨fun e => ?_, fun e => ?_, fun c col hc => ?_, ?_⟩
  · obtain ⟨g1, g2, _⟩ := h2 e
    exact ⟨g1, g2⟩
  · obtain ⟨col, hcol, _⟩ := h3 e
    obtain ⟨col0, hc0, _⟩ := ColVertAt_some hcol
    have hc0' : GetColumn st b.column_index = some col0 := hc0
    rw [hc0']
    rfl
  · exact ⟨ch c, hw.walk hc, key c col hc⟩
  · intro c c' col col' l l' hc hc' hl hl' hj hj'
    rw [hw.walk hc] at hl
    rw [hw.walk hc'] at hl'
    cases hl
    cases hl'
    exact ((key c col hc).mp hj).symm.trans ((key c' col' hc').mp hj')

/-- Witness of C2 (amended): the calls `opsStack`, bead 2. -/
theorem bead_membership_witness :
    ∃ st b, stackRun opsStack = some st ∧ GetBead st 2 = some b ∧
      (b.column_index = -1 → b.up = -1 ∧ b.down = -1) ∧
      (b.column_index ≠ -1 → (GetColumn st b.column_index).isSome) ∧
      (∀ c col, GetColumn st c = some col →
        ∃ l, columnBeads st c = some l ∧ (((2 : Int) = col.call ∨ (2 : Int) ∈ l) ↔
          b.column_index = c)) ∧
      (∀ c c' col col' l l', GetColumn st c = some col → GetColumn st c' = some col' →
        columnBeads st c = some l → columnBeads st c' = some l' →
        ((2 : Int) = col.call ∨ (2 : Int) ∈ l) → ((2 : Int) = col'.call ∨ (2 : Int) ∈ l') →
        c = c') := by
  refine ⟨_, _, rfl, rfl, ?_⟩
  exact bead_membership opsStack _ (by rfl) 2 _ (by rfl)

/-- C2 as stated fails.  Over the read `AC`: after `AlignBead` of bead 0,
which already seeds column 0, into column 1, bead 0 is found in the
down-chains of columns 0 and 1; after `CreateColumn`, `ColumnAppend` or
`ColumnPrepend` seeded with bead 1, already aligned in column 0, bead 0
with `column_index = 0` is found in the down-chains of columns 0 and 1.
Over the reads `A` and `C`: after `LateralExchangeBead` of the two beads of
one column the down-chain of that column does not end; after
`LateralExchangeBead` of the call bead of column 0 with the bead of column 1
that bead has `column_index = 0` and is in no down-chain. -/
theorem membership_broken :
    memberOutcome (rawRun [loadOp ['A', 'C'], StackOp.createColumn 0, StackOp.createColumn 1,
      StackOp.alignBead 1 0]) 0 = some (1, [some 0, some 1]) ∧
    memberOutcome (rawRun [loadOp ['A', 'C'], StackOp.createColumn 0, StackOp.alignBead 0 1,
      StackOp.createColumn 1]) 0 = some (0, [some 0, some 1]) ∧
    memberOutcome (rawRun [loadOp ['A', 'C'], StackOp.node 0, StackOp.firstColumn 0 0,
      StackOp.alignBead 0 1, StackOp.columnAppend 0 1]) 0 = some (0, [some 0, some 1]) ∧
    memberOutcome (rawRun [loadOp ['A', 'C'], StackOp.node 0, StackOp.firstColumn 0 0,
      StackOp.alignBead 0 1, StackOp.columnPrepend 0 1]) 0 = some (0, [some 0, some 1]) ∧
    memberOutcome (rawRun [loadOp ['A'], loadOp ['C'], StackOp.createColumn 0,
      StackOp.alignBead 0 1, StackOp.exchange 0 1]) 0 = some (0, [none]) ∧
    memberOutcome (rawRun [loadOp ['A'], loadOp ['C'], StackOp.createColumn 0,
      StackOp.createColumn 1, StackOp.exchange 2 1]) 1 = some (0, []) := by
  refine ⟨?_, ?_, ?_, ?_, ?_, ?_⟩ <;> decide!

/-- C11: seeding a MANode with the read `ACGT` and applying the alignment of
the read `ACGGT` with `ahang = 0` and the trace `-4, 0` gives five columns (in
list order 0, 1, 2, 4, 3); the row of `ACGGT` has no gap, the row of `ACGT`
reads `ACG-T`, and its one gap bead is in column 4, the column of the second
`G` of `ACGGT`. -/
theorem applyAlignment_insertion :
    alignedRows ['A', 'C', 'G', 'T'] ['A', 'C', 'G', 'G', 'T'] 0 [-4, 0] =
      some ([0, 1, 2, 4, 3],
        [('A', 0), ('C', 1), ('G', 2), ('-', 4), ('T', 3)],
        [('A', 0), ('C', 1), ('G', 2), ('G', 4), ('T', 3)]) := by
  decide!

theorem conclude_failed {env : AlignEnv} {isDP : Bool} {pr : Pair} {ac : Bool}
    {cns : List Int} {ahang : Int} {trace : List Int} {otype : Char} {s : Search}
    (h : (conclude env isDP pr ac cns ahang trace otype s).ret = 0) :
    (conclude env isDP pr ac cns ahang trace otype s).trace = trace ∧
    (conclude env isDP pr ac cns ahang trace otype s).ahang = ahang ∧
    (conclude env isDP pr ac cns ahang trace otype s).otype = otype := by
  unfold conclude at h ⊢
  cases hO : s.O with
  | none => simp
  | some O =>
    simp only [hO] at h ⊢
    by_cases h1 : negativeHang env O = true
    · simp [h1]
    · by_cases h2 : slipGate env isDP pr O = true
      · simp [h1, h2]
      · simp [h1, h2] at h

theorem conclude_accepted {env : AlignEnv} {isDP : Bool} {pr : Pair} {ac : Bool}
    {cns : List Int} {ahang : Int} {trace : List Int} {otype : Char} {s : Search}
    (h : (conclude env isDP pr ac cns ahang trace otype s).ret = 1) :
    ∃ O, s.O = some O ∧ negativeHang env O = false ∧ slipGate env isDP pr O = false ∧
      (conclude env isDP pr ac cns ahang trace otype s).ahang = O.begpos := by
  unfold conclude at h ⊢
  cases hO : s.O with
  | none => simp [hO] at h
  | some O =>
    simp only [hO] at h ⊢
    by_cases h1 : negativeHang env O = true
    · simp [h1] at h
    · by_cases h2 : slipGate env isDP pr O = true
      · simp [h1, h2] at h
      · refine ⟨O, rfl, by simpa using h1, by simpa using h2, ?_⟩
        simp [h1, h2]

theorem conclude_rejected {env : AlignEnv} {isDP : Bool} {pr : Pair} {ac : Bool}
    {cns : List Int} {ahang : Int} {trace : List Int} {otype : Char} {s : Search} {O : Overlap}
    (hO : s.O = some O) (h : negativeHang env O = true) :
    (conclude env isDP pr ac cns ahang trace otype s).ret = 0 := by
  unfold conclude
  simp [hO, h]

theorem GetAlignmentTrace_of_search {env : AlignEnv} {st : Store} {afid aoffset bfid ahang : Int}
    {cf : CompareCall → Option Overlap} {big : Int} {pr : Pair} {cns : List Int} {s : Search}
    (hs : searchFor env st afid aoffset bfid ahang cf big = some (pr, cns, s))
    (trace : List Int) (otype : Char) (isDP : Bool) :
    GetAlignmentTrace env st afid aoffset bfid ahang trace otype isDP cf big =
      some (conclude env isDP pr (decide (afid < 0)) cns ahang trace otype s) := by
  unfold GetAlignmentTrace
  rw [hs]

theorem search_of_GetAlignmentTrace {env : AlignEnv} {st : Store} {afid aoffset bfid ahang : Int}
    {cf : CompareCall → Option Overlap} {big : Int} {trace : List Int} {otype : Char}
    {isDP : Bool} {r : TraceResult}
    (h : GetAlignmentTrace env st afid aoffset bfid ahang trace otype isDP cf big = some r) :
    ∃ pr cns s, searchFor env st afid aoffset bfid ahang cf big = some (pr, cns, s) ∧
      r = conclude env isDP pr (decide (afid < 0)) cns ahang trace otype s := by
  unfold GetAlignmentTrace at h
  cases hs : searchFor env st afid aoffset bfid ahang cf big with
  | none => rw [hs] at h; cases h
  | some x =>
    obtain ⟨pr, cns, s⟩ := x
    rw [hs] at h
    exact ⟨pr, cns, s, rfl, (Option.some.inj h).symm⟩

/-- What `searchFor` fixes for the call: the estimate, the type of B, the two
lengths, the default band, and that the state is the one `search` ends in. -/
theorem searchFor_pair {env : AlignEnv} {st : Store} {afid aoffset bfid ahang : Int}
    {cf : CompareCall → Option Overlap} {big : Int} {pr : Pair} {cns : List Int} {s : Search}
    (hs : searchFor env st afid aoffset bfid ahang cf big = some (pr, cns, s)) :
    pr.ahang_input = ahang ∧ 0 ≤ pr.alen ∧ 0 ≤ pr.blen ∧
    pr.defaults.bandBgn = ahang - CNS_TIGHTSEMIBANDWIDTH ∧
    pr.defaults.bandEnd = ahang + CNS_TIGHTSEMIBANDWIDTH ∧
    (∃ bfrag, GetFragment st bfid = some bfrag ∧ pr.btype = bfrag.type) ∧
    ∃ mem, search env cf pr mem = some s := by
  unfold searchFor at hs
  cases h1 : sequenceA env st afid aoffset with
  | none => simp [h1] at hs
  | some x =>
    obtain ⟨a, mem, cns', rate⟩ := x
    simp only [h1] at hs
    cases h2 : GetFragment st bfid with
    | none => simp [h2] at hs
    | some bfrag =>
      simp only [h2] at hs
      cases h3 : GetBase st bfrag.sequence with
      | none => simp [h3] at hs
      | some c =>
        simp only [h3] at hs
        cases h4 : search env cf
            { a := a, b := some bfrag.sequence.toNat, alen := (readSeq mem a).length,
              blen := (readSeq mem (some bfrag.sequence.toNat)).length,
              ahang_input := ahang, btype := bfrag.type, CNS_ERATE := rate,
              defaults := defaultsFor env ahang big bfrag.type } mem with
        | none => simp [h4] at hs
        | some s' =>
          simp only [h4] at hs
          have := Option.some.inj hs
          obtain ⟨rfl, rfl, rfl⟩ : _ ∧ _ ∧ _ := by simpa using this
          refine ⟨rfl, by simp, by simp, ?_, ?_, ⟨bfrag, rfl, rfl⟩, mem, h4⟩
          · simp only [defaultsFor, setBand]; split <;> rfl
          · simp only [defaultsFor, setBand]; split <;> rfl

/-- C14: when `GetAlignmentTrace` returns 0, the caller's trace array,
`*ahang` and `*otype` hold the values they had at entry. -/
theorem getAlignmentTrace_no_partial (env : AlignEnv) (st : Store)
    (afid aoffset bfid ahang : Int) (trace : List Int) (otype : Char) (isDP : Bool)
    (COMPARE_FUNC : CompareCall → Option Overlap) (allow_big_endgaps : Int) (r : TraceResult)
    (h : GetAlignmentTrace env st afid aoffset bfid ahang trace otype isDP COMPARE_FUNC
      allow_big_endgaps = some r)
    (h0 : r.ret = 0) :
    r.trace = trace ∧ r.ahang = ahang ∧ r.otype = otype := by
  obtain ⟨pr, cns, s, -, rfl⟩ := search_of_GetAlignmentTrace h
  exact conclude_failed h0

theorem getAlignmentTrace_no_partial_witness :
    ∃ r, GetAlignmentTrace envReads storeAACC 0 0 1 0 [7] 'X' true alignNever 0 = some r ∧
      r.ret = 0 ∧ r.trace = [7] ∧ r.ahang = 0 ∧ r.otype = 'X' := by
  refine ⟨_, rfl, rfl, ?_⟩
  exact getAlignmentTrace_no_partial envReads storeAACC 0 0 1 0 [7] 'X' true alignNever 0 _
    rfl rfl

/-- C15 (as the code has it): once the search has ended, `GetAlignmentTrace`
returns; with negative hangs not allowed it returns 0 whenever the overlap
the search ended with starts below -10, and whenever it returns 1 the
reported `*ahang` is the start of that overlap and is at least -10. -/
theorem negative_hang_gate (env : AlignEnv) (st : Store)
    (afid aoffset bfid ahang : Int) (trace : List Int) (otype : Char) (isDP : Bool)
    (COMPARE_FUNC : CompareCall → Option Overlap) (allow_big_endgaps : Int)
    (pr : Pair) (cns : List Int) (s : Search)
    (hs : searchFor env st afid aoffset bfid ahang COMPARE_FUNC allow_big_endgaps =
      some (pr, cns, s))
    (hneg : env.allow_neg_hang = 0) :
    ∃ r, GetAlignmentTrace env st afid aoffset bfid ahang trace otype isDP COMPARE_FUNC
        allow_big_endgaps = some r ∧
      (∀ O, s.O = some O → O.begpos < -10 → r.ret = 0) ∧
      (r.ret = 1 → ∃ O, s.O = some O ∧ r.ahang = O.begpos ∧ -10 ≤ r.ahang) := by
  refine ⟨_, GetAlignmentTrace_of_search hs trace otype isDP, ?_, ?_⟩
  · intro O hO hb
    apply conclude_rejected hO
    have h5 : O.begpos < CNS_NEG_AHANG_CUTOFF := by unfold CNS_NEG_AHANG_CUTOFF; omega
    have h0 : O.begpos < 0 := by omega
    simp [negativeHang, hneg, h5, h0, hb]
  · intro h1
    obtain ⟨O, hO, hn, -, ha⟩ := conclude_accepted h1
    refine ⟨O, hO, ha, ?_⟩
    rw [ha]
    by_contra hlt
    have hb : O.begpos < -10 := by omega
    have h5 : O.begpos < CNS_NEG_AHANG_CUTOFF := by unfold CNS_NEG_AHANG_CUTOFF; omega
    have h0 : O.begpos < 0 := by omega
    simp [negativeHang, hneg, h5, h0, hb] at hn

theorem negative_hang_gate_witness :
    ∃ pr cns s r, searchFor envReads storeAACC 0 0 1 (-4) alignSwapped 0 = some (pr, cns, s) ∧
      GetAlignmentTrace envReads storeAACC 0 0 1 (-4) [] 'X' true alignSwapped 0 = some r ∧
      (∀ O, s.O = some O → O.begpos < -10 → r.ret = 0) ∧
      (r.ret = 1 → ∃ O, s.O = some O ∧ r.ahang = O.begpos ∧ -10 ≤ r.ahang) := by
  obtain ⟨r, h1, h2⟩ := negative_hang_gate envReads storeAACC 0 0 1 (-4) [] 'X' true
    alignSwapped 0 _ _ _ rfl rfl
  exact ⟨_, _, _, r, rfl, h1, h2⟩

/-- Counterexample to C15 as stated: for the reads `A...A` and `C...C` with
the estimate -4, negative hangs not allowed, and an aligner that finds only
the swapped pair, the search ends with an overlap that starts at -8, below
`CNS_NEG_AHANG_CUTOFF`, and `GetAlignmentTrace` returns 1 with `*ahang = -8`. -/
theorem negative_hang_accepted :
    envReads.allow_neg_hang = 0 ∧ CNS_NEG_AHANG_CUTOFF = -5 ∧
    hangOutcome (-4) true alignSwapped = some (1, -8, some (-8)) := by
  decide!

/-- C16 (as the code has it): for an ordinary read pair (context not
`AS_MERGE`, B not a unitig) and the aligner `DP_Compare`, whenever
`GetAlignmentTrace` returns 1 the reported `*ahang` differs from the estimate
by at most `CNS_TIGHTSEMIBANDWIDTH`. -/
theorem slip_gate_dp (env : AlignEnv) (st : Store)
    (afid aoffset bfid ahang : Int) (trace : List Int) (otype : Char)
    (COMPARE_FUNC : CompareCall → Option Overlap) (allow_big_endgaps : Int) (r : TraceResult)
    (h : GetAlignmentTrace env st afid aoffset bfid ahang trace otype true COMPARE_FUNC
      allow_big_endgaps = some r)
    (hm : env.merge = false)
    (bfrag : Fragment) (hbf : GetFragment st bfid = some bfrag)
    (hb : bfrag.type ≠ env.AS_UNITIG)
    (h1 : r.ret = 1) :
    |r.ahang - ahang| ≤ CNS_TIGHTSEMIBANDWIDTH := by
  obtain ⟨pr, cns, s, hs, rfl⟩ := search_of_GetAlignmentTrace h
  obtain ⟨hin, -, -, -, -, ⟨bfrag', hbf', hbt⟩, -⟩ := searchFor_pair hs
  obtain ⟨O, -, -, hslip, ha⟩ := conclude_accepted h1
  rw [ha]
  have hne : pr.btype ≠ env.AS_UNITIG := by
    rw [hbt]
    rw [hbf] at hbf'
    cases hbf'
    exact hb
  unfold slipGate at hslip
  simp only [hm, hin] at hslip
  by_contra hgt
  have habs : CNS_TIGHTSEMIBANDWIDTH < |O.begpos - ahang| := by omega
  by_cases hsgn : O.begpos - ahang < 0
  · rw [abs_of_neg hsgn] at habs
    have : (O.begpos - ahang) * -1 > CNS_TIGHTSEMIBANDWIDTH := by omega
    simp [hsgn, this, hne] at hslip
    omega
  · rw [abs_of_nonneg (by omega)] at habs
    have : O.begpos - ahang > CNS_TIGHTSEMIBANDWIDTH := by omega
    simp [hsgn, this, hne] at hslip

theorem slip_gate_dp_witness :
    ∃ r, GetAlignmentTrace envReads storeAACC 0 0 1 18 [] 'X' true alignFar 0 = some r ∧
      r.ret = 1 ∧ |r.ahang - 18| ≤ CNS_TIGHTSEMIBANDWIDTH := by
  refine ⟨_, rfl, rfl, ?_⟩
  exact slip_gate_dp envReads storeAACC 0 0 1 18 [] 'X' alignFar 0 _ rfl rfl _ rfl
    (by decide) rfl

/-- Counterexample to C16 as stated: for the reads `A...A` and `C...C`
(consensus context, B a read), the estimate 0 and an aligner other than
`DP_Compare` that reports an overlap starting at 20, `GetAlignmentTrace`
returns 1 with `*ahang = 20`. -/
theorem slip_accepted :
    envReads.merge = false ∧
    (GetFragment storeAACC 1).map Fragment.type = some 'R' ∧ envReads.AS_UNITIG = 'U' ∧
    CNS_TIGHTSEMIBANDWIDTH = 6 ∧
    hangOutcome 0 false alignFar = some (1, 20, some 20) := by
  decide!

theorem Compare_band (cf : CompareCall → Option Overlap) (a : List Char) (alen : Int)
    (b : List Char) (blen : Int) (p : CNS_AlignParams) :
    (Compare cf a alen b blen p).2.2.bandBgn = clampBand alen blen p.bandBgn ∧
    (Compare cf a alen b blen p).2.2.bandEnd = clampBand alen blen p.bandEnd ∧
    (Compare cf a alen b blen p).2.1.bandBgn = clampBand alen blen p.bandBgn ∧
    (Compare cf a alen b blen p).2.1.bandEnd = clampBand alen blen p.bandEnd := by
  have e1 : (if (if p.bandBgn > alen then alen else p.bandBgn) < -blen then -blen
      else (if p.bandBgn > alen then alen else p.bandBgn)) = clampBand alen blen p.bandBgn := by
    unfold clampBand
    simp only [max_def, min_def]
    split_ifs <;> omega
  have e2 : (if (if p.bandEnd > alen then alen else p.bandEnd) < -blen then -blen
      else (if p.bandEnd > alen then alen else p.bandEnd)) = clampBand alen blen p.bandEnd := by
    unfold clampBand
    simp only [max_def, min_def]
    split_ifs <;> omega
  exact ⟨e1, e2, e1, e2⟩

theorem clampBand_idem {alen blen : Int} (ha : 0 ≤ alen) (hb : 0 ≤ blen) (x : Int) :
    clampBand alen blen (clampBand alen blen x) = clampBand alen blen x := by
  unfold clampBand
  simp only [max_def, min_def]
  split_ifs <;> omega

theorem attempt_tight (cf : CompareCall → Option Overlap) (pr : Pair) (s : Search)
    {p : CNS_AlignParams} (ha : 0 ≤ pr.alen) (hb : 0 ≤ pr.blen) (hp : TightParams pr p)
    (hc : ∀ c ∈ s.calls, TightCall pr c) :
    TightParams pr (attempt cf pr s p).params ∧
    (∀ c ∈ (attempt cf pr s p).calls, TightCall pr c) ∧
    s.calls <+: (attempt cf pr s p).calls := by
  obtain ⟨e1, e2, e3, e4⟩ := Compare_band cf (readSeq s.mem pr.a) pr.alen (readSeq s.mem pr.b)
    pr.blen p
  refine ⟨⟨?_, ?_⟩, ?_, ?_⟩
  · show clampBand pr.alen pr.blen (Compare cf (readSeq s.mem pr.a) pr.alen (readSeq s.mem pr.b) pr.blen p).2.1.bandBgn = _
    rw [e3, clampBand_idem ha hb]; exact hp.1
  · show clampBand pr.alen pr.blen (Compare cf (readSeq s.mem pr.a) pr.alen (readSeq s.mem pr.b) pr.blen p).2.1.bandEnd = _
    rw [e4, clampBand_idem ha hb]; exact hp.2
  · intro c hcm
    have : c ∈ s.calls ++ [(Compare cf (readSeq s.mem pr.a) pr.alen (readSeq s.mem pr.b)
        pr.blen p).2.2] := hcm
    rcases List.mem_append.1 this with h | h
    · exact hc c h
    · rw [List.mem_singleton] at h
      subst h
      exact ⟨e1.trans hp.1, e2.trans hp.2⟩
  · exact List.prefix_append _ _

theorem rung_skip {cf : CompareCall → Option Overlap} {pr : Pair}
    {set : CNS_AlignParams → CNS_AlignParams} {check : Bool} {trick : Char} (s : Search) :
    rung cf pr false set check trick s = some s := by
  simp [rung]

theorem rung_tight {cf : CompareCall → Option Overlap} {pr : Pair} {guard : Bool}
    {set : CNS_AlignParams → CNS_AlignParams} {check : Bool} {trick : Char} {s s' : Search}
    (h : rung cf pr guard set check trick s = some s')
    (ha : 0 ≤ pr.alen) (hb : 0 ≤ pr.blen)
    (hset : ∀ p, (set p).bandBgn = p.bandBgn ∧ (set p).bandEnd = p.bandEnd)
    (hd : TightParams pr pr.defaults) (hp : TightParams pr s.params)
    (hc : ∀ c ∈ s.calls, TightCall pr c) :
    TightParams pr s'.params ∧ (∀ c ∈ s'.calls, TightCall pr c) ∧ s.calls <+: s'.calls := by
  have hsp : TightParams pr (set s.params) := by
    unfold TightParams; rw [(hset s.params).1, (hset s.params).2]; exact hp
  obtain ⟨a1, a2, a3⟩ := attempt_tight cf pr s ha hb hsp hc
  unfold rung at h
  by_cases h0 : (s.O.isSome || !guard) = true
  · rw [if_pos h0] at h
    cases h
    exact ⟨hp, hc, List.prefix_refl _⟩
  · rw [if_neg h0] at h
    simp only at h
    cases hO : (attempt cf pr s (set s.params)).O with
    | none =>
      rw [hO] at h
      cases h
      exact ⟨hd, a2, a3⟩
    | some O =>
      rw [hO] at h
      simp only at h
      by_cases hck : check = true
      · rw [if_pos hck] at h
        cases ht : tooManyDiffs pr O with
        | none => rw [ht] at h; cases h
        | some t =>
          rw [ht] at h
          cases t with
          | true => cases h; exact ⟨hd, a2, a3⟩
          | false => cases h; exact ⟨a1, a2, a3⟩
      · rw [if_neg hck] at h
        cases h
        exact ⟨a1, a2, a3⟩

/-- For an ordinary pair the ladder makes at most the default comparison and
the two retries of `firstTries`, all on the tight band. -/
theorem ladder_tight {env : AlignEnv} {cf : CompareCall → Option Overlap} {pr : Pair}
    {mem : SeqMem} {s : Search} (ha : 0 ≤ pr.alen) (hb : 0 ≤ pr.blen)
    (hd : TightParams pr pr.defaults) (hw : wideAllowed env pr = false)
    (h : ladder env cf pr mem = some s) :
    ∀ c ∈ s.calls, TightCall pr c := by
  unfold ladder at h
  cases h1 : firstTries env cf pr mem with
  | none => rw [h1] at h; cases h
  | some s2 =>
    rw [h1] at h
    simp only at h
    have hwide : wideTries env cf pr s2 = some s2 := by
      unfold wideTries
      simp only [hw, rung_skip, Option.bind_eq_bind, Option.some_bind]
    rw [hwide] at h
    cases h
    unfold firstTries at h1
    simp only [Option.bind_eq_bind] at h1
    obtain ⟨b1, b2, -⟩ := attempt_tight cf pr
      { params := pr.defaults, O := none, trick := 'N', mem := mem, calls := [] }
      ha hb hd (by intro c hc; cases hc)
    cases h2 : rung cf pr true (fun p => { p with minlen := CNS_DP_THIN_MINLEN }) false 'T'
        (attempt cf pr { params := pr.defaults, O := none, trick := 'N', mem := mem, calls := [] }
          pr.defaults) with
    | none => rw [h2] at h1; cases h1
    | some s1 =>
      rw [h2] at h1
      simp only [Option.some_bind] at h1
      obtain ⟨c1, c2, -⟩ := rung_tight h2 ha hb (fun p => ⟨rfl, rfl⟩) hd b1 b2
      exact (rung_tight h1 ha hb (fun p => ⟨rfl, rfl⟩) hd c1 c2).2.1

theorem attempt_calls (cf : CompareCall → Option Overlap) (pr : Pair) (s : Search)
    (p : CNS_AlignParams) : s.calls <+: (attempt cf pr s p).calls :=
  List.prefix_append _ _

theorem attemptSwapped_calls (cf : CompareCall → Option Overlap) (pr : Pair) (s : Search)
    (p : CNS_AlignParams) : s.calls <+: (attemptSwapped cf pr s p).calls :=
  List.prefix_append _ _

theorem attemptIf_calls (cf : CompareCall → Option Overlap) (pr : Pair) (c : Bool) (s : Search)
    (p : CNS_AlignParams) :
    s.calls <+: (if c = true then attempt cf pr s p else s).calls := by
  cases c
  · exact List.prefix_refl _
  · exact attempt_calls cf pr s p

theorem fromOtherEnd_calls (env : AlignEnv) (cf : CompareCall → Option Overlap) (pr : Pair)
    (t : Int) (s : Search) : s.calls <+: (fromOtherEnd env cf pr t s).calls := by
  unfold fromOtherEnd
  simp only
  exact ((attempt_calls cf pr s _).trans (attemptIf_calls cf pr _ _ _)).trans
    (attemptIf_calls cf pr _ _ _)

theorem otherEndSwap_calls (cf : CompareCall → Option Overlap) (pr : Pair)
    (t : Int) (s : Search) : s.calls <+: (otherEndSwap cf pr t s).calls := by
  unfold otherEndSwap
  split_ifs
  · simp only
    split
    · exact attemptSwapped_calls _ _ _ _
    · exact attemptSwapped_calls _ _ _ _
  · exact List.prefix_refl _

theorem restoreOrientation_calls (env : AlignEnv) (pr : Pair) (s : Search) :
    (restoreOrientation env pr s).calls = s.calls := by
  unfold restoreOrientation
  simp only
  split <;> rfl

theorem orientationRetry_calls (env : AlignEnv) (cf : CompareCall → Option Overlap) (pr : Pair)
    (s : Search) : s.calls <+: (orientationRetry env cf pr s).calls := by
  unfold orientationRetry
  cases notIntended env s
  · exact List.prefix_refl _
  · simp only [if_true]
    rw [restoreOrientation_calls]
    have h1 : s.calls <+: (fromOtherEnd env cf pr (pr.alen - pr.ahang_input - pr.blen)
        { s with mem := complementSeq env (complementSeq env s.mem pr.a) pr.b }).calls :=
      fromOtherEnd_calls env cf pr _
        { s with mem := complementSeq env (complementSeq env s.mem pr.a) pr.b }
    exact h1.trans (otherEndSwap_calls cf pr _ _)

theorem swapRetry_calls (env : AlignEnv) (cf : CompareCall → Option Overlap) (pr : Pair)
    (s : Search) : s.calls <+: (swapRetry env cf pr s).calls := by
  unfold swapRetry
  split_ifs
  · simp only
    split
    · exact attemptSwapped_calls _ _ _ _
    · exact attemptSwapped_calls _ _ _ _
  · exact List.prefix_refl _

theorem search_ladder {env : AlignEnv} {cf : CompareCall → Option Overlap} {pr : Pair}
    {mem : SeqMem} {s : Search} (h : search env cf pr mem = some s) :
    ∃ s0, ladder env cf pr mem = some s0 ∧ s0.calls <+: s.calls := by
  unfold search at h
  cases h1 : ladder env cf pr mem with
  | none => rw [h1] at h; cases h
  | some s0 =>
    rw [h1] at h
    cases h
    exact ⟨s0, rfl, (orientationRetry_calls env cf pr s0).trans (swapRetry_calls env cf pr _)⟩

/-- C17 (as the code has it): for an ordinary read pair (context not
`AS_MERGE`, B not a unitig) every aligner invocation of the ladder, the
attempts made before the retry from the other end, is on the tight band
around the estimate as `Compare` clamps it to `[-blen, alen]`; these
invocations are the first ones of the call. -/
theorem ladder_tight_band (env : AlignEnv) (st : Store)
    (afid aoffset bfid ahang : Int) (COMPARE_FUNC : CompareCall → Option Overlap)
    (allow_big_endgaps : Int) (pr : Pair) (cns : List Int) (s : Search)
    (hs : searchFor env st afid aoffset bfid ahang COMPARE_FUNC allow_big_endgaps =
      some (pr, cns, s))
    (hm : env.merge = false)
    (bfrag : Fragment) (hbf : GetFragment st bfid = some bfrag)
    (hb : bfrag.type ≠ env.AS_UNITIG) :
    ∃ mem s0, ladder env COMPARE_FUNC pr mem = some s0 ∧ s0.calls <+: s.calls ∧
      ∀ c ∈ s0.calls,
        c.bandBgn = clampBand pr.alen pr.blen (ahang - CNS_TIGHTSEMIBANDWIDTH) ∧
        c.bandEnd = clampBand pr.alen pr.blen (ahang + CNS_TIGHTSEMIBANDWIDTH) := by
  obtain ⟨hin, ha, hbl, hd1, hd2, ⟨bfrag', hbf', hbt⟩, mem, hsearch⟩ := searchFor_pair hs
  obtain ⟨s0, hl, hpre⟩ := search_ladder hsearch
  have hne : pr.btype ≠ env.AS_UNITIG := by
    rw [hbt]
    rw [hbf] at hbf'
    cases hbf'
    exact hb
  have hw : wideAllowed env pr = false := by
    simp [wideAllowed, hm, hne]
  have hd : TightParams pr pr.defaults := by
    unfold TightParams
    rw [hd1, hd2, hin]
    exact ⟨rfl, rfl⟩
  refine ⟨mem, s0, hl, hpre, ?_⟩
  intro c hc
  have := ladder_tight ha hbl hd hw hl c hc
  unfold TightCall at this
  rw [hin] at this
  exact this

theorem ladder_tight_band_witness :
    ∃ pr cns s, searchFor envReads storeAACC 0 0 1 0 alignNever 0 = some (pr, cns, s) ∧
      ∃ mem s0, ladder envReads alignNever pr mem = some s0 ∧ s0.calls <+: s.calls ∧
        ∀ c ∈ s0.calls,
          c.bandBgn = clampBand pr.alen pr.blen (0 - CNS_TIGHTSEMIBANDWIDTH) ∧
          c.bandEnd = clampBand pr.alen pr.blen (0 + CNS_TIGHTSEMIBANDWIDTH) :=
  ⟨_, _, _, rfl, ladder_tight_band envReads storeAACC 0 0 1 0 alignNever 0 _ _ _ rfl rfl _ rfl
    (by decide)⟩

/-- Counterexample to C17 as stated: for the reads `A...A` and `C...C`
(consensus context, B a read), the estimate 0 and an aligner that finds
nothing, the invocations after the third one are on the whole range
`[-20, 20]`, and the last one, on the swapped pair, on `[10, 20]`: none of
these lies within the tight band `[-6, 6]`. -/
theorem wide_band_reads :
    envReads.merge = false ∧
    (GetFragment storeAACC 1).map Fragment.type = some 'R' ∧ envReads.AS_UNITIG = 'U' ∧
    bandsUsed 0 alignNever =
      some [(-6, 6), (-6, 6), (-6, 6), (-20, 20), (-20, 20), (-20, 20), (10, 20)] := by
  decide!

theorem modBead_run {st : Store} {i : Int} {y : Bead} (f : Bead → Bead)
    (h : GetBead st i = some y) :
    ∃ s, modBead st i f = some s ∧
      (∀ j, GetBead s j = if j = i then some (f y) else GetBead st j) ∧ SameRest st s := by
  refine ⟨_, modBead_some f h, ?_⟩
  obtain ⟨hg, hs⟩ := modBead_get (modBead_some f h)
  refine ⟨fun j => ?_, hs⟩
  rw [hg j, h]
  rfl

/-- `AlignBead` on three distinct beads: it returns `bid`, and rewrites the
aligned bead, the call bead, the bead under it and the tally of the column,
and nothing else. -/
theorem AlignBead_run {st : Store} {cid bid : Int} {column : Column} {call first align : Bead}
    {c : Char} {bc : BaseCount}
    (hcol : GetColumn st cid = some column) (hcall : GetBead st column.call = some call)
    (hfirst : GetBead st call.down = some first) (halign : GetBead st bid = some align)
    (h1 : column.call ≠ bid) (h2 : call.down ≠ bid) (h3 : column.call ≠ call.down)
    (hc : GetBase st align.soffset = some c) (hinc : IncBaseCount column.base_count c = some bc) :
    ∃ st', AlignBead st cid bid = some (st', bid) ∧
      (∀ j, GetBead st' j =
        if j = bid then
          some { align with down := first.boffset, up := call.boffset, column_index := cid }
        else if j = column.call then some { call with down := align.boffset }
        else if j = call.down then some { first with up := align.boffset }
        else GetBead st j) ∧
      (∀ k, GetColumn st' k =
        if k = cid then some { column with base_count := bc } else GetColumn st k) ∧
      st'.sequenceStore = st.sequenceStore ∧ st'.fragmentStore = st.fragmentStore ∧
      st'.manodeStore = st.manodeStore := by
  obtain ⟨s1, e1, g1, r1⟩ := modBead_run (fun b => { b with down := first.boffset }) halign
  have a1 : GetBead s1 bid = some { align with down := first.boffset } := by rw [g1]; simp
  obtain ⟨s2, e2, g2, r2⟩ := modBead_run (fun b => { b with up := call.boffset }) a1
  have a2 : GetBead s2 column.call = some call := by rw [g2, if_neg h1, g1, if_neg h1, hcall]
  obtain ⟨s3, e3, g3, r3⟩ := modBead_run (fun b => { b with down := align.boffset }) a2
  have a3 : GetBead s3 call.down = some first := by
    rw [g3, if_neg (Ne.symm h3), g2, if_neg h2, g1, if_neg h2, hfirst]
  obtain ⟨s4, e4, g4, r4⟩ := modBead_run (fun b => { b with up := align.boffset }) a3
  have a4 : GetBead s4 bid =
      some { align with down := first.boffset, up := call.boffset } := by
    rw [g4, if_neg (Ne.symm h2), g3, if_neg (Ne.symm h1), g2]; simp
  obtain ⟨s5, e5, g5, r5⟩ := modBead_run (fun b => { b with column_index := cid }) a4
  have a5 : GetBead s5 bid =
      some { align with down := first.boffset, up := call.boffset, column_index := cid } := by
    rw [g5]; simp
  have hseq : s5.sequenceStore = st.sequenceStore := by
    rw [r5.1, r4.1, r3.1, r2.1, r1.1]
  have hcols : s5.columnStore = st.columnStore := by
    rw [r5.2.2.1, r4.2.2.1, r3.2.2.1, r2.2.2.1, r1.2.2.1]
  have hfr : s5.fragmentStore = st.fragmentStore := by
    rw [r5.2.2.2.2.1, r4.2.2.2.2.1, r3.2.2.2.2.1, r2.2.2.2.2.1, r1.2.2.2.2.1]
  have hma : s5.manodeStore = st.manodeStore := by
    rw [r5.2.2.2.1, r4.2.2.2.1, r3.2.2.2.1, r2.2.2.2.1, r1.2.2.2.1]
  have hbase : GetBase s5 align.soffset = some c := by
    unfold GetBase at hc ⊢; rw [hseq]; exact hc
  have hcol5 : GetColumn s5 cid = some column := by
    unfold GetColumn at hcol ⊢; rw [hcols]; exact hcol
  have hincc : incColumn s5 cid c =
      some { s5 with columnStore := setAt s5.columnStore cid { column with base_count := bc } } := by
    simp [incColumn, hcol5, hinc]
  refine ⟨{ s5 with columnStore := setAt s5.columnStore cid { column with base_count := bc } },
    ?_, ?_, ?_, hseq, hfr, hma⟩
  · unfold AlignBead
    simp only [Option.bind_eq_bind, hcol, hcall, hfirst, halign, Option.some_bind, e1, e2, e3, e4,
      e5, a5, hbase, hincc, Option.pure_def]
  · intro j
    show GetBead s5 j = _
    rw [g5]
    by_cases hj : j = bid
    · rw [if_pos hj, if_pos hj]
    · rw [if_neg hj, if_neg hj, g4]
      by_cases hj2 : j = call.down
      · subst hj2
        rw [if_pos rfl, if_neg (Ne.symm h3), if_pos rfl]
      · rw [if_neg hj2, g3]
        by_cases hj3 : j = column.call
        · rw [if_pos hj3, if_pos hj3]
        · rw [if_neg hj3, if_neg hj3, if_neg hj2, g2, if_neg hj, g1, if_neg hj]
  · intro k
    show getAt (setAt s5.columnStore cid { column with base_count := bc }) k = _
    rw [getAt_setAt, hcols]
    unfold GetColumn at hcol ⊢
    by_cases hk : k = cid
    · subst hk; simp [hcol]
    · simp [hk]

theorem countIndex_tallied {c : Char} (h : c ∈ RALPHABET ∨ c = 'n') :
    0 ≤ countIndex c ∧ countIndex c ≤ 5 := by
  rcases h with h | h
  · simp only [RALPHABET, List.mem_cons, List.mem_singleton, List.not_mem_nil, or_false] at h
    rcases h with h | h | h | h | h | h <;> subst h <;> decide
  · subst h; decide

theorem IncBaseCount_tallied (bc : BaseCount) {c : Char} (hlen : bc.count.length = 6)
    (h : c ∈ RALPHABET ∨ c = 'n') :
    ∃ bc', IncBaseCount bc c = some bc' ∧ bc'.depth = bc.depth + 1 ∧
      GetBaseCount bc' c = GetBaseCount bc c + 1 := by
  obtain ⟨h0, h5⟩ := countIndex_tallied h
  have hr : ¬ (countIndex c < 0 ∨ countIndex c > 5) := by omega
  refine ⟨⟨setAt bc.count (countIndex c) ((getAt bc.count (countIndex c)).getD 0 + 1),
    bc.depth + 1⟩, by simp only [IncBaseCount, if_neg hr], rfl, ?_⟩
  have hs : (getAt bc.count (countIndex c)).isSome :=
    (getAt_isSome_iff _ _).2 ⟨h0, by rw [hlen]; omega⟩
  obtain ⟨v, hv⟩ := Option.isSome_iff_exists.1 hs
  unfold GetBaseCount
  simp only
  rw [getAt_setAt_self hv, hv]
  rfl

/-- C18 (as the code has it): in stores built by the column operations, for
a column `cid` with a bead under its call bead and a bead `bid` that is in no
column and whose character is one of `-ACGTN` or `n`, `AlignBead(cid, bid)`
returns `bid`; afterwards the call bead has `down = bid`, `bid` has the call
bead as `up`, the former top bead as `down` and `cid` as column, that bead has
`up = bid`, no other bead and no other column has changed, and the depth of
the column and its count for the character of `bid` have grown by one. -/
theorem alignBead_splices (ops : List StackOp) (st : Store) (hrun : stackRun ops = some st)
    (cid bid : Int) (column : Column) (call align : Bead) (c : Char)
    (hcol : GetColumn st cid = some column) (hcall : GetBead st column.call = some call)
    (hunder : call.down ≠ -1)
    (halign : GetBead st bid = some align) (hfree : align.column_index = -1)
    (hc : beadChar st bid = some c) (htal : c ∈ RALPHABET ∨ c = 'n') :
    ∃ st' first col', AlignBead st cid bid = some (st', bid) ∧
      GetBead st call.down = some first ∧
      GetBead st' column.call = some { call with down := bid } ∧
      GetBead st' bid = some { align with up := column.call, down := call.down, column_index := cid } ∧
      GetBead st' call.down = some { first with up := bid } ∧
      (∀ j, j ≠ bid → j ≠ column.call → j ≠ call.down → GetBead st' j = GetBead st j) ∧
      GetColumn st' cid = some col' ∧
      col' = { column with base_count := col'.base_count } ∧
      col'.base_count.depth = column.base_count.depth + 1 ∧
      GetBaseCount col'.base_count c = GetBaseCount column.base_count c + 1 ∧
      (∀ k, k ≠ cid → GetColumn st' k = GetColumn st k) := by
  obtain ⟨ch, hw⟩ := stackRun_VWF hrun
  have hcv := ColVertAt_of_get hcol
  obtain ⟨-, ⟨callv, hcallv, hcc, -, hcf⟩, hchain, -, hmem, htally⟩ := hw.col cid _ hcv
  have hcid : 0 ≤ cid := (ColVertAt_range hcv).1
  have hcallv' : VertAt st column.call = some callv := hcallv
  obtain ⟨e1, e2, e3⟩ := VertAt_get hcall hcallv'
  have hcallb : call.boffset = column.call := by
    have := (hw.bead _ _ (VertAt_of_get hcall)).1
    exact this
  have hcallf : call.frag_index = -1 := by
    rw [VertAt_of_get hcall] at hcallv'
    have := Option.some.inj hcallv'
    rw [← this] at hcf
    exact hcf
  have hchain' : Chain st column.call (ch cid) := hchain
  obtain ⟨t, ht, htd⟩ := Chain_top hchain'
  have htd' : call.down = (ch cid).headD (-1) := by
    rw [VertAt_of_get hcall] at ht
    have := Option.some.inj ht
    rw [← this] at htd
    exact htd
  cases hl : ch cid with
  | nil => rw [hl] at htd'; exact absurd htd' hunder
  | cons f l =>
    rw [hl] at htd'
    have hf : call.down = f := htd'
    obtain ⟨x, hx, hxc, hxf, -⟩ := hmem f (by rw [hl]; exact List.mem_cons_self _ _)
    obtain ⟨first, hfirst, hfv⟩ := VertAt_some hx
    rw [← hf] at hfirst
    have hfirstb : first.boffset = call.down := (hw.bead _ _ (VertAt_of_get hfirst)).1
    have hfirstc : first.column_index = cid := by rw [← hfv] at hxc; exact hxc
    have hfirstf : first.frag_index ≠ -1 := by rw [← hfv] at hxf; exact hxf
    have halignb : align.boffset = bid := (hw.bead _ _ (VertAt_of_get halign)).1
    have h1 : column.call ≠ bid := by
      intro h
      rw [h, halign] at hcall
      have := Option.some.inj hcall
      rw [← this] at e3
      rw [hfree] at e3
      omega
    have h2 : call.down ≠ bid := by
      intro h
      rw [h, halign] at hfirst
      have := Option.some.inj hfirst
      rw [← this, hfree] at hfirstc
      omega
    have h3 : column.call ≠ call.down := by
      intro h
      rw [← h, hcall] at hfirst
      have := Option.some.inj hfirst
      rw [← this] at hfirstf
      exact hfirstf hcallf
    have hbase : GetBase st align.soffset = some c := by
      unfold beadChar at hc
      rw [halign] at hc
      exact hc
    obtain ⟨bc, hinc, hdepth, hcount⟩ := IncBaseCount_tallied column.base_count
      htally.2.1 htal
    obtain ⟨st', hrunA, hbeads, hcols, -, -, -⟩ :=
      AlignBead_run hcol hcall hfirst halign h1 h2 h3 hbase hinc
    refine ⟨st', first, { column with base_count := bc }, hrunA, hfirst, ?_, ?_, ?_, ?_, ?_, rfl,
      hdepth, hcount, ?_⟩
    · rw [hbeads, if_neg h1, if_pos rfl, halignb]
    · rw [hbeads, if_pos rfl, hfirstb, hcallb]
    · rw [hbeads, if_neg h2, if_neg (Ne.symm h3), if_pos rfl, halignb]
    · intro j j1 j2 j3
      rw [hbeads, if_neg j1, if_neg j2, if_neg j3]
    · rw [hcols, if_pos rfl]
    · intro k hk
      rw [hcols, if_neg hk]

theorem alignBead_splices_witness :
    ∃ st st' first col', stackRun [loadOp ['A'], loadOp ['C'], StackOp.node 0,
        StackOp.firstColumn 0 0] = some st ∧
      AlignBead st 0 1 = some (st', 1) ∧ GetBead st 0 = some first ∧
      GetColumn st' 0 = some col' ∧ col'.base_count.depth = 2 ∧
      GetBaseCount col'.base_count 'C' = 1 := by
  obtain ⟨st', first, col', h1, h2, -, -, -, -, h3, -, h4, h5, -⟩ :=
    alignBead_splices [loadOp ['A'], loadOp ['C'], StackOp.node 0, StackOp.firstColumn 0 0]
      _ rfl 0 1 _ _ _ 'C' rfl rfl (by decide) rfl rfl rfl (by decide)
  exact ⟨_, st', first, col', rfl, h1, h2, h3, h4, h5⟩

/-- Counterexample to C18 as stated: after loading the reads `A` and `X` and
seeding column 0 with the bead of `A`, column 0 has bead 0 under its call
bead, and bead 1 (the `X`) exists and is in no column, yet `AlignBead(0, 1)`
aborts. -/
theorem alignBead_aborts :
    alignBeadCase [loadOp ['A'], loadOp ['X'], StackOp.node 0, StackOp.firstColumn 0 0] 0 1 =
      some (some 0, some (-1), some 'X', none) := by
  decide!

theorem modBead_field {α : Type} (π : Bead → α) {st st' : Store} {i : Int} {f : Bead → Bead}
    (h : modBead st i f = some st') (g : α → α) (hf : ∀ y, π (f y) = g (π y)) (j : Int) :
    (GetBead st' j).map π =
      if j = i then ((GetBead st i).map π).map g else (GetBead st j).map π := by
  rw [(modBead_get h).1 j]
  by_cases hj : j = i
  · simp only [hj, if_true, Option.map_map]
    congr 1
    funext c
    exact hf c
  · simp [hj]

theorem modBead_field_same {α : Type} (π : Bead → α) {st st' : Store} {i : Int} {f : Bead → Bead}
    (h : modBead st i f = some st') (hf : ∀ y, π (f y) = π y) (j : Int) :
    (GetBead st' j).map π = (GetBead st j).map π := by
  rw [modBead_field π h id hf j]
  by_cases hj : j = i
  · simp [hj]
  · simp [hj]

theorem patchBead_field {α : Type} (π : Bead → α) {st st' : Store} {x : Int} {f : Bead → Bead}
    (h : patchBead st x f = some st') (g : α → α) (hf : ∀ y, π (f y) = g (π y)) (j : Int) :
    (GetBead st' j).map π =
      if x ≠ -1 ∧ j = x then ((GetBead st x).map π).map g else (GetBead st j).map π := by
  unfold patchBead at h
  by_cases hx : x ≠ -1
  · rw [if_pos hx] at h
    rw [modBead_field π h g hf j]
    simp [hx]
  · rw [if_neg hx] at h
    simp at h
    subst h
    simp [hx]

theorem patchBead_field_same {α : Type} (π : Bead → α) {st st' : Store} {x : Int}
    {f : Bead → Bead} (h : patchBead st x f = some st') (hf : ∀ y, π (f y) = π y) (j : Int) :
    (GetBead st' j).map π = (GetBead st j).map π := by
  rw [patchBead_field π h id hf j]
  by_cases hj : x ≠ -1 ∧ j = x
  · simp [hj.2]
  · simp [hj]

theorem beadChar_of_soff {st st' : Store} (hs : st'.sequenceStore = st.sequenceStore) {j : Int}
    (h : (GetBead st' j).map Bead.soffset = (GetBead st j).map Bead.soffset) :
    beadChar st' j = beadChar st j := by
  unfold beadChar GetBase
  cases h1 : GetBead st' j with
  | none =>
    cases h2 : GetBead st j with
    | none => rfl
    | some y => simp [h1, h2] at h
  | some x =>
    cases h2 : GetBead st j with
    | none => simp [h1, h2] at h
    | some y =>
      simp only [h1, h2, Option.map_some', Option.some.injEq] at h
      simp only [h, hs]

theorem prevOf_range {st : Store} {j p : Int} (h : prevOf st j = some p) :
    0 ≤ j ∧ j < st.beadStore.length := by
  unfold prevOf at h
  cases hb : GetBead st j with
  | none => simp [hb] at h
  | some b => exact GetBead_some_range hb

theorem Seg_append {st : Store} : ∀ (l1 l2 : List Int) (p n : Int),
    Seg st p (l1 ++ l2) n ↔ Seg st p l1 (l2.headD n) ∧ Seg st (l1.getLastD p) l2 n := by
  intro l1
  induction l1 with
  | nil => intro l2 p n; simp [Seg]
  | cons x l ih =>
    intro l2 p n
    have e1 : (l ++ l2).headD n = l.headD (l2.headD n) := by
      cases l <;> simp
    have e2 : (x :: l).getLastD p = l.getLastD x := by
      cases l <;> simp [List.getLastD]
    show (prevOf st x = some p ∧ nextOf st x = some ((l ++ l2).headD n) ∧ Seg st x (l ++ l2) n) ↔
      (prevOf st x = some p ∧ nextOf st x = some (l.headD (l2.headD n)) ∧
        Seg st x l (l2.headD n)) ∧ Seg st ((x :: l).getLastD p) l2 n
    rw [ih l2 x n, e1, e2]
    tauto

theorem Seg_mem {st : Store} : ∀ (l : List Int) (p n : Int), Seg st p l n → ∀ x, x ∈ l →
    (∃ a, prevOf st x = some a) ∧ ∃ b, nextOf st x = some b := by
  intro l
  induction l with
  | nil => intro p n _ x hx; simp at hx
  | cons y l ih =>
    intro p n h x hx
    obtain ⟨h1, h2, h3⟩ := h
    rcases List.mem_cons.mp hx with rfl | hx
    · exact ⟨⟨_, h1⟩, ⟨_, h2⟩⟩
    · exact ih y n h3 x hx

/-- A segment whose beads keep their links, but for the `prev` of the first
and the `next` of the last, is a segment between the new ends. -/
theorem Seg_reframe {st st' : Store} : ∀ (l : List Int) (p n p' n' : Int), Seg st p l n →
    l.Nodup →
    (∀ x, x ∈ l → l.head? ≠ some x → prevOf st' x = prevOf st x) →
    (∀ x, x ∈ l → l.getLast? ≠ some x → nextOf st' x = nextOf st x) →
    (∀ x, l.head? = some x → prevOf st' x = some p') →
    (∀ x, l.getLast? = some x → nextOf st' x = some n') → Seg st' p' l n' := by
  intro l
  induction l with
  | nil => intro p n p' n' _ _ _ _ _ _; trivial
  | cons x l ih =>
    intro p n p' n' h hn hp hx hh hl
    obtain ⟨h1, h2, h3⟩ := h
    have hn1 := List.nodup_cons.mp hn
    refine ⟨hh x rfl, ?_, ?_⟩
    · cases l with
      | nil => exact hl x rfl
      | cons y l' =>
        have hne : (x :: y :: l').getLast? ≠ some x := by
          rw [List.getLast?_cons_cons]
          intro e
          exact hn1.1 (List.mem_of_getLast?_eq_some e)
        rw [hx x (List.mem_cons_self _ _) hne, h2]
        rfl
    · refine ih x n x n' h3 hn1.2 (fun y hy hne => ?_) (fun y hy hne => ?_) (fun y hy => ?_)
        (fun y hy => ?_)
      · apply hp y (List.mem_cons_of_mem _ hy)
        intro e
        simp only [List.head?_cons, Option.some.injEq] at e
        exact hn1.1 (e ▸ hy)
      · apply hx y (List.mem_cons_of_mem _ hy)
        cases l with
        | nil => simp at hy
        | cons z l' =>
          rw [List.getLast?_cons_cons]
          exact hne
      · have hy' : y ∈ l := List.mem_of_mem_head? (by rw [hy]; exact rfl)
        have hne : (x :: l).head? ≠ some y := by
          simp only [List.head?_cons, ne_eq, Option.some.injEq]
          intro e
          exact hn1.1 (e ▸ hy')
        rw [hp y (List.mem_cons_of_mem _ hy') hne]
        cases l with
        | nil => simp at hy
        | cons z l' =>
          simp only [List.head?_cons, Option.some.injEq] at hy
          subst hy
          exact h3.1
      · apply hl y
        cases l with
        | nil => simp at hy
        | cons z l' =>
          rw [List.getLast?_cons_cons]
          exact hy

/-- A segment is kept when its beads keep their links. -/
theorem Seg_frame {st st' : Store} (l : List Int) (p n : Int) (h : Seg st p l n)
    (hp : ∀ x, x ∈ l → prevOf st' x = prevOf st x)
    (hx : ∀ x, x ∈ l → nextOf st' x = nextOf st x) : Seg st' p l n := by
  induction l generalizing p with
  | nil => trivial
  | cons x l ih =>
    obtain ⟨h1, h2, h3⟩ := h
    refine ⟨by rw [hp x (List.mem_cons_self _ _)]; exact h1,
      by rw [hx x (List.mem_cons_self _ _)]; exact h2, ?_⟩
    exact ih x h3 (fun y hy => hp y (List.mem_cons_of_mem _ hy))
      (fun y hy => hx y (List.mem_cons_of_mem _ hy))

/-- The `next` of the last bead of a segment is its right end. -/
theorem Seg_last {st : Store} : ∀ (l : List Int) (p n : Int), Seg st p l n → ∀ x,
    l.getLast? = some x → nextOf st x = some n := by
  intro l
  induction l with
  | nil => intro p n _ x hx; simp at hx
  | cons y l ih =>
    intro p n h x hx
    obtain ⟨h1, h2, h3⟩ := h
    cases l with
    | nil =>
      simp at hx
      subst hx
      exact h2
    | cons z l' =>
      rw [List.getLast?_cons_cons] at hx
      exact ih y n h3 x hx

/-- The `prev` of the first bead of a segment is its left end. -/
theorem Seg_head {st : Store} {l : List Int} {p n x : Int} (h : Seg st p l n)
    (hx : l.head? = some x) : prevOf st x = some p := by
  cases l with
  | nil => simp at hx
  | cons y l =>
    simp at hx
    subst hx
    exact h.1

theorem HKeep.unchanged_ (st : Store) : HKeep st st := ⟨rfl, rfl, fun _ => rfl, fun _ => rfl⟩

theorem HKeep.after_ {a b c : Store} (h1 : HKeep a b) (h2 : HKeep b c) : HKeep a c :=
  ⟨h2.1.trans h1.1, h2.2.1.trans h1.2.1, fun j => (h2.2.2.1 j).trans (h1.2.2.1 j),
    fun j => (h2.2.2.2 j).trans (h1.2.2.2 j)⟩

theorem modBead_hkeep {st st' : Store} {i : Int} {f : Bead → Bead}
    (h : modBead st i f = some st') (h1 : ∀ y, (f y).frag_index = y.frag_index)
    (h2 : ∀ y, (f y).soffset = y.soffset) : HKeep st st' := by
  have hs := (modBead_get h).2
  exact ⟨hs.1, hs.2.2.2.2.1, modBead_field_same Bead.frag_index h h1,
    modBead_field_same Bead.soffset h h2⟩

theorem patchBead_hkeep {st st' : Store} {i : Int} {f : Bead → Bead}
    (h : patchBead st i f = some st') (h1 : ∀ y, (f y).frag_index = y.frag_index)
    (h2 : ∀ y, (f y).soffset = y.soffset) : HKeep st st' := by
  unfold patchBead at h
  split_ifs at h
  · exact modBead_hkeep h h1 h2
  · simp at h
    exact h ▸ HKeep.unchanged_ st

theorem HKeep.of_links {st st' : Store} (hb : st'.beadStore = st.beadStore)
    (hs : st'.sequenceStore = st.sequenceStore) (hf : st'.fragmentStore = st.fragmentStore) :
    HKeep st st' := by
  refine ⟨hs, hf, fun j => ?_, fun j => ?_⟩
  · unfold fragOf GetBead; rw [hb]
  · unfold GetBead; rw [hb]

theorem incColumn_hkeep {st st' : Store} {cid : Int} {c : Char}
    (h : incColumn st cid c = some st') : HKeep st st' ∧ st'.beadStore = st.beadStore := by
  obtain ⟨col, bc, _, _, rfl⟩ := incColumn_spec h
  exact ⟨HKeep.of_links rfl rfl rfl, rfl⟩

theorem decColumn_hkeep {st st' : Store} {cid : Int} {c : Char}
    (h : decColumn st cid c = some st') : HKeep st st' ∧ st'.beadStore = st.beadStore := by
  unfold decColumn at h
  cases hc : GetColumn st cid with
  | none => simp [hc] at h
  | some col =>
    cases hb : DecBaseCount col.base_count c with
    | none => simp [hc, hb] at h
    | some bc =>
      simp [hc, hb] at h
      subst h
      exact ⟨HKeep.of_links rfl rfl rfl, rfl⟩

theorem prevOf_congr {st st' : Store} (h : st'.beadStore = st.beadStore) (j : Int) :
    prevOf st' j = prevOf st j := by
  unfold prevOf GetBead; rw [h]

theorem nextOf_congr {st st' : Store} (h : st'.beadStore = st.beadStore) (j : Int) :
    nextOf st' j = nextOf st j := by
  unfold nextOf GetBead; rw [h]

theorem prevOf_get {st : Store} {j : Int} {b : Bead} (h : GetBead st j = some b) :
    prevOf st j = some b.prev := by
  simp [prevOf, h]

theorem nextOf_get {st : Store} {j : Int} {b : Bead} (h : GetBead st j = some b) :
    nextOf st j = some b.next := by
  simp [nextOf, h]

/-- The fragment links after the first half of the swap. -/
theorem exchangeRight_links {st st' : Store} {rid : Int} {L R : Bead}
    (h : exchangeRight st rid L = some st') (hR : GetBead st rid = some R)
    (h1 : L.prev ≠ rid) :
    HKeep st st' ∧
    (∀ j, prevOf st' j = if j = rid then some L.prev else prevOf st j) ∧
    (∀ j, nextOf st' j = if j = rid then some L.next
      else if L.prev ≠ -1 ∧ j = L.prev then (nextOf st j).map (fun _ => rid)
      else nextOf st j) := by
  unfold exchangeRight at h
  simp only [Option.bind_eq_bind, Option.bind_eq_some, Option.pure_def, Option.some.injEq,
    Prod.mk.injEq] at h
  obtain ⟨s1, m1, r1, hr1, s2, m2, r2, hr2, s3, m3, r3, hr3, m4⟩ := h
  have k1 := modBead_hkeep m1 (fun _ => rfl) (fun _ => rfl)
  have k2 := patchBead_hkeep m2 (fun _ => rfl) (fun _ => rfl)
  have k3 := patchBead_hkeep m3 (fun _ => rfl) (fun _ => rfl)
  have k4 := patchBead_hkeep m4 (fun _ => rfl) (fun _ => rfl)
  have p1 := modBead_field Bead.prev m1 (fun _ => L.prev) (fun _ => rfl)
  have p2 := patchBead_field_same Bead.prev m2 (fun _ => rfl)
  have p3 := patchBead_field_same Bead.prev m3 (fun _ => rfl)
  have p4 := patchBead_field_same Bead.prev m4 (fun _ => rfl)
  have n1 := modBead_field Bead.next m1 (fun _ => L.next) (fun _ => rfl)
  have n2 := patchBead_field_same Bead.next m2 (fun _ => rfl)
  have n3 := patchBead_field_same Bead.next m3 (fun _ => rfl)
  have n4 := patchBead_field Bead.next m4 (fun _ => rid) (fun _ => rfl)
  have hr3p : r3.prev = L.prev := by
    have e := (p3 rid).trans ((p2 rid).trans (p1 rid))
    rw [hr3, if_pos rfl, hR] at e
    simpa using e
  rw [hr3p] at n4
  refine ⟨((k1.after_ k2).after_ k3).after_ k4, fun j => ?_, fun j => ?_⟩
  · unfold prevOf
    rw [p4 j, p3 j, p2 j, p1 j]
    by_cases hj : j = rid
    · simp [hj, hR]
    · simp [hj]
  · unfold nextOf
    rw [n4 j, n3 L.prev, n2 L.prev, n1 L.prev, n3 j, n2 j, n1 j]
    by_cases hj : j = rid
    · subst hj
      simp [hR, Ne.symm h1]
    · by_cases hj2 : j = L.prev
      · subst hj2
        simp [hj]
      · simp [hj, hj2, h1]

/-- The fragment links after the second half of the swap. -/
theorem exchangeLeft_links {st st' : Store} {lid : Int} {L R : Bead}
    (h : exchangeLeft st lid R = some st') (hL : GetBead st lid = some L)
    (h1 : R.next ≠ lid) :
    HKeep st st' ∧
    (∀ j, nextOf st' j = if j = lid then some R.next else nextOf st j) ∧
    (∀ j, prevOf st' j = if j = lid then some R.prev
      else if R.next ≠ -1 ∧ j = R.next then (prevOf st j).map (fun _ => lid)
      else prevOf st j) := by
  unfold exchangeLeft at h
  simp only [Option.bind_eq_bind, Option.bind_eq_some, Option.pure_def, Option.some.injEq,
    Prod.mk.injEq] at h
  obtain ⟨s1, m1, r1, hr1, s2, m2, r2, hr2, s3, m3, r3, hr3, m4⟩ := h
  have k1 := modBead_hkeep m1 (fun _ => rfl) (fun _ => rfl)
  have k2 := patchBead_hkeep m2 (fun _ => rfl) (fun _ => rfl)
  have k3 := patchBead_hkeep m3 (fun _ => rfl) (fun _ => rfl)
  have k4 := patchBead_hkeep m4 (fun _ => rfl) (fun _ => rfl)
  have p1 := modBead_field Bead.next m1 (fun _ => R.next) (fun _ => rfl)
  have p2 := patchBead_field_same Bead.next m2 (fun _ => rfl)
  have p3 := patchBead_field_same Bead.next m3 (fun _ => rfl)
  have p4 := patchBead_field_same Bead.next m4 (fun _ => rfl)
  have n1 := modBead_field Bead.prev m1 (fun _ => R.prev) (fun _ => rfl)
  have n2 := patchBead_field_same Bead.prev m2 (fun _ => rfl)
  have n3 := patchBead_field_same Bead.prev m3 (fun _ => rfl)
  have n4 := patchBead_field Bead.prev m4 (fun _ => lid) (fun _ => rfl)
  have hr3p : r3.next = R.next := by
    have e := (p3 lid).trans ((p2 lid).trans (p1 lid))
    rw [hr3, if_pos rfl, hL] at e
    simpa using e
  rw [hr3p] at n4
  refine ⟨((k1.after_ k2).after_ k3).after_ k4, fun j => ?_, fun j => ?_⟩
  · unfold nextOf
    rw [p4 j, p3 j, p2 j, p1 j]
    by_cases hj : j = lid
    · simp [hj, hL]
    · simp [hj]
  · unfold prevOf
    rw [n4 j, n3 R.next, n2 R.next, n1 R.next, n3 j, n2 j, n1 j]
    by_cases hj : j = lid
    · subst hj
      simp [hL, Ne.symm h1]
    · by_cases hj2 : j = R.next
      · subst hj2
        simp [hj]
      · simp [hj, hj2, h1]

/-- The fragment links after the closing case split of the swap. -/
theorem exchangeClose_links {st st' : Store} {lid rid : Int} {R : Bead}
    (h : exchangeClose st lid rid R = some st') :
    HKeep st st' ∧
    ((R.prev = lid ∧
      (∀ j, nextOf st' j = if j = rid then (nextOf st j).map (fun _ => lid) else nextOf st j) ∧
      (∀ j, prevOf st' j = if j = lid then (prevOf st j).map (fun _ => rid) else prevOf st j)) ∨
     (R.prev ≠ lid ∧ ∃ rn lp, nextOf st rid = some rn ∧
      (∀ j, prevOf st' j =
        if rn ≠ -1 ∧ j = rn then (prevOf st j).map (fun _ => rid) else prevOf st j) ∧
      prevOf st' lid = some lp ∧
      (∀ j, nextOf st' j =
        if lp ≠ -1 ∧ j = lp then (nextOf st j).map (fun _ => lid) else nextOf st j))) := by
  unfold exchangeClose at h
  by_cases hc : R.prev = lid
  · rw [if_pos hc] at h
    simp only [Option.bind_eq_bind, Option.bind_eq_some] at h
    obtain ⟨s1, m1, m2⟩ := h
    have k1 := modBead_hkeep m1 (fun _ => rfl) (fun _ => rfl)
    have k2 := modBead_hkeep m2 (fun _ => rfl) (fun _ => rfl)
    have a1 := modBead_field Bead.next m1 (fun _ => lid) (fun _ => rfl)
    have a2 := modBead_field_same Bead.next m2 (fun _ => rfl)
    have b1 := modBead_field_same Bead.prev m1 (fun _ => rfl)
    have b2 := modBead_field Bead.prev m2 (fun _ => rid) (fun _ => rfl)
    refine ⟨k1.after_ k2, Or.inl ⟨hc, fun j => ?_, fun j => ?_⟩⟩
    · unfold nextOf
      rw [a2 j, a1 j]
      by_cases hj : j = rid <;> simp [hj]
    · unfold prevOf
      rw [b2 j, b1 lid, b1 j]
      by_cases hj : j = lid <;> simp [hj]
  · rw [if_neg hc] at h
    simp only [Option.bind_eq_bind, Option.bind_eq_some] at h
    obtain ⟨r, hr, s1, m1, l, hl, m2⟩ := h
    have k1 := patchBead_hkeep m1 (fun _ => rfl) (fun _ => rfl)
    have k2 := patchBead_hkeep m2 (fun _ => rfl) (fun _ => rfl)
    have a1 := patchBead_field Bead.prev m1 (fun _ => rid) (fun _ => rfl)
    have a2 := patchBead_field_same Bead.prev m2 (fun _ => rfl)
    have b1 := patchBead_field_same Bead.next m1 (fun _ => rfl)
    have b2 := patchBead_field Bead.next m2 (fun _ => lid) (fun _ => rfl)
    refine ⟨k1.after_ k2, Or.inr ⟨hc, r.next, l.prev, nextOf_get hr, fun j => ?_, ?_, fun j => ?_⟩⟩
    · unfold prevOf
      rw [a2 j, a1 j]
      by_cases hj : r.next ≠ -1 ∧ j = r.next
      · simp [hj.1, hj.2]
      · simp [hj]
    · unfold prevOf
      rw [a2 lid, hl]
      rfl
    · unfold nextOf
      rw [b2 j, b1 l.prev, b1 j]
      by_cases hj : l.prev ≠ -1 ∧ j = l.prev
      · simp [hj.1, hj.2]
      · simp [hj]

/-- The column bookkeeping of the swap leaves the fragment links. -/
theorem exchangeColumns_links {st st' : Store} {lid rid : Int} {L R : Bead} {lc rc : Char}
    (h : exchangeColumns st lid rid L R lc rc = some st') :
    HKeep st st' ∧ (∀ j, prevOf st' j = prevOf st j) ∧ (∀ j, nextOf st' j = nextOf st j) := by
  unfold exchangeColumns at h
  simp only [Option.bind_eq_bind, Option.bind_eq_some, Option.pure_def, Option.some.injEq,
    Prod.mk.injEq] at h
  obtain ⟨l0, hl0, s1, m1, s2, m2, s3, m3, s4, m4, s5, m5, m6⟩ := h
  have k1 := modBead_hkeep m1 (fun _ => rfl) (fun _ => rfl)
  have k2 := modBead_hkeep m2 (fun _ => rfl) (fun _ => rfl)
  obtain ⟨k3, e3⟩ := decColumn_hkeep m3
  obtain ⟨k4, e4⟩ := incColumn_hkeep m4
  obtain ⟨k5, e5⟩ := decColumn_hkeep m5
  obtain ⟨k6, e6⟩ := incColumn_hkeep m6
  refine ⟨((((k1.after_ k2).after_ k3).after_ k4).after_ k5).after_ k6, fun j => ?_, fun j => ?_⟩
  · rw [prevOf_congr e6, prevOf_congr e5, prevOf_congr e4, prevOf_congr e3]
    unfold prevOf
    rw [modBead_field_same Bead.prev m2 (fun _ => rfl), modBead_field_same Bead.prev m1 (fun _ => rfl)]
  · rw [nextOf_congr e6, nextOf_congr e5, nextOf_congr e4, nextOf_congr e3]
    unfold nextOf
    rw [modBead_field_same Bead.next m2 (fun _ => rfl), modBead_field_same Bead.next m1 (fun _ => rfl)]

theorem swapId_left (a b : Int) : swapId a b a = b := by simp [swapId]

theorem swapId_right (a b : Int) : swapId a b b = a := by
  unfold swapId
  by_cases h : b = a <;> simp [h]

theorem swapId_other {a b x : Int} (h1 : x ≠ a) (h2 : x ≠ b) : swapId a b x = x := by
  simp [swapId, h1, h2]

theorem swapId_invol (a b x : Int) : swapId a b (swapId a b x) = x := by
  unfold swapId
  by_cases h1 : x = a
  · by_cases h2 : b = a <;> simp [h1, h2]
  · by_cases h2 : x = b
    · simp [h1, h2]
    · simp [h1, h2]

theorem swapId_inj (a b : Int) : Function.Injective (swapId a b) := fun x y h => by
  have := congrArg (swapId a b) h
  rwa [swapId_invol, swapId_invol] at this

/-- A segment read in a store whose links are those of `st` with the names
`a` and `b` exchanged. -/
theorem Seg_rename {st st' : Store} (a b : Int) : ∀ (l : List Int) (p n : Int), Seg st p l n →
    (∀ x, x ∈ l → prevOf st' (swapId a b x) = (prevOf st x).map (swapId a b) ∧
      nextOf st' (swapId a b x) = (nextOf st x).map (swapId a b)) →
    Seg st' (swapId a b p) (l.map (swapId a b)) (swapId a b n) := by
  intro l
  induction l with
  | nil => intro p n _ _; trivial
  | cons x l ih =>
    intro p n h hx
    obtain ⟨h1, h2, h3⟩ := h
    obtain ⟨e1, e2⟩ := hx x (List.mem_cons_self _ _)
    refine ⟨?_, ?_, ih x n h3 (fun y hy => hx y (List.mem_cons_of_mem _ hy))⟩
    · rw [e1, h1]; rfl
    · rw [e2, h2]
      cases l <;> rfl

/-- The fragment links after `LateralExchangeBead`, in terms of the links
before: stage by stage. -/
theorem LateralExchangeBead_stages {st st' : Store} {lid rid r : Int}
    (h : LateralExchangeBead st lid rid = some (st', r)) :
    ∃ L R s1 s2 s3, GetBead st lid = some L ∧ GetBead st rid = some R ∧
      exchangeCheck st rid (st.beadStore.length + 1) L = some () ∧
      exchangeRight st rid L = some s1 ∧ exchangeLeft s1 lid R = some s2 ∧
      exchangeClose s2 lid rid R = some s3 ∧
      (∃ lc rc, exchangeColumns s3 lid rid L R lc rc = some st') ∧ r = rid := by
  unfold LateralExchangeBead at h
  simp only [Option.bind_eq_bind, Option.bind_eq_some, Option.pure_def, Option.some.injEq,
    Prod.mk.injEq] at h
  obtain ⟨L, hL, R, hR, _, _, _, _, lc, _, rc, _, u, hu, s1, h1, s2, h2, s3, h3, s4, h4, rfl, rfl⟩ := h
  exact ⟨L, R, s1, s2, s3, hL, hR, hu, h1, h2, h3, ⟨lc, rc, h4⟩, rfl⟩

theorem map_swapId_of_ne {a b : Int} {o : Option Int} (h1 : o ≠ some a) (h2 : o ≠ some b) :
    o.map (swapId a b) = o := by
  cases o with
  | none => rfl
  | some x =>
    have e1 : x ≠ a := fun e => h1 (by rw [e])
    have e2 : x ≠ b := fun e => h2 (by rw [e])
    simp [swapId_other e1 e2]

theorem prevOf_some {st : Store} {j p : Int} (h : prevOf st j = some p) :
    ∃ b, GetBead st j = some b ∧ b.prev = p := by
  unfold prevOf at h
  cases hb : GetBead st j with
  | none => simp [hb] at h
  | some b => simp [hb] at h; exact ⟨b, rfl, h⟩

theorem nextOf_some {st : Store} {j p : Int} (h : nextOf st j = some p) :
    ∃ b, GetBead st j = some b ∧ b.next = p := by
  unfold nextOf at h
  cases hb : GetBead st j with
  | none => simp [hb] at h
  | some b => simp [hb] at h; exact ⟨b, rfl, h⟩

theorem fragOf_some {st : Store} {j p : Int} (h : fragOf st j = some p) :
    ∃ b, GetBead st j = some b ∧ b.frag_index = p := by
  unfold fragOf at h
  cases hb : GetBead st j with
  | none => simp [hb] at h
  | some b => simp [hb] at h; exact ⟨b, rfl, h⟩

theorem fragOf_get {st : Store} {j : Int} {b : Bead} (h : GetBead st j = some b) :
    fragOf st j = some b.frag_index := by
  simp [fragOf, h]

/-- The fragment links after `LateralExchangeBead(lid, rid)` on a chain in
which `rid` comes after `lid`: the links before, with the names `lid` and
`rid` exchanged. -/
theorem LateralExchangeBead_rename {st st' : Store} {lid rid r : Int} {L R : Bead}
    (h : LateralExchangeBead st lid rid = some (st', r))
    (hL : GetBead st lid = some L) (hR : GetBead st rid = some R) (hlr : lid ≠ rid)
    (d1 : L.prev ≠ rid) (d2 : R.next ≠ lid) (d3 : L.prev ≠ lid) (d4 : R.next ≠ rid)
    (d5 : L.next ≠ lid) (d6 : R.prev ≠ rid)
    (eP : L.prev ≠ -1 → nextOf st L.prev = some lid)
    (eN : L.next ≠ -1 → prevOf st L.next = some lid)
    (eRP : R.prev ≠ -1 → nextOf st R.prev = some rid)
    (eRN : R.next ≠ -1 → prevOf st R.next = some rid)
    (u1 : ∀ j, nextOf st j = some lid → j = L.prev)
    (u2 : ∀ j, prevOf st j = some lid → j = L.next)
    (u3 : ∀ j, nextOf st j = some rid → j = R.prev)
    (u4 : ∀ j, prevOf st j = some rid → j = R.next) :
    HKeep st st' ∧
    ∀ j, prevOf st' (swapId lid rid j) = (prevOf st j).map (swapId lid rid) ∧
      nextOf st' (swapId lid rid j) = (nextOf st j).map (swapId lid rid) := by
  obtain ⟨L', R', s1, s2, s3, hL', hR', -, h1, h2, h3, ⟨lc, rc, h4⟩, -⟩ :=
    LateralExchangeBead_stages h
  rw [hL] at hL'; cases hL'
  rw [hR] at hR'; cases hR'
  have hl0 : lid ≠ -1 := by have := (GetBead_some_range hL).1; omega
  have hr0 : rid ≠ -1 := by have := (GetBead_some_range hR).1; omega
  have pL : prevOf st lid = some L.prev := prevOf_get hL
  have nL : nextOf st lid = some L.next := nextOf_get hL
  have pR : prevOf st rid = some R.prev := prevOf_get hR
  have nR : nextOf st rid = some R.next := nextOf_get hR
  have adj1 : R.prev = lid → L.next = rid := fun e => (u2 rid (by rw [pR, e])).symm
  have adj2 : L.next = rid → R.prev = lid := fun e => (u3 lid (by rw [nL, e])).symm
  obtain ⟨k1, P1, N1⟩ := exchangeRight_links h1 hR d1
  obtain ⟨L1, hL1, -⟩ := prevOf_some (show prevOf s1 lid = some L.prev by
    rw [P1, if_neg hlr, pL])
  obtain ⟨k2, N2, P2⟩ := exchangeLeft_links h2 hL1 d2
  obtain ⟨k3, hcase⟩ := exchangeClose_links h3
  obtain ⟨k4, P4, N4⟩ := exchangeColumns_links h4
  refine ⟨((k1.after_ k2).after_ k3).after_ k4, ?_⟩
  have hsl : swapId lid rid lid = rid := swapId_left _ _
  have hsr : swapId lid rid rid = lid := swapId_right _ _
  have mapPrevL : (some L.prev).map (swapId lid rid) = some L.prev := by
    simp [swapId_other d3 d1]
  have mapNextR : (some R.next).map (swapId lid rid) = some R.next := by
    simp [swapId_other d2 d4]
  -- the links of the two beads after the first two stages
  have N2rid : nextOf s2 rid = some L.next := by
    rw [N2, if_neg (Ne.symm hlr), N1, if_pos rfl]
  have P2lid : prevOf s2 lid = some R.prev := by rw [P2, if_pos rfl]
  have P2rid : prevOf s2 rid = some L.prev := by
    rw [P2, if_neg (Ne.symm hlr), if_neg (fun e => d4 e.2.symm), P1, if_pos rfl]
  have N2lid : nextOf s2 lid = some R.next := by rw [N2, if_pos rfl]
  have P2other : ∀ j, j ≠ lid → j ≠ rid →
      prevOf s2 j = if R.next ≠ -1 ∧ j = R.next then some lid else prevOf st j := by
    intro j j1 j2
    rw [P2, if_neg j1, P1, if_neg j2]
    by_cases hc : R.next ≠ -1 ∧ j = R.next
    · rw [if_pos hc, if_pos hc, hc.2, eRN hc.1]; rfl
    · rw [if_neg hc, if_neg hc]
  have N2other : ∀ j, j ≠ lid → j ≠ rid →
      nextOf s2 j = if L.prev ≠ -1 ∧ j = L.prev then some rid else nextOf st j := by
    intro j j1 j2
    rw [N2, if_neg j1, N1, if_neg j2]
    by_cases hc : L.prev ≠ -1 ∧ j = L.prev
    · rw [if_pos hc, if_pos hc, hc.2, eP hc.1]; rfl
    · rw [if_neg hc, if_neg hc]
  rcases hcase with ⟨hadj, N3, P3⟩ | ⟨hnadj, rn, lp, hrn, P3, hlp, N3⟩
  · -- adjacent beads
    have hLn : L.next = rid := adj1 hadj
    intro j
    by_cases j1 : j = lid
    · rw [j1, hsl, P4, N4, P3, N3, if_neg (Ne.symm hlr), if_pos rfl, P2rid, N2rid, pL, nL, mapPrevL, hLn]
      simp [hsr]
    · by_cases j2 : j = rid
      · rw [j2, hsr, P4, N4, P3, N3, if_pos rfl, if_neg hlr, P2lid, N2lid, pR, nR, mapNextR, hadj]
        simp [hsl]
      · rw [swapId_other j1 j2, P4, N4, P3, N3, if_neg j1, if_neg j2, P2other j j1 j2,
          N2other j j1 j2]
        constructor
        · by_cases hc : R.next ≠ -1 ∧ j = R.next
          · rw [if_pos hc, hc.2, eRN hc.1]; simp [hsr]
          · rw [if_neg hc]
            refine (map_swapId_of_ne (fun e => ?_) (fun e => ?_)).symm
            · exact j2 ((u2 j e).trans hLn)
            · have := u4 j e
              by_cases h0 : R.next = -1
              · rw [this, h0] at e
                have := prevOf_range e
                omega
              · exact hc ⟨h0, this⟩
        · by_cases hc : L.prev ≠ -1 ∧ j = L.prev
          · rw [if_pos hc, hc.2, eP hc.1]; simp [hsl]
          · rw [if_neg hc]
            refine (map_swapId_of_ne (fun e => ?_) (fun e => ?_)).symm
            · have := u1 j e
              by_cases h0 : L.prev = -1
              · rw [this, h0] at e
                obtain ⟨b, hb, -⟩ := nextOf_some e
                have := (GetBead_some_range hb).1
                omega
              · exact hc ⟨h0, this⟩
            · exact j1 ((u3 j e).trans hadj)
  · -- gaps in between
    have hLn : L.next ≠ rid := fun e => hnadj (adj2 e)
    rw [N2rid] at hrn
    have hrn' : rn = L.next := (Option.some.inj hrn).symm
    subst hrn'
    have hlp' : lp = R.prev := by
      rw [P3, if_neg (fun e => d5 e.2.symm), P2lid] at hlp
      exact (Option.some.inj hlp).symm
    subst hlp'
    have mapNextL : (some L.next).map (swapId lid rid) = some L.next := by
      simp [swapId_other d5 hLn]
    have mapPrevR : (some R.prev).map (swapId lid rid) = some R.prev := by
      simp [swapId_other hnadj d6]
    intro j
    by_cases j1 : j = lid
    · rw [j1, hsl, P4, N4, P3, N3, if_neg (fun e => hLn e.2.symm), if_neg (fun e => d6 e.2.symm),
        P2rid, N2rid, pL, nL, mapPrevL, mapNextL]
      exact ⟨rfl, rfl⟩
    · by_cases j2 : j = rid
      · rw [j2, hsr, P4, N4, P3, N3, if_neg (fun e => d5 e.2.symm), if_neg (fun e => hnadj e.2.symm),
          P2lid, N2lid, pR, nR, mapNextR, mapPrevR]
        exact ⟨rfl, rfl⟩
      · rw [swapId_other j1 j2, P4, N4, P3, N3, P2other j j1 j2, N2other j j1 j2]
        constructor
        · by_cases hc1 : L.next ≠ -1 ∧ j = L.next
          · rw [if_pos hc1]
            obtain ⟨hc0, rfl⟩ := hc1
            by_cases hc2 : R.next ≠ -1 ∧ L.next = R.next
            · exfalso
              have := eRN hc2.1
              rw [← hc2.2, eN hc0] at this
              exact hlr (Option.some.inj this)
            · rw [if_neg hc2, eN hc0]; simp [hsl]
          · rw [if_neg hc1]
            by_cases hc : R.next ≠ -1 ∧ j = R.next
            · rw [if_pos hc, hc.2, eRN hc.1]; simp [hsr]
            · rw [if_neg hc]
              refine (map_swapId_of_ne (fun e => ?_) (fun e => ?_)).symm
              · have := u2 j e
                by_cases h0 : L.next = -1
                · rw [this, h0] at e
                  have := prevOf_range e
                  omega
                · exact hc1 ⟨h0, this⟩
              · have := u4 j e
                by_cases h0 : R.next = -1
                · rw [this, h0] at e
                  have := prevOf_range e
                  omega
                · exact hc ⟨h0, this⟩
        · by_cases hc1 : R.prev ≠ -1 ∧ j = R.prev
          · rw [if_pos hc1]
            obtain ⟨hc0, rfl⟩ := hc1
            by_cases hc2 : L.prev ≠ -1 ∧ R.prev = L.prev
            · exfalso
              have := eP hc2.1
              rw [← hc2.2, eRP hc0] at this
              exact hlr (Option.some.inj this).symm
            · rw [if_neg hc2, eRP hc0]; simp [hsr]
          · rw [if_neg hc1]
            by_cases hc : L.prev ≠ -1 ∧ j = L.prev
            · rw [if_pos hc, hc.2, eP hc.1]; simp [hsl]
            · rw [if_neg hc]
              refine (map_swapId_of_ne (fun e => ?_) (fun e => ?_)).symm
              · have := u1 j e
                by_cases h0 : L.prev = -1
                · rw [this, h0] at e
                  obtain ⟨b, hb, -⟩ := nextOf_some e
                  have := (GetBead_some_range hb).1
                  omega
                · exact hc ⟨h0, this⟩
              · have := u3 j e
                by_cases h0 : R.prev = -1
                · rw [this, h0] at e
                  obtain ⟨b, hb, -⟩ := nextOf_some e
                  have := (GetBead_some_range hb).1
                  omega
                · exact hc1 ⟨h0, this⟩

/-- A fragment bead in its row: what is before it and what is after it. -/
theorem HWF.locate {st : Store} {row : Int → List Int} (hw : HWF st row) {j : Int} {b : Bead}
    (hb : GetBead st j = some b) (hf : b.frag_index ≠ -1) :
    ∃ pre post, row b.frag_index = pre ++ j :: post ∧ b.prev = pre.getLastD (-1) ∧
      b.next = post.headD (-1) ∧ Seg st (-1) pre j ∧ Seg st j post (-1) ∧
      (pre ++ j :: post).Nodup ∧ ∀ x, x ∈ pre ++ j :: post → fragOf st x = some b.frag_index := by
  obtain ⟨hfr, hmem⟩ := hw.bead j b hb hf
  obtain ⟨f, hf'⟩ := Option.isSome_iff_exists.1 hfr
  obtain ⟨hseg, hnd, -⟩ := hw.frag _ f hf'
  have hfo : ∀ x, x ∈ row b.frag_index → fragOf st x = some b.frag_index :=
    fun x hx => (hw.mem b.frag_index x hx).1
  obtain ⟨pre, post, hsplit⟩ := List.append_of_mem hmem
  rw [hsplit] at hseg hnd hfo
  obtain ⟨s1, s2⟩ := (Seg_append pre (j :: post) (-1) (-1)).1 hseg
  obtain ⟨p1, p2, p3⟩ := s2
  rw [prevOf_get hb] at p1
  rw [nextOf_get hb] at p2
  exact ⟨pre, post, hsplit, Option.some.inj p1, Option.some.inj p2, s1, p3, hnd, hfo⟩

/-- The successor of a fragment bead points back at it and is in the same
fragment. -/
theorem HWF.next_back {st : Store} {row : Int → List Int} (hw : HWF st row) {j : Int} {b : Bead}
    (hb : GetBead st j = some b) (hf : b.frag_index ≠ -1) (hn : b.next ≠ -1) :
    prevOf st b.next = some j ∧ fragOf st b.next = some b.frag_index := by
  obtain ⟨pre, post, -, -, hnx, -, hs, -, hfo⟩ := hw.locate hb hf
  cases post with
  | nil => exact absurd hnx hn
  | cons y post' =>
    have : b.next = y := hnx
    rw [this]
    exact ⟨hs.1, hfo y (by simp)⟩

/-- The predecessor of a fragment bead points at it and is in the same
fragment. -/
theorem HWF.prev_fwd {st : Store} {row : Int → List Int} (hw : HWF st row) {j : Int} {b : Bead}
    (hb : GetBead st j = some b) (hf : b.frag_index ≠ -1) (hp : b.prev ≠ -1) :
    nextOf st b.prev = some j ∧ fragOf st b.prev = some b.frag_index := by
  obtain ⟨pre, post, -, hpv, -, hs, -, -, hfo⟩ := hw.locate hb hf
  rcases List.eq_nil_or_concat pre with rfl | ⟨pre', y, rfl⟩
  · exact absurd hpv hp
  · rw [List.concat_eq_append] at hpv hs hfo
    have e : b.prev = y := by rw [hpv, List.getLastD_concat]
    rw [e]
    have := (Seg_append pre' [y] (-1) j).1 hs
    exact ⟨this.2.2.1, hfo y (by simp)⟩

/-- Only the predecessor of a fragment bead has it as `next`. -/
theorem HWF.next_unique {st : Store} {row : Int → List Int} (hw : HWF st row) {j x : Int}
    {b : Bead} (hb : GetBead st j = some b) (hf : b.frag_index ≠ -1)
    (hx : nextOf st x = some j) : x = b.prev := by
  obtain ⟨bx, hbx, hxn⟩ := nextOf_some hx
  have hj0 := (GetBead_some_range hb).1
  have hn : bx.next ≠ -1 := by rw [hxn]; omega
  by_cases hxf : bx.frag_index = -1
  · rcases (hw.call x bx hbx hxf).1 with h | h
    · exact absurd h hn
    · rw [hxn, fragOf_get hb] at h
      exact absurd (Option.some.inj h) hf
  · have := (hw.next_back hbx hxf hn).1
    rw [hxn, prevOf_get hb] at this
    exact (Option.some.inj this).symm

/-- Only the successor of a fragment bead has it as `prev`. -/
theorem HWF.prev_unique {st : Store} {row : Int → List Int} (hw : HWF st row) {j x : Int}
    {b : Bead} (hb : GetBead st j = some b) (hf : b.frag_index ≠ -1)
    (hx : prevOf st x = some j) : x = b.next := by
  obtain ⟨bx, hbx, hxn⟩ := prevOf_some hx
  have hj0 := (GetBead_some_range hb).1
  have hn : bx.prev ≠ -1 := by rw [hxn]; omega
  by_cases hxf : bx.frag_index = -1
  · rcases (hw.call x bx hbx hxf).2 with h | h
    · exact absurd h hn
    · rw [hxn, fragOf_get hb] at h
      exact absurd (Option.some.inj h) hf
  · have := (hw.prev_fwd hbx hxf hn).1
    rw [hxn, nextOf_get hb] at this
    exact (Option.some.inj this).symm

theorem GetBead_neg_one (st : Store) : GetBead st (-1) = none := by
  unfold GetBead getAt
  simp

/-- Along a segment, `between` finds the beads up to `rid`. -/
theorem between_seg {st : Store} {rid : Int} (hr : rid ≠ -1) :
    ∀ (fuel : Nat) (x : Int) (l mid : List Int) (p : Int), Seg st p (x :: l) (-1) →
      between st rid fuel x = some mid → ∃ post, l = mid ++ rid :: post := by
  intro fuel
  induction fuel with
  | zero => intro x l mid p _ h; simp [between] at h
  | succ k ih =>
    intro x l mid p hs h
    obtain ⟨-, h2, h3⟩ := hs
    obtain ⟨b, hb, hbn⟩ := nextOf_some h2
    unfold between at h
    rw [hb] at h
    simp only at h
    by_cases hc : b.next = rid
    · rw [if_pos hc] at h
      cases h
      cases l with
      | nil => exact absurd (hc.symm.trans hbn) hr
      | cons y l' =>
        have : b.next = y := hbn
        exact ⟨l', by rw [← this, hc]; rfl⟩
    · rw [if_neg hc] at h
      cases hbt : between st rid k b.next with
      | none => rw [hbt] at h; cases h
      | some m =>
        rw [hbt] at h
        cases h
        cases l with
        | nil =>
          exfalso
          have e : b.next = -1 := hbn
          rw [e] at hbt
          cases k with
          | zero => simp [between] at hbt
          | succ k' =>
            unfold between at hbt
            rw [GetBead_neg_one] at hbt
            cases hbt
        | cons y l' =>
          have e : b.next = y := hbn
          rw [e] at hbt
          obtain ⟨post, hp⟩ := ih y l' m x h3 hbt
          exact ⟨post, by rw [e, hp]; rfl⟩

/-- Along a segment that reaches `rid`, `between` finds the beads up to it. -/
theorem between_of_seg {st : Store} {rid : Int} :
    ∀ (mid : List Int) (fuel : Nat) (x : Int) (post : List Int) (p n : Int),
      Seg st p (x :: (mid ++ rid :: post)) n → rid ∉ mid → mid.length < fuel →
      between st rid fuel x = some mid := by
  intro mid
  induction mid with
  | nil =>
    intro fuel x post p n hs _ hf
    obtain ⟨-, h2, -⟩ := hs
    obtain ⟨b, hb, hbn⟩ := nextOf_some h2
    cases fuel with
    | zero => simp at hf
    | succ k =>
      unfold between
      rw [hb]
      have : b.next = rid := hbn
      simp [this]
  | cons m mid ih =>
    intro fuel x post p n hs hr hf
    obtain ⟨-, h2, h3⟩ := hs
    obtain ⟨b, hb, hbn⟩ := nextOf_some h2
    cases fuel with
    | zero => simp at hf
    | succ k =>
      have e : b.next = m := hbn
      have hne : m ≠ rid := fun e' => hr (by rw [e']; exact List.mem_cons_self _ _)
      unfold between
      rw [hb]
      simp only [e, if_neg hne]
      rw [ih k m post x n h3 (fun h' => hr (List.mem_cons_of_mem _ h'))
        (by simp at hf; omega)]

theorem mem_map_swapId {a b x : Int} {l : List Int} (h : a ∈ l ↔ b ∈ l) :
    x ∈ l.map (swapId a b) ↔ x ∈ l := by
  have key : x ∈ l.map (swapId a b) ↔ swapId a b x ∈ l := by
    rw [List.mem_map]
    constructor
    · rintro ⟨y, hy, rfl⟩
      rw [swapId_invol]; exact hy
    · intro hx
      exact ⟨_, hx, swapId_invol a b x⟩
  rw [key]
  by_cases h1 : x = a
  · rw [h1, swapId_left]; exact h.symm
  · by_cases h2 : x = b
    · rw [h2, swapId_right]; exact h
    · rw [swapId_other h1 h2]

theorem map_swapId_fix {a b : Int} {l : List Int} (h1 : a ∉ l) (h2 : b ∉ l) :
    l.map (swapId a b) = l := by
  induction l with
  | nil => rfl
  | cons x l ih =>
    rw [List.map_cons, ih (fun h => h1 (List.mem_cons_of_mem _ h))
      (fun h => h2 (List.mem_cons_of_mem _ h))]
    rw [swapId_other (fun e => h1 (by rw [e]; exact List.mem_cons_self _ _))
      (fun e => h2 (by rw [e]; exact List.mem_cons_self _ _))]

theorem getLastD_mem_or {l : List Int} {d : Int} : l.getLastD d = d ∨ l.getLastD d ∈ l := by
  rcases List.eq_nil_or_concat l with rfl | ⟨l', y, rfl⟩
  · left; rfl
  · right
    rw [List.concat_eq_append, List.getLastD_concat]
    simp

theorem headD_mem_or {l : List Int} {d : Int} : l.headD d = d ∨ l.headD d ∈ l := by
  cases l with
  | nil => left; rfl
  | cons x l => right; simp

/-- What the row of two beads of one fragment, the second to the right of
the first, gives about their links. -/
theorem HWF.pair {st : Store} {row : Int → List Int} (hw : HWF st row) {lid rid : Int}
    {L R : Bead} {fuel : Nat} {mid : List Int}
    (hL : GetBead st lid = some L) (hR : GetBead st rid = some R)
    (hLf : L.frag_index ≠ -1) (hbt : between st rid fuel lid = some mid) :
    ∃ pre post, row L.frag_index = pre ++ lid :: (mid ++ rid :: post) ∧
      (pre ++ lid :: (mid ++ rid :: post)).Nodup ∧
      L.prev = pre.getLastD (-1) ∧ L.next = (mid ++ rid :: post).headD (-1) ∧
      R.prev = mid.getLastD lid ∧ R.next = post.headD (-1) ∧
      R.frag_index = L.frag_index ∧
      Seg st L.prev (lid :: (mid ++ rid :: post)) (-1) := by
  have hr0 : rid ≠ -1 := by have := (GetBead_some_range hR).1; omega
  obtain ⟨pre, post0, hrow, hpv, hnx, hs1, hs2, hnd, hfo⟩ := hw.locate hL hLf
  have hseg : Seg st L.prev (lid :: post0) (-1) :=
    ⟨prevOf_get hL, by rw [nextOf_get hL, hnx], hs2⟩
  obtain ⟨post, hpost⟩ := between_seg hr0 fuel lid post0 mid L.prev hseg hbt
  subst hpost
  obtain ⟨-, q2⟩ := (Seg_append mid (rid :: post) lid (-1)).1 hs2
  obtain ⟨q3, q4, -⟩ := q2
  rw [prevOf_get hR] at q3
  rw [nextOf_get hR] at q4
  have hfr := hfo rid (by simp)
  rw [fragOf_get hR] at hfr
  exact ⟨pre, post, hrow, hnd, hpv, hnx, Option.some.inj q3, Option.some.inj q4,
    Option.some.inj hfr, hseg⟩

/-- `LateralExchangeBead` on two beads of one fragment, the second to the
right of the first, keeps the rows well formed; the rows are the rows before
with the two beads exchanged. -/
theorem HWF.exchanged {st st' : Store} {row : Int → List Int} {lid rid r : Int} {L R : Bead}
    {fuel : Nat} {mid : List Int}
    (hw : HWF st row) (h : LateralExchangeBead st lid rid = some (st', r))
    (hL : GetBead st lid = some L) (hR : GetBead st rid = some R)
    (hLf : L.frag_index ≠ -1) (hbt : between st rid fuel lid = some mid) :
    HWF st' (fun fid => (row fid).map (swapId lid rid)) ∧ HKeep st st' ∧
    (∀ j, prevOf st' (swapId lid rid j) = (prevOf st j).map (swapId lid rid) ∧
      nextOf st' (swapId lid rid j) = (nextOf st j).map (swapId lid rid)) ∧
    ∃ pre post, row L.frag_index = pre ++ lid :: (mid ++ rid :: post) ∧
      (row L.frag_index).map (swapId lid rid) = pre ++ rid :: (mid ++ lid :: post) ∧
      (pre ++ lid :: (mid ++ rid :: post)).Nodup := by
  obtain ⟨pre, post, hrow, hnd, hLp, hLn, hRp, hRn, hRf, -⟩ := hw.pair hL hR hLf hbt
  have hRf' : R.frag_index ≠ -1 := by rw [hRf]; exact hLf
  -- distinctness from the row
  have nd1 := List.nodup_append.1 hnd
  have nd2 := List.nodup_cons.1 nd1.2.1
  have nd3 := List.nodup_append.1 nd2.2
  have nd4 := List.nodup_cons.1 nd3.2.1
  have l_pre : lid ∉ pre := fun hm => nd1.2.2 hm (List.mem_cons_self _ _)
  have r_pre : rid ∉ pre := fun hm => nd1.2.2 hm (by simp)
  have l_mid : lid ∉ mid := fun hm => nd2.1 (by simp [hm])
  have l_post : lid ∉ post := fun hm => nd2.1 (by simp [hm])
  have r_mid : rid ∉ mid := fun hm => nd3.2.2 hm (List.mem_cons_self _ _)
  have r_post : rid ∉ post := nd4.1
  have hlr : lid ≠ rid := fun e => nd2.1 (by rw [e]; simp)
  have hl0 : lid ≠ -1 := by have := (GetBead_some_range hL).1; omega
  have hr0 : rid ≠ -1 := by have := (GetBead_some_range hR).1; omega
  have d1 : L.prev ≠ rid := by
    rw [hLp]
    rcases getLastD_mem_or (l := pre) (d := -1) with e | e
    · rw [e]; exact Ne.symm hr0
    · exact fun e' => r_pre (e' ▸ e)
  have d3 : L.prev ≠ lid := by
    rw [hLp]
    rcases getLastD_mem_or (l := pre) (d := -1) with e | e
    · rw [e]; exact Ne.symm hl0
    · exact fun e' => l_pre (e' ▸ e)
  have d2 : R.next ≠ lid := by
    rw [hRn]
    rcases headD_mem_or (l := post) (d := -1) with e | e
    · rw [e]; exact Ne.symm hl0
    · exact fun e' => l_post (e' ▸ e)
  have d4 : R.next ≠ rid := by
    rw [hRn]
    rcases headD_mem_or (l := post) (d := -1) with e | e
    · rw [e]; exact Ne.symm hr0
    · exact fun e' => r_post (e' ▸ e)
  have d5 : L.next ≠ lid := by
    rw [hLn]
    rcases headD_mem_or (l := mid ++ rid :: post) (d := -1) with e | e
    · rw [e]; exact Ne.symm hl0
    · intro e'
      rw [e'] at e
      rcases List.mem_append.1 e with e | e
      · exact l_mid e
      · rcases List.mem_cons.1 e with e | e
        · exact hlr e
        · exact l_post e
  have d6 : R.prev ≠ rid := by
    rw [hRp]
    rcases getLastD_mem_or (l := mid) (d := lid) with e | e
    · rw [e]; exact hlr
    · exact fun e' => r_mid (e' ▸ e)
  obtain ⟨hk, hren⟩ := LateralExchangeBead_rename h hL hR hlr d1 d2 d3 d4 d5 d6
    (fun e => (hw.prev_fwd hL hLf e).1) (fun e => (hw.next_back hL hLf e).1)
    (fun e => (hw.prev_fwd hR hRf' e).1) (fun e => (hw.next_back hR hRf' e).1)
    (fun j e => hw.next_unique hL hLf e) (fun j e => hw.prev_unique hL hLf e)
    (fun j e => hw.next_unique hR hRf' e) (fun j e => hw.prev_unique hR hRf' e)
  have hs1 : swapId lid rid (-1) = -1 := swapId_other (Ne.symm hl0) (Ne.symm hr0)
  -- membership in the rows
  have hboth : ∀ fid, lid ∈ row fid ↔ rid ∈ row fid := by
    intro fid
    by_cases hf : fid = L.frag_index
    · rw [hf, hrow]; simp
    · constructor
      · intro hm
        have := (hw.mem fid lid hm).1
        rw [fragOf_get hL] at this
        exact absurd (Option.some.inj this).symm hf
      · intro hm
        have := (hw.mem fid rid hm).1
        rw [fragOf_get hR, hRf] at this
        exact absurd (Option.some.inj this).symm hf
  have hfrag : ∀ j, fragOf st' j = fragOf st j := hk.2.2.1
  have hfs : ∀ fid, GetFragment st' fid = GetFragment st fid := by
    intro fid; unfold GetFragment; rw [hk.2.1]
  refine ⟨⟨fun fid f hf => ?_, fun fid b hb => ?_, fun j b hb hbf => ?_, fun j b hb hbf => ?_⟩,
    hk, hren, pre, post, hrow, ?_, hnd⟩
  · rw [hfs] at hf
    obtain ⟨hseg, hn, hbeads⟩ := hw.frag fid f hf
    refine ⟨?_, hn.map (swapId_inj lid rid), (mem_map_swapId (hboth fid)).2 hbeads⟩
    have := Seg_rename lid rid (row fid) (-1) (-1) hseg (fun x _ => hren x)
    rw [hs1] at this
    exact this
  · rw [hfrag]
    exact hw.mem fid b ((mem_map_swapId (hboth fid)).1 hb)
  · have hfo : fragOf st j = some b.frag_index := by rw [← hfrag, fragOf_get hb]
    obtain ⟨b0, hb0, hb0f⟩ := fragOf_some hfo
    rw [← hb0f] at hbf ⊢
    obtain ⟨g1, g2⟩ := hw.bead j b0 hb0 hbf
    rw [hfs]
    exact ⟨g1, (mem_map_swapId (hboth _)).2 g2⟩
  · have hfo : fragOf st j = some b.frag_index := by rw [← hfrag, fragOf_get hb]
    obtain ⟨b0, hb0, hb0f⟩ := fragOf_some hfo
    rw [hbf] at hb0f
    have hjl : j ≠ lid := fun e => hLf (by rw [e, hL] at hb0; cases hb0; exact hb0f)
    have hjr : j ≠ rid := fun e => hRf' (by rw [e, hR] at hb0; cases hb0; exact hb0f)
    obtain ⟨c1, c2⟩ := hw.call j b0 hb0 hb0f
    obtain ⟨r1, r2⟩ := hren j
    rw [swapId_other hjl hjr, prevOf_get hb, prevOf_get hb0] at r1
    rw [swapId_other hjl hjr, nextOf_get hb, nextOf_get hb0] at r2
    have notfrag : ∀ x, fragOf st x = some (-1) → x ≠ lid ∧ x ≠ rid := by
      intro x hx
      constructor
      · intro e; rw [e, fragOf_get hL] at hx; exact hLf (Option.some.inj hx)
      · intro e; rw [e, fragOf_get hR] at hx; exact hRf' (Option.some.inj hx)
    constructor
    · rcases c1 with c | c
      · left
        rw [c] at r2
        simpa [hs1] using r2
      · right
        obtain ⟨n1, n2⟩ := notfrag _ c
        rw [Option.map_some', swapId_other n1 n2] at r2
        rw [Option.some.inj r2, hfrag]
        exact c
    · rcases c2 with c | c
      · left
        rw [c] at r1
        simpa [hs1] using r1
      · right
        obtain ⟨n1, n2⟩ := notfrag _ c
        rw [Option.map_some', swapId_other n1 n2] at r1
        rw [Option.some.inj r1, hfrag]
        exact c
  · rw [hrow]
    simp only [List.map_append, List.map_cons, swapId_left, swapId_right,
      map_swapId_fix l_pre r_pre, map_swapId_fix l_mid r_mid, map_swapId_fix l_post r_post]

theorem HSame.refl_h (st : Store) : HSame st st := ⟨rfl, fun _ => rfl, fun _ => rfl, fun _ => rfl⟩

theorem HSame.trans_h {a b c : Store} (h1 : HSame a b) (h2 : HSame b c) : HSame a c :=
  ⟨h2.1.trans h1.1, fun j => (h2.2.1 j).trans (h1.2.1 j), fun j => (h2.2.2.1 j).trans (h1.2.2.1 j),
    fun j => (h2.2.2.2 j).trans (h1.2.2.2 j)⟩

theorem HSame.of_beads_h {st st' : Store} (hb : st'.beadStore = st.beadStore)
    (hf : st'.fragmentStore = st.fragmentStore) : HSame st st' := by
  refine ⟨hf, fun j => ?_, fun j => ?_, fun j => ?_⟩
  · unfold prevOf GetBead; rw [hb]
  · unfold nextOf GetBead; rw [hb]
  · unfold fragOf GetBead; rw [hb]

theorem modBead_hsame {st st' : Store} {i : Int} {f : Bead → Bead}
    (h : modBead st i f = some st') (h1 : ∀ y, (f y).prev = y.prev)
    (h2 : ∀ y, (f y).next = y.next) (h3 : ∀ y, (f y).frag_index = y.frag_index) :
    HSame st st' :=
  ⟨(modBead_get h).2.2.2.2.2.1, modBead_field_same Bead.prev h h1,
    modBead_field_same Bead.next h h2, modBead_field_same Bead.frag_index h h3⟩

theorem patchBead_hsame {st st' : Store} {i : Int} {f : Bead → Bead}
    (h : patchBead st i f = some st') (h1 : ∀ y, (f y).prev = y.prev)
    (h2 : ∀ y, (f y).next = y.next) (h3 : ∀ y, (f y).frag_index = y.frag_index) :
    HSame st st' := by
  unfold patchBead at h
  split_ifs at h
  · exact modBead_hsame h h1 h2 h3
  · simp at h
    exact h ▸ HSame.refl_h st

theorem GetFragment_congr {st st' : Store} (h : st'.fragmentStore = st.fragmentStore) (fid : Int) :
    GetFragment st' fid = GetFragment st fid := by
  unfold GetFragment; rw [h]

/-- The rows stay well formed when the fragment beads keep their fragment and
links, no bead becomes a fragment bead, and the links of the call beads lead
to call beads. -/
theorem HWF.ext_h {st st' : Store} {row : Int → List Int} (hw : HWF st row)
    (hfs : st'.fragmentStore = st.fragmentStore)
    (hold : ∀ j b, GetBead st j = some b → b.frag_index ≠ -1 →
      prevOf st' j = some b.prev ∧ nextOf st' j = some b.next ∧
        fragOf st' j = some b.frag_index)
    (hnew : ∀ j b, GetBead st' j = some b → b.frag_index ≠ -1 →
      fragOf st j = some b.frag_index)
    (hcall : ∀ j b, GetBead st' j = some b → b.frag_index = -1 →
      (b.next = -1 ∨ fragOf st' b.next = some (-1)) ∧
        (b.prev = -1 ∨ fragOf st' b.prev = some (-1))) : HWF st' row := by
  have hkeep : ∀ fid x, x ∈ row fid →
      prevOf st' x = prevOf st x ∧ nextOf st' x = nextOf st x ∧ fragOf st' x = some fid := by
    intro fid x hx
    obtain ⟨m1, m2⟩ := hw.mem fid x hx
    obtain ⟨b, hb, hbf⟩ := fragOf_some m1
    obtain ⟨o1, o2, o3⟩ := hold x b hb (by rw [hbf]; exact m2)
    rw [prevOf_get hb, nextOf_get hb, o1, o2, o3, hbf]
    exact ⟨rfl, rfl, rfl⟩
  refine ⟨fun fid f hf => ?_, fun fid b hb => ?_, fun j b hb hbf => ?_, hcall⟩
  · rw [GetFragment_congr hfs] at hf
    obtain ⟨hseg, hn, hbeads⟩ := hw.frag fid f hf
    exact ⟨Seg_frame _ _ _ hseg (fun x hx => (hkeep fid x hx).1) (fun x hx => (hkeep fid x hx).2.1),
      hn, hbeads⟩
  · exact ⟨(hkeep fid b hb).2.2, (hw.mem fid b hb).2⟩
  · obtain ⟨b0, hb0, hb0f⟩ := fragOf_some (hnew j b hb hbf)
    rw [← hb0f] at hbf ⊢
    rw [GetFragment_congr hfs]
    exact hw.bead j b0 hb0 hbf

theorem HWF.same_h {st st' : Store} {row : Int → List Int} (hw : HWF st row) (h : HSame st st') :
    HWF st' row := by
  obtain ⟨hfs, hp, hn, hf⟩ := h
  refine hw.ext_h hfs (fun j b hb _ => ?_) (fun j b hb _ => ?_) (fun j b hb hbf => ?_)
  · rw [hp, hn, hf, prevOf_get hb, nextOf_get hb, fragOf_get hb]
    exact ⟨rfl, rfl, rfl⟩
  · rw [← hf, fragOf_get hb]
  · have hfo : fragOf st j = some b.frag_index := by rw [← hf, fragOf_get hb]
    obtain ⟨b0, hb0, hb0f⟩ := fragOf_some hfo
    rw [hbf] at hb0f
    obtain ⟨c1, c2⟩ := hw.call j b0 hb0 hb0f
    have e1 : b.next = b0.next := by
      have := hn j
      rw [nextOf_get hb, nextOf_get hb0] at this
      exact Option.some.inj this
    have e2 : b.prev = b0.prev := by
      have := hp j
      rw [prevOf_get hb, prevOf_get hb0] at this
      exact Option.some.inj this
    rw [e1, e2, hf, hf]
    exact ⟨c1, c2⟩

/-- The character and quality of every bead can be read. -/
theorem QWF.chars {st : Store} (hq : QWF st) {j : Int} {b : Bead} (hb : GetBead st j = some b) :
    (GetBase st b.soffset).isSome ∧ (getAt st.qualityStore b.soffset).isSome := by
  obtain ⟨h0, h1⟩ := hq.soff j b hb
  constructor
  · exact (getAt_isSome_iff _ _).2 ⟨h0, h1⟩
  · exact (getAt_isSome_iff _ _).2 ⟨h0, by rw [hq.len]; exact h1⟩

theorem QWF.beadChar {st : Store} (hq : QWF st) {j : Int} {b : Bead}
    (hb : GetBead st j = some b) : ∃ c, beadChar st j = some c := by
  unfold CNS.beadChar
  rw [hb]
  exact Option.isSome_iff_exists.1 (hq.chars hb).1

/-- The stores stay paired when the two character arrays grow together and
every bead of the new store is an old bead with its offset, or points at a
character. -/
theorem QWF.ext_q {st st' : Store} (hq : QWF st)
    (hlen : st'.qualityStore.length = st'.sequenceStore.length)
    (hmono : st.sequenceStore.length ≤ st'.sequenceStore.length)
    (hb : ∀ j b, GetBead st' j = some b →
      (GetBead st j).map Bead.soffset = some b.soffset ∨
        (0 ≤ b.soffset ∧ b.soffset < st'.sequenceStore.length)) : QWF st' := by
  refine ⟨hlen, fun j b hj => ?_⟩
  rcases hb j b hj with h | h
  · cases h0 : GetBead st j with
    | none => rw [h0] at h; cases h
    | some b0 =>
      rw [h0] at h
      have e : b0.soffset = b.soffset := Option.some.inj h
      obtain ⟨q1, q2⟩ := hq.soff j b0 h0
      rw [← e]
      exact ⟨q1, by omega⟩
  · exact h

theorem QWF.same_q {st st' : Store} (hq : QWF st)
    (hs : st'.sequenceStore = st.sequenceStore) (hql : st'.qualityStore = st.qualityStore)
    (hb : ∀ j, (GetBead st' j).map Bead.soffset = (GetBead st j).map Bead.soffset) : QWF st' := by
  refine hq.ext_q (by rw [hs, hql]; exact hq.len) (by rw [hs]) (fun j b hj => Or.inl ?_)
  rw [← hb j, hj]
  rfl

theorem LinksAt_get {st : Store} {c : Int} {col : Column} (h : GetColumn st c = some col) :
    LinksAt st c = some col.links := by
  simp [LinksAt, h]

theorem LinksAt_fields {st : Store} {c : Int} {k : Column} (h : LinksAt st c = some k) :
    ∃ col, GetColumn st c = some col ∧ col.next = k.next ∧ col.prev = k.prev ∧
      col.ma_id = k.ma_id ∧ col.lid = k.lid := by
  unfold LinksAt at h
  cases hc : GetColumn st c with
  | none => rw [hc] at h; cases h
  | some col =>
    rw [hc] at h
    have := Option.some.inj h
    subst this
    exact ⟨col, rfl, rfl, rfl, rfl, rfl⟩

theorem MWF.same_m {st st' : Store} (hm : MWF st) (h : SameCols st st') : MWF st' := by
  obtain ⟨hl, hma⟩ := h
  have hget : ∀ c, (GetColumn st' c).isSome = (GetColumn st c).isSome := by
    intro c
    have := hl c
    unfold LinksAt at this
    cases h1 : GetColumn st' c <;> cases h2 : GetColumn st c <;> simp [h1, h2] at this ⊢
  refine ⟨fun c col hc => ?_⟩
  have hk := hl c
  rw [LinksAt_get hc] at hk
  obtain ⟨col0, hc0, e1, e2, e3, -⟩ := LinksAt_fields hk.symm
  obtain ⟨m1, m2, m3, m4, m5⟩ := hm.col c col0 hc0
  have f1 : col.next = col0.next := e1.symm
  have f2 : col.prev = col0.prev := e2.symm
  have f3 : col.ma_id = col0.ma_id := e3.symm
  rw [f1, f2, f3, hget, hget]
  refine ⟨m1, m2, m3, m4, ?_⟩
  unfold GetMANode at m5 ⊢
  rw [hma]
  exact m5

theorem Quiet.refl_q (st : Store) : Quiet st st := ⟨HSame.refl_h st, rfl, rfl, fun _ => rfl⟩

theorem Quiet.trans_q {a b c : Store} (h1 : Quiet a b) (h2 : Quiet b c) : Quiet a c :=
  ⟨h1.1.trans_h h2.1, h2.2.1.trans h1.2.1, h2.2.2.1.trans h1.2.2.1,
    fun j => (h2.2.2.2 j).trans (h1.2.2.2 j)⟩

theorem Quiet.of_beads_q {st st' : Store} (hb : st'.beadStore = st.beadStore)
    (hf : st'.fragmentStore = st.fragmentStore) (hs : st'.sequenceStore = st.sequenceStore)
    (hq : st'.qualityStore = st.qualityStore) : Quiet st st' :=
  ⟨HSame.of_beads_h hb hf, hs, hq, fun j => by unfold GetBead; rw [hb]⟩

theorem Quiet.of_eq_q {st st' : Store} (h : some st = some st') : Quiet st st' := by
  cases h
  exact Quiet.refl_q _

theorem modBead_quiet {st st' : Store} {i : Int} {f : Bead → Bead}
    (h : modBead st i f = some st') (h1 : ∀ y, (f y).prev = y.prev)
    (h2 : ∀ y, (f y).next = y.next) (h3 : ∀ y, (f y).frag_index = y.frag_index)
    (h4 : ∀ y, (f y).soffset = y.soffset) : Quiet st st' :=
  ⟨modBead_hsame h h1 h2 h3, (modBead_get h).2.1, (modBead_get h).2.2.1,
    modBead_field_same Bead.soffset h h4⟩

theorem patchBead_quiet {st st' : Store} {i : Int} {f : Bead → Bead}
    (h : patchBead st i f = some st') (h1 : ∀ y, (f y).prev = y.prev)
    (h2 : ∀ y, (f y).next = y.next) (h3 : ∀ y, (f y).frag_index = y.frag_index)
    (h4 : ∀ y, (f y).soffset = y.soffset) : Quiet st st' := by
  unfold patchBead at h
  split_ifs at h
  · exact modBead_quiet h h1 h2 h3 h4
  · exact Quiet.of_eq_q h

theorem incColumn_quiet {st st' : Store} {cid : Int} {c : Char}
    (h : incColumn st cid c = some st') : Quiet st st' := by
  obtain ⟨col, bc, _, _, rfl⟩ := incColumn_spec h
  exact Quiet.of_beads_q rfl rfl rfl rfl

theorem decColumn_quiet {st st' : Store} {cid : Int} {c : Char}
    (h : decColumn st cid c = some st') : Quiet st st' := by
  unfold decColumn at h
  cases hc : GetColumn st cid with
  | none => simp [hc] at h
  | some col =>
    cases hb : DecBaseCount col.base_count c with
    | none => simp [hc, hb] at h
    | some bc =>
      simp [hc, hb] at h
      subst h
      exact Quiet.of_beads_q rfl rfl rfl rfl

theorem modColumn_quiet {st st' : Store} {i : Int} {f : Column → Column}
    (h : modColumn st i f = some st') : Quiet st st' := by
  obtain ⟨c, _, rfl⟩ := modColumn_spec h
  exact Quiet.of_beads_q rfl rfl rfl rfl

theorem patchColumn_quiet {st st' : Store} {i : Int} {f : Column → Column}
    (h : patchColumn st i f = some st') : Quiet st st' := by
  unfold patchColumn at h
  split_ifs at h
  · exact modColumn_quiet h
  · exact Quiet.of_eq_q h

theorem modMANode_quiet {st st' : Store} {i : Int} {f : MANode → MANode}
    (h : modMANode st i f = some st') : Quiet st st' := by
  obtain ⟨m, _, rfl⟩ := modMANode_spec h
  exact Quiet.of_beads_q rfl rfl rfl rfl

theorem modMANodeIf_quiet {c : Bool} {st st' : Store} {i : Int} {f : MANode → MANode}
    (h : modMANodeIf c st i f = some st') : Quiet st st' := by
  unfold modMANodeIf at h
  split_ifs at h
  · exact modMANode_quiet h
  · exact Quiet.of_eq_q h

theorem AddColumnToMANode_quiet {st st' : Store} {ma : Int} {column : Column}
    (h : AddColumnToMANode st ma column = some st') : Quiet st st' := by
  unfold AddColumnToMANode at h
  simp only [Option.bind_eq_bind, Option.bind_eq_some] at h
  obtain ⟨s1, h1, s2, h2, h3⟩ := h
  exact ((modMANode_quiet h1).trans_q (modMANodeIf_quiet h2)).trans_q (modMANodeIf_quiet h3)

theorem columnRegister_quiet {st st' : Store} {cid lid d : Int}
    (h : columnRegister st cid lid d = some st') : Quiet st st' := by
  unfold columnRegister at h
  simp only [Option.bind_eq_bind, Option.bind_eq_some] at h
  obtain ⟨_, _, s1, h1, _, _, s2, h2, _, _, h3⟩ := h
  exact ((modColumn_quiet h1).trans_q (modColumn_quiet h2)).trans_q (AddColumnToMANode_quiet h3)

theorem AlignBead_quiet {st st' : Store} {cid bid r : Int}
    (h : AlignBead st cid bid = some (st', r)) : Quiet st st' := by
  unfold AlignBead at h
  simp only [Option.bind_eq_bind, Option.bind_eq_some, Option.pure_def, Option.some.injEq,
    Prod.mk.injEq] at h
  obtain ⟨_, _, _, _, _, _, _, _, s1, h1, s2, h2, s3, h3, s4, h4, s5, h5, _, _, _, _, s6, h6,
    rfl, _⟩ := h
  exact (((((modBead_quiet h1 (fun _ => rfl) (fun _ => rfl) (fun _ => rfl) (fun _ => rfl)).trans_q
    (modBead_quiet h2 (fun _ => rfl) (fun _ => rfl) (fun _ => rfl) (fun _ => rfl))).trans_q
    (modBead_quiet h3 (fun _ => rfl) (fun _ => rfl) (fun _ => rfl) (fun _ => rfl))).trans_q
    (modBead_quiet h4 (fun _ => rfl) (fun _ => rfl) (fun _ => rfl) (fun _ => rfl))).trans_q
    (modBead_quiet h5 (fun _ => rfl) (fun _ => rfl) (fun _ => rfl) (fun _ => rfl))).trans_q
    (incColumn_quiet h6)

theorem UnAlignBead_quiet {st st' : Store} {bid r : Int}
    (h : UnAlignBead st bid = some (st', r)) : Quiet st st' := by
  obtain ⟨bead, _, h⟩ := UnAlignBead_steps h
  rcases h with ⟨_, rfl, _⟩ | ⟨_, col, upbead, bchar, s1, bead1, s2, s3, s4, s5, _, _, _, h1, _, h2,
    h3, h4, h5, h6, _⟩
  · exact Quiet.refl_q _
  · exact (((((modBead_quiet h1 (fun _ => rfl) (fun _ => rfl) (fun _ => rfl) (fun _ => rfl)).trans_q
      (patchBead_quiet h2 (fun _ => rfl) (fun _ => rfl) (fun _ => rfl) (fun _ => rfl))).trans_q
      (decColumn_quiet h3)).trans_q
      (modBead_quiet h4 (fun _ => rfl) (fun _ => rfl) (fun _ => rfl) (fun _ => rfl))).trans_q
      (modBead_quiet h5 (fun _ => rfl) (fun _ => rfl) (fun _ => rfl) (fun _ => rfl))).trans_q
      (modBead_quiet h6 (fun _ => rfl) (fun _ => rfl) (fun _ => rfl) (fun _ => rfl))

theorem HWF.quiet_h {st st' : Store} {row : Int → List Int} (hw : HWF st row) (h : Quiet st st') :
    HWF st' row := hw.same_h h.1

theorem QWF.quiet_q {st st' : Store} (hq : QWF st) (h : Quiet st st') : QWF st' :=
  hq.same_q h.2.1 h.2.2.1 h.2.2.2

/-- The columns of a store to which `LateralExchangeBead` was applied keep
their links. -/
theorem LateralExchangeBead_sameCols {st st' : Store} {lid rid r : Int}
    (h : LateralExchangeBead st lid rid = some (st', r)) : SameCols st st' := by
  obtain ⟨L, R, s1, s2, s3, -, -, -, h1, h2, h3, ⟨lc, rc, h4⟩, -⟩ := LateralExchangeBead_stages h
  have c1 : SameCols st s1 := by
    unfold exchangeRight at h1
    simp only [Option.bind_eq_bind, Option.bind_eq_some] at h1
    obtain ⟨t1, m1, _, _, t2, m2, _, _, t3, m3, _, _, m4⟩ := h1
    exact (((modBead_sameCols m1).then_ (patchBead_sameCols m2)).then_
      (patchBead_sameCols m3)).then_ (patchBead_sameCols m4)
  have c2 : SameCols s1 s2 := by
    unfold exchangeLeft at h2
    simp only [Option.bind_eq_bind, Option.bind_eq_some] at h2
    obtain ⟨t1, m1, _, _, t2, m2, _, _, t3, m3, _, _, m4⟩ := h2
    exact (((modBead_sameCols m1).then_ (patchBead_sameCols m2)).then_
      (patchBead_sameCols m3)).then_ (patchBead_sameCols m4)
  have c3 : SameCols s2 s3 := by
    unfold exchangeClose at h3
    split_ifs at h3
    · simp only [Option.bind_eq_bind, Option.bind_eq_some] at h3
      obtain ⟨t1, m1, m2⟩ := h3
      exact (modBead_sameCols m1).then_ (modBead_sameCols m2)
    · simp only [Option.bind_eq_bind, Option.bind_eq_some] at h3
      obtain ⟨_, _, t1, m1, _, _, m2⟩ := h3
      exact (patchBead_sameCols m1).then_ (patchBead_sameCols m2)
  have c4 : SameCols s3 st' := by
    unfold exchangeColumns at h4
    simp only [Option.bind_eq_bind, Option.bind_eq_some] at h4
    obtain ⟨_, _, t1, m1, t2, m2, t3, m3, t4, m4, t5, m5, m6⟩ := h4
    exact (((((modBead_sameCols m1).then_ (modBead_sameCols m2)).then_
      (decColumn_sameCols m3)).then_ (incColumn_sameCols m4)).then_
      (decColumn_sameCols m5)).then_ (incColumn_sameCols m6)
  exact ((c1.then_ c2).then_ c3).then_ c4

/-- `LateralExchangeBead` leaves the quality characters. -/
theorem LateralExchangeBead_quality {st st' : Store} {lid rid r : Int}
    (h : LateralExchangeBead st lid rid = some (st', r)) :
    st'.qualityStore = st.qualityStore := by
  obtain ⟨L, R, s1, s2, s3, -, -, -, h1, h2, h3, ⟨lc, rc, h4⟩, -⟩ := LateralExchangeBead_stages h
  have q : ∀ {a b : Store} {i : Int} {f : Bead → Bead}, modBead a i f = some b →
      b.qualityStore = a.qualityStore := fun m => (modBead_get m).2.2.1
  have qp : ∀ {a b : Store} {i : Int} {f : Bead → Bead}, patchBead a i f = some b →
      b.qualityStore = a.qualityStore := by
    intro a b i f m
    unfold patchBead at m
    split_ifs at m
    · exact q m
    · cases m; rfl
  have c1 : s1.qualityStore = st.qualityStore := by
    unfold exchangeRight at h1
    simp only [Option.bind_eq_bind, Option.bind_eq_some] at h1
    obtain ⟨t1, m1, _, _, t2, m2, _, _, t3, m3, _, _, m4⟩ := h1
    rw [qp m4, qp m3, qp m2, q m1]
  have c2 : s2.qualityStore = s1.qualityStore := by
    unfold exchangeLeft at h2
    simp only [Option.bind_eq_bind, Option.bind_eq_some] at h2
    obtain ⟨t1, m1, _, _, t2, m2, _, _, t3, m3, _, _, m4⟩ := h2
    rw [qp m4, qp m3, qp m2, q m1]
  have c3 : s3.qualityStore = s2.qualityStore := by
    unfold exchangeClose at h3
    split_ifs at h3
    · simp only [Option.bind_eq_bind, Option.bind_eq_some] at h3
      obtain ⟨t1, m1, m2⟩ := h3
      rw [q m2, q m1]
    · simp only [Option.bind_eq_bind, Option.bind_eq_some] at h3
      obtain ⟨_, _, t1, m1, _, _, m2⟩ := h3
      rw [qp m2, qp m1]
  have c4 : st'.qualityStore = s3.qualityStore := by
    unfold exchangeColumns at h4
    simp only [Option.bind_eq_bind, Option.bind_eq_some] at h4
    obtain ⟨_, _, t1, m1, t2, m2, t3, m3, t4, m4, t5, m5, m6⟩ := h4
    rw [(incColumn_quiet m6).2.2.1, (decColumn_quiet m5).2.2.1, (incColumn_quiet m4).2.2.1,
      (decColumn_quiet m3).2.2.1, q m2, q m1]
  rw [c4, c3, c2, c1]

theorem modColumn_run {st : Store} {i : Int} {y : Column} (f : Column → Column)
    (h : GetColumn st i = some y) :
    ∃ s, modColumn st i f = some s ∧
      (∀ j, GetColumn s j = if j = i then some (f y) else GetColumn st j) ∧
      s.beadStore = st.beadStore ∧ s.manodeStore = st.manodeStore ∧
      s.sequenceStore = st.sequenceStore ∧ s.fragmentStore = st.fragmentStore ∧
      s.qualityStore = st.qualityStore := by
  have e : modColumn st i f = some { st with columnStore := setAt st.columnStore i (f y) } := by
    simp [modColumn, h]
  obtain ⟨hg, h1, h2, h3, h4⟩ := modColumn_get e
  refine ⟨_, e, fun j => ?_, h1, h2, h3, h4, rfl⟩
  rw [hg j, h]
  rfl

/-- `CreateColumn` on an existing bead whose character can be tallied: it
returns the new column, appends the call bead and the column record, and
rewrites `up` and `column_index` of the seed. -/
theorem CreateColumn_run {st : Store} {bid : Int} {b : Bead} {c : Char} {bc : BaseCount}
    (hb : GetBead st bid = some b) (hc : GetBase st b.soffset = some c)
    (hinc : IncBaseCount ResetBaseCount c = some bc) :
    ∃ st', CreateColumn st bid = some (st', (st.columnStore.length : Int)) ∧
      (∀ j, GetBead st' j =
        if j = bid then
          some { b with up := st.beadStore.length, column_index := st.columnStore.length }
        else if j = st.beadStore.length then some (callBead st bid)
        else GetBead st j) ∧
      (∀ k, GetColumn st' k =
        if k = st.columnStore.length then some (freshColumn st bc) else GetColumn st k) ∧
      st'.sequenceStore = st.sequenceStore ++ ['n'] ∧
      st'.qualityStore = st.qualityStore ++ ['0'] ∧
      st'.fragmentStore = st.fragmentStore ∧ st'.manodeStore = st.manodeStore ∧
      st'.beadStore.length = st.beadStore.length + 1 ∧
      st'.columnStore.length = st.columnStore.length + 1 := by
  have hrange := GetBead_some_range hb
  have hKne : (st.beadStore.length : Int) ≠ bid := by omega
  have g0 : ∀ j, GetBead
      { st with beadStore := st.beadStore ++ [callBead st bid],
                sequenceStore := st.sequenceStore ++ ['n'],
                qualityStore := st.qualityStore ++ ['0'] } j =
      if j = st.beadStore.length then some (callBead st bid) else GetBead st j := by
    intro j
    exact getAt_append_singleton _ _ _
  have a0 := g0 bid
  rw [if_neg (Ne.symm hKne), hb] at a0
  obtain ⟨s1, e1, g1, r1⟩ := modBead_run (fun x => { x with up := (callBead st bid).boffset }) a0
  have a1 : GetBead s1 bid = some { b with up := (callBead st bid).boffset } := by
    rw [g1, if_pos rfl]
  obtain ⟨s2, e2, g2, r2⟩ := modBead_run (fun x => { x with column_index := st.columnStore.length }) a1
  have a2 : GetBead s2 bid =
      some { b with up := st.beadStore.length, column_index := st.columnStore.length } := by
    rw [g2, if_pos rfl]; rfl
  have hseq : s2.sequenceStore = st.sequenceStore ++ ['n'] := by rw [r2.1, r1.1]
  have hbase : GetBase s2 b.soffset = some c := by
    unfold GetBase at hc ⊢
    rw [hseq]
    exact getAt_append_some hc
  have hlen : s2.beadStore.length = st.beadStore.length + 1 := by
    obtain ⟨y1, _, rfl⟩ := GetBead_modBead e2
    obtain ⟨y0, _, rfl⟩ := GetBead_modBead e1
    simp [length_setAt]
  refine ⟨{ s2 with columnStore := s2.columnStore ++ [freshColumn st bc] }, ?_, ?_, ?_, hseq,
    by rw [show _ = s2.qualityStore from rfl, r2.2.1, r1.2.1], ?_, ?_, hlen, ?_⟩
  · unfold CreateColumn
    simp only [Option.bind_eq_bind, Option.pure_def]
    simp only [callBead] at e1
    rw [e1]
    simp only [Option.some_bind, e2, a2, hbase, hinc]
    rfl
  · intro j
    show GetBead s2 j = _
    rw [g2]
    by_cases hj : j = bid
    · rw [if_pos hj, if_pos hj]; rfl
    · rw [if_neg hj, if_neg hj, g1, if_neg hj, g0]
  · intro k
    show getAt (s2.columnStore ++ [freshColumn st bc]) k = _
    rw [getAt_append_singleton, r2.2.2.1, r1.2.2.1]
    rfl
  · show s2.fragmentStore = _
    rw [r2.2.2.2.2.1, r1.2.2.2.2.1]
  · show s2.manodeStore = _
    rw [r2.2.2.2.1, r1.2.2.2.1]
  · show (s2.columnStore ++ [freshColumn st bc]).length = _
    rw [List.length_append, r2.2.2.1, r1.2.2.1]
    rfl

/-- `AppendGapBead` on an existing bead whose quality, and the quality of
whose successor, can be read: it returns the offset of the new bead. -/
theorem AppendGapBead_run {st : Store} {b : Int} {x : Bead} {qv : Char}
    (hb : GetBead st b = some x) (hq : getAt st.qualityStore x.soffset = some qv)
    (hn : x.next = -1 ∨ ∃ nb nq, GetBead st x.next = some nb ∧
      getAt st.qualityStore nb.soffset = some nq) :
    ∃ s1, AppendGapBead st b = some (s1, (st.beadStore.length : Int)) := by
  obtain ⟨s, e, g, r⟩ := modBead_run (fun y => { y with next := (st.beadStore.length : Int) }) hb
  unfold AppendGapBead
  simp only [hb, Option.bind_eq_bind, Option.some_bind, e, hq, Option.pure_def]
  rcases hn with h | ⟨nb, nq, h1, h2⟩
  · simp [h]
  · by_cases h0 : x.next = -1
    · simp [h0]
    · have hne : x.next ≠ b ∨ x.next = b := by omega
      have hs : (GetBead s x.next).isSome := by
        rw [g]
        split
        · rfl
        · rw [h1]; rfl
      obtain ⟨nb', hnb'⟩ := Option.isSome_iff_exists.1 hs
      have hsoff : nb'.soffset = nb.soffset := by
        rw [g] at hnb'
        by_cases hxb : x.next = b
        · rw [if_pos hxb] at hnb'
          rw [hxb, hb] at h1
          cases h1
          cases hnb'
          rfl
        · rw [if_neg hxb, h1] at hnb'
          cases hnb'
          rfl
      obtain ⟨s', e', -, -⟩ := modBead_run (fun y => { y with prev := (st.beadStore.length : Int) }) hnb'
      simp [h0, hnb', hsoff, h2, e']

/-- A store to which a call bead was appended, the old beads keeping their
fragment and links, has the same rows. -/
theorem HWF.grow {st st' : Store} {row : Int → List Int} (hw : HWF st row)
    (hfs : st'.fragmentStore = st.fragmentStore)
    (hold : ∀ j b, GetBead st j = some b → prevOf st' j = some b.prev ∧
      nextOf st' j = some b.next ∧ fragOf st' j = some b.frag_index)
    (hnew : ∀ j b, GetBead st' j = some b → GetBead st j = none →
      b.frag_index = -1 ∧ b.next = -1 ∧ b.prev = -1) : HWF st' row := by
  have hfrag : ∀ j f, fragOf st j = some f → fragOf st' j = some f := by
    intro j f hj
    obtain ⟨b, hb, rfl⟩ := fragOf_some hj
    exact (hold j b hb).2.2
  refine hw.ext_h hfs (fun j b hb _ => hold j b hb) (fun j b hb hbf => ?_) (fun j b hb hbf => ?_)
  · cases h0 : GetBead st j with
    | none => exact absurd (hnew j b hb h0).1 hbf
    | some b0 =>
      have := (hold j b0 h0).2.2
      rw [fragOf_get hb] at this
      rw [fragOf_get h0, Option.some.inj this]
  · cases h0 : GetBead st j with
    | none =>
      obtain ⟨-, n1, n2⟩ := hnew j b hb h0
      exact ⟨Or.inl n1, Or.inl n2⟩
    | some b0 =>
      obtain ⟨o1, o2, o3⟩ := hold j b0 h0
      rw [prevOf_get hb] at o1
      rw [nextOf_get hb] at o2
      rw [fragOf_get hb] at o3
      have e1 : b.prev = b0.prev := Option.some.inj o1
      have e2 : b.next = b0.next := Option.some.inj o2
      have e3 : b0.frag_index = -1 := by rw [← Option.some.inj o3]; exact hbf
      obtain ⟨c1, c2⟩ := hw.call j b0 h0 e3
      rw [e1, e2]
      exact ⟨c1.imp id (hfrag _ _), c2.imp id (hfrag _ _)⟩

theorem Seg_nonneg {st : Store} {l : List Int} {p n : Int} (h : Seg st p l n) {x : Int}
    (hx : x ∈ l) : 0 ≤ x ∧ x < st.beadStore.length := by
  obtain ⟨⟨a, ha⟩, -⟩ := Seg_mem l p n h x hx
  exact prevOf_range ha

theorem Seg_chainFrom {st : Store} : ∀ (l : List Int) (p : Int) (fuel : Nat),
    Seg st p l (-1) → l.length < fuel → chainFrom st fuel (l.headD (-1)) = some l := by
  intro l
  induction l with
  | nil =>
    intro p fuel _ hf
    cases fuel with
    | zero => simp at hf
    | succ k => simp [chainFrom]
  | cons x l ih =>
    intro p fuel hs hf
    cases fuel with
    | zero => simp at hf
    | succ k =>
      have hx := Seg_nonneg hs (List.mem_cons_self x l)
      obtain ⟨-, h2, h3⟩ := hs
      obtain ⟨b, hb, hbn⟩ := nextOf_some h2
      have hne : x ≠ -1 := by omega
      simp only [List.headD_cons]
      unfold chainFrom
      rw [if_neg hne, hb]
      simp only
      rw [hbn, ih x k h3 (by simp at hf; omega)]

theorem Seg_chainHead {st : Store} : ∀ (pre : List Int) (x : Int) (post : List Int) (n : Int)
    (fuel : Nat), Seg st (-1) (pre ++ x :: post) n → pre.length < fuel →
    chainHead st fuel x = some ((pre ++ [x]).headD x) := by
  intro pre
  induction pre using List.reverseRecOn with
  | nil =>
    intro x post n fuel hs hf
    cases fuel with
    | zero => simp at hf
    | succ k =>
      obtain ⟨h1, -, -⟩ := hs
      obtain ⟨b, hb, hbp⟩ := prevOf_some h1
      unfold chainHead
      rw [hb]
      simp [hbp]
  | append_singleton pre y ih =>
    intro x post n fuel hs hf
    cases fuel with
    | zero => simp at hf
    | succ k =>
      have hs' : Seg st (-1) (pre ++ y :: (x :: post)) n := by
        simpa [List.append_assoc] using hs
      have hy := Seg_nonneg hs' (List.mem_append_right _ (List.mem_cons_self y _))
      have h2 := ((Seg_append pre (y :: x :: post) (-1) n).1 hs').2
      obtain ⟨-, -, h3⟩ := h2
      obtain ⟨h4, -, -⟩ := h3
      obtain ⟨b, hb, hbp⟩ := prevOf_some h4
      have hne : b.prev ≠ -1 := by rw [hbp]; omega
      unfold chainHead
      rw [hb]
      simp only [if_neg hne, hbp]
      rw [ih y (x :: post) n k hs' (by simp at hf; omega)]
      have e : ∀ (q : List Int), ((q ++ [y]) ++ [x]).headD x = (q ++ [y]).headD y := by
        intro q; cases q <;> rfl
      rw [e]
      have hy1 : y ≠ -1 := by omega
      rw [if_neg hy1]

theorem Seg_length {st : Store} {l : List Int} {p n : Int} (h : Seg st p l n) (hn : l.Nodup) :
    l.length ≤ st.beadStore.length :=
  nodup_length_le _ l hn fun _ hc => Seg_nonneg h hc

/-- In a well-formed store the chain read for a fragment is its row. -/
theorem HWF.chain {st : Store} {row : Int → List Int} (hw : HWF st row) {fid : Int}
    {f : Fragment} (hf : GetFragment st fid = some f) : fragmentChain st fid = some (row fid) := by
  obtain ⟨hs, hn, hm⟩ := hw.frag fid f hf
  obtain ⟨pre, post, e⟩ := List.append_of_mem hm
  have hlen := Seg_length hs hn
  have h1 : chainHead st (st.beadStore.length + 1) f.beads = some ((row fid).headD (-1)) := by
    rw [e] at hs hlen
    rw [Seg_chainHead pre f.beads post (-1) _ hs (by simp at hlen; omega), e]
    cases pre <;> simp
  unfold fragmentChain
  rw [hf]
  simp only [h1]
  exact Seg_chainFrom _ _ _ hs (by omega)

/-- The characters of beads that can all be read. -/
theorem beadChars_charsOf {st : Store} : ∀ (l : List Int), (∀ x, x ∈ l → (beadChar st x).isSome) →
    beadChars st l = some (charsOf st l) := by
  intro l
  induction l with
  | nil => intro _; rfl
  | cons x l ih =>
    intro h
    obtain ⟨c, hc⟩ := Option.isSome_iff_exists.1 (h x (List.mem_cons_self x l))
    have ih' := ih fun y hy => h y (List.mem_cons_of_mem x hy)
    have e : ∀ q, beadChars st q = q.mapM (beadChar st) := fun _ => rfl
    rw [e] at ih' ⊢
    unfold charsOf at ih' ⊢
    simp only [List.mapM_cons, hc, Option.bind_eq_bind, Option.some_bind, ih',
      Option.pure_def, List.filterMap_cons]

/-- In a well-formed store the non-gap characters of a fragment are read off
its row. -/
theorem HWF.read {st : Store} {row : Int → List Int} (hw : HWF st row) (hq : QWF st) {fid : Int}
    {f : Fragment} (hf : GetFragment st fid = some f) :
    nonGapRead st fid = some ((charsOf st (row fid)).filter fun c => c != '-') := by
  unfold nonGapRead
  rw [hw.chain hf]
  simp only
  rw [beadChars_charsOf]
  · rfl
  · intro x hx
    obtain ⟨b, hb, -⟩ := fragOf_some (hw.mem fid x hx).1
    obtain ⟨c, hc⟩ := hq.beadChar hb
    rw [hc]; rfl

theorem nonGapRead_none {st : Store} {fid : Int} (hf : GetFragment st fid = none) :
    nonGapRead st fid = none := by
  unfold nonGapRead fragmentChain
  rw [hf]

theorem BWF.same_b {st st' : Store} (hb : BWF st) (h : BSame st st') : BWF st' := by
  intro j b hj
  have := h j
  rw [hj] at this
  cases h0 : GetBead st j with
  | none => rw [h0] at this; simp at this
  | some b0 =>
    rw [h0] at this
    simp at this
    rw [this]
    exact hb j b0 h0

theorem insertAfter_of_not_mem {c x : Int} : ∀ {l : List Int}, c ∉ l → insertAfter c x l = l := by
  intro l
  induction l with
  | nil => intro _; rfl
  | cons y l ih =>
    intro h
    have h1 : y ≠ c := fun e => h (by rw [e]; exact List.mem_cons_self _ _)
    have h2 : c ∉ l := fun e => h (List.mem_cons_of_mem _ e)
    simp only [insertAfter, if_neg h1, ih h2]

theorem insertAfter_split {c x : Int} : ∀ {pre : List Int} (post : List Int), c ∉ pre →
    insertAfter c x (pre ++ c :: post) = pre ++ c :: x :: post := by
  intro pre
  induction pre with
  | nil => intro post _; simp [insertAfter]
  | cons y l ih =>
    intro post h
    have h1 : y ≠ c := fun e => h (by rw [e]; exact List.mem_cons_self _ _)
    have h2 : c ∉ l := fun e => h (List.mem_cons_of_mem _ e)
    show insertAfter c x (y :: (l ++ c :: post)) = y :: (l ++ c :: x :: post)
    simp only [insertAfter, if_neg h1, ih post h2]

/-- The links, fragment, character offset and own offset of every bead after
`AppendGapBead`. -/
theorem AppendGapBead_rows {st s1 : Store} {b g : Int} (h : AppendGapBead st b = some (s1, g)) :
    ∃ x qv, GetBead st b = some x ∧ g = st.beadStore.length ∧ GetBead st g = none ∧
      s1.sequenceStore = st.sequenceStore ++ ['-'] ∧
      s1.qualityStore = st.qualityStore ++ [qv] ∧
      s1.fragmentStore = st.fragmentStore ∧
      (∀ j, fragOf s1 j = if j = g then some x.frag_index else fragOf st j) ∧
      (∀ j, nextOf s1 j = if j = g then some x.next
        else if j = b then some g else nextOf st j) ∧
      (∀ j, prevOf s1 j = if j = g then some x.boffset
        else if x.next ≠ -1 ∧ j = x.next then (prevOf st j).map (fun _ => g) else prevOf st j) ∧
      (∀ j, (GetBead s1 j).map Bead.soffset =
        if j = g then some (st.sequenceStore.length : Int)
        else (GetBead st j).map Bead.soffset) ∧
      (∀ j, (GetBead s1 j).map Bead.boffset =
        if j = g then some g else (GetBead st j).map Bead.boffset) := by
  obtain ⟨x, qv, hx, hg, -, hs, hq, -, -, hf, -, -, -, -, -⟩ := AppendGapBead_spec h
  obtain ⟨x', hx', -, hget⟩ := AppendGapBead_get h
  rw [hx] at hx'
  cases hx'
  have hgn : GetBead st g = none := by
    unfold GetBead
    rw [getAt_eq_none_iff, hg]
    omega
  have hbg : b ≠ g := fun e => by rw [e, hgn] at hx; cases hx
  refine ⟨x, qv, hx, hg, hgn, hs, hq, hf, fun j => ?_, fun j => ?_, fun j => ?_, fun j => ?_,
    fun j => ?_⟩
  · unfold fragOf
    rw [hget j]
    by_cases hj : j = g
    · simp [hj]
    · rw [if_neg hj, if_neg hj]
      cases GetBead st j with
      | none => rfl
      | some y =>
        simp only [Option.map_some', appendGapFix]
        split_ifs <;> rfl
  · unfold nextOf
    rw [hget j]
    by_cases hj : j = g
    · simp [hj]
    · rw [if_neg hj, if_neg hj]
      by_cases hjb : j = b
      · rw [if_pos hjb, hjb, hx]
        simp only [Option.map_some', appendGapFix]
        split_ifs <;> simp
      · rw [if_neg hjb]
        cases GetBead st j with
        | none => rfl
        | some y =>
          simp only [Option.map_some', appendGapFix, if_neg hjb]
          split_ifs <;> rfl
  · unfold prevOf
    rw [hget j]
    by_cases hj : j = g
    · simp [hj]
    · rw [if_neg hj, if_neg hj]
      cases GetBead st j with
      | none => simp
      | some y =>
        simp only [Option.map_some', appendGapFix]
        split_ifs <;> simp
  · rw [hget j]
    by_cases hj : j = g
    · simp [hj]
    · rw [if_neg hj, if_neg hj]
      cases GetBead st j with
      | none => rfl
      | some y =>
        simp only [Option.map_some', appendGapFix]
        split_ifs <;> rfl
  · rw [hget j]
    by_cases hj : j = g
    · simp [hj]
    · rw [if_neg hj, if_neg hj]
      cases GetBead st j with
      | none => rfl
      | some y =>
        simp only [Option.map_some', appendGapFix]
        split_ifs <;> rfl

theorem headD_of_head? {l : List Int} {x d : Int} (h : l.head? = some x) : l.headD d = x := by
  cases l with
  | nil => simp at h
  | cons y l => simp at h; simp [h]

theorem getLastD_of_getLast? {l : List Int} {x d : Int} (h : l.getLast? = some x) :
    l.getLastD d = x := by
  rcases List.eq_nil_or_concat l with rfl | ⟨l', y, rfl⟩
  · simp at h
  · rw [List.concat_eq_append] at h ⊢
    rw [List.getLast?_concat] at h
    rw [List.getLastD_concat]
    exact Option.some.inj h

/-- A new bead `g` of fragment `F` linked into the row of `F` between the
beads `pre` and the beads `post`. -/
theorem HWF.inserted {st s1 : Store} {row : Int → List Int} {F g : Int} {pre post : List Int}
    (hw : HWF st row) (hF1 : F ≠ -1) (hFs : (GetFragment st F).isSome)
    (hrow : row F = pre ++ post) (hg : GetBead st g = none)
    (hfs : s1.fragmentStore = st.fragmentStore)
    (hF : ∀ j, fragOf s1 j = if j = g then some F else fragOf st j)
    (hN : ∀ j, nextOf s1 j = if j = g then some (post.headD (-1))
      else if pre.getLastD (-1) ≠ -1 ∧ j = pre.getLastD (-1) then some g else nextOf st j)
    (hP : ∀ j, prevOf s1 j = if j = g then some (pre.getLastD (-1))
      else if post.headD (-1) ≠ -1 ∧ j = post.headD (-1) then some g else prevOf st j) :
    HWF s1 (fun fid => if fid = F then pre ++ g :: post else row fid) := by
  obtain ⟨f, hf⟩ := Option.isSome_iff_exists.1 hFs
  obtain ⟨hs, hn, hm⟩ := hw.frag F f hf
  rw [hrow] at hs hn hm
  obtain ⟨hs1, hs2⟩ := (Seg_append pre post (-1) (-1)).1 hs
  have hmemF : ∀ x, x ∈ pre ++ post → fragOf st x = some F := fun x hx =>
    (hw.mem F x (by rw [hrow]; exact hx)).1
  have hex : ∀ x fid, fragOf st x = some fid → x ≠ g := by
    intro x fid hx e
    rw [e] at hx
    unfold fragOf at hx
    rw [hg] at hx
    cases hx
  have hgpre : g ∉ pre := fun h => hex g F (hmemF g (List.mem_append_left _ h)) rfl
  have hgpost : g ∉ post := fun h => hex g F (hmemF g (List.mem_append_right _ h)) rfl
  have npre : ∀ x, x ∈ pre → x ≠ g := fun x hx e => hgpre (by rw [← e]; exact hx)
  have npost : ∀ x, x ∈ post → x ≠ g := fun x hx e => hgpost (by rw [← e]; exact hx)
  have hnn : ∀ x, x ∈ pre ++ post → x ≠ -1 := fun x hx => by
    have := Seg_nonneg hs hx
    omega
  have hdis : ∀ x, x ∈ pre → x ∉ post := fun x h1 h2 =>
    (List.nodup_append.1 hn).2.2 h1 h2
  have ha : pre.getLastD (-1) = -1 ∨ pre.getLastD (-1) ∈ pre := getLastD_mem_or
  have hc : post.headD (-1) = -1 ∨ post.headD (-1) ∈ post := headD_mem_or
  -- a bead outside the row of `F` keeps its links
  have hout : ∀ x, x ≠ g → x ∉ pre ++ post → prevOf s1 x = prevOf st x ∧
      nextOf s1 x = nextOf st x := by
    intro x hxg hx
    rw [hP x, hN x, if_neg hxg, if_neg hxg]
    constructor
    · rw [if_neg]
      rintro ⟨h1, h2⟩
      rcases hc with h | h
      · exact h1 h
      · exact hx (by rw [h2]; exact List.mem_append_right _ h)
    · rw [if_neg]
      rintro ⟨h1, h2⟩
      rcases ha with h | h
      · exact h1 h
      · exact hx (by rw [h2]; exact List.mem_append_left _ h)
  have hsegpre : Seg s1 (-1) pre g := by
    refine Seg_reframe pre (-1) (post.headD (-1)) (-1) g hs1 (List.nodup_append.1 hn).1
      (fun x hx _ => ?_) (fun x hx hne => ?_) (fun x hx => ?_) (fun x hx => ?_)
    · rw [hP x, if_neg (npre x hx), if_neg]
      rintro ⟨h1, h2⟩
      rcases hc with h | h
      · exact h1 h
      · exact hdis x hx (h2 ▸ h)
    · rw [hN x, if_neg (npre x hx), if_neg]
      rintro ⟨-, h2⟩
      apply hne
      rcases List.eq_nil_or_concat pre with e | ⟨l', y, e⟩
      · rw [e] at hx; simp at hx
      · rw [e, List.concat_eq_append] at h2 ⊢
        rw [List.getLastD_concat] at h2
        rw [List.getLast?_concat, h2]
    · have hx' : x ∈ pre := List.mem_of_mem_head? (by rw [hx]; exact rfl)
      rw [hP x, if_neg (npre x hx'), if_neg]
      · exact Seg_head hs1 hx
      · rintro ⟨h1, h2⟩
        rcases hc with h | h
        · exact h1 h
        · exact hdis x hx' (h2 ▸ h)
    · have hx' : x ∈ pre := List.mem_of_getLast?_eq_some hx
      have e : pre.getLastD (-1) = x := getLastD_of_getLast? hx
      rw [hN x, if_neg (npre x hx'), if_pos]
      exact ⟨by rw [e]; exact hnn x (List.mem_append_left _ hx'), e.symm⟩
  have hsegpost : Seg s1 g post (-1) := by
    refine Seg_reframe post (pre.getLastD (-1)) (-1) g (-1) hs2 (List.nodup_append.1 hn).2.1
      (fun x hx hne => ?_) (fun x hx _ => ?_) (fun x hx => ?_) (fun x hx => ?_)
    · rw [hP x, if_neg (npost x hx), if_neg]
      rintro ⟨-, h2⟩
      apply hne
      cases post with
      | nil => simp at hx
      | cons y l => simp at h2; simp [h2]
    · rw [hN x, if_neg (npost x hx), if_neg]
      rintro ⟨h1, h2⟩
      rcases ha with h | h
      · exact h1 h
      · exact hdis x (h2 ▸ h) hx
    · have hx' : x ∈ post := List.mem_of_mem_head? (by rw [hx]; exact rfl)
      have e : post.headD (-1) = x := headD_of_head? hx
      rw [hP x, if_neg (npost x hx'), if_pos]
      exact ⟨by rw [e]; exact hnn x (List.mem_append_right _ hx'), e.symm⟩
    · have hx' : x ∈ post := List.mem_of_getLast?_eq_some hx
      rw [hN x, if_neg (npost x hx'), if_neg]
      · exact Seg_last post _ _ hs2 x hx
      · rintro ⟨h1, h2⟩
        rcases ha with h | h
        · exact h1 h
        · exact hdis x (h2 ▸ h) hx'
  refine ⟨fun fid f' hf' => ?_, fun fid x hx => ?_, fun j b hb hbf => ?_, fun j b hb hbf => ?_⟩
  · rw [GetFragment_congr hfs] at hf'
    by_cases hfid : fid = F
    · subst hfid
      rw [hf] at hf'
      cases hf'
      simp only [if_true]
      refine ⟨?_, ?_, ?_⟩
      · rw [Seg_append]
        refine ⟨by simpa using hsegpre, ?_, ?_, hsegpost⟩
        · rw [hP g, if_pos rfl]
        · rw [hN g, if_pos rfl]
      · have : (pre ++ g :: post).Perm (g :: (pre ++ post)) := List.perm_middle
        rw [this.nodup_iff, List.nodup_cons]
        exact ⟨by simp [hgpre, hgpost], hn⟩
      · rcases List.mem_append.1 hm with h | h
        · exact List.mem_append_left _ h
        · exact List.mem_append_right _ (List.mem_cons_of_mem _ h)
    · simp only [if_neg hfid]
      obtain ⟨q1, q2, q3⟩ := hw.frag fid f' hf'
      refine ⟨?_, q2, q3⟩
      have hx : ∀ x, x ∈ row fid → x ≠ g ∧ x ∉ pre ++ post := by
        intro x hx
        have h1 := (hw.mem fid x hx).1
        refine ⟨hex x fid h1, fun h2 => ?_⟩
        rw [hmemF x h2] at h1
        exact hfid (Option.some.inj h1).symm
      exact Seg_frame _ _ _ q1 (fun x h => (hout x (hx x h).1 (hx x h).2).1)
        (fun x h => (hout x (hx x h).1 (hx x h).2).2)
  · by_cases hfid : fid = F
    · subst hfid
      simp only [if_true] at hx
      refine ⟨?_, hF1⟩
      rw [hF x]
      by_cases hxg : x = g
      · rw [if_pos hxg]
      · rw [if_neg hxg]
        apply hmemF
        rcases List.mem_append.1 hx with h | h
        · exact List.mem_append_left _ h
        · rcases List.mem_cons.1 h with h | h
          · exact absurd h hxg
          · exact List.mem_append_right _ h
    · simp only [if_neg hfid] at hx
      obtain ⟨h1, h2⟩ := hw.mem fid x hx
      refine ⟨?_, h2⟩
      rw [hF x, if_neg (hex x fid h1)]
      exact h1
  · have hfj := hF j
    rw [fragOf_get hb] at hfj
    rw [GetFragment_congr hfs]
    by_cases hjg : j = g
    · rw [if_pos hjg] at hfj
      have e : b.frag_index = F := Option.some.inj hfj
      rw [e]
      refine ⟨hFs, ?_⟩
      simp [hjg]
    · rw [if_neg hjg] at hfj
      obtain ⟨b0, hb0, e0⟩ := fragOf_some hfj.symm
      obtain ⟨h1, h2⟩ := hw.bead j b0 hb0 (by rw [e0]; exact hbf)
      rw [e0] at h1 h2
      refine ⟨h1, ?_⟩
      by_cases hfid : b.frag_index = F
      · rw [if_pos hfid]
        rw [hfid, hrow] at h2
        rcases List.mem_append.1 h2 with h | h
        · exact List.mem_append_left _ h
        · exact List.mem_append_right _ (List.mem_cons_of_mem _ h)
      · rw [if_neg hfid]
        exact h2
  · have hfj := hF j
    rw [fragOf_get hb, hbf] at hfj
    have hjg : j ≠ g := by
      intro e
      rw [if_pos e] at hfj
      exact hF1 (Option.some.inj hfj).symm
    rw [if_neg hjg] at hfj
    obtain ⟨b0, hb0, e0⟩ := fragOf_some hfj.symm
    have hjrow : j ∉ pre ++ post := by
      intro h
      have := hmemF j h
      rw [← hfj] at this
      exact hF1 (Option.some.inj this).symm
    obtain ⟨o1, o2⟩ := hout j hjg hjrow
    rw [prevOf_get hb, prevOf_get hb0] at o1
    rw [nextOf_get hb, nextOf_get hb0] at o2
    obtain ⟨c1, c2⟩ := hw.call j b0 hb0 e0
    rw [Option.some.inj o1, Option.some.inj o2]
    have hkeep : ∀ x, fragOf st x = some (-1) → fragOf s1 x = some (-1) := by
      intro x hx
      rw [hF x, if_neg (hex x _ hx)]
      exact hx
    exact ⟨c1.imp id (hkeep _), c2.imp id (hkeep _)⟩

theorem HWF.rowRead_eq {st : Store} {row : Int → List Int} (hw : HWF st row) (hq : QWF st)
    {fid : Int} {f : Fragment} (hf : GetFragment st fid = some f) :
    nonGapRead st fid = some (rowRead st (row fid)) := hw.read hq hf

/-- The characters of the beads after `AppendGapBead`: the new bead is a gap
and the other beads keep theirs. -/
theorem AppendGapBead_chars {st s1 : Store} {b g : Int} (h : AppendGapBead st b = some (s1, g))
    (hq : QWF st) :
    beadChar s1 g = some '-' ∧ ∀ j, j ≠ g → beadChar s1 j = beadChar st j := by
  obtain ⟨x, qv, hx, hg, hgn, hs, -, -, -, -, -, hso, -⟩ := AppendGapBead_rows h
  have hch : ∀ j, beadChar s1 j = ((GetBead s1 j).map Bead.soffset).bind (GetBase s1) := by
    intro j
    unfold beadChar
    cases GetBead s1 j <;> rfl
  have hch0 : ∀ j, beadChar st j = ((GetBead st j).map Bead.soffset).bind (GetBase st) := by
    intro j
    unfold beadChar
    cases GetBead st j <;> rfl
  constructor
  · rw [hch, hso g, if_pos rfl]
    simp only [Option.some_bind]
    unfold GetBase
    rw [hs]
    exact getAt_length_append _ _
  · intro j hj
    rw [hch, hch0, hso j, if_neg hj]
    cases hb : GetBead st j with
    | none => rfl
    | some y =>
      obtain ⟨c, hc⟩ := Option.isSome_iff_exists.1 (hq.chars hb).1
      simp only [Option.map_some', Option.some_bind]
      unfold GetBase at hc ⊢
      rw [hs, hc]
      exact getAt_append_some hc

theorem AppendGapBead_qwf {st s1 : Store} {b g : Int} (h : AppendGapBead st b = some (s1, g))
    (hq : QWF st) : QWF s1 := by
  obtain ⟨x, qv, hx, hg, hgn, hs, hql, -, -, -, -, hso, -⟩ := AppendGapBead_rows h
  refine hq.ext_q (by rw [hs, hql]; simp [hq.len]) (by rw [hs]; simp) (fun j y hj => ?_)
  have := hso j
  rw [hj] at this
  by_cases hjg : j = g
  · rw [if_pos hjg] at this
    right
    have e : y.soffset = st.sequenceStore.length := Option.some.inj this
    rw [e, hs]
    simp
  · rw [if_neg hjg] at this
    left
    exact this.symm

theorem AppendGapBead_bwf {st s1 : Store} {b g : Int} (h : AppendGapBead st b = some (s1, g))
    (hb : BWF st) : BWF s1 := by
  obtain ⟨x, qv, hx, hg, hgn, -, -, -, -, -, -, -, hbo⟩ := AppendGapBead_rows h
  intro j y hj
  have := hbo j
  rw [hj] at this
  by_cases hjg : j = g
  · rw [if_pos hjg] at this
    rw [hjg]
    exact Option.some.inj this
  · rw [if_neg hjg] at this
    cases h0 : GetBead st j with
    | none => rw [h0] at this; cases this
    | some y0 =>
      rw [h0] at this
      rw [Option.some.inj this]
      exact hb j y0 h0

/-- `AppendGapBead(b)` puts the new bead right after `b` in the row of its
fragment. -/
theorem HWF.appendGapped {st s1 : Store} {row : Int → List Int} {b g : Int}
    (hw : HWF st row) (hbo : BWF st) (h : AppendGapBead st b = some (s1, g)) :
    HWF s1 (fun fid => insertAfter b g (row fid)) := by
  obtain ⟨x, qv, hx, hg, hgn, -, -, hfs, hF, hN, hP, -, -⟩ := AppendGapBead_rows h
  have hxb : x.boffset = b := hbo b x hx
  have hbg : b ≠ g := fun e => by rw [e, hgn] at hx; cases hx
  by_cases hxf : x.frag_index = -1
  · -- a call bead: no row changes
    have hrows : (fun fid => insertAfter b g (row fid)) = row := by
      funext fid
      apply insertAfter_of_not_mem
      intro hm
      have := (hw.mem fid b hm).1
      rw [fragOf_get hx, hxf] at this
      exact (hw.mem fid b hm).2 (Option.some.inj this).symm
    rw [hrows]
    obtain ⟨cn, cp⟩ := hw.call b x hx hxf
    have hex : ∀ j y, GetBead st j = some y → j ≠ g := by
      intro j y hj e
      rw [e, hgn] at hj
      cases hj
    have hkeep : ∀ j f, fragOf st j = some f → fragOf s1 j = some f := by
      intro j f hj
      obtain ⟨y, hy, -⟩ := fragOf_some hj
      rw [hF j, if_neg (hex j y hy)]
      exact hj
    refine hw.ext_h hfs (fun j y hj hjf => ?_) (fun j y hj hjf => ?_) (fun j y hj hjf => ?_)
    · have hjg := hex j y hj
      have hjb : j ≠ b := fun e => by rw [e, hx] at hj; cases hj; exact hjf hxf
      refine ⟨?_, ?_, ?_⟩
      · rw [hP j, if_neg hjg, if_neg, prevOf_get hj]
        rintro ⟨h1, h2⟩
        rcases cn with c | c
        · exact h1 c
        · rw [← h2, fragOf_get hj] at c
          exact hjf (Option.some.inj c)
      · rw [hN j, if_neg hjg, if_neg hjb, nextOf_get hj]
      · rw [hF j, if_neg hjg, fragOf_get hj]
    · have := hF j
      rw [fragOf_get hj] at this
      by_cases hjg : j = g
      · rw [if_pos hjg, hxf] at this
        exact absurd (Option.some.inj this) hjf
      · rw [if_neg hjg] at this
        exact this.symm
    · have hn := hN j
      have hp := hP j
      rw [nextOf_get hj] at hn
      rw [prevOf_get hj] at hp
      have hgf : fragOf s1 g = some (-1) := by rw [hF g, if_pos rfl, hxf]
      have hbf : fragOf s1 b = some (-1) := by
        apply hkeep; rw [fragOf_get hx, hxf]
      by_cases hjg : j = g
      · rw [if_pos hjg] at hn hp
        rw [Option.some.inj hn, Option.some.inj hp, hxb]
        exact ⟨cn.imp id (hkeep _ _), Or.inr hbf⟩
      · rw [if_neg hjg] at hn hp
        have hfj := hF j
        rw [if_neg hjg, fragOf_get hj, hjf] at hfj
        obtain ⟨y0, hy0, hy0f⟩ := fragOf_some hfj.symm
        obtain ⟨dn, dp⟩ := hw.call j y0 hy0 hy0f
        constructor
        · by_cases hjb : j = b
          · rw [if_pos hjb] at hn
            rw [Option.some.inj hn]
            exact Or.inr hgf
          · rw [if_neg hjb, nextOf_get hy0] at hn
            rw [Option.some.inj hn]
            exact dn.imp id (hkeep _ _)
        · by_cases hjn : x.next ≠ -1 ∧ j = x.next
          · rw [if_pos hjn, prevOf_get hy0] at hp
            simp only [Option.map_some'] at hp
            rw [Option.some.inj hp]
            exact Or.inr hgf
          · rw [if_neg hjn, prevOf_get hy0] at hp
            rw [Option.some.inj hp]
            exact dp.imp id (hkeep _ _)
  · -- a fragment bead
    obtain ⟨pre, post, hrow, hxp, hxn, -, -, hnd, -⟩ := hw.locate hx hxf
    have hbpre : b ∉ pre := by
      intro hm
      have := (List.nodup_append.1 hnd).2.2 hm (List.mem_cons_self _ _)
      exact this
    have hrow' : row x.frag_index = (pre ++ [b]) ++ post := by rw [hrow]; simp
    have hlast : (pre ++ [b]).getLastD (-1) = b := by
      rw [List.getLastD_concat]
    have hins := HWF.inserted (g := g) hw hxf (hw.bead b x hx hxf).1 hrow' hgn hfs hF
      (fun j => by
        rw [hN j, hlast, ← hxn]
        by_cases hjg : j = g
        · simp [hjg]
        · rw [if_neg hjg, if_neg hjg]
          by_cases hjb : j = b
          · rw [if_pos hjb, if_pos ⟨by rw [← hjb]; have := (GetBead_some_range hx).1; omega, hjb⟩]
          · rw [if_neg hjb, if_neg (fun hh => hjb hh.2)])
      (fun j => by
        rw [hP j, hlast, ← hxn, hxb]
        by_cases hjg : j = g
        · simp [hjg]
        · rw [if_neg hjg, if_neg hjg]
          by_cases hjn : x.next ≠ -1 ∧ j = x.next
          · rw [if_pos hjn, if_pos hjn, hjn.2, (hw.next_back hx hxf hjn.1).1]
            rfl
          · rw [if_neg hjn, if_neg hjn])
    have hrows : (fun fid => insertAfter b g (row fid)) =
        fun fid => if fid = x.frag_index then (pre ++ [b]) ++ g :: post else row fid := by
      funext fid
      by_cases hfid : fid = x.frag_index
      · rw [if_pos hfid, hfid, hrow, insertAfter_split post hbpre]
        simp
      · rw [if_neg hfid]
        apply insertAfter_of_not_mem
        intro hm
        have := (hw.mem fid b hm).1
        rw [fragOf_get hx] at this
        exact hfid (Option.some.inj this).symm
    rw [hrows]
    exact hins

theorem BSame.refl_b (st : Store) : BSame st st := fun _ => rfl

theorem BSame.trans_b {a b c : Store} (h1 : BSame a b) (h2 : BSame b c) : BSame a c :=
  fun j => (h2 j).trans (h1 j)

theorem BSame.of_beads_b {st st' : Store} (hb : st'.beadStore = st.beadStore) : BSame st st' := by
  intro j
  unfold GetBead
  rw [hb]

theorem modBead_bsame {st st' : Store} {i : Int} {f : Bead → Bead}
    (h : modBead st i f = some st') (h1 : ∀ y, (f y).boffset = y.boffset) : BSame st st' :=
  modBead_field_same Bead.boffset h h1

theorem patchBead_bsame {st st' : Store} {i : Int} {f : Bead → Bead}
    (h : patchBead st i f = some st') (h1 : ∀ y, (f y).boffset = y.boffset) : BSame st st' :=
  patchBead_field_same Bead.boffset h h1

theorem incColumn_bsame {st st' : Store} {cid : Int} {c : Char}
    (h : incColumn st cid c = some st') : BSame st st' :=
  BSame.of_beads_b (incColumn_hkeep h).2

theorem decColumn_bsame {st st' : Store} {cid : Int} {c : Char}
    (h : decColumn st cid c = some st') : BSame st st' :=
  BSame.of_beads_b (decColumn_hkeep h).2

theorem AlignBead_bsame {st st' : Store} {cid bid r : Int}
    (h : AlignBead st cid bid = some (st', r)) : BSame st st' := by
  unfold AlignBead at h
  simp only [Option.bind_eq_bind, Option.bind_eq_some, Option.pure_def, Option.some.injEq,
    Prod.mk.injEq] at h
  obtain ⟨_, _, _, _, _, _, _, _, s1, h1, s2, h2, s3, h3, s4, h4, s5, h5, _, _, _, _, s6, h6,
    rfl, _⟩ := h
  exact (((((modBead_bsame h1 (fun _ => rfl)).trans_b
    (modBead_bsame h2 (fun _ => rfl))).trans_b
    (modBead_bsame h3 (fun _ => rfl))).trans_b
    (modBead_bsame h4 (fun _ => rfl))).trans_b
    (modBead_bsame h5 (fun _ => rfl))).trans_b
    (incColumn_bsame h6)

theorem UnAlignBead_bsame {st st' : Store} {bid r : Int}
    (h : UnAlignBead st bid = some (st', r)) : BSame st st' := by
  obtain ⟨bead, _, h⟩ := UnAlignBead_steps h
  rcases h with ⟨_, rfl, _⟩ | ⟨_, col, upbead, bchar, s1, bead1, s2, s3, s4, s5, _, _, _, h1, _, h2,
    h3, h4, h5, h6, _⟩
  · exact BSame.refl_b _
  · exact (((((modBead_bsame h1 (fun _ => rfl)).trans_b
      (patchBead_bsame h2 (fun _ => rfl))).trans_b
      (decColumn_bsame h3)).trans_b
      (modBead_bsame h4 (fun _ => rfl))).trans_b
      (modBead_bsame h5 (fun _ => rfl))).trans_b
      (modBead_bsame h6 (fun _ => rfl))

theorem LateralExchangeBead_bsame {st st' : Store} {lid rid r : Int}
    (h : LateralExchangeBead st lid rid = some (st', r)) : BSame st st' := by
  obtain ⟨L, R, s1, s2, s3, -, -, -, h1, h2, h3, ⟨lc, rc, h4⟩, -⟩ := LateralExchangeBead_stages h
  have c1 : BSame st s1 := by
    unfold exchangeRight at h1
    simp only [Option.bind_eq_bind, Option.bind_eq_some] at h1
    obtain ⟨t1, m1, _, _, t2, m2, _, _, t3, m3, _, _, m4⟩ := h1
    exact (((modBead_bsame m1 fun _ => rfl).trans_b (patchBead_bsame m2 fun _ => rfl)).trans_b
      (patchBead_bsame m3 fun _ => rfl)).trans_b (patchBead_bsame m4 fun _ => rfl)
  have c2 : BSame s1 s2 := by
    unfold exchangeLeft at h2
    simp only [Option.bind_eq_bind, Option.bind_eq_some] at h2
    obtain ⟨t1, m1, _, _, t2, m2, _, _, t3, m3, _, _, m4⟩ := h2
    exact (((modBead_bsame m1 fun _ => rfl).trans_b (patchBead_bsame m2 fun _ => rfl)).trans_b
      (patchBead_bsame m3 fun _ => rfl)).trans_b (patchBead_bsame m4 fun _ => rfl)
  have c3 : BSame s2 s3 := by
    unfold exchangeClose at h3
    split_ifs at h3
    · simp only [Option.bind_eq_bind, Option.bind_eq_some] at h3
      obtain ⟨t1, m1, m2⟩ := h3
      exact (modBead_bsame m1 fun _ => rfl).trans_b (modBead_bsame m2 fun _ => rfl)
    · simp only [Option.bind_eq_bind, Option.bind_eq_some] at h3
      obtain ⟨_, _, t1, m1, _, _, m2⟩ := h3
      exact (patchBead_bsame m1 fun _ => rfl).trans_b (patchBead_bsame m2 fun _ => rfl)
  have c4 : BSame s3 st' := by
    unfold exchangeColumns at h4
    simp only [Option.bind_eq_bind, Option.bind_eq_some] at h4
    obtain ⟨_, _, t1, m1, t2, m2, t3, m3, t4, m4, t5, m5, m6⟩ := h4
    exact (((((modBead_bsame m1 fun _ => rfl).trans_b (modBead_bsame m2 fun _ => rfl)).trans_b
      (decColumn_bsame m3)).trans_b (incColumn_bsame m4)).trans_b
      (decColumn_bsame m5)).trans_b (incColumn_bsame m6)
  exact ((c1.trans_b c2).trans_b c3).trans_b c4

/-- The characters of all beads are kept when the character offsets and the
sequence store are. -/
theorem HKeep.chars_k {st st' : Store} (h : HKeep st st') (j : Int) :
    beadChar st' j = beadChar st j :=
  beadChar_of_soff h.1 (h.2.2.2 j)

theorem QWF.keep_q {st st' : Store} (hq : QWF st) (h : HKeep st st')
    (hql : st'.qualityStore = st.qualityStore) : QWF st' :=
  hq.same_q h.1 hql h.2.2.2

theorem RWF.quiet_r {st st' : Store} {row : Int → List Int} (hw : RWF st row)
    (h : Quiet st st') (hb : BSame st st') : RWF st' row :=
  ⟨hw.rows.quiet_h h, hw.chars.quiet_q h, hw.offs.same_b hb⟩

theorem Quiet.chars_q {st st' : Store} (h : Quiet st st') (j : Int) :
    beadChar st' j = beadChar st j :=
  beadChar_of_soff h.2.1 (h.2.2.2 j)

theorem map_fst_some {α β : Type} {o : Option (α × β)} {a : α} (h : o.map Prod.fst = some a) :
    ∃ b, o = some (a, b) := by
  cases o with
  | none => cases h
  | some p =>
    obtain ⟨x, y⟩ := p
    simp at h
    exact ⟨y, by rw [h]⟩

/-- In well-formed stores whose rows read alike, every fragment reads alike. -/
theorem ReadsKept.reads {st st' : Store} {row : Int → List Int} (hw : RWF st row)
    (h : ReadsKept st row st') (fid : Int) :
    nonGapRead st' fid = nonGapRead st fid ∧
      ((GetFragment st fid).isSome → (nonGapRead st fid).isSome) := by
  obtain ⟨row', a, b, c⟩ := h
  cases hf : GetFragment st fid with
  | none =>
    have hf' : GetFragment st' fid = none := by rw [GetFragment_congr b, hf]
    rw [nonGapRead_none hf, nonGapRead_none hf']
    exact ⟨rfl, fun h => by cases h⟩
  | some f =>
    have hf' : GetFragment st' fid = some f := by rw [GetFragment_congr b, hf]
    rw [hw.rows.rowRead_eq hw.chars hf, a.rows.rowRead_eq a.chars hf', c fid]
    exact ⟨rfl, fun _ => rfl⟩

theorem CallMove.refl_c (st : Store) : CallMove st st :=
  ⟨HKeep.unchanged_ st, rfl, BSame.refl_b st, fun _ _ => ⟨rfl, rfl⟩,
    fun _ _ h => Or.inr (Or.inr h), fun _ _ h => Or.inr (Or.inr h)⟩

theorem CallMove.trans_c {a b c : Store} (h1 : CallMove a b) (h2 : CallMove b c) :
    CallMove a c := by
  obtain ⟨k1, q1, b1, f1, n1, p1⟩ := h1
  obtain ⟨k2, q2, b2, f2, n2, p2⟩ := h2
  refine ⟨k1.after_ k2, q2.trans q1, b1.trans_b b2, fun j hj => ?_, fun j n hn => ?_,
    fun j n hn => ?_⟩
  · have hj' : fragOf b j ≠ some (-1) := by rw [k1.2.2.1 j]; exact hj
    exact ⟨((f2 j hj').1).trans (f1 j hj).1, ((f2 j hj').2).trans (f1 j hj).2⟩
  · rcases n2 j n hn with h | h | h
    · exact Or.inl h
    · rw [k1.2.2.1 n] at h; exact Or.inr (Or.inl h)
    · exact n1 j n h
  · rcases p2 j n hn with h | h | h
    · exact Or.inl h
    · rw [k1.2.2.1 n] at h; exact Or.inr (Or.inl h)
    · exact p1 j n h

theorem CallMove.of_beads_c {st st' : Store} (hb : st'.beadStore = st.beadStore)
    (hs : st'.sequenceStore = st.sequenceStore) (hf : st'.fragmentStore = st.fragmentStore)
    (hq : st'.qualityStore = st.qualityStore) : CallMove st st' :=
  ⟨HKeep.of_links hb hs hf, hq, BSame.of_beads_b hb,
    fun j _ => ⟨prevOf_congr hb j, nextOf_congr hb j⟩,
    fun j n h => Or.inr (Or.inr (by rw [← nextOf_congr hb j]; exact h)),
    fun j n h => Or.inr (Or.inr (by rw [← prevOf_congr hb j]; exact h))⟩

theorem modColumn_callMove {st st' : Store} {i : Int} {f : Column → Column}
    (h : modColumn st i f = some st') : CallMove st st' := by
  obtain ⟨c, _, rfl⟩ := modColumn_spec h
  exact CallMove.of_beads_c rfl rfl rfl rfl

theorem patchColumn_callMove {st st' : Store} {i : Int} {f : Column → Column}
    (h : patchColumn st i f = some st') : CallMove st st' := by
  unfold patchColumn at h
  split_ifs at h
  · exact modColumn_callMove h
  · simp at h
    subst h
    exact CallMove.refl_c _

/-- The `next` of a call bead is pointed at a call bead. -/
theorem modBead_callMove_next {st st' : Store} {i v : Int}
    (h : modBead st i (fun b => { b with next := v }) = some st')
    (hi : fragOf st i = some (-1)) (hv : v = -1 ∨ fragOf st v = some (-1)) :
    CallMove st st' := by
  refine ⟨modBead_hkeep h (fun _ => rfl) (fun _ => rfl), (modBead_get h).2.2.1,
    modBead_bsame h (fun _ => rfl), fun j hj => ⟨?_, ?_⟩, fun j n hn => ?_, fun j n hn => ?_⟩
  · exact modBead_field_same Bead.prev h (fun _ => rfl) j
  · have := modBead_field Bead.next h (fun _ => v) (fun _ => rfl) j
    have hji : j ≠ i := fun e => hj (by rw [e]; exact hi)
    rw [if_neg hji] at this
    exact this
  · have := modBead_field Bead.next h (fun _ => v) (fun _ => rfl) j
    by_cases hji : j = i
    · rw [if_pos hji] at this
      obtain ⟨y, hy, -⟩ := fragOf_some hi
      unfold nextOf at hn
      rw [this, hy] at hn
      simp at hn
      rw [← hn]
      rcases hv with e | e
      · exact Or.inl e
      · exact Or.inr (Or.inl e)
    · rw [if_neg hji] at this
      right; right
      unfold nextOf at hn ⊢
      rw [← this]; exact hn
  · have := modBead_field_same Bead.prev h (fun _ => rfl) j
    right; right
    unfold prevOf at hn ⊢
    rw [← this]; exact hn

/-- The `prev` of a call bead is pointed at a call bead. -/
theorem modBead_callMove_prev {st st' : Store} {i v : Int}
    (h : modBead st i (fun b => { b with prev := v }) = some st')
    (hi : fragOf st i = some (-1)) (hv : v = -1 ∨ fragOf st v = some (-1)) :
    CallMove st st' := by
  refine ⟨modBead_hkeep h (fun _ => rfl) (fun _ => rfl), (modBead_get h).2.2.1,
    modBead_bsame h (fun _ => rfl), fun j hj => ⟨?_, ?_⟩, fun j n hn => ?_, fun j n hn => ?_⟩
  · have := modBead_field Bead.prev h (fun _ => v) (fun _ => rfl) j
    have hji : j ≠ i := fun e => hj (by rw [e]; exact hi)
    rw [if_neg hji] at this
    exact this
  · exact modBead_field_same Bead.next h (fun _ => rfl) j
  · have := modBead_field_same Bead.next h (fun _ => rfl) j
    right; right
    unfold nextOf at hn ⊢
    rw [← this]; exact hn
  · have := modBead_field Bead.prev h (fun _ => v) (fun _ => rfl) j
    by_cases hji : j = i
    · rw [if_pos hji] at this
      obtain ⟨y, hy, -⟩ := fragOf_some hi
      unfold prevOf at hn
      rw [this, hy] at hn
      simp at hn
      rw [← hn]
      rcases hv with e | e
      · exact Or.inl e
      · exact Or.inr (Or.inl e)
    · rw [if_neg hji] at this
      right; right
      unfold prevOf at hn ⊢
      rw [← this]; exact hn

/-- Rows, characters and offsets stay well formed when only links of call
beads were rewritten. -/
theorem RWF.callMove {st st' : Store} {row : Int → List Int} (hw : RWF st row)
    (h : CallMove st st') : RWF st' row := by
  obtain ⟨k, q, b, f, n, p⟩ := h
  refine ⟨?_, hw.chars.keep_q k q, hw.offs.same_b b⟩
  refine hw.rows.ext_h k.2.1 (fun j y hj hjf => ?_) (fun j y hj hjf => ?_) (fun j y hj hjf => ?_)
  · have hne : fragOf st j ≠ some (-1) := by
      rw [fragOf_get hj]
      intro e
      exact hjf (Option.some.inj e)
    refine ⟨?_, ?_, ?_⟩
    · rw [(f j hne).1, prevOf_get hj]
    · rw [(f j hne).2, nextOf_get hj]
    · rw [k.2.2.1 j, fragOf_get hj]
  · rw [← k.2.2.1 j, fragOf_get hj]
  · have hfj : fragOf st j = some (-1) := by rw [← k.2.2.1 j, fragOf_get hj, hjf]
    obtain ⟨y0, hy0, hy0f⟩ := fragOf_some hfj
    obtain ⟨cn, cp⟩ := hw.rows.call j y0 hy0 hy0f
    have keep : ∀ x, fragOf st x = some (-1) → fragOf st' x = some (-1) := fun x hx => by
      rw [k.2.2.1 x]; exact hx
    constructor
    · rcases n j y.next (nextOf_get hj) with e | e | e
      · exact Or.inl e
      · exact Or.inr (keep _ e)
      · rw [nextOf_get hy0] at e
        rw [← Option.some.inj e]
        exact cn.imp id (keep _)
    · rcases p j y.prev (prevOf_get hj) with e | e | e
      · exact Or.inl e
      · exact Or.inr (keep _ e)
      · rw [prevOf_get hy0] at e
        rw [← Option.some.inj e]
        exact cp.imp id (keep _)

theorem callOf_get {st : Store} {j : Int} {c : Column} (h : GetColumn st j = some c) :
    callOf st j = some c.call := by
  unfold callOf; rw [h]; rfl

theorem callOf_congr {st st' : Store} (h : st'.columnStore = st.columnStore) (j : Int) :
    callOf st' j = callOf st j := by
  unfold callOf GetColumn; rw [h]

theorem modColumn_callOf {st st' : Store} {i : Int} {f : Column → Column}
    (h : modColumn st i f = some st') (hf : ∀ c, (f c).call = c.call) (j : Int) :
    callOf st' j = callOf st j := by
  unfold callOf
  rw [(modColumn_get h).1 j]
  by_cases hj : j = i
  · rw [if_pos hj, hj]
    cases GetColumn st i with
    | none => rfl
    | some c => simp [hf c]
  · rw [if_neg hj]

theorem patchColumn_callOf {st st' : Store} {i : Int} {f : Column → Column}
    (h : patchColumn st i f = some st') (hf : ∀ c, (f c).call = c.call) (j : Int) :
    callOf st' j = callOf st j := by
  unfold patchColumn at h
  split_ifs at h
  · exact modColumn_callOf h hf j
  · simp at h
    subst h
    rfl

theorem patchBead_callMove_prev {st st' : Store} {i v : Int}
    (h : patchBead st i (fun b => { b with prev := v }) = some st')
    (hi : i ≠ -1 → fragOf st i = some (-1)) (hv : v = -1 ∨ fragOf st v = some (-1)) :
    CallMove st st' := by
  unfold patchBead at h
  by_cases hx : i ≠ -1
  · rw [if_pos hx] at h
    exact modBead_callMove_prev h (hi hx) hv
  · rw [if_neg hx] at h
    simp at h
    subst h
    exact CallMove.refl_c _

theorem CallMove.frag_c {st st' : Store} (h : CallMove st st') (j : Int) :
    fragOf st' j = fragOf st j := h.1.2.2.1 j

/-- Linking a new column after `cid` rewrites links of call beads only. -/
theorem appendLink_callMove {st st' : Store} {row : Int → List Int} {cid lid : Int}
    {P N : Column} (hw : RWF st row) (h : appendLink st cid lid = some st')
    (hP : GetColumn st cid = some P) (hN : GetColumn st lid = some N)
    (hPf : fragOf st P.call = some (-1)) (hNf : fragOf st N.call = some (-1)) :
    CallMove st st' := by
  unfold appendLink appendLinkNew appendLinkOld at h
  simp only [Option.bind_eq_bind, Option.bind_eq_some, Option.pure_def, Option.some.injEq,
    Prod.mk.injEq] at h
  obtain ⟨P0, hP0, s4, ⟨N0, hN0, P1, hP1, PC, hPC, s1, h1, s2, h2, s3, h3, h4⟩, c4, hc4, call4,
    hcall4, s5, h5, s6, h6, c6, hc6, s7, h7, call7, hcall7, h8⟩ := h
  rw [hP] at hP0 hP1
  cases hP0
  cases hP1
  rw [hN] at hN0
  cases hN0
  have m1 : CallMove st s1 := modColumn_callMove h1
  have m2 : CallMove st s2 := m1.trans_c (modColumn_callMove h2)
  have k2 : callOf s2 lid = some N.call := by
    rw [modColumn_callOf h2 (fun _ => rfl), modColumn_callOf h1 (fun _ => rfl), callOf_get hN]
  obtain ⟨cn, -⟩ := hw.rows.call P.call PC hPC (by
    rw [fragOf_get hPC] at hPf; exact Option.some.inj hPf)
  have hPCb : PC.boffset = P.call := hw.offs _ _ hPC
  have m3 : CallMove st s3 := m2.trans_c (modBead_callMove_next h3
    (by rw [m2.frag_c]; exact hNf) (cn.imp id fun e => by rw [m2.frag_c]; exact e))
  have m4 : CallMove st s4 := m3.trans_c (modBead_callMove_prev h4
    (by rw [m3.frag_c]; exact hNf) (Or.inr (by rw [m3.frag_c, hPCb]; exact hPf)))
  have k4 : callOf s4 lid = some N.call := by
    rw [callOf_congr (modBead_columnStore h4), callOf_congr (modBead_columnStore h3), k2]
  have e4 : c4.call = N.call := by
    rw [callOf_get hc4] at k4; exact Option.some.inj k4
  have w4 := hw.callMove m4
  have hb4 : call4.boffset = N.call := by rw [w4.offs _ _ hcall4, e4]
  have m5 : CallMove st s5 := m4.trans_c (modColumn_callMove h5)
  have m6 : CallMove st s6 := m5.trans_c (modBead_callMove_next h6
    (by rw [m5.frag_c]; exact hPf) (Or.inr (by rw [m5.frag_c, hb4]; exact hNf)))
  have k6 : callOf s6 lid = some N.call := by
    rw [callOf_congr (modBead_columnStore h6), modColumn_callOf h5 (fun _ => rfl), k4]
  have e6 : c6.call = N.call := by
    rw [callOf_get hc6] at k6; exact Option.some.inj k6
  have m7 : CallMove st s7 := m6.trans_c (patchColumn_callMove h7)
  have w7 := hw.callMove m7
  rw [e6] at hcall7
  have hb7 : call7.boffset = N.call := w7.offs _ _ hcall7
  have hf7 : call7.frag_index = -1 := by
    have := m7.frag_c N.call
    rw [fragOf_get hcall7, hNf] at this
    exact Option.some.inj this
  obtain ⟨cn7, -⟩ := w7.rows.call N.call call7 hcall7 hf7
  exact m7.trans_c (patchBead_callMove_prev h8
    (fun hne => cn7.resolve_left hne) (Or.inr (by rw [m7.frag_c, hb7]; exact hNf)))

theorem patchBead_run {st : Store} {x : Int} (f : Bead → Bead)
    (h : x = -1 ∨ (GetBead st x).isSome) : ∃ s, patchBead st x f = some s := by
  unfold patchBead
  by_cases hx : x ≠ -1
  · rw [if_pos hx]
    obtain ⟨y, hy⟩ := Option.isSome_iff_exists.1 (h.resolve_left hx)
    obtain ⟨s, e, -⟩ := modBead_run f hy
    exact ⟨s, e⟩
  · rw [if_neg hx]
    exact ⟨st, rfl⟩

theorem patchColumn_run {st : Store} {x : Int} (f : Column → Column)
    (h : x = -1 ∨ (GetColumn st x).isSome) :
    ∃ s, patchColumn st x f = some s ∧ s.beadStore = st.beadStore := by
  unfold patchColumn
  by_cases hx : x ≠ -1
  · rw [if_pos hx]
    obtain ⟨y, hy⟩ := Option.isSome_iff_exists.1 (h.resolve_left hx)
    obtain ⟨s, e, -, b, -⟩ := modColumn_run f hy
    exact ⟨s, e, b⟩
  · rw [if_neg hx]
    exact ⟨st, rfl, rfl⟩

theorem GetBead_congr {st st' : Store} (h : st'.beadStore = st.beadStore) (j : Int) :
    GetBead st' j = GetBead st j := by
  unfold GetBead; rw [h]

theorem GetColumn_congr {st st' : Store} (h : st'.columnStore = st.columnStore) (j : Int) :
    GetColumn st' j = GetColumn st j := by
  unfold GetColumn; rw [h]

/-- Linking a new column `lid` after the column `cid` succeeds when both
columns and their call beads exist and the forward links of `cid` and of its
call bead lead somewhere. -/
theorem appendLink_run {st : Store} {cid lid : Int} {P N : Column} {PC NC : Bead}
    (hP : GetColumn st cid = some P) (hN : GetColumn st lid = some N) (hne : cid ≠ lid)
    (hPC : GetBead st P.call = some PC) (hNC : GetBead st N.call = some NC)
    (hcall : N.call ≠ P.call)
    (hPn : P.next = -1 ∨ (GetColumn st P.next).isSome)
    (hPCn : PC.next = -1 ∨ (GetBead st PC.next).isSome) :
    ∃ st', appendLink st cid lid = some st' := by
  obtain ⟨s1, e1, c1, b1, -⟩ := modColumn_run (fun c => { c with next := P.next }) hN
  have hN1 : GetColumn s1 lid = some { N with next := P.next } := by rw [c1, if_pos rfl]
  obtain ⟨s2, e2, c2, b2, -⟩ := modColumn_run (fun c => { c with prev := cid }) hN1
  have hNC2 : GetBead s2 N.call = some NC := by
    rw [GetBead_congr b2, GetBead_congr b1, hNC]
  obtain ⟨s3, e3, g3, r3⟩ := modBead_run (fun b => { b with next := PC.next }) hNC2
  have hNC3 : GetBead s3 N.call = some { NC with next := PC.next } := by rw [g3, if_pos rfl]
  obtain ⟨s4, e4, g4, r4⟩ := modBead_run (fun b => { b with prev := PC.boffset }) hNC3
  have colS : ∀ j, GetColumn s4 j = GetColumn s2 j := fun j => by
    rw [GetColumn_congr r4.2.2.1, GetColumn_congr r3.2.2.1]
  have hcol2 : ∀ j, GetColumn s2 j =
      if j = lid then some { N with next := P.next, prev := cid } else GetColumn st j := by
    intro j
    rw [c2 j]
    by_cases hj : j = lid
    · rw [if_pos hj, if_pos hj]
    · rw [if_neg hj, if_neg hj, c1 j, if_neg hj]
  have hbead4 : ∀ j, GetBead s4 j =
      if j = N.call then some { NC with next := PC.next, prev := PC.boffset }
      else GetBead st j := by
    intro j
    rw [g4 j]
    by_cases hj : j = N.call
    · rw [if_pos hj, if_pos hj]
    · rw [if_neg hj, if_neg hj, g3 j, if_neg hj, GetBead_congr b2, GetBead_congr b1]
  have hnew : appendLinkNew st cid lid = some s4 := by
    unfold appendLinkNew
    simp only [hN, hP, hPC, Option.bind_eq_bind, Option.some_bind, e1, e2, e3, e4]
  have hN4 : GetColumn s4 lid = some { N with next := P.next, prev := cid } := by
    rw [colS, hcol2, if_pos rfl]
  have hP4 : GetColumn s4 cid = some P := by
    rw [colS, hcol2, if_neg hne, hP]
  have hcall4 : GetBead s4 N.call = some { NC with next := PC.next, prev := PC.boffset } := by
    rw [hbead4, if_pos rfl]
  obtain ⟨s5, e5, c5, b5, -⟩ := modColumn_run (fun c => { c with next := N.lid }) hP4
  have hPC5 : GetBead s5 P.call = some PC := by
    rw [GetBead_congr b5, hbead4, if_neg (Ne.symm hcall), hPC]
  obtain ⟨s6, e6, g6, r6⟩ := modBead_run (fun b => { b with next := NC.boffset }) hPC5
  have hN6 : GetColumn s6 lid = some { N with next := P.next, prev := cid } := by
    rw [GetColumn_congr r6.2.2.1, c5, if_neg (Ne.symm hne), hN4]
  have hPn6 : P.next = -1 ∨ (GetColumn s6 P.next).isSome := by
    refine hPn.imp id fun h => ?_
    rw [GetColumn_congr r6.2.2.1, c5]
    by_cases hj : P.next = cid
    · rw [if_pos hj]; rfl
    · rw [if_neg hj, colS, hcol2]
      by_cases hj2 : P.next = lid
      · rw [if_pos hj2]; rfl
      · rw [if_neg hj2]; exact h
  obtain ⟨s7, e7, b7⟩ := patchColumn_run (fun c => { c with prev := N.lid }) hPn6
  have hbead7 : ∀ j, GetBead s7 j =
      if j = P.call then some { PC with next := NC.boffset } else GetBead s4 j := by
    intro j
    rw [GetBead_congr b7, g6 j]
    by_cases hj : j = P.call
    · rw [if_pos hj, if_pos hj]
    · rw [if_neg hj, if_neg hj, GetBead_congr b5]
  have hcall7 : GetBead s7 N.call = some { NC with next := PC.next, prev := PC.boffset } := by
    rw [hbead7, if_neg hcall, hcall4]
  have hPCn7 : PC.next = -1 ∨ (GetBead s7 PC.next).isSome := by
    refine hPCn.imp id fun h => ?_
    rw [hbead7]
    by_cases hj : PC.next = P.call
    · rw [if_pos hj]; rfl
    · rw [if_neg hj, hbead4]
      by_cases hj2 : PC.next = N.call
      · rw [if_pos hj2]; rfl
      · rw [if_neg hj2]; exact h
  obtain ⟨s8, e8⟩ := patchBead_run (fun b => { b with prev := NC.boffset }) hPCn7
  refine ⟨s8, ?_⟩
  unfold appendLink
  simp only [hP, Option.bind_eq_bind, Option.some_bind, hnew]
  unfold appendLinkOld
  simp only [hN4, Option.bind_eq_bind, Option.some_bind, hcall4, e5, e6, hN6, e7, hcall7, e8]

theorem modMANode_run {st : Store} {i : Int} {y : MANode} (f : MANode → MANode)
    (h : GetMANode st i = some y) :
    ∃ s, modMANode st i f = some s ∧ (GetMANode s i).isSome := by
  have e : modMANode st i f = some { st with manodeStore := setAt st.manodeStore i (f y) } := by
    simp [modMANode, h]
  refine ⟨_, e, ?_⟩
  rw [(modMANode_get e).1 i, if_pos rfl, h]
  rfl

theorem modMANodeIf_run {c : Bool} {st : Store} {i : Int} (f : MANode → MANode)
    (h : (GetMANode st i).isSome) :
    ∃ s, modMANodeIf c st i f = some s ∧ (GetMANode s i).isSome := by
  unfold modMANodeIf
  cases c with
  | false => exact ⟨st, by simp, h⟩
  | true =>
    obtain ⟨y, hy⟩ := Option.isSome_iff_exists.1 h
    obtain ⟨s, e, hs⟩ := modMANode_run f hy
    exact ⟨s, by simpa using e, hs⟩

theorem AddColumnToMANode_run {st : Store} {ma : Int} (column : Column)
    (h : (GetMANode st ma).isSome) : ∃ s, AddColumnToMANode st ma column = some s := by
  obtain ⟨y, hy⟩ := Option.isSome_iff_exists.1 h
  obtain ⟨s1, e1, h1⟩ := modMANode_run (fun m => { m with columns := m.columns ++ [column.lid] }) hy
  obtain ⟨s2, e2, h2⟩ := modMANodeIf_run (c := decide (column.next = -1))
    (fun m => { m with last := column.lid }) h1
  obtain ⟨s3, e3, -⟩ := modMANodeIf_run (c := decide (column.prev = -1))
    (fun m => { m with first := column.lid }) h2
  refine ⟨s3, ?_⟩
  unfold AddColumnToMANode
  simp only [Option.bind_eq_bind, Option.some_bind, e1, e2, e3]

/-- The registration of a new column `lid` with the MANode of its neighbour
`cid` succeeds when both columns exist and `cid` belongs to a MANode. -/
theorem columnRegister_run {st : Store} {cid lid d : Int} {X N : Column}
    (hX : GetColumn st cid = some X) (hN : GetColumn st lid = some N) (hne : cid ≠ lid)
    (hm : (GetMANode st X.ma_id).isSome) : ∃ st', columnRegister st cid lid d = some st' := by
  obtain ⟨s1, e1, c1, -, m1, -⟩ := modColumn_run (fun c => { c with ma_id := X.ma_id }) hN
  have hX1 : GetColumn s1 cid = some X := by rw [c1, if_neg hne, hX]
  have hN1 : GetColumn s1 lid = some { N with ma_id := X.ma_id } := by rw [c1, if_pos rfl]
  obtain ⟨s2, e2, c2, -, m2, -⟩ := modColumn_run (fun c => { c with ma_index := X.ma_index + d }) hN1
  have hN2 : GetColumn s2 lid = some { N with ma_id := X.ma_id, ma_index := X.ma_index + d } := by
    rw [c2, if_pos rfl]
  have hm2 : (GetMANode s2 X.ma_id).isSome := by
    unfold GetMANode at hm ⊢
    rw [m2, m1]
    exact hm
  obtain ⟨s3, e3⟩ := AddColumnToMANode_run
    { N with ma_id := X.ma_id, ma_index := X.ma_index + d } hm2
  refine ⟨s3, ?_⟩
  unfold columnRegister
  simp only [hX, Option.bind_eq_bind, Option.some_bind, e1, hX1, e2, hN2, e3]

/-- `AlignBead` on a column with a bead under its call bead and a bead that
is in no column and whose character is tallied: the closed form of the store
it returns. -/
theorem VWF.alignBead_run {st : Store} {ch : Int → List Int} {cid bid : Int} {column : Column}
    {align : Bead} {c : Char} (hw : VWF st ch)
    (hcol : GetColumn st cid = some column) (hne : ch cid ≠ [])
    (halign : GetBead st bid = some align) (hfree : align.column_index = -1)
    (hc : beadChar st bid = some c) (htal : c ∈ RALPHABET ∨ c = 'n') :
    ∃ st' call first bc, GetBead st column.call = some call ∧
      GetBead st call.down = some first ∧ call.down = (ch cid).headD (-1) ∧
      AlignBead st cid bid = some (st', bid) ∧
      (∀ j, GetBead st' j =
        if j = bid then
          some { align with down := call.down, up := column.call, column_index := cid }
        else if j = column.call then some { call with down := bid }
        else if j = call.down then some { first with up := bid }
        else GetBead st j) ∧
      (∀ k, GetColumn st' k =
        if k = cid then some { column with base_count := bc } else GetColumn st k) ∧
      bc.depth = column.base_count.depth + 1 ∧
      GetBaseCount bc c = GetBaseCount column.base_count c + 1 ∧
      call.column_index = cid ∧ first.column_index = cid := by
  have hcv := ColVertAt_of_get hcol
  obtain ⟨-, ⟨callv, hcallv, hcc, -, hcf⟩, hchain, -, hmem, htally⟩ := hw.col cid _ hcv
  have hcallv' : VertAt st column.call = some callv := hcallv
  obtain ⟨call, hcall, hcve⟩ := VertAt_some hcallv'
  obtain ⟨e1, e2, e3⟩ := VertAt_get hcall hcallv'
  have hcallb : call.boffset = column.call := (hw.bead _ _ (VertAt_of_get hcall)).1
  have hcallf : call.frag_index = -1 := by
    rw [← hcve] at hcf
    exact hcf
  have hcallc : call.column_index = cid := by
    rw [e3]; exact hcc
  have hcid : cid ≠ -1 := VWF.col_nonneg hcv
  have hchain' : Chain st column.call (ch cid) := hchain
  obtain ⟨t, ht, htd⟩ := Chain_top hchain'
  have htd' : call.down = (ch cid).headD (-1) := by
    rw [VertAt_of_get hcall] at ht
    have := Option.some.inj ht
    rw [← this] at htd
    exact htd
  cases hl : ch cid with
  | nil => exact absurd hl hne
  | cons f l =>
    rw [hl] at htd'
    have hf : call.down = f := htd'
    obtain ⟨x, hx, hxc, hxf, -⟩ := hmem f (by rw [hl]; exact List.mem_cons_self _ _)
    obtain ⟨first, hfirst, hfv⟩ := VertAt_some hx
    rw [← hf] at hfirst
    have hfirstb : first.boffset = call.down := (hw.bead _ _ (VertAt_of_get hfirst)).1
    have hfirstc : first.column_index = cid := by rw [← hfv] at hxc; exact hxc
    have hfirstf : first.frag_index ≠ -1 := by rw [← hfv] at hxf; exact hxf
    have halignb : align.boffset = bid := (hw.bead _ _ (VertAt_of_get halign)).1
    have h1 : column.call ≠ bid := by
      intro h
      rw [h, halign] at hcall
      have := Option.some.inj hcall
      rw [← this, hfree] at hcallc
      exact hcid hcallc.symm
    have h2 : call.down ≠ bid := by
      intro h
      rw [h, halign] at hfirst
      have := Option.some.inj hfirst
      rw [← this, hfree] at hfirstc
      exact hcid hfirstc.symm
    have h3 : column.call ≠ call.down := by
      intro h
      rw [← h, hcall] at hfirst
      have := Option.some.inj hfirst
      rw [← this] at hfirstf
      exact hfirstf hcallf
    have hbase : GetBase st align.soffset = some c := by
      unfold beadChar at hc
      rw [halign] at hc
      exact hc
    obtain ⟨bc, hinc, hdepth, hcount⟩ := IncBaseCount_tallied column.base_count
      htally.2.1 htal
    obtain ⟨st', hrunA, hbeads, hcols, -, -, -⟩ :=
      AlignBead_run hcol hcall hfirst halign h1 h2 h3 hbase hinc
    refine ⟨st', call, first, bc, hcall, hfirst, hf, hrunA, ?_, hcols, hdepth, hcount, hcallc,
      hfirstc⟩
    intro j
    rw [hbeads, hfirstb, hcallb, halignb]

/-- One round of the gap-fill loop on a fragment bead `x`: a gap bead is put
after `x` and aligned in column `K`. -/
theorem fill_step {st : Store} {ch row : Int → List Int} {K x : Int} {X : Bead}
    (hv : VWF st ch) (hw : RWF st row) (hx : GetBead st x = some X)
    (hXf : X.frag_index ≠ -1) (hK : (GetColumn st K).isSome) (hKne : ch K ≠ []) :
    ∃ s1 s2, AppendGapBead st x = some (s1, (st.beadStore.length : Int)) ∧
      AlignBead s1 K st.beadStore.length = some (s2, (st.beadStore.length : Int)) ∧
      VWF s2 (fun c => if c = K then (st.beadStore.length : Int) :: ch K else ch c) ∧
      RWF s2 (fun fid => insertAfter x st.beadStore.length (row fid)) ∧
      GetBead st st.beadStore.length = none ∧
      (∀ j, fragOf s2 j = if j = st.beadStore.length then some X.frag_index else fragOf st j) ∧
      (∀ j, nextOf s2 j = if j = st.beadStore.length then some X.next
        else if j = x then some (st.beadStore.length : Int) else nextOf st j) ∧
      (∀ j, prevOf s2 j = if j = st.beadStore.length then some x
        else if X.next ≠ -1 ∧ j = X.next then some (st.beadStore.length : Int)
        else prevOf st j) ∧
      beadChar s2 st.beadStore.length = some '-' ∧
      (∀ j : Int, j ≠ st.beadStore.length → beadChar s2 j = beadChar st j) ∧
      (∀ j v, VertAt st j = some v → v.column_index ≠ K → VertAt s2 j = some v) ∧
      (GetColumn s2 K).isSome ∧ SameCols st s2 := by
  obtain ⟨colK, hcolK⟩ := Option.isSome_iff_exists.1 hK
  -- the gap bead
  obtain ⟨qv, hqv⟩ := Option.isSome_iff_exists.1 (hw.chars.chars hx).2
  have hnext : X.next = -1 ∨ ∃ nb nq, GetBead st X.next = some nb ∧
      getAt st.qualityStore nb.soffset = some nq := by
    by_cases hn : X.next = -1
    · exact Or.inl hn
    · right
      obtain ⟨nb, hnb, -⟩ := prevOf_some (hw.rows.next_back hx hXf hn).1
      obtain ⟨nq, hnq⟩ := Option.isSome_iff_exists.1 (hw.chars.chars hnb).2
      exact ⟨nb, nq, hnb, hnq⟩
  obtain ⟨s1, h1⟩ := AppendGapBead_run hx hqv hnext
  obtain ⟨v1, y, hy, hyc⟩ := hv.appendGap h1 hx hXf
  have w1 : RWF s1 (fun fid => insertAfter x st.beadStore.length (row fid)) :=
    ⟨hw.rows.appendGapped hw.offs h1, AppendGapBead_qwf h1 hw.chars, AppendGapBead_bwf h1 hw.offs⟩
  obtain ⟨X', qv', hX', -, hgn, hs1, -, -, hF, hN, hP, -, -⟩ := AppendGapBead_rows h1
  rw [hx] at hX'
  cases hX'
  obtain ⟨c1, c2⟩ := AppendGapBead_chars h1 hw.chars
  obtain ⟨_, _, _, _, _, _, _, hcs, _, _, _, _, _, _, hold⟩ := AppendGapBead_spec h1
  have hcolK1 : GetColumn s1 K = some colK := by rw [GetColumn_congr hcs, hcolK]
  -- aligned in column `K`
  obtain ⟨s2, call, first, bc, hcall, hfirst, -, h2, hbeads, hcols, -, -, hcallc, hfirstc⟩ :=
    v1.alignBead_run hcolK1 hKne hy hyc c1 (Or.inl (by decide))
  have q2 := AlignBead_quiet h2
  have hvert1 : ∀ j v, VertAt st j = some v → VertAt s1 j = some v := by
    intro j v hj
    obtain ⟨z, hz, rfl⟩ := VertAt_some hj
    rw [VertAt_of_get (hold j z hz)]
    simp only [Bead.vert]
    split_ifs <;> rfl
  have hxb : X.boffset = x := hw.offs x X hx
  refine ⟨s1, s2, h1, h2, v1.alignBead h2 hy hyc, w1.quiet_r q2 (AlignBead_bsame h2), hgn,
    fun j => ?_, fun j => ?_, fun j => ?_, ?_, fun j hj => ?_, fun j v hj hvc => ?_, ?_,
    (AppendGapBead_sameCols h1).then_ (AlignBead_sameCols h2)⟩
  · rw [q2.1.2.2.2 j, hF j]
  · rw [q2.1.2.2.1 j, hN j]
  · rw [q2.1.2.1 j, hP j, hxb]
    by_cases hjg : j = st.beadStore.length
    · rw [if_pos hjg, if_pos hjg]
    · rw [if_neg hjg, if_neg hjg]
      by_cases hjn : X.next ≠ -1 ∧ j = X.next
      · rw [if_pos hjn, if_pos hjn, hjn.2, (hw.rows.next_back hx hXf hjn.1).1]
        rfl
      · rw [if_neg hjn, if_neg hjn]
  · rw [q2.chars_q]; exact c1
  · rw [q2.chars_q]; exact c2 j hj
  · have hv1 := hvert1 j v hj
    obtain ⟨z, hz, hzv⟩ := VertAt_some hv1
    have hzc : z.column_index ≠ K := by
      rw [← hzv] at hvc
      exact hvc
    have j1 : j ≠ st.beadStore.length := by
      intro e
      obtain ⟨z0, hz0, -⟩ := VertAt_some hj
      rw [e, hgn] at hz0
      cases hz0
    have j2 : j ≠ colK.call := by
      intro e
      rw [e, hcall] at hz
      cases hz
      exact hzc hcallc
    have j3 : j ≠ call.down := by
      intro e
      rw [e, hfirst] at hz
      cases hz
      exact hzc hfirstc
    unfold VertAt
    rw [hbeads j, if_neg j1, if_neg j2, if_neg j3]
    exact hv1
  · rw [hcols K, if_pos rfl]; rfl

theorem Forall₂_imp_mem {α β : Type} {R S : α → β → Prop} :
    ∀ {l1 : List α} {l2 : List β}, List.Forall₂ R l1 l2 →
      (∀ a b, a ∈ l1 → R a b → S a b) → List.Forall₂ S l1 l2 := by
  intro l1 l2 h
  induction h with
  | nil => intro _; exact List.Forall₂.nil
  | cons hab _ ih =>
    intro hm
    exact List.Forall₂.cons (hm _ _ (List.mem_cons_self _ _) hab)
      (ih fun a b ha hr => hm a b (List.mem_cons_of_mem _ ha) hr)

theorem needGap_congr {st st' : Store} {bid x : Int} (h : nextOf st' x = nextOf st x) :
    needGap st' bid x = needGap st bid x := by
  unfold needGap; rw [h]

theorem needGap_get {st : Store} {bid x : Int} {X : Bead} (hx : GetBead st x = some X) :
    needGap st bid x = true ↔ (X.next ≠ -1 ∧ X.next ≠ bid) := by
  unfold needGap
  rw [nextOf_get hx]
  simp

theorem isSome_of_vert {st : Store} {j : Int} {v : Bead} (h : VertAt st j = some v) :
    (GetBead st j).isSome := by
  obtain ⟨b, hb, -⟩ := VertAt_some h
  rw [hb]; rfl

/-- The gap-fill loop of `ColumnAppend` run down the beads `todo` below
`cur` in column `cid`: it ends, every bead of `todo` that has a successor
other than `bid` gets a gap bead after it, and the gap beads are stacked in
column `K`, the last one on top. -/
theorem appendFill_run (K bid cid : Int) (hKc : K ≠ cid) :
    ∀ (todo : List Int) (fuel : Nat) (st : Store) (cur : Int) (ch row : Int → List Int),
      VWF st ch → RWF st row → (GetColumn st K).isSome → ch K ≠ [] →
      Chain st cur todo → (∃ v, VertAt st cur = some v ∧ v.column_index = cid) →
      (∀ x, x ∈ todo → ∃ v, VertAt st x = some v ∧ v.column_index = cid ∧ v.frag_index ≠ -1) →
      todo.Nodup → todo.length < fuel →
      ∃ st' gs row', appendFill K bid fuel st cur = some st' ∧
        VWF st' (fun c => if c = K then gs.reverse ++ ch K else ch c) ∧ RWF st' row' ∧
        List.Forall₂ (GapAfter st st') (todo.filter (needGap st bid)) gs ∧
        FillFrame K st st' (todo.filter (needGap st bid)) ∧ SameCols st st' ∧
        (GetColumn st' K).isSome := by
  intro todo
  induction todo with
  | nil =>
    intro fuel st cur ch row hv hw hK hKne hchain hcur _ _ hfuel
    obtain ⟨t, ht, htd⟩ := hchain
    obtain ⟨cb, hcb, hcbv⟩ := VertAt_some ht
    have hcd : cb.down = -1 := by rw [← hcbv] at htd; exact htd
    have hc1 : cur ≠ -1 := fun e => by rw [e, GetBead_neg_one] at hcb; cases hcb
    cases fuel with
    | zero => simp at hfuel
    | succ k =>
      refine ⟨st, [], row, ?_, ?_, hw, List.Forall₂.nil, ?_, SameCols.rfl_ st, hK⟩
      · unfold appendFill
        rw [if_neg hc1, hcb]
        simp [hcd]
      · have : (fun c => if c = K then ([] : List Int).reverse ++ ch K else ch c) = ch := by
          funext c; by_cases hc : c = K <;> simp [hc]
        rw [this]; exact hv
      · exact ⟨fun j _ => ⟨rfl, rfl⟩, fun j _ _ => rfl, fun j _ _ => rfl, fun j v h _ => h⟩
  | cons x rest ih =>
    intro fuel st cur ch row hv hw hK hKne hchain hcur hmem hnd hfuel
    obtain ⟨t, xv, ht, htd, hxv, hxu, hrest⟩ := hchain
    obtain ⟨cb, hcb, hcbv⟩ := VertAt_some ht
    have hcd : cb.down = x := by rw [← hcbv] at htd; exact htd
    have hc1 : cur ≠ -1 := fun e => by rw [e, GetBead_neg_one] at hcb; cases hcb
    obtain ⟨X, hX, hXv⟩ := VertAt_some hxv
    have hx1 : x ≠ -1 := fun e => by rw [e, GetBead_neg_one] at hX; cases hX
    obtain ⟨xv', hxv', hxc, hxf⟩ := hmem x (List.mem_cons_self _ _)
    rw [hxv] at hxv'
    cases hxv'
    have hXf : X.frag_index ≠ -1 := by rw [← hXv] at hxf; exact hxf
    have hnd' := List.nodup_cons.1 hnd
    cases fuel with
    | zero => simp at hfuel
    | succ k =>
      have hfuel' : rest.length < k := by simp at hfuel; omega
      by_cases hgap : X.next ≠ -1 ∧ X.next ≠ bid
      · -- a gap bead is put after `x`
        obtain ⟨s1, s2, h1, h2, v2, w2, hgn, hF, hN, hP, hc0, hc, hvf, hK2, hsc⟩ :=
          fill_step hv hw hX hXf hK hKne
        have hxg : x ≠ (st.beadStore.length : Int) := fun e => by
          rw [e, hgn] at hX; cases hX
        have hmem2 : ∀ y, y ∈ rest → ∃ v, VertAt s2 y = some v ∧ v.column_index = cid ∧
            v.frag_index ≠ -1 := by
          intro y hy
          obtain ⟨v, a, b, c⟩ := hmem y (List.mem_cons_of_mem _ hy)
          exact ⟨v, hvf y v a (by rw [b]; exact Ne.symm hKc), b, c⟩
        have hrest2 : Chain s2 x rest := by
          refine Chain_frame rest x hrest (fun t' ht' => ⟨t', ?_, rfl⟩) (fun y hy => ?_)
          · exact hvf x t' ht' (by rw [hxv] at ht'; cases ht'; rw [hxc]; exact Ne.symm hKc)
          · obtain ⟨v, a, b, c⟩ := hmem y (List.mem_cons_of_mem _ hy)
            rw [a]
            exact hvf y v a (by rw [b]; exact Ne.symm hKc)
        obtain ⟨st', gs, row', hrun, v', w', hpairs, hframe, hsc', hK'⟩ :=
          ih k s2 x _ _ v2 w2 hK2 (by simp) hrest2
            ⟨xv, hvf x xv hxv (by rw [hxc]; exact Ne.symm hKc), hxc⟩ hmem2 hnd'.2 hfuel'
        obtain ⟨f1, f2, f3, f4⟩ := hframe
        have hold : ∀ j, (GetBead st j).isSome → (GetBead s2 j).isSome ∧
            j ≠ (st.beadStore.length : Int) := by
          intro j hj
          have hjg : j ≠ (st.beadStore.length : Int) := fun e => by
            rw [e, hgn] at hj; cases hj
          refine ⟨?_, hjg⟩
          obtain ⟨b, hb⟩ := Option.isSome_iff_exists.1 hj
          have := hF j
          rw [if_neg hjg, fragOf_get hb] at this
          obtain ⟨b2, hb2, -⟩ := fragOf_some this
          rw [hb2]; rfl
        have hrestnext : ∀ y, y ∈ rest → nextOf s2 y = nextOf st y := by
          intro y hy
          obtain ⟨v, a, -⟩ := hmem y (List.mem_cons_of_mem _ hy)
          rw [hN y, if_neg (hold y (isSome_of_vert a)).2,
            if_neg (fun e => hnd'.1 (by rw [← e]; exact hy))]
        have hfilt : rest.filter (needGap s2 bid) = rest.filter (needGap st bid) :=
          List.filter_congr fun y hy => needGap_congr (hrestnext y hy)
        have hfx : (x :: rest).filter (needGap st bid) = x :: rest.filter (needGap st bid) := by
          rw [List.filter_cons, if_pos ((needGap_get hX).2 hgap)]
        rw [hfilt] at hpairs f2 f3
        have hgs2 : (GetBead s2 st.beadStore.length).isSome := by
          have := hF st.beadStore.length
          rw [if_pos rfl] at this
          obtain ⟨b2, hb2, -⟩ := fragOf_some this
          rw [hb2]; rfl
        have hsub : ∀ y, y ∈ rest.filter (needGap st bid) → y ∈ rest := fun y hy =>
          (List.mem_filter.1 hy).1
        have hgrest : (st.beadStore.length : Int) ∉ rest := by
          intro hm
          obtain ⟨v, a, -⟩ := hmem _ (List.mem_cons_of_mem _ hm)
          exact (hold _ (isSome_of_vert a)).2 rfl
        have hnextg : ∀ y, y ∈ rest → nextOf st y ≠ some (st.beadStore.length : Int) := by
          intro y hy e
          obtain ⟨v, a, -, c⟩ := hmem y (List.mem_cons_of_mem _ hy)
          obtain ⟨Y, hY, hYv⟩ := VertAt_some a
          rw [nextOf_get hY] at e
          have e' : Y.next = st.beadStore.length := Option.some.inj e
          have hYf : Y.frag_index ≠ -1 := by rw [← hYv] at c; exact c
          obtain ⟨nb, hnb, -⟩ := prevOf_some (hw.rows.next_back hY hYf (by rw [e']; omega)).1
          rw [e', hgn] at hnb
          cases hnb
        refine ⟨st', (st.beadStore.length : Int) :: gs, row', ?_, ?_, w', ?_, ?_,
          hsc.then_ hsc', hK'⟩
        · unfold appendFill
          rw [if_neg hc1, hcb]
          simp only [hcd, if_neg hx1, hX, if_pos hgap, h1, h2]
          exact hrun
        · have : (fun c => if c = K then ((st.beadStore.length : Int) :: gs).reverse ++ ch K
              else ch c) = (fun c => if c = K then gs.reverse ++
                (if K = K then (st.beadStore.length : Int) :: ch K else ch K)
              else if c = K then (st.beadStore.length : Int) :: ch K else ch c) := by
            funext c
            by_cases hc' : c = K
            · simp [hc']
            · simp [hc']
          rw [this]; exact v'
        · rw [hfx]
          refine List.Forall₂.cons ⟨hgn, ?_, ?_, ?_, ?_, ?_⟩ ?_
          · rw [f2 x (hold x (by rw [hX]; rfl)).1 (fun hm => hnd'.1 (hsub x hm)), hN x,
              if_neg hxg, if_pos rfl]
          · rw [f3 _ hgs2 (fun y hy => by rw [hrestnext y (hsub y hy)]; exact hnextg y (hsub y hy)),
              hP, if_pos rfl]
          · rw [f2 _ hgs2 (fun hm => hgrest (hsub _ hm)), hN, if_pos rfl, nextOf_get hX]
          · rw [(f1 _ hgs2).1, hF, if_pos rfl, fragOf_get hX]
          · rw [(f1 _ hgs2).2, hc0]
          · refine Forall₂_imp_mem hpairs fun y g hy hyg => ?_
            obtain ⟨g1, g2, g3, g4, g5, g6⟩ := hyg
            have hyr := hsub y hy
            obtain ⟨v, a, -⟩ := hmem y (List.mem_cons_of_mem _ hyr)
            refine ⟨?_, g2, g3, ?_, ?_, g6⟩
            · cases hg0 : GetBead st g with
              | none => rfl
              | some z =>
                have := (hold g (by rw [hg0]; rfl)).1
                rw [g1] at this
                cases this
            · rw [g4, hrestnext y hyr]
            · rw [g5, hF y, if_neg (hold y (isSome_of_vert a)).2]
        · rw [hfx]
          refine ⟨fun j hj => ?_, fun j hj hjx => ?_, fun j hj hjx => ?_, fun j v hj hvc => ?_⟩
          · obtain ⟨a, b⟩ := hold j hj
            rw [(f1 j a).1, (f1 j a).2, hF j, if_neg b, hc j b]
            exact ⟨rfl, rfl⟩
          · obtain ⟨a, b⟩ := hold j hj
            rw [f2 j a (fun hm => hjx (List.mem_cons_of_mem _ hm)), hN j, if_neg b,
              if_neg (fun e => hjx (by rw [e]; exact List.mem_cons_self _ _))]
          · obtain ⟨a, b⟩ := hold j hj
            rw [f3 j a (fun y hy => by
              rw [hrestnext y (hsub y hy)]
              exact hjx y (List.mem_cons_of_mem _ hy)), hP j, if_neg b, if_neg]
            rintro ⟨-, e⟩
            exact hjx x (List.mem_cons_self _ _) (by rw [nextOf_get hX, e])
          · exact f4 j v (hvf j v hj hvc) hvc
      · -- no gap bead for `x`
        obtain ⟨st', gs, row', hrun, v', w', hpairs, hframe, hsc', hK'⟩ :=
          ih k st x ch row hv hw hK hKne hrest ⟨xv, hxv, hxc⟩
            (fun y hy => hmem y (List.mem_cons_of_mem _ hy)) hnd'.2 hfuel'
        have hfx : (x :: rest).filter (needGap st bid) = rest.filter (needGap st bid) := by
          rw [List.filter_cons, if_neg (fun e => hgap ((needGap_get hX).1 e))]
        refine ⟨st', gs, row', ?_, v', w', by rw [hfx]; exact hpairs, by rw [hfx]; exact hframe,
          hsc', hK'⟩
        unfold appendFill
        rw [if_neg hc1, hcb]
        simp only [hcd, if_neg hx1, hX, if_neg hgap]
        exact hrun

theorem tallied_of_inc {bc bc' : BaseCount} {c : Char} (h : IncBaseCount bc c = some bc') :
    c ∈ RALPHABET ∨ c = 'n' := by
  unfold IncBaseCount at h
  simp only at h
  split_ifs at h with hr
  by_cases hn : c = 'N' ∨ c = 'n'
  · rcases hn with e | e
    · left; rw [e]; decide
    · right; exact e
  · left
    by_contra hc
    apply hr
    right
    unfold countIndex BaseToInt RINDEX
    rw [if_neg hn, if_neg hc]
    omega

/-- `CreateColumn` on a bead that is in no column and whose character is
tallied, in well-formed stores. -/
theorem CreateColumn_grid {st : Store} {ch row : Int → List Int} {bid : Int} {b : Bead} {c : Char}
    (hv : VWF st ch) (hw : RWF st row)
    (hb : GetBead st bid = some b) (hfree : b.column_index = -1)
    (hc : beadChar st bid = some c) (htal : c ∈ RALPHABET ∨ c = 'n') :
    ∃ s1 bc, CreateColumn st bid = some (s1, (st.columnStore.length : Int)) ∧
      VWF s1 (fun k => if k = st.columnStore.length then [bid] else ch k) ∧ RWF s1 row ∧
      (∀ j, GetBead s1 j =
        if j = bid then
          some { b with up := st.beadStore.length, column_index := st.columnStore.length }
        else if j = st.beadStore.length then some (callBead st bid)
        else GetBead st j) ∧
      (∀ k, GetColumn s1 k =
        if k = st.columnStore.length then some (freshColumn st bc) else GetColumn st k) ∧
      s1.manodeStore = st.manodeStore ∧
      (∀ j, (GetBead st j).isSome → beadChar s1 j = beadChar st j) := by
  have hbase : GetBase st b.soffset = some c := by
    unfold beadChar at hc
    rw [hb] at hc
    exact hc
  obtain ⟨bc, hinc, -, -⟩ := IncBaseCount_tallied ResetBaseCount (by decide) htal
  obtain ⟨s1, e1, g1, c1, hs, hq, hf, hm, hl, hcl⟩ := CreateColumn_run hb hbase hinc
  have hNn : GetBead st st.beadStore.length = none := by
    unfold GetBead
    rw [getAt_eq_none_iff]
    omega
  have hbN : bid ≠ (st.beadStore.length : Int) := fun e => by
    rw [e, hNn] at hb; cases hb
  have hmap : ∀ {α : Type} (π : Bead → α), (∀ y : Bead,
      π { y with up := st.beadStore.length, column_index := st.columnStore.length } = π y) →
      ∀ j y, GetBead st j = some y → (GetBead s1 j).map π = some (π y) := by
    intro α π hπ j y hj
    rw [g1 j]
    by_cases hjb : j = bid
    · rw [if_pos hjb]
      rw [hjb, hb] at hj
      cases hj
      simp [hπ]
    · rw [if_neg hjb, if_neg (fun e => by rw [e, hNn] at hj; cases hj), hj]
      rfl
  have hnew : ∀ j y, GetBead s1 j = some y → GetBead st j = none → y = callBead st bid := by
    intro j y hj h0
    rw [g1 j] at hj
    by_cases hjb : j = bid
    · rw [hjb, hb] at h0; cases h0
    · rw [if_neg hjb] at hj
      by_cases hjN : j = st.beadStore.length
      · rw [if_pos hjN] at hj
        exact (Option.some.inj hj).symm
      · rw [if_neg hjN, h0] at hj
        cases hj
  refine ⟨s1, bc, e1, hv.createColumn e1 hb hfree, ⟨?_, ?_, ?_⟩, g1, c1, hm, ?_⟩
  · refine hw.rows.grow hf (fun j y hj => ⟨hmap Bead.prev (fun _ => rfl) j y hj,
      hmap Bead.next (fun _ => rfl) j y hj, hmap Bead.frag_index (fun _ => rfl) j y hj⟩)
      (fun j y hj h0 => ?_)
    rw [hnew j y hj h0]
    exact ⟨rfl, rfl, rfl⟩
  · refine hw.chars.ext_q (by rw [hs, hq]; simp [hw.chars.len]) (by rw [hs]; simp)
      (fun j y hj => ?_)
    cases h0 : GetBead st j with
    | none =>
      right
      rw [hnew j y hj h0, hs]
      simp [callBead]
    | some y0 =>
      left
      have := hmap Bead.soffset (fun _ => rfl) j y0 h0
      rw [hj] at this
      simp at this
      simp [this]
  · intro j y hj
    cases h0 : GetBead st j with
    | none =>
      rw [hnew j y hj h0]
      have hr := GetBead_some_range hj
      have hn := (getAt_eq_none_iff st.beadStore j).mp h0
      simp only [callBead]
      omega
    | some y0 =>
      have := hmap Bead.boffset (fun _ => rfl) j y0 h0
      rw [hj] at this
      simp at this
      rw [this]
      exact hw.offs j y0 h0
  · intro j hj
    obtain ⟨y, hy⟩ := Option.isSome_iff_exists.1 hj
    have hso := hmap Bead.soffset (fun _ => rfl) j y hy
    obtain ⟨y1, hy1, hy1s⟩ := Option.map_eq_some'.1 hso
    unfold beadChar
    rw [hy, hy1]
    simp only
    rw [hy1s]
    obtain ⟨c0, hc0⟩ := Option.isSome_iff_exists.1 (hw.chars.chars hy).1
    rw [hc0]
    exact GetBase_append hs hc0

theorem EndsAt_isSome {st : Store} {k : Int} : (EndsAt st k).isSome = (GetMANode st k).isSome := by
  unfold EndsAt
  cases GetMANode st k <;> rfl

theorem LinksAt_isSome {st : Store} {c : Int} : (LinksAt st c).isSome = (GetColumn st c).isSome := by
  unfold LinksAt
  cases GetColumn st c <;> rfl

/-- The column list is well formed, read off the linking fields. -/
theorem MWF.links {st : Store} (hm : MWF st) {c : Int} {k : Column}
    (h : LinksAt st c = some k) :
    k.next ≠ c ∧ k.prev ≠ c ∧ (k.next = -1 ∨ (LinksAt st k.next).isSome) ∧
      (k.prev = -1 ∨ (LinksAt st k.prev).isSome) ∧ (EndsAt st k.ma_id).isSome := by
  obtain ⟨col, hc, e1, e2, e3, -⟩ := LinksAt_fields h
  obtain ⟨m1, m2, m3, m4, m5⟩ := hm.col c col hc
  rw [← e1, ← e2, ← e3, LinksAt_isSome, LinksAt_isSome, EndsAt_isSome]
  exact ⟨m1, m2, m3, m4, m5⟩

theorem MWF.from_links {st : Store}
    (h : ∀ c k, LinksAt st c = some k →
      k.next ≠ c ∧ k.prev ≠ c ∧ (k.next = -1 ∨ (LinksAt st k.next).isSome) ∧
        (k.prev = -1 ∨ (LinksAt st k.prev).isSome) ∧ (EndsAt st k.ma_id).isSome) : MWF st := by
  refine ⟨fun c col hc => ?_⟩
  have := h c col.links (LinksAt_get hc)
  rw [LinksAt_isSome, LinksAt_isSome, EndsAt_isSome] at this
  exact this

/-- `ColumnAppend` keeps the column list well formed. -/
theorem MWF.appended {st st' : Store} {cid bid lid : Int} {P : Column} (hm : MWF st)
    (h : ColumnAppend st cid bid = some (st', lid)) (hP : GetColumn st cid = some P) :
    MWF st' := by
  have hPl := LinksAt_get hP
  obtain ⟨p1, p2, p3, p4, p5⟩ := hm.links hPl
  have hcl : (LinksAt st cid).isSome := by rw [hPl]; rfl
  have hn2 : P.links.next ≠ st.columnStore.length := by
    rcases p3 with e | e
    · rw [e]; omega
    · obtain ⟨k, hk⟩ := Option.isSome_iff_exists.1 e
      have := (LinksAt_range hk).2
      omega
  obtain ⟨hlid, hnone, ⟨N, hN, n1, n2, n3, n4⟩, hcid, hother, e, he, hends⟩ :=
    ColumnAppend_links h hPl p1 hn2
  have hcl' : cid ≠ lid := fun e => by rw [e, hnone] at hcl; cases hcl
  have hkeep : ∀ j, (LinksAt st j).isSome → (LinksAt st' j).isSome := by
    intro j hj
    by_cases hjl : j = lid
    · rw [hjl, hnone] at hj; cases hj
    · by_cases hjc : j = cid
      · rw [hjc, hcid]; rfl
      · rw [hother j hjl hjc]
        split_ifs
        · obtain ⟨k, hk⟩ := Option.isSome_iff_exists.1 hj
          rw [hk]; rfl
        · exact hj
  have hkeepE : ∀ k, (EndsAt st k).isSome → (EndsAt st' k).isSome := by
    intro k hk
    rw [hends k]
    by_cases hk' : k = P.links.ma_id
    · rw [if_pos hk']; rfl
    · rw [if_neg hk']; exact hk
  have hlid' : (LinksAt st' lid).isSome := by rw [hN]; rfl
  have hnl : ∀ j, (LinksAt st j).isSome → j ≠ lid := fun j hj e => by
    rw [e, hnone] at hj; cases hj
  refine MWF.from_links fun c k hk => ?_
  by_cases hcl1 : c = lid
  · rw [hcl1, hN] at hk
    cases hk
    rw [n2, n3, n4, hcl1]
    refine ⟨?_, hcl', p3.imp id (hkeep _), Or.inr (hkeep _ hcl), hkeepE _ p5⟩
    rcases p3 with e | e
    · rw [e]
      have := (LinksAt_range hN).1
      omega
    · exact hnl _ e
  · by_cases hcc : c = cid
    · rw [hcc, hcid] at hk
      cases hk
      rw [hcc]
      exact ⟨Ne.symm hcl', p2, Or.inr hlid', p4.imp id (hkeep _), hkeepE _ p5⟩
    · rw [hother c hcl1 hcc] at hk
      by_cases hcn : P.links.next ≠ -1 ∧ c = P.links.next
      · rw [if_pos hcn] at hk
        obtain ⟨k0, hk0, hk0e⟩ := Option.map_eq_some'.1 hk
        obtain ⟨q1, q2, q3, q4, q5⟩ := hm.links hk0
        rw [← hk0e]
        exact ⟨q1, Ne.symm hcl1, q3.imp id (hkeep _), Or.inr hlid', hkeepE _ q5⟩
      · rw [if_neg hcn] at hk
        obtain ⟨q1, q2, q3, q4, q5⟩ := hm.links hk
        exact ⟨q1, q2, q3.imp id (hkeep _), q4.imp id (hkeep _), hkeepE _ q5⟩

/-- `FirstColumn` keeps the column list well formed. -/
theorem MWF.seeded {st st' : Store} {mid bid lid : Int} (hm : MWF st)
    (h : FirstColumn st mid bid = some (st', lid)) : MWF st' := by
  obtain ⟨hlid, hnone, hother, ⟨N, hN, n1, n2, n3, n4⟩, ⟨e, he⟩, hends⟩ := FirstColumn_links h
  have hkeep : ∀ j, (LinksAt st j).isSome → (LinksAt st' j).isSome := by
    intro j hj
    by_cases hjl : j = lid
    · rw [hjl, hnone] at hj; cases hj
    · rw [hother j hjl]; exact hj
  have hkeepE : ∀ k, (EndsAt st k).isSome → (EndsAt st' k).isSome := by
    intro k hk
    rw [hends k]
    split_ifs
    · rfl
    · exact hk
  refine MWF.from_links fun c k hk => ?_
  by_cases hcl1 : c = lid
  · rw [hcl1, hN] at hk
    cases hk
    have := (LinksAt_range hN).1
    rw [n2, n3, n4, hcl1]
    refine ⟨by omega, by omega, Or.inl rfl, Or.inl rfl, ?_⟩
    rw [hends, if_pos rfl]; rfl
  · rw [hother c hcl1] at hk
    obtain ⟨q1, q2, q3, q4, q5⟩ := hm.links hk
    exact ⟨q1, q2, q3.imp id (hkeep _), q4.imp id (hkeep _), hkeepE _ q5⟩

theorem AddColumnToMANode_beads {st st' : Store} {ma : Int} {column : Column}
    (h : AddColumnToMANode st ma column = some st') : st'.beadStore = st.beadStore := by
  have := (AddColumnToMANode_vsame h).1
  have q := AddColumnToMANode_quiet h
  unfold AddColumnToMANode at h
  simp only [Option.bind_eq_bind, Option.bind_eq_some] at h
  obtain ⟨s1, h1, s2, h2, h3⟩ := h
  have b : ∀ {a b : Store} {i : Int} {f : MANode → MANode}, modMANode a i f = some b →
      b.beadStore = a.beadStore := by
    intro a b i f hm
    obtain ⟨m, _, rfl⟩ := modMANode_spec hm
    rfl
  have bi : ∀ {c : Bool} {a b : Store} {i : Int} {f : MANode → MANode},
      modMANodeIf c a i f = some b → b.beadStore = a.beadStore := by
    intro c a b' i f hm
    unfold modMANodeIf at hm
    split_ifs at hm
    · exact b hm
    · simp at hm; rw [hm]
  rw [bi h3, bi h2, b h1]

theorem columnRegister_beads {st st' : Store} {cid lid d : Int}
    (h : columnRegister st cid lid d = some st') : st'.beadStore = st.beadStore := by
  unfold columnRegister at h
  simp only [Option.bind_eq_bind, Option.bind_eq_some] at h
  obtain ⟨_, _, s1, h1, _, _, s2, h2, _, _, h3⟩ := h
  rw [AddColumnToMANode_beads h3, (modColumn_get h2).2.1, (modColumn_get h1).2.1]

theorem fragOf_isSome {st : Store} {j : Int} : (fragOf st j).isSome = (GetBead st j).isSome := by
  unfold fragOf
  cases GetBead st j <;> rfl

/-- `ColumnAppend(cid, bid)` in well-formed stores, for a column `cid` and a
bead `bid` that is in no column and whose character is tallied: it returns
the new column; the beads of `cid` that have a successor other than `bid`
get a gap bead each, and the new column holds the gap beads over `bid`. -/
theorem ColumnAppend_run {st : Store} {ch row : Int → List Int} {cid bid : Int} {P : Column}
    {b : Bead} {c : Char} (hg : GWF st ch row)
    (hP : GetColumn st cid = some P) (hb : GetBead st bid = some b)
    (hfree : b.column_index = -1) (hc : beadChar st bid = some c)
    (htal : c ∈ RALPHABET ∨ c = 'n') :
    ∃ st' gs row', ColumnAppend st cid bid = some (st', (st.columnStore.length : Int)) ∧
      GWF st' (fun k => if k = st.columnStore.length then gs.reverse ++ [bid] else ch k) row' ∧
      List.Forall₂ (GapAfter st st') ((ch cid).filter (needGap st bid)) gs ∧
      (∀ j y, GetBead st j = some y → y.frag_index ≠ -1 →
        fragOf st' j = some y.frag_index ∧ beadChar st' j = beadChar st j ∧
        (j ∉ (ch cid).filter (needGap st bid) → nextOf st' j = some y.next)) := by
  obtain ⟨hv, hw, hm⟩ := hg
  have hcv := ColVertAt_of_get hP
  obtain ⟨-, ⟨callv, hcallv, hcallc, -, hcallf⟩, -, -, hmem0, -⟩ := hv.col cid _ hcv
  have hcallv' : VertAt st P.call = some callv := hcallv
  obtain ⟨PC, hPC, hPCv⟩ := VertAt_some hcallv'
  have hPCf : PC.frag_index = -1 := by rw [← hPCv] at hcallf; exact hcallf
  have hPCc : PC.column_index = cid := by rw [← hPCv] at hcallc; exact hcallc
  have hcid1 : cid ≠ -1 := VWF.col_nonneg hcv
  have hcK : cid ≠ (st.columnStore.length : Int) := by
    have := (ColVertAt_range hcv).2
    omega
  have hNn : GetBead st st.beadStore.length = none := by
    unfold GetBead
    rw [getAt_eq_none_iff]
    omega
  have hbN : bid ≠ (st.beadStore.length : Int) := fun e => by
    rw [e, hNn] at hb; cases hb
  have hPcb : P.call ≠ bid := fun e => by
    rw [e, hb] at hPC
    cases hPC
    rw [hfree] at hPCc
    exact hcid1 hPCc.symm
  have hPcN : P.call ≠ (st.beadStore.length : Int) := fun e => by
    rw [e, hNn] at hPC; cases hPC
  -- the new column
  obtain ⟨s1, bc, e1, v1, w1, g1, c1, hm1, hch1⟩ := CreateColumn_grid hv hw hb hfree hc htal
  have hex1 : ∀ j, (GetBead st j).isSome → (GetBead s1 j).isSome := by
    intro j hj
    rw [g1 j]
    split_ifs
    · rfl
    · rfl
    · exact hj
  have hP1 : GetColumn s1 cid = some P := by rw [c1, if_neg hcK, hP]
  have hN1 : GetColumn s1 st.columnStore.length = some (freshColumn st bc) := by
    rw [c1, if_pos rfl]
  have hPC1 : GetBead s1 P.call = some PC := by rw [g1, if_neg hPcb, if_neg hPcN, hPC]
  have hNC1 : GetBead s1 (freshColumn st bc).call = some (callBead st bid) := by
    show GetBead s1 st.beadStore.length = _
    rw [g1, if_neg (Ne.symm hbN), if_pos rfl]
  obtain ⟨mw1, mw2, mw3, mw4, mw5⟩ := hm.col cid P hP
  have hPn1 : P.next = -1 ∨ (GetColumn s1 P.next).isSome := by
    refine mw3.imp id fun h => ?_
    rw [c1]
    split_ifs
    · rfl
    · exact h
  obtain ⟨cn, -⟩ := hw.rows.call P.call PC hPC hPCf
  have hPCn1 : PC.next = -1 ∨ (GetBead s1 PC.next).isSome := by
    refine cn.imp id fun h => hex1 _ ?_
    rw [← fragOf_isSome, h]; rfl
  obtain ⟨s2, e2⟩ := appendLink_run hP1 hN1 hcK hPC1 hNC1 (Ne.symm hPcN) hPn1 hPCn1
  have v2 := v1.same (appendLink_vsame e2)
  have m2 := appendLink_callMove w1 e2 hP1 hN1 (by rw [fragOf_get hPC1, hPCf])
    (by rw [fragOf_get hNC1]; rfl)
  have w2 := w1.callMove m2
  have hex2 : ∀ j, (GetBead st j).isSome → (GetBead s2 j).isSome := by
    intro j hj
    rw [← fragOf_isSome, m2.frag_c, fragOf_isSome]
    exact hex1 j hj
  -- the fragment beads up to the loop
  have hfr : ∀ j y, GetBead st j = some y → y.frag_index ≠ -1 →
      nextOf s2 j = some y.next ∧ fragOf s2 j = some y.frag_index ∧
        beadChar s2 j = beadChar st j := by
    intro j y hj hyf
    have hjN : j ≠ (st.beadStore.length : Int) := fun e => by rw [e, hNn] at hj; cases hj
    have hf1 : fragOf s1 j = some y.frag_index := by
      unfold fragOf
      rw [g1 j]
      by_cases hjb : j = bid
      · rw [if_pos hjb]
        rw [hjb, hb] at hj
        cases hj
        rfl
      · rw [if_neg hjb, if_neg hjN, hj]; rfl
    have hn1 : nextOf s1 j = some y.next := by
      unfold nextOf
      rw [g1 j]
      by_cases hjb : j = bid
      · rw [if_pos hjb]
        rw [hjb, hb] at hj
        cases hj
        rfl
      · rw [if_neg hjb, if_neg hjN, hj]; rfl
    have hne : fragOf s1 j ≠ some (-1) := by
      rw [hf1]
      intro e
      exact hyf (Option.some.inj e)
    refine ⟨by rw [(m2.2.2.2.1 j hne).2, hn1], by rw [m2.frag_c, hf1], ?_⟩
    rw [m2.1.chars_k, hch1 j (by rw [hj]; rfl)]
  -- the loop
  have hcv2 : ColVertAt s2 cid = some P.vert := by
    rw [(appendLink_vsame e2).2.1 cid]
    exact ColVertAt_of_get hP1
  obtain ⟨P2, hP2, hP2v⟩ := ColVertAt_some hcv2
  have hP2c : P2.call = P.call := by
    show P2.vert.call = P.vert.call
    rw [hP2v]
  have hcK2 : ColVertAt s2 st.columnStore.length = some (freshColumn st bc).vert := by
    rw [(appendLink_vsame e2).2.1]
    exact ColVertAt_of_get hN1
  obtain ⟨N2, hN2, -⟩ := ColVertAt_some hcK2
  obtain ⟨-, ⟨cv2, hcv2', hcv2c, -, -⟩, hchain2, hnd2, hmem2, -⟩ := v2.col cid _ hcv2
  simp only [if_neg hcK] at hchain2 hnd2 hmem2
  have hlen : (ch cid).length < s2.beadStore.length + 1 := by
    have := nodup_length_le s2.beadStore.length (ch cid) hnd2 fun x hx => by
      obtain ⟨v, hv', -⟩ := hmem2 x hx
      exact VertAt_range hv'
    omega
  obtain ⟨s3, gs, row3, e3, v3, w3, hpairs, hframe, hsc3, hK3⟩ :=
    appendFill_run st.columnStore.length bid cid (Ne.symm hcK) (ch cid)
      (s2.beadStore.length + 1) s2 P.call _ row v2 w2 (by rw [hN2]; rfl) (by simp)
      hchain2 ⟨cv2, hcv2', hcv2c⟩
      (fun x hx => by
        obtain ⟨v, a, b', c', -⟩ := hmem2 x hx
        exact ⟨v, a, b', c'⟩) hnd2 hlen
  obtain ⟨f1, f2, f3, f4⟩ := hframe
  -- the registration with the MANode
  have hPl1 : LinksAt s1 cid = some P.links := LinksAt_get hP1
  have hNl1 : LinksAt s1 st.columnStore.length = some (freshColumn st bc).links := LinksAt_get hN1
  obtain ⟨Pl, Nl, hPl, hNl, hman2, hlinks2⟩ := appendLink_links e2 hcK
  rw [hPl1] at hPl
  rw [hNl1] at hNl
  cases hPl
  cases hNl
  have hPnK : P.next ≠ (st.columnStore.length : Int) := by
    rcases mw3 with e | e
    · rw [e]; omega
    · obtain ⟨k, hk⟩ := Option.isSome_iff_exists.1 e
      have := (getAt_isSome_iff st.columnStore P.next).mp (by
        unfold GetColumn at hk; rw [hk]; rfl)
      omega
  have hl2 := hlinks2 hPnK mw1 rfl cid
  rw [if_neg hcK, if_pos rfl] at hl2
  have hl3 : LinksAt s3 cid = some { P.links with next := st.columnStore.length } := by
    rw [hsc3.1 cid, hl2]
  obtain ⟨X, hX, -, -, hXm, -⟩ := LinksAt_fields hl3
  obtain ⟨N3, hN3⟩ := Option.isSome_iff_exists.1 hK3
  have hman3 : (GetMANode s3 X.ma_id).isSome := by
    rw [hXm]
    unfold GetMANode at mw5 ⊢
    rw [hsc3.2, hman2, hm1]
    exact mw5
  obtain ⟨s4, e4⟩ := columnRegister_run (d := 1) hX hN3 hcK hman3
  have q4 := columnRegister_quiet e4
  have hrun : ColumnAppend st cid bid = some (s4, (st.columnStore.length : Int)) := by
    unfold ColumnAppend
    simp only [hb, Option.bind_eq_bind, Option.some_bind, e1, e2, hP2, hP2c, e3, e4,
      Option.pure_def]
  have hfilt : (ch cid).filter (needGap s2 bid) = (ch cid).filter (needGap st bid) := by
    refine List.filter_congr fun x hx => needGap_congr ?_
    obtain ⟨xv, hxv, -, hxf, -⟩ := hmem0 x hx
    obtain ⟨y, hy, hyv⟩ := VertAt_some hxv
    rw [(hfr x y hy (by rw [← hyv] at hxf; exact hxf)).1, nextOf_get hy]
  rw [hfilt] at hpairs f2
  have hch4 : (fun c => if c = (st.columnStore.length : Int) then gs.reverse ++
      (fun k => if k = (st.columnStore.length : Int) then [bid] else ch k) st.columnStore.length
      else (fun k => if k = (st.columnStore.length : Int) then [bid] else ch k) c) =
      (fun k => if k = (st.columnStore.length : Int) then gs.reverse ++ [bid] else ch k) := by
    funext k
    by_cases hk : k = (st.columnStore.length : Int)
    · simp [hk]
    · simp [hk]
  rw [hch4] at v3
  refine ⟨s4, gs, row3, hrun, ⟨v3.same (columnRegister_vsame e4),
    w3.quiet_r q4 (BSame.of_beads_b (columnRegister_beads e4)), hm.appended hrun hP⟩, ?_, ?_⟩
  · refine Forall₂_imp_mem hpairs fun x g hx hxg => ?_
    obtain ⟨a1, a2, a3, a4, a5, a6⟩ := hxg
    obtain ⟨xv, hxv, -, hxf, -⟩ := hmem0 x (List.mem_filter.1 hx).1
    obtain ⟨y, hy, hyv⟩ := VertAt_some hxv
    obtain ⟨r1, r2, r3⟩ := hfr x y hy (by rw [← hyv] at hxf; exact hxf)
    refine ⟨?_, ?_, ?_, ?_, ?_, ?_⟩
    · cases hg0 : GetBead st g with
      | none => rfl
      | some z =>
        have := hex2 g (by rw [hg0]; rfl)
        rw [a1] at this
        cases this
    · rw [q4.1.2.2.1, a2]
    · rw [q4.1.2.1, a3]
    · rw [q4.1.2.2.1, a4, r1, nextOf_get hy]
    · rw [q4.1.2.2.2, a5, r2, fragOf_get hy]
    · rw [q4.chars_q, a6]
  · intro j y hj hyf
    obtain ⟨r1, r2, r3⟩ := hfr j y hj hyf
    have hj2 := hex2 j (by rw [hj]; rfl)
    refine ⟨?_, ?_, fun hjx => ?_⟩
    · rw [q4.1.2.2.2, (f1 j hj2).1, r2]
    · rw [q4.chars_q, (f1 j hj2).2, r3]
    · rw [q4.1.2.2.1, f2 j hj2 hjx, r1]

/-- The bead `AppendArtificialFragToLocalStore` writes for character `k`. -/
theorem getAt_fragmentBeads_at {l : List Bead} {lid so : Int} {len k : Nat} (hk : k < len) :
    getAt (l ++ fragmentBeads lid l.length so len) ((l.length : Int) + k) =
      some { boffset := (l.length : Int) + k, soffset := so + k, foffset := k,
             prev := if k = 0 then -1 else (l.length : Int) + k - 1,
             next := if k + 1 = len then -1 else (l.length : Int) + k + 1,
             up := -1, down := -1, frag_index := lid, column_index := -1 } := by
  unfold getAt
  rw [if_neg (by omega)]
  have e : ((l.length : Int) + k).toNat = l.length + k := by omega
  rw [e, List.getElem?_append_right (by omega)]
  unfold fragmentBeads
  rw [List.getElem?_map]
  have e2 : l.length + k - l.length = k := by omega
  rw [e2, List.getElem?_range hk]
  rfl

theorem getAt_fragmentBeads_range {l : List Bead} {lid so : Int} {len : Nat} {j : Int} {y : Bead}
    (h : getAt (l ++ fragmentBeads lid l.length so len) j = some y) (hn : getAt l j = none) :
    ∃ k : Nat, k < len ∧ j = (l.length : Int) + k := by
  obtain ⟨h0, h1, h2⟩ := getAt_eq_some h
  have hn' := (getAt_eq_none_iff l j).mp hn
  have hlen : (fragmentBeads lid l.length so len).length = len := by
    unfold fragmentBeads; simp
  rw [List.length_append, hlen] at h1
  exact ⟨j.toNat - l.length, by omega, by omega⟩

/-- The beads of a new fragment, from its character `k0` on, are linked in
order. -/
theorem Seg_fragmentBeads {st' : Store} {N : Int} {len : Nat}
    (hp : ∀ k : Nat, k < len → prevOf st' (N + k) = some (if k = 0 then -1 else N + k - 1))
    (hn : ∀ k : Nat, k < len → nextOf st' (N + k) = some (if k + 1 = len then -1 else N + k + 1)) :
    ∀ (m k0 : Nat), k0 + m = len →
      Seg st' (if k0 = 0 then -1 else N + k0 - 1)
        ((List.range' k0 m).map fun (k : Nat) => N + (k : Int)) (-1) := by
  intro m
  induction m with
  | zero => intro k0 _; trivial
  | succ m ih =>
    intro k0 hk
    have hk0 : k0 < len := by omega
    simp only [List.range'_succ, List.map_cons]
    refine ⟨hp k0 hk0, ?_, ?_⟩
    · rw [hn k0 hk0]
      cases m with
      | zero =>
        have : k0 + 1 = len := by omega
        simp [this]
      | succ m' =>
        have : k0 + 1 ≠ len := by omega
        simp only [if_neg this, List.range'_succ, List.map_cons, List.headD_cons]
        push_cast
        ring_nf
    · have := ih (k0 + 1) (by omega)
      have e : (if k0 + 1 = 0 then (-1 : Int) else N + ((k0 + 1 : Nat) : Int) - 1) = N + k0 := by
        rw [if_neg (by omega)]
        push_cast
        ring
      rw [e] at this
      exact this

/-- Loading a read that is not empty keeps the rows well formed: the new
fragment gets the row of its beads. -/
theorem RWF.loaded {st : Store} {row : Int → List Int} (hw : RWF st row) (type : Char)
    (iid contained : Int) (utype : Char) (seq qlt : List Char) (hseq : seq ≠ []) :
    ∃ row', RWF (AppendArtificialFragToLocalStore st type iid contained utype seq qlt).1 row' := by
  have hlen0 : 0 < seq.length := List.length_pos.2 hseq
  have hbs : (AppendArtificialFragToLocalStore st type iid contained utype seq qlt).1.beadStore =
      st.beadStore ++ fragmentBeads st.fragmentStore.length st.beadStore.length
        st.sequenceStore.length seq.length := rfl
  have hfs : (AppendArtificialFragToLocalStore st type iid contained utype seq qlt).1.fragmentStore
      = st.fragmentStore ++
        [{ lid := st.fragmentStore.length, iid := iid, type := type, utype := utype,
           complement := 0, contained := contained, deleted := 0, manode := -1,
           sequence := st.sequenceStore.length, quality := st.qualityStore.length,
           beads := st.beadStore.length, length := seq.length }] := rfl
  have hss : (AppendArtificialFragToLocalStore st type iid contained utype seq qlt).1.sequenceStore
      = st.sequenceStore ++ seq ++ [Char.ofNat 0] := rfl
  have hqs : (AppendArtificialFragToLocalStore st type iid contained utype seq qlt).1.qualityStore
      = st.qualityStore ++ (qlt.take seq.length) ++ List.replicate (seq.length - qlt.length) '0'
        ++ [Char.ofNat 0] := rfl
  generalize (AppendArtificialFragToLocalStore st type iid contained utype seq qlt).1 = st'
    at hbs hfs hss hqs
  have hold : ∀ j y, GetBead st j = some y → GetBead st' j = some y := by
    intro j y hj
    unfold GetBead at hj ⊢
    rw [hbs]
    exact getAt_append_some hj
  have hat : ∀ k : Nat, k < seq.length → GetBead st' ((st.beadStore.length : Int) + k) =
      some { boffset := (st.beadStore.length : Int) + k,
             soffset := (st.sequenceStore.length : Int) + k, foffset := k,
             prev := if k = 0 then -1 else (st.beadStore.length : Int) + k - 1,
             next := if k + 1 = seq.length then -1 else (st.beadStore.length : Int) + k + 1,
             up := -1, down := -1, frag_index := st.fragmentStore.length,
             column_index := -1 } := by
    intro k hk
    unfold GetBead
    rw [hbs]
    exact getAt_fragmentBeads_at hk
  have hnew : ∀ j y, GetBead st' j = some y → GetBead st j = none →
      ∃ k : Nat, k < seq.length ∧ j = (st.beadStore.length : Int) + k := by
    intro j y hj h0
    unfold GetBead at hj h0
    rw [hbs] at hj
    exact getAt_fragmentBeads_range hj h0
  have hfragold : ∀ fid f, GetFragment st fid = some f → GetFragment st' fid = some f := by
    intro fid f hf
    unfold GetFragment at hf ⊢
    rw [hfs]
    exact getAt_append_some hf
  have hfragcase : ∀ fid f, GetFragment st' fid = some f →
      (fid = st.fragmentStore.length ∧ f.beads = st.beadStore.length) ∨
        (fid ≠ st.fragmentStore.length ∧ GetFragment st fid = some f) := by
    intro fid f hf
    unfold GetFragment at hf ⊢
    rw [hfs, getAt_append_singleton] at hf
    by_cases hfid : fid = st.fragmentStore.length
    · rw [if_pos hfid] at hf
      left
      refine ⟨hfid, ?_⟩
      rw [← Option.some.inj hf]
    · rw [if_neg hfid] at hf
      exact Or.inr ⟨hfid, hf⟩
  have hlidsome : (GetFragment st' st.fragmentStore.length).isSome := by
    unfold GetFragment
    rw [hfs, getAt_length_append]
    rfl
  have hnolid : ∀ fid, (GetFragment st fid).isSome → fid ≠ st.fragmentStore.length := by
    intro fid h
    unfold GetFragment at h
    have := (getAt_isSome_iff st.fragmentStore fid).mp h
    omega
  have holdsame : ∀ j, (GetBead st j).isSome → prevOf st' j = prevOf st j ∧
      nextOf st' j = nextOf st j ∧ fragOf st' j = fragOf st j := by
    intro j hj
    obtain ⟨y, hy⟩ := Option.isSome_iff_exists.1 hj
    rw [prevOf_get (hold j y hy), nextOf_get (hold j y hy), fragOf_get (hold j y hy),
      prevOf_get hy, nextOf_get hy, fragOf_get hy]
    exact ⟨rfl, rfl, rfl⟩
  have hrowold : ∀ fid x, x ∈ row fid → (GetBead st x).isSome := by
    intro fid x hx
    rw [← fragOf_isSome, (hw.rows.mem fid x hx).1]
    rfl
  refine ⟨fun fid => if fid = st.fragmentStore.length then
      (List.range' 0 seq.length).map fun (k : Nat) => (st.beadStore.length : Int) + (k : Int)
    else row fid, ⟨⟨fun fid f hf => ?_, fun fid x hx => ?_, fun j y hj hyf => ?_,
      fun j y hj hyf => ?_⟩, ⟨?_, fun j y hj => ?_⟩, fun j y hj => ?_⟩⟩
  · rcases hfragcase fid f hf with ⟨e1, e2⟩ | ⟨e1, e2⟩
    · rw [if_pos e1]
      refine ⟨?_, ?_, ?_⟩
      · have := @Seg_fragmentBeads st' st.beadStore.length seq.length
          (fun k hk => by rw [prevOf_get (hat k hk)])
          (fun k hk => by rw [nextOf_get (hat k hk)]) seq.length 0 (by omega)
        simpa using this
      · refine List.Nodup.map ?_ (List.nodup_range' 0 seq.length)
        intro a b hab
        simp only at hab
        omega
      · rw [e2, List.mem_map]
        exact ⟨0, by simp [List.mem_range', hlen0], by simp⟩
    · rw [if_neg e1]
      obtain ⟨q1, q2, q3⟩ := hw.rows.frag fid f e2
      exact ⟨Seg_frame _ _ _ q1 (fun x hx => (holdsame x (hrowold fid x hx)).1)
        (fun x hx => (holdsame x (hrowold fid x hx)).2.1), q2, q3⟩
  · by_cases hfid : fid = st.fragmentStore.length
    · rw [if_pos hfid] at hx
      obtain ⟨k, hk, rfl⟩ := List.mem_map.1 hx
      have hk' : k < seq.length := by
        simp [List.mem_range'] at hk
        omega
      rw [fragOf_get (hat k hk'), hfid]
      exact ⟨rfl, by omega⟩
    · rw [if_neg hfid] at hx
      obtain ⟨h1, h2⟩ := hw.rows.mem fid x hx
      exact ⟨by rw [(holdsame x (hrowold fid x hx)).2.2]; exact h1, h2⟩
  · cases h0 : GetBead st j with
    | some y0 =>
      have := hold j y0 h0
      rw [hj] at this
      cases this
      obtain ⟨a, b⟩ := hw.rows.bead j y h0 hyf
      obtain ⟨f, hf⟩ := Option.isSome_iff_exists.1 a
      refine ⟨by rw [hfragold _ f hf]; rfl, ?_⟩
      rw [if_neg (hnolid _ a)]
      exact b
    | none =>
      obtain ⟨k, hk, rfl⟩ := hnew j y hj h0
      rw [hat k hk] at hj
      cases hj
      refine ⟨hlidsome, ?_⟩
      simp only [if_true, List.mem_map]
      exact ⟨k, by simp [List.mem_range', hk], rfl⟩
  · cases h0 : GetBead st j with
    | some y0 =>
      have := hold j y0 h0
      rw [hj] at this
      cases this
      obtain ⟨a, b⟩ := hw.rows.call j y h0 hyf
      have keep : ∀ x, fragOf st x = some (-1) → fragOf st' x = some (-1) := by
        intro x hx
        rw [(holdsame x (by rw [← fragOf_isSome, hx]; rfl)).2.2]
        exact hx
      exact ⟨a.imp id (keep _), b.imp id (keep _)⟩
    | none =>
      obtain ⟨k, hk, rfl⟩ := hnew j y hj h0
      rw [hat k hk] at hj
      cases hj
      simp only at hyf
      omega
  · rw [hqs, hss]
    simp only [List.length_append, List.length_take, List.length_replicate, List.length_singleton]
    have := hw.chars.len
    omega
  · cases h0 : GetBead st j with
    | some y0 =>
      have := hold j y0 h0
      rw [hj] at this
      cases this
      have := hw.chars.soff j y h0
      rw [hss]
      simp only [List.length_append, List.length_singleton]
      push_cast
      omega
    | none =>
      obtain ⟨k, hk, rfl⟩ := hnew j y hj h0
      rw [hat k hk] at hj
      cases hj
      rw [hss]
      simp only [List.length_append, List.length_singleton]
      push_cast
      omega
  · cases h0 : GetBead st j with
    | some y0 =>
      have := hold j y0 h0
      rw [hj] at this
      cases this
      exact hw.offs j y h0
    | none =>
      obtain ⟨k, hk, rfl⟩ := hnew j y hj h0
      rw [hat k hk] at hj
      cases hj
      rfl

theorem RWF.exchanged_r {st st' : Store} {row : Int → List Int} {lid rid r : Int} {L R : Bead}
    {fuel : Nat} {mid : List Int}
    (hw : RWF st row) (h : LateralExchangeBead st lid rid = some (st', r))
    (hL : GetBead st lid = some L) (hR : GetBead st rid = some R)
    (hLf : L.frag_index ≠ -1) (hbt : between st rid fuel lid = some mid) :
    RWF st' (fun fid => (row fid).map (swapId lid rid)) := by
  obtain ⟨hw', hk, -⟩ := hw.rows.exchanged h hL hR hLf hbt
  exact ⟨hw', hw.chars.keep_q hk (LateralExchangeBead_quality h),
    hw.offs.same_b (LateralExchangeBead_bsame h)⟩

/-- A bead that seeded a column has a tallied character. -/
theorem CreateColumn_tallied {st s1 : Store} {bid lid : Int} {b : Bead} (hq : QWF st)
    (h : CreateColumn st bid = some (s1, lid)) (hb : GetBead st bid = some b) :
    ∃ c, beadChar st bid = some c ∧ (c ∈ RALPHABET ∨ c = 'n') := by
  obtain ⟨c, bc, -, hc, hinc, hs, -⟩ := CreateColumn_vert h hb
  obtain ⟨c0, hc0⟩ := Option.isSome_iff_exists.1 (hq.chars hb).1
  have := GetBase_append hs hc0
  rw [hc] at this
  cases this
  refine ⟨c, ?_, tallied_of_inc hinc⟩
  unfold beadChar
  rw [hb]
  exact hc0

theorem GWF.initial : GWF ResetStores (fun _ => []) (fun _ => []) := by
  have hb : ∀ j, GetBead ResetStores j = none := by
    intro j
    unfold GetBead getAt ResetStores
    split_ifs <;> simp
  have hc : ∀ j, GetColumn ResetStores j = none := by
    intro j
    unfold GetColumn getAt ResetStores
    split_ifs <;> simp
  have hf : ∀ j, GetFragment ResetStores j = none := by
    intro j
    unfold GetFragment getAt ResetStores
    split_ifs <;> simp
  refine ⟨VWF.reset, ⟨⟨fun fid f h => ?_, fun fid b h => ?_, fun j b h _ => ?_,
    fun j b h _ => ?_⟩, ⟨rfl, fun j b h => ?_⟩, fun j b h => ?_⟩, ⟨fun c col h => ?_⟩⟩
  · rw [hf] at h; cases h
  · simp at h
  · rw [hb] at h; cases h
  · rw [hb] at h; cases h
  · rw [hb] at h; cases h
  · rw [hb] at h; cases h
  · rw [hc] at h; cases h

/-- One call keeps columns and rows well formed. -/
theorem gridStep_GWF {st st' : Store} {op : StackOp} (hw : ∃ ch row, GWF st ch row)
    (h : gridStep st op = some st') : ∃ ch row, GWF st' ch row := by
  obtain ⟨ch, row, hv, hr, hm⟩ := hw
  unfold gridStep at h
  by_cases hi : gridOK st op = true
  · rw [if_pos hi] at h
    cases op with
    | load seq qlt =>
      simp only [rawStep, Option.some.injEq] at h
      subst h
      have hseq : seq ≠ [] := by
        intro e
        simp [gridOK, e] at hi
      obtain ⟨row', hr'⟩ := hr.loaded 'R' 1 0 'X' seq qlt hseq
      exact ⟨ch, row', hv.load _ _ _ _ _ _, hr', hm.same_m (SameCols.of_eq rfl rfl)⟩
    | node iid =>
      simp only [rawStep, Option.some.injEq] at h
      subst h
      refine ⟨ch, row, hv.createMANode iid,
        hr.quiet_r (Quiet.of_beads_q rfl rfl rfl rfl) (BSame.of_beads_b rfl), ⟨fun c col hc => ?_⟩⟩
      have hc' : GetColumn st c = some col := hc
      obtain ⟨m1, m2, m3, m4, m5⟩ := hm.col c col hc'
      refine ⟨m1, m2, m3, m4, ?_⟩
      obtain ⟨m, hm'⟩ := Option.isSome_iff_exists.1 m5
      unfold GetMANode CreateMANode
      simp only
      unfold GetMANode at hm'
      rw [getAt_append_some hm']
      rfl
    | firstColumn mid bid =>
      obtain ⟨b, hb, hc⟩ := inNoColumn_spec hi
      obtain ⟨lid, h⟩ := map_fst_some h
      obtain ⟨ch', hv'⟩ := hv.firstColumn h hb hc
      refine ⟨ch', row, hv', ?_, hm.seeded h⟩
      unfold FirstColumn at h
      simp only [Option.bind_eq_bind, Option.bind_eq_some, Option.pure_def, Option.some.injEq,
        Prod.mk.injEq] at h
      obtain ⟨_, _, ⟨s1, l1⟩, h1, s2, h2, s3, h3, col, _, s4, h4, rfl, _⟩ := h
      obtain ⟨c, hch, htal⟩ := CreateColumn_tallied hr.chars h1 hb
      obtain ⟨s1', bc, e1, -, w1, -⟩ := CreateColumn_grid hv hr hb hc hch htal
      rw [h1] at e1
      cases e1
      have q : Quiet s1 s4 := ((modColumn_quiet h2).trans_q (modColumn_quiet h3)).trans_q
        (AddColumnToMANode_quiet h4)
      refine w1.quiet_r q (BSame.of_beads_b ?_)
      rw [AddColumnToMANode_beads h4, (modColumn_get h3).2.1, (modColumn_get h2).2.1]
    | createColumn bid => simp [gridOK] at hi
    | alignBead cid bid =>
      obtain ⟨b, hb, hc⟩ := inNoColumn_spec hi
      obtain ⟨r, h⟩ := map_fst_some h
      exact ⟨_, row, hv.alignBead h hb hc, hr.quiet_r (AlignBead_quiet h) (AlignBead_bsame h),
        hm.same_m (AlignBead_sameCols h)⟩
    | unAlignBead bid =>
      obtain ⟨r, h⟩ := map_fst_some h
      obtain ⟨ch', hv'⟩ := hv.unAlignBead h
      exact ⟨ch', row, hv', hr.quiet_r (UnAlignBead_quiet h) (UnAlignBead_bsame h),
        hm.same_m (UnAlignBead_sameCols h)⟩
    | exchange lid rid =>
      simp only [gridOK, Bool.and_eq_true] at hi
      obtain ⟨l, r, hl, hr', h1, h2, h3⟩ := twoColumns_spec hi.1
      obtain ⟨mid, hmid⟩ := Option.isSome_iff_exists.1 hi.2
      obtain ⟨x, h⟩ := map_fst_some h
      have hv' := hv.exchange h hl hr' h1 h2 h3
      exact ⟨_, _, hv', hr.exchanged_r h hl hr' h1 hmid,
        hm.same_m (LateralExchangeBead_sameCols h)⟩
    | columnAppend cid bid =>
      simp only [gridOK, Bool.and_eq_true] at hi
      obtain ⟨b, hb, hc⟩ := inNoColumn_spec hi.1
      obtain ⟨P, hP⟩ := Option.isSome_iff_exists.1 hi.2
      obtain ⟨lid, h⟩ := map_fst_some h
      have h' := h
      unfold ColumnAppend at h'
      simp only [Option.bind_eq_bind, Option.bind_eq_some, Option.pure_def, Option.some.injEq,
        Prod.mk.injEq] at h'
      obtain ⟨_, _, ⟨s1, l1⟩, h1, -⟩ := h'
      obtain ⟨c, hch, htal⟩ := CreateColumn_tallied hr.chars h1 hb
      obtain ⟨st'', gs, row', e, g, -⟩ := ColumnAppend_run ⟨hv, hr, hm⟩ hP hb hc hch htal
      rw [h] at e
      cases e
      exact ⟨_, row', g⟩
    | columnPrepend cid bid => simp [gridOK] at hi
  · rw [if_neg hi] at h
    cases h

/-- The stores reached by such calls have well-formed columns and rows. -/
theorem gridRun_GWF {ops : List StackOp} {st : Store} (h : gridRun ops = some st) :
    ∃ ch row, GWF st ch row := by
  unfold gridRun at h
  exact foldlM_inv (fun s => ∃ ch row, GWF s ch row) gridStep ops
    (fun b op b' _ hb hstep => gridStep_GWF hb hstep) ResetStores st ⟨_, _, GWF.initial⟩ h

theorem Stage.start {st : Store} (h : Sound st) : Stage st st := ⟨h, fun _ => rfl, rfl, rfl⟩

/-- The quality of a bead appended with its quality to a store whose quality
store is as long as its sequence store. -/
theorem beadQuality_new (s : Store) (bead : Bead) (c qv : Char) (n : Int)
    (hs : bead.soffset = s.sequenceStore.length)
    (hlen : s.qualityStore.length = s.sequenceStore.length) :
    beadQuality { s with sequenceStore := s.sequenceStore ++ [c],
                         qualityStore := s.qualityStore ++ [qv],
                         beadStore := s.beadStore ++ [bead],
                         gaps_in_alignment := n } (s.beadStore.length : Int) = some qv := by
  unfold beadQuality GetBead
  simp only [getAt_length_append, hs, ← hlen]

theorem modBead_lengths {st s : Store} {i : Int} {f : Bead → Bead} (h : modBead st i f = some s) :
    s.beadStore.length = st.beadStore.length ∧ s.sequenceStore = st.sequenceStore ∧
    s.qualityStore = st.qualityStore := by
  obtain ⟨b, -, rfl⟩ := GetBead_modBead h
  exact ⟨length_setAt _ _ _, rfl, rfl⟩

/-- The quality `AppendGapBead` gives the new gap bead. -/
theorem AppendGapBead_quality {st st' : Store} {bid g : Int}
    (h : AppendGapBead st bid = some (st', g))
    (hlen : st.qualityStore.length = st.sequenceStore.length) :
    ∃ x q, GetBead st bid = some x ∧ getAt st.qualityStore x.soffset = some q ∧
      g = st.beadStore.length ∧
      (x.next = -1 → beadQuality st' g = some q) ∧
      (x.next ≠ -1 → ∃ n nq, GetBead st x.next = some n ∧
        getAt st.qualityStore n.soffset = some nq ∧
        beadQuality st' g = some (if (if nq < q then nq else q) = '0' then '5'
          else (if nq < q then nq else q))) := by
  unfold AppendGapBead at h
  cases hx : GetBead st bid with
  | none => simp [hx] at h
  | some x =>
    simp only [hx, Option.bind_eq_bind, Option.some_bind, Option.pure_def] at h
    cases h1 : modBead st bid fun b => { b with next := (st.beadStore.length : Int) } with
    | none => simp [h1] at h
    | some s1 =>
      simp only [h1, Option.some_bind] at h
      obtain ⟨l1, q1, r1⟩ := modBead_lengths h1
      cases hq : getAt st.qualityStore x.soffset with
      | none => simp [hq] at h
      | some q =>
        simp only [hq, Option.some_bind] at h
        by_cases hn : x.next = -1
        · simp only [hn, ne_eq, not_true_eq_false, if_false, Option.some_bind, Option.some.injEq,
            Prod.mk.injEq] at h
          obtain ⟨rfl, rfl⟩ := h
          refine ⟨x, q, rfl, hq, rfl, fun _ => ?_, fun hc => absurd hn hc⟩
          rw [← l1]
          exact beadQuality_new s1 _ '-' q _ (by rw [q1]) (by rw [q1, r1]; exact hlen)
        · simp only [ne_eq, hn, not_false_eq_true, if_true] at h
          cases hn1 : GetBead s1 x.next with
          | none => simp [hn1] at h
          | some n =>
            simp only [hn1, Option.some_bind] at h
            cases hnq : getAt st.qualityStore n.soffset with
            | none => simp [hnq] at h
            | some nq =>
              simp only [hnq, Option.some_bind] at h
              cases h3 : modBead s1 x.next fun b => { b with prev := (st.beadStore.length : Int) } with
              | none => simp [h3] at h
              | some s2 =>
                simp only [h3, Option.some_bind, Option.some.injEq, Prod.mk.injEq] at h
                obtain ⟨rfl, rfl⟩ := h
                obtain ⟨l3, q3, r3⟩ := modBead_lengths h3
                have hg := (modBead_get h1).1 x.next
                rw [hn1] at hg
                have hex : ∃ n0, GetBead st x.next = some n0 ∧ n0.soffset = n.soffset := by
                  by_cases e : x.next = bid
                  · rw [if_pos e, hx] at hg
                    refine ⟨x, by rw [e]; exact hx, ?_⟩
                    cases hg
                    rfl
                  · rw [if_neg e] at hg
                    exact ⟨n, hg.symm, rfl⟩
                obtain ⟨n0, hn0, hs0⟩ := hex
                refine ⟨x, q, rfl, hq, rfl, fun hc => absurd hc hn, fun _ => ?_⟩
                refine ⟨n0, nq, hn0, by rw [hs0]; exact hnq, ?_⟩
                rw [← l1, ← l3]
                exact beadQuality_new s2 _ '-' _ _ (by rw [q3, q1])
                  (by rw [q3, r3, q1, r1]; exact hlen)

/-- The quality `PrependGapBead` gives the new gap bead. -/
theorem PrependGapBead_quality {st st' : Store} {bid g : Int}
    (h : PrependGapBead st bid = some (st', g))
    (hlen : st.qualityStore.length = st.sequenceStore.length) :
    ∃ x q, GetBead st bid = some x ∧ getAt st.qualityStore x.soffset = some q ∧
      g = st.beadStore.length ∧
      (x.prev = -1 → beadQuality st' g = some q) ∧
      (x.prev ≠ -1 → ∃ n nq, GetBead st x.prev = some n ∧
        getAt st.qualityStore n.soffset = some nq ∧
        beadQuality st' g = some (if (if nq < q then nq else q) = '0' then '5'
          else (if nq < q then nq else q))) := by
  unfold PrependGapBead at h
  cases hx : GetBead st bid with
  | none => simp [hx] at h
  | some x =>
    simp only [hx, Option.bind_eq_bind, Option.some_bind, Option.pure_def] at h
    cases h1 : modBead st bid fun b => { b with prev := (st.beadStore.length : Int) } with
    | none => simp [h1] at h
    | some s1 =>
      simp only [h1, Option.some_bind] at h
      obtain ⟨l1, q1, r1⟩ := modBead_lengths h1
      cases hq : getAt st.qualityStore x.soffset with
      | none => simp [hq] at h
      | some q =>
        simp only [hq, Option.some_bind] at h
        by_cases hn : x.prev = -1
        · simp only [hn, ne_eq, not_true_eq_false, if_false, Option.some_bind, Option.some.injEq,
            Prod.mk.injEq] at h
          obtain ⟨rfl, rfl⟩ := h
          refine ⟨x, q, rfl, hq, rfl, fun _ => ?_, fun hc => absurd hn hc⟩
          rw [← l1]
          exact beadQuality_new s1 _ '-' q _ (by rw [q1]) (by rw [q1, r1]; exact hlen)
        · simp only [ne_eq, hn, not_false_eq_true, if_true] at h
          cases hn1 : GetBead s1 x.prev with
          | none => simp [hn1] at h
          | some n =>
            simp only [hn1, Option.some_bind] at h
            cases hnq : getAt st.qualityStore n.soffset with
            | none => simp [hnq] at h
            | some nq =>
              simp only [hnq, Option.some_bind] at h
              cases h3 : modBead s1 x.prev fun b => { b with next := (st.beadStore.length : Int) } with
              | none => simp [h3] at h
              | some s2 =>
                simp only [h3, Option.some_bind, Option.some.injEq, Prod.mk.injEq] at h
                obtain ⟨rfl, rfl⟩ := h
                obtain ⟨l3, q3, r3⟩ := modBead_lengths h3
                have hg := (modBead_get h1).1 x.prev
                rw [hn1] at hg
                have hex : ∃ n0, GetBead st x.prev = some n0 ∧ n0.soffset = n.soffset := by
                  by_cases e : x.prev = bid
                  · rw [if_pos e, hx] at hg
                    refine ⟨x, by rw [e]; exact hx, ?_⟩
                    cases hg
                    rfl
                  · rw [if_neg e] at hg
                    exact ⟨n, hg.symm, rfl⟩
                obtain ⟨n0, hn0, hs0⟩ := hex
                refine ⟨x, q, rfl, hq, rfl, fun hc => absurd hc hn, fun _ => ?_⟩
                refine ⟨n0, nq, hn0, by rw [hs0]; exact hnq, ?_⟩
                rw [← l1, ← l3]
                exact beadQuality_new s2 _ '-' _ _ (by rw [q3, q1])
                  (by rw [q3, r3, q1, r1]; exact hlen)

/-- `PrependGapBead` on an existing bead whose quality, and the quality of
whose predecessor, can be read: it returns the offset of the new bead. -/
theorem PrependGapBead_run {st : Store} {b : Int} {x : Bead} {qv : Char}
    (hb : GetBead st b = some x) (hq : getAt st.qualityStore x.soffset = some qv)
    (hn : x.prev = -1 ∨ ∃ nb nq, GetBead st x.prev = some nb ∧
      getAt st.qualityStore nb.soffset = some nq) :
    ∃ s1, PrependGapBead st b = some (s1, (st.beadStore.length : Int)) := by
  obtain ⟨s, e, g, r⟩ := modBead_run (fun y => { y with prev := (st.beadStore.length : Int) }) hb
  unfold PrependGapBead
  simp only [hb, Option.bind_eq_bind, Option.some_bind, e, hq, Option.pure_def]
  rcases hn with h | ⟨nb, nq, h1, h2⟩
  · simp [h]
  · by_cases h0 : x.prev = -1
    · simp [h0]
    · have hs : (GetBead s x.prev).isSome := by
        rw [g]
        split
        · rfl
        · rw [h1]; rfl
      obtain ⟨nb', hnb'⟩ := Option.isSome_iff_exists.1 hs
      have hsoff : nb'.soffset = nb.soffset := by
        rw [g] at hnb'
        by_cases hxb : x.prev = b
        · rw [if_pos hxb] at hnb'
          rw [hxb, hb] at h1
          cases h1
          cases hnb'
          rfl
        · rw [if_neg hxb, h1] at hnb'
          cases hnb'
          rfl
      obtain ⟨s', e', -, -⟩ := modBead_run (fun y => { y with next := (st.beadStore.length : Int) }) hnb'
      simp [h0, hnb', hsoff, h2, e']

/-- C21 (amended): for an existing bead `bid` whose quality `q` can be read,
in a store whose quality store is as long as its sequence store:
`AppendGapBead(bid)` on a bead without successor returns a new gap bead with
the quality `q` itself, also when `q` is `0`; on a bead with the successor `n`
of quality `nq` it returns a new gap bead whose quality is the lesser of `nq`
and `q`, with `0` replaced by `5`, and so it is not `0`; and `PrependGapBead`
does the same with the predecessor of `bid`. -/
theorem gapBead_quality (st : Store) (bid : Int) (b : Bead) (q : Char)
    (hb : GetBead st bid = some b) (hq : getAt st.qualityStore b.soffset = some q)
    (hlen : st.qualityStore.length = st.sequenceStore.length) :
    (b.next = -1 → ∃ st', AppendGapBead st bid = some (st', (st.beadStore.length : Int)) ∧
      beadQuality st' st.beadStore.length = some q) ∧
    (∀ n nq, b.next ≠ -1 → GetBead st b.next = some n →
      getAt st.qualityStore n.soffset = some nq →
      ∃ st', AppendGapBead st bid = some (st', (st.beadStore.length : Int)) ∧
        beadQuality st' st.beadStore.length =
          some (if (if nq < q then nq else q) = '0' then '5' else (if nq < q then nq else q)) ∧
        beadQuality st' st.beadStore.length ≠ some '0') ∧
    (b.prev = -1 → ∃ st', PrependGapBead st bid = some (st', (st.beadStore.length : Int)) ∧
      beadQuality st' st.beadStore.length = some q) ∧
    (∀ p pq, b.prev ≠ -1 → GetBead st b.prev = some p →
      getAt st.qualityStore p.soffset = some pq →
      ∃ st', PrependGapBead st bid = some (st', (st.beadStore.length : Int)) ∧
        beadQuality st' st.beadStore.length =
          some (if (if pq < q then pq else q) = '0' then '5' else (if pq < q then pq else q)) ∧
        beadQuality st' st.beadStore.length ≠ some '0') := by
  have hne : ∀ c : Char, some (if c = '0' then '5' else c) ≠ some '0' := by
    intro c hc
    have hc' := Option.some.inj hc
    by_cases e : c = '0'
    · rw [if_pos e] at hc'
      exact absurd hc' (by decide)
    · rw [if_neg e] at hc'
      exact e hc'
  refine ⟨fun hn => ?_, fun n nq hn hn1 hnq => ?_, fun hp => ?_, fun p pq hp hp1 hpq => ?_⟩
  · obtain ⟨st', h⟩ := AppendGapBead_run hb hq (Or.inl hn)
    obtain ⟨x, q', hx, hq', -, h1, -⟩ := AppendGapBead_quality h hlen
    rw [hb] at hx
    cases hx
    rw [hq] at hq'
    cases hq'
    exact ⟨st', h, h1 hn⟩
  · obtain ⟨st', h⟩ := AppendGapBead_run hb hq (Or.inr ⟨n, nq, hn1, hnq⟩)
    obtain ⟨x, q', hx, hq', -, -, h2⟩ := AppendGapBead_quality h hlen
    rw [hb] at hx
    cases hx
    rw [hq] at hq'
    cases hq'
    obtain ⟨n', nq', e1, e2, e3⟩ := h2 hn
    rw [hn1] at e1
    cases e1
    rw [hnq] at e2
    cases e2
    exact ⟨st', h, e3, by rw [e3]; exact hne _⟩
  · obtain ⟨st', h⟩ := PrependGapBead_run hb hq (Or.inl hp)
    obtain ⟨x, q', hx, hq', -, h1, -⟩ := PrependGapBead_quality h hlen
    rw [hb] at hx
    cases hx
    rw [hq] at hq'
    cases hq'
    exact ⟨st', h, h1 hp⟩
  · obtain ⟨st', h⟩ := PrependGapBead_run hb hq (Or.inr ⟨p, pq, hp1, hpq⟩)
    obtain ⟨x, q', hx, hq', -, -, h2⟩ := PrependGapBead_quality h hlen
    rw [hb] at hx
    cases hx
    rw [hq] at hq'
    cases hq'
    obtain ⟨n', nq', e1, e2, e3⟩ := h2 hp
    rw [hp1] at e1
    cases e1
    rw [hpq] at e2
    cases e2
    exact ⟨st', h, e3, by rw [e3]; exact hne _⟩

theorem gapBead_quality_witness :
    ∃ st', AppendGapBead storeZeroSeven 0 = some (st', 2) ∧ beadQuality st' 2 = some '5' :=
  ((gapBead_quality storeZeroSeven 0 _ '0' rfl rfl rfl).2.1 _ '7' (by decide) rfl rfl).imp
    fun _ h => ⟨h.1, h.2.1⟩

/-- C21 (as stated) fails: the only bead of a read `A` of quality `0` has no
neighbour, and the gap bead that `AppendGapBead` puts after it, like the one
`PrependGapBead` puts before it, carries the quality `0`. -/
theorem gap_at_end_keeps_zero : endGapQuality = some (some '0', some '0') := by decide!

theorem defaultsFor_fields (env : AlignEnv) (ahang big : Int) (t : Char) :
    (defaultsFor env ahang big t).minlen = env.LOCAL_DEFAULT_PARAMS.minlen ∧
    (defaultsFor env ahang big t).erate =
      (if t = env.AS_UNITIG then 2 else env.LOCAL_DEFAULT_PARAMS.erate) ∧
    (defaultsFor env ahang big t).bandBgn = ahang - CNS_TIGHTSEMIBANDWIDTH ∧
    (defaultsFor env ahang big t).bandEnd = ahang + CNS_TIGHTSEMIBANDWIDTH := by
  unfold defaultsFor setBand
  by_cases h1 : big > 0 <;> by_cases h2 : t = env.AS_UNITIG <;> simp [h1, h2]

theorem defaultsLeft_fields {env : AlignEnv} {p q : CNS_AlignParams} {c : TraceArgs}
    (h : defaultsLeft env p c = some q) :
    q.minlen = p.minlen ∧ q.erate = (if unitigB env c = true then 2 else p.erate) := by
  unfold defaultsLeft at h
  cases h1 : sequenceA (envAt env p c) c.st c.afid c.aoffset with
  | none => simp [h1] at h
  | some x =>
    simp only [h1] at h
    cases h2 : GetFragment c.st c.bfid with
    | none => simp [h2] at h
    | some bfrag =>
      simp only [h2] at h
      cases h3 : GetBase c.st bfrag.sequence with
      | none => simp [h3] at h
      | some y =>
        simp only [h3, Option.some.injEq] at h
        subst h
        obtain ⟨e1, e2, -, -⟩ := defaultsFor_fields (envAt env p c) c.ahang c.allow_big_endgaps
          bfrag.type
        refine ⟨e1, ?_⟩
        rw [e2]
        unfold unitigB
        rw [h2]
        by_cases e : bfrag.type = env.AS_UNITIG
        · simp [e, envAt]
        · simp [e, envAt]

theorem foldlM_defaults (env : AlignEnv) : ∀ (calls : List TraceArgs) (p q : CNS_AlignParams)
    (flag : Bool), calls.foldlM (defaultsLeft env) p = some q →
    p.erate = (if flag = true then 2 else 1) →
    q.minlen = p.minlen ∧
    q.erate = (if (flag || calls.any (unitigB env)) = true then 2 else 1) := by
  intro calls
  induction calls with
  | nil =>
    intro p q flag h hp
    simp only [List.foldlM, Option.pure_def, Option.some.injEq] at h
    subst h
    simpa using hp
  | cons c rest ih =>
    intro p q flag h hp
    simp only [List.foldlM, Option.bind_eq_bind, Option.bind_eq_some] at h
    obtain ⟨p1, h1, h2⟩ := h
    obtain ⟨e1, e2⟩ := defaultsLeft_fields h1
    have hp1 : p1.erate = (if (flag || unitigB env c) = true then 2 else 1) := by
      rw [e2, hp]
      cases flag <;> cases unitigB env c <;> rfl
    obtain ⟨f1, f2⟩ := ih p1 q (flag || unitigB env c) h2 hp1
    refine ⟨f1.trans e1, ?_⟩
    rw [f2, List.any_cons, Bool.or_assoc]

theorem rung_calls {cf : CompareCall → Option Overlap} {pr : Pair} {guard : Bool}
    {set : CNS_AlignParams → CNS_AlignParams} {check : Bool} {trick : Char} {s s' : Search}
    (h : rung cf pr guard set check trick s = some s') : s.calls <+: s'.calls := by
  have ha := attempt_calls cf pr s (set s.params)
  unfold rung at h
  by_cases h0 : (s.O.isSome || !guard) = true
  · rw [if_pos h0] at h
    cases h
    exact List.prefix_refl _
  · rw [if_neg h0] at h
    simp only at h
    split at h
    · cases h
      exact ha
    · split at h
      · split at h
        · cases h
        · cases h
          exact ha
        · cases h
          exact ha
      · cases h
        exact ha

theorem wideTries_calls {env : AlignEnv} {cf : CompareCall → Option Overlap} {pr : Pair}
    {s s' : Search} (h : wideTries env cf pr s = some s') : s.calls <+: s'.calls := by
  unfold wideTries at h
  simp only [Option.bind_eq_bind, Option.bind_eq_some] at h
  obtain ⟨s3, h3, s4, h4, s5, h5, s6, h6, h7⟩ := h
  exact (rung_calls h3).trans ((rung_calls h4).trans ((rung_calls h5).trans
    ((rung_calls h6).trans (rung_calls h7))))

theorem firstTries_calls {env : AlignEnv} {cf : CompareCall → Option Overlap} {pr : Pair}
    {mem : SeqMem} {s : Search} (h : firstTries env cf pr mem = some s) :
    [(Compare cf (readSeq mem pr.a) pr.alen (readSeq mem pr.b) pr.blen pr.defaults).2.2] <+:
      s.calls := by
  unfold firstTries at h
  simp only [Option.bind_eq_bind, Option.bind_eq_some] at h
  obtain ⟨s1, h1, h2⟩ := h
  exact (rung_calls h1).trans (rung_calls h2)

/-- The first aligner invocation recorded by a call of `GetAlignmentTrace`
that returns is the comparison with the default parameters. -/
theorem searchFor_first {env : AlignEnv} {p : CNS_AlignParams} {c : TraceArgs}
    {cf : CompareCall → Option Overlap} {pr : Pair} {cns : List Int} {s : Search}
    (hs : searchFor (envAt env p c) c.st c.afid c.aoffset c.bfid c.ahang cf c.allow_big_endgaps =
      some (pr, cns, s)) :
    ∃ cc, firstInvocation env p c cf = some cc ∧ s.calls.head? = some cc := by
  unfold searchFor at hs
  unfold firstInvocation
  cases h1 : sequenceA (envAt env p c) c.st c.afid c.aoffset with
  | none => simp [h1] at hs
  | some x =>
    obtain ⟨a, mem, cns', rate⟩ := x
    simp only [h1] at hs ⊢
    cases h2 : GetFragment c.st c.bfid with
    | none => simp [h2] at hs
    | some bfrag =>
      simp only [h2] at hs ⊢
      cases h3 : GetBase c.st bfrag.sequence with
      | none => simp [h3] at hs
      | some y =>
        simp only [h3] at hs ⊢
        split at hs
        · cases hs
        · rename_i s' hsearch
          simp only [Option.some.injEq, Prod.mk.injEq] at hs
          obtain ⟨rfl, -, rfl⟩ := hs
          obtain ⟨s0, hl, hpre⟩ := search_ladder hsearch
          unfold ladder at hl
          split at hl
          · cases hl
          · rename_i s2 hft
            have h4 := (firstTries_calls hft).trans ((wideTries_calls hl).trans hpre)
            refine ⟨_, rfl, ?_⟩
            obtain ⟨t, ht⟩ := h4
            rw [← ht]
            rfl

/-- C30, what the code does: after any sequence of earlier calls, made from
the initial `LOCAL_DEFAULT_PARAMS` (error rate `CNS_DP_ERATE`, minimum length
`CNS_DP_MINLEN`), the first aligner invocation of a call whose B is not a
unitig is on the tight band around the estimate as `Compare` clamps it to
`[-blen, alen]` and has the minimum length `CNS_DP_MINLEN`; its error rate is
`CNS_DP_ERATE` when no earlier call had a unitig as B and `2*CNS_DP_ERATE`
when one had.  The rate is in units of `CNS_DP_ERATE`. -/
theorem first_invocation_params (env : AlignEnv) (calls : List TraceArgs) (p : CNS_AlignParams)
    (c : TraceArgs) (COMPARE_FUNC : CompareCall → Option Overlap) (cc : CompareCall)
    (he : env.LOCAL_DEFAULT_PARAMS.erate = 1)
    (hm : env.LOCAL_DEFAULT_PARAMS.minlen = CNS_DP_MINLEN)
    (hist : defaultsAfter env calls = some p)
    (hb : unitigB env c = false)
    (hfirst : firstInvocation env p c COMPARE_FUNC = some cc) :
    cc.bandBgn = clampBand cc.a.length cc.b.length (c.ahang - CNS_TIGHTSEMIBANDWIDTH) ∧
    cc.bandEnd = clampBand cc.a.length cc.b.length (c.ahang + CNS_TIGHTSEMIBANDWIDTH) ∧
    cc.minlen = CNS_DP_MINLEN ∧
    cc.erate = (if calls.any (unitigB env) = true then 2 else 1) := by
  obtain ⟨f1, f2⟩ := foldlM_defaults env calls env.LOCAL_DEFAULT_PARAMS p false hist
    (by rw [he]; rfl)
  unfold firstInvocation at hfirst
  cases h1 : sequenceA (envAt env p c) c.st c.afid c.aoffset with
  | none => simp [h1] at hfirst
  | some x =>
    obtain ⟨a, mem, cns', rate⟩ := x
    simp only [h1] at hfirst
    cases h2 : GetFragment c.st c.bfid with
    | none => simp [h2] at hfirst
    | some bfrag =>
      simp only [h2] at hfirst
      cases h3 : GetBase c.st bfrag.sequence with
      | none => simp [h3] at hfirst
      | some y =>
        simp only [h3, Option.some.injEq] at hfirst
        subst hfirst
        obtain ⟨e1, e2, e3, e4⟩ := defaultsFor_fields (envAt env p c) c.ahang
          c.allow_big_endgaps bfrag.type
        obtain ⟨b1, b2, -, -⟩ := Compare_band COMPARE_FUNC (readSeq mem a) (readSeq mem a).length
          (readSeq mem (some bfrag.sequence.toNat)) (readSeq mem (some bfrag.sequence.toNat)).length
          (defaultsFor (envAt env p c) c.ahang c.allow_big_endgaps bfrag.type)
        have hnu : bfrag.type ≠ env.AS_UNITIG := by
          unfold unitigB at hb
          rw [h2] at hb
          simpa using hb
        refine ⟨?_, ?_, ?_, ?_⟩
        · rw [b1, e3]; rfl
        · rw [b2, e4]; rfl
        · show (defaultsFor (envAt env p c) c.ahang c.allow_big_endgaps bfrag.type).minlen = _
          rw [e1]
          show p.minlen = _
          rw [f1, hm]
        · show (defaultsFor (envAt env p c) c.ahang c.allow_big_endgaps bfrag.type).erate = _
          rw [e2, if_neg (by exact hnu)]
          show p.erate = _
          rw [f2]
          simp

theorem first_invocation_params_witness :
    ∃ p cc, defaultsAfter envReads [callOn 2] = some p ∧
      firstInvocation envReads p (callOn 1) alignNever = some cc ∧
      cc.minlen = CNS_DP_MINLEN ∧ cc.erate = 2 := by
  refine ⟨_, _, rfl, rfl, ?_⟩
  have h := first_invocation_params envReads [callOn 2] _ (callOn 1) alignNever _ rfl rfl rfl
    (by decide) rfl
  exact ⟨h.2.2.1, h.2.2.2⟩

/-- C30 fails on the code: after one call with the unitig 2 as B, the first
aligner invocation of a call with the read 1 as B receives the error rate
`2*CNS_DP_ERATE` (and the minimum length 30), while without the earlier call,
or after a call with a read as B, it receives `CNS_DP_ERATE`. -/
theorem unitig_rate_stays :
    (GetFragment storeUnitig 1).map Fragment.type = some 'R' ∧ envReads.AS_UNITIG = 'U' ∧
    firstRateAfter [] = some (1, 30) ∧ firstRateAfter [1] = some (1, 30) ∧
    firstRateAfter [2] = some (2, 30) := by decide!

/-- C29 fails on the code: fragment 1 has its only bead, bead 4, in the middle
column of the window `[0, 3)`; the row bookkeeping visits the first and the
last column only (the window has no 30th column), counts one row and leaves
the row index of fragment 1 at 0, so the fill calls `SetAbacus` with row `-1`
and `CreateAbacus` aborts.  Without that bead the call returns. -/
theorem fragment_without_row :
    sneakCase opsSneak = some ([[0], [4, 1], [2]],
      [some [0, 0, 0, 0, 1], some [1], some [1, 0]], false) ∧
    sneakCase (opsSneak.take 7) = some ([[0], [1], [2]],
      [some [0, 0, 0, 0, 1], some [1], some [1, 0]], true) := by decide!

theorem smoothLoop_nonneg (st : Store) : ∀ (fuel : Nat) (stab : Option Column) (bgn win : Int)
    (r : Int × Int), smoothLoop st fuel stab bgn win = some r → 1 ≤ win → 1 ≤ r.2 := by
  intro fuel
  induction fuel with
  | zero => intro stab bgn win r h; simp [smoothLoop] at h
  | succ n ih =>
    intro stab bgn win r h hw
    unfold smoothLoop at h
    cases stab with
    | none => simp at h
    | some s =>
      simp only at h
      cases hc : callBase st s with
      | none => simp [hc] at h
      | some c =>
        simp only [hc] at h
        by_cases hg : c = '-'
        · rw [if_pos hg] at h
          by_cases hn : s.next ≠ -1
          · rw [if_pos hn] at h
            exact ih _ _ _ r h (by omega)
          · rw [if_neg hn] at h
            cases h
            exact hw
        · rw [if_neg hg] at h
          cases h
          exact hw

/-- The columns of a gap run that is followed by a column not called a gap
are distinct. -/
theorem GapRun.inj {st : Store} {cs : Nat → Int} {k : Nat} (h : GapRun st cs k)
    {last : Column} {c : Char} (hl : GetColumn st (cs k) = some last)
    (hc : callBase st last = some c) (hne : c ≠ '-') :
    ∀ i j, i < j → j < k → cs i ≠ cs j := by
  intro i j hij hjk e
  have hshift : ∀ d, j + d ≤ k → cs (i + d) = cs (j + d) := by
    intro d
    induction d with
    | zero => intro _; exact e
    | succ d ih =>
      intro hd
      have e' := ih (by omega)
      obtain ⟨c1, g1, -, n1⟩ := h (i + d) (by omega)
      obtain ⟨c2, g2, -, n2⟩ := h (j + d) (by omega)
      rw [e', g2] at g1
      cases g1
      exact n1.symm.trans n2
  have e1 := hshift (k - j) (by omega)
  have hk : j + (k - j) = k := by omega
  rw [hk] at e1
  obtain ⟨c1, g1, b1, -⟩ := h (i + (k - j)) (by omega)
  rw [e1, hl] at g1
  cases g1
  rw [hc] at b1
  exact hne (Option.some.inj b1)

theorem GapRun.length_le {st : Store} {cs : Nat → Int} {k : Nat} (h : GapRun st cs k)
    {last : Column} {c : Char} (hl : GetColumn st (cs k) = some last)
    (hc : callBase st last = some c) (hne : c ≠ '-') : k ≤ st.columnStore.length := by
  have hinj := h.inj hl hc hne
  have hnd : ((List.range k).map cs).Nodup := by
    refine (List.nodup_range k).map_on ?_
    intro a ha b hb hab
    rw [List.mem_range] at ha hb
    by_contra hne'
    rcases Nat.lt_or_gt_of_ne hne' with hlt | hlt
    · exact hinj a b hlt hb hab
    · exact hinj b a hlt ha hab.symm
  have := nodup_length_le st.columnStore.length ((List.range k).map cs) hnd (by
    intro x hx
    rw [List.mem_map] at hx
    obtain ⟨i, hi, rfl⟩ := hx
    rw [List.mem_range] at hi
    obtain ⟨col, g, -, -⟩ := h i hi
    unfold GetColumn at g
    obtain ⟨r1, r2, -⟩ := getAt_eq_some g
    omega)
  simpa using this

theorem smoothLoop_run {st : Store} {cs : Nat → Int} {k : Nat} (h : GapRun st cs k)
    {last : Column} {c : Char} (hl : GetColumn st (cs k) = some last)
    (hc : callBase st last = some c) (hne : c ≠ '-') :
    ∀ (d i fuel : Nat) (win : Int), i + d = k → d < fuel →
      smoothLoop st fuel (GetColumn st (cs i)) (cs i) win = some (cs k, win + d) := by
  intro d
  induction d with
  | zero =>
    intro i fuel win hi hf
    obtain ⟨n, rfl⟩ : ∃ n, fuel = n + 1 := ⟨fuel - 1, by omega⟩
    have hik : i = k := by omega
    subst hik
    unfold smoothLoop
    simp only [hl, hc, if_neg hne]
    simp
  | succ d ih =>
    intro i fuel win hi hf
    obtain ⟨n, rfl⟩ : ∃ n, fuel = n + 1 := ⟨fuel - 1, by omega⟩
    obtain ⟨col, g, b, nx⟩ := h i (by omega)
    have hnx : col.next ≠ -1 := by
      rw [nx]
      intro e
      by_cases hd : d = 0
      · have : i + 1 = k := by omega
        rw [this] at e
        unfold GetColumn at hl
        have := (getAt_eq_some hl).1
        omega
      · obtain ⟨col2, g2, -, -⟩ := h (i + 1) (by omega)
        unfold GetColumn at g2
        have := (getAt_eq_some g2).1
        omega
    unfold smoothLoop
    simp only [g, b, if_true, if_pos hnx]
    rw [nx, ih (i + 1) n (win + 1) (by omega) (by omega)]
    congr 2
    push_cast
    ring

/-- C28 (amended): `IdentifyWindow` in the case `CNS_SMOOTH` returns 0, with
`stab_bgn` the next column, for a start column whose call is not a gap; for a
start column that begins a run of `k` gap-called columns followed by a column
whose call is not a gap, it returns `k` when `k` is at least 2 and 0 when `k`
is 1, with `stab_bgn` the column after the run; and it never returns a
negative value. -/
theorem identifyWindow_smooth (st : Store) (start : Column) :
    (∀ c, callBase st start = some c → c ≠ '-' →
      IdentifyWindowSmooth st start = some (0, start.next)) ∧
    (∀ (cs : Nat → Int) (k : Nat) (last : Column) (c : Char), 1 ≤ k →
      GetColumn st (cs 0) = some start → GapRun st cs k →
      GetColumn st (cs k) = some last → callBase st last = some c → c ≠ '-' →
      IdentifyWindowSmooth st start = some (if 1 < k then (k : Int) else 0, cs k)) ∧
    (∀ rc bgn, IdentifyWindowSmooth st start = some (rc, bgn) → 0 ≤ rc) := by
  refine ⟨fun c hc hne => ?_, fun cs k last c hk h0 hrun hl hc hne => ?_, fun rc bgn h => ?_⟩
  · unfold IdentifyWindowSmooth
    simp only [hc]
    rw [if_pos hne]
  · obtain ⟨col, g, b, nx⟩ := hrun 0 (by omega)
    rw [h0] at g
    cases g
    have hlen := hrun.length_le hl hc hne
    unfold IdentifyWindowSmooth
    simp only [b, ne_eq, not_true_eq_false, if_false]
    have hloop := smoothLoop_run hrun hl hc hne (k - 1) 1 (st.columnStore.length + 1) 1
      (by omega) (by omega)
    rw [nx, hloop]
    simp only
    have e : (1 : Int) + ((k - 1 : Nat) : Int) = (k : Int) := by omega
    rw [e]
    by_cases h1 : 1 < k
    · rw [if_pos h1, if_pos (by omega)]
    · rw [if_neg h1, if_neg (by omega)]
  · unfold IdentifyWindowSmooth at h
    cases hc : callBase st start with
    | none => simp [hc] at h
    | some c =>
      simp only [hc] at h
      by_cases hne : c ≠ '-'
      · rw [if_pos hne] at h
        cases h
        exact le_refl _
      · rw [if_neg hne] at h
        cases hl : smoothLoop st (st.columnStore.length + 1) (GetColumn st start.next)
            start.next 1 with
        | none => simp [hl] at h
        | some r =>
          obtain ⟨b1, w1⟩ := r
          simp only [hl, Option.some.injEq, Prod.mk.injEq] at h
          have := smoothLoop_nonneg st _ _ _ _ _ hl (le_refl _)
          obtain ⟨rfl, -⟩ := h
          split_ifs <;> omega

theorem identifyWindow_smooth_witness :
    ∃ start, GetColumn storeGapGapA 0 = some start ∧
      IdentifyWindowSmooth storeGapGapA start = some (2, 2) := by
  refine ⟨_, rfl, ?_⟩
  have hrun : GapRun storeGapGapA (fun i => (i : Int)) 2 := by
    intro i hi
    interval_cases i
    · exact ⟨_, rfl, rfl, rfl⟩
    · exact ⟨_, rfl, rfl, rfl⟩
  exact (identifyWindow_smooth storeGapGapA _).2.1 (fun i => (i : Int)) 2 _ 'A' (by decide) rfl
    hrun rfl rfl (by decide)

/-- C28 (as stated) fails: from a gap-called column followed by a column
called `A`, a run of length 1, `IdentifyWindow` returns 0, not 1; from the
first of two gap-called columns that end the column list it returns 0 as well,
with `stab_bgn` the second column of the run; and from a gap-called column
that is the last of the list the call does not return (it reads through the
`NULL` column).  From the first of two gap-called columns followed by a column
called `A` it returns 2 and `stab_bgn` is the column after the run. -/
theorem single_gap_window :
    smoothCase ['-', 'A', 'C'] 0 = some [0, 1] ∧ smoothCase ['A', '-', '-'] 1 = some [0, 2] ∧
    smoothCase ['A', 'C', '-'] 2 = some [] ∧ smoothCase ['-', '-', 'A'] 0 = some [2, 2] := by
  decide!

theorem distAt_setDist {d d' : List (List Int)} {i j v : Int} (h : setDist d i j v = some d') :
    ∀ a b, distAt d' a b = if a = i ∧ b = j then some v else distAt d a b := by
  unfold setDist at h
  cases hr : getAt d i with
  | none => simp [hr] at h
  | some row =>
    simp only [hr] at h
    cases hv : getAt row j with
    | none => simp [hv] at h
    | some x =>
      simp only [hv, Option.some.injEq] at h
      subst h
      intro a b
      unfold distAt
      rw [getAt_setAt]
      by_cases ha : a = i
      · subst ha
        simp only [true_and, hr, Option.isSome_some, if_true]
        rw [getAt_setAt]
        by_cases hb : b = j
        · subst hb
          simp [hv]
        · simp [hb]
      · simp [ha]

theorem zeroFix_spec {d d' : List (List Int)} {k m : Int} (h : zeroFix d k m = some d') :
    ∃ v, distAt d k m = some v ∧
      ∀ a b, distAt d' a b =
        if a = k ∧ b = m then some (if v < 0 then 0 else v) else distAt d a b := by
  unfold zeroFix at h
  cases hv : distAt d k m with
  | none => simp [hv] at h
  | some v =>
    simp only [hv] at h
    refine ⟨v, rfl, ?_⟩
    by_cases h0 : v < 0
    · rw [if_pos h0] at h
      rw [if_pos h0]
      exact distAt_setDist h
    · rw [if_neg h0] at h
      cases h
      intro a b
      rw [if_neg h0]
      by_cases hab : a = k ∧ b = m
      · rw [if_pos hab, hab.1, hab.2, hv]
      · rw [if_neg hab]

theorem bumpDist_spec {d d' : List (List Int)} {k m q : Int} (h : bumpDist d k m q = some d') :
    ∃ v, distAt d k m = some v ∧
      ∀ a b, distAt d' a b = if a = k ∧ b = m then some (v + q) else distAt d a b := by
  unfold bumpDist at h
  cases hv : distAt d k m with
  | none => simp [hv] at h
  | some v =>
    simp only [hv] at h
    exact ⟨v, rfl, distAt_setDist h⟩

/-- Rewriting the entries `(k, m)` and `(m, k)` of a symmetric matrix with the
same function of the entry keeps it symmetric. -/
theorem Symmetric.both {d d1 d2 : List (List Int)} {k m : Int} {f : Int → Int}
    (hs : Symmetric d)
    (h1 : ∃ v, distAt d k m = some v ∧
      ∀ a b, distAt d1 a b = if a = k ∧ b = m then some (f v) else distAt d a b)
    (h2 : ∃ v, distAt d1 m k = some v ∧
      ∀ a b, distAt d2 a b = if a = m ∧ b = k then some (f v) else distAt d1 a b) :
    Symmetric d2 := by
  obtain ⟨v, hv, e1⟩ := h1
  obtain ⟨w, hw, e2⟩ := h2
  intro a b
  rw [e2 a b, e2 b a]
  by_cases hkm : k = m
  · subst hkm
    by_cases h1 : a = k ∧ b = k
    · rw [if_pos h1, if_pos ⟨h1.2, h1.1⟩]
    · have h1' : ¬ (b = k ∧ a = k) := fun h => h1 ⟨h.2, h.1⟩
      rw [if_neg h1, if_neg h1', e1 a b, e1 b a, if_neg h1, if_neg h1']
      exact hs a b
  · have hw' : w = v := by
      rw [e1 m k, if_neg (fun h => hkm h.1.symm), ← hs k m, hv] at hw
      exact (Option.some.inj hw).symm
    subst hw'
    by_cases h1 : a = m ∧ b = k
    · have h2 : ¬ (b = m ∧ a = k) := fun h => hkm (h1.2.symm.trans h.1)
      rw [if_pos h1, if_neg h2, e1 b a, if_pos ⟨h1.2, h1.1⟩]
    · rw [if_neg h1]
      by_cases h2 : b = m ∧ a = k
      · rw [if_pos h2, e1 a b, if_pos ⟨h2.2, h2.1⟩]
      · rw [if_neg h2, e1 a b, e1 b a]
        have h3 : ¬ (a = k ∧ b = m) := fun h => h2 ⟨h.2, h.1⟩
        have h4 : ¬ (b = k ∧ a = m) := fun h => h1 ⟨h.2, h.1⟩
        rw [if_neg h3, if_neg h4]
        exact hs a b

theorem updateEntries_symmetric {c : ColumnReads} {same : Bool} {d d' : List (List Int)}
    {k m : Int} (hs : Symmetric d) (h : updateEntries c same d k m = some d') :
    Symmetric d' := by
  unfold updateEntries at h
  cases h1 : zeroFix d k m with
  | none => simp [h1] at h
  | some d1 =>
    simp only [h1] at h
    cases h2 : zeroFix d1 m k with
    | none => simp [h2] at h
    | some d2 =>
      simp only [h2] at h
      have s2 : Symmetric d2 := hs.both (zeroFix_spec h1) (zeroFix_spec h2)
      cases same with
      | true =>
        simp only [if_true, Option.some.injEq] at h
        subst h
        exact s2
      | false =>
        simp only [Bool.false_eq_true, if_false] at h
        cases hk : getAt c.qvs k with
        | none => simp [hk] at h
        | some qk =>
          cases hm : getAt c.qvs m with
          | none => simp [hk, hm] at h
          | some qm =>
            simp only [hk, hm] at h
            cases h3 : bumpDist d2 m k (qk + qm) with
            | none => simp [h3] at h
            | some d3 =>
              simp only [h3] at h
              have s2' : Symmetric d2 := s2
              exact Symmetric.both (k := m) (m := k) (f := fun v => v + (qk + qm)) s2'
                (bumpDist_spec h3) (bumpDist_spec h)

theorem updatePair_symmetric {apIids : List Int} {nr : Int} {c : ColumnReads}
    {d d' : List (List Int)} {p : Int × Int} (hs : Symmetric d)
    (h : updatePair apIids nr c d p = some d') : Symmetric d' := by
  unfold updatePair at h
  split at h
  · cases h
    exact hs
  · split at h
    · split at h
      · cases h
        exact hs
      · split at h
        · cases h
          exact hs
        · split at h
          · exact updateEntries_symmetric hs h
          · cases h
    · cases h

theorem PopulateDistMatrix_symmetric {isRead : Char → Bool} {st : Store} {ap ap' : AlPair}
    {cid : Int} (hs : Symmetric ap.dist_matrix)
    (h : PopulateDistMatrix isRead st ap cid = some ap') : Symmetric ap'.dist_matrix := by
  unfold PopulateDistMatrix at h
  split at h
  · cases h
  · split at h
    · cases h
    · rename_i c hc
      split at h
      · cases h
      · rename_i d hd
        cases h
        exact foldlM_inv Symmetric _ _ (fun b a b' _ hb hstep => updatePair_symmetric hb hstep)
          _ _ hs hd

theorem getAt_replicate {α : Type} (x : α) (n : Nat) (i : Int) :
    getAt (List.replicate n x) i = if 0 ≤ i ∧ i < n then some x else none := by
  unfold getAt
  by_cases hi : i < 0
  · rw [if_pos hi, if_neg (by omega)]
  · rw [if_neg hi]
    by_cases hn : i.toNat < n
    · rw [if_pos (by omega), List.getElem?_replicate, if_pos hn]
    · rw [if_neg (by omega), List.getElem?_replicate, if_neg hn]

theorem distAt_replicate (n : Nat) (i j : Int) :
    distAt (List.replicate n (List.replicate n (-1))) i j =
      if (0 ≤ i ∧ i < n) ∧ (0 ≤ j ∧ j < n) then some (-1) else none := by
  unfold distAt
  rw [getAt_replicate]
  by_cases hi : 0 ≤ i ∧ i < (n : Int)
  · rw [if_pos hi]
    show getAt (List.replicate n (-1)) j = _
    rw [getAt_replicate]
    by_cases hj : 0 ≤ j ∧ j < (n : Int)
    · rw [if_pos hj, if_pos ⟨hi, hj⟩]
    · rw [if_neg hj, if_neg (fun h => hj h.2)]
  · rw [if_neg hi, if_neg (fun h => hi h.1)]

theorem AllocateDistMatrix_symmetric (ap : AlPair) :
    Symmetric (AllocateDistMatrix ap).dist_matrix := by
  intro i j
  show distAt (List.replicate ap.nr.toNat (List.replicate ap.nr.toNat (-1))) i j =
    distAt (List.replicate ap.nr.toNat (List.replicate ap.nr.toNat (-1))) j i
  rw [distAt_replicate, distAt_replicate]
  by_cases h : (0 ≤ i ∧ i < (ap.nr.toNat : Int)) ∧ (0 ≤ j ∧ j < (ap.nr.toNat : Int))
  · rw [if_pos h, if_pos ⟨h.2, h.1⟩]
  · rw [if_neg h, if_neg (fun h' => h ⟨h'.2, h'.1⟩)]

theorem SameShape.of_spec {d d' : List (List Int)} {k m : Int} {x : Int}
    (h : ∃ v, distAt d k m = some v ∧
      ∀ a b, distAt d' a b = if a = k ∧ b = m then some x else distAt d a b) :
    SameShape d d' := by
  obtain ⟨v, hv, e⟩ := h
  intro a b
  rw [e a b]
  by_cases hab : a = k ∧ b = m
  · rw [if_pos hab, hab.1, hab.2, hv]
    rfl
  · rw [if_neg hab]

theorem SameShape.trans_s {a b c : List (List Int)} (h1 : SameShape a b) (h2 : SameShape b c) :
    SameShape a c := fun i j => (h2 i j).trans (h1 i j)

theorem zeroFix_shape {d d' : List (List Int)} {k m : Int} (h : zeroFix d k m = some d') :
    SameShape d d' := by
  obtain ⟨v, hv, e⟩ := zeroFix_spec h
  exact SameShape.of_spec ⟨v, hv, e⟩

theorem bumpDist_shape {d d' : List (List Int)} {k m q : Int} (h : bumpDist d k m q = some d') :
    SameShape d d' := by
  obtain ⟨v, hv, e⟩ := bumpDist_spec h
  exact SameShape.of_spec ⟨v, hv, e⟩

theorem updateEntries_shape {c : ColumnReads} {same : Bool} {d d' : List (List Int)}
    {k m : Int} (h : updateEntries c same d k m = some d') : SameShape d d' := by
  unfold updateEntries at h
  cases h1 : zeroFix d k m with
  | none => simp [h1] at h
  | some d1 =>
    simp only [h1] at h
    cases h2 : zeroFix d1 m k with
    | none => simp [h2] at h
    | some d2 =>
      simp only [h2] at h
      have s2 : SameShape d d2 := (zeroFix_shape h1).trans_s (zeroFix_shape h2)
      cases same with
      | true =>
        simp only [if_true, Option.some.injEq] at h
        subst h
        exact s2
      | false =>
        simp only [Bool.false_eq_true, if_false] at h
        cases hk : getAt c.qvs k with
        | none => simp [hk] at h
        | some qk =>
          cases hm : getAt c.qvs m with
          | none => simp [hk, hm] at h
          | some qm =>
            simp only [hk, hm] at h
            cases h3 : bumpDist d2 m k (qk + qm) with
            | none => simp [h3] at h
            | some d3 =>
              simp only [h3] at h
              exact s2.trans_s ((bumpDist_shape h3).trans_s (bumpDist_shape h))

theorem updatePair_shape {apIids : List Int} {nr : Int} {c : ColumnReads}
    {d d' : List (List Int)} {p : Int × Int}
    (h : updatePair apIids nr c d p = some d') : SameShape d d' := by
  unfold updatePair at h
  split at h
  · cases h
    exact fun _ _ => rfl
  · split at h
    · split at h
      · cases h
        exact fun _ _ => rfl
      · split at h
        · cases h
          exact fun _ _ => rfl
        · split at h
          · exact updateEntries_shape h
          · cases h
    · cases h

theorem PopulateDistMatrix_shape {isRead : Char → Bool} {st : Store} {ap ap' : AlPair}
    {cid : Int} (h : PopulateDistMatrix isRead st ap cid = some ap') :
    SameShape ap.dist_matrix ap'.dist_matrix := by
  unfold PopulateDistMatrix at h
  split at h
  · cases h
  · split at h
    · cases h
    · rename_i c hc
      split at h
      · cases h
      · rename_i d hd
        cases h
        exact foldlM_inv (fun x => SameShape ap.dist_matrix x) _ _
          (fun b a b' _ hb hstep => hb.trans_s (updatePair_shape hstep)) _ _ (fun _ _ => rfl) hd

/-- C25: after `AllocateDistMatrix` followed by `PopulateDistMatrix` for any
columns, the distance matrix is symmetric: `dist_matrix[i][j]` and
`dist_matrix[j][i]` are the same for all `i` and `j`, and the entries are
there for `0 <= i, j < nr`. -/
theorem distMatrix_symmetric (isRead : Char → Bool) (st : Store) (ap ap' : AlPair)
    (cids : List Int) (h : populateColumns isRead st ap cids = some ap') :
    ∀ i j, distAt ap'.dist_matrix i j = distAt ap'.dist_matrix j i ∧
      (0 ≤ i → i < ap.nr → 0 ≤ j → j < ap.nr → (distAt ap'.dist_matrix i j).isSome) := by
  unfold populateColumns at h
  have hinv := foldlM_inv (fun a => Symmetric a.dist_matrix ∧
      SameShape (AllocateDistMatrix ap).dist_matrix a.dist_matrix) _ _
    (fun b a b' _ hb hstep => ⟨PopulateDistMatrix_symmetric hb.1 hstep,
      hb.2.trans_s (PopulateDistMatrix_shape hstep)⟩) _ _
    ⟨AllocateDistMatrix_symmetric ap, fun _ _ => rfl⟩ h
  intro i j
  refine ⟨hinv.1 i j, fun h1 h2 h3 h4 => ?_⟩
  rw [hinv.2 i j]
  show (distAt (List.replicate ap.nr.toNat (List.replicate ap.nr.toNat (-1))) i j).isSome
  rw [distAt_replicate, if_pos (by omega)]
  rfl

theorem distMatrix_symmetric_witness :
    ∃ ap', buildTwoIids.isSome = true ∧
      populateColumns (fun t => t == 'R') storeTwoIids pairTwoIids [0, 0] = some ap' ∧
      distAt ap'.dist_matrix 1 0 = some 24 ∧
      distAt ap'.dist_matrix 1 0 = distAt ap'.dist_matrix 0 1 :=
  ⟨_, rfl, rfl, rfl,
    (distMatrix_symmetric (fun t => t == 'R') storeTwoIids pairTwoIids _ [0, 0] rfl 1 0).1⟩

theorem mem_upperPairs {nr : Int} {p : Int × Int} :
    p ∈ upperPairs nr ↔ 0 ≤ p.1 ∧ p.1 ≤ p.2 ∧ p.2 < nr := by
  unfold upperPairs
  simp only [List.mem_bind, List.mem_map, mem_intRange]
  constructor
  · rintro ⟨i, ⟨h1, h2⟩, j, ⟨h3, h4⟩, rfl⟩
    exact ⟨h1, h3, h4⟩
  · rintro ⟨h1, h2, h3⟩
    exact ⟨p.1, ⟨h1, by omega⟩, p.2, ⟨h2, h3⟩, rfl⟩

theorem foldlM_some {α β : Type} (P : β → Prop) (f : β → α → Option β) (l : List α)
    (hf : ∀ b a, a ∈ l → P b → ∃ b', f b a = some b' ∧ P b') :
    ∀ b, P b → ∃ r, l.foldlM f b = some r ∧ P r := by
  induction l with
  | nil => intro b hb; exact ⟨b, rfl, hb⟩
  | cons a l ih =>
    intro b hb
    obtain ⟨b', e, hb'⟩ := hf b a (List.mem_cons_self _ _) hb
    obtain ⟨r, hr, hP⟩ := ih (fun b a ha hb => hf b a (List.mem_cons_of_mem _ ha) hb) b' hb'
    exact ⟨r, by rw [List.foldlM_cons, e]; exact hr, hP⟩

/-- The search for the largest entry returns an entry that none of the
visited entries exceeds, or the state it started from. -/
theorem seedScan_spec (d : List (List Int)) : ∀ (ps : List (Int × Int)) (acc r : Int × Int × Int),
    ps.foldlM (seedStep d) acc = some r →
    acc.1 ≤ r.1 ∧ (∀ p, p ∈ ps → ∀ x, distAt d p.1 p.2 = some x → x ≤ r.1) ∧
    (r = acc ∨ ((r.2.1, r.2.2) ∈ ps ∧ distAt d r.2.1 r.2.2 = some r.1)) := by
  intro ps
  induction ps with
  | nil =>
    intro acc r h
    simp only [List.foldlM, Option.pure_def, Option.some.injEq] at h
    subst h
    exact ⟨le_refl _, fun p hp => by simp at hp, Or.inl rfl⟩
  | cons p ps ih =>
    intro acc r h
    rw [List.foldlM_cons] at h
    cases hs : seedStep d acc p with
    | none => simp [hs] at h
    | some acc1 =>
      simp only [hs, Option.bind_eq_bind, Option.some_bind] at h
      obtain ⟨i1, i2, i3⟩ := ih acc1 r h
      unfold seedStep at hs
      cases hv : distAt d p.1 p.2 with
      | none => simp [hv] at hs
      | some v =>
        simp only [hv] at hs
        by_cases hlt : acc.1 < v
        · rw [if_pos hlt] at hs
          cases hs
          refine ⟨by simp only at i1; omega, ?_, ?_⟩
          · intro q hq x hx
            rcases List.mem_cons.1 hq with e | e
            · subst e
              rw [hv] at hx
              cases hx
              exact i1
            · exact i2 q e x hx
          · rcases i3 with e | ⟨e1, e2⟩
            · right
              subst e
              exact ⟨List.mem_cons_self _ _, hv⟩
            · exact Or.inr ⟨List.mem_cons_of_mem _ e1, e2⟩
        · rw [if_neg hlt] at hs
          cases hs
          refine ⟨i1, ?_, ?_⟩
          · intro q hq x hx
            rcases List.mem_cons.1 hq with e | e
            · subst e
              rw [hv] at hx
              cases hx
              omega
            · exact i2 q e x hx
          · rcases i3 with e | ⟨e1, e2⟩
            · exact Or.inl e
            · exact Or.inr ⟨List.mem_cons_of_mem _ e1, e2⟩

theorem splitStep_spec {d : List (List Int)} {s0 s1 : Int} {al al1 : List Int} {i : Int}
    (h : splitStep d s0 s1 al i = some al1) :
    al1.length = al.length ∧ (∀ j, j ≠ i → getAt al1 j = getAt al j) ∧
    getAt al1 i = if i = s0 ∨ i = s1 then getAt al i else sideOf d s0 s1 i := by
  unfold splitStep at h
  by_cases hs : i = s0 ∨ i = s1
  · rw [if_pos hs] at h
    cases h
    exact ⟨rfl, fun _ _ => rfl, by rw [if_pos hs]⟩
  · rw [if_neg hs] at h
    rw [if_neg hs]
    unfold sideOf
    cases ha : distAt d i s0 with
    | none => simp [ha] at h
    | some a =>
      cases hb : distAt d i s1 with
      | none => simp [ha, hb] at h
      | some b =>
        cases hg : getAt al i with
        | none => simp [ha, hb, hg] at h
        | some x =>
          simp only [ha, hb, hg, Option.some.injEq] at h
          subst h
          exact ⟨length_setAt _ _ _, fun j hj => getAt_setAt_ne hj, getAt_setAt_self hg⟩

theorem splitLoop_spec (d : List (List Int)) (s0 s1 : Int) : ∀ (l : List Int), l.Nodup →
    ∀ (al al' : List Int), l.foldlM (splitStep d s0 s1) al = some al' →
    al'.length = al.length ∧
    ∀ j, getAt al' j = if j ∈ l ∧ ¬ (j = s0 ∨ j = s1) then sideOf d s0 s1 j else getAt al j := by
  intro l
  induction l with
  | nil =>
    intro _ al al' h
    simp only [List.foldlM, Option.pure_def, Option.some.injEq] at h
    subst h
    exact ⟨rfl, fun j => by simp⟩
  | cons i l ih =>
    intro hnd al al' h
    rw [List.foldlM_cons] at h
    cases hs : splitStep d s0 s1 al i with
    | none => simp [hs] at h
    | some al1 =>
      simp only [hs, Option.bind_eq_bind, Option.some_bind] at h
      obtain ⟨n1, n2⟩ := List.nodup_cons.1 hnd
      obtain ⟨e1, e2, e3⟩ := splitStep_spec hs
      obtain ⟨f1, f2⟩ := ih n2 al1 al' h
      refine ⟨f1.trans e1, fun j => ?_⟩
      rw [f2 j]
      by_cases hj : j = i
      · subst hj
        rw [if_neg (fun hc => n1 hc.1), e3]
        by_cases hseed : j = s0 ∨ j = s1
        · rw [if_pos hseed, if_neg (fun hc => hc.2 hseed)]
        · rw [if_neg hseed, if_pos ⟨List.mem_cons_self _ _, hseed⟩]
      · rw [e2 j hj]
        by_cases hc : j ∈ l ∧ ¬ (j = s0 ∨ j = s1)
        · rw [if_pos hc, if_pos ⟨List.mem_cons_of_mem _ hc.1, hc.2⟩]
        · rw [if_neg hc, if_neg]
          rintro ⟨hm, hns⟩
          rcases List.mem_cons.1 hm with e | e
          · exact hj e
          · exact hc ⟨e, hns⟩

theorem tallyLoop_spec (al sq : List Int) : ∀ (l : List Int) (acc r : Int × Int × Int × Int),
    l.foldlM (tallyStep al sq) acc = some r →
    r.1 = acc.1 + ((l.filter fun i => getAt al i == some 0).map
      fun i => (getAt sq i).getD 0).sum ∧
    r.2.1 = acc.2.1 + ((l.filter fun i => !(getAt al i == some 0)).map
      fun i => (getAt sq i).getD 0).sum ∧
    r.2.2.1 = acc.2.2.1 + (l.filter fun i => getAt al i == some 0).length ∧
    r.2.2.2 = acc.2.2.2 + (l.filter fun i => !(getAt al i == some 0)).length := by
  intro l
  induction l with
  | nil =>
    intro acc r h
    simp only [List.foldlM, Option.pure_def, Option.some.injEq] at h
    subst h
    simp
  | cons i l ih =>
    intro acc r h
    rw [List.foldlM_cons] at h
    cases hs : tallyStep al sq acc i with
    | none => simp [hs] at h
    | some acc1 =>
      simp only [hs, Option.bind_eq_bind, Option.some_bind] at h
      obtain ⟨i1, i2, i3, i4⟩ := ih acc1 r h
      unfold tallyStep at hs
      cases ha : getAt al i with
      | none => simp [ha] at hs
      | some a =>
        cases hq : getAt sq i with
        | none => simp [ha, hq] at hs
        | some q =>
          simp only [ha, hq] at hs
          by_cases h0 : a = 0
          · rw [if_pos h0] at hs
            cases hs
            subst h0
            simp only [List.filter_cons, ha, hq, beq_self_eq_true, if_true, List.map_cons,
              List.sum_cons, Option.getD_some, List.length_cons, Bool.not_true,
              Bool.false_eq_true, if_false]
            simp only at i1 i2 i3 i4
            refine ⟨by rw [i1]; ring, i2, by rw [i3]; push_cast; ring, i4⟩
          · rw [if_neg h0] at hs
            cases hs
            have hb : (some a == some (0 : Int)) = false := by
              simp [h0]
            simp only [List.filter_cons, ha, hq, hb, Bool.false_eq_true, if_false,
              Bool.not_false, if_true, List.map_cons, List.sum_cons, Option.getD_some,
              List.length_cons]
            simp only at i1 i2 i3 i4
            refine ⟨i1, by rw [i2]; ring, i3, by rw [i4]; push_cast; ring⟩

theorem chooseBest_fields (above : Int → Int → Bool) (ap : AlPair) (al : List Int)
    (t : Int × Int × Int × Int) :
    (chooseBest above ap al t).alleles = al ∧ (chooseBest above ap al t).nr = ap.nr ∧
    (chooseBest above ap al t).sum_qvs = ap.sum_qvs ∧
    (chooseBest above ap al t).dist_matrix = ap.dist_matrix ∧
    (chooseBest above ap al t).best_allele = (if above t.1 t.2.1 = true then 0 else 1) ∧
    (chooseBest above ap al t).nr_best_allele =
      (if above t.1 t.2.1 = true then t.2.2.1 else t.2.2.2) := by
  unfold chooseBest
  by_cases h : above t.1 t.2.1 = true
  · simp only [h, if_true, and_self]
  · simp only [h, if_false, and_self]
    simp

theorem getAt_isSome_of_lt {α : Type} {l : List α} {n i : Int} (hl : (l.length : Int) = n)
    (h0 : 0 ≤ i) (h1 : i < n) : (getAt l i).isSome :=
  (getAt_isSome_iff l i).2 ⟨h0, by omega⟩

/-- C24 (amended): for `nr >= 2` reads and a symmetric distance matrix with an
entry off the diagonal that is larger than every entry on the diagonal,
`ClusterReads` returns; its two seeds are two different reads whose distance
is the largest entry of the matrix; the seeds get the alleles 0 and 1; every
other read `i` gets allele 0 when `dist[i][seed0] < dist[i][seed1]` and
allele 1 otherwise; `best_allele` is 0 when the reads of allele 0 have the
larger total of `sum_qvs` and 1 otherwise; and `nr_best_allele` is the number
of reads of the best allele. -/
theorem clusterReads_splits (above : Int → Int → Bool) (ap : AlPair) (i0 j0 y0 : Int)
    (hz : ∀ a b, above a b = decide (a > b))
    (hnr : 2 ≤ ap.nr)
    (hal : (ap.alleles.length : Int) = ap.nr) (hsq : (ap.sum_qvs.length : Int) = ap.nr)
    (hd : ∀ i j, 0 ≤ i → i < ap.nr → 0 ≤ j → j < ap.nr →
      (distAt ap.dist_matrix i j).isSome)
    (hsym : ∀ i j, distAt ap.dist_matrix i j = distAt ap.dist_matrix j i)
    (hoff : 0 ≤ i0 ∧ i0 < j0 ∧ j0 < ap.nr ∧ distAt ap.dist_matrix i0 j0 = some y0 ∧
      -100 < y0 ∧ ∀ p x, distAt ap.dist_matrix p p = some x → x < y0) :
    ∃ ap' seed0 seed1 v, ClusterReads above ap = some ap' ∧
      seedsOf ap = some (seed0, seed1) ∧
      0 ≤ seed0 ∧ seed0 < seed1 ∧ seed1 < ap.nr ∧
      distAt ap.dist_matrix seed0 seed1 = some v ∧
      (∀ i j x, 0 ≤ i → i < ap.nr → 0 ≤ j → j < ap.nr →
        distAt ap.dist_matrix i j = some x → x ≤ v) ∧
      getAt ap'.alleles seed0 = some 0 ∧ getAt ap'.alleles seed1 = some 1 ∧
      (∀ i, 0 ≤ i → i < ap.nr → i ≠ seed0 → i ≠ seed1 →
        ∃ a b, distAt ap.dist_matrix i seed0 = some a ∧
          distAt ap.dist_matrix i seed1 = some b ∧
          getAt ap'.alleles i = some (if a < b then 0 else 1)) ∧
      ap'.best_allele = (if alleleTotal ap' 0 > alleleTotal ap' 1 then 0 else 1) ∧
      ap'.nr_best_allele = (readsOf ap' ap'.best_allele).length ∧
      ap'.nr = ap.nr ∧ ap'.sum_qvs = ap.sum_qvs ∧ ap'.dist_matrix = ap.dist_matrix := by
  obtain ⟨hi0, hij0, hj0, hy0, hlow, hdiag⟩ := hoff
  -- the seeds
  obtain ⟨r, hscan, -⟩ := foldlM_some (fun _ => True) (seedStep ap.dist_matrix) (upperPairs ap.nr)
    (fun b a ha _ => by
      obtain ⟨m1, m2, m3⟩ := mem_upperPairs.1 ha
      obtain ⟨x, hx⟩ := Option.isSome_iff_exists.1 (hd a.1 a.2 m1 (by omega) (by omega) m3)
      unfold seedStep
      simp only [hx]
      by_cases hlt : b.1 < x
      · exact ⟨_, by rw [if_pos hlt], trivial⟩
      · exact ⟨_, by rw [if_neg hlt], trivial⟩) (-100, -1, -1) trivial
  obtain ⟨-, s2, s3⟩ := seedScan_spec ap.dist_matrix _ _ _ hscan
  obtain ⟨v, s0, s1⟩ := r
  have hv0 : y0 ≤ v := s2 (i0, j0) (mem_upperPairs.2 ⟨hi0, by omega, hj0⟩) y0 hy0
  have hseed : (s0, s1) ∈ upperPairs ap.nr ∧ distAt ap.dist_matrix s0 s1 = some v := by
    rcases s3 with e | e
    · simp only [Prod.mk.injEq] at e
      omega
    · exact e
  obtain ⟨hmem, hent⟩ := hseed
  obtain ⟨a0, a1, a2⟩ := mem_upperPairs.1 hmem
  simp only at a0 a1 a2
  have hne : s0 ≠ s1 := by
    intro e
    rw [← e] at hent
    have := hdiag s0 v hent
    omega
  have hlt : s0 < s1 := by omega
  -- the seeds are marked
  obtain ⟨x0, hx0⟩ := Option.isSome_iff_exists.1 (getAt_isSome_of_lt hal a0 (by omega))
  obtain ⟨x1, hx1⟩ := Option.isSome_iff_exists.1 (getAt_isSome_of_lt hal (by omega) a2)
  have hmark : markSeeds ap.alleles s0 s1 = some (setAt (setAt ap.alleles s0 0) s1 1) := by
    unfold markSeeds
    rw [hx0, hx1]
  have hlen2 : ((setAt (setAt ap.alleles s0 0) s1 1).length : Int) = ap.nr := by
    rw [length_setAt, length_setAt]
    exact hal
  have h2s1 : getAt (setAt (setAt ap.alleles s0 0) s1 1) s1 = some 1 :=
    getAt_setAt_self (by rw [getAt_setAt_ne (Ne.symm hne)]; exact hx1)
  have h2s0 : getAt (setAt (setAt ap.alleles s0 0) s1 1) s0 = some 0 := by
    rw [getAt_setAt_ne hne]
    exact getAt_setAt_self hx0
  -- the split
  obtain ⟨al, hsplit, hlenal⟩ := foldlM_some (fun l : List Int => (l.length : Int) = ap.nr)
    (splitStep ap.dist_matrix s0 s1) (intRange 0 ap.nr)
    (fun b a ha hb => by
      obtain ⟨m1, m2⟩ := mem_intRange.1 ha
      by_cases hs : a = s0 ∨ a = s1
      · exact ⟨b, by unfold splitStep; rw [if_pos hs], hb⟩
      · obtain ⟨u, hu⟩ := Option.isSome_iff_exists.1 (hd a s0 m1 m2 a0 (by omega))
        obtain ⟨w, hw⟩ := Option.isSome_iff_exists.1 (hd a s1 m1 m2 (by omega) a2)
        obtain ⟨z, hz'⟩ := Option.isSome_iff_exists.1 (getAt_isSome_of_lt hb m1 m2)
        refine ⟨setAt b a (if u < w then 0 else 1), ?_, ?_⟩
        · unfold splitStep
          simp only [if_neg hs, hu, hw, hz']
        · show ((setAt b a (if u < w then 0 else 1)).length : Int) = ap.nr
          rw [length_setAt]
          exact hb) _ hlen2
  obtain ⟨-, hval⟩ := splitLoop_spec ap.dist_matrix s0 s1 _ (nodup_intRange 0 ap.nr) _ _ hsplit
  have hal0 : getAt al s0 = some 0 := by
    rw [hval s0, if_neg (fun hc => hc.2 (Or.inl rfl))]
    exact h2s0
  have hal1 : getAt al s1 = some 1 := by
    rw [hval s1, if_neg (fun hc => hc.2 (Or.inr rfl))]
    exact h2s1
  have hother : ∀ i, 0 ≤ i → i < ap.nr → i ≠ s0 → i ≠ s1 →
      ∃ a b, distAt ap.dist_matrix i s0 = some a ∧ distAt ap.dist_matrix i s1 = some b ∧
        getAt al i = some (if a < b then 0 else 1) := by
    intro i h1 h2 h3 h4
    obtain ⟨u, hu⟩ := Option.isSome_iff_exists.1 (hd i s0 h1 h2 a0 (by omega))
    obtain ⟨w, hw⟩ := Option.isSome_iff_exists.1 (hd i s1 h1 h2 (by omega) a2)
    refine ⟨u, w, hu, hw, ?_⟩
    rw [hval i, if_pos ⟨mem_intRange.2 ⟨h1, h2⟩, fun hc => hc.elim h3 h4⟩]
    unfold sideOf
    rw [hu, hw]
  have h01 : ∀ i, i ∈ intRange 0 ap.nr → getAt al i = some 0 ∨ getAt al i = some 1 := by
    intro i hi
    obtain ⟨h1, h2⟩ := mem_intRange.1 hi
    by_cases e0 : i = s0
    · rw [e0]; exact Or.inl hal0
    · by_cases e1 : i = s1
      · rw [e1]; exact Or.inr hal1
      · obtain ⟨a, b, -, -, e⟩ := hother i h1 h2 e0 e1
        rw [e]
        by_cases hab : a < b
        · rw [if_pos hab]; exact Or.inl rfl
        · rw [if_neg hab]; exact Or.inr rfl
  -- the totals
  obtain ⟨t, htally, -⟩ := foldlM_some (fun _ => True) (tallyStep al ap.sum_qvs)
    (intRange 0 ap.nr)
    (fun b a ha _ => by
      obtain ⟨m1, m2⟩ := mem_intRange.1 ha
      obtain ⟨u, hu⟩ := Option.isSome_iff_exists.1 (getAt_isSome_of_lt hlenal m1 m2)
      obtain ⟨w, hw⟩ := Option.isSome_iff_exists.1 (getAt_isSome_of_lt hsq m1 m2)
      unfold tallyStep
      simp only [hu, hw]
      by_cases h0 : u = 0
      · exact ⟨_, by rw [if_pos h0], trivial⟩
      · exact ⟨_, by rw [if_neg h0], trivial⟩) (0, 0, 0, 0) trivial
  obtain ⟨t1, t2, t3, t4⟩ := tallyLoop_spec al ap.sum_qvs _ _ _ htally
  simp only [zero_add] at t1 t2 t3 t4
  have hflt : (intRange 0 ap.nr).filter (fun i => !(getAt al i == some 0)) =
      (intRange 0 ap.nr).filter (fun i => getAt al i == some 1) := by
    apply List.filter_congr
    intro i hi
    rcases h01 i hi with e | e <;> rw [e] <;> rfl
  rw [hflt] at t2 t4
  obtain ⟨c1, c2, c3, c4, c5, c6⟩ := chooseBest_fields above ap al t
  have hrun : ClusterReads above ap = some (chooseBest above ap al t) := by
    unfold ClusterReads
    rw [if_neg (by omega)]
    simp only [hscan, hmark, hsplit, htally]
  have hT0 : alleleTotal (chooseBest above ap al t) 0 = t.1 := by
    unfold alleleTotal readsOf
    rw [c1, c2, c3, t1]
  have hT1 : alleleTotal (chooseBest above ap al t) 1 = t.2.1 := by
    unfold alleleTotal readsOf
    rw [c1, c2, c3, t2]
  have hN0 : ((readsOf (chooseBest above ap al t) 0).length : Int) = t.2.2.1 := by
    unfold readsOf
    rw [c1, c2, t3]
  have hN1 : ((readsOf (chooseBest above ap al t) 1).length : Int) = t.2.2.2 := by
    unfold readsOf
    rw [c1, c2, t4]
  have hseeds : seedsOf ap = some (s0, s1) := by
    unfold seedsOf
    rw [hscan]
    rfl
  refine ⟨chooseBest above ap al t, s0, s1, v, hrun, hseeds, a0, hlt, a2, hent, ?_, ?_, ?_, ?_,
    ?_, ?_, c2, c3, c4⟩
  · intro i j x h1 h2 h3 h4 hx
    by_cases hij : i ≤ j
    · exact s2 (i, j) (mem_upperPairs.2 ⟨h1, hij, h4⟩) x hx
    · rw [hsym i j] at hx
      exact s2 (j, i) (mem_upperPairs.2 ⟨h3, by omega, h2⟩) x hx
  · rw [c1]; exact hal0
  · rw [c1]; exact hal1
  · intro i h1 h2 h3 h4
    rw [c1]
    exact hother i h1 h2 h3 h4
  · rw [c5, hT0, hT1, hz]
    by_cases hgt : t.1 > t.2.1
    · simp [hgt]
    · simp [hgt]
  · rw [c6, c5, hz]
    by_cases hgt : t.1 > t.2.1
    · simp only [hgt, decide_True, if_true]
      exact hN0.symm
    · simp only [hgt, decide_False, Bool.false_eq_true, if_false]
      exact hN1.symm

theorem distAt_none_of_left {d : List (List Int)} {i : Int} (j : Int)
    (h : ¬ (0 ≤ i ∧ i < d.length)) : distAt d i j = none := by
  unfold distAt
  cases hg : getAt d i with
  | none => rfl
  | some row =>
    have := (getAt_isSome_iff d i).1 (by rw [hg]; rfl)
    exact absurd this h

theorem clusterReads_splits_witness :
    ∃ ap' seed0 seed1, ClusterReads (fun a b => decide (a > b)) pairThree = some ap' ∧
      seedsOf pairThree = some (seed0, seed1) ∧ seed0 < seed1 ∧
      getAt ap'.alleles seed0 = some 0 ∧ getAt ap'.alleles seed1 = some 1 := by
  have hd : ∀ i j, 0 ≤ i → i < pairThree.nr → 0 ≤ j → j < pairThree.nr →
      (distAt pairThree.dist_matrix i j).isSome := by
    intro i j h1 h2 h3 h4
    have h2' : i < 3 := h2
    have h4' : j < 3 := h4
    interval_cases i <;> interval_cases j <;> rfl
  have hsym : ∀ i j, distAt pairThree.dist_matrix i j = distAt pairThree.dist_matrix j i := by
    intro i j
    by_cases hi : 0 ≤ i ∧ i < 3
    · by_cases hj : 0 ≤ j ∧ j < 3
      · obtain ⟨h1, h2⟩ := hi
        obtain ⟨h3, h4⟩ := hj
        interval_cases i <;> interval_cases j <;> rfl
      · rw [distAt_none_of_left i (d := pairThree.dist_matrix) (by exact hj)]
        obtain ⟨h1, h2⟩ := hi
        have hrow : ∀ row, row ∈ pairThree.dist_matrix → getAt row j = none := by
          intro row hrow
          have hl : row.length = 3 := by
            simp only [pairThree, List.mem_cons, List.mem_singleton, List.not_mem_nil,
              or_false] at hrow
            rcases hrow with e | e | e <;> rw [e] <;> rfl
          cases hg : getAt row j with
          | none => rfl
          | some x =>
            have := (getAt_isSome_iff row j).1 (by rw [hg]; rfl)
            rw [hl] at this
            exact absurd this hj
        interval_cases i
        · exact hrow _ (by simp [pairThree])
        · exact hrow _ (by simp [pairThree])
        · exact hrow _ (by simp [pairThree])
    · rw [distAt_none_of_left j (d := pairThree.dist_matrix) (by exact hi)]
      by_cases hj : 0 ≤ j ∧ j < 3
      · obtain ⟨h1, h2⟩ := hj
        have hrow : ∀ row, row ∈ pairThree.dist_matrix → getAt row i = none := by
          intro row hrow
          have hl : row.length = 3 := by
            simp only [pairThree, List.mem_cons, List.mem_singleton, List.not_mem_nil,
              or_false] at hrow
            rcases hrow with e | e | e <;> rw [e] <;> rfl
          cases hg : getAt row i with
          | none => rfl
          | some x =>
            have := (getAt_isSome_iff row i).1 (by rw [hg]; rfl)
            rw [hl] at this
            exact absurd this hi
        symm
        interval_cases j
        · exact hrow _ (by simp [pairThree])
        · exact hrow _ (by simp [pairThree])
        · exact hrow _ (by simp [pairThree])
      · rw [distAt_none_of_left i (d := pairThree.dist_matrix) (by exact hj)]
  have hdiag : ∀ p x, distAt pairThree.dist_matrix p p = some x → x < 12 := by
    intro p x hx
    by_cases hp : 0 ≤ p ∧ p < 3
    · obtain ⟨h1, h2⟩ := hp
      interval_cases p <;> (cases hx; decide)
    · rw [distAt_none_of_left p (d := pairThree.dist_matrix) (by exact hp)] at hx
      cases hx
  obtain ⟨ap', s0, s1, v, h1, h2, -, h4, -, -, -, h8, h9, -⟩ :=
    clusterReads_splits (fun a b => decide (a > b)) pairThree 0 1 12 (fun _ _ => rfl)
      (by decide) rfl rfl hd hsym ⟨by decide, by decide, by decide, rfl, by decide, hdiag⟩
  exact ⟨ap', s0, s1, h1, h2, h4, h8, h9⟩

/-- C24 (as stated) fails: two reads that meet in no column of the region
have a distance matrix that holds `-1` everywhere; the largest entry is met
first on the diagonal, both seeds are the read 0, which ends with allele 1,
and no read gets allele 0. -/
theorem cluster_without_pair :
    clusterApart = some [[-1, -1], [-1, -1], [5, 7], [0, 0], [1, 1], [1, 2]] := by decide!

theorem weightScan_below {W : Type} [LinearOrder W] (above same : W → W → Bool)
    (habove : ∀ x m, above x m = decide (m < x)) (hsame : ∀ x m, same x m = decide (x = m)) :
    ∀ (l : List W) (bi : Int) (acc : Int × W × List Int), (∀ x, x ∈ l → x ≤ acc.2.1) →
      weightScan above same l bi acc = (acc.1, acc.2.1, acc.2.2 ++ idxsOf acc.2.1 l bi) := by
  intro l
  induction l with
  | nil => intro bi acc _; simp [weightScan, idxsOf]
  | cons x rest ih =>
    intro bi acc h
    have hx : x ≤ acc.2.1 := h x (List.mem_cons_self _ _)
    have hr : ∀ y, y ∈ rest → y ≤ acc.2.1 := fun y hy => h y (List.mem_cons_of_mem _ hy)
    unfold weightScan idxsOf
    rw [habove, hsame]
    have h1 : ¬ acc.2.1 < x := not_lt.2 hx
    simp only [h1, decide_False, Bool.false_eq_true, if_false, decide_eq_true_eq]
    by_cases he : x = acc.2.1
    · rw [if_pos he, if_pos he, ih (bi + 1) (acc.1, acc.2.1, acc.2.2 ++ [bi]) hr]
      simp
    · rw [if_neg he, if_neg he, ih (bi + 1) acc hr]

theorem weightScan_above {W : Type} [LinearOrder W] (above same : W → W → Bool)
    (habove : ∀ x m, above x m = decide (m < x)) (hsame : ∀ x m, same x m = decide (x = m))
    (M : W) :
    ∀ (l : List W) (bi : Int) (acc : Int × W × List Int), M ∈ l → (∀ x, x ∈ l → x ≤ M) →
      acc.2.1 < M →
      ∃ first rest, idxsOf M l bi = first :: rest ∧
        weightScan above same l bi acc = (first, M, rest) := by
  intro l
  induction l with
  | nil => intro bi acc hM; simp at hM
  | cons x r ih =>
    intro bi acc hM hmax hlt
    have hx : x ≤ M := hmax x (List.mem_cons_self _ _)
    have hr : ∀ y, y ∈ r → y ≤ M := fun y hy => hmax y (List.mem_cons_of_mem _ hy)
    unfold weightScan idxsOf
    rw [habove, hsame]
    by_cases hxM : x = M
    · subst hxM
      simp only [hlt, decide_True, if_true]
      have := weightScan_below above same habove hsame r (bi + 1) (bi, x, []) hr
      rw [this]
      exact ⟨bi, idxsOf x r (bi + 1), rfl, by simp⟩
    · have hxlt : x < M := lt_of_le_of_ne hx hxM
      have hMr : M ∈ r := by
        rcases List.mem_cons.1 hM with e | e
        · exact absurd e.symm hxM
        · exact e
      rw [if_neg hxM]
      by_cases h1 : acc.2.1 < x
      · simp only [h1, decide_True, if_true]
        exact ih (bi + 1) (bi, x, []) hMr hr hxlt
      · simp only [h1, decide_False, Bool.false_eq_true, if_false, decide_eq_true_eq]
        by_cases he : x = acc.2.1
        · rw [if_pos he]
          exact ih (bi + 1) (acc.1, acc.2.1, acc.2.2 ++ [bi]) hMr hr hlt
        · rw [if_neg he]
          exact ih (bi + 1) acc hMr hr hlt

/-- C26, what the code does: with exact comparisons of the weights, when the
largest weight `M` is not zero the base `BaseCall` (quality > 0) calls is
fixed by the places `first < second < third < ...` at which `M` stands among
the weights, with no random draw: it is `first` when one or two bases have the
weight `M`, and `third` when three or more have it. -/
theorem tie_winner_fixed {W : Type} [LinearOrder W] (above same : W → W → Bool) (zero : W)
    (cw : List W) (M : W)
    (habove : ∀ x m, above x m = decide (m < x)) (hsame : ∀ x m, same x m = decide (x = m))
    (hM : M ∈ cw) (hmax : ∀ x, x ∈ cw → x ≤ M) (hpos : zero < M) :
    ∃ first rest, idxsOf M cw 0 = first :: rest ∧
      weightWinner above same zero cw =
        some (match rest with
          | [] => first
          | [_] => first
          | _ :: third :: _ => third) := by
  obtain ⟨first, rest, e1, e2⟩ := weightScan_above above same habove hsame M cw 0 (0, zero, [])
    hM hmax hpos
  refine ⟨first, rest, e1, ?_⟩
  unfold weightWinner
  simp only [e2, hsame]
  have hne : M ≠ zero := ne_of_gt hpos
  simp only [hne, decide_False, Bool.false_eq_true, if_false]
  cases rest with
  | nil => simp
  | cons a t =>
    cases t with
    | nil =>
      simp only [List.length_singleton, gt_iff_lt, zero_lt_one, if_true]
      rfl
    | cons b u =>
      simp only [List.length_cons, gt_iff_lt]
      rw [if_pos (by omega)]
      unfold getAt
      simp

theorem tie_winner_fixed_witness :
    ∃ first rest, idxsOf 5 [0, 5, 5, 5, 0, 0] 0 = first :: rest ∧
      weightWinner (fun x m => decide (m < x)) (fun x m => decide (x = m)) 0 [0, 5, 5, 5, 0, 0] =
        some (match rest with
          | [] => first
          | [_] => first
          | _ :: third :: _ => third) :=
  tie_winner_fixed (fun (x m : Nat) => decide (m < x)) (fun x m => decide (x = m)) 0
    [0, 5, 5, 5, 0, 0] 5 (fun _ _ => rfl) (fun _ _ => rfl) (by decide) (by decide) (by decide)

/-- C26 fails on the code: with the bases 1 and 2 tied the call is base 1,
with 1 and 3 tied it is base 1, with 1, 2 and 3 tied it is base 3, and with 1
to 4 tied it is base 3; in no case can another tied base be called, while the
comment in `BaseCall` has the call selected at random among the tied bases. -/
theorem tied_bases_fixed : tieCases = [some 1, some 1, some 3, some 3] := by decide!

theorem CharsOnly.refl_co (st : Store) : CharsOnly st st := ⟨rfl, rfl, rfl, rfl⟩

theorem writeCall_chars {st st' : Store} {call : Bead} {c q : Char}
    (h : writeCall st call c q = some st') : CharsOnly st st' := by
  unfold writeCall at h
  split at h
  · cases h
    exact ⟨rfl, rfl, rfl, rfl⟩
  · cases h

theorem BaseCallStore_chars {oracle : Store → Int → Char × Char} {st st' : Store} {cid : Int}
    (h : BaseCallStore oracle st cid = some st') : CharsOnly st st' := by
  unfold BaseCallStore at h
  simp only [Option.bind_eq_bind, Option.bind_eq_some, Option.pure_def, Option.some.injEq] at h
  obtain ⟨_, _, _, _, _, _, _, _, _, _, _, _, rfl⟩ := h
  exact ⟨rfl, rfl, rfl, rfl⟩

theorem BaseCallEffect_chars {oracle : Store → Int → Char × Char} {quality : Int}
    {st st' : Store} {cid : Int} (h : BaseCallEffect oracle quality st cid = some st') :
    CharsOnly st st' := by
  unfold BaseCallEffect at h
  split at h
  · exact BaseCallStore_chars h
  · split at h
    · unfold BaseCallMajority at h
      split at h
      · cases h
      · split at h
        · split at h
          · cases h
          · exact writeCall_chars h
        · cases h
    · split at h
      · unfold BaseCallPromote at h
        split at h
        · cases h
        · split at h
          · cases h
          · split at h
            · cases h
            · split at h
              · exact writeCall_chars h
              · cases h
      · split at h
        · cases h
        · cases h
          exact CharsOnly.refl_co _

theorem refreshCheck_spec {st s' : Store} {mid cid index nx : Int}
    (h : refreshCheck st mid cid index = some (s', nx)) :
    s' = st ∧ ∃ col, GetColumn st cid = some col ∧ nx = col.next := by
  unfold refreshCheck at h
  cases hc : GetColumn st cid with
  | none => simp [hc] at h
  | some column =>
    simp only [hc] at h
    have key : ∀ r : Option (Store × Int), r = some (st, column.next) → r = some (s', nx) →
        s' = st ∧ ∃ col, some column = some col ∧ nx = col.next := by
      intro r e1 e2
      rw [e1] at e2
      simp only [Option.some.injEq, Prod.mk.injEq] at e2
      exact ⟨e2.1.symm, column, rfl, e2.2.symm⟩
    split at h
    · split at h
      · cases h
      · split at h
        · cases h
        · split at h
          · cases h
          · split at h
            · cases h
            · exact key _ rfl h
    · exact key _ rfl h

/-- What one round of the first loop of `RefreshMANode` changes. -/
theorem refreshColumn_spec {oracle : Store → Int → Char × Char} {quality mid : Int}
    {st s' : Store} {cid index nx : Int}
    (h : refreshColumn oracle quality mid st cid index = some (s', nx)) :
    ∃ col m, GetColumn st cid = some col ∧ GetMANode st mid = some m ∧ nx = col.next ∧
      (∀ j, GetColumn s' j =
        if j = cid then some { col with ma_index := index } else GetColumn st j) ∧
      (∀ k, GetMANode s' k =
        if k = mid then some { m with columns := m.columns ++ [cid] } else GetMANode st k) ∧
      s'.columnStore.length = st.columnStore.length ∧
      s'.beadStore = st.beadStore ∧ s'.fragmentStore = st.fragmentStore := by
  unfold refreshColumn at h
  cases hc : GetColumn st cid with
  | none => simp [hc] at h
  | some col =>
    simp only [hc] at h
    cases h1 : (if quality ≠ -2 then BaseCallEffect oracle quality st cid else some st) with
    | none => simp [h1] at h
    | some s1 =>
      simp only [h1] at h
      have c1 : CharsOnly st s1 := by
        by_cases hq : quality ≠ -2
        · rw [if_pos hq] at h1
          exact BaseCallEffect_chars h1
        · rw [if_neg hq] at h1
          cases h1
          exact CharsOnly.refl_co _
      obtain ⟨b1, b2, b3, b4⟩ := c1
      cases h2 : modColumn s1 cid fun c => { c with ma_index := index } with
      | none => simp [h2] at h
      | some s2 =>
        simp only [h2] at h
        obtain ⟨g2, d1, d2, -, d4⟩ := modColumn_get h2
        obtain ⟨c0, hc0, e2⟩ := modColumn_spec h2
        cases h3 : modMANode s2 mid fun m => { m with columns := m.columns ++ [cid] } with
        | none => simp [h3] at h
        | some s3 =>
          simp only [h3] at h
          obtain ⟨g3, f1⟩ := modMANode_get h3
          obtain ⟨m0, hm0, e3⟩ := modMANode_spec h3
          obtain ⟨rfl, colx, hcx, hnx⟩ := refreshCheck_spec h
          have hcol1 : ∀ j, GetColumn s1 j = GetColumn st j := fun j => by
            unfold GetColumn; rw [b2]
          have hcol3 : ∀ j, GetColumn s' j = GetColumn s2 j := fun j => by
            unfold GetColumn; rw [f1]
          have hm1 : ∀ k, GetMANode s2 k = GetMANode st k := fun k => by
            unfold GetMANode; rw [d2, b3]
          have hget : ∀ j, GetColumn s' j =
              if j = cid then some { col with ma_index := index } else GetColumn st j := by
            intro j
            rw [hcol3, g2 j]
            by_cases hj : j = cid
            · rw [if_pos hj, if_pos hj, hcol1, hc]
              rfl
            · rw [if_neg hj, if_neg hj, hcol1]
          rw [hm1] at hm0
          refine ⟨col, m0, rfl, hm0, ?_, hget, ?_, ?_, ?_, ?_⟩
          · rw [hget cid, if_pos rfl] at hcx
            cases hcx
            exact hnx
          · intro k
            rw [g3 k]
            by_cases hk : k = mid
            · rw [if_pos hk, if_pos hk, hm1, hm0]
              rfl
            · rw [if_neg hk, if_neg hk, hm1]
          · rw [f1, e2]
            simp only [length_setAt]
            rw [b2]
          · rw [e3, e2]
            exact b1
          · rw [e3, e2]
            exact b4

theorem Path_congr {st st' : Store}
    (h : ∀ j, (GetColumn st' j).map Column.next = (GetColumn st j).map Column.next) :
    ∀ (l : List Int) (a b : Int), Path st a l b → Path st' a l b := by
  intro l
  induction l with
  | nil => intro a b hp; exact hp
  | cons x r ih =>
    intro a b hp
    obtain ⟨e, col, hc, hr⟩ := hp
    have := h x
    rw [hc] at this
    cases hc' : GetColumn st' x with
    | none => rw [hc'] at this; cases this
    | some col' =>
      rw [hc'] at this
      have en : col'.next = col.next := Option.some.inj this
      exact ⟨e, col', hc', by rw [en]; exact ih _ _ hr⟩

theorem Path_unique {st : Store} : ∀ (l1 l2 : List Int) (a b1 b2 : Int),
    Path st a l1 b1 → Path st a l2 b2 → b1 ≤ -1 → b2 ≤ -1 →
    (∀ x, x ∈ l1 → x > -1) → (∀ x, x ∈ l2 → x > -1) → l1 = l2 := by
  intro l1
  induction l1 with
  | nil =>
    intro l2 a b1 b2 h1 h2 hb1 _ _ hp2
    cases l2 with
    | nil => rfl
    | cons y r =>
      obtain ⟨e, -⟩ := h2
      have h1' : a = b1 := h1
      have := hp2 y (List.mem_cons_self _ _)
      omega
  | cons x r ih =>
    intro l2 a b1 b2 h1 h2 hb1 hb2 hp1 hp2
    obtain ⟨e1, col, hc, hr⟩ := h1
    cases l2 with
    | nil =>
      have h2' : a = b2 := h2
      have := hp1 x (List.mem_cons_self _ _)
      omega
    | cons y r2 =>
      obtain ⟨e2, col2, hc2, hr2⟩ := h2
      have exy : x = y := e1.symm.trans e2
      subst exy
      rw [hc] at hc2
      cases hc2
      rw [ih r2 _ _ _ hr hr2 hb1 hb2 (fun z hz => hp1 z (List.mem_cons_of_mem _ hz))
        (fun z hz => hp2 z (List.mem_cons_of_mem _ hz))]

theorem Path_suffix {st : Store} : ∀ (l1 l2 : List Int) (a b : Int) (x : Int),
    Path st a (l1 ++ x :: l2) b → Path st x (x :: l2) b := by
  intro l1
  induction l1 with
  | nil =>
    intro l2 a b x h
    obtain ⟨e, col, hc, hr⟩ := h
    exact ⟨rfl, col, hc, hr⟩
  | cons y r ih =>
    intro l2 a b x h
    obtain ⟨e, col, hc, hr⟩ := h
    exact ih l2 _ b x hr

/-- A path that ends below 0 meets no column twice. -/
theorem Path_nodup {st : Store} : ∀ (l : List Int) (a b : Int), Path st a l b → b ≤ -1 →
    (∀ x, x ∈ l → x > -1) → l.Nodup := by
  intro l
  induction l with
  | nil => intro _ _ _ _ _; exact List.nodup_nil
  | cons x r ih =>
    intro a b h hb hp
    obtain ⟨e, col, hc, hr⟩ := h
    have hpr : ∀ z, z ∈ r → z > -1 := fun z hz => hp z (List.mem_cons_of_mem _ hz)
    refine List.nodup_cons.2 ⟨?_, ih _ _ hr hb hpr⟩
    intro hx
    obtain ⟨r1, r2, er⟩ := List.append_of_mem hx
    have hsuf : Path st x (x :: r2) b := by
      rw [er] at hr
      exact Path_suffix r1 r2 _ b x hr
    have hfull : Path st x (x :: r) b := ⟨rfl, col, hc, hr⟩
    have huniq := Path_unique (x :: r2) (x :: r) x b b hsuf hfull hb hb
      (fun z hz => hp z (by
        rcases List.mem_cons.1 hz with e' | e'
        · rw [e']; exact List.mem_cons_self _ _
        · exact List.mem_cons_of_mem _ (by rw [er]; simp [e'])))
      hp
    have hlen := congrArg List.length huniq
    rw [er] at hlen
    simp only [List.length_cons, List.length_append] at hlen
    omega

theorem Path_walk {st : Store} : ∀ (l : List Int) (a : Int) (fuel : Nat),
    Path st a l (-1) → (∀ x, x ∈ l → x > -1) → l.length < fuel →
    columnWalk st fuel a = some l := by
  intro l
  induction l with
  | nil =>
    intro a fuel h _ hf
    have ha : a = -1 := h
    obtain ⟨n, rfl⟩ : ∃ n, fuel = n + 1 := ⟨fuel - 1, by simp at hf; omega⟩
    unfold columnWalk
    rw [if_pos ha]
  | cons x r ih =>
    intro a fuel h hp hf
    obtain ⟨e, col, hc, hr⟩ := h
    obtain ⟨n, rfl⟩ : ∃ n, fuel = n + 1 := ⟨fuel - 1, by simp at hf; omega⟩
    have hx := hp x (List.mem_cons_self _ _)
    unfold columnWalk
    rw [if_neg (by omega), e, hc]
    simp only
    rw [ih col.next n hr (fun z hz => hp z (List.mem_cons_of_mem _ hz))
      (by simp at hf; omega)]

theorem Path_of_clear {st st' : Store}
    (h : ∀ j, (GetColumn st' j).map clearIndex = (GetColumn st j).map clearIndex)
    (l : List Int) (a b : Int) (hp : Path st a l b) : Path st' a l b := by
  refine Path_congr (fun j => ?_) l a b hp
  have := congrArg (Option.map Column.next) (h j)
  simpa [Option.map_map, Function.comp_def, clearIndex] using this

/-- What the first loop of `RefreshMANode` leaves: the columns met from `cid`
are appended to the list of the node and numbered from `index`. -/
theorem refreshLoop_spec {oracle : Store → Int → Char × Char} {quality mid : Int} :
    ∀ (fuel : Nat) (s : Store) (cid index : Int) (s' : Store) (m : MANode),
    refreshLoop oracle quality mid fuel s cid index = some s' →
    GetMANode s mid = some m →
    ∃ rest b, b ≤ -1 ∧ Path s cid rest b ∧ (∀ x, x ∈ rest → x > -1) ∧
      GetMANode s' mid = some { m with columns := m.columns ++ rest } ∧
      (∀ k, k ≠ mid → GetMANode s' k = GetMANode s k) ∧
      (∀ j, (GetColumn s' j).map clearIndex = (GetColumn s j).map clearIndex) ∧
      (∀ j, j ∉ rest → GetColumn s' j = GetColumn s j) ∧
      (∀ (k : Nat) (hk : k < rest.length),
        (GetColumn s' (rest.get ⟨k, hk⟩)).map Column.ma_index = some (index + k)) ∧
      s'.columnStore.length = s.columnStore.length ∧
      s'.beadStore = s.beadStore ∧ s'.fragmentStore = s.fragmentStore := by
  intro fuel
  induction fuel with
  | zero => intro s cid index s' m h; simp [refreshLoop] at h
  | succ n ih =>
    intro s cid index s' m h hm
    unfold refreshLoop at h
    by_cases hc : cid > -1
    · rw [if_pos hc] at h
      cases h1 : refreshColumn oracle quality mid s cid index with
      | none => simp [h1] at h
      | some r =>
        obtain ⟨s1, nx⟩ := r
        simp only [h1] at h
        obtain ⟨col, m0, hcol, hm0, hnx, gc, gm, hl, hb, hf⟩ := refreshColumn_spec h1
        rw [hm] at hm0
        cases hm0
        have hm1 : GetMANode s1 mid = some { m with columns := m.columns ++ [cid] } := by
          rw [gm mid, if_pos rfl]
        obtain ⟨rest, b, hb1, hp, hpos, e1, e2, e3, e4, e5, e6, e7, e8⟩ :=
          ih s1 nx (index + 1) s' _ h hm1
        have hclear1 : ∀ j, (GetColumn s1 j).map clearIndex = (GetColumn s j).map clearIndex := by
          intro j
          rw [gc j]
          by_cases hj : j = cid
          · rw [if_pos hj, hj, hcol]
            rfl
          · rw [if_neg hj]
        have hclear1' : ∀ j, (GetColumn s j).map clearIndex = (GetColumn s1 j).map clearIndex :=
          fun j => (hclear1 j).symm
        have hps : Path s col.next rest b := by
          rw [← hnx]
          exact Path_of_clear hclear1' rest nx b hp
        have hfull : Path s cid (cid :: rest) b := ⟨rfl, col, hcol, hps⟩
        have hposf : ∀ x, x ∈ cid :: rest → x > -1 := by
          intro x hx
          rcases List.mem_cons.1 hx with e | e
          · rw [e]; exact hc
          · exact hpos x e
        have hnd := Path_nodup (cid :: rest) cid b hfull hb1 hposf
        have hnotin : cid ∉ rest := (List.nodup_cons.1 hnd).1
        refine ⟨cid :: rest, b, hb1, hfull, hposf, ?_, ?_, ?_, ?_, ?_, ?_, ?_, ?_⟩
        · rw [e1]
          simp [List.append_assoc]
        · intro k hk
          rw [e2 k hk, gm k, if_neg hk]
        · intro j
          rw [e3 j, hclear1 j]
        · intro j hj
          have hj1 : j ≠ cid := fun e => hj (by rw [e]; exact List.mem_cons_self _ _)
          have hj2 : j ∉ rest := fun e => hj (List.mem_cons_of_mem _ e)
          rw [e4 j hj2, gc j, if_neg hj1]
        · intro k hk
          cases k with
          | zero =>
            show (GetColumn s' cid).map Column.ma_index = some (index + ((0 : Nat) : Int))
            rw [e4 cid hnotin, gc cid, if_pos rfl]
            simp
          | succ k =>
            have hk' : k < rest.length := by simpa using hk
            have := e5 k hk'
            show (GetColumn s' (rest.get ⟨k, hk'⟩)).map Column.ma_index =
              some (index + ((k + 1 : Nat) : Int))
            rw [this]
            congr 1
            push_cast
            ring
        · rw [e6, hl]
        · rw [e7, hb]
        · rw [e8, hf]
    · rw [if_neg hc] at h
      cases h
      refine ⟨[], cid, by omega, rfl, ?_, ?_, ?_, ?_, ?_, ?_, rfl, rfl, rfl⟩
      · intro x hx; cases hx
      · rw [hm]; simp
      · intro k _; rfl
      · intro j; rfl
      · intro j _; rfl
      · intro k hk; simp at hk

theorem Path_mem {st : Store} : ∀ (l : List Int) (a b : Int), Path st a l b →
    ∀ x, x ∈ l → ∃ col, GetColumn st x = some col := by
  intro l
  induction l with
  | nil => intro _ _ _ x hx; cases hx
  | cons y r ih =>
    intro a b h x hx
    obtain ⟨e, col, hc, hr⟩ := h
    rcases List.mem_cons.1 hx with e' | e'
    · rw [e']; exact ⟨col, hc⟩
    · exact ih _ _ hr x e'

theorem Path_length {st : Store} (l : List Int) (a b : Int) (h : Path st a l b) (hb : b ≤ -1)
    (hp : ∀ x, x ∈ l → x > -1) : l.length ≤ st.columnStore.length := by
  refine nodup_length_le _ l (Path_nodup l a b h hb hp) ?_
  intro c hc
  obtain ⟨col, hcol⟩ := Path_mem l a b h c hc
  have := getAt_eq_some hcol
  omega

/-- The rounds of the first loop of `RefreshMANode` are as many as the columns
on the path, whatever fuel is left over. -/
theorem refreshLoop_exact {oracle : Store → Int → Char × Char} {quality mid : Int} :
    ∀ (fuel : Nat) (s : Store) (cid index : Int) (s' : Store),
    refreshLoop oracle quality mid fuel s cid index = some s' →
    ∀ (rest : List Int) (b : Int), Path s cid rest b → b ≤ -1 → (∀ x, x ∈ rest → x > -1) →
    ∀ f2 : Nat, rest.length < f2 → refreshLoop oracle quality mid f2 s cid index = some s' := by
  intro fuel
  induction fuel with
  | zero => intro s cid index s' h; simp [refreshLoop] at h
  | succ n ih =>
    intro s cid index s' h rest b hp hb hpos f2 hf2
    obtain ⟨n2, rfl⟩ : ∃ n2, f2 = n2 + 1 := ⟨f2 - 1, by omega⟩
    unfold refreshLoop at h ⊢
    by_cases hc : cid > -1
    · rw [if_pos hc] at h ⊢
      cases h1 : refreshColumn oracle quality mid s cid index with
      | none => simp [h1] at h
      | some r =>
        obtain ⟨s1, nx⟩ := r
        simp only [h1] at h ⊢
        obtain ⟨col, m0, hcol, hm0, hnx, gc, gm, hl, hbd, hf⟩ := refreshColumn_spec h1
        cases rest with
        | nil =>
          have : cid = b := hp
          omega
        | cons y r2 =>
          obtain ⟨e, col2, hc2, hr⟩ := hp
          subst e
          rw [hcol] at hc2
          cases hc2
          have hclear1 : ∀ j, (GetColumn s1 j).map clearIndex = (GetColumn s j).map clearIndex := by
            intro j
            rw [gc j]
            by_cases hj : j = cid
            · rw [if_pos hj, hj, hcol]
              rfl
            · rw [if_neg hj]
          have hp1 : Path s1 nx r2 b := by
            rw [hnx]
            exact Path_of_clear hclear1 r2 _ b hr
          exact ih s1 nx (index + 1) s' h r2 b hp1 hb
            (fun x hx => hpos x (List.mem_cons_of_mem _ hx)) n2 (by simp at hf2; omega)
    · rw [if_neg hc] at h ⊢
      exact h

/-- The fuel `RefreshMANode` gives its first loop is enough whenever the loop
stops: a run with any fuel is a run with the number of columns plus one. -/
theorem refreshLoop_fuel {oracle : Store → Int → Char × Char} {quality mid : Int}
    {fuel : Nat} {s s' : Store} {cid index : Int} {m : MANode}
    (hm : GetMANode s mid = some m)
    (h : refreshLoop oracle quality mid fuel s cid index = some s') :
    refreshLoop oracle quality mid (s.columnStore.length + 1) s cid index = some s' := by
  obtain ⟨rest, b, hb, hp, hpos, -⟩ := refreshLoop_spec fuel s cid index s' m h hm
  exact refreshLoop_exact fuel s cid index s' h rest b hp hb hpos _
    (by have := Path_length rest cid b hp hb hpos; omega)

theorem allelePass_chars {writes : Store → Option (List Char × List Char)} {mv : Bool}
    {st st' : Store} (h : allelePass writes mv st = some st') : CharsOnly st st' := by
  unfold allelePass at h
  split at h
  · cases h
  · split at h
    · cases h; exact ⟨rfl, rfl, rfl, rfl⟩
    · cases h; exact ⟨rfl, rfl, rfl, rfl⟩

/-- C23.  When `RefreshMANode` returns on a node whose `first` is a column,
the list `columns` of the node holds the columns met from `first` following
`next` until an id below 0, in that order and each once; the column at
position `k` of the list has `ma_index` `k`; `GetMANodeLength` is the number
of these columns, which is not 0 when `first` is not negative; and when the
chain ends with -1 the list is the one `columnWalk` finds. -/
theorem refreshMANode_columns (oracle : Store → Int → Char × Char)
    (writes : Store → Option (List Char × List Char)) (split_alleles make_v_list : Bool)
    (st st' : Store) (mid quality : Int) (ma : MANode)
    (hma : GetMANode st mid = some ma) (hne : ma.first ≠ -1)
    (h : RefreshMANode oracle writes split_alleles make_v_list st mid quality = some st') :
    ∃ ma' b, GetMANode st' mid = some ma' ∧ ma'.first = ma.first ∧ b ≤ -1 ∧
      Path st' ma'.first ma'.columns b ∧ ma'.columns.Nodup ∧
      (∀ (k : Nat) (hk : k < ma'.columns.length),
        (GetColumn st' (ma'.columns.get ⟨k, hk⟩)).map Column.ma_index = some (k : Int)) ∧
      GetMANodeLength st' mid = ma'.columns.length ∧
      (0 ≤ ma.first → ma'.columns ≠ []) ∧
      (b = -1 → columnWalk st' (st'.columnStore.length + 1) ma'.first = some ma'.columns) := by
  unfold RefreshMANode at h
  simp only [hma, if_neg hne] at h
  cases h0 : modMANode st mid fun m => { m with columns := [] } with
  | none => simp [h0] at h
  | some s0 =>
    simp only [h0] at h
    obtain ⟨g0, c0⟩ := modMANode_get h0
    have hm0 : GetMANode s0 mid = some { ma with columns := [] } := by
      rw [g0 mid, if_pos rfl, hma]; rfl
    cases h1 : refreshLoop oracle quality mid (st.columnStore.length + 1) s0 ma.first 0 with
    | none => simp [h1] at h
    | some s1 =>
      simp only [h1] at h
      obtain ⟨rest, b, hb, hp, hpos, e1, -, e3, -, e5, -, -, -⟩ :=
        refreshLoop_spec _ s0 ma.first 0 s1 _ h1 hm0
      have hco : CharsOnly s1 st' := by
        split at h
        · cases h; exact CharsOnly.refl_co _
        · exact allelePass_chars h
      obtain ⟨-, k2, k3, -⟩ := hco
      have hcol : ∀ j, GetColumn st' j = GetColumn s1 j := fun j => by
        unfold GetColumn; rw [k2]
      have hman : GetMANode st' mid = GetMANode s1 mid := by
        unfold GetMANode; rw [k3]
      have hclear : ∀ j, (GetColumn st' j).map clearIndex = (GetColumn s0 j).map clearIndex :=
        fun j => by rw [hcol, e3]
      have hp' : Path st' ma.first rest b := Path_of_clear hclear rest _ b hp
      have hmg : GetMANode st' mid = some { ma with columns := rest } := by
        rw [hman, e1]; simp
      refine ⟨{ ma with columns := rest }, b, hmg, rfl, hb, hp', ?_, ?_, ?_, ?_, ?_⟩
      · exact Path_nodup rest _ b hp' hb hpos
      · intro k hk
        show (GetColumn st' (rest.get ⟨k, hk⟩)).map Column.ma_index = some (k : Int)
        rw [hcol, e5 k hk]
        simp
      · unfold GetMANodeLength
        rw [hmg]
      · intro hf
        show rest ≠ []
        intro hr
        rw [hr] at hp'
        have : ma.first = b := hp'
        omega
      · intro hb1
        subst hb1
        exact Path_walk rest _ _ hp' hpos
          (by have := Path_length rest _ _ hp' hb hpos; omega)

theorem refreshMANode_columns_witness :
    ∃ ma ma', GetMANode storeThreeColumns 0 = some ma ∧ ma.first ≠ -1 ∧
      refreshThreeColumns = some storeRefreshed ∧
      GetMANode storeRefreshed 0 = some ma' ∧ ma'.columns = [0, 1, 2] ∧
      GetMANodeLength storeRefreshed 0 = ma'.columns.length := by
  have hma : GetMANode storeThreeColumns 0 =
      some { lid := 0, iid := 0, first := 0, last := 2, columns := [0, 1, 2] } := by decide!
  have hrun : refreshThreeColumns = some storeRefreshed := by decide!
  obtain ⟨ma', b, h1, -, -, -, -, -, h7, -, -⟩ :=
    refreshMANode_columns (fun _ _ => ('A', '0')) (fun _ => none) false false
      storeThreeColumns storeRefreshed 0 0 _ hma (by decide) hrun
  have hcols : GetMANode storeRefreshed 0 =
      some { lid := 0, iid := 0, first := 0, last := 2, columns := [0, 1, 2] } := by decide!
  rw [hcols] at h1
  cases h1
  exact ⟨_, _, hma, by decide, hrun, hcols, rfl, h7⟩

/-- `FirstColumn(mid, bid)` in well-formed stores, for a MANode `mid` and a
bead `bid` that is in no column and whose character is tallied: it returns the
new column, which holds `bid`. -/
theorem FirstColumn_run {st : Store} {ch row : Int → List Int} {mid bid : Int} {b : Bead}
    {c : Char} (hg : GWF st ch row) (hm : (GetMANode st mid).isSome)
    (hb : GetBead st bid = some b) (hfree : b.column_index = -1)
    (hc : beadChar st bid = some c) (htal : c ∈ RALPHABET ∨ c = 'n') :
    ∃ st', FirstColumn st mid bid = some (st', (st.columnStore.length : Int)) ∧
      GWF st' (fun k => if k = st.columnStore.length then [bid] else ch k) row ∧
      (∀ j, GetBead st' j =
        if j = bid then
          some { b with up := st.beadStore.length, column_index := st.columnStore.length }
        else if j = st.beadStore.length then some (callBead st bid)
        else GetBead st j) ∧
      (∀ j, (GetBead st j).isSome → beadChar st' j = beadChar st j) ∧
      st'.columnStore.length = st.columnStore.length + 1 := by
  obtain ⟨hv, hw, hmw⟩ := hg
  obtain ⟨s1, bc, e1, v1, w1, g1, c1, m1, hch1⟩ := CreateColumn_grid hv hw hb hfree hc htal
  have hK : GetColumn s1 st.columnStore.length = some (freshColumn st bc) := by
    rw [c1, if_pos rfl]
  obtain ⟨s2, e2, g2, b2, mm2, q2, f2, -⟩ :=
    modColumn_run (fun c => { c with ma_id := mid }) hK
  have hK2 : GetColumn s2 st.columnStore.length =
      some { freshColumn st bc with ma_id := mid } := by rw [g2, if_pos rfl]
  obtain ⟨s3, e3, g3, b3, mm3, q3, f3, -⟩ :=
    modColumn_run (fun c => { c with ma_index := 0 }) hK2
  have hK3 : GetColumn s3 st.columnStore.length =
      some { freshColumn st bc with ma_id := mid, ma_index := 0 } := by rw [g3, if_pos rfl]
  have hm3 : (GetMANode s3 mid).isSome := by
    unfold GetMANode at hm ⊢
    rw [mm3, mm2, m1]
    exact hm
  obtain ⟨s4, e4⟩ := AddColumnToMANode_run
    { freshColumn st bc with ma_id := mid, ma_index := 0 } hm3
  have hrun : FirstColumn st mid bid = some (s4, (st.columnStore.length : Int)) := by
    unfold FirstColumn
    simp only [hb, Option.bind_eq_bind, Option.some_bind, e1, e2, e3, hK3, e4, Option.pure_def]
  have hbeads : s4.beadStore = s1.beadStore := by
    rw [AddColumnToMANode_beads e4, b3, b2]
  have hseq : s4.sequenceStore = s1.sequenceStore := by
    rw [(AddColumnToMANode_quiet e4).2.1, q3, q2]
  have q : Quiet s1 s4 := ((modColumn_quiet e2).trans_q (modColumn_quiet e3)).trans_q
    (AddColumnToMANode_quiet e4)
  refine ⟨s4, hrun, ⟨?_, ?_, hmw.seeded hrun⟩, ?_, ?_, ?_⟩
  · exact ((v1.same (modColumn_vsame e2 (fun _ => rfl))).same
      (modColumn_vsame e3 (fun _ => rfl))).same (AddColumnToMANode_vsame e4)
  · exact w1.quiet_r q (BSame.of_beads_b hbeads)
  · intro j
    rw [GetBead_congr hbeads, g1]
  · intro j hj
    rw [q.chars_q j, hch1 j hj]
  · rw [(AddColumnToMANode_ends e4).1, modColumn_colLen e3, modColumn_colLen e2,
      (CreateColumn_colLen e1).1]

theorem insertAfter_last {c x : Int} {l : List Int} (hn : l.Nodup)
    (hl : l.getLast? = some c) : insertAfter c x l = l ++ [x] := by
  obtain ⟨pre, rfl⟩ := List.getLast?_eq_some_iff.1 hl
  have hc : c ∉ pre := by
    intro h
    have := List.nodup_append.1 hn
    exact this.2.2 h (List.mem_singleton_self c)
  rw [insertAfter_split [] hc]
  simp

theorem idsFrom_succ (K : Int) (n : Nat) : idsFrom K (n + 1) = K :: idsFrom (K + 1) n := by
  unfold idsFrom
  rw [List.range_succ_eq_map]
  simp only [List.map_cons, List.map_map]
  refine congrArg₂ _ (by simp) (List.map_congr_left fun k _ => ?_)
  simp only [Function.comp_apply]
  push_cast
  ring

theorem idsFrom_length (K : Int) (n : Nat) : (idsFrom K n).length = n := by
  simp [idsFrom]

theorem idsFrom_get (K : Int) (n k : Nat) (hk : k < (idsFrom K n).length) :
    (idsFrom K n).get ⟨k, hk⟩ = K + k := by
  simp [idsFrom]

theorem chainFrom_Fwd {st : Store} : ∀ (fuel : Nat) (a : Int) (l : List Int),
    chainFrom st fuel a = some l → Fwd st a l := by
  intro fuel
  induction fuel with
  | zero => intro a l h; simp [chainFrom] at h
  | succ n ih =>
    intro a l h
    unfold chainFrom at h
    by_cases ha : a = -1
    · rw [if_pos ha] at h
      cases h
      exact ha
    · rw [if_neg ha] at h
      cases hb : GetBead st a with
      | none => simp [hb] at h
      | some b =>
        simp only [hb] at h
        cases hr : chainFrom st n b.next with
        | none => simp [hr] at h
        | some r =>
          simp only [hr, Option.some.injEq] at h
          subst h
          exact ⟨rfl, b.next, nextOf_get hb, ih _ _ hr⟩

theorem Fwd_congr {st st' : Store} : ∀ (l : List Int) (a : Int),
    (∀ j, j ∈ l → nextOf st' j = nextOf st j) → Fwd st a l → Fwd st' a l := by
  intro l
  induction l with
  | nil => intro a _ h; exact h
  | cons x r ih =>
    intro a hf h
    obtain ⟨e, n, hn, hr⟩ := h
    exact ⟨e, n, by rw [hf x (List.mem_cons_self _ _)]; exact hn,
      ih n (fun j hj => hf j (List.mem_cons_of_mem _ hj)) hr⟩

theorem Fwd_pos {st : Store} : ∀ (l : List Int) (a : Int), Fwd st a l →
    ∀ x, x ∈ l → x ≠ -1 := by
  intro l
  induction l with
  | nil => intro _ _ x hx; cases hx
  | cons y r ih =>
    intro a h x hx
    obtain ⟨e, n, hn, hr⟩ := h
    rcases List.mem_cons.1 hx with e' | e'
    · obtain ⟨b, hb, -⟩ := nextOf_some hn
      have := (GetBead_some_range hb).1
      omega
    · exact ih n hr x e'

theorem Fwd_unique {st : Store} : ∀ (l1 l2 : List Int) (a : Int),
    Fwd st a l1 → Fwd st a l2 → l1 = l2 := by
  intro l1
  induction l1 with
  | nil =>
    intro l2 a h1 h2
    cases l2 with
    | nil => rfl
    | cons y r =>
      have h1' : a = -1 := h1
      have := Fwd_pos (y :: r) a h2 y (List.mem_cons_self _ _)
      obtain ⟨e, -⟩ := h2
      omega
  | cons x r ih =>
    intro l2 a h1 h2
    cases l2 with
    | nil =>
      have h2' : a = -1 := h2
      have := Fwd_pos (x :: r) a h1 x (List.mem_cons_self _ _)
      obtain ⟨e, -⟩ := h1
      omega
    | cons y r2 =>
      obtain ⟨e1, n1, hn1, hr1⟩ := h1
      obtain ⟨e2, n2, hn2, hr2⟩ := h2
      have exy : x = y := e1.symm.trans e2
      subst exy
      rw [hn1] at hn2
      cases hn2
      rw [ih r2 _ hr1 hr2]

theorem Fwd_suffix {st : Store} : ∀ (l1 l2 : List Int) (a x : Int),
    Fwd st a (l1 ++ x :: l2) → Fwd st x (x :: l2) := by
  intro l1
  induction l1 with
  | nil =>
    intro l2 a x h
    obtain ⟨e, n, hn, hr⟩ := h
    exact ⟨rfl, n, hn, hr⟩
  | cons y r ih =>
    intro l2 a x h
    obtain ⟨e, n, hn, hr⟩ := h
    exact ih l2 _ x hr

theorem Fwd_nodup {st : Store} : ∀ (l : List Int) (a : Int), Fwd st a l → l.Nodup := by
  intro l
  induction l with
  | nil => intro _ _; exact List.nodup_nil
  | cons x r ih =>
    intro a h
    obtain ⟨e, n, hn, hr⟩ := h
    refine List.nodup_cons.2 ⟨?_, ih _ hr⟩
    intro hx
    obtain ⟨r1, r2, er⟩ := List.append_of_mem hx
    have hsuf : Fwd st x (x :: r2) := by
      rw [er] at hr
      exact Fwd_suffix r1 r2 _ x hr
    have hfull : Fwd st x (x :: r) := ⟨rfl, n, hn, hr⟩
    have hlen := congrArg List.length (Fwd_unique _ _ x hsuf hfull)
    rw [er] at hlen
    simp only [List.length_cons, List.length_append] at hlen
    omega

/-- A bead that is in no column stays so when a column is made for another
bead. -/
theorem Free_kept {st st' : Store} {ch ch' : Int → List Int} {x y : Int} {b' : Bead}
    (hv : VWF st ch) (hv' : VWF st' ch')
    (hch : ∀ k : Int, ch' k = if k = st.columnStore.length then [x] else ch k)
    (hlen : st'.columnStore.length = st.columnStore.length + 1)
    (hy : Free st y) (hne : y ≠ x) (hb' : GetBead st' y = some b')
    (hf : b'.frag_index ≠ -1) (hchar : beadChar st' y = beadChar st y) : Free st' y := by
  obtain ⟨b, c, hb, hfree, hc, htal⟩ := hy
  refine ⟨b', c, hb', ?_, by rw [hchar]; exact hc, htal⟩
  by_contra hci
  obtain ⟨-, -, h3⟩ := hv'.bead y b'.vert (VertAt_of_get hb')
  obtain ⟨col, hcol, hmem⟩ := h3 hci
  have hci' : b'.vert.column_index = b'.column_index := rfl
  rw [hci'] at hcol hmem
  rcases hmem with ⟨e, -⟩ | ⟨-, hmem⟩
  · exact hf e
  · rw [hch] at hmem
    by_cases hk : b'.column_index = st.columnStore.length
    · rw [if_pos hk] at hmem
      exact hne (List.mem_singleton.1 hmem)
    · rw [if_neg hk] at hmem
      have hr := ColVertAt_range hcol
      have hin : (GetColumn st b'.column_index).isSome := by
        rw [GetColumn, getAt_isSome_iff]
        omega
      obtain ⟨col0, hcol0⟩ := Option.isSome_iff_exists.1 hin
      obtain ⟨-, -, -, -, hel, -⟩ := hv.col _ _ (ColVertAt_of_get hcol0)
      obtain ⟨v, hv1, hv2, -⟩ := hel y hmem
      rw [VertAt_of_get hb] at hv1
      cases hv1
      have : b.vert.column_index = b.column_index := rfl
      rw [this, hfree] at hv2
      exact hci hv2.symm

theorem Free_frag {st : Store} {ch : Int → List Int} {x : Int} (hv : VWF st ch)
    (h : Free st x) : ∃ b, GetBead st x = some b ∧ b.frag_index ≠ -1 ∧ b.column_index = -1 := by
  obtain ⟨b, c, hb, hfree, -, -⟩ := h
  obtain ⟨-, h2, -⟩ := hv.bead x b.vert (VertAt_of_get hb)
  exact ⟨b, hb, (h2 hfree).2.2, hfree⟩

/-- The loop of `SeedMAWithFragment` in well-formed stores: behind the last
column `cid`, which holds the bead `p`, a column is made for every further
bead of the chain, in order. -/
theorem seedLoop_run {mid : Int} : ∀ (rest : List Int) (fuel : Nat) (s : Store)
    (ch row : Int → List Int) (cid p : Int) (l : List Int) (pb : Bead),
    GWF s ch row → Live s mid l → l.getLast? = some cid → ch cid = [p] →
    GetBead s p = some pb → Fwd s pb.next rest → (p :: rest).Nodup →
    (∀ x, x ∈ rest → Free s x) → rest.length < fuel →
    ∃ s' ch' row' last, seedLoop fuel s pb.next cid = some (s', last) ∧ GWF s' ch' row' ∧
      Live s' mid (l ++ idsFrom s.columnStore.length rest.length) ∧
      s'.columnStore.length = s.columnStore.length + rest.length ∧
      (∀ c : Int, c < s.columnStore.length → ch' c = ch c) ∧
      (∀ (i : Nat) (hi : i < rest.length),
        ch' ((s.columnStore.length : Int) + i) = [rest.get ⟨i, hi⟩]) ∧
      (∀ j y, GetBead s j = some y → y.frag_index ≠ -1 →
        fragOf s' j = some y.frag_index) := by
  intro rest
  induction rest with
  | nil =>
    intro fuel s ch row cid p l pb hg hl hlast hch hp hfwd hnd hfree hfuel
    obtain ⟨n, rfl⟩ : ∃ n, fuel = n + 1 := ⟨fuel - 1, by simp at hfuel; omega⟩
    have hnx : pb.next = -1 := hfwd
    refine ⟨s, ch, row, cid, ?_, hg, ?_, ?_, fun _ _ => rfl, ?_, ?_⟩
    · unfold seedLoop NextFragmentBead
      rw [if_pos hnx]
      simp
    · simpa [idsFrom] using hl
    · simp
    · intro i hi; simp at hi
    · intro j y hj _
      exact fragOf_get hj
  | cons x r ih =>
    intro fuel s ch row cid p l pb hg hl hlast hch hp hfwd hnd hfree hfuel
    obtain ⟨n, rfl⟩ : ∃ n, fuel = n + 1 := ⟨fuel - 1, by omega⟩
    obtain ⟨hnx, nx, hnxt, hfr⟩ := hfwd
    obtain ⟨xb, c, hxb, hxfree, hxc, hxtal⟩ := hfree x (List.mem_cons_self _ _)
    have hoff : xb.boffset = x := hg.frags.offs x xb hxb
    have hx1 : x ≠ -1 := by
      have := (GetBead_some_range hxb).1
      omega
    have hxn : nx = xb.next := by
      rw [nextOf_get hxb] at hnxt
      exact (Option.some.inj hnxt).symm
    subst hxn
    have hxf : xb.frag_index ≠ -1 := by
      obtain ⟨b0, hb0, h0, -⟩ := Free_frag hg.vert (hfree x (List.mem_cons_self _ _))
      rw [hxb] at hb0
      cases hb0
      exact h0
    have hnext : NextFragmentBead s pb.next = some (x, xb.next) := by
      unfold NextFragmentBead
      rw [hnx, if_neg hx1, hxb]
      simp only [hoff]
    -- the column behind which the new one is put
    have hcl : cid ∈ l := by
      obtain ⟨pre, rfl⟩ := List.getLast?_eq_some_iff.1 hlast
      simp
    obtain ⟨Pl, hPl, -, -⟩ := Linked_mem l (-1) cid hl.2.1 hcl
    obtain ⟨P, hP, -⟩ := LinksAt_fields hPl
    obtain ⟨s1, gs, row1, e1, g1, hpairs, hframe⟩ := ColumnAppend_run hg hP hxb hxfree hxc hxtal
    have hfil : (ch cid).filter (needGap s x) = [] := by
      rw [hch]
      have : needGap s x p = false := by
        unfold needGap
        rw [nextOf_get hp, hnx]
        simp
      simp [this]
    rw [hfil] at hpairs
    have hgs : gs = [] := List.forall₂_nil_left_iff.1 hpairs
    subst hgs
    have hlen1 : s1.columnStore.length = s.columnStore.length + 1 := ColumnAppend_colLen e1
    have hch1 : ∀ k : Int, (fun k : Int =>
        if k = (s.columnStore.length : Int) then ([] : List Int).reverse ++ [x] else ch k) k =
        if k = (s.columnStore.length : Int) then [x] else ch k := fun k => by simp
    -- the bead `x` after the call
    obtain ⟨hx1f, -, hx1n⟩ := hframe x xb hxb hxf
    have hx1n' := hx1n (by rw [hfil]; simp)
    obtain ⟨xb1, hxb1, hxb1n⟩ := nextOf_some hx1n'
    -- the list of live columns
    have hlive1 : Live s1 mid (l ++ [(s.columnStore.length : Int)]) := by
      refine columnStep_Live hl (?_ : columnStep mid (s, l) (ColumnOp.append cid x) = _)
      simp only [columnStep, if_pos hcl, e1, Option.map_some', insertAfter_last hl.1 hlast]
    have hnext1 : ∀ j, j ∈ r → nextOf s1 j = nextOf s j := by
      intro j hj
      obtain ⟨yb, hyb, hyf, -⟩ := Free_frag hg.vert (hfree j (List.mem_cons_of_mem _ hj))
      rw [(hframe j yb hyb hyf).2.2 (by rw [hfil]; simp), nextOf_get hyb]
    have hfwd1 : Fwd s1 xb1.next r := by
      rw [hxb1n]
      exact Fwd_congr r _ hnext1 hfr
    have hnd1 : (x :: r).Nodup := (List.nodup_cons.1 hnd).2
    have hfree1 : ∀ y, y ∈ r → Free s1 y := by
      intro y hy
      have hys := hfree y (List.mem_cons_of_mem _ hy)
      obtain ⟨yb, hyb, hyf, -⟩ := Free_frag hg.vert hys
      obtain ⟨hf1, hc1, -⟩ := hframe y yb hyb hyf
      obtain ⟨yb1, hyb1, hyb1f⟩ := fragOf_some hf1
      have hyx : y ≠ x := fun e => (List.nodup_cons.1 hnd1).1 (e ▸ hy)
      exact Free_kept hg.vert g1.vert hch1 hlen1 hys hyx hyb1 (by rw [hyb1f]; exact hyf) hc1
    obtain ⟨s', ch', row', last, e', g', hl', hlen', hold, hnew, hfrag⟩ :=
      ih n s1 _ row1 (s.columnStore.length : Int) x (l ++ [(s.columnStore.length : Int)]) xb1
        g1 hlive1 (List.getLast?_concat _) (by simp) hxb1 hfwd1 hnd1 hfree1
        (by simp at hfuel; omega)
    refine ⟨s', ch', row', last, ?_, g', ?_, ?_, ?_, ?_, ?_⟩
    · unfold seedLoop
      rw [hnext]
      simp only [if_pos hx1, e1]
      rw [← hxb1n]
      exact e'
    · rw [hlen1] at hl'
      rw [List.length_cons, idsFrom_succ]
      simpa [List.append_assoc] using hl'
    · rw [hlen', hlen1, List.length_cons]
      omega
    · intro k hk
      rw [hold k (by rw [hlen1]; push_cast; omega)]
      have hk' : k ≠ (s.columnStore.length : Int) := by omega
      simp [hk']
    · intro i hi
      cases i with
      | zero =>
        have h0 := hold (s.columnStore.length : Int) (by rw [hlen1]; push_cast; omega)
        simp only [Nat.cast_zero, add_zero, List.get_eq_getElem, List.getElem_cons_zero]
        rw [h0]
        simp
      | succ i =>
        have hi' : i < r.length := by simpa using hi
        have := hnew i hi'
        rw [hlen1] at this
        simp only [List.get_eq_getElem, List.getElem_cons_succ]
        simp only [List.get_eq_getElem] at this
        rw [← this]
        congr 1
        push_cast
        ring
    · intro j y hj hyf
      obtain ⟨hf1, -, -⟩ := hframe j y hj hyf
      obtain ⟨y1, hy1, hy1f⟩ := fragOf_some hf1
      rw [hfrag j y1 hy1 (by rw [hy1f]; exact hyf), hy1f]

theorem setGrowChar_run (l : List Char) {i : Int} (c : Char) (h : 0 ≤ i) :
    ∃ l', setGrowChar l i c = some l' ∧ l.length ≤ l'.length := by
  unfold setGrowChar
  rw [if_neg (by omega)]
  by_cases hi : i.toNat < l.length
  · rw [if_pos hi]
    exact ⟨_, rfl, by simp⟩
  · rw [if_neg hi]
    exact ⟨_, rfl, by simp⟩

theorem writeCall_run (st : Store) {call : Bead} (c q : Char) (h : 0 ≤ call.soffset) :
    ∃ st', writeCall st call c q = some st' ∧ CharsOnly st st' ∧
      st.sequenceStore.length ≤ st'.sequenceStore.length ∧
      st.qualityStore.length ≤ st'.qualityStore.length := by
  obtain ⟨l1, e1, h1⟩ := setGrowChar_run st.sequenceStore c h
  obtain ⟨l2, e2, h2⟩ := setGrowChar_run st.qualityStore q h
  refine ⟨{ st with sequenceStore := l1, qualityStore := l2 }, ?_, ⟨rfl, rfl, rfl, rfl⟩, h1, h2⟩
  unfold writeCall
  rw [e1, e2]

theorem Ready_beads {st : Store} {c : Int} {col : Column} {call : Bead}
    (hcol : GetColumn st c = some col) (hcall : GetBead st col.call = some call)
    {xb : Bead} (hxb : GetBead st call.down = some xb) (hxd : xb.down = -1) :
    columnBeads st c = some [call.down] := by
  have h1 := GetBead_some_range hcall
  have h2 := GetBead_some_range hxb
  obtain ⟨n, hn⟩ : ∃ n, st.beadStore.length = n + 1 := ⟨st.beadStore.length - 1, by omega⟩
  unfold columnBeads
  rw [hcol, hn]
  have hne1 : col.call ≠ -1 := by omega
  have hne2 : call.down ≠ -1 := by omega
  simp [beadsBelow, hcall, hxb, hxd, hne1, hne2]

theorem getAt_of_lt {α : Type} {l : List α} {i : Int} (h0 : 0 ≤ i) (h1 : i < l.length) :
    ∃ a, getAt l i = some a :=
  Option.isSome_iff_exists.1 ((getAt_isSome_iff l i).2 ⟨h0, h1⟩)

/-- `BaseCall` returns on a column that holds one bead. -/
theorem BaseCallEffect_run (oracle : Store → Int → Char × Char) (quality : Int) {st : Store}
    {c : Int} (h : Ready st c) :
    ∃ st', BaseCallEffect oracle quality st c = some st' ∧ CharsOnly st st' ∧
      st.sequenceStore.length ≤ st'.sequenceStore.length ∧
      st.qualityStore.length ≤ st'.qualityStore.length := by
  obtain ⟨col, call, xb, hcol, hcall, hcs, hxb, hxd, hx0, hx1, hx2, hxf⟩ := h
  have hbeads := Ready_beads hcol hcall hxb hxd
  obtain ⟨cb, hcb⟩ := getAt_of_lt hx0 hx1
  obtain ⟨qv, hqv⟩ := getAt_of_lt hx0 hx2
  obtain ⟨fr, hfr⟩ := Option.isSome_iff_exists.1 hxf
  have hbase : GetBase st xb.soffset = some cb := hcb
  unfold BaseCallEffect
  by_cases hq : quality > 0
  · rw [if_pos hq]
    obtain ⟨l1, e1, g1⟩ := setGrowChar_run st.sequenceStore (oracle st c).1 hcs
    obtain ⟨l2, e2, g2⟩ := setGrowChar_run st.qualityStore (oracle st c).2 hcs
    have hread : baseCallRead st call.down = some () := by
      unfold baseCallRead
      simp only [hxb, Option.bind_eq_bind, Option.some_bind, hbase, hqv, Option.pure_def]
      split
      · rfl
      · simp [hfr]
    refine ⟨{ st with sequenceStore := l1, qualityStore := l2 }, ?_, ⟨rfl, rfl, rfl, rfl⟩,
      g1, g2⟩
    unfold BaseCallStore
    simp only [hcol, Option.bind_eq_bind, Option.some_bind, hcall, hbeads, List.foldlM_cons,
      List.foldlM_nil, hread, e1, e2, Option.pure_def]
  · rw [if_neg hq]
    by_cases hq0 : quality = 0
    · rw [if_pos hq0]
      obtain ⟨s', e, r⟩ := writeCall_run st (oracle st c).1 '0' hcs
      refine ⟨s', ?_, r⟩
      have hread : baseCallRead0 st call.down = some () := by
        unfold baseCallRead0
        simp only [hxb, hbase, hqv, hfr]
      unfold BaseCallMajority
      simp only [hcol, hcall, hbeads, List.foldlM_cons, List.foldlM_nil, hread]
      exact e
    · rw [if_neg hq0]
      by_cases hq1 : quality = -1
      · rw [if_pos hq1]
        obtain ⟨s', e, r⟩ := writeCall_run st cb qv hcs
        refine ⟨s', ?_, r⟩
        unfold BaseCallPromote
        simp only [hcol, hcall, hxb, hbase, hqv]
        exact e
      · rw [if_neg hq1]
        refine ⟨st, ?_, CharsOnly.refl_co _, le_refl _, le_refl _⟩
        simp only [hcol]

theorem Ready_mono {st st' : Store} {c : Int} (hb : st'.beadStore = st.beadStore)
    (hf : ∀ j, (GetFragment st j).isSome → (GetFragment st' j).isSome)
    (hc : ∀ j, (GetColumn st' j).map clearIndex = (GetColumn st j).map clearIndex)
    (h1 : st.sequenceStore.length ≤ st'.sequenceStore.length)
    (h2 : st.qualityStore.length ≤ st'.qualityStore.length) (h : Ready st c) : Ready st' c := by
  obtain ⟨col, call, xb, hcol, hcall, hcs, hxb, hxd, hx0, hx1, hx2, hxf⟩ := h
  have hcc := hc c
  rw [hcol] at hcc
  cases hcol' : GetColumn st' c with
  | none => rw [hcol'] at hcc; cases hcc
  | some col' =>
    rw [hcol'] at hcc
    have e : clearIndex col' = clearIndex col := Option.some.inj hcc
    have ecall : col'.call = col.call := by
      have := congrArg Column.call e
      simpa [clearIndex] using this
    refine ⟨col', call, xb, hcol', ?_, hcs, ?_, hxd, hx0, by omega, by omega, hf _ hxf⟩
    · rw [ecall, GetBead_congr hb]
      exact hcall
    · rw [GetBead_congr hb]
      exact hxb

/-- One round of the first loop of `RefreshMANode` returns on a column that
holds one bead and is linked to the column appended before it. -/
theorem refreshColumn_run (oracle : Store → Int → Char × Char) (quality : Int) {mid : Int}
    {s : Store} {cid index : Int} {col : Column} {m : MANode}
    (hcol : GetColumn s cid = some col) (hlid : col.lid = cid) (hr : Ready s cid)
    (hm : GetMANode s mid = some m)
    (hprev : index > 0 → ∃ pcol, getAt m.columns (index - 1) = some col.prev ∧
      GetColumn s col.prev = some pcol ∧ pcol.next = cid) :
    ∃ s', refreshColumn oracle quality mid s cid index = some (s', col.next) ∧
      s.sequenceStore.length ≤ s'.sequenceStore.length ∧
      s.qualityStore.length ≤ s'.qualityStore.length := by
  obtain ⟨s1, e1, ⟨c1, c2, c3, c4⟩, l1, l2⟩ :
      ∃ s1, (if quality ≠ -2 then BaseCallEffect oracle quality s cid else some s) = some s1 ∧
        CharsOnly s s1 ∧ s.sequenceStore.length ≤ s1.sequenceStore.length ∧
        s.qualityStore.length ≤ s1.qualityStore.length := by
    by_cases hq : quality ≠ -2
    · rw [if_pos hq]
      exact BaseCallEffect_run oracle quality hr
    · rw [if_neg hq]
      exact ⟨s, rfl, CharsOnly.refl_co _, le_refl _, le_refl _⟩
  have hcol1 : GetColumn s1 cid = some col := by
    rw [GetColumn_congr c2]; exact hcol
  obtain ⟨s2, e2, g2, b2, mm2, sq2, f2, ql2⟩ :=
    modColumn_run (fun c => { c with ma_index := index }) hcol1
  have hm2 : GetMANode s2 mid = some m := by
    unfold GetMANode at hm ⊢
    rw [mm2, c3]
    exact hm
  obtain ⟨s3, e3, -⟩ := modMANode_run (fun m => { m with columns := m.columns ++ [cid] }) hm2
  obtain ⟨g3, k3⟩ := modMANode_get e3
  obtain ⟨m', hm', es3⟩ := modMANode_spec e3
  have hcheck : refreshCheck s3 mid cid index = some (s3, col.next) := by
    have hc3 : ∀ j, GetColumn s3 j =
        if j = cid then some { col with ma_index := index } else GetColumn s j := by
      intro j
      rw [GetColumn_congr k3, g2 j]
      by_cases hj : j = cid
      · rw [if_pos hj, if_pos hj]
      · rw [if_neg hj, if_neg hj, GetColumn_congr c2]
    have hm3 : GetMANode s3 mid = some { m with columns := m.columns ++ [cid] } := by
      rw [g3 mid, if_pos rfl, hm2]
      rfl
    unfold refreshCheck
    rw [hc3 cid, if_pos rfl]
    simp only
    by_cases hi : index > 0
    · obtain ⟨pcol, hp1, hp2, hp3⟩ := hprev hi
      rw [if_pos hi, hm3]
      simp only
      rw [getAt_append_some hp1]
      simp only
      have hnext : ∃ pc, GetColumn s3 col.prev = some pc ∧ pc.next = cid := by
        rw [hc3 col.prev]
        by_cases hj : col.prev = cid
        · rw [if_pos hj]
          refine ⟨_, rfl, ?_⟩
          rw [hj, hcol] at hp2
          cases hp2
          exact hp3
        · rw [if_neg hj]
          exact ⟨pcol, hp2, hp3⟩
      obtain ⟨pc, hpc, hpcn⟩ := hnext
      rw [hpc]
      simp only
      rw [if_neg]
      simp only [not_or, not_not]
      exact ⟨trivial, by rw [hpcn, hlid]⟩
    · rw [if_neg hi]
  refine ⟨s3, ?_, ?_, ?_⟩
  · unfold refreshColumn
    simp only [hcol, e1, e2, e3]
    exact hcheck
  · rw [es3]
    show s.sequenceStore.length ≤ s2.sequenceStore.length
    rw [sq2]; exact l1
  · rw [es3]
    show s.qualityStore.length ≤ s2.qualityStore.length
    rw [ql2]; exact l2

/-- The first loop of `RefreshMANode` returns on a list of linked columns
that hold one bead each. -/
theorem refreshLoop_run (oracle : Store → Int → Char × Char) (quality : Int) {mid : Int} :
    ∀ (rest : List Int) (fuel : Nat) (s : Store) (index p : Int) (m : MANode),
    Linked s mid p rest → rest.Nodup → (∀ c, c ∈ rest → Ready s c) →
    GetMANode s mid = some m → (m.columns.length : Int) = index →
    (index > 0 → ∃ pcol, getAt m.columns (index - 1) = some p ∧ GetColumn s p = some pcol ∧
      pcol.next = rest.headD (-1)) →
    rest.length < fuel →
    ∃ s', refreshLoop oracle quality mid fuel s (rest.headD (-1)) index = some s' := by
  intro rest
  induction rest with
  | nil =>
    intro fuel s index p m _ _ _ _ _ _ hfuel
    obtain ⟨n, rfl⟩ : ∃ n, fuel = n + 1 := ⟨fuel - 1, by simp at hfuel; omega⟩
    refine ⟨s, ?_⟩
    unfold refreshLoop
    simp
  | cons c r ih =>
    intro fuel s index p m hlk hnd hready hm hidx hprev hfuel
    obtain ⟨n, rfl⟩ : ∃ n, fuel = n + 1 := ⟨fuel - 1, by omega⟩
    obtain ⟨colL, h1, h2, h3, h4, h5, h6⟩ := hlk
    obtain ⟨col, hcol, en, ep, -, el⟩ := LinksAt_fields h1
    have hc0 := (LinksAt_range h1).1
    have hprev' : index > 0 → ∃ pcol, getAt m.columns (index - 1) = some col.prev ∧
        GetColumn s col.prev = some pcol ∧ pcol.next = c := by
      intro hi
      obtain ⟨pcol, q1, q2, q3⟩ := hprev hi
      rw [ep, h4]
      exact ⟨pcol, q1, q2, by simpa using q3⟩
    obtain ⟨s1, e1, l1, l2⟩ := refreshColumn_run oracle quality hcol (by rw [el, h2])
      (hready c (List.mem_cons_self _ _)) hm hprev'
    obtain ⟨col', m0, hcol', hm0, -, gc, gm, -, hb, hf⟩ := refreshColumn_spec e1
    rw [hcol] at hcol'
    cases hcol'
    rw [hm] at hm0
    cases hm0
    have hcr : c ∉ r := (List.nodup_cons.1 hnd).1
    have hnext : col.next = r.headD (-1) := by rw [en, h5]
    have hclear : ∀ j, (GetColumn s1 j).map clearIndex = (GetColumn s j).map clearIndex := by
      intro j
      rw [gc j]
      by_cases hj : j = c
      · rw [if_pos hj, hj, hcol]
        rfl
      · rw [if_neg hj]
    obtain ⟨s', e'⟩ := ih n s1 (index + 1) c { m with columns := m.columns ++ [c] }
      (Linked_frame r c h6 (fun d hd => by
        have hdc : d ≠ c := fun e => hcr (e ▸ hd)
        unfold LinksAt
        rw [gc d, if_neg hdc]))
      (List.nodup_cons.1 hnd).2
      (fun d hd => Ready_mono hb (fun j hj => by
          unfold GetFragment at hj ⊢
          rw [hf]
          exact hj) hclear l1 l2
        (hready d (List.mem_cons_of_mem _ hd)))
      (by rw [gm mid, if_pos rfl])
      (by simp only [List.length_append, List.length_singleton]; push_cast; omega)
      (fun _ => by
        refine ⟨{ col with ma_index := index }, ?_, by rw [gc c, if_pos rfl], hnext⟩
        have : index + 1 - 1 = (m.columns.length : Int) := by omega
        rw [this]
        exact getAt_length_append _ _)
      (by simp at hfuel; omega)
    refine ⟨s', ?_⟩
    unfold refreshLoop
    simp only [List.headD_cons]
    rw [if_pos (by omega), e1]
    simp only
    rw [hnext]
    exact e'

theorem Linked_Path {st : Store} {mid : Int} : ∀ (l : List Int) (p : Int),
    Linked st mid p l → Path st (l.headD (-1)) l (-1) := by
  intro l
  induction l with
  | nil => intro _ _; rfl
  | cons c r ih =>
    intro p h
    obtain ⟨colL, h1, h2, h3, h4, h5, h6⟩ := h
    obtain ⟨col, hcol, en, -, -, -⟩ := LinksAt_fields h1
    refine ⟨rfl, col, hcol, ?_⟩
    rw [en, h5]
    exact ih c h6

/-- A column of well-formed stores that holds the one bead `x`. -/
theorem single_of_grid {s : Store} {ch row : Int → List Int} {c x : Int} {col : Column}
    (hg : GWF s ch row) (hcol : GetColumn s c = some col) (hch : ch c = [x]) :
    ∃ call xb, GetBead s col.call = some call ∧ 0 ≤ call.soffset ∧ call.down = x ∧
      GetBead s x = some xb ∧ xb.down = -1 ∧ 0 ≤ xb.soffset ∧
      xb.soffset < s.sequenceStore.length ∧ xb.soffset < s.qualityStore.length ∧
      (GetFragment s xb.frag_index).isSome ∧ col.base_count.depth = 1 ∧
      xb.column_index = c := by
  obtain ⟨-, -, hchain, -, hmem, htal⟩ := hg.vert.col c col.vert (ColVertAt_of_get hcol)
  rw [hch] at hchain hmem htal
  obtain ⟨t, xv, ht, htd, hxv, -, t2, ht2, ht2d⟩ := hchain
  obtain ⟨call, hcall, rfl⟩ := VertAt_some ht
  obtain ⟨xb, hxb, rfl⟩ := VertAt_some hxv
  obtain ⟨xv', hxv', hci, hfi, -⟩ := hmem x (List.mem_singleton_self x)
  rw [hxv] at hxv'
  cases hxv'
  rw [hxv] at ht2
  cases ht2
  have hq := hg.frags.chars
  obtain ⟨o1, o2⟩ := hq.soff x xb hxb
  obtain ⟨o3, -⟩ := hq.soff _ call hcall
  have hfr := (hg.frags.rows.bead x xb hxb hfi).1
  refine ⟨call, xb, hcall, o3, htd, hxb, ht2d, o1, o2, by rw [hq.len]; exact o2, hfr, ?_, hci⟩
  have := htal.1
  simpa using this

theorem modFragment_run {st : Store} {i : Int} {x : Fragment} (f : Fragment → Fragment)
    (h : GetFragment st i = some x) :
    ∃ s, modFragment st i f = some s ∧ s.beadStore = st.beadStore ∧
      s.columnStore = st.columnStore ∧ s.manodeStore = st.manodeStore ∧
      s.sequenceStore = st.sequenceStore ∧ s.qualityStore = st.qualityStore ∧
      GetFragment s i = some (f x) ∧
      ∀ j, (GetFragment st j).isSome → (GetFragment s j).isSome := by
  refine ⟨{ st with fragmentStore := setAt st.fragmentStore i (f x) }, ?_, rfl, rfl, rfl, rfl,
    rfl, ?_, ?_⟩
  · simp [modFragment, h]
  · exact getAt_setAt_self h
  · intro j hj
    unfold GetFragment at hj ⊢
    rw [getAt_isSome_iff] at hj ⊢
    rw [length_setAt]
    exact hj

theorem Free_of_bools {st : Store} {x : Int} (h1 : inNoColumn st x = true)
    (h2 : beadTallied st x = true) : Free st x := by
  obtain ⟨b, hb, hc⟩ := inNoColumn_spec h1
  unfold beadTallied at h2
  cases hch : beadChar st x with
  | none => simp [hch] at h2
  | some c =>
    simp only [hch, Bool.or_eq_true, decide_eq_true_eq, beq_iff_eq] at h2
    exact ⟨b, c, hb, hc, hch, h2⟩

/-- C22 (amended).  In stores reached by the grid calls, for a MANode `mid`
and a fragment `fid` whose beads `bs`, met from its first bead following
`next`, are in no column and carry tallied characters (a loaded fragment of
length `L` has `L` such beads), `SeedMAWithFragment(mid, fid, quality, opp)`
returns, the allele pass of `RefreshMANode` being taken to return when it is
entered.  It makes one column per bead, `L = bs.length ≥ 1` columns with the
ids following the columns that were there, linked in this order from
`MANode.first`; the `k`-th of them has depth 1, `ma_index` `k`, and holds the
`k`-th bead alone; the fragment's `manode` is `mid`; and `GetMANodeLength` of
the MANode is `L`. -/
theorem seedMAWithFragment_columns (oracle : Store → Int → Char × Char)
    (writes : Store → Option (List Char × List Char)) (split_alleles : Bool)
    (ops : List StackOp) (st : Store) (hrun : gridRun ops = some st)
    (mid fid quality : Int) (f : Fragment) (bs : List Int)
    (hm : (GetMANode st mid).isSome) (hf : GetFragment st fid = some f)
    (hbs : chainFrom st (st.beadStore.length + 1) f.beads = some bs)
    (hfree : ∀ x, x ∈ bs → inNoColumn st x = true ∧ beadTallied st x = true)
    (hw : split_alleles = true → 0 < quality → ∀ s, (writes s).isSome) :
    ∃ st' ma', SeedMAWithFragment oracle writes split_alleles st mid fid quality = some st' ∧
      bs ≠ [] ∧
      st'.columnStore.length = st.columnStore.length + bs.length ∧
      GetMANode st' mid = some ma' ∧ ma'.first = st.columnStore.length ∧
      ma'.columns = idsFrom st.columnStore.length bs.length ∧
      columnWalk st' (st'.columnStore.length + 1) ma'.first = some ma'.columns ∧
      (∀ (k : Nat) (hk : k < bs.length), ∃ col,
        GetColumn st' ((st.columnStore.length : Int) + k) = some col ∧
        col.base_count.depth = 1 ∧ col.ma_index = k ∧
        columnBeads st' ((st.columnStore.length : Int) + k) = some [bs.get ⟨k, hk⟩]) ∧
      (GetFragment st' fid).map Fragment.manode = some mid ∧
      GetMANodeLength st' mid = bs.length := by
  obtain ⟨ch, row, hg⟩ := gridRun_GWF hrun
  obtain ⟨mm, hmm⟩ := Option.isSome_iff_exists.1 hm
  have hfwd := chainFrom_Fwd _ _ _ hbs
  have hFree : ∀ y, y ∈ bs → Free st y := fun y hy =>
    Free_of_bools (hfree y hy).1 (hfree y hy).2
  obtain ⟨-, -, hfb⟩ := hg.frags.rows.frag fid f hf
  obtain ⟨hfo, hfid⟩ := hg.frags.rows.mem fid f.beads hfb
  obtain ⟨b0, hb0, hb0f⟩ := fragOf_some hfo
  have hnd := Fwd_nodup _ _ hfwd
  cases bs with
  | nil =>
    have hneg : f.beads = -1 := hfwd
    have := (GetBead_some_range hb0).1
    omega
  | cons x rest =>
    obtain ⟨ex, nx, hnx, hfr⟩ := hfwd
    obtain ⟨xb, c, hxb, hxfree, hxc, hxtal⟩ := hFree x (List.mem_cons_self _ _)
    have hxf : xb.frag_index = fid := by
      rw [ex, hxb] at hb0
      cases hb0
      exact hb0f
    have hoff : xb.boffset = x := hg.frags.offs x xb hxb
    have hx0 := GetBead_some_range hxb
    have hnxe : nx = xb.next := by
      rw [nextOf_get hxb] at hnx
      exact (Option.some.inj hnx).symm
    subst hnxe
    have hnext0 : NextFragmentBead st f.beads = some (x, xb.next) := by
      unfold NextFragmentBead
      rw [ex, if_neg (by omega), hxb]
      simp only [hoff]
    -- the first column
    obtain ⟨s1, e1, g1, gb1, hch1, hlen1⟩ := FirstColumn_run hg hm hxb hxfree hxc hxtal
    have hlive1 : Live s1 mid [(st.columnStore.length : Int)] := by
      refine columnStep_Live (⟨List.nodup_nil, trivial, fun h => absurd rfl h⟩ : Live st mid [])
        (?_ : columnStep mid (st, []) (ColumnOp.first x) = _)
      simp only [columnStep, if_true, e1, Option.map_some']
    have hxb1 := gb1 x
    rw [if_pos rfl] at hxb1
    have hxr : x ∉ rest := (List.nodup_cons.1 hnd).1
    have hold : ∀ j, j ∈ rest → GetBead s1 j = GetBead st j := by
      intro j hj
      obtain ⟨jb, _, hjb, -⟩ := hFree j (List.mem_cons_of_mem _ hj)
      have hr := GetBead_some_range hjb
      have hjx : j ≠ x := fun e => hxr (e ▸ hj)
      rw [gb1, if_neg hjx, if_neg (by omega)]
    have hfwd1 : Fwd s1 xb.next rest :=
      Fwd_congr rest _ (fun j hj => by unfold nextOf; rw [hold j hj]) hfr
    have hfree1 : ∀ y, y ∈ rest → Free s1 y := by
      intro y hy
      have hys := hFree y (List.mem_cons_of_mem _ hy)
      obtain ⟨yb, hyb, hyf, -⟩ := Free_frag hg.vert hys
      have hyb1 : GetBead s1 y = some yb := by rw [hold y hy]; exact hyb
      have hyx : y ≠ x := fun e => hxr (e ▸ hy)
      exact Free_kept hg.vert g1.vert (fun _ => rfl) hlen1 hys hyx hyb1 hyf
        (hch1 y (by rw [hyb]; rfl))
    have hfuel : rest.length < st.beadStore.length + 1 := by
      have := nodup_length_le st.beadStore.length (x :: rest) hnd (fun j hj => by
        obtain ⟨jb, _, hjb, -⟩ := hFree j hj
        exact GetBead_some_range hjb)
      simp at this
      omega
    obtain ⟨s2, ch2, row2, last, e2, g2, hl2, hlen2, hold2, hnew2, hfrag2⟩ :=
      seedLoop_run rest (st.beadStore.length + 1) s1 _ row (st.columnStore.length : Int) x
        [(st.columnStore.length : Int)] _ g1 hlive1 rfl (by simp) hxb1 hfwd1 hnd hfree1 hfuel
    have hids : [(st.columnStore.length : Int)] ++ idsFrom s1.columnStore.length rest.length =
        idsFrom st.columnStore.length (x :: rest).length := by
      rw [List.length_cons, idsFrom_succ, hlen1]
      simp
    rw [hids] at hl2
    have hch2 : ∀ (k : Nat) (hk : k < (x :: rest).length),
        ch2 ((st.columnStore.length : Int) + k) = [(x :: rest).get ⟨k, hk⟩] := by
      intro k hk
      cases k with
      | zero =>
        have := hold2 (st.columnStore.length : Int) (by rw [hlen1]; push_cast; omega)
        simp only [Nat.cast_zero, add_zero, List.get_eq_getElem, List.getElem_cons_zero]
        rw [this]
        simp
      | succ i =>
        have hi : i < rest.length := by simpa using hk
        have := hnew2 i hi
        rw [hlen1] at this
        simp only [List.get_eq_getElem, List.getElem_cons_succ]
        simp only [List.get_eq_getElem] at this
        rw [← this]
        congr 1
        push_cast
        ring
    -- the fragment record
    have hfx2 : fragOf s2 x = some fid := by
      rw [hfrag2 x _ hxb1 (by show xb.frag_index ≠ -1; rw [hxf]; exact hfid)]
      show some xb.frag_index = some fid
      rw [hxf]
    obtain ⟨x2, hx2, hx2f⟩ := fragOf_some hfx2
    have hfs2 : (GetFragment s2 fid).isSome := by
      have := (g2.frags.rows.bead x x2 hx2 (by rw [hx2f]; exact hfid)).1
      rw [hx2f] at this
      exact this
    obtain ⟨f2, hf2⟩ := Option.isSome_iff_exists.1 hfs2
    obtain ⟨s3, e3, b3, c3, m3, q3, ql3, hf3, hfs3⟩ :=
      modFragment_run (fun f => { f with manode := mid }) hf2
    -- the columns before the refresh
    have hmemids : ∀ c, c ∈ idsFrom (st.columnStore.length : Int) (x :: rest).length →
        ∃ (k : Nat) (hk : k < (x :: rest).length), c = (st.columnStore.length : Int) + k := by
      intro c hc
      unfold idsFrom at hc
      obtain ⟨k, hk, rfl⟩ := List.mem_map.1 hc
      exact ⟨k, List.mem_range.1 hk, rfl⟩
    have hcol2 : ∀ c, c ∈ idsFrom (st.columnStore.length : Int) (x :: rest).length →
        ∃ col, GetColumn s2 c = some col := by
      intro c hc
      obtain ⟨cl, hcl, -, -⟩ := Linked_mem _ (-1) c hl2.2.1 hc
      obtain ⟨col, hcol, -⟩ := LinksAt_fields hcl
      exact ⟨col, hcol⟩
    have hready3 : ∀ c, c ∈ idsFrom (st.columnStore.length : Int) (x :: rest).length →
        Ready s3 c := by
      intro c hc
      obtain ⟨col, hcol⟩ := hcol2 c hc
      obtain ⟨k, hk, rfl⟩ := hmemids c hc
      obtain ⟨call, yb, r1, r2, r3, r4, r5, r6, r7, r8, r9, -, -⟩ :=
        single_of_grid g2 hcol (hch2 k hk)
      refine ⟨col, call, yb, by rw [GetColumn_congr c3]; exact hcol,
        by rw [GetBead_congr b3]; exact r1, r2, ?_, r5, r6, by rw [q3]; exact r7,
        by rw [ql3]; exact r8, hfs3 _ r9⟩
      rw [GetBead_congr b3, r3]
      exact r4
    -- the MANode
    have hne : idsFrom (st.columnStore.length : Int) (x :: rest).length ≠ [] := by
      rw [List.length_cons, idsFrom_succ]
      exact List.cons_ne_nil _ _
    obtain ⟨e, hends, hhead, -⟩ := hl2.2.2 hne
    have hfirst : e.1 = (st.columnStore.length : Int) := by
      rw [List.length_cons, idsFrom_succ] at hhead
      simp only [List.head?_cons, Option.some.injEq] at hhead
      exact hhead.symm
    obtain ⟨m2, hm2, hm2e⟩ : ∃ m2, GetMANode s2 mid = some m2 ∧
        m2.first = (st.columnStore.length : Int) := by
      unfold EndsAt at hends
      cases hmn : GetMANode s2 mid with
      | none => rw [hmn] at hends; cases hends
      | some m2 =>
        rw [hmn] at hends
        simp only [Option.map_some', Option.some.injEq] at hends
        exact ⟨m2, rfl, by rw [← hfirst, ← hends]⟩
    have hm3 : GetMANode s3 mid = some m2 := by
      unfold GetMANode at hm2 ⊢
      rw [m3]
      exact hm2
    obtain ⟨s4, e4, -⟩ := modMANode_run (fun m => { m with columns := [] }) hm3
    obtain ⟨g4, c4⟩ := modMANode_get e4
    obtain ⟨m4', hm4', es4⟩ := modMANode_spec e4
    have hm4 : GetMANode s4 mid = some { m2 with columns := [] } := by
      rw [g4 mid, if_pos rfl, hm3]
      rfl
    have hb4 : s4.beadStore = s3.beadStore := by rw [es4]
    have hf4 : s4.fragmentStore = s3.fragmentStore := by rw [es4]
    have hs4 : s4.sequenceStore = s3.sequenceStore := by rw [es4]
    have hq4 : s4.qualityStore = s3.qualityStore := by rw [es4]
    have hlk4 : Linked s4 mid (-1) (idsFrom (st.columnStore.length : Int) (x :: rest).length) :=
      Linked_frame _ (-1) hl2.2.1 (fun c _ => by
        unfold LinksAt
        rw [GetColumn_congr c4, GetColumn_congr c3])
    have hhd : (idsFrom (st.columnStore.length : Int) (x :: rest).length).headD (-1) =
        (st.columnStore.length : Int) := by
      rw [List.length_cons, idsFrom_succ]
      rfl
    have hlen3 : s3.columnStore.length = st.columnStore.length + (x :: rest).length := by
      rw [c3, hlen2, hlen1, List.length_cons]
      omega
    obtain ⟨s5, e5⟩ := refreshLoop_run oracle quality
      (idsFrom (st.columnStore.length : Int) (x :: rest).length) (s3.columnStore.length + 1)
      s4 0 (-1) { m2 with columns := [] } hlk4 hl2.1
      (fun c hc => Ready_mono hb4 (fun j hj => by
          unfold GetFragment at hj ⊢
          rw [hf4]
          exact hj)
        (fun j => by rw [GetColumn_congr c4]) (by rw [hs4]) (by rw [hq4]) (hready3 c hc))
      hm4 rfl (fun h => absurd h (by omega))
      (by rw [idsFrom_length, hlen3]; omega)
    rw [hhd] at e5
    have hrefresh : RefreshMANode oracle writes split_alleles false s3 mid quality = some s5 := by
      unfold RefreshMANode
      simp only [hm3]
      rw [if_neg (by rw [hm2e]; omega)]
      simp only [e4, hm2e, e5]
      by_cases hcase : split_alleles = false ∨ quality ≤ 0
      · rw [if_pos hcase]
      · rw [if_neg hcase]
        have hsa : split_alleles = true := by
          cases split_alleles
          · exact absurd (Or.inl rfl) hcase
          · rfl
        obtain ⟨w, hwr⟩ := Option.isSome_iff_exists.1 (hw hsa (by omega) s5)
        unfold allelePass
        rw [hwr]
        simp
    obtain ⟨rest', b, hb, hp, hpos, k1, -, k3, -, k5, k6, k7, k8⟩ :=
      refreshLoop_spec _ s4 _ 0 s5 _ e5 hm4
    have hpath4 := Linked_Path _ (-1) hlk4
    rw [hhd] at hpath4
    have hposids : ∀ c, c ∈ idsFrom (st.columnStore.length : Int) (x :: rest).length →
        c > -1 := by
      intro c hc
      have := (Linked_nonneg hlk4 hc).1
      omega
    have hrest' : rest' = idsFrom (st.columnStore.length : Int) (x :: rest).length :=
      Path_unique _ _ _ b (-1) hp hpath4 hb (by omega) hpos hposids
    subst hrest'
    have hlen5 : s5.columnStore.length = st.columnStore.length + (x :: rest).length := by
      rw [k6, c4, hlen3]
    have hm5 : GetMANode s5 mid = some { m2 with
        columns := idsFrom (st.columnStore.length : Int) (x :: rest).length } := by
      rw [k1]
      simp
    refine ⟨s5, _, ?_, List.cons_ne_nil _ _, hlen5, hm5, hm2e, rfl, ?_, ?_, ?_, ?_⟩
    · unfold SeedMAWithFragment
      simp only [hmm, hf, hnext0, e1, e2, e3]
      exact hrefresh
    · show columnWalk s5 (s5.columnStore.length + 1) m2.first = _
      rw [hm2e]
      exact Path_walk _ _ _ (Path_of_clear k3 _ _ _ hpath4) hposids
        (by rw [idsFrom_length, hlen5]; omega)
    · intro k hk
      have hc : (st.columnStore.length : Int) + k ∈
          idsFrom (st.columnStore.length : Int) (x :: rest).length := by
        unfold idsFrom
        exact List.mem_map.2 ⟨k, List.mem_range.2 hk, rfl⟩
      obtain ⟨col, hcol⟩ := hcol2 _ hc
      obtain ⟨call, yb, r1, r2, r3, r4, r5, r6, r7, r8, r9, r10, -⟩ :=
        single_of_grid g2 hcol (hch2 k hk)
      have hcc := k3 ((st.columnStore.length : Int) + k)
      rw [GetColumn_congr c4, GetColumn_congr c3, hcol] at hcc
      cases hcol5 : GetColumn s5 ((st.columnStore.length : Int) + k) with
      | none => rw [hcol5] at hcc; cases hcc
      | some col5 =>
        rw [hcol5] at hcc
        have ecl : clearIndex col5 = clearIndex col := Option.some.inj hcc
        have ecall : col5.call = col.call := by
          have := congrArg Column.call ecl
          simpa [clearIndex] using this
        have ebc : col5.base_count = col.base_count := by
          have := congrArg Column.base_count ecl
          simpa [clearIndex] using this
        have hb5 : s5.beadStore = s2.beadStore := by rw [k7, hb4, b3]
        have hidx := k5 k (by rw [idsFrom_length]; exact hk)
        rw [idsFrom_get, hcol5] at hidx
        simp only [Option.map_some', Option.some.injEq, zero_add] at hidx
        refine ⟨col5, rfl, by rw [ebc]; exact r10, hidx, ?_⟩
        have := @Ready_beads s5 _ _ call hcol5
          (by rw [ecall, GetBead_congr hb5]; exact r1) yb
          (by rw [GetBead_congr hb5, r3]; exact r4) r5
        rw [this, r3]
    · have : GetFragment s5 fid = GetFragment s3 fid := by
        unfold GetFragment
        rw [k8, hf4]
      rw [this, hf3]
      rfl
    · unfold GetMANodeLength
      rw [hm5]
      simp [idsFrom_length]

theorem seedMAWithFragment_columns_witness :
    ∃ st', SeedMAWithFragment (fun _ _ => ('A', '0')) (fun _ => none) false storeACGNode
        0 0 0 = some st' ∧
      st'.columnStore.length = 3 ∧ GetMANodeLength st' 0 = 3 ∧
      (GetMANode st' 0).map MANode.columns = some [0, 1, 2] ∧
      (GetFragment st' 0).map Fragment.manode = some 0 := by
  obtain ⟨st', ma', h1, -, h3, h4, -, h6, -, -, h9, h10⟩ :=
    seedMAWithFragment_columns (fun _ _ => ('A', '0')) (fun _ => none) false
      [loadOp ['A', 'C', 'G'], StackOp.node 0] storeACGNode (by decide!) 0 0 0 fragmentACG
      [0, 1, 2] (by decide!) (by decide!) (by decide!) (by decide!) (fun h => by cases h)
  refine ⟨st', h1, h3, h10, ?_, h9⟩
  rw [h4]
  show some ma'.columns = _
  rw [h6]
  rfl

/-- C22 (as stated) fails: a fragment of length 2 whose second character is
not one the column profile tallies, the read `AX`, and a freshly created
MANode: `SeedMAWithFragment` aborts in `IncBaseCount`.  On the read `ACG` it
leaves three columns of depth 1 with one bead each. -/
theorem seed_aborts_untallied :
    seedCase ['A', 'X'] = none ∧
      seedCase ['A', 'C', 'G'] = some (3, [(1, some [0]), (1, some [1]), (1, some [2])]) := by
  decide!

/-- C33: `ApplyAbacus` returns without touching the stores for every abacus
that is tagged neither `LEFT_SHIFT` nor `RIGHT_SHIFT`, so for one tagged
`MIXED_SHIFT`; and when the abacus `RefineWindow` settles on is the mixed one,
`RefineWindow` returns a store that differs from the one it was given in the
scratch array `abacus_indices` only: every bead, column with its tally,
MANode, fragment and character is as it was. -/
theorem applyAbacus_mixed_untouched (rnd : Nat → Int) (oracle : Store → Int → Char × Char)
    (plan : Option MixedPlan) (st st1 : Store) (ma start_column stab_bgn : Int) (a : Abacus)
    (f : Candidate) (reduction : Int)
    (hcreate : CreateAbacus st ma start_column stab_bgn = some (st1, a))
    (hchoice : refineChoice rnd plan a = some (f, reduction))
    (hmixed : f.abacus.shift = ShiftStatus.MIXED_SHIFT) :
    (∀ (s : Store) (b : Abacus), b.shift ≠ ShiftStatus.LEFT_SHIFT →
      b.shift ≠ ShiftStatus.RIGHT_SHIFT → ApplyAbacus oracle s b = some s) ∧
    ApplyAbacus oracle st1 f.abacus = some st1 ∧
    RefineWindow rnd oracle plan st ma start_column stab_bgn =
      some ({ st with abacus_indices := st1.abacus_indices }, reduction) := by
  have hall : ∀ (s : Store) (b : Abacus), b.shift ≠ ShiftStatus.LEFT_SHIFT →
      b.shift ≠ ShiftStatus.RIGHT_SHIFT → ApplyAbacus oracle s b = some s := by
    intro s b h1 h2
    unfold ApplyAbacus
    cases hs : b.shift with
    | LEFT_SHIFT => exact absurd hs h1
    | RIGHT_SHIFT => exact absurd hs h2
    | UNSHIFTED => rfl
    | MIXED_SHIFT => rfl
  have happ : ApplyAbacus oracle st1 f.abacus = some st1 :=
    hall st1 f.abacus (by rw [hmixed]; decide) (by rw [hmixed]; decide)
  refine ⟨hall, happ, ?_⟩
  obtain ⟨-, -, hst⟩ := CreateAbacus_spec hcreate
  unfold RefineWindow
  simp only [hcreate, hchoice, happ, Option.bind_eq_bind, Option.some_bind]
  rw [hst]
  rfl

theorem applyAbacus_mixed_untouched_witness :
    ∃ st st1 a f r, stackMixed = some st ∧ CreateAbacus st 0 0 4 = some (st1, a) ∧
      refineChoice (fun _ => 1) (some planMixed) a = some (f, r) ∧
      f.abacus.shift = ShiftStatus.MIXED_SHIFT ∧
      RefineWindow (fun _ => 1) (fun _ _ => ('A', '0')) (some planMixed) st 0 0 4 =
        some ({ st with abacus_indices := st1.abacus_indices }, r) := by
  refine ⟨_, _, _, _, _, rfl, rfl, rfl, rfl, ?_⟩
  exact (applyAbacus_mixed_untouched (fun _ => 1) _ (some planMixed) _ _ 0 0 4 _ _ _ (by rfl)
    (by rfl) (by rfl)).2.2

theorem noteRegion_spec {α : Type} {quality : Int} {make_v_list : Bool}
    {acc r' : Int × Option (List (Option α))} {r : α}
    (h : noteRegion quality make_v_list acc r = some r') :
    (r'.1 = 0 ∨ (r'.1 = 1 ∧ variantAt r'.2 0 = some r)) := by
  unfold noteRegion at h
  simp only at h
  split_ifs at h with h1 h2
  · omega
  · cases hg : getAt (allocVariants acc.2 10) 0 with
    | none => simp [hg] at h
    | some x =>
      simp only [hg, Option.some.injEq] at h
      subst h
      right
      refine ⟨rfl, ?_⟩
      unfold variantAt
      simp only
      rw [getAt_setAt_self hg]
      rfl
  · cases h
    exact Or.inl rfl

theorem regions_spec {α : Type} {quality : Int} {make_v_list : Bool} :
    ∀ (regions : List α) (acc r' : Int × Option (List (Option α))),
    regions.foldlM (noteRegion quality make_v_list) acc = some r' →
    (regions = [] ∧ r' = acc) ∨
      (r'.1 = 0 ∨ (r'.1 = 1 ∧ ∃ last, regions.getLast? = some last ∧
        variantAt r'.2 0 = some last)) := by
  intro regions
  induction regions with
  | nil =>
    intro acc r' h
    simp only [List.foldlM_nil, Option.pure_def, Option.some.injEq] at h
    exact Or.inl ⟨rfl, h.symm⟩
  | cons x rest ih =>
    intro acc r' h
    simp only [List.foldlM_cons, Option.bind_eq_bind, Option.bind_eq_some] at h
    obtain ⟨a1, h1, h2⟩ := h
    right
    rcases ih a1 r' h2 with ⟨hnil, he⟩ | h3
    · subst hnil
      subst he
      rcases noteRegion_spec h1 with h0 | ⟨h0, hv⟩
      · exact Or.inl h0
      · exact Or.inr ⟨h0, x, rfl, hv⟩
    · rcases h3 with h0 | ⟨h0, last, hl, hv⟩
      · exact Or.inl h0
      · refine Or.inr ⟨h0, last, ?_, hv⟩
        cases rest with
        | nil => simp at hl
        | cons y ys =>
          rw [List.getLast?_cons_cons]
          exact hl

/-- C34: `RefreshMANode` entered with `*nvars = 0` returns with `*nvars` 0 or
1, whatever the number of regions of variation; and when it is 1 there was a
region, and `(*v_list)[0]` is the record of the last one the loop met. -/
theorem refreshMANode_one_variant {α : Type} (first : Int) (split_alleles : Bool)
    (quality : Int) (make_v_list : Bool) (regions : List α)
    (v_list : Option (List (Option α))) (n : Int) (v : Option (List (Option α)))
    (h : refreshVariants first split_alleles quality make_v_list regions 0 v_list =
      some (n, v)) :
    0 ≤ n ∧ n ≤ 1 ∧
      (n = 1 → ∃ last, regions.getLast? = some last ∧ variantAt v 0 = some last) := by
  unfold refreshVariants at h
  split_ifs at h with h1 h2
  · cases h
    exact ⟨le_refl _, by omega, fun h => absurd h (by omega)⟩
  · cases h
    exact ⟨le_refl _, by omega, fun h => absurd h (by omega)⟩
  · rcases regions_spec regions _ _ h with ⟨-, he⟩ | h0 | ⟨h0, last, hl, hv⟩
    · cases he
      exact ⟨le_refl _, by omega, fun h => absurd h (by omega)⟩
    · have h0' : n = 0 := h0
      exact ⟨by omega, by omega, fun h => absurd h (by omega)⟩
    · have h0' : n = 1 := h0
      exact ⟨by omega, by omega, fun _ => ⟨last, hl, hv⟩⟩

theorem refreshMANode_one_variant_witness :
    refreshVariants 0 true 1 true [10, 20, 30] 0 none =
        some (1, some (some 30 :: List.replicate 9 none)) ∧
      (1 : Int) ≤ 1 ∧ variantAt (some (some (30 : Nat) :: List.replicate 9 none)) 0 = some 30 := by
  have h : refreshVariants 0 true 1 true [(10 : Nat), 20, 30] 0 none =
      some (1, some (some 30 :: List.replicate 9 none)) := by decide
  obtain ⟨-, h2, h3⟩ := refreshMANode_one_variant 0 true 1 true [(10 : Nat), 20, 30] none 1 _ h
  obtain ⟨last, hl, hv⟩ := h3 rfl
  simp at hl
  subst hl
  exact ⟨h, h2, hv⟩

theorem getAt_mid {α : Type} (pre : List α) (x : α) (post : List α) :
    getAt (pre ++ x :: post) (pre.length : Int) = some x := by
  unfold getAt
  rw [if_neg (by omega), Int.toNat_ofNat, List.getElem?_append_right (le_refl _)]
  simp

theorem setAt_mid {α : Type} (pre : List α) (x y : α) (post : List α) :
    setAt (pre ++ x :: post) (pre.length : Int) y = pre ++ y :: post := by
  unfold setAt
  simp

theorem countDels_spec (rest : List Int) : ∀ (todo done : List Int) (fuel : Nat),
    (∀ v, v ∈ todo → v ≠ 0) → todo.length < fuel →
    countDels (done ++ todo ++ 0 :: rest) fuel (done.length : Int) =
      some ((done ++ todo).length : Int) := by
  intro todo
  induction todo with
  | nil =>
    intro done fuel _ hf
    obtain ⟨n, rfl⟩ : ∃ n, fuel = n + 1 := ⟨fuel - 1, by simp at hf; omega⟩
    unfold countDels
    rw [List.append_nil, getAt_mid]
    simp
  | cons x r ih =>
    intro done fuel hnz hf
    obtain ⟨n, rfl⟩ : ∃ n, fuel = n + 1 := ⟨fuel - 1, by simp at hf; omega⟩
    unfold countDels
    have e : done ++ x :: r ++ 0 :: rest = done ++ x :: (r ++ 0 :: rest) := by simp
    rw [e, getAt_mid]
    simp only
    rw [if_pos (hnz x (List.mem_cons_self _ _))]
    have := ih (done ++ [x]) n (fun v hv => hnz v (List.mem_cons_of_mem _ hv))
      (by simp at hf; omega)
    have e2 : (done ++ [x]) ++ r ++ 0 :: rest = done ++ x :: (r ++ 0 :: rest) := by simp
    have e3 : (((done ++ [x]).length : Nat) : Int) = (done.length : Int) + 1 := by simp
    have e4 : ((done ++ [x]) ++ r).length = (done ++ x :: r).length := by simp
    rw [e2, e3, e4] at this
    exact this

theorem invertEntries_step (aend bend : Int) (fuel : Nat) (trace : List Int) (t s tmp sv : Int)
    (hst : s - t > 0) (h1 : getAt trace t = some tmp) (h2 : getAt trace s = some sv) :
    invertEntries aend bend (fuel + 1) trace t s =
      invertEntries aend bend fuel
        (setAt (setAt trace t (invertEntry aend bend sv)) s (invertEntry aend bend tmp))
        (t + 1) (s - 1) := by
  unfold invertEntries
  conv_lhs => unfold invertLoop
  rw [if_pos hst, h1, h2]

/-- The second loop of `InvertTrace` reverses the entries between the two
indices and re-expresses each. -/
theorem invertEntries_spec (aend bend : Int) : ∀ (n : Nat) (mid pre post : List Int) (fuel : Nat),
    mid.length ≤ n → mid.length < fuel →
    invertEntries aend bend fuel (pre ++ mid ++ post) (pre.length : Int)
        ((pre.length : Int) + mid.length - 1) =
      some (pre ++ mid.reverse.map (invertEntry aend bend) ++ post) := by
  intro n
  induction n with
  | zero =>
    intro mid pre post fuel hn hf
    have hm : mid = [] := List.length_eq_zero.1 (by omega)
    subst hm
    obtain ⟨f, rfl⟩ : ∃ f, fuel = f + 1 := ⟨fuel - 1, by simp at hf; omega⟩
    unfold invertEntries invertLoop
    simp
  | succ n ih =>
    intro mid pre post fuel hn hf
    obtain ⟨f, rfl⟩ : ∃ f, fuel = f + 1 := ⟨fuel - 1, by omega⟩
    cases mid with
    | nil =>
      unfold invertEntries invertLoop
      simp
    | cons x m =>
      rcases List.eq_nil_or_concat m with hm | ⟨m', y, hm⟩
      · subst hm
        unfold invertEntries invertLoop
        simp only [List.length_singleton, Nat.cast_one, add_sub_cancel_right, sub_self,
          gt_iff_lt, lt_self_iff_false, if_false, if_true]
        have e : pre ++ [x] ++ post = pre ++ x :: post := by simp
        rw [e, getAt_mid]
        simp only
        rw [setAt_mid]
        simp
      · rw [List.concat_eq_append] at hm
        subst hm
        have e1 : pre ++ x :: (m' ++ [y]) ++ post = pre ++ x :: (m' ++ [y] ++ post) := by simp
        have e2 : pre ++ x :: (m' ++ [y]) ++ post = (pre ++ x :: m') ++ y :: post := by simp
        have hs : (pre.length : Int) + ((x :: (m' ++ [y])).length : Nat) - 1 =
            ((pre ++ x :: m').length : Nat) := by
          simp only [List.length_cons, List.length_append, List.length_singleton, List.length_nil]
          push_cast
          omega
        have hg1 : getAt (pre ++ x :: (m' ++ [y]) ++ post) (pre.length : Int) = some x := by
          rw [e1, getAt_mid]
        have hg2 : getAt (pre ++ x :: (m' ++ [y]) ++ post)
            ((pre.length : Int) + ((x :: (m' ++ [y])).length : Nat) - 1) = some y := by
          rw [hs, e2, getAt_mid]
        rw [invertEntries_step aend bend f _ _ _ x y
          (by simp only [List.length_cons, List.length_append, List.length_singleton, List.length_nil]
              push_cast; omega) hg1 hg2]
        have hset : setAt (setAt (pre ++ x :: (m' ++ [y]) ++ post) (pre.length : Int)
              (invertEntry aend bend y))
            ((pre.length : Int) + ((x :: (m' ++ [y])).length : Nat) - 1)
              (invertEntry aend bend x) =
            (pre ++ [invertEntry aend bend y]) ++ m' ++ (invertEntry aend bend x :: post) := by
          rw [e1, setAt_mid, hs]
          have e3 : pre ++ invertEntry aend bend y :: (m' ++ [y] ++ post) =
              (pre ++ invertEntry aend bend y :: m') ++ y :: post := by simp
          have hl : (pre ++ x :: m').length = (pre ++ invertEntry aend bend y :: m').length := by
            simp
          rw [e3, hl, setAt_mid]
          simp
        rw [hset]
        have hidx1 : (pre.length : Int) + 1 = ((pre ++ [invertEntry aend bend y]).length : Nat) := by
          simp
        have hidx2 : (pre.length : Int) + ((x :: (m' ++ [y])).length : Nat) - 1 - 1 =
            ((pre ++ [invertEntry aend bend y]).length : Nat) + (m'.length : Nat) - 1 := by
          simp only [List.length_cons, List.length_append, List.length_singleton, List.length_nil]
          push_cast
          omega
        rw [hidx1, hidx2, ih m' (pre ++ [invertEntry aend bend y]) _ f
          (by simp at hn; omega) (by simp at hf; omega)]
        simp

theorem invertEntry_twice {aend bend v : Int} (hv : v ≠ 0)
    (hb : (v < 0 → -v < aend) ∧ (0 < v → v < bend)) :
    invertEntry aend bend v ≠ 0 ∧
      (v < 0 → invertEntry aend bend v < 0) ∧ (0 < v → 0 < invertEntry aend bend v) ∧
      invertEntry aend bend (invertEntry aend bend v) = v := by
  unfold invertEntry
  by_cases h : v < 0
  · have := hb.1 h
    rw [if_pos h, if_pos (by omega)]
    refine ⟨by omega, fun _ => by omega, fun _ => by omega, by omega⟩
  · have hp : 0 < v := by omega
    have := hb.2 hp
    rw [if_neg h, if_neg (by omega)]
    refine ⟨by omega, fun _ => by omega, fun _ => by omega, by omega⟩

/-- `InvertTrace` on a trace with the entries `tr` before its terminator. -/
theorem InvertTraceInPlace_run (alen blen : Int) (O : Overlap) (tr rest : List Int)
    (htr : O.trace = tr ++ 0 :: rest) (hnz : ∀ v, v ∈ tr → v ≠ 0) :
    InvertTraceInPlace alen blen O =
      some { O with
        trace := tr.reverse.map (invertEntry (alen + 2) (blen + 2)) ++ 0 :: rest,
        begpos := -O.endpos, endpos := -O.begpos } := by
  unfold InvertTraceInPlace
  have hc := countDels_spec rest tr [] (O.trace.length + 1) hnz (by rw [htr]; simp; omega)
  simp only [List.nil_append, List.length_nil, Nat.cast_zero] at hc
  rw [← htr] at hc
  rw [hc]
  simp only
  have he := invertEntries_spec (alen + 2) (blen + 2) tr.length tr [] (0 :: rest)
    (O.trace.length + 1) (le_refl _) (by rw [htr]; simp; omega)
  simp only [List.nil_append, List.length_nil, Nat.cast_zero] at he
  rw [← htr] at he
  rw [he]

/-- The compact rendering `InvertTrace` is what the loops of the source
compute on a zero-terminated trace. -/
theorem InvertTraceInPlace_eq (alen blen : Int) (O : Overlap) (tr rest : List Int)
    (htr : O.trace = tr ++ 0 :: rest) (hnz : ∀ v, v ∈ tr → v ≠ 0) :
    InvertTraceInPlace alen blen O = some (InvertTrace alen blen O) := by
  rw [InvertTraceInPlace_run alen blen O tr rest htr hnz]
  have h1 : traceEntries O.trace = tr := by
    unfold traceEntries
    rw [htr, List.takeWhile_append_of_pos (fun v hv => by simpa using hnz v hv)]
    simp
  have h2 : traceRest O.trace = 0 :: rest := by
    unfold traceRest
    rw [htr, List.dropWhile_append_of_pos (fun v hv => by simpa using hnz v hv)]
    simp
  unfold InvertTrace
  simp only [h1, h2]
  rfl

/-- C37: on a zero-terminated trace whose negative entries `v` have
`|v| < alen + 2` and whose positive entries have `v < blen + 2`, `InvertTrace`
returns; it reverses the order of the entries and maps each negative `v` to
`-(alen + 2 + v)` and each positive `v` to `blen + 2 - v`, which keeps the
sign of every entry and the length, leaves the terminator and what follows it
in place, and sets `(begpos, endpos)` to `(-endpos, -begpos)`; and applied
again it restores the overlap. -/
theorem invertTrace_involution (alen blen : Int) (O : Overlap) (tr rest : List Int)
    (htr : O.trace = tr ++ 0 :: rest) (hnz : ∀ v, v ∈ tr → v ≠ 0)
    (hb : ∀ v, v ∈ tr → (v < 0 → -v < alen + 2) ∧ (0 < v → v < blen + 2)) :
    ∃ O1, InvertTraceInPlace alen blen O = some O1 ∧
      O1.trace = (tr.reverse.map fun v => if v < 0 then -(alen + 2 + v) else blen + 2 - v) ++
        0 :: rest ∧
      O1.begpos = -O.endpos ∧ O1.endpos = -O.begpos ∧
      (∀ v, v ∈ tr → (v < 0 → (if v < 0 then -(alen + 2 + v) else blen + 2 - v) < 0) ∧
        (0 < v → 0 < (if v < 0 then -(alen + 2 + v) else blen + 2 - v))) ∧
      InvertTraceInPlace alen blen O1 = some O := by
  have h1 := InvertTraceInPlace_run alen blen O tr rest htr hnz
  refine ⟨_, h1, rfl, rfl, rfl, ?_, ?_⟩
  · intro v hv
    have := invertEntry_twice (hnz v hv) (hb v hv)
    unfold invertEntry at this
    exact ⟨this.2.1, this.2.2.1⟩
  · have hnz1 : ∀ v, v ∈ tr.reverse.map (invertEntry (alen + 2) (blen + 2)) → v ≠ 0 := by
      intro v hv
      obtain ⟨w, hw, rfl⟩ := List.mem_map.1 hv
      have hw' := List.mem_reverse.1 hw
      exact (invertEntry_twice (hnz w hw') (hb w hw')).1
    rw [InvertTraceInPlace_run alen blen _ _ rest rfl hnz1]
    have hback : (tr.reverse.map (invertEntry (alen + 2) (blen + 2))).reverse.map
        (invertEntry (alen + 2) (blen + 2)) = tr := by
      rw [← List.map_reverse, List.reverse_reverse, List.map_map]
      conv_rhs => rw [← List.map_id tr]
      refine List.map_congr_left fun v hv => ?_
      exact (invertEntry_twice (hnz v hv) (hb v hv)).2.2.2
    simp only [hback, neg_neg]
    rw [← htr]

theorem invertTrace_involution_witness :
    ∃ O1, InvertTraceInPlace 10 8
        { begpos := 3, endpos := -2, length := 9, diffs := 1, trace := [-4, 5, 7, 0, 9] } =
        some O1 ∧
      O1.trace = [3, 5, -8, 0, 9] ∧
      InvertTraceInPlace 10 8 O1 =
        some { begpos := 3, endpos := -2, length := 9, diffs := 1, trace := [-4, 5, 7, 0, 9] } := by
  obtain ⟨O1, h1, h2, -, -, -, h6⟩ := invertTrace_involution 10 8
    { begpos := 3, endpos := -2, length := 9, diffs := 1, trace := [-4, 5, 7, 0, 9] }
    [-4, 5, 7] [9] rfl (by decide) (by decide)
  exact ⟨O1, h1, by rw [h2]; decide, h6⟩

theorem strlenFrom_spec (rest : List Char) : ∀ (todo done : List Char) (fuel : Nat),
    (∀ v, v ∈ todo → v ≠ Char.ofNat 0) → todo.length < fuel →
    strlenFrom (done ++ todo ++ Char.ofNat 0 :: rest) fuel (done.length : Int) =
      some ((done ++ todo).length : Int) := by
  intro todo
  induction todo with
  | nil =>
    intro done fuel _ hf
    obtain ⟨n, rfl⟩ : ∃ n, fuel = n + 1 := ⟨fuel - 1, by simp at hf; omega⟩
    unfold strlenFrom
    rw [List.append_nil, getAt_mid]
    simp
  | cons x r ih =>
    intro done fuel hnz hf
    obtain ⟨n, rfl⟩ : ∃ n, fuel = n + 1 := ⟨fuel - 1, by simp at hf; omega⟩
    unfold strlenFrom
    have e : done ++ x :: r ++ Char.ofNat 0 :: rest = done ++ x :: (r ++ Char.ofNat 0 :: rest) := by
      simp
    rw [e, getAt_mid]
    simp only
    rw [if_pos (hnz x (List.mem_cons_self _ _))]
    have := ih (done ++ [x]) n (fun v hv => hnz v (List.mem_cons_of_mem _ hv))
      (by simp at hf; omega)
    have e2 : (done ++ [x]) ++ r ++ Char.ofNat 0 :: rest =
        done ++ x :: (r ++ Char.ofNat 0 :: rest) := by simp
    have e3 : (((done ++ [x]).length : Nat) : Int) = (done.length : Int) + 1 := by simp
    have e4 : ((done ++ [x]) ++ r).length = (done ++ x :: r).length := by simp
    rw [e2, e3, e4] at this
    exact this

theorem mirrorEntries_step (f : Char → Char) (fuel : Nat) (arr : List Char) (s t : Int)
    (c tv : Char) (hst : s < t) (h1 : getAt arr s = some c) (h2 : getAt arr t = some tv) :
    mirrorEntries f (fuel + 1) arr s t =
      mirrorEntries f fuel (setAt (setAt arr s (f tv)) t (f c)) (s + 1) (t - 1) := by
  unfold mirrorEntries
  conv_lhs => unfold mirrorLoop
  rw [if_pos hst, h1, h2]

/-- The index arithmetic of one round of the two-pointer loops on
`pre ++ x :: (m ++ [y]) ++ post`. -/
theorem mirror_round {α : Type} (pre post m : List α) (x y x' y' : α) :
    getAt (pre ++ x :: (m ++ [y]) ++ post) (pre.length : Int) = some x ∧
    getAt (pre ++ x :: (m ++ [y]) ++ post)
      ((pre.length : Int) + ((x :: (m ++ [y])).length : Nat) - 1) = some y ∧
    setAt (setAt (pre ++ x :: (m ++ [y]) ++ post) (pre.length : Int) y')
      ((pre.length : Int) + ((x :: (m ++ [y])).length : Nat) - 1) x' =
      (pre ++ [y']) ++ m ++ (x' :: post) ∧
    (pre.length : Int) + 1 = ((pre ++ [y']).length : Nat) ∧
    (pre.length : Int) + ((x :: (m ++ [y])).length : Nat) - 1 - 1 =
      ((pre ++ [y']).length : Nat) + (m.length : Nat) - 1 ∧
    (pre.length : Int) < (pre.length : Int) + ((x :: (m ++ [y])).length : Nat) - 1 := by
  have e1 : pre ++ x :: (m ++ [y]) ++ post = pre ++ x :: (m ++ [y] ++ post) := by simp
  have e2 : pre ++ x :: (m ++ [y]) ++ post = (pre ++ x :: m) ++ y :: post := by simp
  have hs : (pre.length : Int) + ((x :: (m ++ [y])).length : Nat) - 1 =
      ((pre ++ x :: m).length : Nat) := by
    simp only [List.length_cons, List.length_append, List.length_singleton, List.length_nil]
    push_cast
    omega
  refine ⟨by rw [e1, getAt_mid], by rw [hs, e2, getAt_mid], ?_, by simp, ?_, ?_⟩
  · rw [e1, setAt_mid, hs]
    have e3 : pre ++ y' :: (m ++ [y] ++ post) = (pre ++ y' :: m) ++ y :: post := by simp
    have hl : (pre ++ x :: m).length = (pre ++ y' :: m).length := by simp
    rw [e3, hl, setAt_mid]
    simp
  · simp only [List.length_cons, List.length_append, List.length_singleton, List.length_nil]
    push_cast
    omega
  · simp only [List.length_cons, List.length_append, List.length_singleton, List.length_nil]
    push_cast
    omega

/-- The loop of `SequenceComplement` on the sequence, with the step that
follows it, reverses the characters between the two indices and maps each. -/
theorem mirrorEntries_spec (f : Char → Char) : ∀ (n : Nat) (mid pre post : List Char)
    (fuel : Nat), mid.length ≤ n → mid.length < fuel →
    mirrorEntries f fuel (pre ++ mid ++ post) (pre.length : Int)
        ((pre.length : Int) + mid.length - 1) =
      some (pre ++ mid.reverse.map f ++ post) := by
  intro n
  induction n with
  | zero =>
    intro mid pre post fuel hn hf
    have hm : mid = [] := List.length_eq_zero.1 (by omega)
    subst hm
    obtain ⟨k, rfl⟩ : ∃ k, fuel = k + 1 := ⟨fuel - 1, by simp at hf; omega⟩
    unfold mirrorEntries mirrorLoop
    simp only [List.length_nil, Nat.cast_zero, add_zero, List.append_nil]
    rw [if_neg (by omega)]
    simp only
    rw [if_neg (by omega)]
    simp
  | succ n ih =>
    intro mid pre post fuel hn hf
    obtain ⟨k, rfl⟩ : ∃ k, fuel = k + 1 := ⟨fuel - 1, by omega⟩
    cases mid with
    | nil =>
      unfold mirrorEntries mirrorLoop
      simp only [List.length_nil, Nat.cast_zero, add_zero, List.append_nil]
      rw [if_neg (by omega)]
      simp only
      rw [if_neg (by omega)]
      simp
    | cons x m =>
      rcases List.eq_nil_or_concat m with hm | ⟨m', y, hm⟩
      · subst hm
        unfold mirrorEntries mirrorLoop
        simp only [List.length_singleton, Nat.cast_one, add_sub_cancel_right,
          lt_self_iff_false, if_false, if_true]
        have e : pre ++ [x] ++ post = pre ++ x :: post := by simp
        rw [e, getAt_mid]
        simp only
        rw [setAt_mid]
        simp
      · rw [List.concat_eq_append] at hm
        subst hm
        obtain ⟨g1, g2, g3, g4, g5, g6⟩ := mirror_round pre post m' x y (f x) (f y)
        rw [mirrorEntries_step f k _ _ _ x y g6 g1 g2, g3, g4, g5,
          ih m' (pre ++ [f y]) _ k (by simp at hn; omega) (by simp at hf; omega)]
        simp

/-- The loop of `SequenceComplement` on the quality reverses the characters
between the two indices. -/
theorem mirrorLoop_id_spec : ∀ (n : Nat) (mid pre post : List Char) (fuel : Nat),
    mid.length ≤ n → mid.length < fuel →
    ∃ s1 t1, mirrorLoop id fuel (pre ++ mid ++ post) (pre.length : Int)
        ((pre.length : Int) + mid.length - 1) =
      some (pre ++ mid.reverse ++ post, s1, t1) := by
  intro n
  induction n with
  | zero =>
    intro mid pre post fuel hn hf
    have hm : mid = [] := List.length_eq_zero.1 (by omega)
    subst hm
    obtain ⟨k, rfl⟩ : ∃ k, fuel = k + 1 := ⟨fuel - 1, by simp at hf; omega⟩
    unfold mirrorLoop
    simp only [List.length_nil, Nat.cast_zero, add_zero, List.append_nil]
    rw [if_neg (by omega)]
    exact ⟨(pre.length : Int), (pre.length : Int) - 1, by simp⟩
  | succ n ih =>
    intro mid pre post fuel hn hf
    obtain ⟨k, rfl⟩ : ∃ k, fuel = k + 1 := ⟨fuel - 1, by omega⟩
    cases mid with
    | nil =>
      unfold mirrorLoop
      simp only [List.length_nil, Nat.cast_zero, add_zero, List.append_nil]
      rw [if_neg (by omega)]
      exact ⟨(pre.length : Int), (pre.length : Int) - 1, by simp⟩
    | cons x m =>
      rcases List.eq_nil_or_concat m with hm | ⟨m', y, hm⟩
      · subst hm
        unfold mirrorLoop
        simp
      · rw [List.concat_eq_append] at hm
        subst hm
        obtain ⟨g1, g2, g3, g4, g5, g6⟩ := mirror_round pre post m' x y (id x) (id y)
        unfold mirrorLoop
        rw [if_pos g6, g1, g2]
        simp only
        rw [g3, g4, g5]
        obtain ⟨s1, t1, h⟩ := ih m' (pre ++ [id y]) (id x :: post) k (by simp at hn; omega)
          (by simp at hf; omega)
        refine ⟨s1, t1, ?_⟩
        rw [h]
        simp

/-- One call of `SequenceComplement(sequence, NULL)` on the string `str` of
the sequence array. -/
theorem SequenceComplementInPlace_seq (env : AlignEnv) (pre str post : List Char)
    (hnul : ∀ c, c ∈ str → c ≠ Char.ofNat 0) :
    SequenceComplementInPlace env (pre ++ str ++ Char.ofNat 0 :: post) (pre.length : Int) none =
      some (pre ++ str.reverse.map (BaseComplement env) ++ Char.ofNat 0 :: post, none) := by
  have h1 := strlenFrom_spec post str pre ((pre ++ str ++ Char.ofNat 0 :: post).length + 1) hnul
    (by simp; omega)
  have hidx : (pre.length : Int) + ((((pre ++ str).length : Nat) : Int) - (pre.length : Int) - 1) =
      (pre.length : Int) + (str.length : Nat) - 1 := by
    simp only [List.length_append]
    push_cast
    omega
  have h2 := mirrorEntries_spec (BaseComplement env) str.length str pre (Char.ofNat 0 :: post)
    ((pre ++ str ++ Char.ofNat 0 :: post).length + 1) (le_refl _) (by simp; omega)
  unfold SequenceComplementInPlace
  rw [h1]
  simp only
  rw [hidx, h2]

/-- One call of `SequenceComplement` on the string `str` of the sequence
array and the `str.length` characters `qs` of the quality array. -/
theorem SequenceComplementInPlace_run (env : AlignEnv) (pre str post qpre qs qpost : List Char)
    (hnul : ∀ c, c ∈ str → c ≠ Char.ofNat 0) (hq : qs.length = str.length) :
    SequenceComplementInPlace env (pre ++ str ++ Char.ofNat 0 :: post) (pre.length : Int)
        (some (qpre ++ qs ++ qpost, (qpre.length : Int))) =
      some (pre ++ str.reverse.map (BaseComplement env) ++ Char.ofNat 0 :: post,
        some (qpre ++ qs.reverse ++ qpost)) := by
  have h1 := strlenFrom_spec post str pre ((pre ++ str ++ Char.ofNat 0 :: post).length + 1) hnul
    (by simp; omega)
  have hidx : (pre.length : Int) + ((((pre ++ str).length : Nat) : Int) - (pre.length : Int) - 1) =
      (pre.length : Int) + (str.length : Nat) - 1 := by
    simp only [List.length_append]
    push_cast
    omega
  have h2 := mirrorEntries_spec (BaseComplement env) str.length str pre (Char.ofNat 0 :: post)
    ((pre ++ str ++ Char.ofNat 0 :: post).length + 1) (le_refl _) (by simp; omega)
  obtain ⟨s1, t1, h3⟩ := mirrorLoop_id_spec qs.length qs qpre qpost
    ((qpre ++ qs ++ qpost).length + 1) (le_refl _) (by simp; omega)
  have hidq : (qpre.length : Int) + ((((pre ++ str).length : Nat) : Int) - (pre.length : Int) - 1) =
      (qpre.length : Int) + (qs.length : Nat) - 1 := by
    simp only [List.length_append, hq]
    push_cast
    omega
  unfold SequenceComplementInPlace
  rw [h1]
  simp only
  rw [hidx, h2]
  simp only
  rw [hidq, h3]

theorem takeWhile_string (A r : List Char) (hA : ∀ c, c ∈ A → c ≠ Char.ofNat 0) :
    (A ++ Char.ofNat 0 :: r).takeWhile (fun c => c != Char.ofNat 0) = A := by
  induction A with
  | nil => simp
  | cons x A ih =>
    have hx : (x != Char.ofNat 0) = true := by
      simpa using hA x (List.mem_cons_self _ _)
    rw [List.cons_append, List.takeWhile_cons, hx]
    simp only [if_true]
    rw [ih (fun c hc => hA c (List.mem_cons_of_mem _ hc))]

theorem cString_at (s p A r : List Char) (off : Nat) (hs : s = p ++ A ++ Char.ofNat 0 :: r)
    (hoff : off = p.length) (hA : ∀ c, c ∈ A → c ≠ Char.ofNat 0) : cString s off = A := by
  subst hs hoff
  unfold cString
  rw [List.append_assoc, List.drop_left]
  exact takeWhile_string A r hA

/-- The compact form of `SequenceComplement` on the string `A` that starts
at `off`. -/
theorem SequenceComplement_at (env : AlignEnv) (s p A r : List Char) (off : Nat)
    (hs : s = p ++ A ++ Char.ofNat 0 :: r) (hoff : off = p.length)
    (hA : ∀ c, c ∈ A → c ≠ Char.ofNat 0) :
    SequenceComplement env s off =
      p ++ A.reverse.map (BaseComplement env) ++ Char.ofNat 0 :: r := by
  unfold SequenceComplement
  simp only
  rw [cString_at s p A r off hs hoff hA]
  subst hs hoff
  have e1 : (p ++ A ++ Char.ofNat 0 :: r).take p.length = p := by
    rw [List.append_assoc, List.take_left]
  have e2 : (p ++ A ++ Char.ofNat 0 :: r).drop (p.length + A.length) = Char.ofNat 0 :: r := by
    rw [← List.length_append, List.drop_left]
  rw [e1, e2]

/-- The loops of the source and the compact form agree on a string. -/
theorem SequenceComplementInPlace_eq (env : AlignEnv) (pre str post : List Char)
    (hnul : ∀ c, c ∈ str → c ≠ Char.ofNat 0) :
    SequenceComplementInPlace env (pre ++ str ++ Char.ofNat 0 :: post) (pre.length : Int) none =
      some (SequenceComplement env (pre ++ str ++ Char.ofNat 0 :: post) pre.length, none) := by
  rw [SequenceComplement_at env _ pre str post _ rfl rfl hnul]
  exact SequenceComplementInPlace_seq env pre str post hnul

theorem attempt_mem (cf : CompareCall → Option Overlap) (pr : Pair) (s : Search)
    (p : CNS_AlignParams) : (attempt cf pr s p).mem = s.mem := rfl

theorem attemptSwapped_mem (cf : CompareCall → Option Overlap) (pr : Pair) (s : Search)
    (p : CNS_AlignParams) : (attemptSwapped cf pr s p).mem = s.mem := rfl

theorem attemptIf_mem (cf : CompareCall → Option Overlap) (pr : Pair) (c : Bool) (s : Search)
    (p : CNS_AlignParams) : (if c = true then attempt cf pr s p else s).mem = s.mem := by
  cases c <;> rfl

theorem fromOtherEnd_mem (env : AlignEnv) (cf : CompareCall → Option Overlap) (pr : Pair)
    (t : Int) (s : Search) : (fromOtherEnd env cf pr t s).mem = s.mem := by
  unfold fromOtherEnd
  simp only
  rw [attemptIf_mem, attemptIf_mem, attempt_mem]

theorem otherEndSwap_mem (cf : CompareCall → Option Overlap) (pr : Pair)
    (t : Int) (s : Search) : (otherEndSwap cf pr t s).mem = s.mem := by
  unfold otherEndSwap
  split_ifs
  · simp only
    split
    · rfl
    · rfl
  · rfl

theorem restoreOrientation_mem (env : AlignEnv) (pr : Pair) (s : Search) :
    (restoreOrientation env pr s).mem = complementSeq env (complementSeq env s.mem pr.a) pr.b := by
  unfold restoreOrientation
  simp only
  split <;> rfl

/-- The character arrays after the retry from the other end: complemented
four times where the retry is made. -/
theorem orientationRetry_mem (env : AlignEnv) (cf : CompareCall → Option Overlap) (pr : Pair)
    (s : Search) :
    (orientationRetry env cf pr s).mem =
      if notIntended env s then
        complementSeq env (complementSeq env
          (complementSeq env (complementSeq env s.mem pr.a) pr.b) pr.a) pr.b
      else s.mem := by
  unfold orientationRetry
  cases notIntended env s
  · rfl
  · simp only [if_true]
    rw [restoreOrientation_mem, otherEndSwap_mem, fromOtherEnd_mem]

/-- What the hypotheses on the table give for the reversed complement of a
string. -/
theorem reverseComplement_props (env : AlignEnv) (A : List Char)
    (htab : ∀ c, c ∈ A → BaseComplement env c ≠ Char.ofNat 0)
    (hinv : ∀ c, c ∈ A → BaseComplement env (BaseComplement env c) = c) :
    (∀ c, c ∈ A.reverse.map (BaseComplement env) → c ≠ Char.ofNat 0) ∧
    (A.reverse.map (BaseComplement env)).reverse.map (BaseComplement env) = A ∧
    (A.reverse.map (BaseComplement env)).length = A.length := by
  refine ⟨?_, ?_, by simp⟩
  · intro c hc
    obtain ⟨d, hd, rfl⟩ := List.mem_map.1 hc
    exact htab d (List.mem_reverse.1 hd)
  · rw [← List.map_reverse, List.reverse_reverse, List.map_map]
    conv_rhs => rw [← List.map_id A]
    exact List.map_congr_left fun c hc => hinv c hc

theorem complement_first (env : AlignEnv) (p X q Y r : List Char)
    (hX : ∀ c, c ∈ X → c ≠ Char.ofNat 0) :
    SequenceComplement env ((p ++ X ++ Char.ofNat 0 :: q) ++ Y ++ Char.ofNat 0 :: r) p.length =
      (p ++ X.reverse.map (BaseComplement env) ++ Char.ofNat 0 :: q) ++ Y ++ Char.ofNat 0 :: r := by
  rw [SequenceComplement_at env _ p X (q ++ Y ++ Char.ofNat 0 :: r) _ (by simp) rfl hX]
  simp

theorem complement_second (env : AlignEnv) (p X q Y r : List Char)
    (hY : ∀ c, c ∈ Y → c ≠ Char.ofNat 0) :
    SequenceComplement env ((p ++ X ++ Char.ofNat 0 :: q) ++ Y ++ Char.ofNat 0 :: r)
        (p ++ X ++ Char.ofNat 0 :: q).length =
      (p ++ X ++ Char.ofNat 0 :: q) ++ Y.reverse.map (BaseComplement env) ++ Char.ofNat 0 :: r :=
  SequenceComplement_at env _ (p ++ X ++ Char.ofNat 0 :: q) Y r _ rfl rfl hY

theorem complement_one (env : AlignEnv) (p X r : List Char)
    (hX : ∀ c, c ∈ X → c ≠ Char.ofNat 0) :
    SequenceComplement env (p ++ X ++ Char.ofNat 0 :: r) p.length =
      p ++ X.reverse.map (BaseComplement env) ++ Char.ofNat 0 :: r :=
  SequenceComplement_at env _ p X r _ rfl rfl hX

theorem complement_tmp (env : AlignEnv) (X r : List Char)
    (hX : ∀ c, c ∈ X → c ≠ Char.ofNat 0) :
    SequenceComplement env (X ++ Char.ofNat 0 :: r) 0 =
      X.reverse.map (BaseComplement env) ++ Char.ofNat 0 :: r := by
  rw [SequenceComplement_at env _ [] X r 0 (by simp) rfl hX]
  simp

/-- Two strings stored apart, or one string, are as they were after the four
complements of the retry. -/
theorem complement_four (env : AlignEnv) (m : SeqMem) (a b : Option Nat) (A B : List Char)
    (hl : TwoStrings m a b A B)
    (hA : ∀ c, c ∈ A → c ≠ Char.ofNat 0) (hB : ∀ c, c ∈ B → c ≠ Char.ofNat 0)
    (htA : ∀ c, c ∈ A → BaseComplement env c ≠ Char.ofNat 0)
    (htB : ∀ c, c ∈ B → BaseComplement env c ≠ Char.ofNat 0)
    (hiA : ∀ c, c ∈ A → BaseComplement env (BaseComplement env c) = c)
    (hiB : ∀ c, c ∈ B → BaseComplement env (BaseComplement env c) = c) :
    complementSeq env (complementSeq env
      (complementSeq env (complementSeq env m a) b) a) b = m := by
  obtain ⟨a1, a2, a3⟩ := reverseComplement_props env A htA hiA
  obtain ⟨b1, b2, b3⟩ := reverseComplement_props env B htB hiB
  obtain ⟨store, tmp⟩ := m
  rcases hl with ⟨rfl, rfl, h | h⟩ | h | h | h
  · obtain ⟨rfl, r, hr⟩ := h
    simp only at hr
    subst hr
    simp only [complementSeq]
    rw [complement_tmp env A r hA, complement_tmp env _ r a1, a2,
      complement_tmp env A r hA, complement_tmp env _ r a1, a2]
  · obtain ⟨p, r, rfl, hr⟩ := h
    simp only at hr
    subst hr
    simp only [complementSeq]
    rw [complement_one env p A r hA, complement_one env p _ r a1, a2,
      complement_one env p A r hA, complement_one env p _ r a1, a2]
  · obtain ⟨rfl, ra, p, r, rfl, h1, h2⟩ := h
    simp only at h1 h2
    subst h1 h2
    simp only [complementSeq]
    rw [complement_tmp env A ra hA, complement_one env p B r hB,
      complement_tmp env _ ra a1, a2, complement_one env p _ r b1, b2]
  · obtain ⟨p, q, r, rfl, rfl, h1⟩ := h
    simp only at h1
    subst h1
    have hlen : (p ++ A ++ Char.ofNat 0 :: q).length =
        (p ++ A.reverse.map (BaseComplement env) ++ Char.ofNat 0 :: q).length := by simp
    simp only [complementSeq]
    rw [complement_first env p A q B r hA, hlen, complement_second env p _ q B r hB,
      complement_first env p _ q _ r a1, a2, ← hlen, complement_second env p A q _ r b1, b2]
  · obtain ⟨p, q, r, rfl, rfl, h1⟩ := h
    simp only at h1
    subst h1
    have hlen : (p ++ B ++ Char.ofNat 0 :: q).length =
        (p ++ B.reverse.map (BaseComplement env) ++ Char.ofNat 0 :: q).length := by simp
    simp only [complementSeq]
    rw [complement_second env p B q A r hA, complement_first env p B q _ r hB, hlen,
      complement_second env p _ q _ r a1, a2, complement_first env p _ q A r b1, b2]

theorem readSeq_of_layout (m : SeqMem) (a b : Option Nat) (A B : List Char)
    (hl : TwoStrings m a b A B)
    (hA : ∀ c, c ∈ A → c ≠ Char.ofNat 0) (hB : ∀ c, c ∈ B → c ≠ Char.ofNat 0) :
    readSeq m a = A ∧ readSeq m b = B := by
  rcases hl with ⟨rfl, rfl, h | h⟩ | h | h | h
  · obtain ⟨rfl, r, hr⟩ := h
    have : readSeq m none = A := cString_at _ [] A r 0 (by simp [hr]) rfl hA
    exact ⟨this, this⟩
  · obtain ⟨p, r, rfl, hr⟩ := h
    have : readSeq m (some p.length) = A := cString_at _ p A r _ hr rfl hA
    exact ⟨this, this⟩
  · obtain ⟨rfl, ra, p, r, rfl, h1, h2⟩ := h
    exact ⟨cString_at _ [] A ra 0 (by simp [h1]) rfl hA, cString_at _ p B r _ h2 rfl hB⟩
  · obtain ⟨p, q, r, rfl, rfl, h1⟩ := h
    exact ⟨cString_at _ p A (q ++ B ++ Char.ofNat 0 :: r) _ (by simp [h1]) rfl hA,
      cString_at _ (p ++ A ++ Char.ofNat 0 :: q) B r _ h1 rfl hB⟩
  · obtain ⟨p, q, r, rfl, rfl, h1⟩ := h
    exact ⟨cString_at _ (p ++ B ++ Char.ofNat 0 :: q) A r _ h1 rfl hA,
      cString_at _ p B (q ++ A ++ Char.ofNat 0 :: r) _ (by simp [h1]) rfl hB⟩

/-- C38: `SequenceComplement(sequence, quality)` on a string `str` stored in
the sequence array and the `str.length` quality characters `qs` reverses
`str` in place while replacing every character by its complement, and
reverses `qs`; nothing else of the two arrays changes.  A second call gives
the quality array back as it was and leaves every character of `str`
complemented twice, hence gives the sequence array back where the complement
table is an involution on the characters of `str`.  With `quality == NULL`
the loops of the source compute the compact `SequenceComplement` the model
of `GetAlignmentTrace` uses, and the retry from the other end leaves the
character arrays as they were: the two sequences `A` and `B` it complements
are stored apart (or are one string) and the table is an involution on their
characters.  The table `RALPHABETC` of the absent header is a parameter; it
is taken to hold no string terminator for the characters at hand. -/
theorem sequenceComplement_twice (env : AlignEnv) (pre str post qpre qs qpost : List Char)
    (cf : CompareCall → Option Overlap) (pr : Pair) (s : Search) (A B : List Char)
    (hstr : ∀ c, c ∈ str → c ≠ Char.ofNat 0) (hq : qs.length = str.length)
    (htab : ∀ c, c ∈ str → BaseComplement env c ≠ Char.ofNat 0)
    (hl : TwoStrings s.mem pr.a pr.b A B)
    (hA : ∀ c, c ∈ A → c ≠ Char.ofNat 0) (hB : ∀ c, c ∈ B → c ≠ Char.ofNat 0)
    (htA : ∀ c, c ∈ A → BaseComplement env c ≠ Char.ofNat 0)
    (htB : ∀ c, c ∈ B → BaseComplement env c ≠ Char.ofNat 0)
    (hiA : ∀ c, c ∈ A → BaseComplement env (BaseComplement env c) = c)
    (hiB : ∀ c, c ∈ B → BaseComplement env (BaseComplement env c) = c) :
    SequenceComplementInPlace env (pre ++ str ++ Char.ofNat 0 :: post) (pre.length : Int)
        (some (qpre ++ qs ++ qpost, (qpre.length : Int))) =
      some (pre ++ str.reverse.map (BaseComplement env) ++ Char.ofNat 0 :: post,
        some (qpre ++ qs.reverse ++ qpost)) ∧
    SequenceComplementInPlace env
        (pre ++ str.reverse.map (BaseComplement env) ++ Char.ofNat 0 :: post) (pre.length : Int)
        (some (qpre ++ qs.reverse ++ qpost, (qpre.length : Int))) =
      some (pre ++ str.map (fun c => BaseComplement env (BaseComplement env c)) ++
          Char.ofNat 0 :: post,
        some (qpre ++ qs ++ qpost)) ∧
    ((∀ c, c ∈ str → BaseComplement env (BaseComplement env c) = c) →
      SequenceComplementInPlace env
          (pre ++ str.reverse.map (BaseComplement env) ++ Char.ofNat 0 :: post) (pre.length : Int)
          (some (qpre ++ qs.reverse ++ qpost, (qpre.length : Int))) =
        some (pre ++ str ++ Char.ofNat 0 :: post, some (qpre ++ qs ++ qpost))) ∧
    SequenceComplementInPlace env (pre ++ str ++ Char.ofNat 0 :: post) (pre.length : Int) none =
      some (SequenceComplement env (pre ++ str ++ Char.ofNat 0 :: post) pre.length, none) ∧
    readSeq s.mem pr.a = A ∧ readSeq s.mem pr.b = B ∧
    (orientationRetry env cf pr s).mem = s.mem := by
  have h1 := SequenceComplementInPlace_run env pre str post qpre qs qpost hstr hq
  have hstr1 : ∀ c, c ∈ str.reverse.map (BaseComplement env) → c ≠ Char.ofNat 0 := by
    intro c hc
    obtain ⟨d, hd, rfl⟩ := List.mem_map.1 hc
    exact htab d (List.mem_reverse.1 hd)
  have h2 := SequenceComplementInPlace_run env pre (str.reverse.map (BaseComplement env)) post
    qpre qs.reverse qpost hstr1 (by simp [hq])
  have e : (str.reverse.map (BaseComplement env)).reverse.map (BaseComplement env) =
      str.map (fun c => BaseComplement env (BaseComplement env c)) := by
    rw [← List.map_reverse, List.reverse_reverse, List.map_map]
    rfl
  rw [e, List.reverse_reverse] at h2
  refine ⟨h1, h2, ?_, SequenceComplementInPlace_eq env pre str post hstr,
    (readSeq_of_layout _ _ _ A B hl hA hB).1, (readSeq_of_layout _ _ _ A B hl hA hB).2, ?_⟩
  · intro hinv
    rw [h2]
    have e2 : str.map (fun c => BaseComplement env (BaseComplement env c)) = str := by
      conv_rhs => rw [← List.map_id str]
      exact List.map_congr_left fun c hc => hinv c hc
    rw [e2]
  · rw [orientationRetry_mem]
    split_ifs
    · exact complement_four env s.mem pr.a pr.b A B hl hA hB htA htB hiA hiB
    · rfl

theorem sequenceComplement_twice_witness :
    SequenceComplementInPlace envReads ['x', 'A', 'C', 'G', Char.ofNat 0, 'z'] 1
        (some (['0', '1', '2', '3'], 1)) =
      some (['x', 'C', 'G', 'T', Char.ofNat 0, 'z'], some ['0', '3', '2', '1']) ∧
    SequenceComplementInPlace envReads ['x', 'C', 'G', 'T', Char.ofNat 0, 'z'] 1
        (some (['0', '3', '2', '1'], 1)) =
      some (['x', 'A', 'C', 'G', Char.ofNat 0, 'z'], some ['0', '1', '2', '3']) ∧
    readSeq searchStored.mem pairStored.a = ['A', 'C', 'G', 'T'] ∧
    readSeq searchStored.mem pairStored.b = ['C', 'C', 'N'] ∧
    (orientationRetry envReads alignNever pairStored searchStored).mem = searchStored.mem := by
  obtain ⟨h1, -, h3, -, h5, h6, h7⟩ := sequenceComplement_twice envReads ['x'] ['A', 'C', 'G'] ['z']
    ['0'] ['1', '2', '3'] [] alignNever pairStored searchStored ['A', 'C', 'G', 'T'] ['C', 'C', 'N']
    (by decide) rfl (by decide)
    (Or.inr (Or.inr (Or.inl ⟨[], [], [], rfl, rfl, rfl⟩)))
    (by decide) (by decide) (by decide) (by decide) (by decide) (by decide)
  exact ⟨h1, h3 (by decide), h5, h6, h7⟩

theorem startAfter_count (prev : Bool) (l : List Char) :
    ((List.range l.length).filter (startAfter prev l)).length = gapRunsFrom prev l := by
  induction l generalizing prev with
  | nil => rfl
  | cons c l ih =>
    rw [List.length_cons, List.range_succ_eq_map, List.filter_cons, List.filter_map,
      gapRunsFrom, ← ih (c == '-')]
    have e : (startAfter prev (c :: l) ∘ Nat.succ) = startAfter (c == '-') l := by
      funext k
      cases k with
      | zero =>
        by_cases hc : c = '-'
        · simp [startAfter, hc]
        · simp [startAfter, hc, bne]
      | succ k => simp [startAfter]
    rw [e]
    by_cases hc : c = '-'
    · cases prev <;> simp [startAfter, hc] <;> omega
    · cases prev <;> simp [startAfter, hc]

theorem gapRuns_eq (l : List Char) : gapRuns l = gapRunsFrom false l := by
  rw [← startAfter_count]
  unfold gapRuns
  congr 1
  apply List.filter_congr
  intro k _
  cases k <;> simp [runStartsAt, startAfter]

theorem gapRunsFrom_cons (prev : Bool) (c : Char) (r : List Char) :
    gapRunsFrom prev (c :: r) =
      (if c = '-' ∧ prev = false then 1 else 0) + gapRunsFrom (c == '-') r := rfl

/-- The inner loop of `AffineScoreAbacus` adds the number of runs that start
in the cells it reads. -/
theorem affineCell_fold (a : Abacus) (i : Int) : ∀ (l : List Int) (g : Bool) (score : Int),
    (l.foldlM (affineCell a i) (g, score)).map Prod.snd =
      (l.mapM (GetAbacus a i)).map fun cells => score + (gapRunsFrom g cells : Int) := by
  intro l
  induction l with
  | nil =>
    intro g score
    rw [List.foldlM_nil, List.mapM_nil]
    simp [gapRunsFrom]
  | cons j l ih =>
    intro g score
    rw [List.foldlM_cons, List.mapM_cons]
    cases hb : GetAbacus a i j with
    | none =>
      have e : affineCell a i (g, score) j = none := by
        unfold affineCell
        rw [hb]
        rfl
      rw [e]
      simp
    | some b =>
      have e : affineCell a i (g, score) j =
          some (b == '-', score + (if b = '-' ∧ g = false then 1 else 0)) := by
        unfold affineCell
        rw [hb]
        simp only [Option.bind_eq_bind, Option.some_bind, Option.pure_def]
        by_cases hc : b = '-'
        · cases g <;> simp [hc]
        · simp [hc]
      rw [e]
      simp only [Option.bind_eq_bind, Option.some_bind]
      rw [ih]
      cases l.mapM (GetAbacus a i) with
      | none => simp
      | some cells =>
        simp only [Option.map_some', Option.some_bind, gapRunsFrom_cons, Option.some.injEq,
          Option.bind_eq_bind]
        by_cases hc : b = '-'
        · cases g <;> simp [hc, gapRunsFrom_cons] <;> omega
        · simp [hc, gapRunsFrom_cons]

/-- A loop that adds to a running total what each element gives. -/
theorem foldlM_total {α β : Type} (f : Int → α → Option Int) (g : α → Option β) (w : β → Int)
    (h : ∀ s x, f s x = (g x).map fun r => s + w r) : ∀ (l : List α) (s : Int),
    l.foldlM f s = (l.mapM g).map fun rs => s + (rs.map w).sum := by
  intro l
  induction l with
  | nil =>
    intro s
    rw [List.foldlM_nil, List.mapM_nil]
    simp
  | cons x l ih =>
    intro s
    rw [List.foldlM_cons, List.mapM_cons, h]
    cases g x with
    | none => simp
    | some r =>
      simp only [Option.map_some', Option.bind_eq_bind, Option.some_bind]
      rw [ih]
      cases l.mapM g with
      | none => simp
      | some rs =>
        simp only [Option.map_some', Option.some_bind, Option.pure_def, Option.some.injEq,
          List.map_cons, List.sum_cons]
        omega

/-- `AffineScoreAbacus` is the total of the runs of the rows, and fails
exactly where a cell cannot be read. -/
theorem AffineScoreAbacus_eq (a : Abacus) :
    AffineScoreAbacus a =
      ((intRange 0 a.rows).mapM (windowRow a)).map fun rows =>
        (rows.map fun cells => ((gapRuns cells : Nat) : Int)).sum := by
  unfold AffineScoreAbacus
  rw [foldlM_total _ (windowRow a) (fun cells => ((gapRuns cells : Nat) : Int))]
  · simp
  · intro s i
    have e := affineCell_fold a i (intRange (affineWindow a).1 (affineWindow a).2) false s
    have e2 : (fun r => s + ((gapRuns r : Nat) : Int)) =
        fun cells => s + ((gapRunsFrom false cells : Nat) : Int) := by
      funext r
      rw [gapRuns_eq]
    unfold windowRow
    rw [e2, ← e]
    cases (intRange (affineWindow a).1 (affineWindow a).2).foldlM (affineCell a i)
      (false, s) <;> rfl

theorem gapRunsFrom_head (ys : List Char) (h : ys.head? ≠ some '-') :
    gapRunsFrom true ys = gapRunsFrom false ys := by
  cases ys with
  | nil => rfl
  | cons d r =>
    have hd : d ≠ '-' := fun e => h (by rw [e]; rfl)
    simp [gapRunsFrom_cons, hd]

theorem gapRunsFrom_insert (xs ys : List Char) : ∀ g,
    gapRunsFrom g (xs ++ '-' :: '-' :: ys) = gapRunsFrom g (xs ++ '-' :: ys) := by
  induction xs with
  | nil =>
    intro g
    simp [gapRunsFrom_cons]
  | cons x xs ih =>
    intro g
    rw [List.cons_append, List.cons_append, gapRunsFrom_cons, gapRunsFrom_cons, ih]

theorem gapRunsFrom_right (xs ys : List Char) (c : Char) (h : ys.head? ≠ some '-') : ∀ g,
    gapRunsFrom g (xs ++ '-' :: '-' :: ys) = gapRunsFrom g (xs ++ '-' :: c :: ys) := by
  induction xs with
  | nil =>
    intro g
    by_cases hc : c = '-'
    · rw [hc]
    · have hcb : (c == '-') = false := by simp [hc]
      simp [gapRunsFrom_cons, hc, hcb, gapRunsFrom_head ys h]
  | cons x xs ih =>
    intro g
    rw [List.cons_append, List.cons_append, gapRunsFrom_cons, gapRunsFrom_cons, ih]

theorem gapRunsFrom_left (ys : List Char) (c : Char) : ∀ (xs : List Char) (g : Bool),
    (xs = [] → g = false) → xs.getLast? ≠ some '-' →
    gapRunsFrom g (xs ++ '-' :: '-' :: ys) = gapRunsFrom g (xs ++ c :: '-' :: ys) := by
  intro xs
  induction xs with
  | nil =>
    intro g hg _
    rw [hg rfl]
    by_cases hc : c = '-'
    · rw [hc]
    · simp [gapRunsFrom_cons, hc]
  | cons x xs ih =>
    intro g _ hl
    rw [List.cons_append, List.cons_append, gapRunsFrom_cons, gapRunsFrom_cons]
    congr 1
    apply ih
    · intro e
      subst e
      have hx : x ≠ '-' := fun e => hl (by rw [e]; rfl)
      simp [hx]
    · intro e
      apply hl
      cases xs with
      | nil => simp at e
      | cons y r =>
        rw [List.getLast?_cons_cons]
        exact e

theorem gapRunsFrom_none (l : List Char) (h : '-' ∉ l) : ∀ g, gapRunsFrom g l = 0 := by
  induction l with
  | nil => intro g; rfl
  | cons x l ih =>
    intro g
    have hx : x ≠ '-' := fun e => h (by rw [e]; exact List.mem_cons_self _ _)
    rw [gapRunsFrom_cons, ih (fun hm => h (List.mem_cons_of_mem _ hm))]
    simp [hx]

theorem mapM_total {α β : Type} (g : α → Option β) : ∀ (l : List α),
    (∀ x, x ∈ l → ∃ y, g x = some y) → ∃ ys, l.mapM g = some ys ∧ ys.length = l.length := by
  intro l
  induction l with
  | nil =>
    intro _
    exact ⟨[], by rw [List.mapM_nil]; rfl, rfl⟩
  | cons x l ih =>
    intro h
    obtain ⟨y, hy⟩ := h x (List.mem_cons_self _ _)
    obtain ⟨ys, hys, hl⟩ := ih fun z hz => h z (List.mem_cons_of_mem _ hz)
    refine ⟨y :: ys, ?_, by simp [hl]⟩
    rw [List.mapM_cons, hy, hys]
    rfl

/-- The cells of a row between the borders can be read. -/
theorem GetAbacus_total (a : Abacus) (hb : (a.beads.length : Int) = a.rows * (a.columns + 2))
    (hc : 0 ≤ a.columns) {i j : Int} (hi0 : 0 ≤ i) (hi1 : i < a.rows) (hj0 : -1 ≤ j)
    (hj1 : j ≤ a.columns) : ∃ c, GetAbacus a i j = some c := by
  unfold GetAbacus Abacus.offset
  apply getAt_of_lt
  · have : 0 ≤ i * (a.columns + 2) := mul_nonneg hi0 (by omega)
    omega
  · rw [hb]
    have : (i + 1) * (a.columns + 2) ≤ a.rows * (a.columns + 2) :=
      mul_le_mul_of_nonneg_right (by omega) (by omega)
    have e : (i + 1) * (a.columns + 2) = i * (a.columns + 2) + (a.columns + 2) := by ring
    omega

theorem affineWindow_bounds (a : Abacus) (hc : 0 ≤ a.columns) :
    0 ≤ (affineWindow a).1 ∧ (affineWindow a).2 ≤ a.columns := by
  unfold affineWindow
  cases a.shift <;> simp only <;> constructor <;> omega

/-- C32: for an abacus of `rows` rows of `columns + 2` cells,
`AffineScoreAbacus` returns, and what it returns is the total over all rows
of the number of maximal runs of `-` among the cells of the row in the third
the shift tag selects: the columns `[0, columns/3)` for `LEFT_SHIFT`,
`[2*columns/3, columns)` for `RIGHT_SHIFT`, `[columns/3, 2*columns/3)`
otherwise.  The number of runs of a row does not change when a run is made
longer, by one more `-` put into it or by a `-` written over the character
next to its right or left end where no other run follows there; a row
without `-` counts 0. -/
theorem affineScore_counts_runs (a : Abacus) (hr : 0 ≤ a.rows) (hc : 0 ≤ a.columns)
    (hb : (a.beads.length : Int) = a.rows * (a.columns + 2)) :
    (a.shift = ShiftStatus.LEFT_SHIFT → affineWindow a = (0, a.columns / 3)) ∧
    (a.shift = ShiftStatus.RIGHT_SHIFT → affineWindow a = (2 * a.columns / 3, a.columns)) ∧
    (a.shift ≠ ShiftStatus.LEFT_SHIFT → a.shift ≠ ShiftStatus.RIGHT_SHIFT →
      affineWindow a = (a.columns / 3, 2 * a.columns / 3)) ∧
    (∃ rows, (intRange 0 a.rows).mapM (windowRow a) = some rows ∧
      rows.length = a.rows.toNat ∧
      AffineScoreAbacus a = some (rows.map fun cells => ((gapRuns cells : Nat) : Int)).sum) ∧
    (∀ xs ys, gapRuns (xs ++ '-' :: '-' :: ys) = gapRuns (xs ++ '-' :: ys)) ∧
    (∀ xs c ys, ys.head? ≠ some '-' →
      gapRuns (xs ++ '-' :: '-' :: ys) = gapRuns (xs ++ '-' :: c :: ys)) ∧
    (∀ xs c ys, xs.getLast? ≠ some '-' →
      gapRuns (xs ++ '-' :: '-' :: ys) = gapRuns (xs ++ c :: '-' :: ys)) ∧
    (∀ l, '-' ∉ l → gapRuns l = 0) := by
  refine ⟨fun h => by unfold affineWindow; rw [h], fun h => by unfold affineWindow; rw [h],
    fun h1 h2 => ?_, ?_, fun xs ys => ?_, fun xs c ys h => ?_, fun xs c ys h => ?_, fun l h => ?_⟩
  · unfold affineWindow
    cases hs : a.shift <;> first | rfl | exact absurd hs h1 | exact absurd hs h2
  · obtain ⟨w0, w1⟩ := affineWindow_bounds a hc
    obtain ⟨rows, h1, h2⟩ := mapM_total (windowRow a) (intRange 0 a.rows) (fun i hi => by
      obtain ⟨i0, i1⟩ := mem_intRange.1 hi
      obtain ⟨cells, hcells, -⟩ := mapM_total (GetAbacus a i)
        (intRange (affineWindow a).1 (affineWindow a).2) (fun j hj => by
          obtain ⟨j0, j1⟩ := mem_intRange.1 hj
          exact GetAbacus_total a hb hc i0 i1 (by omega) (by omega))
      exact ⟨cells, hcells⟩)
    refine ⟨rows, h1, ?_, ?_⟩
    · rw [h2]
      unfold intRange
      simp
    · rw [AffineScoreAbacus_eq, h1]
      rfl
  · rw [gapRuns_eq, gapRuns_eq, gapRunsFrom_insert]
  · rw [gapRuns_eq, gapRuns_eq, gapRunsFrom_right xs ys c h]
  · rw [gapRuns_eq, gapRuns_eq, gapRunsFrom_left ys c xs false (fun _ => rfl) h]
  · rw [gapRuns_eq, gapRunsFrom_none l h]

theorem affineScore_counts_runs_witness :
    (intRange 0 abacusRuns.rows).mapM (windowRow abacusRuns) =
      some [['A', '-', 'G'], ['-', '-', 'C']] ∧
    AffineScoreAbacus abacusRuns = some 2 ∧
    gapRuns ['-', '-', 'C'] = gapRuns ['-', 'A', 'C'] := by
  obtain ⟨-, -, -, ⟨rows, h1, -, h3⟩, -, h5, -, -⟩ :=
    affineScore_counts_runs abacusRuns (by decide) (by decide) (by decide)
  have e : (intRange 0 abacusRuns.rows).mapM (windowRow abacusRuns) =
      some [['A', '-', 'G'], ['-', '-', 'C']] := by decide
  rw [e] at h1
  cases h1
  exact ⟨e, by rw [h3]; decide, h5 [] 'A' ['C'] (by decide)⟩

theorem intRange_nodup (lo hi : Int) : (intRange lo hi).Nodup := by
  unfold intRange
  exact (List.nodup_range _).map fun a b h => by
    have h2 : lo + (a : Int) = lo + (b : Int) := h
    omega

theorem upperPairs_nodup (nr : Int) : (upperPairs nr).Nodup := by
  unfold upperPairs
  rw [List.nodup_bind]
  constructor
  · intro i _
    exact (intRange_nodup i nr).map fun a b h => by
      simp only [Prod.mk.injEq] at h
      exact h.2
  · refine (intRange_nodup 0 nr).imp ?_
    intro a b hab x hx hy
    obtain ⟨j, -, rfl⟩ := List.mem_map.1 hx
    obtain ⟨k, -, e⟩ := List.mem_map.1 hy
    simp only [Prod.mk.injEq] at e
    exact hab e.1.symm

/-- What the update of the matrix for two different indices writes. -/
theorem updateEntries_spec {c : ColumnReads} {same : Bool} {d d' : List (List Int)}
    {k m : Int} (hkm : k ≠ m) (h : updateEntries c same d k m = some d') :
    ∃ v w, distAt d k m = some v ∧ distAt d m k = some w ∧
      (∀ a b, ¬ (a = k ∧ b = m) → ¬ (a = m ∧ b = k) → distAt d' a b = distAt d a b) ∧
      (same = true → distAt d' k m = some (max v 0) ∧ distAt d' m k = some (max w 0)) ∧
      (same = false → ∃ qk qm, getAt c.qvs k = some qk ∧ getAt c.qvs m = some qm ∧
        distAt d' k m = some (max v 0 + (qk + qm)) ∧
        distAt d' m k = some (max w 0 + (qk + qm))) := by
  unfold updateEntries at h
  cases h1 : zeroFix d k m with
  | none => simp [h1] at h
  | some d1 =>
    simp only [h1] at h
    cases h2 : zeroFix d1 m k with
    | none => simp [h2] at h
    | some d2 =>
      simp only [h2] at h
      obtain ⟨v, hv, e1⟩ := zeroFix_spec h1
      obtain ⟨w, hw, e2⟩ := zeroFix_spec h2
      have hmk : ¬ (m = k ∧ k = m) := fun x => hkm x.2
      have hkm2 : ¬ (k = m ∧ m = k) := fun x => hkm x.1
      rw [e1, if_neg hmk] at hw
      have m1 : ∀ x : Int, (if x < 0 then 0 else x) = max x 0 := fun x => by
        split_ifs with hx
        · exact (max_eq_right (le_of_lt hx)).symm
        · exact (max_eq_left (not_lt.1 hx)).symm
      have f2 : distAt d2 k m = some (max v 0) := by
        rw [e2, if_neg hkm2, e1, if_pos ⟨rfl, rfl⟩, m1]
      have g2 : distAt d2 m k = some (max w 0) := by
        rw [e2, if_pos ⟨rfl, rfl⟩, m1]
      have r2 : ∀ a b, ¬ (a = k ∧ b = m) → ¬ (a = m ∧ b = k) → distAt d2 a b = distAt d a b := by
        intro a b hab hba
        rw [e2, if_neg hba, e1, if_neg hab]
      refine ⟨v, w, hv, hw, ?_, ?_, ?_⟩
      · cases same with
        | true =>
          simp only [if_true, Option.some.injEq] at h
          subst h
          exact r2
        | false =>
          simp only [Bool.false_eq_true, if_false] at h
          cases hqk : getAt c.qvs k with
          | none => simp [hqk] at h
          | some qk =>
            cases hqm : getAt c.qvs m with
            | none => simp [hqk, hqm] at h
            | some qm =>
              simp only [hqk, hqm] at h
              cases h3 : bumpDist d2 m k (qk + qm) with
              | none => simp [h3] at h
              | some d3 =>
                simp only [h3] at h
                obtain ⟨x, -, e3⟩ := bumpDist_spec h3
                obtain ⟨y, -, e4⟩ := bumpDist_spec h
                intro a b hab hba
                rw [e4, if_neg hab, e3, if_neg hba, r2 a b hab hba]
      · intro hs
        subst hs
        simp only [if_true, Option.some.injEq] at h
        subst h
        exact ⟨f2, g2⟩
      · intro hs
        subst hs
        simp only [Bool.false_eq_true, if_false] at h
        cases hqk : getAt c.qvs k with
        | none => simp [hqk] at h
        | some qk =>
          cases hqm : getAt c.qvs m with
          | none => simp [hqk, hqm] at h
          | some qm =>
            simp only [hqk, hqm] at h
            cases h3 : bumpDist d2 m k (qk + qm) with
            | none => simp [h3] at h
            | some d3 =>
              simp only [h3] at h
              obtain ⟨x, hx, e3⟩ := bumpDist_spec h3
              obtain ⟨y, hy, e4⟩ := bumpDist_spec h
              rw [g2] at hx
              cases hx
              rw [e3, if_neg hkm2, f2] at hy
              cases hy
              refine ⟨qk, qm, rfl, rfl, ?_, ?_⟩
              · rw [e4, if_pos ⟨rfl, rfl⟩]
              · rw [e4, if_neg hmk, e3, if_pos ⟨rfl, rfl⟩]

/-- One round of the update touches the two entries of its pair only, where
the index found for the iid of a read is the index of the read. -/
theorem updatePair_frame {apIids : List Int} {nr : Int} {c : ColumnReads}
    {d d' : List (List Int)} {p : Int × Int}
    (hA : ∀ x b v, getAt c.bases x = some b → b ≠ 'X' → getAt c.iids x = some v →
      IidToIndex v apIids nr = some x)
    (h : updatePair apIids nr c d p = some d') :
    ∀ a b, ¬ (a = p.1 ∧ b = p.2) → ¬ (a = p.2 ∧ b = p.1) → distAt d' a b = distAt d a b := by
  intro a b hab hba
  unfold updatePair at h
  split_ifs at h with hp
  · cases h
    rfl
  · cases hbi : getAt c.bases p.1 with
    | none => simp [hbi] at h
    | some bi =>
      cases hbj : getAt c.bases p.2 with
      | none => simp [hbi, hbj] at h
      | some bj =>
        cases hii : getAt c.iids p.1 with
        | none => simp [hbi, hbj, hii] at h
        | some ii =>
          cases hij : getAt c.iids p.2 with
          | none => simp [hbi, hbj, hii, hij] at h
          | some ij =>
            simp only [hbi, hbj, hii, hij] at h
            split_ifs at h with hX hneg
            · cases h
              rfl
            · cases h
              rfl
            · have hX1 : bi ≠ 'X' := fun e => hX (Or.inl e)
              have hX2 : bj ≠ 'X' := fun e => hX (Or.inr e)
              rw [hA p.1 bi ii hbi hX1 hii, hA p.2 bj ij hbj hX2 hij] at h
              simp only at h
              obtain ⟨v, w, -, -, r, -, -⟩ := updateEntries_spec hp h
              exact r a b hab hba

/-- The round for a pair of reads with different bases adds the two
qualities of `qvs` to the two entries. -/
theorem updatePair_hit {apIids : List Int} {nr : Int} {c : ColumnReads}
    {d d' : List (List Int)} {i j : Int} {bi bj : Char} {ii ij qi qj v w : Int}
    (hA : ∀ x b v, getAt c.bases x = some b → b ≠ 'X' → getAt c.iids x = some v →
      IidToIndex v apIids nr = some x)
    (hij : i ≠ j) (hbi : getAt c.bases i = some bi) (hbj : getAt c.bases j = some bj)
    (hXi : bi ≠ 'X') (hXj : bj ≠ 'X') (hne : bi ≠ bj)
    (hii : getAt c.iids i = some ii) (hjj : getAt c.iids j = some ij)
    (h0i : 0 ≤ ii) (h0j : 0 ≤ ij)
    (hqi : getAt c.qvs i = some qi) (hqj : getAt c.qvs j = some qj)
    (hv : distAt d i j = some v) (hw : distAt d j i = some w)
    (h : updatePair apIids nr c d (i, j) = some d') :
    distAt d' i j = some (max v 0 + (qi + qj)) ∧ distAt d' j i = some (max w 0 + (qi + qj)) := by
  unfold updatePair at h
  simp only [if_neg hij, hbi, hbj, hii, hjj] at h
  rw [if_neg (by simp [hXi, hXj]), if_neg (by omega)] at h
  rw [hA i bi ii hbi hXi hii, hA j bj ij hbj hXj hjj] at h
  simp only at h
  obtain ⟨v', w', hv', hw', -, -, r⟩ := updateEntries_spec hij h
  obtain ⟨qk, qm, e1, e2, e3, e4⟩ := r (by simp [hne])
  rw [hv] at hv'
  rw [hw] at hw'
  rw [hqi] at e1
  rw [hqj] at e2
  cases hv'
  cases hw'
  cases e1
  cases e2
  exact ⟨e3, e4⟩

theorem getAt_isSome_length {α β : Type} {l : List α} {m : List β} {i : Int}
    (hl : m.length = l.length) (h : (getAt l i).isSome) : (getAt m i).isSome := by
  rw [getAt_isSome_iff] at h ⊢
  rw [hl]
  exact h

/-- One round of the first loop keeps the lengths of the arrays and what the
arrays hold for the reads noted. -/
theorem collectBead_collected {isRead : Char → Bool} {st : Store} {ap : AlPair}
    {bids : List Int} {acc acc' : ColumnReads} {bid : Int} (hb : bid ∈ bids)
    (hl : acc.qvs.length = acc.bases.length ∧ acc.iids.length = acc.bases.length ∧
      acc.bases.length = ap.nr.toNat)
    (hc : Collected isRead st ap bids acc)
    (h : collectBead isRead ap.iids ap.nr st acc bid = some acc') :
    (acc'.qvs.length = acc'.bases.length ∧ acc'.iids.length = acc'.bases.length ∧
      acc'.bases.length = ap.nr.toNat) ∧ Collected isRead st ap bids acc' := by
  unfold collectBead at h
  cases h1 : GetBead st bid with
  | none => simp [h1] at h
  | some bead =>
    simp only [h1] at h
    cases h2 : GetFragment st bead.frag_index with
    | none => simp [h2] at h
    | some frag =>
      simp only [h2] at h
      split_ifs at h with hr
      · cases h3 : GetBase st bead.soffset with
        | none => simp [h3] at h
        | some base =>
          cases h4 : getAt st.qualityStore bead.soffset with
          | none => simp [h3, h4] at h
          | some q =>
            cases h5 : IidToIndex frag.iid ap.iids ap.nr with
            | none => simp [h3, h4, h5] at h
            | some i =>
              simp only [h3, h4, h5] at h
              split_ifs at h with hi
              · cases h
                exact ⟨hl, hc⟩
              · unfold noteRead at h
                split at h
                · rename_i s add hs hadd
                  simp only [Option.some.injEq] at h
                  subst h
                  refine ⟨⟨by simp only [length_setAt]; exact hl.1,
                    by simp only [length_setAt]; exact hl.2.1,
                    by simp only [length_setAt]; exact hl.2.2⟩, ?_⟩
                  intro x b hx hbX
                  simp only at hx ⊢
                  rw [getAt_setAt] at hx
                  by_cases hxi : x = i ∧ (getAt acc.bases i).isSome
                  · rw [if_pos hxi] at hx
                    cases hx
                    obtain ⟨rfl, hsome⟩ := hxi
                    refine ⟨bid, bead, frag, q, hb, h1, h2, hr, h5, h3, h4, ?_, ?_⟩
                    · rw [getAt_setAt, if_pos ⟨rfl, getAt_isSome_length hl.1 hsome⟩]
                    · rw [getAt_setAt, if_pos ⟨rfl, getAt_isSome_length hl.2.1 hsome⟩]
                  · rw [if_neg hxi] at hx
                    have hne : x ≠ i := fun e => hxi ⟨e, by rw [← e, hx]; rfl⟩
                    obtain ⟨bid', bead', frag', q', m1, m2, m3, m4, m5, m6, m7, m8, m9⟩ :=
                      hc x b hx hbX
                    refine ⟨bid', bead', frag', q', m1, m2, m3, m4, m5, m6, m7, ?_, ?_⟩
                    · rw [getAt_setAt_ne hne]
                      exact m8
                    · rw [getAt_setAt_ne hne]
                      exact m9
                · cases h
      · cases h
        exact ⟨hl, hc⟩

theorem foldlM_append_some {α β : Type} (f : β → α → Option β) (l1 l2 : List α) (b r : β)
    (h : (l1 ++ l2).foldlM f b = some r) :
    ∃ m, l1.foldlM f b = some m ∧ l2.foldlM f m = some r := by
  rw [List.foldlM_append] at h
  cases h1 : l1.foldlM f b with
  | none => simp [h1] at h
  | some m =>
    rw [h1] at h
    exact ⟨m, rfl, h⟩

/-- The second loop of `PopulateDistMatrix` adds the two qualities of `qvs`
to the two entries of a pair of reads with different bases, once. -/
theorem updatePairs_hit {apIids : List Int} {nr : Int} {c : ColumnReads}
    {d d' : List (List Int)} {i j : Int} {bi bj : Char} {ii ij qi qj v w : Int}
    (hA : ∀ x b v, getAt c.bases x = some b → b ≠ 'X' → getAt c.iids x = some v →
      IidToIndex v apIids nr = some x)
    (h0 : 0 ≤ i) (hij : i < j) (hj : j < nr)
    (hbi : getAt c.bases i = some bi) (hbj : getAt c.bases j = some bj)
    (hXi : bi ≠ 'X') (hXj : bj ≠ 'X') (hne : bi ≠ bj)
    (hii : getAt c.iids i = some ii) (hjj : getAt c.iids j = some ij)
    (h0i : 0 ≤ ii) (h0j : 0 ≤ ij)
    (hqi : getAt c.qvs i = some qi) (hqj : getAt c.qvs j = some qj)
    (hv : distAt d i j = some v) (hw : distAt d j i = some w)
    (h : (upperPairs nr).foldlM (updatePair apIids nr c) d = some d') :
    distAt d' i j = some (max v 0 + (qi + qj)) ∧ distAt d' j i = some (max w 0 + (qi + qj)) := by
  have hmem : (i, j) ∈ upperPairs nr := mem_upperPairs.2 ⟨h0, le_of_lt hij, hj⟩
  obtain ⟨l1, l2, hl⟩ := List.append_of_mem hmem
  have hnd := upperPairs_nodup nr
  rw [hl] at hnd h
  have hn1 : (i, j) ∉ l1 := fun hm =>
    (List.nodup_append.1 hnd).2.2 hm (List.mem_cons_self _ _)
  have hn2 : (i, j) ∉ l2 := (List.nodup_cons.1 (List.nodup_append.1 hnd).2.1).1
  have hin : ∀ p, p ∈ l1 ∨ p ∈ l2 → p.1 ≤ p.2 := fun p hp => by
    have : p ∈ upperPairs nr := by
      rw [hl]
      rcases hp with hp | hp
      · exact List.mem_append_left _ hp
      · exact List.mem_append_right _ (List.mem_cons_of_mem _ hp)
    exact (mem_upperPairs.1 this).2.1
  have frame : ∀ (l : List (Int × Int)), (i, j) ∉ l → (∀ p, p ∈ l → p.1 ≤ p.2) →
      ∀ a r, l.foldlM (updatePair apIids nr c) a = some r →
      distAt r i j = distAt a i j ∧ distAt r j i = distAt a j i := by
    intro l hnl hle a r hr
    refine foldlM_inv (fun b => distAt b i j = distAt a i j ∧ distAt b j i = distAt a j i)
      _ l (fun b p b' hp hb hstep => ?_) a r ⟨rfl, rfl⟩ hr
    have hpne : p ≠ (i, j) := fun e => hnl (e ▸ hp)
    have hple := hle p hp
    have f := updatePair_frame hA hstep
    have n1 : ¬ (i = p.1 ∧ j = p.2) := fun e => hpne (Prod.ext e.1.symm e.2.symm)
    have n2 : ¬ (i = p.2 ∧ j = p.1) := fun e => by omega
    have n3 : ¬ (j = p.1 ∧ i = p.2) := fun e => by omega
    have n4 : ¬ (j = p.2 ∧ i = p.1) := fun e => hpne (Prod.ext e.2.symm e.1.symm)
    exact ⟨(f i j n1 n2).trans hb.1, (f j i n3 n4).trans hb.2⟩
  obtain ⟨m1, hm1, hrest⟩ := foldlM_append_some _ l1 ((i, j) :: l2) d d' h
  rw [List.foldlM_cons] at hrest
  cases hstep : updatePair apIids nr c m1 (i, j) with
  | none => simp [hstep] at hrest
  | some m2 =>
    rw [hstep] at hrest
    have hm2 : l2.foldlM (updatePair apIids nr c) m2 = some d' := hrest
    obtain ⟨f1, f2⟩ := frame l1 hn1 (fun p hp => hin p (Or.inl hp)) d m1 hm1
    obtain ⟨g1, g2⟩ := frame l2 hn2 (fun p hp => hin p (Or.inr hp)) m2 d' hm2
    obtain ⟨e1, e2⟩ := updatePair_hit hA (ne_of_lt hij) hbi hbj hXi hXj hne hii hjj h0i h0j hqi hqj
      (f1.trans hv) (f2.trans hw) hstep
    exact ⟨g1.trans e1, g2.trans e2⟩

theorem gapQv_spec (st : Store) (bead : Bead) :
    (∀ p n pb nb pq nq, GetBead st bead.prev = some p → GetBead st bead.next = some n →
      GetBase st p.soffset = some pb → GetBase st n.soffset = some nb →
      getAt st.qualityStore p.soffset = some pq → getAt st.qualityStore n.soffset = some nq →
      gapQv st bead = some (if pb = '-' ∨ nb = '-' then QV_FOR_MULTI_GAP
        else min ((pq.toNat : Int) - 48) ((nq.toNat : Int) - 48))) ∧
    (GetBead st bead.prev = none ∨ GetBead st bead.next = none → gapQv st bead = some 0) := by
  constructor
  · intro p n pb nb pq nq h1 h2 h3 h4 h5 h6
    unfold gapQv
    simp only [h1, h2, h3, h4, h5, h6]
    split_ifs <;> rfl
  · intro h
    unfold gapQv
    rcases h with h | h
    · rw [h]
    · rw [h]
      cases GetBead st bead.prev <;> rfl

theorem collectBead_gap {isRead : Char → Bool} {st : Store} {apIids : List Int} {nr : Int}
    {acc : ColumnReads} {bid : Int} {bead : Bead} {frag : Fragment} {q : Char} {i s g : Int}
    (h1 : GetBead st bid = some bead) (h2 : GetFragment st bead.frag_index = some frag)
    (h3 : isRead frag.type = true) (h4 : GetBase st bead.soffset = some '-')
    (h5 : getAt st.qualityStore bead.soffset = some q)
    (h6 : IidToIndex frag.iid apIids nr = some i) (h7 : 0 ≤ i) (h8 : i < nr)
    (h9 : getAt acc.sum_qvs i = some s) (h10 : gapQv st bead = some g) :
    collectBead isRead apIids nr st acc bid =
      some { bases := setAt acc.bases i '-', iids := setAt acc.iids i frag.iid,
             qvs := setAt acc.qvs i ((q.toNat : Int) - 48),
             sum_qvs := setAt acc.sum_qvs i (s + g) } := by
  unfold collectBead
  simp only [h1, h2, h3, h4, h5, h6, if_true]
  rw [if_neg (by omega)]
  unfold noteRead
  simp only [h9, h10, ne_eq, not_true_eq_false, if_false]

/-- C31 (amended): where `PopulateDistMatrix` returns for a column, the
arrays `bases`, `qvs` and `iids` of its first loop hold, for every read noted,
the character and the quality value of a bead of that read in the column
(`Collected`).  For two reads `i < j` noted with different characters, a gap
against a base among them, the amount added to their distance, after a
negative entry is raised to 0, is `qvs[i] + qvs[j]`: the sum of the quality
values stored for the two beads themselves, on both sides of the diagonal.
The neighbours of a gap bead decide what the gap adds to `sum_qvs` of its
read: nothing where a neighbour in the fragment is missing, the constant
`QV_FOR_MULTI_GAP` (14) where a neighbour is a gap, else the lesser of the
quality values of the two neighbours. -/
theorem populateDistMatrix_own_quality (isRead : Char → Bool) (st : Store) (ap ap' : AlPair)
    (cid : Int) (h : PopulateDistMatrix isRead st ap cid = some ap') :
    ∃ bids c, columnBeads st cid = some bids ∧
      bids.foldlM (collectBead isRead ap.iids ap.nr st) (emptyReads ap) = some c ∧
      ap'.sum_qvs = c.sum_qvs ∧ Collected isRead st ap bids c ∧
      (∀ i j bi bj ii ij qi qj v w, i < j →
        getAt c.bases i = some bi → getAt c.bases j = some bj →
        bi ≠ 'X' → bj ≠ 'X' → bi ≠ bj →
        getAt c.iids i = some ii → getAt c.iids j = some ij → 0 ≤ ii → 0 ≤ ij →
        getAt c.qvs i = some qi → getAt c.qvs j = some qj →
        distAt ap.dist_matrix i j = some v → distAt ap.dist_matrix j i = some w →
        distAt ap'.dist_matrix i j = some (max v 0 + (qi + qj)) ∧
        distAt ap'.dist_matrix j i = some (max w 0 + (qi + qj))) ∧
      (∀ acc bid bead frag q i s g, GetBead st bid = some bead →
        GetFragment st bead.frag_index = some frag → isRead frag.type = true →
        GetBase st bead.soffset = some '-' → getAt st.qualityStore bead.soffset = some q →
        IidToIndex frag.iid ap.iids ap.nr = some i → 0 ≤ i → i < ap.nr →
        getAt acc.sum_qvs i = some s → gapQv st bead = some g →
        collectBead isRead ap.iids ap.nr st acc bid =
          some { bases := setAt acc.bases i '-', iids := setAt acc.iids i frag.iid,
                 qvs := setAt acc.qvs i ((q.toNat : Int) - 48),
                 sum_qvs := setAt acc.sum_qvs i (s + g) }) ∧
      (∀ bead p n pb nb pq nq, GetBead st bead.prev = some p → GetBead st bead.next = some n →
        GetBase st p.soffset = some pb → GetBase st n.soffset = some nb →
        getAt st.qualityStore p.soffset = some pq → getAt st.qualityStore n.soffset = some nq →
        gapQv st bead = some (if pb = '-' ∨ nb = '-' then 14
          else min ((pq.toNat : Int) - 48) ((nq.toNat : Int) - 48))) ∧
      (∀ bead, GetBead st bead.prev = none ∨ GetBead st bead.next = none →
        gapQv st bead = some 0) := by
  unfold PopulateDistMatrix at h
  cases hb : columnBeads st cid with
  | none => simp [hb] at h
  | some bids =>
    simp only [hb] at h
    cases hc : bids.foldlM (collectBead isRead ap.iids ap.nr st) (emptyReads ap) with
    | none =>
      unfold emptyReads at hc
      simp [hc] at h
    | some c =>
      have hc' := hc
      unfold emptyReads at hc'
      simp only [hc'] at h
      cases hd : (upperPairs ap.nr).foldlM (updatePair ap.iids ap.nr c) ap.dist_matrix with
      | none => simp [hd] at h
      | some d =>
        simp only [hd, Option.some.injEq] at h
        subst h
        have hinv := foldlM_inv
          (fun (a : ColumnReads) => (a.qvs.length = a.bases.length ∧
            a.iids.length = a.bases.length ∧ a.bases.length = ap.nr.toNat) ∧
            Collected isRead st ap bids a) _ bids
          (fun b x b' hx hP hstep => collectBead_collected hx hP.1 hP.2 hstep)
          (emptyReads ap) c
          ⟨⟨by simp [emptyReads], by simp [emptyReads], by simp [emptyReads]⟩, fun i b hi hX => by
            unfold emptyReads at hi
            simp only at hi
            rw [getAt_replicate] at hi
            split_ifs at hi
            cases hi
            exact absurd rfl hX⟩ hc
        obtain ⟨hlen, hcol⟩ := hinv
        have hA : ∀ x b v, getAt c.bases x = some b → b ≠ 'X' → getAt c.iids x = some v →
            IidToIndex v ap.iids ap.nr = some x := by
          intro x b v hx hX hv
          obtain ⟨_, _, frag, _, -, -, -, -, m5, -, -, -, m9⟩ := hcol x b hx hX
          rw [hv] at m9
          cases m9
          exact m5
        refine ⟨bids, c, rfl, hc, rfl, hcol, ?_, ?_, ?_, ?_⟩
        · intro i j bi bj ii ij qi qj v w hij hbi hbj hXi hXj hne hii hjj h0i h0j hqi hqj hv hw
          have h0 : 0 ≤ i := (getAt_eq_some hbi).1
          have hj : j < ap.nr := by
            obtain ⟨j0, j1, -⟩ := getAt_eq_some hbj
            rw [hlen.2.2] at j1
            omega
          exact updatePairs_hit hA h0 hij hj hbi hbj hXi hXj hne hii hjj h0i h0j hqi hqj hv hw hd
        · intro acc bid bead frag q i s g h1 h2 h3 h4 h5 h6 h7 h8 h9 h10
          exact collectBead_gap h1 h2 h3 h4 h5 h6 h7 h8 h9 h10
        · exact fun bead => (gapQv_spec st bead).1
        · exact fun bead => (gapQv_spec st bead).2

theorem populateDistMatrix_own_quality_witness :
    ∃ bids c, columnBeads storeGapColumn 1 = some bids ∧
      bids.foldlM (collectBead (fun t => t == 'R') [10, 11] 2 storeGapColumn)
        (emptyReads (AllocateDistMatrix pairTwoIids)) = some c ∧
      c.sum_qvs = [3, 5] := by
  have h : PopulateDistMatrix (fun t => t == 'R') storeGapColumn (AllocateDistMatrix pairTwoIids)
      1 = some { AllocateDistMatrix pairTwoIids with
        sum_qvs := [3, 5], dist_matrix := [[-1, 12], [12, -1]] } := by decide!
  obtain ⟨bids, c, h1, h2, h3, -⟩ := populateDistMatrix_own_quality _ _ _ _ _ h
  exact ⟨bids, c, h1, h2, h3.symm⟩

/-- In column 1 the read `A` of quality 3 meets the lone gap of quality 9
whose neighbours have the qualities 5 and 7: the distance grows by
`3 + 9 = 12`, and 5 goes to `sum_qvs`.  In column 3 the read `T` of quality 2
meets a gap of quality 4 in a run: the distance grows by `2 + 4 = 6`, and 14
goes to `sum_qvs`. -/
theorem gap_distance_own_quality :
    populatedGap 10 1 = some ([3, 5], [[-1, 12], [12, -1]]) ∧
    populatedGap 12 3 = some ([2, 14], [[-1, 6], [6, -1]]) := by
  constructor <;> decide!

theorem foldlM_eq_foldl {α β : Type} (f : β → α → Option β) (g : β → α → β) (l : List α)
    (h : ∀ a, a ∈ l → ∀ b, f b a = some (g b a)) : ∀ b, l.foldlM f b = some (l.foldl g b) := by
  induction l with
  | nil => intro b; rfl
  | cons x l ih =>
    intro b
    rw [List.foldlM_cons, h x (List.mem_cons_self _ _) b]
    exact ih (fun a ha => h a (List.mem_cons_of_mem _ ha)) _

/-- The search over a rising list of indices ends with the largest value
seen and the first index that holds it. -/
theorem maxStep_fold (t : Int → Int) : ∀ (l : List Int) (acc : Int × Int),
    l.Pairwise (· < ·) → (∀ j, j ∈ l → acc.2 < j) →
    (∀ j, j ∈ l → t j ≤ (l.foldl (maxStep t) acc).1) ∧ acc.1 ≤ (l.foldl (maxStep t) acc).1 ∧
    (l.foldl (maxStep t) acc = acc ∨
      ((l.foldl (maxStep t) acc).2 ∈ l ∧
        t (l.foldl (maxStep t) acc).2 = (l.foldl (maxStep t) acc).1 ∧
        acc.1 < (l.foldl (maxStep t) acc).1 ∧
        ∀ j, j ∈ l → j < (l.foldl (maxStep t) acc).2 → t j < (l.foldl (maxStep t) acc).1)) := by
  intro l
  induction l with
  | nil =>
    intro acc _ _
    exact ⟨fun j hj => by simp at hj, le_refl _, Or.inl rfl⟩
  | cons x l ih =>
    intro acc hp hlt
    rw [List.pairwise_cons] at hp
    rw [List.foldl_cons]
    have hx := hlt x (List.mem_cons_self _ _)
    by_cases hgt : t x > acc.1
    · have e : maxStep t acc x = (t x, x) := by
        unfold maxStep
        rw [if_pos hgt]
      rw [e]
      obtain ⟨a1, a2, a3⟩ := ih (t x, x) hp.2 (fun j hj => hp.1 j hj)
      simp only at a2
      refine ⟨?_, by omega, Or.inr ?_⟩
      · intro j hj
        rcases List.mem_cons.1 hj with rfl | hj
        · exact a2
        · exact a1 j hj
      · rcases a3 with a3 | ⟨b1, b2, b3, b4⟩
        · rw [a3]
          refine ⟨List.mem_cons_self _ _, rfl, hgt, ?_⟩
          intro j hj hjx
          simp only at hjx
          rcases List.mem_cons.1 hj with rfl | hj
          · omega
          · have := hp.1 j hj
            omega
        · simp only at b3
          refine ⟨List.mem_cons_of_mem _ b1, b2, by omega, ?_⟩
          intro j hj hjx
          rcases List.mem_cons.1 hj with rfl | hj
          · omega
          · exact b4 j hj hjx
    · have e : maxStep t acc x = acc := by
        unfold maxStep
        rw [if_neg hgt]
      rw [e]
      obtain ⟨a1, a2, a3⟩ := ih acc hp.2 (fun j hj => hlt j (List.mem_cons_of_mem _ hj))
      refine ⟨?_, a2, ?_⟩
      · intro j hj
        rcases List.mem_cons.1 hj with rfl | hj
        · omega
        · exact a1 j hj
      · rcases a3 with a3 | ⟨b1, b2, b3, b4⟩
        · exact Or.inl a3
        · refine Or.inr ⟨List.mem_cons_of_mem _ b1, b2, b3, ?_⟩
          intro j hj hjx
          rcases List.mem_cons.1 hj with rfl | hj
          · omega
          · exact b4 j hj hjx

theorem intRange_alphabet : intRange 0 CNS_NALPHABET = [0, 1, 2, 3, 4, 5] := by decide

theorem RINDEX_range {c : Char} (h : c ∈ RALPHABET) : 0 ≤ RINDEX c ∧ RINDEX c < 6 := by
  simp only [RALPHABET, List.mem_cons, List.mem_singleton, List.not_mem_nil, or_false] at h
  rcases h with rfl | rfl | rfl | rfl | rfl | rfl <;> decide

theorem RINDEX_inj {c d : Char} (hc : c ∈ RALPHABET) (hd : d ∈ RALPHABET)
    (h : RINDEX c = RINDEX d) : c = d := by
  simp only [RALPHABET, List.mem_cons, List.mem_singleton, List.not_mem_nil, or_false] at hc hd
  rcases hc with rfl | rfl | rfl | rfl | rfl | rfl <;>
    rcases hd with rfl | rfl | rfl | rfl | rfl | rfl <;>
    first | rfl | exact absurd h (by decide)

theorem RALPHABET_at {i : Int} (h0 : 0 ≤ i) (h1 : i < 6) :
    ∃ w, getAt RALPHABET i = some w ∧ w ∈ RALPHABET ∧ RINDEX w = i ∧ w.toUpper = w := by
  interval_cases i
  · exact ⟨'-', by decide, by decide, by decide, by decide⟩
  · exact ⟨'A', by decide, by decide, by decide, by decide⟩
  · exact ⟨'C', by decide, by decide, by decide, by decide⟩
  · exact ⟨'G', by decide, by decide, by decide, by decide⟩
  · exact ⟨'T', by decide, by decide, by decide, by decide⟩
  · exact ⟨'N', by decide, by decide, by decide, by decide⟩

theorem symbolCount_count {chars : List Char} (ha : ∀ c, c ∈ chars → c ∈ RALPHABET) {s : Char}
    (hs : s ∈ RALPHABET) : symbolCount chars (RINDEX s) = (chars.count s : Int) := by
  unfold symbolCount
  rw [List.count, List.countP_eq_length_filter]
  congr 2
  apply List.filter_congr
  intro c hc
  by_cases e : c = s
  · simp [e]
  · have : RINDEX c ≠ RINDEX s := fun h => e (RINDEX_inj (ha c hc) hs h)
    simp [e, this]

theorem symbolCount_cons (c : Char) (cs : List Char) (i : Int) :
    symbolCount (c :: cs) i = (if RINDEX c = i then 1 else 0) + symbolCount cs i := by
  unfold symbolCount
  rw [List.filter_cons]
  by_cases h : RINDEX c = i
  · simp [h]
    omega
  · simp [h]

theorem both_zero (np : Nat) {i : Int} {c : CallCounts} (h0 : 0 ≤ i) (h1 : i < np)
    (hb : c.best_read_base_count = List.replicate np 0)
    (hg : c.guide_base_count = List.replicate np 0) : c.both i = some 0 := by
  unfold CallCounts.both
  rw [hb, hg, getAt_replicate, if_pos ⟨h0, h1⟩]
  rfl

/-- One round of the first loop adds one at the index of the character. -/
theorem countBead_run {isRead : Char → Bool} {st : Store} {np : Nat} {acc : CallCounts}
    {bid : Int} {bead : Bead} {ch q : Char} {frag : Fragment}
    (hb : GetBead st bid = some bead) (hch : GetBase st bead.soffset = some ch)
    (hq : getAt st.qualityStore bead.soffset = some q)
    (hf : GetFragment st bead.frag_index = some frag)
    (hl1 : acc.best_read_base_count.length = np) (hl2 : acc.guide_base_count.length = np)
    (h0 : 0 ≤ RINDEX ch) (h1 : RINDEX ch < np) :
    ∃ acc', countBead isRead st acc bid = some acc' ∧
      acc'.best_read_base_count.length = np ∧ acc'.guide_base_count.length = np ∧
      ∀ i, acc'.both i = (acc.both i).map fun v => v + (if RINDEX ch = i then 1 else 0) := by
  obtain ⟨v, hv⟩ := @getAt_of_lt _ acc.best_read_base_count (RINDEX ch) h0 (by omega)
  obtain ⟨g, hg⟩ := @getAt_of_lt _ acc.guide_base_count (RINDEX ch) h0 (by omega)
  unfold countBead
  simp only [hb, hch, hq, hf, BaseToInt]
  cases isRead frag.type with
  | true =>
    simp only [if_true, hv]
    refine ⟨_, rfl, by simp only [length_setAt]; exact hl1, hl2, ?_⟩
    intro i
    unfold CallCounts.both
    simp only
    rw [getAt_setAt]
    by_cases hi : RINDEX ch = i
    · subst hi
      rw [if_pos ⟨rfl, by rw [hv]; rfl⟩, hv, hg]
      simp only [if_true, Option.map_some', Option.some.injEq]
      omega
    · rw [if_neg (fun e => hi e.1.symm)]
      cases getAt acc.best_read_base_count i <;> cases getAt acc.guide_base_count i <;>
        simp [hi]
  | false =>
    simp only [Bool.false_eq_true, if_false, hg]
    refine ⟨_, rfl, hl1, by simp only [length_setAt]; exact hl2, ?_⟩
    intro i
    unfold CallCounts.both
    simp only
    rw [getAt_setAt]
    by_cases hi : RINDEX ch = i
    · subst hi
      rw [if_pos ⟨rfl, by rw [hg]; rfl⟩, hv, hg]
      simp only [if_true, Option.map_some', Option.some.injEq]
      omega
    · rw [if_neg (fun e => hi e.1.symm)]
      cases getAt acc.best_read_base_count i <;> cases getAt acc.guide_base_count i <;>
        simp [hi]

theorem mapM_cons_some {α β : Type} {f : α → Option β} {x : α} {l : List α} {r : List β}
    (h : (x :: l).mapM f = some r) : ∃ y ys, f x = some y ∧ l.mapM f = some ys ∧ r = y :: ys := by
  rw [List.mapM_cons] at h
  cases hx : f x with
  | none =>
    rw [hx] at h
    cases h
  | some y =>
    rw [hx] at h
    cases hl : l.mapM f with
    | none =>
      rw [hl] at h
      cases h
    | some ys =>
      rw [hl] at h
      simp only [Option.bind_eq_bind, Option.some_bind, Option.pure_def, Option.some.injEq] at h
      exact ⟨y, ys, rfl, rfl, h.symm⟩

/-- The first loop counts the characters of the column by alphabet index. -/
theorem countBead_fold (isRead : Char → Bool) (st : Store) (np : Nat) (hnp : 6 ≤ np) :
    ∀ (bids : List Int) (chars : List Char) (acc : CallCounts),
    bids.mapM (beadChar st) = some chars →
    (∀ bid, bid ∈ bids → ∃ bead q frag, GetBead st bid = some bead ∧
      getAt st.qualityStore bead.soffset = some q ∧
      GetFragment st bead.frag_index = some frag) →
    (∀ c, c ∈ chars → c ∈ RALPHABET) →
    acc.best_read_base_count.length = np → acc.guide_base_count.length = np →
    ∃ c, bids.foldlM (countBead isRead st) acc = some c ∧
      ∀ i, c.both i = (acc.both i).map fun v => v + symbolCount chars i := by
  intro bids
  induction bids with
  | nil =>
    intro chars acc hm _ _ _ _
    rw [List.mapM_nil] at hm
    cases hm
    refine ⟨acc, rfl, fun i => ?_⟩
    cases acc.both i <;> simp [symbolCount]
  | cons bid bids ih =>
    intro chars acc hm hr ha hl1 hl2
    obtain ⟨ch, chars', h1, h2, rfl⟩ := mapM_cons_some hm
    obtain ⟨bead, q, frag, hb, hq, hf⟩ := hr bid (List.mem_cons_self _ _)
    have hch : GetBase st bead.soffset = some ch := by
      unfold beadChar at h1
      rw [hb] at h1
      exact h1
    obtain ⟨r0, r1⟩ := RINDEX_range (ha ch (List.mem_cons_self _ _))
    obtain ⟨acc', e, l1, l2, hacc⟩ := @countBead_run isRead st np acc bid bead ch q frag hb hch hq hf
      hl1 hl2 r0 (by omega)
    obtain ⟨c, hc, hboth⟩ := ih chars' acc' h2 (fun b hb' => hr b (List.mem_cons_of_mem _ hb'))
      (fun x hx => ha x (List.mem_cons_of_mem _ hx)) l1 l2
    refine ⟨c, by rw [List.foldlM_cons, e]; exact hc, fun i => ?_⟩
    rw [hboth, hacc, symbolCount_cons]
    cases acc.both i with
    | none => rfl
    | some v =>
      simp only [Option.map_some', Option.some.injEq]
      omega

theorem score_fold (T : Int → Int) (mi : Int) : ∀ (l : List Int) (s : Int),
    l.foldl (fun score bi => if bi ≠ mi then score + T bi else score) s =
      s + (l.map fun b => if b ≠ mi then T b else 0).sum := by
  intro l
  induction l with
  | nil => intro s; simp
  | cons x l ih =>
    intro s
    rw [List.foldl_cons, ih, List.map_cons, List.sum_cons]
    split_ifs <;> omega

theorem sum_split (T : Int → Int) (mi r : Int) : ∀ (l : List Int),
    (l.map fun b => if b ≠ mi then (if r = b then 1 else 0) + T b else 0).sum =
      (l.map fun b => if b ≠ mi then T b else 0).sum +
        (l.map fun b => if b ≠ mi ∧ r = b then (1 : Int) else 0).sum := by
  intro l
  induction l with
  | nil => simp
  | cons x l ih =>
    simp only [List.map_cons, List.sum_cons, ih]
    by_cases h1 : x = mi
    · simp [h1]
    · by_cases h2 : r = x
      · simp [h1, h2]
        omega
      · simp [h1, h2]
        omega

theorem sum_unit (mi r : Int) (h0 : 0 ≤ r) (h1 : r < 6) :
    (([0, 1, 2, 3, 4, 5] : List Int).map fun b => if b ≠ mi ∧ r = b then (1 : Int) else 0).sum =
      if r ≠ mi then 1 else 0 := by
  interval_cases r <;> simp

/-- The counts of the symbols other than the one at `mi` add up to the number
of characters with another index. -/
theorem score_sum (mi : Int) : ∀ (chars : List Char), (∀ c, c ∈ chars → c ∈ RALPHABET) →
    (([0, 1, 2, 3, 4, 5] : List Int).map fun b => if b ≠ mi then symbolCount chars b else 0).sum =
      ((chars.filter fun ch => RINDEX ch ≠ mi).length : Int) := by
  intro chars
  induction chars with
  | nil =>
    intro _
    simp [symbolCount]
  | cons c cs ih =>
    intro ha
    have h := ih fun x hx => ha x (List.mem_cons_of_mem _ hx)
    obtain ⟨r0, r1⟩ := RINDEX_range (ha c (List.mem_cons_self _ _))
    have e : (fun b => if b ≠ mi then symbolCount (c :: cs) b else 0) =
        fun b => if b ≠ mi then (if RINDEX c = b then 1 else 0) + symbolCount cs b else 0 := by
      funext b
      rw [symbolCount_cons]
    rw [e, sum_split, h, sum_unit mi (RINDEX c) r0 r1, List.filter_cons]
    by_cases hr : RINDEX c = mi
    · simp [hr]
    · simp [hr]

theorem setGrowChar_get {l l' : List Char} {i : Int} {c : Char}
    (h : setGrowChar l i c = some l') : getAt l' i = some c := by
  unfold setGrowChar at h
  split_ifs at h with h0 h1
  · cases h
    unfold getAt
    rw [if_neg h0]
    simp [h1]
  · cases h
    unfold getAt
    rw [if_neg h0]
    have hl : (l ++ List.replicate (i.toNat - l.length) (Char.ofNat 0)).length = i.toNat := by
      simp
      omega
    rw [List.getElem?_append_right (by rw [hl]), hl]
    simp

theorem baseCallRead0_some {st : Store} {bid : Int} (h : baseCallRead0 st bid = some ()) :
    ∃ bead q frag, GetBead st bid = some bead ∧ getAt st.qualityStore bead.soffset = some q ∧
      GetFragment st bead.frag_index = some frag := by
  unfold baseCallRead0 at h
  cases hb : GetBead st bid with
  | none => simp [hb] at h
  | some bead =>
    simp only [hb] at h
    split at h
    · rename_i c q f h1 h2 h3
      exact ⟨bead, q, f, rfl, h2, h3⟩
    · cases h

/-- `BaseCall` with `quality == 0` on a column of beads that carry tallied
symbols: the call is `calledSymbol`, no value of `random()` is drawn, and the
score is the number of characters that differ from the call. -/
theorem BaseCallZero_run (isRead : Char → Bool) (np : Nat) (rnd : Nat → Int) (k : Nat)
    (st : Store) (cid : Int) (column : Column) (call : Bead) (bids : List Int)
    (chars : List Char) (hnp : 6 ≤ np) (hcol : GetColumn st cid = some column)
    (hcall : GetBead st column.call = some call) (hs : 0 ≤ call.soffset)
    (hb : columnBeads st cid = some bids) (hne : bids ≠ [])
    (hch : bids.mapM (beadChar st) = some chars)
    (hread : ∀ bid, bid ∈ bids → baseCallRead0 st bid = some ())
    (halpha : ∀ c, c ∈ chars → c ∈ RALPHABET) :
    ∃ st', writeCall st call (calledSymbol chars) '0' = some st' ∧
      BaseCallZero isRead np rnd k st cid =
        some (st', ((chars.filter fun c => c ≠ calledSymbol chars).length : Int), k) ∧
      calledSymbol chars ∈ RALPHABET ∧
      (∀ s, s ∈ RALPHABET → chars.count s ≤ chars.count (calledSymbol chars)) ∧
      (∀ s, s ∈ RALPHABET → chars.count s = chars.count (calledSymbol chars) →
        RINDEX (calledSymbol chars) ≤ RINDEX s) := by
  obtain ⟨c, hc, hboth⟩ := countBead_fold isRead st np hnp bids chars
    { best_read_base_count := List.replicate np 0, guide_base_count := List.replicate np 0 }
    hch (fun bid hbid => baseCallRead0_some (hread bid hbid)) halpha (by simp) (by simp)
  have hT : ∀ i, 0 ≤ i → i < 6 → c.both i = some (symbolCount chars i) := by
    intro i h0 h1
    rw [hboth, both_zero np h0 (by omega) rfl rfl]
    simp
  have hmem : ∀ i, i ∈ intRange 0 CNS_NALPHABET → 0 ≤ i ∧ i < 6 := by
    intro i hi
    rw [intRange_alphabet] at hi
    simp only [List.mem_cons, List.mem_singleton, List.not_mem_nil, or_false] at hi
    omega
  have hfold : (intRange 0 CNS_NALPHABET).foldlM (maxCountStep c) (0, -1) =
      some ((intRange 0 CNS_NALPHABET).foldl (maxStep (symbolCount chars)) (0, -1)) := by
    apply foldlM_eq_foldl
    intro a ha b
    unfold maxCountStep maxStep
    rw [hT a (hmem a ha).1 (hmem a ha).2]
    simp only
    split_ifs <;> rfl
  obtain ⟨a1, a2, a3⟩ := maxStep_fold (symbolCount chars) (intRange 0 CNS_NALPHABET) (0, -1)
    (by rw [intRange_alphabet]; decide) (fun j hj => by
      have := (hmem j hj).1
      show (-1 : Int) < j
      omega)
  have hcalled : calledSymbol chars =
      (getAt RALPHABET ((intRange 0 CNS_NALPHABET).foldl (maxStep (symbolCount chars))
        (0, -1)).2).getD 'N' := rfl
  generalize (intRange 0 CNS_NALPHABET).foldl (maxStep (symbolCount chars)) (0, -1) = r
    at hfold a1 a2 a3 hcalled
  obtain ⟨mc, mi⟩ := r
  simp only at a1 a2 a3 hcalled
  -- the column is not empty: some count is positive
  obtain ⟨c0, hc0⟩ : ∃ c0, c0 ∈ chars := by
    cases bids with
    | nil => exact absurd rfl hne
    | cons b bs =>
      obtain ⟨y, ys, -, -, e⟩ := mapM_cons_some hch
      exact ⟨y, by rw [e]; exact List.mem_cons_self _ _⟩
  obtain ⟨j0, j1⟩ := RINDEX_range (halpha c0 hc0)
  have hin : ∀ j, 0 ≤ j → j < 6 → j ∈ intRange 0 CNS_NALPHABET := fun j h0 h1 =>
    mem_intRange.2 ⟨h0, by
      show j < ((6 : Nat) : Int)
      omega⟩
  have hpos : 1 ≤ symbolCount chars (RINDEX c0) := by
    rw [symbolCount_count halpha (halpha c0 hc0)]
    have := List.count_pos_iff.2 hc0
    omega
  have hmc : 1 ≤ mc := le_trans hpos (a1 _ (hin _ j0 j1))
  rcases a3 with a3 | ⟨b1, b2, b3, b4⟩
  · simp only [Prod.mk.injEq] at a3
    omega
  obtain ⟨m0, m1⟩ := hmem mi b1
  obtain ⟨w, hw, hwm, hwi, hwu⟩ := RALPHABET_at m0 m1
  rw [hw] at hcalled
  simp only [Option.getD_some] at hcalled
  rw [hcalled]
  obtain ⟨st', hst', -⟩ := writeCall_run st w '0' hs
  have hidx : callIndex rnd k c = some (mi, k) := by
    unfold callIndex
    rw [hfold]
    simp only
    rw [hT mi m0 m1]
    simp only
    rw [if_pos (by rw [b2]; norm_num; omega)]
    simp only
    rw [if_neg (by decide)]
  have hscore : (intRange 0 CNS_NALPHABET).foldlM (scoreStep c (BaseToInt w.toUpper)) 0 =
      some ((chars.filter fun ch => ch ≠ w).length : Int) := by
    rw [foldlM_eq_foldl _ (fun score bi => if bi ≠ mi then score + symbolCount chars bi else score)
      _ (fun a ha b => by
        unfold scoreStep BaseToInt
        rw [hwu, hwi]
        by_cases hne' : a = mi
        · simp [hne']
        · simp only [ne_eq, hne', not_false_eq_true, if_true]
          rw [hT a (hmem a ha).1 (hmem a ha).2])]
    rw [score_fold, intRange_alphabet, score_sum mi chars halpha, zero_add]
    congr 3
    apply List.filter_congr
    intro ch hch'
    by_cases e : ch = w
    · simp [e, hwi]
    · have : RINDEX ch ≠ mi := fun h => e (RINDEX_inj (halpha ch hch') hwm (h.trans hwi.symm))
      simp [e, this]
  refine ⟨st', hst', ?_, hwm, ?_, ?_⟩
  · unfold BaseCallZero
    simp only [hcol, hcall, hb, hc, hidx, hw, hwu, hst']
    rw [hwu] at hscore
    rw [hscore]
  · intro s hs'
    have h1 := a1 (RINDEX s) (hin _ (RINDEX_range hs').1 (RINDEX_range hs').2)
    rw [symbolCount_count halpha hs', ← b2, ← hwi, symbolCount_count halpha hwm] at h1
    exact_mod_cast h1
  · intro s hs' hcount
    by_contra hlt
    have h1 := b4 (RINDEX s) (hin _ (RINDEX_range hs').1 (RINDEX_range hs').2)
      (by rw [hwi] at hlt; omega)
    rw [symbolCount_count halpha hs', ← b2, ← hwi, symbolCount_count halpha hwm] at h1
    omega

/-- C35: `BaseCall` with `quality == 0`, on a column that is not empty and
whose beads carry the symbols `-`, `A`, `C`, `G`, `T`, `N` (`chars`, in the
order of the column).  The call returns; for every sequence `rnd` of values of
`random()` and every number `k` of values drawn before, none is drawn and the
store and the score are the same: the call is the symbol `w` of the largest
count, of lowest alphabet index among the symbols of that count, so a gap
wins a tie against a base; `w` and the quality `0` are written to the call
bead and nothing else is; the value returned is the number of beads whose
symbol differs from `w`. -/
theorem baseCall_zero_deterministic (isRead : Char → Bool) (np : Nat) (rnd : Nat → Int)
    (k : Nat) (st : Store) (cid : Int) (column : Column) (call : Bead) (bids : List Int)
    (chars : List Char) (hnp : 6 ≤ np) (hcol : GetColumn st cid = some column)
    (hcall : GetBead st column.call = some call) (hs : 0 ≤ call.soffset)
    (hb : columnBeads st cid = some bids) (hne : bids ≠ [])
    (hch : bids.mapM (beadChar st) = some chars)
    (hread : ∀ bid, bid ∈ bids → baseCallRead0 st bid = some ())
    (halpha : ∀ c, c ∈ chars → c ∈ RALPHABET) :
    ∃ st' w,
      BaseCallZero isRead np rnd k st cid =
        some (st', ((chars.filter fun c => c ≠ w).length : Int), k) ∧
      (∀ rnd' k', BaseCallZero isRead np rnd' k' st cid =
        some (st', ((chars.filter fun c => c ≠ w).length : Int), k')) ∧
      w ∈ RALPHABET ∧
      (∀ s, s ∈ RALPHABET → chars.count s ≤ chars.count w) ∧
      (∀ s, s ∈ RALPHABET → chars.count s = chars.count w → RINDEX w ≤ RINDEX s) ∧
      (chars.count '-' = chars.count w → w = '-') ∧
      writeCall st call w '0' = some st' ∧
      GetBase st' call.soffset = some w ∧ getAt st'.qualityStore call.soffset = some '0' := by
  obtain ⟨st', h1, h2, h3, h4, h5⟩ := BaseCallZero_run isRead np rnd k st cid column call bids
    chars hnp hcol hcall hs hb hne hch hread halpha
  refine ⟨st', calledSymbol chars, h2, ?_, h3, h4, h5, ?_, h1, ?_, ?_⟩
  · intro rnd' k'
    obtain ⟨st2, g1, g2, -⟩ := BaseCallZero_run isRead np rnd' k' st cid column call bids
      chars hnp hcol hcall hs hb hne hch hread halpha
    rw [h1] at g1
    cases g1
    exact g2
  · intro e
    have hle := h5 '-' (by decide) e
    have hr := RINDEX_range h3
    exact RINDEX_inj h3 (by decide) (by
      have : RINDEX '-' = 0 := by decide
      omega)
  · unfold writeCall at h1
    split at h1
    · rename_i seq qlt e1 e2
      cases h1
      exact setGrowChar_get e1
    · cases h1
  · unfold writeCall at h1
    split at h1
    · rename_i seq qlt e1 e2
      cases h1
      exact setGrowChar_get e2
    · cases h1

theorem baseCall_zero_deterministic_witness :
    ∃ st', (∀ rnd k, BaseCallZero (fun t => t == 'R') 32 rnd k storeTie 0 = some (st', 2, k)) ∧
      GetBase st' 8 = some '-' ∧ getAt st'.qualityStore 8 = some '0' := by
  obtain ⟨st', w, -, h2, h3, h4, -, h6, -, h8, h9⟩ := baseCall_zero_deterministic
    (fun t => t == 'R') 32 (fun _ => 0) 0 storeTie 0
    { lid := 0, call := 4, next := -1, prev := -1, ma_id := 0, ma_index := 0,
      base_count := { count := [2, 2, 0, 0, 0, 0], depth := 4 } }
    { boffset := 4, soffset := 8, foffset := 0, prev := -1, next := -1, up := -1, down := 3,
      frag_index := -1, column_index := 0 }
    [3, 2, 1, 0] ['A', '-', '-', 'A'] (by decide) (by decide) (by decide) (by decide)
    (by decide) (by decide) (by decide) (by decide) (by decide)
  have hle := h4 '-' (by decide)
  have hw : w = '-' := by
    simp only [RALPHABET, List.mem_cons, List.mem_singleton, List.not_mem_nil, or_false] at h3
    rcases h3 with rfl | rfl | rfl | rfl | rfl | rfl
    · rfl
    · exact h6 (by decide)
    · exact absurd hle (by decide)
    · exact absurd hle (by decide)
    · exact absurd hle (by decide)
    · exact absurd hle (by decide)
  subst hw
  exact ⟨st', fun rnd k => h2 rnd k, h8, h9⟩

theorem offset_inj_wide (cols i j i2 j2 : Int) (hj : -1 ≤ j ∧ j ≤ cols) (hj2 : -1 ≤ j2 ∧ j2 ≤ cols)
    (h : i * (cols + 2) + j + 1 = i2 * (cols + 2) + j2 + 1) : i = i2 ∧ j = j2 := by
  have hw : 0 < cols + 2 := by omega
  have h1 : (i - i2) * (cols + 2) = j2 - j := by linarith
  have hi : i = i2 := by
    by_contra hne
    rcases lt_or_gt_of_ne hne with hlt | hgt
    · have : (i2 - i) * (cols + 2) ≥ 1 * (cols + 2) :=
        Int.mul_le_mul_of_nonneg_right (by omega) (by omega)
      nlinarith
    · have : (i - i2) * (cols + 2) ≥ 1 * (cols + 2) :=
        Int.mul_le_mul_of_nonneg_right (by omega) (by omega)
      nlinarith
  subst hi
  simp at h
  exact ⟨rfl, h⟩

/-- Reading a cell of a row, a border cell included, after a write to the
cell `(i, j)`. -/
theorem GetAbacus_SetAbacus_wide {a b : Abacus} {i j : Int} {c : Char}
    (h : SetAbacus a i j c = some b) (i2 k : Int) (hk : -1 ≤ k ∧ k ≤ a.columns) :
    GetAbacus b i2 k = if i2 = i ∧ k = j then some c else GetAbacus a i2 k := by
  obtain ⟨hb, h1, h2, h3, h4, h5⟩ := SetAbacus_spec h
  subst hb
  simp only [GetAbacus, Abacus.offset]
  rw [getAt_setAt]
  simp only [Abacus.offset] at h5
  by_cases hc : i2 = i ∧ k = j
  · obtain ⟨rfl, rfl⟩ := hc
    simp [h5]
  · have : ¬ (i2 * (a.columns + 2) + k + 1 = i * (a.columns + 2) + j + 1) := by
      intro he
      exact hc (offset_inj_wide a.columns i2 k i j hk ⟨by omega, by omega⟩ he)
    simp [this, hc]

theorem Bordered.cell {a : Abacus} (h : Bordered a) {i j : Int} (hi0 : 0 ≤ i) (hi1 : i < a.rows)
    (hj0 : -1 ≤ j) (hj1 : j ≤ a.columns) : ∃ c, GetAbacus a i j = some c :=
  GetAbacus_total a h.2.2.2.1 (by have := h.2.1; have := h.2.2.1; omega) hi0 hi1 hj0 hj1

theorem Bordered.columns_nonneg {a : Abacus} (h : Bordered a) : 0 ≤ a.columns := by
  have := h.2.1
  have := h.2.2.1
  omega

theorem SetAbacus_bordered {a b : Abacus} {i j : Int} {c : Char}
    (h : SetAbacus a i j c = some b) (ha : Bordered a) :
    Bordered b ∧ b.rows = a.rows ∧ b.columns = a.columns ∧ b.window_width = a.window_width ∧
      b.calls = a.calls := by
  obtain ⟨hb, h1, h2, h3, h4, h5⟩ := SetAbacus_spec h
  have hcol := ha.columns_nonneg
  have e1 : b.rows = a.rows := by rw [hb]
  have e2 : b.columns = a.columns := by rw [hb]
  have e3 : b.window_width = a.window_width := by rw [hb]
  have e4 : b.calls = a.calls := by rw [hb]
  have e5 : b.beads.length = a.beads.length := by rw [hb]; simp [length_setAt]
  obtain ⟨a1, a2, a3, a4, a5, a6⟩ := ha
  refine ⟨⟨by rw [e1]; exact a1, by rw [e3]; exact a2, by rw [e2, e3]; exact a3,
    by rw [e5, e1, e2]; exact a4, by rw [e4, e2]; exact a5, ?_⟩, e1, e2, e3, e4⟩
  intro i2 hi0 hi1
  rw [e1] at hi1
  rw [e2, GetAbacus_SetAbacus_wide h i2 (-1) ⟨le_refl _, by omega⟩,
    GetAbacus_SetAbacus_wide h i2 a.columns ⟨by omega, le_refl _⟩,
    if_neg (fun e => by omega), if_neg (fun e => by omega)]
  exact a6 i2 hi0 hi1

/-- A write to a cell between the borders passes the two range checks of
`SetAbacus`. -/
theorem SetAbacus_run {a : Abacus} (ha : Bordered a) {i j : Int} (c : Char) (hi0 : 0 ≤ i)
    (hi1 : i < a.rows) (hj0 : 0 ≤ j) (hj1 : j < a.columns) :
    ∃ b, SetAbacus a i j c = some b ∧ Bordered b ∧ b.rows = a.rows ∧ b.columns = a.columns ∧
      b.window_width = a.window_width ∧ b.calls = a.calls := by
  obtain ⟨x, hx⟩ := ha.cell hi0 hi1 (by omega : -1 ≤ j) (by omega : j ≤ a.columns)
  have h : SetAbacus a i j c = some { a with beads := setAt a.beads (a.offset i j) c } := by
    unfold SetAbacus
    rw [if_neg (by omega), if_neg (by omega)]
    unfold GetAbacus at hx
    rw [hx]
  exact ⟨_, h, SetAbacus_bordered h ha⟩

theorem setCall_bordered {a b : Abacus} {j : Int} {c : Char} (h : setCall a j c = some b)
    (ha : Bordered a) :
    Bordered b ∧ b.rows = a.rows ∧ b.columns = a.columns ∧ b.window_width = a.window_width ∧
      b.beads = a.beads := by
  obtain ⟨hb, -⟩ := setCall_spec h
  subst hb
  obtain ⟨a1, a2, a3, a4, a5, a6⟩ := ha
  exact ⟨⟨a1, a2, a3, a4, by simp only [length_setAt]; exact a5, a6⟩, rfl, rfl, rfl, rfl⟩

theorem getCall_run {a : Abacus} (ha : Bordered a) {j : Int} (hj0 : 0 ≤ j) (hj1 : j < a.columns) :
    ∃ c, getCall a j = some c := by
  unfold getCall
  exact getAt_of_lt hj0 (by rw [ha.2.2.2.2.1]; exact hj1)

theorem setCall_run {a : Abacus} (ha : Bordered a) {j : Int} (c : Char) (hj0 : 0 ≤ j)
    (hj1 : j < a.columns) :
    ∃ b, setCall a j c = some b ∧ Bordered b ∧ b.rows = a.rows ∧ b.columns = a.columns ∧
      b.window_width = a.window_width ∧ b.beads = a.beads := by
  obtain ⟨x, hx⟩ := getCall_run ha hj0 hj1
  have h : setCall a j c = some { a with calls := setAt a.calls j c } := by
    unfold setCall
    unfold getCall at hx
    rw [hx]
  exact ⟨_, h, setCall_bordered h ha⟩

theorem Shaped.refl_sh {a : Abacus} (h : Bordered a) : Shaped a a := ⟨h, rfl, rfl, rfl⟩

theorem Shaped.trans_sh {a b c : Abacus} (h1 : Shaped a b) (h2 : Shaped b c) : Shaped a c :=
  ⟨h2.1, h2.2.1.trans h1.2.1, h2.2.2.1.trans h1.2.2.1, h2.2.2.2.trans h1.2.2.2⟩

theorem SetAbacus_shaped {a : Abacus} (ha : Bordered a) {i j : Int} (c : Char) (hi0 : 0 ≤ i)
    (hi1 : i < a.rows) (hj0 : 0 ≤ j) (hj1 : j < a.columns) :
    ∃ b, SetAbacus a i j c = some b ∧ Shaped a b := by
  obtain ⟨b, h, h1, h2, h3, h4, -⟩ := SetAbacus_run ha c hi0 hi1 hj0 hj1
  exact ⟨b, h, h1, h2, h3, h4⟩

theorem setCall_shaped {a : Abacus} (ha : Bordered a) {j : Int} (c : Char) (hj0 : 0 ≤ j)
    (hj1 : j < a.columns) : ∃ b, setCall a j c = some b ∧ Shaped a b := by
  obtain ⟨b, h, h1, h2, h3, h4, -⟩ := setCall_run ha c hj0 hj1
  exact ⟨b, h, h1, h2, h3, h4⟩

/-- A loop whose rounds keep the shape and the border returns, and keeps
them. -/
theorem foldlM_shaped {α : Type} (f : Abacus → α → Option Abacus) (l : List α) (a0 : Abacus)
    (hf : ∀ b x, x ∈ l → Shaped a0 b → ∃ b', f b x = some b' ∧ Shaped b b') :
    ∀ a, Shaped a0 a → ∃ r, l.foldlM f a = some r ∧ Shaped a r := by
  induction l with
  | nil => intro a ha; exact ⟨a, rfl, Shaped.refl_sh ha.1⟩
  | cons x l ih =>
    intro a ha
    obtain ⟨b, hb, hs⟩ := hf a x (List.mem_cons_self _ _) ha
    obtain ⟨r, hr, hs2⟩ := ih (fun b' y hy hb' => hf b' y (List.mem_cons_of_mem _ hy) hb') b
      (ha.trans_sh hs)
    exact ⟨r, by rw [List.foldlM_cons, hb]; exact hr, hs.trans_sh hs2⟩

/-- The scan to the left stops at the border at the latest. -/
theorem scanLeft_run {a : Abacus} (ha : Bordered a) {i : Int} (hi0 : 0 ≤ i) (hi1 : i < a.rows) :
    ∀ (fuel : Nat) (j : Int), 0 ≤ j → j ≤ a.columns → j < fuel →
      ∃ ccol, scanLeft a i fuel j = some ccol ∧ 0 ≤ ccol ∧ ccol ≤ j := by
  intro fuel
  induction fuel with
  | zero => intro j h0 _ h; omega
  | succ n ih =>
    intro j h0 h1 hf
    unfold scanLeft
    obtain ⟨c, hc⟩ := ha.cell hi0 hi1 (by omega : -1 ≤ j - 1) (by omega : j - 1 ≤ a.columns)
    rw [hc]
    simp only
    by_cases hg : c = '-'
    · rw [if_pos hg]
      have hj : j ≠ 0 := by
        intro e
        have hb := (ha.2.2.2.2.2 i hi0 hi1).1
        rw [e] at hc
        have e2 : (0 : Int) - 1 = -1 := by norm_num
        rw [e2, hb] at hc
        cases hc
        exact absurd hg (by decide)
      obtain ⟨ccol, e, c0, c1⟩ := ih (j - 1) (by omega) (by omega) (by omega)
      exact ⟨ccol, e, c0, by omega⟩
    · rw [if_neg hg]
      exact ⟨j, rfl, h0, le_refl _⟩

/-- The scan to the right stops at the border at the latest. -/
theorem scanRight_run {a : Abacus} (ha : Bordered a) {i : Int} (hi0 : 0 ≤ i) (hi1 : i < a.rows) :
    ∀ (fuel : Nat) (j : Int), -1 ≤ j → j < a.columns → a.columns - j ≤ fuel →
      ∃ ccol, scanRight a i fuel j = some ccol ∧ j ≤ ccol ∧ ccol < a.columns := by
  intro fuel
  induction fuel with
  | zero => intro j h0 h1 h; omega
  | succ n ih =>
    intro j h0 h1 hf
    unfold scanRight
    obtain ⟨c, hc⟩ := ha.cell hi0 hi1 (by omega : -1 ≤ j + 1) (by omega : j + 1 ≤ a.columns)
    rw [hc]
    simp only
    by_cases hg : c = '-'
    · rw [if_pos hg]
      have hj : j + 1 ≠ a.columns := by
        intro e
        have hb := (ha.2.2.2.2.2 i hi0 hi1).2
        rw [e, hb] at hc
        cases hc
        exact absurd hg (by decide)
      obtain ⟨ccol, e, c0, c1⟩ := ih (j + 1) (by omega) (by omega) (by push_cast at hf ⊢; omega)
      exact ⟨ccol, e, by omega, c1⟩
    · rw [if_neg hg]
      exact ⟨j, rfl, le_refl _, h1⟩

theorem scanLeftTo_run {a : Abacus} (ha : Bordered a) {i : Int} (hi0 : 0 ≤ i) (hi1 : i < a.rows)
    (beg : Int) :
    ∀ (fuel : Nat) (j : Int), 0 ≤ j → j ≤ a.columns → j < fuel →
      ∃ ccol, scanLeftTo a i beg fuel j = some ccol ∧ 0 ≤ ccol ∧ ccol ≤ j := by
  intro fuel
  induction fuel with
  | zero => intro j h0 _ h; omega
  | succ n ih =>
    intro j h0 h1 hf
    unfold scanLeftTo
    obtain ⟨c, hc⟩ := ha.cell hi0 hi1 (by omega : -1 ≤ j - 1) (by omega : j - 1 ≤ a.columns)
    rw [hc]
    simp only
    by_cases hg : c = '-' ∧ j > beg
    · rw [if_pos hg]
      have hj : j ≠ 0 := by
        intro e
        have hb := (ha.2.2.2.2.2 i hi0 hi1).1
        rw [e] at hc
        have e2 : (0 : Int) - 1 = -1 := by norm_num
        rw [e2, hb] at hc
        cases hc
        exact absurd hg.1 (by decide)
      obtain ⟨ccol, e, c0, c1⟩ := ih (j - 1) (by omega) (by omega) (by omega)
      exact ⟨ccol, e, c0, by omega⟩
    · rw [if_neg hg]
      exact ⟨j, rfl, h0, le_refl _⟩

theorem scanRightTo_run {a : Abacus} (ha : Bordered a) {i : Int} (hi0 : 0 ≤ i)
    (hi1 : i < a.rows) (wend : Int) :
    ∀ (fuel : Nat) (j : Int), -1 ≤ j → j < a.columns → a.columns - j ≤ fuel →
      ∃ ccol, scanRightTo a i wend fuel j = some ccol ∧ j ≤ ccol ∧ ccol < a.columns := by
  intro fuel
  induction fuel with
  | zero => intro j h0 h1 h; omega
  | succ n ih =>
    intro j h0 h1 hf
    unfold scanRightTo
    obtain ⟨c, hc⟩ := ha.cell hi0 hi1 (by omega : -1 ≤ j + 1) (by omega : j + 1 ≤ a.columns)
    rw [hc]
    simp only
    by_cases hg : c = '-' ∧ j + 1 < wend
    · rw [if_pos hg]
      have hj : j + 1 ≠ a.columns := by
        intro e
        have hb := (ha.2.2.2.2.2 i hi0 hi1).2
        rw [e, hb] at hc
        cases hc
        exact absurd hg.1 (by decide)
      obtain ⟨ccol, e, c0, c1⟩ := ih (j + 1) (by omega) (by omega) (by push_cast at hf ⊢; omega)
      exact ⟨ccol, e, by omega, c1⟩
    · rw [if_neg hg]
      exact ⟨j, rfl, le_refl _, h1⟩

/-- The fuel of the scans covers a row. -/
theorem Bordered.fuel {a : Abacus} (ha : Bordered a) {i : Int} (hi0 : 0 ≤ i) (hi1 : i < a.rows) :
    a.columns + 2 ≤ (a.beads.length : Int) := by
  rw [ha.2.2.2.1]
  have hc := ha.columns_nonneg
  have : 1 * (a.columns + 2) ≤ a.rows * (a.columns + 2) :=
    Int.mul_le_mul_of_nonneg_right (by omega) (by omega)
  omega

/-- The placement loop over columns between the borders returns: its two
calls of `SetAbacus` pass the range checks. -/
theorem place_run {i j : Int} (c : Char) : ∀ (pcols : List Int) (a : Abacus), Bordered a →
    0 ≤ i → i < a.rows → 0 ≤ j → j < a.columns →
    (∀ p, p ∈ pcols → 0 ≤ p ∧ p < a.columns) →
    ∃ b, place i j c pcols a = some b ∧ Shaped a b := by
  intro pcols
  induction pcols with
  | nil =>
    intro a ha _ _ _ _ _
    exact ⟨a, rfl, Shaped.refl_sh ha⟩
  | cons p rest ih =>
    intro a ha hi0 hi1 hj0 hj1 hp
    obtain ⟨p0, p1⟩ := hp p (List.mem_cons_self _ _)
    have hrest : ∀ b, Shaped a b → ∀ q, q ∈ rest → 0 ≤ q ∧ q < b.columns := fun b hb q hq => by
      rw [hb.2.2.1]
      exact hp q (List.mem_cons_of_mem _ hq)
    obtain ⟨call, hcall⟩ := getCall_run ha p0 p1
    unfold place
    rw [hcall]
    simp only
    by_cases h1 : call ≠ 'n' ∧ call ≠ c ∧ c ≠ 'n'
    · rw [if_pos h1]
      exact ih a ha hi0 hi1 hj0 hj1 (fun q hq => hp q (List.mem_cons_of_mem _ hq))
    · rw [if_neg h1]
      obtain ⟨a1, ha1, hs1⟩ : ∃ a1, (if call = 'n' then setCall a p c else some a) = some a1 ∧
          Shaped a a1 := by
        by_cases hn : call = 'n'
        · rw [if_pos hn]
          exact setCall_shaped ha c p0 p1
        · rw [if_neg hn]
          exact ⟨a, rfl, Shaped.refl_sh ha⟩
      rw [ha1]
      simp only
      obtain ⟨call1, hcall1⟩ := getCall_run hs1.1 p0 (by rw [hs1.2.2.1]; exact p1)
      rw [hcall1]
      simp only
      by_cases h2 : call1 = c ∨ c = 'n'
      · rw [if_pos h2]
        obtain ⟨a2, ha2, hs2⟩ := SetAbacus_shaped hs1.1 '-' hi0 (by rw [hs1.2.1]; exact hi1) hj0
          (by rw [hs1.2.2.1]; exact hj1)
        rw [ha2]
        simp only
        obtain ⟨a3, ha3, hs3⟩ := SetAbacus_shaped hs2.1 c hi0
          (by rw [hs2.2.1, hs1.2.1]; exact hi1) p0 (by rw [hs2.2.2.1, hs1.2.2.1]; exact p1)
        exact ⟨a3, ha3, (hs1.trans_sh hs2).trans_sh hs3⟩
      · rw [if_neg h2]
        obtain ⟨b, hb, hs⟩ := ih a1 hs1.1 hi0 (by rw [hs1.2.1]; exact hi1) hj0
          (by rw [hs1.2.2.1]; exact hj1) (hrest a1 hs1)
        exact ⟨b, hb, hs1.trans_sh hs⟩

theorem keepCall_run {a : Abacus} (ha : Bordered a) {i j : Int} (c : Char) (hi0 : 0 ≤ i)
    (hi1 : i < a.rows) (hj0 : 0 ≤ j) (hj1 : j < a.columns) :
    ∃ b, keepCall i j c a = some b ∧ Shaped a b := by
  obtain ⟨x, hx⟩ := ha.cell hi0 hi1 (by omega : -1 ≤ j) (by omega : j ≤ a.columns)
  unfold keepCall
  simp only [hx, Option.bind_eq_bind, Option.some_bind]
  by_cases h : x ≠ '-'
  · rw [if_pos h]
    exact setCall_shaped ha c hj0 hj1
  · rw [if_neg h]
    exact ⟨a, rfl, Shaped.refl_sh ha⟩

/-- The body of `LeftShift` for a cell between the borders returns. -/
theorem leftCell_run {a : Abacus} (ha : Bordered a) {i j : Int} (hi0 : 0 ≤ i)
    (hi1 : i < a.rows) (hj0 : 0 ≤ j) (hj1 : j < a.columns) :
    ∃ b, leftCell j a i = some b ∧ Shaped a b := by
  obtain ⟨x, hx⟩ := ha.cell hi0 hi1 (by omega : -1 ≤ j) (by omega : j ≤ a.columns)
  unfold leftCell
  simp only [hx, Option.bind_eq_bind, Option.some_bind]
  by_cases h : x ≠ '-'
  · rw [if_pos h]
    have hfuel := ha.fuel hi0 hi1
    obtain ⟨ccol, hs, c0, c1⟩ := scanLeft_run ha hi0 hi1 (a.beads.length + 1) j hj0 (by omega)
      (by push_cast; omega)
    rw [hs]
    simp only [Option.some_bind]
    obtain ⟨a1, h1, s1⟩ := place_run x (intRange ccol j) a ha hi0 hi1 hj0 hj1 (fun p hp => by
      obtain ⟨q0, q1⟩ := mem_intRange.1 hp
      omega)
    rw [h1]
    simp only [Option.some_bind]
    obtain ⟨a2, h2, s2⟩ := keepCall_run s1.1 x hi0 (by rw [s1.2.1]; exact hi1) hj0
      (by rw [s1.2.2.1]; exact hj1)
    exact ⟨a2, h2, s1.trans_sh s2⟩
  · rw [if_neg h]
    exact ⟨a, rfl, Shaped.refl_sh ha⟩

/-- The body of `RightShift` for a cell between the borders returns. -/
theorem rightCell_run {a : Abacus} (ha : Bordered a) {i j : Int} (hi0 : 0 ≤ i)
    (hi1 : i < a.rows) (hj0 : 0 ≤ j) (hj1 : j < a.columns) :
    ∃ b, rightCell j a i = some b ∧ Shaped a b := by
  obtain ⟨x, hx⟩ := ha.cell hi0 hi1 (by omega : -1 ≤ j) (by omega : j ≤ a.columns)
  unfold rightCell
  simp only [hx, Option.bind_eq_bind, Option.some_bind]
  by_cases h : x ≠ '-'
  · rw [if_pos h]
    have hfuel := ha.fuel hi0 hi1
    obtain ⟨ccol, hs, c0, c1⟩ := scanRight_run ha hi0 hi1 (a.beads.length + 1) j (by omega) hj1
      (by push_cast; omega)
    rw [hs]
    simp only [Option.some_bind]
    obtain ⟨a1, h1, s1⟩ := place_run x (intRange (j + 1) (ccol + 1)).reverse a ha hi0 hi1 hj0 hj1
      (fun p hp => by
        obtain ⟨q0, q1⟩ := mem_intRange.1 (List.mem_reverse.1 hp)
        omega)
    rw [h1]
    simp only [Option.some_bind]
    obtain ⟨a2, h2, s2⟩ := keepCall_run s1.1 x hi0 (by rw [s1.2.1]; exact hi1) hj0
      (by rw [s1.2.2.1]; exact hj1)
    exact ⟨a2, h2, s1.trans_sh s2⟩
  · rw [if_neg h]
    exact ⟨a, rfl, Shaped.refl_sh ha⟩

/-- A loop over the rows with a body that returns on every row. -/
theorem rows_shaped (f : Abacus → Int → Option Abacus) {a0 a : Abacus} (ha : Shaped a0 a)
    (hf : ∀ b i, Shaped a0 b → 0 ≤ i → i < b.rows → ∃ b', f b i = some b' ∧ Shaped b b') :
    ∃ r, (intRange 0 a.rows).foldlM f a = some r ∧ Shaped a r :=
  foldlM_shaped f (intRange 0 a.rows) a0 (fun b i hi hb => by
    obtain ⟨i0, i1⟩ := mem_intRange.1 hi
    exact hf b i hb i0 (by rw [hb.2.1, ← ha.2.1]; exact i1)) a ha

/-- The columns of the centre third lie between the borders. -/
theorem Shaped.centre {a b : Abacus} (ha : Bordered a) (hb : Shaped a b) {j : Int}
    (h0 : a.window_width ≤ j) (h1 : j < 2 * a.window_width) : 0 ≤ j ∧ j < b.columns := by
  have := ha.2.1
  have := ha.2.2.1
  have := hb.2.2.1
  omega

/-- The two nested loops of `LeftShift` return on a bordered abacus. -/
theorem leftSweep_run {a : Abacus} (ha : Bordered a) : ∃ b, leftSweep a = some b ∧ Shaped a b := by
  unfold leftSweep
  refine foldlM_shaped _ _ a (fun b j hj hb => ?_) a (Shaped.refl_sh ha)
  obtain ⟨j0, j1⟩ := mem_intRange.1 hj
  exact rows_shaped (leftCell j) hb fun b' i hb' i0 i1 =>
    leftCell_run hb'.1 i0 i1 (Shaped.centre ha hb' j0 j1).1 (Shaped.centre ha hb' j0 j1).2

/-- The two nested loops of `RightShift` return on a bordered abacus. -/
theorem rightSweep_run {a : Abacus} (ha : Bordered a) :
    ∃ b, rightSweep a = some b ∧ Shaped a b := by
  unfold rightSweep
  refine foldlM_shaped _ _ a (fun b j hj hb => ?_) a (Shaped.refl_sh ha)
  obtain ⟨j0, j1⟩ := mem_intRange.1 (List.mem_reverse.1 hj)
  exact rows_shaped (rightCell j) hb fun b' i hb' i0 i1 =>
    rightCell_run hb'.1 i0 i1 (Shaped.centre ha hb' j0 j1).1 (Shaped.centre ha hb' j0 j1).2

theorem ResetCalls_run {a : Abacus} (ha : Bordered a) : ∃ b, ResetCalls a = some b ∧ Shaped a b := by
  unfold ResetCalls
  refine foldlM_shaped _ _ a (fun b j hj hb => ?_) a (Shaped.refl_sh ha)
  obtain ⟨j0, j1⟩ := mem_intRange.1 hj
  exact setCall_shaped hb.1 'n' j0 (by rw [hb.2.2.1]; exact j1)

theorem nullColumn_run {a : Abacus} (ha : Bordered a) {j : Int} (hj0 : -1 ≤ j)
    (hj1 : j ≤ a.columns) : ∃ r, nullColumn a j = some r := by
  unfold nullColumn
  obtain ⟨r, hr, -⟩ := foldlM_some (fun (_ : Bool) => True)
    (fun null i => do
      let b ← GetAbacus a i j
      if b ≠ '-' then pure false else pure null) (intRange 0 a.rows) (fun b i hi _ => by
    obtain ⟨i0, i1⟩ := mem_intRange.1 hi
    obtain ⟨c, hc⟩ := ha.cell i0 i1 hj0 hj1
    simp only [hc, Option.bind_eq_bind, Option.some_bind]
    split_ifs
    · exact ⟨false, rfl, trivial⟩
    · exact ⟨b, rfl, trivial⟩) true trivial
  exact ⟨r, hr⟩

theorem lastNonNull_run {a : Abacus} (ha : Bordered a) : ∀ (js : List Int) (last : Int),
    (∀ j, j ∈ js → 0 ≤ j ∧ j < a.columns) →
    ∃ r, lastNonNull a js last = some r ∧ (r = last ∨ r ∈ js) := by
  intro js
  induction js with
  | nil => intro last _; exact ⟨last, rfl, Or.inl rfl⟩
  | cons j js ih =>
    intro last h
    obtain ⟨j0, j1⟩ := h j (List.mem_cons_self _ _)
    obtain ⟨r, hr⟩ := nullColumn_run ha (by omega : -1 ≤ j) (by omega : j ≤ a.columns)
    unfold lastNonNull
    rw [hr]
    cases r with
    | false => exact ⟨last, rfl, Or.inl rfl⟩
    | true =>
      obtain ⟨r2, h2, h3⟩ := ih j (fun k hk => h k (List.mem_cons_of_mem _ hk))
      refine ⟨r2, h2, ?_⟩
      rcases h3 with h3 | h3
      · exact Or.inr (h3 ▸ List.mem_cons_self _ _)
      · exact Or.inr (List.mem_cons_of_mem _ h3)

theorem mergeTest_run {a : Abacus} (ha : Bordered a) {j : Int} (hj0 : 0 ≤ j)
    (hj1 : j + 1 < a.columns) : ∀ (is : List Int) (good : Int),
    (∀ i, i ∈ is → 0 ≤ i ∧ i < a.rows) → ∃ r, mergeTest a j is good = some r := by
  intro is
  induction is with
  | nil => intro good _; exact ⟨_, rfl⟩
  | cons i is ih =>
    intro good h
    obtain ⟨i0, i1⟩ := h i (List.mem_cons_self _ _)
    obtain ⟨b, hb⟩ := ha.cell i0 i1 (by omega : -1 ≤ j) (by omega : j ≤ a.columns)
    obtain ⟨m, hm⟩ := ha.cell i0 i1 (by omega : -1 ≤ j + 1) (by omega : j + 1 ≤ a.columns)
    unfold mergeTest
    rw [hb, hm]
    simp only
    split_ifs
    · exact ⟨_, rfl⟩
    · exact ih _ fun k hk => h k (List.mem_cons_of_mem _ hk)
    · exact ih _ fun k hk => h k (List.mem_cons_of_mem _ hk)

theorem mergeRow_run {a : Abacus} (ha : Bordered a) {i j : Int} (hi0 : 0 ≤ i) (hi1 : i < a.rows)
    (hj0 : 0 ≤ j) (hj1 : j + 1 < a.columns) : ∃ b, mergeRow j a i = some b ∧ Shaped a b := by
  obtain ⟨b, hb⟩ := ha.cell hi0 hi1 (by omega : -1 ≤ j) (by omega : j ≤ a.columns)
  obtain ⟨m, hm⟩ := ha.cell hi0 hi1 (by omega : -1 ≤ j + 1) (by omega : j + 1 ≤ a.columns)
  unfold mergeRow
  simp only [hb, hm, Option.bind_eq_bind, Option.some_bind]
  split_ifs
  · exact ⟨a, rfl, Shaped.refl_sh ha⟩
  · obtain ⟨a1, h1, s1⟩ := SetAbacus_shaped ha m hi0 hi1 hj0 (by omega : j < a.columns)
    rw [h1]
    simp only [Option.some_bind]
    obtain ⟨a2, h2, s2⟩ := SetAbacus_shaped s1.1 b hi0 (by rw [s1.2.1]; exact hi1)
      (by omega : 0 ≤ j + 1) (by rw [s1.2.2.1]; exact hj1)
    exact ⟨a2, h2, s1.trans_sh s2⟩
  · exact ⟨a, rfl, Shaped.refl_sh ha⟩

/-- `MergeAbacus` returns on a bordered abacus and keeps the border. -/
theorem MergeAbacus_run {a : Abacus} (ha : Bordered a) :
    ∃ b n, MergeAbacus a = some (b, n) ∧ Shaped a b := by
  obtain ⟨last, hl, hlast⟩ := lastNonNull_run ha (intRange 1 a.columns).reverse (a.columns - 1)
    (fun j hj => by
      obtain ⟨j0, j1⟩ := mem_intRange.1 (List.mem_reverse.1 hj)
      omega)
  have hle : last < a.columns := by
    rcases hlast with h | h
    · omega
    · exact (mem_intRange.1 (List.mem_reverse.1 h)).2
  unfold MergeAbacus
  simp only [hl, Option.bind_eq_bind, Option.some_bind]
  obtain ⟨r, hr, hs⟩ := foldlM_some (fun (x : Abacus × Int) => Shaped a x.1) mergeColumn
    (intRange 0 last) (fun acc j hj hacc => by
      obtain ⟨j0, j1⟩ := mem_intRange.1 hj
      have hj2 : j + 1 < acc.1.columns := by rw [hacc.2.2.1]; omega
      obtain ⟨t, ht⟩ := mergeTest_run hacc.1 j0 hj2 (intRange 0 acc.1.rows) (-1)
        (fun i hi => mem_intRange.1 hi)
      unfold mergeColumn
      simp only [ht, Option.bind_eq_bind, Option.some_bind]
      split_ifs
      · obtain ⟨b, hb, hsb⟩ := rows_shaped (mergeRow j) hacc fun b' i hb' i0 i1 =>
          mergeRow_run hb'.1 i0 i1 j0 (by rw [hb'.2.2.1]; omega)
        rw [hb]
        exact ⟨_, rfl, hacc.trans_sh hsb⟩
      · exact ⟨acc, rfl, hacc⟩) (a, 0) (Shaped.refl_sh ha)
  exact ⟨r.1, r.2, hr, hs⟩

theorem scoreColumn_calls {rnd : Nat → Int} {counts : Int → Option BaseCount}
    {s r : ScoreState} {j : Int} (h : scoreColumn rnd counts s j = some r) :
    r.abacus.calls.length = s.abacus.calls.length := by
  unfold scoreColumn at h
  cases hc : counts j with
  | none => simp [hc] at h
  | some cj =>
    simp only [hc, Option.bind_eq_bind, Option.some_bind] at h
    split_ifs at h
    · cases hs : setCall s.abacus j 'n' with
      | none => simp [hs] at h
      | some a1 =>
        simp [hs] at h
        rw [← h, (setCall_spec hs).1]
        simp [length_setAt]
    · cases hm : GetMaxBaseCount rnd s.draws cj 0 with
      | none => simp [hm] at h
      | some ck =>
        obtain ⟨c, k⟩ := ck
        simp only [hm, Option.some_bind] at h
        cases hs : setCall s.abacus j c with
        | none => simp [hs] at h
        | some a1 =>
          simp only [hs, Option.some_bind] at h
          cases h1 : countAt cj (BaseToInt c) with
          | none => simp [h1] at h
          | some cc =>
            cases h2 : countAt cj (CNS_NALPHABET - 1) with
            | none => simp [h1, h2] at h
            | some cn =>
              simp [h1, h2] at h
              rw [← h, (setCall_spec hs).1]
              simp [length_setAt]

/-- `ScoreAbacus` writes calls only: the border stays. -/
theorem ScoreAbacus_bordered {rnd : Nat → Int} {k : Nat} {a : Abacus} {s : ScoreState}
    (h : ScoreAbacus rnd k a = some s) (ha : Bordered a) : Bordered s.abacus := by
  have hk := ScoreAbacus_RowsKept h
  have hb := ScoreAbacus_beads h
  have hc : s.abacus.calls.length = a.calls.length :=
    foldlM_inv (fun (b : ScoreState) => b.abacus.calls.length = a.calls.length) _ _
      (fun _ _ _ _ hb hfb => (scoreColumn_calls hfb).trans hb) _ s rfl h
  obtain ⟨a1, a2, a3, a4, a5, a6⟩ := ha
  refine ⟨by rw [hk.1]; exact a1, by rw [hk.2.2.1]; exact a2, by rw [hk.2.1, hk.2.2.1]; exact a3,
    by rw [hb, hk.1, hk.2.1]; exact a4, by rw [hc, hk.2.1]; exact a5, ?_⟩
  intro i i0 i1
  rw [hk.1] at i1
  have e : ∀ j, GetAbacus s.abacus i j = GetAbacus a i j := fun j => by
    unfold GetAbacus Abacus.offset
    rw [hb, hk.2.1]
  rw [e, e, hk.2.1]
  exact a6 i i0 i1

/-- A change of the shift tag keeps the border. -/
theorem Bordered.retag {a : Abacus} (ha : Bordered a) (t : ShiftStatus) :
    Bordered { a with shift := t } := ha

theorem mixedWindow_bounds {a : Abacus} (ha : Bordered a) :
    0 ≤ (mixedWindow a).1 ∧ (mixedWindow a).2 ≤ a.columns := by
  have := ha.2.1
  have := ha.2.2.1
  unfold mixedWindow
  cases a.shift <;> simp only <;> constructor <;> omega

theorem mixedLeftCell_run (p : MixedPlan) (beg : Int) {a : Abacus} (ha : Bordered a) {i j : Int}
    (hi0 : 0 ≤ i) (hi1 : i < a.rows) (hal : (a.rows : Int) ≤ p.alleles.length) (hj0 : 0 ≤ j)
    (hj1 : j < a.columns) : ∃ b, mixedLeftCell p beg j a i = some b ∧ Shaped a b := by
  obtain ⟨al, hal'⟩ := @getAt_of_lt _ p.alleles i hi0 (by omega)
  obtain ⟨x, hx⟩ := ha.cell hi0 hi1 (by omega : -1 ≤ j) (by omega : j ≤ a.columns)
  unfold mixedLeftCell
  simp only [hal', Option.bind_eq_bind, Option.some_bind]
  by_cases hs : al ≠ p.short_allele
  · rw [if_pos hs]
    exact ⟨a, rfl, Shaped.refl_sh ha⟩
  · rw [if_neg hs]
    simp only [hx, Option.some_bind]
    by_cases h : x ≠ '-'
    · rw [if_pos h]
      have hfuel := ha.fuel hi0 hi1
      obtain ⟨ccol, hsc, c0, c1⟩ := scanLeftTo_run ha hi0 hi1 beg (a.beads.length + 1) j hj0
        (by omega) (by push_cast; omega)
      rw [hsc]
      simp only [Option.some_bind]
      obtain ⟨a1, h1, s1⟩ := place_run x (intRange ccol j) a ha hi0 hi1 hj0 hj1 (fun q hq => by
        obtain ⟨q0, q1⟩ := mem_intRange.1 hq
        omega)
      rw [h1]
      simp only [Option.some_bind]
      obtain ⟨a2, h2, s2⟩ := keepCall_run s1.1 x hi0 (by rw [s1.2.1]; exact hi1) hj0
        (by rw [s1.2.2.1]; exact hj1)
      exact ⟨a2, h2, s1.trans_sh s2⟩
    · rw [if_neg h]
      exact ⟨a, rfl, Shaped.refl_sh ha⟩

theorem mixedRightCell_run (p : MixedPlan) (wend : Int) {a : Abacus} (ha : Bordered a)
    {i j : Int} (hi0 : 0 ≤ i) (hi1 : i < a.rows) (hal : (a.rows : Int) ≤ p.alleles.length)
    (hj0 : 0 ≤ j) (hj1 : j < a.columns) :
    ∃ b, mixedRightCell p wend j a i = some b ∧ Shaped a b := by
  obtain ⟨al, hal'⟩ := @getAt_of_lt _ p.alleles i hi0 (by omega)
  obtain ⟨x, hx⟩ := ha.cell hi0 hi1 (by omega : -1 ≤ j) (by omega : j ≤ a.columns)
  unfold mixedRightCell
  simp only [hal', Option.bind_eq_bind, Option.some_bind]
  by_cases hs : al ≠ p.short_allele
  · rw [if_pos hs]
    exact ⟨a, rfl, Shaped.refl_sh ha⟩
  · rw [if_neg hs]
    simp only [hx, Option.some_bind]
    by_cases h : x ≠ '-'
    · rw [if_pos h]
      have hfuel := ha.fuel hi0 hi1
      obtain ⟨ccol, hsc, c0, c1⟩ := scanRightTo_run ha hi0 hi1 wend (a.beads.length + 1) j
        (by omega) hj1 (by push_cast; omega)
      rw [hsc]
      simp only [Option.some_bind]
      obtain ⟨a1, h1, s1⟩ := place_run x (intRange (j + 1) (ccol + 1)).reverse a ha hi0 hi1 hj0
        hj1 (fun q hq => by
          obtain ⟨q0, q1⟩ := mem_intRange.1 (List.mem_reverse.1 hq)
          omega)
      rw [h1]
      simp only [Option.some_bind]
      obtain ⟨a2, h2, s2⟩ := keepCall_run s1.1 x hi0 (by rw [s1.2.1]; exact hi1) hj0
        (by rw [s1.2.2.1]; exact hj1)
      exact ⟨a2, h2, s1.trans_sh s2⟩
    · rw [if_neg h]
      exact ⟨a, rfl, Shaped.refl_sh ha⟩

/-- The call loop and the two passes of `MixedShift` return on a bordered
abacus when the left pass ends before the right border. -/
theorem mixedSweep_run (p : MixedPlan) {a : Abacus} (ha : Bordered a)
    (hal : (a.rows : Int) ≤ p.alleles.length) (ht : a.columns ≤ p.template.length)
    (hl : min (mixedWindow a).2 p.lpos < a.columns) :
    ∃ b, mixedSweep p a = some b ∧ Shaped a b := by
  obtain ⟨w0, w1⟩ := mixedWindow_bounds ha
  unfold mixedSweep
  generalize mixedWindow a = w at w0 w1 hl
  obtain ⟨beg, wend⟩ := w
  have w0' : 0 ≤ beg := w0
  have w1' : wend ≤ a.columns := w1
  have hl' : min wend p.lpos < a.columns := hl
  obtain ⟨a1, h1, s1⟩ := foldlM_shaped
    (fun a j => do
      let t ← getAt p.template j
      setCall a j t) (intRange beg wend) a (fun b j hj hb => by
      obtain ⟨j0, j1⟩ := mem_intRange.1 hj
      obtain ⟨t, ht'⟩ := @getAt_of_lt _ p.template j (by omega) (by omega)
      simp only [ht', Option.bind_eq_bind, Option.some_bind]
      exact setCall_shaped hb.1 t (by omega) (by rw [hb.2.2.1]; omega)) a (Shaped.refl_sh ha)
  simp only [Option.bind_eq_bind] at h1 ⊢
  rw [h1]
  simp only [Option.some_bind]
  obtain ⟨a2, h2, s2⟩ := foldlM_shaped
    (fun a j => (intRange 0 a.rows).foldlM (mixedLeftCell p beg j) a)
    (intRange beg (min wend p.lpos + 1)) a (fun b j hj hb => by
      obtain ⟨j0, j1⟩ := mem_intRange.1 hj
      exact rows_shaped (mixedLeftCell p beg j) hb fun b' i hb' i0 i1 =>
        mixedLeftCell_run p beg hb'.1 i0 i1 (by rw [hb'.2.1]; exact hal) (by omega)
          (by rw [hb'.2.2.1]; omega)) a1 s1
  rw [h2]
  simp only [Option.some_bind]
  obtain ⟨a3, h3, s3⟩ := foldlM_shaped
    (fun a j => (intRange 0 a.rows).foldlM (mixedRightCell p wend j) a)
    (intRange ((if p.rpos > 0 then p.rpos else wend) + 1) wend).reverse a (fun b j hj hb => by
      obtain ⟨j0, j1⟩ := mem_intRange.1 (List.mem_reverse.1 hj)
      have hj0 : 0 ≤ j := by
        split_ifs at j0 <;> omega
      exact rows_shaped (mixedRightCell p wend j) hb fun b' i hb' i0 i1 =>
        mixedRightCell_run p wend hb'.1 i0 i1 (by rw [hb'.2.1]; exact hal) hj0
          (by rw [hb'.2.2.1]; omega)) a2 (s1.trans_sh s2)
  exact ⟨a3, h3, (s1.trans_sh s2).trans_sh s3⟩

theorem countWindow_le (st : Store) (wend : Int) : ∀ (fuel : Nat) (columns : Int)
    (column : Column) (mids : List Int) (r : Int × Column × List Int),
    countWindow st wend fuel columns column mids = some r → columns ≤ r.1 := by
  intro fuel
  induction fuel with
  | zero => intro columns column mids r h; simp [countWindow] at h
  | succ n ih =>
    intro columns column mids r h
    unfold countWindow at h
    split_ifs at h with hc
    · simp only at h
      cases hn : GetColumn st column.next with
      | none => simp [hn] at h
      | some nc =>
        simp only [hn] at h
        have := ih _ _ _ _ h
        omega
    · cases h
      exact le_refl _

theorem assignRows_le {st : Store} {onlyNew : Bool} {acc r : Int × List Int} {bid : Int}
    (h : assignRows st onlyNew acc bid = some r) : acc.1 ≤ r.1 := by
  unfold assignRows at h
  simp only [Option.bind_eq_bind, Option.bind_eq_some, Option.pure_def] at h
  obtain ⟨bead, -, h⟩ := h
  cases onlyNew with
  | true =>
    simp only [if_true, Option.bind_eq_some] at h
    obtain ⟨cur, -, h⟩ := h
    split_ifs at h
    · simp only [Option.bind_eq_some, Option.some.injEq] at h
      obtain ⟨idx, -, h⟩ := h
      rw [← h]
      show acc.1 ≤ acc.1 + 1
      omega
    · cases h
      exact le_refl _
  | false =>
    simp only [Bool.false_eq_true, if_false, Option.bind_eq_some, Option.some.injEq] at h
    obtain ⟨idx, -, h⟩ := h
    rw [← h]
    show acc.1 ≤ acc.1 + 1
    omega

theorem assignColumn_le {st : Store} {onlyNew : Bool} {acc r : Int × List Int} {cid : Int}
    (h : assignColumn st onlyNew acc cid = some r) : acc.1 ≤ r.1 := by
  unfold assignColumn at h
  simp only [Option.bind_eq_bind, Option.bind_eq_some] at h
  obtain ⟨bids, -, h⟩ := h
  exact foldlM_inv (fun (x : Int × List Int) => acc.1 ≤ x.1) _ _
    (fun b x b' _ hb hstep => le_trans hb (assignRows_le hstep)) acc r (le_refl _) h

theorem abacusRows_nonneg {st : Store} {first last : Int} {mids : List Int}
    {r : Int × List Int} (h : abacusRows st first last mids = some r) : 0 ≤ r.1 := by
  unfold abacusRows at h
  simp only [Option.bind_eq_bind, Option.bind_eq_some] at h
  obtain ⟨idx, -, acc1, h1, acc2, h2, h3⟩ := h
  have e1 := assignColumn_le h1
  have e2 := assignColumn_le h2
  have e3 := foldlM_inv (fun (x : Int × List Int) => acc2.1 ≤ x.1) _ _
    (fun b x b' _ hb hstep => le_trans hb (assignColumn_le hstep)) acc2 r (le_refl _) h3
  simp only at e1
  omega

/-- The abacus `CreateAbacus` allocates, all `n`, is bordered. -/
theorem fresh_bordered (wfrom lastlid rows oc : Int) (hr : 0 ≤ rows) (hc : 0 ≤ oc) :
    Bordered
      { start_column := wfrom, end_column := lastlid, rows := rows, window_width := oc,
        columns := 3 * oc, shift := ShiftStatus.UNSHIFTED,
        beads := List.replicate (rows * (3 * oc + 2)).toNat 'n',
        calls := List.replicate (3 * oc).toNat (Char.ofNat 0) } := by
  have hp : 0 ≤ rows * (3 * oc + 2) := mul_nonneg hr (by omega)
  have hlen : (((List.replicate (rows * (3 * oc + 2)).toNat 'n').length : Nat) : Int) =
      rows * (3 * oc + 2) := by
    rw [List.length_replicate, Int.toNat_of_nonneg hp]
  refine ⟨hr, hc, rfl, hlen, ?_, ?_⟩
  · show (((List.replicate (3 * oc).toNat (Char.ofNat 0)).length : Nat) : Int) = 3 * oc
    rw [List.length_replicate, Int.toNat_of_nonneg (by omega)]
  · intro i i0 i1
    have key : ∀ j, -1 ≤ j → j ≤ 3 * oc →
        GetAbacus
          { start_column := wfrom, end_column := lastlid, rows := rows,
            window_width := oc, columns := 3 * oc, shift := ShiftStatus.UNSHIFTED,
            beads := List.replicate (rows * (3 * oc + 2)).toNat 'n',
            calls := List.replicate (3 * oc).toNat (Char.ofNat 0) } i j = some 'n' := by
      intro j j0 j1
      obtain ⟨c, hc'⟩ := GetAbacus_total _ hlen (by show 0 ≤ 3 * oc; omega) i0 i1 j0 j1
      have h2 := hc'
      unfold GetAbacus at h2
      simp only at h2
      rw [getAt_replicate] at h2
      split_ifs at h2
      cases h2
      exact hc'
    exact ⟨key (-1) (le_refl _) (by omega), key (3 * oc) (by omega) (le_refl _)⟩

theorem fillColumn_bordered {st : Store} {idx : List Int} {sc bid : Int} {a b : Abacus}
    (h : fillColumn st idx sc a bid = some b) (ha : Bordered a) : Bordered b := by
  unfold fillColumn at h
  cases h1 : GetBead st bid with
  | none => simp [h1] at h
  | some bead =>
    cases h2 : getAt idx bead.frag_index with
    | none => simp [h1, h2] at h
    | some row =>
      cases h3 : GetBase st bead.soffset with
      | none => simp [h1, h2, h3] at h
      | some c =>
        simp only [h1, h2, h3, Option.bind_eq_bind, Option.some_bind] at h
        exact (SetAbacus_bordered h ha).1

theorem fillWindow_bordered (st : Store) (idx : List Int) (wend oc : Int) :
    ∀ (fuel : Nat) (a : Abacus) (columns : Int) (column : Column) (b : Abacus),
      fillWindow st idx wend oc fuel a columns column = some b → Bordered a → Bordered b := by
  intro fuel
  induction fuel with
  | zero => intro a columns column b h; simp [fillWindow] at h
  | succ n ih =>
    intro a columns column b h ha
    unfold fillWindow at h
    split_ifs at h with hc
    · cases h1 : columnBeads st column.lid with
      | none => simp [h1] at h
      | some bids =>
        simp only [h1] at h
        cases h2 : bids.foldlM (fillColumn st idx (columns + oc)) a with
        | none => simp [h2] at h
        | some a1 =>
          simp only [h2] at h
          cases h3 : GetColumn st column.next with
          | none => simp [h3] at h
          | some nc =>
            simp only [h3] at h
            exact ih a1 _ nc b h (foldlM_inv Bordered _ _
              (fun _ _ _ _ hb hstep => fillColumn_bordered hstep hb) _ _ ha h2)
    · simp at h
      rw [← h]
      exact ha

theorem padRow_bordered {oc i : Int} {a b : Abacus} (h : padRow oc a i = some b)
    (ha : Bordered a) : Bordered b := by
  unfold padRow at h
  cases h1 : (intRange 0 oc).foldlM (fun a j => SetAbacus a i j '-') a with
  | none => simp [h1] at h
  | some a1 =>
    simp only [h1, Option.bind_eq_bind, Option.some_bind] at h
    have b1 : Bordered a1 := foldlM_inv Bordered _ _
      (fun _ _ _ _ hb hstep => (SetAbacus_bordered hstep hb).1) _ _ ha h1
    exact foldlM_inv Bordered _ _
      (fun _ _ _ _ hb hstep => (SetAbacus_bordered hstep hb).1) _ _ b1 h

/-- The abacus `CreateAbacus` returns is bordered, and its window is not
empty. -/
theorem CreateAbacus_bordered {st st1 : Store} {mid wfrom wend : Int} {a : Abacus}
    (h : CreateAbacus st mid wfrom wend = some (st1, a)) :
    Bordered a ∧ 0 < a.window_width ∧ a.shift = ShiftStatus.UNSHIFTED := by
  have hspec := CreateAbacus_spec h
  unfold CreateAbacus at h
  cases h1 : GetMANode st mid with
  | none => simp [h1] at h
  | some m =>
    cases h2 : GetColumn st wfrom with
    | none => simp [h1, h2] at h
    | some column =>
      simp only [h1, h2, Option.bind_eq_bind, Option.some_bind] at h
      cases h3 : countWindow st wend (st.columnStore.length + 1) 1 column [] with
      | none => simp [h3] at h
      | some r3 =>
        obtain ⟨oc, last, mids⟩ := r3
        simp only [h3, Option.some_bind] at h
        cases h4 : abacusRows st column.lid last.lid mids with
        | none => simp [h4] at h
        | some r4 =>
          obtain ⟨rows, idx⟩ := r4
          simp only [h4, Option.some_bind] at h
          have hoc : 1 ≤ oc := countWindow_le st wend _ _ _ _ _ h3
          have hrows : 0 ≤ rows := abacusRows_nonneg h4
          cases h5 : fillWindow st idx wend oc (st.columnStore.length + 1)
              { start_column := wfrom, end_column := last.lid, rows := rows, window_width := oc,
                columns := 3 * oc, shift := ShiftStatus.UNSHIFTED,
                beads := List.replicate (rows * (3 * oc + 2)).toNat 'n',
                calls := List.replicate (3 * oc).toNat (Char.ofNat 0) } 0 column with
          | none => simp [h5] at h
          | some a1 =>
            simp only [h5, Option.some_bind] at h
            cases h6 : (intRange 0 rows).foldlM (padRow oc) a1 with
            | none => simp [h6] at h
            | some a2 =>
              simp only [h6, Option.some_bind] at h
              cases h7 : ResetCalls a2 with
              | none => simp [h7] at h
              | some a3 =>
                simp only [h7, Option.some_bind] at h
                simp at h
                obtain ⟨hs, ha⟩ := h
                subst ha
                have b1 : Bordered a1 := fillWindow_bordered _ _ _ _ _ _ _ _ _ h5
                  (fresh_bordered wfrom last.lid rows oc hrows (by omega))
                have b2 : Bordered a2 := foldlM_inv Bordered _ _
                  (fun _ _ _ _ hb hstep => padRow_bordered hstep hb) _ _ b1 h6
                have b3 : Bordered a3 := foldlM_inv Bordered _ _
                  (fun _ _ _ _ hb hstep => (setCall_bordered hstep hb).1) _ _ b2 h7
                have hf : a3.frame = _ := (ResetCalls_frame h7).trans
                  ((foldlM_frame _ _ (fun _ _ _ hb => padRow_frame hb) _ _ h6).trans
                    (fillWindow_frame _ _ _ _ _ _ _ _ _ h5))
                simp only [Abacus.frame, Prod.mk.injEq] at hf
                exact ⟨b3, by rw [hf.2.2.2.2.1]; omega, hspec.1⟩

/-- C40 (amended): the abacus `CreateAbacus` builds, and its clone, is
bordered: every row holds `n` at the column positions `-1` and `columns`
(`Bordered`, with the shape of the arrays).  On a bordered abacus the scans
of the shift routines over a run of gaps stop inside the row, and a call of
`SetAbacus` on a cell of the rows passes the two range checks.  The loops of
`LeftShift`, of `RightShift` and of `MergeAbacus` return, so no call of
`SetAbacus` they make aborts, and the abacus they leave is bordered; so is
the abacus `ScoreAbacus` leaves at their end.  For `MixedShift` the same
holds when the left pass stays off the right border, `min(window_end, lpos)
< columns`, as it does for an abacus tagged `LEFT_SHIFT` or `UNSHIFTED` with
a window that is not empty and for every `lpos < columns` (the allele array
covering the rows and the template the columns). -/
theorem shifts_keep_border (rnd : Nat → Int) (k : Nat) (p : MixedPlan) (a : Abacus)
    (ha : Bordered a) :
    (∀ st mid wfrom wend st1 b, CreateAbacus st mid wfrom wend = some (st1, b) →
      Bordered b ∧ Bordered (CloneAbacus b) ∧ 0 < b.window_width) ∧
    (∀ i j, 0 ≤ i → i < a.rows → 0 ≤ j → j < a.columns →
      (∃ c, scanLeft a i (a.beads.length + 1) j = some c ∧ 0 ≤ c ∧ c ≤ j) ∧
      (∃ c, scanRight a i (a.beads.length + 1) j = some c ∧ j ≤ c ∧ c < a.columns) ∧
      (∀ beg, ∃ c, scanLeftTo a i beg (a.beads.length + 1) j = some c ∧ 0 ≤ c ∧ c ≤ j) ∧
      (∀ wend, ∃ c, scanRightTo a i wend (a.beads.length + 1) j = some c ∧ j ≤ c ∧
        c < a.columns) ∧
      ∀ ch, ∃ b, SetAbacus a i j ch = some b ∧ Bordered b) ∧
    (∃ a1 a2 a3 n, ResetCalls a = some a1 ∧ leftSweep a1 = some a2 ∧
      MergeAbacus a2 = some (a3, n) ∧ Bordered a1 ∧ Bordered a2 ∧ Bordered a3 ∧
      LeftShift rnd k a = ScoreAbacus rnd k { a3 with shift := ShiftStatus.LEFT_SHIFT } ∧
      ∀ s, LeftShift rnd k a = some s → Bordered s.abacus) ∧
    (∃ a1 a2 a3 n, ResetCalls a = some a1 ∧ rightSweep a1 = some a2 ∧
      MergeAbacus a2 = some (a3, n) ∧ Bordered a1 ∧ Bordered a2 ∧ Bordered a3 ∧
      RightShift rnd k a = ScoreAbacus rnd k { a3 with shift := ShiftStatus.RIGHT_SHIFT } ∧
      ∀ s, RightShift rnd k a = some s → Bordered s.abacus) ∧
    (∃ b n, MergeAbacus a = some (b, n) ∧ Bordered b) ∧
    ((a.rows : Int) ≤ p.alleles.length → a.columns ≤ p.template.length →
      min (mixedWindow a).2 p.lpos < a.columns →
      ∃ a1 a2 a3 n, ResetCalls a = some a1 ∧ mixedSweep p a1 = some a2 ∧
        MergeAbacus a2 = some (a3, n) ∧ Bordered a1 ∧ Bordered a2 ∧ Bordered a3 ∧
        MixedShift rnd k p a = ScoreAbacus rnd k { a3 with shift := ShiftStatus.MIXED_SHIFT } ∧
        ∀ s, MixedShift rnd k p a = some s → Bordered s.abacus) ∧
    (0 < a.window_width →
      a.shift = ShiftStatus.LEFT_SHIFT ∨ a.shift = ShiftStatus.UNSHIFTED ∨ p.lpos < a.columns →
      min (mixedWindow a).2 p.lpos < a.columns) := by
  obtain ⟨a1, r1, s1⟩ := ResetCalls_run ha
  have hshift : a1.shift = a.shift := by
    have := ResetCalls_frame r1
    simp only [Abacus.frame, Prod.mk.injEq] at this
    exact this.2.2.2.2.2
  refine ⟨?_, ?_, ?_, ?_, ?_, ?_, ?_⟩
  · intro st mid wfrom wend st1 b h
    obtain ⟨h1, h2, -⟩ := CreateAbacus_bordered h
    exact ⟨h1, h1, h2⟩
  · intro i j i0 i1 j0 j1
    have hfuel := ha.fuel i0 i1
    refine ⟨scanLeft_run ha i0 i1 _ j j0 (by omega) (by push_cast; omega),
      scanRight_run ha i0 i1 _ j (by omega) j1 (by push_cast; omega),
      fun beg => scanLeftTo_run ha i0 i1 beg _ j j0 (by omega) (by push_cast; omega),
      fun wend => scanRightTo_run ha i0 i1 wend _ j (by omega) j1 (by push_cast; omega),
      fun ch => ?_⟩
    obtain ⟨b, hb, hs⟩ := SetAbacus_shaped ha ch i0 i1 j0 j1
    exact ⟨b, hb, hs.1⟩
  · obtain ⟨a2, r2, s2⟩ := leftSweep_run s1.1
    obtain ⟨a3, n, r3, s3⟩ := MergeAbacus_run s2.1
    have e : LeftShift rnd k a =
        ScoreAbacus rnd k { a3 with shift := ShiftStatus.LEFT_SHIFT } := by
      unfold LeftShift
      simp only [r1, r2, r3, Option.bind_eq_bind, Option.some_bind]
    exact ⟨a1, a2, a3, n, r1, r2, r3, s1.1, s2.1, s3.1, e, fun s hs =>
      ScoreAbacus_bordered (e ▸ hs) (s3.1.retag _)⟩
  · obtain ⟨a2, r2, s2⟩ := rightSweep_run s1.1
    obtain ⟨a3, n, r3, s3⟩ := MergeAbacus_run s2.1
    have e : RightShift rnd k a =
        ScoreAbacus rnd k { a3 with shift := ShiftStatus.RIGHT_SHIFT } := by
      unfold RightShift
      simp only [r1, r2, r3, Option.bind_eq_bind, Option.some_bind]
    exact ⟨a1, a2, a3, n, r1, r2, r3, s1.1, s2.1, s3.1, e, fun s hs =>
      ScoreAbacus_bordered (e ▸ hs) (s3.1.retag _)⟩
  · obtain ⟨b, n, r, s⟩ := MergeAbacus_run ha
    exact ⟨b, n, r, s.1⟩
  · intro hal ht hl
    have hw : mixedWindow a1 = mixedWindow a := by
      unfold mixedWindow
      rw [hshift, s1.2.2.2]
    obtain ⟨a2, r2, s2⟩ := mixedSweep_run p s1.1 (by rw [s1.2.1]; exact hal)
      (by rw [s1.2.2.1]; exact ht) (by rw [hw, s1.2.2.1]; exact hl)
    obtain ⟨a3, n, r3, s3⟩ := MergeAbacus_run s2.1
    have e : MixedShift rnd k p a =
        ScoreAbacus rnd k { a3 with shift := ShiftStatus.MIXED_SHIFT } := by
      unfold MixedShift
      simp only [r1, r2, r3, Option.bind_eq_bind, Option.some_bind]
    exact ⟨a1, a2, a3, n, r1, r2, r3, s1.1, s2.1, s3.1, e, fun s hs =>
      ScoreAbacus_bordered (e ▸ hs) (s3.1.retag _)⟩
  · intro hw hcase
    have hc := ha.2.2.1
    rcases hcase with h | h | h
    · have e : (mixedWindow a).2 = a.window_width := by
        unfold mixedWindow
        rw [h]
      have := min_le_left (mixedWindow a).2 p.lpos
      omega
    · have e : (mixedWindow a).2 = 2 * a.window_width := by
        unfold mixedWindow
        rw [h]
      have := min_le_left (mixedWindow a).2 p.lpos
      omega
    · exact lt_of_le_of_lt (min_le_right _ _) h

theorem shifts_keep_border_witness :
    ∃ st st1 a b n, stackMixed = some st ∧ CreateAbacus st 0 0 4 = some (st1, a) ∧
      Bordered a ∧ MergeAbacus a = some (b, n) ∧ Bordered b ∧
      ∃ a1 a2, ResetCalls a = some a1 ∧ leftSweep a1 = some a2 ∧ Bordered a2 := by
  obtain ⟨st, st1, a, h0, h1⟩ : ∃ st st1 a, stackMixed = some st ∧
      CreateAbacus st 0 0 4 = some (st1, a) := ⟨_, _, _, rfl, rfl⟩
  have hb := (CreateAbacus_bordered h1).1
  obtain ⟨-, -, ⟨a1, a2, -, -, r1, r2, -, -, b2, -⟩, -, ⟨b, n, hm, hbb⟩, -, -⟩ :=
    shifts_keep_border (fun _ => 0) 0 planMixed a hb
  exact ⟨st, st1, a, b, n, h0, h1, hb, hm, hbb, a1, a2, r1, r2, b2⟩

/-- On the abacus of `stackMixed` after `RightShift`, `MixedShift` with
`lpos = 12 = columns` for row 1 visits the column position 12: the cell there
is the border `n`, the cell left of it is a gap, and the call
`SetAbacus(abacus, 1, 12, '-')` that follows fails its range check;
`MixedShift` does not return.  With `lpos = 11` it returns. -/
theorem mixedShift_reaches_border :
    borderVisit = (some 'n', some 11, false, false, true) := by
  decide!

theorem Keep.refl_k (st : Store) : Keep st st := ⟨Quiet.refl_q st, BSame.refl_b st⟩

theorem Keep.trans_k {a b c : Store} (h1 : Keep a b) (h2 : Keep b c) : Keep a c :=
  ⟨h1.1.trans_q h2.1, h1.2.trans_b h2.2⟩

theorem BSame.length_b {st st' : Store} (h : BSame st st') :
    st'.beadStore.length = st.beadStore.length := by
  have key : ∀ j : Int, (GetBead st' j).isSome = (GetBead st j).isSome := by
    intro j
    have := congrArg Option.isSome (h j)
    simpa using this
  have h1 := key (st.beadStore.length : Int)
  have h2 := key (st'.beadStore.length : Int)
  unfold GetBead at h1 h2
  have a1 := getAt_isSome_iff st'.beadStore (st.beadStore.length : Int)
  have a2 := getAt_isSome_iff st.beadStore (st.beadStore.length : Int)
  have a3 := getAt_isSome_iff st'.beadStore (st'.beadStore.length : Int)
  have a4 := getAt_isSome_iff st.beadStore (st'.beadStore.length : Int)
  rw [h1] at a1
  rw [h2] at a3
  by_contra hne
  rcases Nat.lt_or_gt_of_ne hne with hlt | hgt
  · have : (getAt st.beadStore (st'.beadStore.length : Int)).isSome := a4.2 ⟨by omega, by omega⟩
    have := a3.1 this
    omega
  · have : (getAt st.beadStore (st.beadStore.length : Int)).isSome := a1.2 ⟨by omega, by omega⟩
    have := a2.1 this
    omega

theorem Strand.keep_s {st st' : Store} {a : Int} {l : List (Int × Char)} (hk : Keep st st')
    (h : Strand st a l) : Strand st' a l := by
  refine ⟨Fwd_congr _ _ (fun j _ => hk.1.1.2.2.1 j) h.1, fun p hp => ?_⟩
  obtain ⟨h1, h2⟩ := h.2 p hp
  exact ⟨by rw [hk.2 p.1]; exact h1, by rw [hk.1.chars_q p.1]; exact h2⟩

theorem Own.bead {st : Store} {j : Int} {c : Char} (h : Own st j c) :
    ∃ b, GetBead st j = some b ∧ b.boffset = j ∧ GetBase st b.soffset = some c := by
  obtain ⟨h1, h2⟩ := h
  cases hb : GetBead st j with
  | none => simp [hb] at h1
  | some b =>
    refine ⟨b, rfl, ?_, ?_⟩
    · simpa [hb] using h1
    · unfold beadChar at h2
      simpa [hb] using h2

theorem deltaLoop_strand {st : Store} {length : Int} :
    ∀ (l : List (Int × Char)) (fuel : Nat) (a index : Int) (deltas : List Int),
      Strand st a l → InRange length (l.map Prod.snd) index → l.length < fuel →
      deltaLoop st length fuel a index deltas =
        some (deltas ++ gapIndexes (l.map Prod.snd) index) := by
  intro l
  induction l with
  | nil =>
    intro fuel a index deltas hs _ hf
    have ha : a = -1 := hs.1
    subst ha
    obtain ⟨f, rfl⟩ : ∃ f, fuel = f + 1 := ⟨fuel - 1, by simp at hf; omega⟩
    simp [deltaLoop, NextFragmentBead, gapIndexes]
  | cons p r ih =>
    intro fuel a index deltas hs hr hf
    obtain ⟨x, c⟩ := p
    obtain ⟨hfw, hown⟩ := hs
    obtain ⟨e, n, hn, hrest⟩ := hfw
    have e' : a = x := e
    subst e'
    obtain ⟨b, hb, hbo, hbc⟩ := (hown (a, c) (List.mem_cons_self _ _)).bead
    have hb' : GetBead st a = some b := hb
    have hbo' : b.boffset = a := hbo
    have hnext : b.next = n := by
      have := nextOf_get hb'
      have hn' : nextOf st a = some n := hn
      rw [hn'] at this
      exact (Option.some.inj this).symm
    have ha1 : a ≠ -1 := by
      have := (GetBead_some_range hb').1
      omega
    obtain ⟨hlt, hr'⟩ : index < length ∧
        InRange length (r.map Prod.snd) (if c = '-' then index else index + 1) := hr
    obtain ⟨f, rfl⟩ : ∃ f, fuel = f + 1 := ⟨fuel - 1, by simp at hf; omega⟩
    have hf' : r.length < f := by simp at hf; omega
    have hsr : Strand st n r := ⟨hrest, fun q hq => hown q (List.mem_cons_of_mem _ hq)⟩
    unfold deltaLoop
    simp only [NextFragmentBead, if_neg ha1, hb', hbo', hnext]
    rw [if_pos ⟨ha1, hlt⟩]
    have hbc' : GetBase st b.soffset = some c := hbc
    simp only [hbc']
    by_cases hc : c = '-'
    · rw [if_pos hc, ih f n index _ hsr (by rw [if_pos hc] at hr'; exact hr') hf']
      simp [gapIndexes, hc]
    · rw [if_neg hc, ih f n (index + 1) _ hsr (by rw [if_neg hc] at hr'; exact hr') hf']
      simp [gapIndexes, hc]

theorem Fwd_insert {st s1 : Store} {x g n : Int} (hx : nextOf st x = some n)
    (hg : ∀ j, nextOf s1 j = if j = g then some n else if j = x then some g else nextOf st j) :
    ∀ (P Q : List Int) (a : Int), Fwd st a (P ++ x :: Q) → g ∉ P ++ x :: Q →
      Fwd s1 a (P ++ x :: g :: Q) := by
  intro P
  induction P with
  | nil =>
    intro Q a h hgn
    have hnd := Fwd_nodup _ _ h
    obtain ⟨e, m, hm, hr⟩ := h
    have hxm : nextOf st x = some m := hm
    rw [hx] at hxm
    cases hxm
    have hxg : x ≠ g := fun e1 => hgn (by rw [← e1]; exact List.mem_cons_self _ _)
    refine ⟨e, g, ?_, rfl, n, ?_, ?_⟩
    · show nextOf s1 x = some g
      rw [hg x, if_neg hxg, if_pos rfl]
    · show nextOf s1 g = some n
      rw [hg g, if_pos rfl]
    · refine Fwd_congr Q n (fun j hj => ?_) hr
      have hjg : j ≠ g := fun e1 => hgn (by rw [← e1]; exact List.mem_cons_of_mem _ hj)
      have hjx : j ≠ x := fun e1 => by
        have h1 : x ∉ Q := (List.nodup_cons.1 hnd).1
        exact h1 (by rw [← e1]; exact hj)
      rw [hg j, if_neg hjg, if_neg hjx]
  | cons y P ih =>
    intro Q a h hgn
    have hnd := Fwd_nodup _ _ h
    obtain ⟨e, m, hm, hr⟩ := h
    have hyg : y ≠ g := fun e1 => hgn (by rw [← e1]; exact List.mem_cons_self _ _)
    have hyx : y ≠ x := fun e1 => by
      have h1 : y ∉ P ++ x :: Q := (List.nodup_cons.1 hnd).1
      exact h1 (by rw [e1]; simp)
    refine ⟨e, m, ?_, ih Q m hr (fun hm1 => hgn (List.mem_cons_of_mem _ hm1))⟩
    show nextOf s1 y = some m
    rw [hg y, if_neg hyg, if_neg hyx]
    exact hm

theorem AppendGapBead_strand {st s1 : Store} {a x g : Int} {c : Char} {P Q : List (Int × Char)}
    (hs : Strand st a (P ++ (x, c) :: Q)) (h : AppendGapBead st x = some (s1, g)) :
    Strand s1 a (P ++ (x, c) :: (g, '-') :: Q) ∧
      s1.beadStore.length = st.beadStore.length + 1 ∧ s1.fragmentStore = st.fragmentStore := by
  obtain ⟨y, qv, hy, hg, hgn, hseq, -, hfr, -, hnx, -, hso, hbo⟩ := AppendGapBead_rows h
  obtain ⟨-, -, -, -, -, -, -, -, -, -, -, -, hlen, -⟩ := AppendGapBead_spec h
  have hfresh : ∀ p, p ∈ P ++ (x, c) :: Q → p.1 ≠ g := by
    intro p hp e
    obtain ⟨b, hb, -, -⟩ := (hs.2 p hp).bead
    rw [e, hgn] at hb
    cases hb
  have hch : ∀ j, beadChar s1 j = ((GetBead s1 j).map Bead.soffset).bind (GetBase s1) := by
    intro j
    unfold beadChar
    cases GetBead s1 j <;> rfl
  have hch0 : ∀ j, beadChar st j = ((GetBead st j).map Bead.soffset).bind (GetBase st) := by
    intro j
    unfold beadChar
    cases GetBead st j <;> rfl
  have hold : ∀ p, p ∈ P ++ (x, c) :: Q → Own s1 p.1 p.2 := by
    intro p hp
    have hpg := hfresh p hp
    have ho := hs.2 p hp
    obtain ⟨b, hb, -, hbc⟩ := ho.bead
    refine ⟨by rw [hbo p.1, if_neg hpg]; exact ho.1, ?_⟩
    rw [hch, hso p.1, if_neg hpg, hb]
    simp only [Option.map_some', Option.some_bind]
    unfold GetBase at hbc ⊢
    rw [hseq]
    exact getAt_append_some hbc
  have hnew : Own s1 g '-' := by
    refine ⟨by rw [hbo g, if_pos rfl], ?_⟩
    rw [hch, hso g, if_pos rfl]
    simp only [Option.some_bind]
    unfold GetBase
    rw [hseq]
    exact getAt_length_append _ _
  refine ⟨⟨?_, ?_⟩, hlen, hfr⟩
  · have hfw := hs.1
    simp only [List.map_append, List.map_cons] at hfw ⊢
    refine Fwd_insert (nextOf_get hy) hnx _ _ a hfw ?_
    intro hmem
    have : g ∈ (P ++ (x, c) :: Q).map Prod.fst := by
      simpa only [List.map_append, List.map_cons] using hmem
    obtain ⟨p, hp, e⟩ := List.mem_map.1 this
    exact hfresh p hp e
  · intro p hp
    rcases List.mem_append.1 hp with h1 | h1
    · exact hold p (List.mem_append_left _ h1)
    · rcases List.mem_cons.1 h1 with h2 | h2
      · subst h2
        exact hold _ (List.mem_append_right _ (List.mem_cons_self _ _))
      · rcases List.mem_cons.1 h2 with h3 | h3
        · subst h3
          exact hnew
        · exact hold p (List.mem_append_right _ (List.mem_cons_of_mem _ h3))

theorem impAlign_keep (bb : Int) : ∀ (n : Nat) (st : Store) (apos bpos : Int) (st1 : Store)
    (apos1 bpos1 : Int), impAlign bb n st apos bpos = some (st1, apos1, bpos1) →
    Keep st st1 ∧ apos1 = apos + n ∧ bpos1 = bpos + n := by
  intro n
  induction n with
  | zero =>
    intro st apos bpos st1 apos1 bpos1 h
    simp only [impAlign, Option.some.injEq, Prod.mk.injEq] at h
    obtain ⟨rfl, rfl, rfl⟩ := h
    exact ⟨Keep.refl_k _, by simp, by simp⟩
  | succ n ih =>
    intro st apos bpos st1 apos1 bpos1 h
    unfold impAlign at h
    cases hb : GetBead st apos with
    | none => simp [hb] at h
    | some abead =>
      simp only [hb] at h
      cases ha : AlignBead st abead.column_index (bb + bpos) with
      | none => simp [ha] at h
      | some r =>
        obtain ⟨s2, r2⟩ := r
        simp only [ha] at h
        obtain ⟨hk, e1, e2⟩ := ih _ _ _ _ _ _ h
        refine ⟨Keep.trans_k ⟨AlignBead_quiet ha, AlignBead_bsame ha⟩ hk, ?_, ?_⟩
        · rw [e1]; push_cast; ring
        · rw [e2]; push_cast; ring

theorem rowFrom_cons (b : Int) (c : Char) (cs : List Char) :
    rowFrom b (c :: cs) = (b, c) :: rowFrom (b + 1) cs := rfl

theorem gapIndexes_cons (c : Char) (cs : List Char) (i : Int) :
    gapIndexes (c :: cs) i = if c = '-' then i :: gapIndexes cs i else gapIndexes cs (i + 1) :=
  rfl

theorem nonGaps_cons (c : Char) (cs : List Char) :
    nonGaps (c :: cs) = if c = '-' then nonGaps cs else nonGaps cs + 1 := rfl

theorem rowFrom_append : ∀ (xs ys : List Char) (b : Int),
    rowFrom b (xs ++ ys) = rowFrom b xs ++ rowFrom (b + xs.length) ys := by
  intro xs
  induction xs with
  | nil => intro ys b; simp [rowFrom]
  | cons x xs ih =>
    intro ys b
    have e : b + 1 + (xs.length : Int) = b + (((x :: xs).length : Nat) : Int) := by
      rw [List.length_cons]
      push_cast
      ring
    rw [List.cons_append, rowFrom_cons, rowFrom_cons, ih, List.cons_append, e]

theorem rowFrom_fst : ∀ (cs : List Char) (b : Int),
    (rowFrom b cs).map Prod.fst = idsFrom b cs.length := by
  intro cs
  induction cs with
  | nil => intro b; simp [rowFrom, idsFrom]
  | cons c cs ih =>
    intro b
    rw [List.length_cons, idsFrom_succ]
    simp only [rowFrom, List.map_cons, ih]

theorem rowFrom_snd : ∀ (cs : List Char) (b : Int), (rowFrom b cs).map Prod.snd = cs := by
  intro cs
  induction cs with
  | nil => intro b; rfl
  | cons c cs ih =>
    intro b
    simp only [rowFrom, List.map_cons, ih]

theorem rowFrom_length (cs : List Char) (b : Int) : (rowFrom b cs).length = cs.length := by
  have := congrArg List.length (rowFrom_snd cs b)
  simpa using this

theorem gapIndexes_append : ∀ (xs ys : List Char) (i : Int),
    gapIndexes (xs ++ ys) i = gapIndexes xs i ++ gapIndexes ys (i + nonGaps xs) := by
  intro xs
  induction xs with
  | nil => intro ys i; simp [gapIndexes, nonGaps]
  | cons x xs ih =>
    intro ys i
    rw [List.cons_append, gapIndexes_cons, gapIndexes_cons, nonGaps_cons]
    by_cases hx : x = '-'
    · rw [if_pos hx, if_pos hx, if_pos hx, ih, List.cons_append]
    · have e : i + 1 + (nonGaps xs : Int) = i + ((nonGaps xs + 1 : Nat) : Int) := by
        push_cast
        ring
      rw [if_neg hx, if_neg hx, if_neg hx, ih, e]

theorem nonGaps_append : ∀ (xs ys : List Char), nonGaps (xs ++ ys) = nonGaps xs + nonGaps ys := by
  intro xs
  induction xs with
  | nil => intro ys; simp [nonGaps]
  | cons x xs ih =>
    intro ys
    rw [List.cons_append, nonGaps_cons, nonGaps_cons]
    by_cases hx : x = '-'
    · rw [if_pos hx, if_pos hx, ih]
    · rw [if_neg hx, if_neg hx, ih]
      omega

theorem InRange_append {length : Int} : ∀ (xs ys : List Char) (i : Int),
    InRange length xs i → InRange length ys (i + nonGaps xs) → InRange length (xs ++ ys) i := by
  intro xs
  induction xs with
  | nil => intro ys i _ h; simpa [nonGaps] using h
  | cons x xs ih =>
    intro ys i h1 h2
    obtain ⟨hlt, hr⟩ := h1
    refine ⟨hlt, ?_⟩
    by_cases hx : x = '-'
    · rw [if_pos hx] at hr ⊢
      refine ih ys i hr ?_
      simpa [nonGaps, hx] using h2
    · rw [if_neg hx] at hr ⊢
      refine ih ys (i + 1) hr ?_
      have e : i + 1 + (nonGaps xs : Int) = i + ((nonGaps (x :: xs) : Nat) : Int) := by
        simp only [nonGaps, if_neg hx]
        push_cast
        ring
      rw [e]
      exact h2

theorem gaps_spec {length : Int} : ∀ (G : List Char) (i : Int), (∀ c, c ∈ G → c = '-') →
    gapIndexes G i = List.replicate G.length i ∧ nonGaps G = 0 ∧
      (i < length → InRange length G i) := by
  intro G
  induction G with
  | nil => intro i _; exact ⟨rfl, rfl, fun _ => trivial⟩
  | cons c G ih =>
    intro i h
    have hc : c = '-' := h c (List.mem_cons_self _ _)
    obtain ⟨h1, h2, h3⟩ := ih i (fun d hd => h d (List.mem_cons_of_mem _ hd))
    refine ⟨?_, ?_, fun hi => ⟨hi, ?_⟩⟩
    · simp [gapIndexes, hc, h1, List.replicate_succ]
    · simp [nonGaps, hc, h2]
    · rw [if_pos hc]
      exact h3 hi

theorem bases_spec {length : Int} : ∀ (X : List Char) (i : Int), (∀ c, c ∈ X → c ≠ '-') →
    gapIndexes X i = [] ∧ nonGaps X = X.length ∧
      (i + X.length ≤ length → InRange length X i) := by
  intro X
  induction X with
  | nil => intro i _; exact ⟨rfl, rfl, fun _ => trivial⟩
  | cons c X ih =>
    intro i h
    have hc : c ≠ '-' := h c (List.mem_cons_self _ _)
    obtain ⟨h1, h2, h3⟩ := ih (i + 1) (fun d hd => h d (List.mem_cons_of_mem _ hd))
    refine ⟨?_, ?_, fun hi => ⟨?_, ?_⟩⟩
    · simp [gapIndexes, hc, h1]
    · simp [nonGaps, hc, h2]
    · simp only [List.length_cons] at hi
      push_cast at hi
      omega
    · rw [if_neg hc]
      refine h3 ?_
      simp only [List.length_cons] at hi
      push_cast at hi
      omega

theorem Laid.keep_l {bb : Int} {cs : List Char} {st st' : Store} {t : Nat} {D : List Int}
    (hk : Keep st st') (h : Laid bb cs st t D) : Laid bb cs st' t D := by
  obtain ⟨P, G, h1, h2⟩ := h
  exact ⟨P, G, h1.keep_s hk, h2⟩

theorem impGap_laid {bb : Int} {cs : List Char} (hcs : ∀ c, c ∈ cs → c ≠ '-') {st s1 : Store}
    {t v : Nat} {D : List Int} {apos r : Int} (hl : Laid bb cs st t D) (hv1 : 1 ≤ v)
    (htv : t ≤ v) (hvb : v < cs.length) (h : impGap bb st apos v = some (s1, r)) :
    Laid bb cs s1 v (D ++ [(v : Int)]) ∧ s1.beadStore.length = st.beadStore.length + 1 ∧
      s1.fragmentStore = st.fragmentStore := by
  unfold impGap at h
  cases hb : GetBead st apos with
  | none => simp [hb] at h
  | some abead =>
    simp only [hb] at h
    cases ha : AppendGapBead st (bb + v - 1) with
    | none => simp [ha] at h
    | some q =>
      obtain ⟨s2, g⟩ := q
      simp only [ha] at h
      have hk : Keep s2 s1 := ⟨AlignBead_quiet h, AlignBead_bsame h⟩
      obtain ⟨P, G, hst, hin, hng, hG, hD, hlast, htl, hlen⟩ := hl
      have hfin : ∀ {l : List (Int × Char)} {D' : List Int} {w : Nat},
          Strand s2 bb l → s2.beadStore.length = st.beadStore.length + 1 →
          s2.fragmentStore = st.fragmentStore →
          (Strand s1 bb l → Laid bb cs s1 w D') →
          Laid bb cs s1 w D' ∧ s1.beadStore.length = st.beadStore.length + 1 ∧
            s1.fragmentStore = st.fragmentStore := by
        intro l D' w h1 h2 h3 h4
        refine ⟨h4 (h1.keep_s hk), ?_, ?_⟩
        · rw [hk.2.length_b, h2]
        · rw [hk.1.1.1, h3]
      rcases Nat.eq_or_lt_of_le htv with e | hlt
      · subst e
        obtain ⟨P0, c, hP⟩ := hlast (by omega)
        have e1 : P ++ (G ++ rowFrom (bb + t) (cs.drop t)) =
            P0 ++ (bb + t - 1, c) :: (G ++ rowFrom (bb + t) (cs.drop t)) := by
          rw [hP]
          simp
        rw [e1] at hst
        obtain ⟨hs2, hn2, hf2⟩ := AppendGapBead_strand hst ha
        refine hfin hs2 hn2 hf2 fun hs1 => ⟨P, (g, '-') :: G, ?_, hin, hng, ?_, ?_, hlast, htl, ?_⟩
        · have e2 : P ++ ((g, '-') :: G ++ rowFrom (bb + t) (cs.drop t)) =
              P0 ++ (bb + t - 1, c) :: (g, '-') :: (G ++ rowFrom (bb + t) (cs.drop t)) := by
            rw [hP]
            simp
          rw [e2]
          exact hs1
        · intro p hp
          rcases List.mem_cons.1 hp with h1 | h1
          · rw [h1]
          · exact hG p h1
        · rw [hD, List.length_cons, List.replicate_succ', List.append_assoc]
        · simp only [List.length_cons, List.length_append, List.length_nil]
          omega
      · have hsplit : cs.drop t = (cs.drop t).take (v - t) ++ cs.drop v := by
          have := (List.take_append_drop (v - t) (cs.drop t)).symm
          rw [List.drop_drop] at this
          have e : t + (v - t) = v := by omega
          rw [e] at this
          exact this
        have hXlen : ((cs.drop t).take (v - t)).length = v - t := by
          rw [List.length_take, List.length_drop]
          omega
        have hXne : (cs.drop t).take (v - t) ≠ [] := by
          intro e
          rw [e] at hXlen
          simp at hXlen
          omega
        obtain ⟨X0, c, hX⟩ : ∃ X0 c, (cs.drop t).take (v - t) = X0 ++ [c] :=
          ⟨_, _, (List.dropLast_append_getLast hXne).symm⟩
        have hX0len : X0.length + 1 = v - t := by
          rw [← hXlen, hX]
          simp
        have hXcs : ∀ d, d ∈ (cs.drop t).take (v - t) → d ≠ '-' := fun d hd =>
          hcs d (List.mem_of_mem_drop (List.mem_of_mem_take hd))
        have hrow : rowFrom (bb + t) (cs.drop t) =
            rowFrom (bb + t) X0 ++ (bb + v - 1, c) :: rowFrom (bb + v) (cs.drop v) := by
          rw [hsplit, hX, rowFrom_append, rowFrom_append, List.length_append,
            List.length_singleton]
          have a1 : bb + (t : Int) + (X0.length : Int) = bb + v - 1 := by omega
          have a2 : bb + (t : Int) + ((X0.length + 1 : Nat) : Int) = bb + v := by omega
          rw [a2, a1, List.append_assoc]
          rfl
        have e1 : P ++ (G ++ rowFrom (bb + t) (cs.drop t)) =
            (P ++ (G ++ rowFrom (bb + t) X0)) ++
              (bb + v - 1, c) :: rowFrom (bb + v) (cs.drop v) := by
          rw [hrow]
          simp
        rw [e1] at hst
        obtain ⟨hs2, hn2, hf2⟩ := AppendGapBead_strand hst ha
        have hmap : (P ++ (G ++ (rowFrom (bb + t) X0 ++ [(bb + (v : Int) - 1, c)]))).map Prod.snd =
            P.map Prod.snd ++ (G.map Prod.snd ++ (cs.drop t).take (v - t)) := by
          rw [hX]
          simp only [List.map_append, List.map_cons, List.map_nil, rowFrom_snd]
        obtain ⟨g1, g2, g3⟩ := @gaps_spec (cs.length : Int) (G.map Prod.snd) (0 + (t : Int))
          (fun d hd => by
            obtain ⟨p, hp, e⟩ := List.mem_map.1 hd
            rw [← e]
            exact hG p hp)
        obtain ⟨b1, b2, b3⟩ := @bases_spec (cs.length : Int) ((cs.drop t).take (v - t))
          (0 + (t : Int) + (0 : Nat)) hXcs
        refine hfin hs2 hn2 hf2 fun hs1 =>
          ⟨P ++ (G ++ (rowFrom (bb + t) X0 ++ [(bb + (v : Int) - 1, c)])), [(g, '-')],
            ?_, ?_, ?_, ?_, ?_, fun _ => ⟨P ++ (G ++ rowFrom (bb + t) X0), c, by simp⟩, hvb, ?_⟩
        · have e2 : (P ++ (G ++ (rowFrom (bb + t) X0 ++ [(bb + (v : Int) - 1, c)]))) ++
              ([(g, '-')] ++ rowFrom (bb + v) (cs.drop v)) =
              (P ++ (G ++ rowFrom (bb + t) X0)) ++
                (bb + v - 1, c) :: (g, '-') :: rowFrom (bb + v) (cs.drop v) := by
            simp
          rw [e2]
          exact hs1
        · rw [hmap]
          refine InRange_append _ _ _ hin ?_
          rw [hng]
          refine InRange_append _ _ _ (g3 (by omega)) ?_
          rw [g2]
          refine b3 ?_
          rw [hXlen]
          push_cast
          omega
        · rw [hmap, nonGaps_append, nonGaps_append, hng, g2, b2, hXlen]
          omega
        · intro p hp
          rw [List.mem_singleton.1 hp]
        · rw [hmap, gapIndexes_append, gapIndexes_append, hng, g1, g2, b1, hD]
          simp
        · simp only [List.length_append, List.length_singleton, rowFrom_length,
            List.length_cons, List.length_nil]
          omega

theorem impTrace_laid {bb : Int} {cs : List Char} (hcs : ∀ c, c ∈ cs → c ≠ '-')
    (rest : List Int) : ∀ (ts : List Int) (st : Store) (apos : Int) (t : Nat) (D : List Int)
    (st1 : Store) (apos1 bpos1 : Int),
    (∀ u, u ∈ ts → 1 ≤ u ∧ (t : Int) ≤ u ∧ u ≤ (cs.length : Int) - 1) →
    ts.Pairwise (fun x y => x ≤ y) → Laid bb cs st t D →
    impTrace bb (ts ++ 0 :: rest) st apos t = some (st1, apos1, bpos1) →
    ∃ t1 : Nat, Laid bb cs st1 t1 (D ++ ts) ∧ bpos1 = t1 ∧
      st1.beadStore.length = st.beadStore.length + ts.length ∧
      st1.fragmentStore = st.fragmentStore := by
  intro ts
  induction ts with
  | nil =>
    intro st apos t D st1 apos1 bpos1 _ _ hl h
    simp only [List.nil_append, impTrace, if_pos, Option.some.injEq, Prod.mk.injEq] at h
    obtain ⟨rfl, -, rfl⟩ := h
    exact ⟨t, by simpa using hl, rfl, by simp, rfl⟩
  | cons u ts ih =>
    intro st apos t D st1 apos1 bpos1 hts hsort hl h
    obtain ⟨hu1, htu, hub⟩ := hts u (List.mem_cons_self _ _)
    have hu0 : u ≠ 0 := by omega
    rw [List.cons_append] at h
    unfold impTrace at h
    rw [if_neg hu0] at h
    cases ha : impAlign bb (u - t).toNat st apos t with
    | none =>
      rw [ha] at h
      cases h
    | some q =>
      obtain ⟨sa, aposa, bposa⟩ := q
      simp only [ha] at h
      obtain ⟨hk, -, hbp⟩ := impAlign_keep bb _ _ _ _ _ _ _ ha
      have hv : bposa = ((u.toNat : Nat) : Int) := by
        rw [hbp]
        omega
      cases hg : impGap bb sa aposa bposa with
      | none =>
        rw [hg] at h
        cases h
      | some q2 =>
        obtain ⟨s2, r2⟩ := q2
        simp only [hg] at h
        rw [hv] at hg h
        obtain ⟨hl2, hn2, hf2⟩ := impGap_laid hcs (hl.keep_l hk) (by omega) (by omega)
          (by omega) hg
        have hcast : ((u.toNat : Nat) : Int) = u := by omega
        obtain ⟨t1, h1, h2, h3, h4⟩ := ih s2 (aposa + 1) u.toNat (D ++ [((u.toNat : Nat) : Int)])
          st1 apos1 bpos1
          (fun w hw => by
            obtain ⟨w1, -, w3⟩ := hts w (List.mem_cons_of_mem _ hw)
            have := (List.pairwise_cons.1 hsort).1 w hw
            exact ⟨w1, by omega, w3⟩)
          (List.pairwise_cons.1 hsort).2 hl2 h
        refine ⟨t1, ?_, h2, ?_, ?_⟩
        · rw [hcast, List.append_assoc] at h1
          exact h1
        · rw [h3, hn2, hk.2.length_b, List.length_cons]
          omega
        · rw [h4, hf2, hk.1.1.1]

theorem beadChars_rowFrom {st : Store} : ∀ (cs : List Char) (bb : Int),
    beadChars st (idsFrom bb cs.length) = some cs →
    ∀ p, p ∈ rowFrom bb cs → beadChar st p.1 = some p.2 := by
  intro cs
  induction cs with
  | nil => intro bb _ p hp; cases hp
  | cons c cs ih =>
    intro bb h p hp
    rw [List.length_cons, idsFrom_succ] at h
    obtain ⟨y, ys, h1, h2, h3⟩ := mapM_cons_some h
    cases h3
    rcases List.mem_cons.1 hp with e | e
    · rw [e]
      exact h1
    · exact ih (bb + 1) h2 p e

/-- C36 (amended): let the bead chain of fragment B be its own `blen` beads
in order, each recording its own offset, and let them read the characters
`cs`, none of them the gap character, with `blen >= 1`.  Let the entries `ts`
of the trace before its terminating 0 be non-decreasing and in
`[1, blen - 1]`.  When `ApplyIMPAlignment(afid, bfid, ahang, trace)` returns,
it returns `blen`, and `GetFragmentDeltas(bfid, deltas, blen)` on the store it
leaves returns, with exactly the entries `ts` added to `deltas`, in order. -/
theorem impAlignment_deltas (st st1 : Store) (afid bfid ahang r : Int) (bfrag : Fragment)
    (cs : List Char) (ts rest : List Int)
    (hf : GetFragment st bfid = some bfrag) (hlen : bfrag.length = cs.length) (hne : cs ≠ [])
    (hchain : chainFrom st (cs.length + 1) bfrag.beads = some (idsFrom bfrag.beads cs.length))
    (hchars : beadChars st (idsFrom bfrag.beads cs.length) = some cs)
    (hoff : ∀ j, j ∈ idsFrom bfrag.beads cs.length → (GetBead st j).map Bead.boffset = some j)
    (hcs : ∀ c, c ∈ cs → c ≠ '-')
    (hts : ∀ t, t ∈ ts → 1 ≤ t ∧ t ≤ bfrag.length - 1)
    (hsort : ts.Pairwise (fun x y => x ≤ y))
    (h : ApplyIMPAlignment st afid bfid ahang (ts ++ 0 :: rest) = some (st1, r)) :
    r = bfrag.length ∧
      ∀ deltas, GetFragmentDeltas st1 bfid deltas bfrag.length = some (deltas ++ ts) := by
  have hpos : 0 < cs.length := List.length_pos.2 hne
  have hrowS : Strand st bfrag.beads (rowFrom bfrag.beads cs) := by
    refine ⟨?_, fun p hp => ⟨?_, beadChars_rowFrom cs _ hchars p hp⟩⟩
    · rw [rowFrom_fst]
      exact chainFrom_Fwd _ _ _ hchain
    · refine hoff p.1 ?_
      rw [← rowFrom_fst]
      exact List.mem_map_of_mem _ hp
  have hl0 : Laid bfrag.beads cs st 0 [] := by
    refine ⟨[], [], ?_, trivial, rfl, fun p hp => (by cases hp), rfl,
      fun h0 => (by omega), hpos, rfl⟩
    simpa using hrowS
  have hbase : bfrag.beads + (cs.length : Int) ≤ st.beadStore.length ∧ 0 ≤ bfrag.beads := by
    have hmem : (bfrag.beads + ((cs.length - 1 : Nat) : Int), cs.getLast hne) ∈
        rowFrom bfrag.beads cs := by
      have e := rowFrom_append cs.dropLast [cs.getLast hne] bfrag.beads
      rw [List.dropLast_append_getLast hne] at e
      rw [e]
      refine List.mem_append_right _ ?_
      rw [List.length_dropLast]
      exact List.mem_cons_self _ _
    have hmem0 : (bfrag.beads, cs.head hne) ∈ rowFrom bfrag.beads cs := by
      cases cs with
      | nil => exact absurd rfl hne
      | cons c cs => exact List.mem_cons_self _ _
    obtain ⟨b, hb, -, -⟩ := (hrowS.2 _ hmem).bead
    obtain ⟨b0, hb0, -, -⟩ := (hrowS.2 _ hmem0).bead
    have r1 := GetBead_some_range hb
    have r0 := GetBead_some_range hb0
    constructor
    · have : bfrag.beads + ((cs.length - 1 : Nat) : Int) < st.beadStore.length := r1.2
      omega
    · exact r0.1
  unfold ApplyIMPAlignment at h
  simp only [Option.bind_eq_bind, Option.bind_eq_some, hf, Option.some.injEq, Option.pure_def,
    Prod.mk.injEq, Prod.exists, exists_eq_left] at h
  obtain ⟨afrag, -, bf, hbf, sa, aposa, bposa, htr, sb, aposb, bposb, hal, afrag2, -, sc, hmod,
    e1, e2⟩ := h
  subst hbf
  subst e1
  have hts' : ∀ u, u ∈ ts → 1 ≤ u ∧ ((0 : Nat) : Int) ≤ u ∧ u ≤ (cs.length : Int) - 1 := by
    intro u hu
    obtain ⟨u1, u2⟩ := hts u hu
    exact ⟨u1, by omega, by omega⟩
  obtain ⟨t1, hl1, hb1, hn1, hf1⟩ := impTrace_laid hcs rest ts st _ 0 [] sa aposa bposa hts'
    hsort hl0 (by simpa using htr)
  obtain ⟨hk, -, hbp⟩ := impAlign_keep _ _ _ _ _ _ _ _ hal
  have hl2 := hl1.keep_l hk
  obtain ⟨P, G, hst, hin, hng, hG, hD, -, htl, hlenPG⟩ := hl2
  have hfb : GetFragment sb bfid = some bfrag := by
    unfold GetFragment at hf ⊢
    rw [hk.1.1.1, hf1]
    exact hf
  have hmod' := hmod
  unfold modFragment at hmod'
  rw [hfb] at hmod'
  simp only [Option.some.injEq] at hmod'
  have hbeads : sc.beadStore = sb.beadStore := by rw [← hmod']
  have hseq : sc.sequenceStore = sb.sequenceStore := by rw [← hmod']
  have hfc : GetFragment sc bfid = some { bfrag with manode := afrag2.manode } := by
    obtain ⟨s, hs1, -, -, -, -, -, hs2, -⟩ :=
      modFragment_run (fun f => { f with manode := afrag2.manode }) hfb
    rw [hmod] at hs1
    cases hs1
    exact hs2
  have hstc : Strand sc bfrag.beads (P ++ (G ++ rowFrom (bfrag.beads + t1) (cs.drop t1))) := by
    refine ⟨Fwd_congr _ _ (fun j _ => by unfold nextOf GetBead; rw [hbeads]) hst.1, fun p hp => ?_⟩
    obtain ⟨o1, o2⟩ := hst.2 p hp
    refine ⟨by unfold GetBead at o1 ⊢; rw [hbeads]; exact o1, ?_⟩
    unfold beadChar GetBead GetBase at o2 ⊢
    rw [hbeads, hseq]
    exact o2
  have hScs : ∀ d, d ∈ cs.drop t1 → d ≠ '-' := fun d hd => hcs d (List.mem_of_mem_drop hd)
  obtain ⟨g1, g2, g3⟩ := @gaps_spec (cs.length : Int) (G.map Prod.snd) (0 + (t1 : Int))
    (fun d hd => by
      obtain ⟨p, hp, e⟩ := List.mem_map.1 hd
      rw [← e]
      exact hG p hp)
  obtain ⟨b1, b2, b3⟩ := @bases_spec (cs.length : Int) (cs.drop t1)
    (0 + (t1 : Int) + (0 : Nat)) hScs
  have hmap : (P ++ (G ++ rowFrom (bfrag.beads + t1) (cs.drop t1))).map Prod.snd =
      P.map Prod.snd ++ (G.map Prod.snd ++ cs.drop t1) := by
    simp only [List.map_append, rowFrom_snd]
  constructor
  · rw [← e2, hbp, hb1, hlen]
    omega
  · intro deltas
    unfold GetFragmentDeltas
    rw [hfc]
    simp only
    rw [hlen, deltaLoop_strand _ _ _ _ _ hstc]
    · have hD1 : ts = gapIndexes (P.map Prod.snd) 0 ++ List.replicate G.length (t1 : Int) := by
        simpa using hD
      rw [hmap, gapIndexes_append, gapIndexes_append, hng, g1, g2, b1]
      rw [hD1]
      simp
    · rw [hmap]
      refine InRange_append _ _ _ hin ?_
      rw [hng]
      refine InRange_append _ _ _ (g3 (by omega)) ?_
      rw [g2]
      refine b3 ?_
      rw [List.length_drop]
      push_cast
      omega
    · rw [hbeads, hk.2.length_b, hn1]
      simp only [List.length_append, rowFrom_length, List.length_drop]
      have : P.length + G.length = t1 + ts.length := by
        simpa using hlenPG
      omega

theorem impAlignment_deltas_witness :
    ∃ st1 r, ApplyIMPAlignment storeImp 0 1 1 ([2, 2] ++ 0 :: []) = some (st1, r) ∧ r = 3 ∧
      ∀ deltas, GetFragmentDeltas st1 1 deltas 3 = some (deltas ++ [2, 2]) := by
  have hf : GetFragment storeImp 1 = some
      { lid := 1, iid := 1, type := 'R', utype := 'X', complement := 0, contained := 0,
        deleted := 0, manode := -1, sequence := 7, quality := 7, beads := 6, length := 3 } := by
    decide!
  have hrun : (ApplyIMPAlignment storeImp 0 1 1 ([2, 2] ++ 0 :: [])).isSome = true := by decide!
  obtain ⟨q, hq⟩ := Option.isSome_iff_exists.1 hrun
  obtain ⟨st1, r⟩ := q
  exact ⟨st1, r, hq, impAlignment_deltas storeImp st1 0 1 1 r _ ['C', 'G', 'T'] [2, 2] [] hf
    (by decide) (by decide) (by decide!) (by decide!) (by decide!) (by decide) (by decide)
    (by decide) hq⟩

/-- C36 (as stated) fails: the read `C-T` (length 3) is laid on the read
`ACGTAC` from its second bead on.  With the trace `2, 0`,
`ApplyIMPAlignment` returns 3 and `GetFragmentDeltas` then adds the deltas
`1, 1`, not `2`; with the empty trace `0` it adds the delta `1`. -/
theorem gapped_read_deltas :
    impOutcome ['A', 'C', 'G', 'T', 'A', 'C'] ['C', '-', 'T'] 1 [2, 0] [] 3 = some (3, [1, 1]) ∧
      impOutcome ['A', 'C', 'G', 'T', 'A', 'C'] ['C', '-', 'T'] 1 [0] [] 3 = some (3, [1]) := by
  decide!

theorem countIndex_gap (c : Char) : countIndex c = 0 ↔ c = '-' := by
  unfold countIndex BaseToInt RINDEX
  by_cases h1 : c = 'N' ∨ c = 'n'
  · rw [if_pos h1]
    rcases h1 with h | h <;> subst h <;> decide
  · rw [if_neg h1]
    by_cases h2 : c ∈ RALPHABET
    · rw [if_pos h2]
      simp only [RALPHABET, List.mem_cons, List.mem_singleton, List.not_mem_nil, or_false] at h2
      rcases h2 with h | h | h | h | h | h <;> subst h <;> decide
    · rw [if_neg h2]
      constructor
      · intro h
        omega
      · intro h
        subst h
        exact absurd (by decide) h2

theorem Tally.gaps {st : Store} {bc : BaseCount} {l : List Int} (h : Tally st bc l) :
    0 ≤ GetBaseCount bc '-' ∧ GetBaseCount bc '-' ≤ bc.depth ∧
      (bc.depth = GetBaseCount bc '-' → ∀ b, b ∈ l → beadChar st b = some '-') ∧
      (bc.depth ≠ GetBaseCount bc '-' → ∃ b, b ∈ l ∧ beadChar st b ≠ some '-') := by
  obtain ⟨hd, -, -, hc⟩ := h
  have hg : GetBaseCount bc '-' = tallyOf st l 0 := by
    unfold GetBaseCount
    have e : countIndex '-' = 0 := by decide
    rw [e, hc 0 (by omega) (by omega)]
    rfl
  have hp : ∀ b, ((beadChar st b).map countIndex == some 0) = true ↔ beadChar st b = some '-' := by
    intro b
    cases hb : beadChar st b with
    | none => simp
    | some c =>
      simp only [Option.map_some', beq_iff_eq, Option.some.injEq]
      exact countIndex_gap c
  have hle := List.countP_le_length (fun b => (beadChar st b).map countIndex == some 0) (l := l)
  rw [hg, hd]
  unfold tallyOf
  refine ⟨Int.natCast_nonneg _, by exact_mod_cast hle, ?_, ?_⟩
  · intro e b hb
    have e' : l.countP (fun b => (beadChar st b).map countIndex == some 0) = l.length := by
      exact_mod_cast e.symm
    exact (hp b).1 (List.countP_eq_length.1 e' b hb)
  · intro e
    by_contra hne
    apply e
    have : l.countP (fun b => (beadChar st b).map countIndex == some 0) = l.length := by
      rw [List.countP_eq_length]
      intro b hb
      rw [hp b]
      by_contra hc'
      exact hne ⟨b, hb, hc'⟩
    exact_mod_cast this.symm

end CNS
